import Mathlib

/-! Boot-time bitmap allocator (`mm/bootmem.c`), memory pools (`mm/mempool.c`) and
permanent kernel mappings (`mm/highmem.c`): embedding and verified properties.

The development embeds the bitmap allocator of `mm/bootmem.c`, the element pools
of `mm/mempool.c` and the mapping slots of `mm/highmem.c`.

* `unsigned long` values are natural numbers; where the C arithmetic can wrap,
  the wrap is written out with `ulong` (reduction modulo `2 ^ BITS_PER_LONG`).
  The word size `sizeof_long` (`sizeof(long)`, in bytes) is a parameter of every
  definition that depends on it.  `int` values are integers, reduced into the
  range of `int` by `to_int`.
* A bitmap is the sequence of machine words behind `node_bootmem_map`; a NULL
  pointer is `none`.  Touching a word outside that storage is `Result.fault`.
* Routines that can end in `BUG()` return a `Result`.
* The global `bdata_list` is a `List bootmem_data` passed explicitly.
* Pools and mapping slots are modelled in a sequential run: the state is passed
  explicitly, the answers of the environment (`alloc_fn`, `kmalloc`) are inputs,
  and a task that would sleep for ever has no result.
-/

namespace Bootmem

/-! ## Outcomes -/

/-- Outcome of a kernel routine: a normal return carrying the new state or value,
the fatal `BUG()` trap, or a memory access outside the bitmap storage (which
includes any access through a NULL bitmap pointer). -/
inductive Result (α : Type) where
  | ok : α → Result α
  | bug : Result α
  | fault : Result α
deriving DecidableEq

/-! ## Machine words -/

/-- Modelled from the spec: `BITS_PER_LONG` (asm/types.h, not in src) is the bit
width of the machine word, eight bits for each of the `sizeof(long)` bytes. -/
def BITS_PER_LONG (sizeof_long : Nat) : Nat := 8 * sizeof_long

/-- Modelled from the spec: `ULONG_MAX` (linux/kernel.h, not in src), the
all-ones machine word. -/
def ULONG_MAX (sizeof_long : Nat) : Nat := 2 ^ BITS_PER_LONG sizeof_long - 1

/-- Truncation of an arithmetic result to `unsigned long`. -/
def ulong (sizeof_long x : Nat) : Nat := x % 2 ^ BITS_PER_LONG sizeof_long

/-- Modelled from the spec: the macro `ALIGN(x, a)` (linux/kernel.h, not in src)
rounds `x` up to the alignment `a`; it is `(x + mask) & ~mask` with
`mask = a - 1`, computed in `unsigned long`. -/
def ALIGN (sizeof_long x a : Nat) : Nat :=
  let mask := ulong sizeof_long (a + ULONG_MAX sizeof_long)
  ulong sizeof_long (x + mask) &&& (ULONG_MAX sizeof_long - mask)

/-- Function `bootmap_bytes` (mm/bootmem.c:69): bytes of bitmap for `pages` page frames. -/
def bootmap_bytes (sizeof_long pages : Nat) : Nat :=
  let bytes := ulong sizeof_long (pages + 7) / 8
  ALIGN sizeof_long bytes sizeof_long

/-! ## Bitmaps -/

/-- Modelled from the spec: the bitmap type (the memory behind
`node_bootmem_map`; linux/bootmem.h is not in src) is an ordered sequence of
machine words, bit `i` living in word `i / BITS_PER_LONG`. -/
abbrev Bitmap := List Nat

/-- Modelled from the spec: `BIT_WORD(nr)` (linux/bitops.h, not in src), the
index of the word holding bit `nr`. -/
def BIT_WORD (sizeof_long nr : Nat) : Nat := nr / BITS_PER_LONG sizeof_long

/-- Modelled from the spec: `BIT_MASK(nr)` (linux/bitops.h, not in src), the
single-bit mask of bit `nr` inside its word. -/
def BIT_MASK (sizeof_long nr : Nat) : Nat := 1 <<< (nr % BITS_PER_LONG sizeof_long)

/-- Modelled from the spec: `test_bit(nr, addr)` (asm/bitops.h, not in src)
reads bit `nr`.  The spec makes an out-of-range access fatal; here the range is
the bitmap storage in whole words, so the padding bits of the last word are
addressable and any index past the last word, or any index of a NULL bitmap, is
`Result.fault`. -/
def test_bit (sizeof_long nr : Nat) (addr : Option Bitmap) : Result Bool :=
  match addr with
  | none => Result.fault
  | some map =>
    match map[BIT_WORD sizeof_long nr]? with
    | none => Result.fault
    | some w => Result.ok ((w &&& BIT_MASK sizeof_long nr) != 0)

/-- Modelled from the spec: `test_and_set_bit(nr, addr)` (asm/bitops.h, not in
src) sets bit `nr` and returns its old value together with the new bitmap; an
index outside the bitmap is an out-of-range access. -/
def test_and_set_bit (sizeof_long nr : Nat) (addr : Option Bitmap) :
    Result (Bool × Bitmap) :=
  match addr with
  | none => Result.fault
  | some map =>
    match map[BIT_WORD sizeof_long nr]? with
    | none => Result.fault
    | some w =>
      Result.ok ((w &&& BIT_MASK sizeof_long nr) != 0,
        map.set (BIT_WORD sizeof_long nr) (w ||| BIT_MASK sizeof_long nr))

/-- Modelled from the spec: `test_and_clear_bit(nr, addr)` (asm/bitops.h, not in
src) clears bit `nr` (`word & ~mask`) and returns its old value together with
the new bitmap; an index outside the bitmap is an out-of-range access. -/
def test_and_clear_bit (sizeof_long nr : Nat) (addr : Option Bitmap) :
    Result (Bool × Bitmap) :=
  match addr with
  | none => Result.fault
  | some map =>
    match map[BIT_WORD sizeof_long nr]? with
    | none => Result.fault
    | some w =>
      Result.ok ((w &&& BIT_MASK sizeof_long nr) != 0,
        map.set (BIT_WORD sizeof_long nr)
          (w &&& (ULONG_MAX sizeof_long - BIT_MASK sizeof_long nr)))

/-- The word made of `n` bytes that all equal `c`. -/
def fill_word (c : Nat) : Nat → Nat
  | 0 => 0
  | n + 1 => c % 256 + 256 * fill_word c n

/-- Modelled from the spec: `memset(map, c, n)` (lib/string.c, not in src) over
bitmap storage of `n` bytes, `n` a whole number of words: every word of the
storage has all its bytes equal to `c`. -/
def memset (sizeof_long c n : Nat) : Bitmap :=
  List.replicate (n / sizeof_long) (fill_word c sizeof_long)

/-! ## Regions and the registry -/

/-- Modelled from the spec: `bootmem_data_t` (linux/bootmem.h, not in src), the
per-node region: frame bounds, bitmap pointer, last allocation end offset and
search hint.  The `list` linkage is the position in `bdata_list`. -/
structure bootmem_data where
  node_min_pfn : Nat
  node_low_pfn : Nat
  node_bootmem_map : Option Bitmap
  last_end_off : Nat
  hint_idx : Nat
deriving DecidableEq

/-- Modelled from the spec: `BOOTMEM_EXCLUSIVE` (linux/bootmem.h, not in src),
the flag bit asking for an exclusive reservation.  Flag words are bit sets and
are taken as natural numbers. -/
def BOOTMEM_EXCLUSIVE : Nat := 1

/-- Modelled from the spec: `EBUSY` (asm-generic/errno-base.h, not in src), the
errno reported as `Conflict`. -/
def EBUSY : Int := 16

/-- Function `link_bootmem` (mm/bootmem.c:90): walk `bdata_list` to the first entry whose
`node_min_pfn` is above the new region's and insert the region before it
(`list_add_tail` on the iterator); at the end of the list, append. -/
def link_bootmem (bdata : bootmem_data) : List bootmem_data → List bootmem_data
  | [] => [bdata]
  | ent :: rest =>
    if bdata.node_min_pfn < ent.node_min_pfn then bdata :: ent :: rest
    else ent :: link_bootmem bdata rest

/-- Function `init_bootmem_core` (mm/bootmem.c:108).  `validate` stands for
`mminit_validate_memmodel_limits` (mm/sparse.c or the empty inline of
mm/internal.h, neither in src), which may clamp `start` and `end`.  The bitmap
is the `mapsize` bytes that `memset` fills; where it lives (`mapstart`) is not
part of the region state.  Returns the map size, the initialised region and the
new `bdata_list`. -/
def init_bootmem_core (sizeof_long : Nat) (validate : Nat → Nat → Nat × Nat)
    (bdata_list : List bootmem_data) (bdata : bootmem_data)
    (_mapstart start end_ : Nat) : Nat × bootmem_data × List bootmem_data :=
  let start' := (validate start end_).1
  let end' := (validate start end_).2
  let mapsize := bootmap_bytes sizeof_long
    (ulong sizeof_long (end' + 2 ^ BITS_PER_LONG sizeof_long - start'))
  let bdata' : bootmem_data :=
    { bdata with
      node_bootmem_map := some (memset sizeof_long 0xff mapsize)
      node_min_pfn := start'
      node_low_pfn := end' }
  (mapsize, bdata', link_bootmem bdata' bdata_list)

/-- Function `init_bootmem_node` (mm/bootmem.c:144): register the region `pgdat->bdata`. -/
def init_bootmem_node (sizeof_long : Nat) (validate : Nat → Nat → Nat × Nat)
    (bdata_list : List bootmem_data) (pgdat_bdata : bootmem_data)
    (freepfn startpfn endpfn : Nat) : Nat × bootmem_data × List bootmem_data :=
  init_bootmem_core sizeof_long validate bdata_list pgdat_bdata freepfn startpfn endpfn

/-! ## Range primitives -/

/-- The loop of `__free` (mm/bootmem.c:371): `n` iterations from `idx`, each
clearing one bit and trapping when the bit was already clear. -/
def __free_loop (sizeof_long : Nat) (bdata : bootmem_data) (idx : Nat) :
    Nat → Result bootmem_data
  | 0 => Result.ok bdata
  | n + 1 =>
    match test_and_clear_bit sizeof_long idx bdata.node_bootmem_map with
    | Result.fault => Result.fault
    | Result.bug => Result.bug
    | Result.ok (old, map) =>
      if !old then Result.bug
      else __free_loop sizeof_long { bdata with node_bootmem_map := some map } (idx + 1) n

/-- Function `__free` (mm/bootmem.c:359): pull the hint back to `sidx` when it lies above,
then clear the bits `sidx .. eidx - 1`. -/
def __free (sizeof_long : Nat) (bdata : bootmem_data) (sidx eidx : Nat) :
    Result bootmem_data :=
  let bdata := if bdata.hint_idx > sidx then { bdata with hint_idx := sidx } else bdata
  __free_loop sizeof_long bdata sidx (eidx - sidx)

/-- The loop of `__reserve` (mm/bootmem.c:388): `n` iterations from `idx`, each
setting one bit; on an already set bit an exclusive call frees `sidx .. idx - 1`
again and returns `-EBUSY`. -/
def __reserve_loop (sizeof_long exclusive sidx : Nat) (bdata : bootmem_data) (idx : Nat) :
    Nat → Result (Int × bootmem_data)
  | 0 => Result.ok (0, bdata)
  | n + 1 =>
    match test_and_set_bit sizeof_long idx bdata.node_bootmem_map with
    | Result.fault => Result.fault
    | Result.bug => Result.bug
    | Result.ok (old, map) =>
      let bdata := { bdata with node_bootmem_map := some map }
      if old then
        if exclusive != 0 then
          match __free sizeof_long bdata sidx idx with
          | Result.fault => Result.fault
          | Result.bug => Result.bug
          | Result.ok bdata => Result.ok (-EBUSY, bdata)
        else __reserve_loop sizeof_long exclusive sidx bdata (idx + 1) n
      else __reserve_loop sizeof_long exclusive sidx bdata (idx + 1) n

/-- Function `__reserve` (mm/bootmem.c:376): set the bits `sidx .. eidx - 1`; returns 0, or
`-EBUSY` for an exclusive reservation that met a set bit. -/
def __reserve (sizeof_long : Nat) (bdata : bootmem_data) (sidx eidx flags : Nat) :
    Result (Int × bootmem_data) :=
  let exclusive := flags &&& BOOTMEM_EXCLUSIVE
  __reserve_loop sizeof_long exclusive sidx bdata sidx (eidx - sidx)

/-! ## Page frame arithmetic -/

/-- The difference `a - b` computed in `unsigned long`. -/
def ulong_sub (sizeof_long a b : Nat) : Nat :=
  ulong sizeof_long (a + (2 ^ BITS_PER_LONG sizeof_long - ulong sizeof_long b))

/-- Modelled from the spec: `PAGE_SIZE` (asm/page.h, not in src) is
`1UL << PAGE_SHIFT`, the size in bytes of a page frame; `PAGE_SHIFT` is a
parameter. -/
def PAGE_SIZE (sizeof_long PAGE_SHIFT : Nat) : Nat := ulong sizeof_long (1 <<< PAGE_SHIFT)

/-- Modelled from the spec: `PFN_UP(x)` (linux/pfn.h, not in src), the number of
the first page frame at or above byte address `x`:
`(x + PAGE_SIZE - 1) >> PAGE_SHIFT`. -/
def PFN_UP (sizeof_long PAGE_SHIFT x : Nat) : Nat :=
  ulong sizeof_long (x + (PAGE_SIZE sizeof_long PAGE_SHIFT - 1)) >>> PAGE_SHIFT

/-- Modelled from the spec: `PFN_DOWN(x)` (linux/pfn.h, not in src), the number
of the page frame holding byte address `x`: `x >> PAGE_SHIFT`. -/
def PFN_DOWN (PAGE_SHIFT x : Nat) : Nat := x >>> PAGE_SHIFT

/-- Modelled from the spec: `PFN_PHYS(x)` (linux/pfn.h, not in src), the byte
address of page frame `x`: `x << PAGE_SHIFT`, in `unsigned long`. -/
def PFN_PHYS (sizeof_long PAGE_SHIFT x : Nat) : Nat := ulong sizeof_long (x <<< PAGE_SHIFT)

/-! ## Marking ranges -/

/-- Function `mark_bootmem_node` (mm/bootmem.c:400): trap when the frame range
leaves the region, else reserve or free the bits of `start .. end - 1`. -/
def mark_bootmem_node (sizeof_long : Nat) (bdata : bootmem_data)
    (start end_ reserve flags : Nat) : Result (Int × bootmem_data) :=
  if start < bdata.node_min_pfn then Result.bug
  else if end_ > bdata.node_low_pfn then Result.bug
  else
    let sidx := ulong_sub sizeof_long start bdata.node_min_pfn
    let eidx := ulong_sub sizeof_long end_ bdata.node_min_pfn
    if reserve ≠ 0 then __reserve sizeof_long bdata sidx eidx flags
    else
      match __free sizeof_long bdata sidx eidx with
      | Result.fault => Result.fault
      | Result.bug => Result.bug
      | Result.ok bdata => Result.ok (0, bdata)

/-- The list walk of `mark_bootmem` (mm/bootmem.c:429).  `visited` are the
entries already passed (in their current state), `pos` is the next frame to
mark, and `rollback start pos` stands for the nested call
`mark_bootmem(start, pos, 0, 0)` on the current registry.  Falling off the end
of the list is the final `BUG()`. -/
def mark_bootmem_walk (sizeof_long : Nat)
    (rollback : Nat → Nat → List bootmem_data → Result (Int × List bootmem_data))
    (start end_ reserve flags : Nat) :
    Nat → List bootmem_data → List bootmem_data → Result (Int × List bootmem_data)
  | _, _, [] => Result.bug
  | pos, visited, bdata :: rest =>
    if pos < bdata.node_min_pfn ∨ pos ≥ bdata.node_low_pfn then
      if pos ≠ start then Result.bug
      else mark_bootmem_walk sizeof_long rollback start end_ reserve flags pos
        (visited ++ [bdata]) rest
    else
      let max := min bdata.node_low_pfn end_
      match mark_bootmem_node sizeof_long bdata pos max reserve flags with
      | Result.fault => Result.fault
      | Result.bug => Result.bug
      | Result.ok (err, bdata) =>
        if reserve ≠ 0 ∧ err ≠ 0 then
          match rollback start pos (visited ++ bdata :: rest) with
          | Result.fault => Result.fault
          | Result.bug => Result.bug
          | Result.ok (_, bdata_list) => Result.ok (err, bdata_list)
        else if max = end_ then Result.ok (0, visited ++ bdata :: rest)
        else mark_bootmem_walk sizeof_long rollback start end_ reserve flags
          bdata.node_low_pfn (visited ++ [bdata]) rest

/-- The nested call `mark_bootmem(start, end, 0, 0)`: with `reserve = 0` the
rollback branch of the walk is never taken. -/
def mark_bootmem_nested (sizeof_long start end_ : Nat) (bdata_list : List bootmem_data) :
    Result (Int × List bootmem_data) :=
  mark_bootmem_walk sizeof_long (fun _ _ l => Result.ok (0, l)) start end_ 0 0 start []
    bdata_list

/-- Function `mark_bootmem` (mm/bootmem.c:422): mark the frames `start .. end - 1`
across the regions of `bdata_list` in list order; a failed reservation frees
what the call reserved in earlier regions and returns the error.  Returns the
error code and the new registry. -/
def mark_bootmem (sizeof_long start end_ reserve flags : Nat)
    (bdata_list : List bootmem_data) : Result (Int × List bootmem_data) :=
  mark_bootmem_walk sizeof_long (fun s e l => mark_bootmem_nested sizeof_long s e l)
    start end_ reserve flags start [] bdata_list

/-- Function `free_bootmem_node` (mm/bootmem.c:465): free the whole page frames
inside the byte range on the region `pgdat->bdata`. -/
def free_bootmem_node (sizeof_long PAGE_SHIFT : Nat) (pgdat_bdata : bootmem_data)
    (physaddr size : Nat) : Result (Int × bootmem_data) :=
  let start := PFN_UP sizeof_long PAGE_SHIFT physaddr
  let end_ := PFN_DOWN PAGE_SHIFT (ulong sizeof_long (physaddr + size))
  mark_bootmem_node sizeof_long pgdat_bdata start end_ 0 0

/-- Function `free_bootmem` (mm/bootmem.c:491): free the whole page frames inside
the byte range, across regions. -/
def free_bootmem (sizeof_long PAGE_SHIFT addr size : Nat)
    (bdata_list : List bootmem_data) : Result (Int × List bootmem_data) :=
  let start := PFN_UP sizeof_long PAGE_SHIFT addr
  let end_ := PFN_DOWN PAGE_SHIFT (ulong sizeof_long (addr + size))
  mark_bootmem sizeof_long start end_ 0 0 bdata_list

/-! ## Placement -/

/-- Function `align_idx` (mm/bootmem.c:561): align a bit index so that the frame
number `node_min_pfn + idx` is a multiple of `step`. -/
def align_idx (sizeof_long : Nat) (bdata : bootmem_data) (idx step : Nat) : Nat :=
  let base := bdata.node_min_pfn
  ulong_sub sizeof_long (ALIGN sizeof_long (ulong sizeof_long (base + idx)) step) base

/-- Function `align_off` (mm/bootmem.c:574): the same as `align_idx` for byte
offsets. -/
def align_off (sizeof_long PAGE_SHIFT : Nat) (bdata : bootmem_data) (off align : Nat) : Nat :=
  let base := PFN_PHYS sizeof_long PAGE_SHIFT bdata.node_min_pfn
  ulong_sub sizeof_long (ALIGN sizeof_long (ulong sizeof_long (base + off)) align) base

/-- The scan of `find_next_zero_bit`: `n` bits from `idx`, stopping at the first
clear one; `size` when there is none. -/
def find_next_zero_bit_loop (sizeof_long : Nat) (addr : Option Bitmap) (size : Nat) :
    Nat → Nat → Result Nat
  | _, 0 => Result.ok size
  | idx, n + 1 =>
    match test_bit sizeof_long idx addr with
    | Result.fault => Result.fault
    | Result.bug => Result.bug
    | Result.ok old =>
      if old then find_next_zero_bit_loop sizeof_long addr size (idx + 1) n
      else Result.ok idx

/-- Modelled from the spec: `find_next_zero_bit(addr, size, offset)`
(asm/bitops.h, not in src) returns the lowest index at or above `offset` and
below `size` whose bit is 0, or `size` when there is none. -/
def find_next_zero_bit (sizeof_long : Nat) (addr : Option Bitmap) (size offset : Nat) :
    Result Nat :=
  find_next_zero_bit_loop sizeof_long addr size offset (size - offset)

/-- The loop `for (i = sidx; i < eidx; i++) if (test_bit(i, map))` of
`alloc_bootmem_core` (mm/bootmem.c:644): the first set bit among `n` bits from
`i`, if any. -/
def first_set_bit (sizeof_long : Nat) (addr : Option Bitmap) : Nat → Nat → Result (Option Nat)
  | _, 0 => Result.ok none
  | i, n + 1 =>
    match test_bit sizeof_long i addr with
    | Result.fault => Result.fault
    | Result.bug => Result.bug
    | Result.ok old =>
      if old then Result.ok (some i)
      else first_set_bit sizeof_long addr (i + 1) n

/-- The search of `alloc_bootmem_core` (mm/bootmem.c:632 to 650 and 682 to 688):
rounds of `find_block` from `sidx`, with the one retry from the fallback index.
Returns the index of a free run, or no index when the window has no room.  The
result is `none` when `fuel` rounds do not finish the search. -/
def find_block (sizeof_long PAGE_SHIFT : Nat) (bdata : bootmem_data)
    (midx step size : Nat) : Nat → Nat → Nat → Option (Result (Option Nat))
  | 0, _, _ => none
  | fuel + 1, sidx, fallback =>
    match find_next_zero_bit sizeof_long bdata.node_bootmem_map midx sidx with
    | Result.fault => some Result.fault
    | Result.bug => some Result.bug
    | Result.ok found =>
      let sidx := align_idx sizeof_long bdata found step
      let eidx := ulong sizeof_long (sidx + PFN_UP sizeof_long PAGE_SHIFT size)
      if sidx ≥ midx ∨ eidx > midx then
        if fallback ≠ 0 then
          find_block sizeof_long PAGE_SHIFT bdata midx step size fuel
            (align_idx sizeof_long bdata (fallback - 1) step) 0
        else some (Result.ok none)
      else
        match first_set_bit sizeof_long bdata.node_bootmem_map sidx (eidx - sidx) with
        | Result.fault => some Result.fault
        | Result.bug => some Result.bug
        | Result.ok (some i) =>
          let next := align_idx sizeof_long bdata i step
          let next := if next = i then ulong sizeof_long (next + step) else next
          find_block sizeof_long PAGE_SHIFT bdata midx step size fuel next fallback
        | Result.ok none => some (Result.ok (some sidx))

/-- Modelled from the spec: `memset(region, 0, size)` (lib/string.c, not in src)
on the block of `size` bytes at the physical address `region`
(mm/bootmem.c:673).  The content of memory is not part of the state.  The
memory behind the region is that of its page frames
`[node_min_pfn, node_low_pfn)`; a write to a byte outside them is
`Result.fault`. -/
def memset_zero (PAGE_SHIFT : Nat) (bdata : bootmem_data) (region size : Nat) : Result Unit :=
  if bdata.node_min_pfn * 2 ^ PAGE_SHIFT ≤ region ∧
      region + size ≤ bdata.node_low_pfn * 2 ^ PAGE_SHIFT then Result.ok ()
  else Result.fault

/-- The tail of `alloc_bootmem_core` (mm/bootmem.c:652 to 679) once a free run
starts at `sidx`: choose the start offset (merging with the previous
allocation's partial last page when adjacent), record `last_end_off` and
`hint_idx`, reserve the frames exclusively, clear the block with `memset` and
return its physical address `PFN_PHYS(node_min_pfn) + start_off`. -/
def alloc_commit (sizeof_long PAGE_SHIFT : Nat) (bdata : bootmem_data)
    (size align sidx : Nat) : Result (Option Nat × bootmem_data) :=
  let start_off :=
    if bdata.last_end_off &&& (PAGE_SIZE sizeof_long PAGE_SHIFT - 1) ≠ 0 ∧
        ulong sizeof_long (PFN_DOWN PAGE_SHIFT bdata.last_end_off + 1) = sidx then
      align_off sizeof_long PAGE_SHIFT bdata bdata.last_end_off align
    else PFN_PHYS sizeof_long PAGE_SHIFT sidx
  let merge := if PFN_DOWN PAGE_SHIFT start_off < sidx then 1 else 0
  let end_off := ulong sizeof_long (start_off + size)
  let bdata := { bdata with
    last_end_off := end_off
    hint_idx := PFN_UP sizeof_long PAGE_SHIFT end_off }
  match __reserve sizeof_long bdata (ulong sizeof_long (PFN_DOWN PAGE_SHIFT start_off + merge))
      (PFN_UP sizeof_long PAGE_SHIFT end_off) BOOTMEM_EXCLUSIVE with
  | Result.fault => Result.fault
  | Result.bug => Result.bug
  | Result.ok (err, bdata) =>
    if err ≠ 0 then Result.bug
    else
      let region := ulong sizeof_long
        (PFN_PHYS sizeof_long PAGE_SHIFT bdata.node_min_pfn + start_off)
      match memset_zero PAGE_SHIFT bdata region size with
      | Result.fault => Result.fault
      | Result.bug => Result.bug
      | Result.ok _ => Result.ok (some region, bdata)

/-- Function `alloc_bootmem_core` (mm/bootmem.c:584).  Returns the physical
address of the block (`none` for NULL) and the new region state.  The search
runs for at most `2 * midx + 2` rounds; the outer `none` says that it did not
finish within them. -/
def alloc_bootmem_core (sizeof_long PAGE_SHIFT : Nat) (bdata : bootmem_data)
    (size align goal limit : Nat) : Option (Result (Option Nat × bootmem_data)) :=
  if size = 0 then some Result.bug
  else if align &&& ulong sizeof_long (align + ULONG_MAX sizeof_long) ≠ 0 then some Result.bug
  else if limit ≠ 0 ∧ ulong sizeof_long (goal + size) > limit then some Result.bug
  else if bdata.node_bootmem_map = none then some (Result.ok (none, bdata))
  else
    let min := bdata.node_min_pfn
    let max := bdata.node_low_pfn
    let goal := goal >>> PAGE_SHIFT
    let limit := limit >>> PAGE_SHIFT
    let max := if limit ≠ 0 ∧ max > limit then limit else max
    if max ≤ min then some (Result.ok (none, bdata))
    else
      let step := Nat.max (align >>> PAGE_SHIFT) 1
      let start :=
        if goal ≠ 0 ∧ min < goal ∧ goal < max then ALIGN sizeof_long goal step
        else ALIGN sizeof_long min step
      let sidx := ulong_sub sizeof_long start bdata.node_min_pfn
      let midx := ulong_sub sizeof_long max bdata.node_min_pfn
      let fallback := if bdata.hint_idx > sidx then ulong sizeof_long (sidx + 1) else 0
      let sidx :=
        if bdata.hint_idx > sidx then align_idx sizeof_long bdata bdata.hint_idx step
        else sidx
      match find_block sizeof_long PAGE_SHIFT bdata midx step size (2 * midx + 2)
          sidx fallback with
      | none => none
      | some Result.fault => some Result.fault
      | some Result.bug => some Result.bug
      | some (Result.ok none) => some (Result.ok (none, bdata))
      | some (Result.ok (some sidx)) =>
        some (alloc_commit sizeof_long PAGE_SHIFT bdata size align sidx)

/-- Function `alloc_arch_preferred_bootmem` (mm/bootmem.c:691) during boot: the
slab allocator is not available yet and no architecture hook
(`CONFIG_HAVE_ARCH_BOOTMEM`) is configured, so the result is NULL. -/
def alloc_arch_preferred_bootmem (_bdata : Option bootmem_data)
    (_size _align _goal _limit : Nat) : Option Nat := none

/-- The region loop of `___alloc_bootmem_nopanic` (mm/bootmem.c:748): try the
regions in list order, skipping those below the goal and stopping at the first
one at or above the limit. -/
def alloc_bootmem_regions (sizeof_long PAGE_SHIFT size align goal limit : Nat) :
    List bootmem_data → List bootmem_data →
      Option (Result (Option Nat × List bootmem_data))
  | visited, [] => some (Result.ok (none, visited))
  | visited, bdata :: rest =>
    if goal ≠ 0 ∧ bdata.node_low_pfn ≤ PFN_DOWN PAGE_SHIFT goal then
      alloc_bootmem_regions sizeof_long PAGE_SHIFT size align goal limit
        (visited ++ [bdata]) rest
    else if limit ≠ 0 ∧ bdata.node_min_pfn ≥ PFN_DOWN PAGE_SHIFT limit then
      some (Result.ok (none, visited ++ bdata :: rest))
    else
      match alloc_bootmem_core sizeof_long PAGE_SHIFT bdata size align goal limit with
      | none => none
      | some Result.fault => some Result.fault
      | some Result.bug => some Result.bug
      | some (Result.ok (some region, bdata)) =>
        some (Result.ok (some region, visited ++ bdata :: rest))
      | some (Result.ok (none, bdata)) =>
        alloc_bootmem_regions sizeof_long PAGE_SHIFT size align goal limit
          (visited ++ [bdata]) rest

/-- One pass of `___alloc_bootmem_nopanic` from the label `restart`
(mm/bootmem.c:742 to 757): the architecture hook, then the region loop. -/
def alloc_bootmem_pass (sizeof_long PAGE_SHIFT size align goal limit : Nat)
    (bdata_list : List bootmem_data) : Option (Result (Option Nat × List bootmem_data)) :=
  match alloc_arch_preferred_bootmem none size align goal limit with
  | some region => some (Result.ok (some region, bdata_list))
  | none => alloc_bootmem_regions sizeof_long PAGE_SHIFT size align goal limit [] bdata_list

/-- Function `___alloc_bootmem_nopanic` (mm/bootmem.c:714): one pass with the
goal, and when that finds nothing and the goal is nonzero, a second pass with
`goal = 0`. -/
def ___alloc_bootmem_nopanic (sizeof_long PAGE_SHIFT size align goal limit : Nat)
    (bdata_list : List bootmem_data) : Option (Result (Option Nat × List bootmem_data)) :=
  match alloc_bootmem_pass sizeof_long PAGE_SHIFT size align goal limit bdata_list with
  | some (Result.ok (none, bdata_list)) =>
    if goal ≠ 0 then alloc_bootmem_pass sizeof_long PAGE_SHIFT size align 0 limit bdata_list
    else some (Result.ok (none, bdata_list))
  | r => r

/-- Function `__alloc_bootmem_nopanic` (mm/bootmem.c:781): no limit. -/
def __alloc_bootmem_nopanic (sizeof_long PAGE_SHIFT size align goal : Nat)
    (bdata_list : List bootmem_data) : Option (Result (Option Nat × List bootmem_data)) :=
  ___alloc_bootmem_nopanic sizeof_long PAGE_SHIFT size align goal 0 bdata_list

/-! ## Page-granular marking of byte ranges -/

/-- Function `reserve_bootmem_node` (mm/bootmem.c:518): reserve every page frame
that the byte range touches on the region `pgdat->bdata`. -/
def reserve_bootmem_node (sizeof_long PAGE_SHIFT : Nat) (pgdat_bdata : bootmem_data)
    (physaddr size flags : Nat) : Result (Int × bootmem_data) :=
  let start := PFN_DOWN PAGE_SHIFT physaddr
  let end_ := PFN_UP sizeof_long PAGE_SHIFT (ulong sizeof_long (physaddr + size))
  mark_bootmem_node sizeof_long pgdat_bdata start end_ 1 flags

/-- Function `reserve_bootmem` (mm/bootmem.c:544): reserve every page frame that
the byte range touches, across regions. -/
def reserve_bootmem (sizeof_long PAGE_SHIFT addr size flags : Nat)
    (bdata_list : List bootmem_data) : Result (Int × List bootmem_data) :=
  let start := PFN_DOWN PAGE_SHIFT addr
  let end_ := PFN_UP sizeof_long PAGE_SHIFT (ulong sizeof_long (addr + size))
  mark_bootmem sizeof_long start end_ 1 flags bdata_list

/-! ## Release to the page allocator -/

/-- Modelled from the spec: `PAGE_ALIGN(addr)` (linux/mm.h, not in src) rounds a
byte count up to a page boundary, `ALIGN(addr, PAGE_SIZE)`. -/
def PAGE_ALIGN (sizeof_long PAGE_SHIFT addr : Nat) : Nat :=
  ALIGN sizeof_long addr (PAGE_SIZE sizeof_long PAGE_SHIFT)

/-- Function `bootmem_bootmap_pages` (mm/bootmem.c:80): pages of bitmap for
`pages` page frames. -/
def bootmem_bootmap_pages (sizeof_long PAGE_SHIFT pages : Nat) : Nat :=
  let bytes := bootmap_bytes sizeof_long pages
  PAGE_ALIGN sizeof_long PAGE_SHIFT bytes >>> PAGE_SHIFT

/-- Halving rounds of `ilog2`: the number of times `n` can be halved before it
drops below 2, within `fuel` rounds. -/
def ilog2_loop : Nat → Nat → Nat
  | 0, _ => 0
  | fuel + 1, n => if n ≥ 2 then ilog2_loop fuel (n / 2) + 1 else 0

/-- Modelled from the spec: `ilog2(n)` (linux/log2.h, not in src), the binary
logarithm of `n` rounded down. -/
def ilog2 (n : Nat) : Nat := ilog2_loop n n

/-- Modelled from the spec: one call `__free_pages_bootmem(page, order)`
(mm/page_alloc.c, not in src), which hands the `2 ^ order` page frames starting
at `page` to the page allocator.  A page of the region is named by its frame
number (`pfn_to_page`); a page of the bitmap storage is named by its position
behind `virt_to_page(node_bootmem_map)`. -/
inductive free_pages_call where
  | frame (pfn order : Nat)
  | map_page (n : Nat)
deriving DecidableEq

/-- The loop `while (vec && off < BITS_PER_LONG)` of `free_all_bootmem_core`
(mm/bootmem.c:280): one order-0 release for every set bit of `vec`, lowest bit
first.  The first argument counts the offsets left below `BITS_PER_LONG`.
Returns the calls made, in order, and the new count. -/
def free_all_word_loop (sizeof_long start : Nat) :
    Nat → Nat → Nat → Nat → List free_pages_call × Nat
  | 0, _, _, count => ([], count)
  | n + 1, vec, off, count =>
    if vec = 0 then ([], count)
    else
      let here :=
        if vec &&& 1 ≠ 0 then [free_pages_call.frame (ulong sizeof_long (start + off)) 0]
        else []
      let count := if vec &&& 1 ≠ 0 then ulong sizeof_long (count + 1) else count
      let r := free_all_word_loop sizeof_long start n (vec >>> 1) (off + 1) count
      (here ++ r.1, r.2)

/-- The bitmap walk `while (start < end)` of `free_all_bootmem_core`
(mm/bootmem.c:259 to 293), one bitmap word per round: a word with no reserved
frame is released in bulk when `aligned` is set and the word ends before `end`,
every other word is walked bit by bit.  Returns the calls made, in order, and
the new count; `none` when `fuel` rounds do not reach `end`. -/
def free_all_walk (sizeof_long aligned : Nat) (bdata : bootmem_data) (end_ : Nat) :
    Nat → Nat → Nat → Option (Result (List free_pages_call × Nat))
  | 0, _, _ => none
  | fuel + 1, start, count =>
    if start < end_ then
      let idx := ulong_sub sizeof_long start bdata.node_min_pfn
      match bdata.node_bootmem_map with
      | none => some Result.fault
      | some map =>
        match map[idx / BITS_PER_LONG sizeof_long]? with
        | none => some Result.fault
        | some w =>
          let vec := ULONG_MAX sizeof_long - ulong sizeof_long w
          let r :=
            if aligned ≠ 0 ∧ vec = ULONG_MAX sizeof_long ∧
                ulong sizeof_long (start + BITS_PER_LONG sizeof_long) < end_ then
              ([free_pages_call.frame start (ilog2 (BITS_PER_LONG sizeof_long))],
                ulong sizeof_long (count + BITS_PER_LONG sizeof_long))
            else free_all_word_loop sizeof_long start (BITS_PER_LONG sizeof_long) vec 0 count
          match free_all_walk sizeof_long aligned bdata end_ fuel
              (ulong sizeof_long (start + BITS_PER_LONG sizeof_long)) r.2 with
          | some (Result.ok (calls, count)) => some (Result.ok (r.1 ++ calls, count))
          | other => other
    else some (Result.ok ([], count))

/-- Function `free_all_bootmem_core` (mm/bootmem.c:236): release the free frames
of the region, then the pages of the bitmap itself.  Returns the calls of
`__free_pages_bootmem` in order and the count of pages released.  The walk runs
for at most one round per frame of the region; the outer `none` says that it
did not finish within them. -/
def free_all_bootmem_core (sizeof_long PAGE_SHIFT : Nat) (bdata : bootmem_data) :
    Option (Result (List free_pages_call × Nat)) :=
  if bdata.node_bootmem_map = none then some (Result.ok ([], 0))
  else
    let start := bdata.node_min_pfn
    let end_ := bdata.node_low_pfn
    let aligned := if start &&& (BITS_PER_LONG sizeof_long - 1) = 0 then 1 else 0
    match free_all_walk sizeof_long aligned bdata end_ (end_ - start + 1) start 0 with
    | some (Result.ok (calls, count)) =>
      let pages := ulong_sub sizeof_long bdata.node_low_pfn bdata.node_min_pfn
      let pages := bootmem_bootmap_pages sizeof_long PAGE_SHIFT pages
      let count := ulong sizeof_long (count + pages)
      some (Result.ok (calls ++ (List.range pages).map free_pages_call.map_page, count))
    | other => other

/-- Function `free_all_bootmem_node` (mm/bootmem.c:314): release the region
`pgdat->bdata`.  The call of `register_page_bootmem_info_node`
(mm/memory_hotplug.c, not in src) does not touch the region. -/
def free_all_bootmem_node (sizeof_long PAGE_SHIFT : Nat) (pgdat_bdata : bootmem_data) :
    Option (Result (List free_pages_call × Nat)) :=
  free_all_bootmem_core sizeof_long PAGE_SHIFT pgdat_bdata

/-- The loop of `free_all_bootmem` (mm/bootmem.c:349) over `bdata_list`, adding
the count of every region to `total_pages`. -/
def free_all_bootmem_loop (sizeof_long PAGE_SHIFT : Nat) :
    Nat → List bootmem_data → Option (Result (List free_pages_call × Nat))
  | total_pages, [] => some (Result.ok ([], total_pages))
  | total_pages, bdata :: rest =>
    match free_all_bootmem_core sizeof_long PAGE_SHIFT bdata with
    | some (Result.ok (calls, count)) =>
      match free_all_bootmem_loop sizeof_long PAGE_SHIFT
          (ulong sizeof_long (total_pages + count)) rest with
      | some (Result.ok (more, total)) => some (Result.ok (calls ++ more, total))
      | other => other
    | other => other

/-- Function `free_all_bootmem` (mm/bootmem.c:332): release every region of
`bdata_list`; returns the calls made and the total count. -/
def free_all_bootmem (sizeof_long PAGE_SHIFT : Nat) (bdata_list : List bootmem_data) :
    Option (Result (List free_pages_call × Nat)) :=
  free_all_bootmem_loop sizeof_long PAGE_SHIFT 0 bdata_list

/-! ## Allocation that must succeed -/

/-- Outcome of an allocation that does not return on failure: the address of the
block with the new registry, or the stop in `panic("Out of memory")`. -/
inductive alloc_outcome where
  | mem (region : Nat) (bdata_list : List bootmem_data)
  | out_of_memory
deriving DecidableEq

/-- Function `___alloc_bootmem` (mm/bootmem.c:794): `___alloc_bootmem_nopanic`,
with a panic in place of a NULL result. -/
def ___alloc_bootmem (sizeof_long PAGE_SHIFT size align goal limit : Nat)
    (bdata_list : List bootmem_data) : Option (Result alloc_outcome) :=
  match ___alloc_bootmem_nopanic sizeof_long PAGE_SHIFT size align goal limit bdata_list with
  | none => none
  | some Result.fault => some Result.fault
  | some Result.bug => some Result.bug
  | some (Result.ok (some mem, bdata_list)) =>
    some (Result.ok (alloc_outcome.mem mem bdata_list))
  | some (Result.ok (none, _)) => some (Result.ok alloc_outcome.out_of_memory)

/-- Function `___alloc_bootmem_node` (mm/bootmem.c:838).  The pointer `bdata` is
the position `node` of the region in `bdata_list`; a position outside the
registry is an invalid pointer.  The preferred region is tried first, then the
whole registry through `___alloc_bootmem`. -/
def ___alloc_bootmem_node (sizeof_long PAGE_SHIFT : Nat) (bdata_list : List bootmem_data)
    (node size align goal limit : Nat) : Option (Result alloc_outcome) :=
  match bdata_list[node]? with
  | none => some Result.fault
  | some bdata =>
    match alloc_arch_preferred_bootmem (some bdata) size align goal limit with
    | some ptr => some (Result.ok (alloc_outcome.mem ptr bdata_list))
    | none =>
      match alloc_bootmem_core sizeof_long PAGE_SHIFT bdata size align goal limit with
      | none => none
      | some Result.fault => some Result.fault
      | some Result.bug => some Result.bug
      | some (Result.ok (some ptr, bdata)) =>
        some (Result.ok (alloc_outcome.mem ptr (bdata_list.set node bdata)))
      | some (Result.ok (none, bdata)) =>
        ___alloc_bootmem sizeof_long PAGE_SHIFT size align goal limit
          (bdata_list.set node bdata)

/-! ## Machine integers of type `int` -/

/-- Modelled from the spec: the width in bits of the C type `int`, which is 32 on
every target of the kernel. -/
def INT_BITS : Nat := 32

/-- Conversion of an integer value to `int`: reduction modulo `2 ^ INT_BITS` into
the range of `-2 ^ 31 .. 2 ^ 31 - 1` (the kernel is built with wrapping signed
arithmetic). -/
def to_int (x : Int) : Int :=
  (x + 2 ^ (INT_BITS - 1)) % 2 ^ INT_BITS - 2 ^ (INT_BITS - 1)

/-- Conversion of an `int` to `unsigned long`, as in a comparison with an
`unsigned long` operand: reduction modulo `2 ^ BITS_PER_LONG` (sign
extension). -/
def int_to_ulong (sizeof_long : Nat) (i : Int) : Nat :=
  (i % 2 ^ BITS_PER_LONG sizeof_long).toNat

/-! ## Release without a bitmap (`CONFIG_NO_BOOTMEM`) -/

/-- A loop `for (i = ...; i < bound; i += stride) __free_pages_bootmem(pfn_to_page(i), order)`
of `__free_pages_memory` (mm/bootmem.c:199, 205, 208, 211).  The counter `i` is
an `int`; it is compared with the `unsigned long` bound after conversion to
`unsigned long`, and the page is named by the frame number that `pfn_to_page`
receives.  The first argument bounds the rounds; the result is `none` when they do
not end the loop. -/
def free_pages_loop (sizeof_long order stride bound : Nat) :
    Nat → Int → Option (List free_pages_call)
  | 0, _ => none
  | fuel + 1, i =>
    if int_to_ulong sizeof_long i < bound then
      match free_pages_loop sizeof_long order stride bound fuel (to_int (i + stride)) with
      | some calls => some (free_pages_call.frame (int_to_ulong sizeof_long i) order :: calls)
      | none => none
    else some []

/-- Function `__free_pages_memory` (mm/bootmem.c:189): release the frames
`start .. end - 1`, whole aligned words in one call of order
`ilog2(BITS_PER_LONG)` each and the frames before and after them one by one.
Returns the calls of `__free_pages_bootmem` in order.  An `int` counter takes
`2 ^ INT_BITS` values, so each loop is given one round more than that; `none`
says that a loop does not end. -/
def __free_pages_memory (sizeof_long start end_ : Nat) : Option (List free_pages_call) :=
  let order := ilog2 (BITS_PER_LONG sizeof_long)
  let start_aligned :=
    ulong sizeof_long (start + (BITS_PER_LONG sizeof_long - 1)) &&&
      (ULONG_MAX sizeof_long - (BITS_PER_LONG sizeof_long - 1))
  let end_aligned := end_ &&& (ULONG_MAX sizeof_long - (BITS_PER_LONG sizeof_long - 1))
  if end_aligned ≤ start_aligned then
    free_pages_loop sizeof_long 0 1 end_ (2 ^ INT_BITS + 1) (to_int start)
  else
    match free_pages_loop sizeof_long 0 1 start_aligned (2 ^ INT_BITS + 1) (to_int start) with
    | none => none
    | some head =>
      match free_pages_loop sizeof_long order (BITS_PER_LONG sizeof_long) end_aligned
          (2 ^ INT_BITS + 1) (to_int start_aligned) with
      | none => none
      | some body =>
        match free_pages_loop sizeof_long 0 1 end_ (2 ^ INT_BITS + 1) (to_int end_aligned) with
        | none => none
        | some tail => some (head ++ body ++ tail)

/-- Modelled from the spec: `struct range` (linux/range.h, not in src), a range
of page frames with 64-bit bounds, `end` exclusive. -/
structure range where
  start : Nat
  end_ : Nat
deriving DecidableEq

/-- The loop of `free_all_memory_core_early` (mm/bootmem.c:225) over the ranges:
add `end - start`, computed in 64 bits, to the `unsigned long` count and release
the range.  Returns the calls made and the new count. -/
def free_all_memory_core_early_loop (sizeof_long : Nat) :
    Nat → List range → Option (List free_pages_call × Nat)
  | count, [] => some ([], count)
  | count, r :: rest =>
    let count := ulong sizeof_long (count + (r.end_ + (2 ^ 64 - r.start % 2 ^ 64)) % 2 ^ 64)
    match __free_pages_memory sizeof_long (ulong sizeof_long r.start)
        (ulong sizeof_long r.end_) with
    | none => none
    | some calls =>
      match free_all_memory_core_early_loop sizeof_long count rest with
      | none => none
      | some (more, total) => some (calls ++ more, total)

/-- Function `free_all_memory_core_early` (mm/bootmem.c:215).  The ranges are
those that `get_free_all_memory_range` (mm/page_alloc.c, not in src) reports for
the node.  Returns the calls of `__free_pages_bootmem` and the count. -/
def free_all_memory_core_early (sizeof_long : Nat) (ranges : List range) :
    Option (List free_pages_call × Nat) :=
  free_all_memory_core_early_loop sizeof_long 0 ranges

/-! ## Memory pools (`mm/mempool.c`) -/

/-- The pool descriptor `mempool_t` (include/linux/mempool.h:15) in a sequential
run: the counts `min_nr` and `curr_nr` and the array `elements` of element
pointers (0 is NULL).  The lock and the wait queue have no state in a sequential
run; `pool_data`, `alloc` and `free` are fixed at creation: the results of the
calls of `pool->alloc` are an input of every routine and the elements passed to
`pool->free` are an output. -/
structure mempool_t where
  min_nr : Int
  curr_nr : Int
  elements : List Nat
deriving DecidableEq

/-- Modelled from the spec: `__GFP_WAIT` (linux/gfp.h, not in src), the flag bit
that allows the caller to sleep. -/
def __GFP_WAIT : Nat := 0x10

/-- Modelled from the spec: `ENOMEM` (asm-generic/errno-base.h, not in src). -/
def ENOMEM : Int := 12

/-- Function `add_element` (mm/mempool.c:18): store the element behind the
stored ones.  A store outside the array is `Result.fault`. -/
def add_element (pool : mempool_t) (element : Nat) : Result mempool_t :=
  if pool.curr_nr ≥ pool.min_nr then Result.bug
  else if 0 ≤ pool.curr_nr ∧ pool.curr_nr.toNat < pool.elements.length then
    Result.ok { pool with
      elements := pool.elements.set pool.curr_nr.toNat element
      curr_nr := pool.curr_nr + 1 }
  else Result.fault

/-- Function `remove_element` (mm/mempool.c:24): take the element stored last. -/
def remove_element (pool : mempool_t) : Result (Nat × mempool_t) :=
  if pool.curr_nr ≤ 0 then Result.bug
  else
    match pool.elements[(pool.curr_nr - 1).toNat]? with
    | none => Result.fault
    | some element => Result.ok (element, { pool with curr_nr := pool.curr_nr - 1 })

/-- The loop `while (pool->curr_nr)` of `free_pool` (mm/mempool.c:34), at most
as many rounds as the first argument says.  Returns the elements passed to
`pool->free`, in order. -/
def free_pool_loop : Nat → mempool_t → Result (List Nat)
  | 0, _ => Result.ok []
  | n + 1, pool =>
    if pool.curr_nr ≠ 0 then
      match remove_element pool with
      | Result.fault => Result.fault
      | Result.bug => Result.bug
      | Result.ok (element, pool) =>
        match free_pool_loop n pool with
        | Result.ok freed => Result.ok (element :: freed)
        | other => other
    else Result.ok []

/-- Function `free_pool` (mm/mempool.c:31): pass every stored element to
`pool->free`, then release the array and the descriptor.  The loop ends after
`curr_nr` rounds at the latest. -/
def free_pool (pool : mempool_t) : Result (List Nat) :=
  free_pool_loop (pool.curr_nr.toNat + 1) pool

/-- The loop `while (pool->curr_nr < pool->min_nr)` of `mempool_create_node`
(mm/mempool.c:96), at most as many rounds as the first argument says.  `allocs`
lists the results of the successive calls of `pool->alloc`; calls beyond the list
fail.  Returns the pool (or NULL) and the elements passed to `pool->free`. -/
def mempool_fill : Nat → mempool_t → List Nat → Result (Option mempool_t × List Nat)
  | 0, pool, _ => Result.ok (some pool, [])
  | n + 1, pool, allocs =>
    if pool.curr_nr < pool.min_nr then
      let element := allocs.headD 0
      if element = 0 then
        match free_pool pool with
        | Result.fault => Result.fault
        | Result.bug => Result.bug
        | Result.ok freed => Result.ok (none, freed)
      else
        match add_element pool element with
        | Result.fault => Result.fault
        | Result.bug => Result.bug
        | Result.ok pool => mempool_fill n pool allocs.tail
    else Result.ok (some pool, [])

/-- Function `mempool_create_node` (mm/mempool.c:66).  `pool_mem` and
`elements_mem` say whether the two calls of `kmalloc_node` (mm/slab.c, not in
src) succeed; the descriptor is zeroed and the array has `min_nr` cells, whose
initial content is taken as 0.  The loop ends after `min_nr` rounds at the
latest. -/
def mempool_create_node (min_nr : Int) (pool_mem elements_mem : Bool) (allocs : List Nat)
    (_node_id : Int) : Result (Option mempool_t × List Nat) :=
  if !pool_mem then Result.ok (none, [])
  else if !elements_mem then Result.ok (none, [])
  else
    mempool_fill (min_nr.toNat + 1)
      { min_nr := min_nr, curr_nr := 0, elements := List.replicate min_nr.toNat 0 } allocs

/-- Function `mempool_create` (mm/mempool.c:59). -/
def mempool_create (min_nr : Int) (pool_mem elements_mem : Bool) (allocs : List Nat) :
    Result (Option mempool_t × List Nat) :=
  mempool_create_node min_nr pool_mem elements_mem allocs (-1)

/-- The loop `while (new_min_nr < pool->curr_nr)` of `mempool_resize`
(mm/mempool.c:138), at most as many rounds as the first argument says.  Returns
the pool and the elements passed to `pool->free`. -/
def mempool_shrink (new_min_nr : Int) : Nat → mempool_t → Result (mempool_t × List Nat)
  | 0, pool => Result.ok (pool, [])
  | n + 1, pool =>
    if new_min_nr < pool.curr_nr then
      match remove_element pool with
      | Result.fault => Result.fault
      | Result.bug => Result.bug
      | Result.ok (element, pool) =>
        match mempool_shrink new_min_nr n pool with
        | Result.ok (pool, freed) => Result.ok (pool, element :: freed)
        | other => other
    else Result.ok (pool, [])

/-- The loop `while (pool->curr_nr < pool->min_nr)` of `mempool_resize`
(mm/mempool.c:167), at most as many rounds as the first argument says. -/
def mempool_grow : Nat → mempool_t → List Nat → Result (mempool_t × List Nat)
  | 0, pool, _ => Result.ok (pool, [])
  | n + 1, pool, allocs =>
    if pool.curr_nr < pool.min_nr then
      let element := allocs.headD 0
      if element = 0 then Result.ok (pool, [])
      else if pool.curr_nr < pool.min_nr then
        match add_element pool element with
        | Result.fault => Result.fault
        | Result.bug => Result.bug
        | Result.ok pool => mempool_grow n pool allocs.tail
      else Result.ok (pool, [element])
    else Result.ok (pool, [])

/-- Function `mempool_resize` (mm/mempool.c:128).  `new_mem` says whether
`kmalloc` of the new array succeeds; `memcpy` copies the `curr_nr` stored
elements into the new array of `new_min_nr` cells, and a copy that leaves either
array is `Result.fault`.  Returns the return value, the pool and the elements
passed to `pool->free`. -/
def mempool_resize (pool : mempool_t) (new_min_nr : Int) (new_mem : Bool)
    (allocs : List Nat) : Result (Int × mempool_t × List Nat) :=
  if new_min_nr ≤ 0 then Result.bug
  else if new_min_nr ≤ pool.min_nr then
    match mempool_shrink new_min_nr (pool.curr_nr.toNat + 1) pool with
    | Result.fault => Result.fault
    | Result.bug => Result.bug
    | Result.ok (pool, freed) => Result.ok (0, { pool with min_nr := new_min_nr }, freed)
  else if !new_mem then Result.ok (-ENOMEM, pool, [])
  else if new_min_nr ≤ pool.min_nr then Result.ok (0, pool, [])
  else if pool.curr_nr < 0 ∨ pool.curr_nr.toNat > pool.elements.length ∨
      pool.curr_nr > new_min_nr then Result.fault
  else
    let new_elements := pool.elements.take pool.curr_nr.toNat ++
      List.replicate (new_min_nr.toNat - pool.curr_nr.toNat) 0
    match mempool_grow (new_min_nr.toNat + 1)
        { pool with elements := new_elements, min_nr := new_min_nr } allocs with
    | Result.fault => Result.fault
    | Result.bug => Result.bug
    | Result.ok (pool, freed) => Result.ok (0, pool, freed)

/-- Function `mempool_destroy` (mm/mempool.c:198). -/
def mempool_destroy (pool : mempool_t) : Result (List Nat) :=
  if pool.curr_nr ≠ pool.min_nr then Result.bug
  else free_pool pool

/-- Function `mempool_alloc` (mm/mempool.c:219) in a sequential run.  Every round
from the label `repeat_alloc` calls `pool->alloc` once; `allocs` lists the results
of these calls and calls beyond the list fail.  Returns the element (0 for NULL)
and the pool.  A caller that may sleep on an empty pool waits for an element and
tries again; nothing refills the pool while it waits, so the result is `none`
when the allocator keeps failing. -/
def mempool_alloc (pool : mempool_t) (gfp_mask : Nat) :
    List Nat → Option (Result (Nat × mempool_t))
  | [] =>
    if pool.curr_nr ≠ 0 then
      match remove_element pool with
      | Result.fault => some Result.fault
      | Result.bug => some Result.bug
      | Result.ok (element, pool) => some (Result.ok (element, pool))
    else if gfp_mask &&& __GFP_WAIT = 0 then some (Result.ok (0, pool))
    else none
  | element :: allocs =>
    if element ≠ 0 then some (Result.ok (element, pool))
    else if pool.curr_nr ≠ 0 then
      match remove_element pool with
      | Result.fault => some Result.fault
      | Result.bug => some Result.bug
      | Result.ok (element, pool) => some (Result.ok (element, pool))
    else if gfp_mask &&& __GFP_WAIT = 0 then some (Result.ok (0, pool))
    else mempool_alloc pool gfp_mask allocs

/-- Function `mempool_free` (mm/mempool.c:286): store the element in a pool that
is not full, else pass it to `pool->free`.  Returns the pool and the elements
passed to `pool->free`. -/
def mempool_free (element : Nat) (pool : mempool_t) : Result (mempool_t × List Nat) :=
  if element = 0 then Result.ok (pool, [])
  else if pool.curr_nr < pool.min_nr then
    if pool.curr_nr < pool.min_nr then
      match add_element pool element with
      | Result.fault => Result.fault
      | Result.bug => Result.bug
      | Result.ok pool => Result.ok (pool, [])
    else Result.ok (pool, [element])
  else Result.ok (pool, [element])

/-! ## Permanent kernel mappings (`mm/highmem.c`) -/

/-- The state behind the permanent mappings (mm/highmem.c:61 to 66 and 336 to
345): the counts `pkmap_count`, the cursor `last_pkmap_nr`, the page table
`pkmap_page_table` (an entry holds the page it maps, or nothing), the pages that
have a virtual address, and the number of unused entries in
`page_address_pool`.  `page_address_htable` lists the pairs of a page and its
virtual address in the order they were added: every search of the hash table
compares `pam->page == page`, and the entries of one page lie in one bucket in
that order, so the bucket index (`hash_ptr`, not in src) shows in no result.
Pages are named by numbers. -/
structure kmap_state where
  pkmap_count : List Int
  last_pkmap_nr : Nat
  pkmap_page_table : List (Option Nat)
  page_address_htable : List (Nat × Nat)
  page_address_pool : Nat
deriving DecidableEq

/-- Modelled from the spec: `PKMAP_NR(virt)` (asm/highmem.h, not in src), the
slot of a virtual address in the mapping window:
`(virt - PKMAP_BASE) >> PAGE_SHIFT`. -/
def PKMAP_NR (sizeof_long PKMAP_BASE PAGE_SHIFT virt : Nat) : Nat :=
  ulong_sub sizeof_long virt PKMAP_BASE >>> PAGE_SHIFT

/-- Modelled from the spec: `PKMAP_ADDR(nr)` (asm/highmem.h, not in src), the
virtual address of a slot: `PKMAP_BASE + (nr << PAGE_SHIFT)`. -/
def PKMAP_ADDR (sizeof_long PKMAP_BASE PAGE_SHIFT nr : Nat) : Nat :=
  ulong sizeof_long (PKMAP_BASE + ulong sizeof_long (nr <<< PAGE_SHIFT))

/-- Function `page_address` (mm/highmem.c:359) for a highmem page: the virtual
address recorded for the page, or NULL (0). -/
def page_address (st : kmap_state) (page : Nat) : Nat :=
  match st.page_address_htable.find? (fun pam => pam.1 == page) with
  | some pam => pam.2
  | none => 0

/-- The walk `list_for_each_entry` of `set_page_address` (mm/highmem.c:431) that
unlinks the first entry of the page; returns the list without it, or nothing
when the page has no entry. -/
def page_address_unlink (page : Nat) : List (Nat × Nat) → Option (List (Nat × Nat))
  | [] => none
  | pam :: rest =>
    if pam.1 = page then some rest
    else
      match page_address_unlink page rest with
      | some rest => some (pam :: rest)
      | none => none

/-- Function `set_page_address` (mm/highmem.c:402) for a highmem page: record the
virtual address in an entry taken from the pool, or for NULL give the entry of
the page back to the pool. -/
def set_page_address (st : kmap_state) (page virtual : Nat) : Result kmap_state :=
  if virtual ≠ 0 then
    if st.page_address_pool = 0 then Result.bug
    else Result.ok { st with
      page_address_pool := st.page_address_pool - 1
      page_address_htable := st.page_address_htable ++ [(page, virtual)] }
  else
    match page_address_unlink page st.page_address_htable with
    | some table => Result.ok { st with
        page_address_htable := table
        page_address_pool := st.page_address_pool + 1 }
    | none => Result.ok st

/-- The loop `for (i = 0; i < LAST_PKMAP; i++)` of `flush_all_zero_pkmaps`
(mm/highmem.c:98): `n` rounds from slot `i`.  A slot with count 1 gets count 0,
its page table entry is cleared and its page loses its virtual address.  Returns
the state and `need_flush`. -/
def flush_all_zero_pkmaps_loop : Nat → Nat → kmap_state → Bool → Result (kmap_state × Bool)
  | 0, _, st, need_flush => Result.ok (st, need_flush)
  | n + 1, i, st, need_flush =>
    match st.pkmap_count[i]? with
    | none => Result.fault
    | some c =>
      if c ≠ 1 then flush_all_zero_pkmaps_loop n (i + 1) st need_flush
      else
        let st := { st with pkmap_count := st.pkmap_count.set i 0 }
        match st.pkmap_page_table[i]? with
        | none => Result.fault
        | some none => Result.bug
        | some (some page) =>
          let st := { st with pkmap_page_table := st.pkmap_page_table.set i none }
          match set_page_address st page 0 with
          | Result.fault => Result.fault
          | Result.bug => Result.bug
          | Result.ok st => flush_all_zero_pkmaps_loop n (i + 1) st true

/-- Function `flush_all_zero_pkmaps` (mm/highmem.c:91).  The cache flush
`flush_cache_kmaps` has no effect on the state.  Returns the state and whether
`flush_tlb_kernel_range` was called. -/
def flush_all_zero_pkmaps (LAST_PKMAP : Nat) (st : kmap_state) : Result (kmap_state × Bool) :=
  flush_all_zero_pkmaps_loop LAST_PKMAP 0 st false

/-- Outcome of `map_new_virtual`: the virtual address of the slot it claimed, or
the sleep on `pkmap_map_wait` after a scan that found every slot in use. -/
inductive map_outcome where
  | mapped (vaddr : Nat)
  | sleep
deriving DecidableEq

/-- The scan `for (;;)` of `map_new_virtual` (mm/highmem.c:157 to 172) up to the
`break` or the sleep.  `count` is the `int` counter of the scan and `flushed`
says whether the TLB was flushed so far.  Returns the state, whether a free slot
was found (it is `last_pkmap_nr`), and `flushed`.  The first argument bounds the
rounds; `none` says that they do not end the scan. -/
def map_new_virtual_scan (LAST_PKMAP : Nat) :
    Nat → kmap_state → Int → Bool → Option (Result (kmap_state × Bool × Bool))
  | 0, _, _, _ => none
  | fuel + 1, st, count, flushed =>
    let st := { st with last_pkmap_nr := (st.last_pkmap_nr + 1) &&& (LAST_PKMAP - 1) }
    let r :=
      if st.last_pkmap_nr = 0 then
        match flush_all_zero_pkmaps LAST_PKMAP st with
        | Result.fault => Result.fault
        | Result.bug => Result.bug
        | Result.ok (st, need_flush) => Result.ok (st, (LAST_PKMAP : Int), flushed || need_flush)
      else Result.ok (st, count, flushed)
    match r with
    | Result.fault => some Result.fault
    | Result.bug => some Result.bug
    | Result.ok (st, count, flushed) =>
      match st.pkmap_count[st.last_pkmap_nr]? with
      | none => some Result.fault
      | some c =>
        if c = 0 then some (Result.ok (st, true, flushed))
        else if to_int (count - 1) ≠ 0 then
          map_new_virtual_scan LAST_PKMAP fuel st (to_int (count - 1)) flushed
        else some (Result.ok (st, false, flushed))

/-- Function `map_new_virtual` (mm/highmem.c:145), one run from the label
`start` under `kmap_lock`: scan for a slot with count 0, flushing the slots with
count 1 when the cursor wraps around; map the page in the slot found and give it
count 1, or sleep when every slot is in use.  A task that wakes up takes the
virtual address the page has got in the meantime, or starts again.  Returns the
outcome, the state and whether the TLB was flushed.  The scan ends within
`2 * LAST_PKMAP + 1` rounds. -/
def map_new_virtual (sizeof_long LAST_PKMAP PKMAP_BASE PAGE_SHIFT : Nat) (st : kmap_state)
    (page : Nat) : Option (Result (map_outcome × kmap_state × Bool)) :=
  match map_new_virtual_scan LAST_PKMAP (2 * LAST_PKMAP + 1) st LAST_PKMAP false with
  | none => none
  | some Result.fault => some Result.fault
  | some Result.bug => some Result.bug
  | some (Result.ok (st, false, flushed)) => some (Result.ok (map_outcome.sleep, st, flushed))
  | some (Result.ok (st, true, flushed)) =>
    let vaddr := PKMAP_ADDR sizeof_long PKMAP_BASE PAGE_SHIFT st.last_pkmap_nr
    if st.last_pkmap_nr < st.pkmap_page_table.length ∧
        st.last_pkmap_nr < st.pkmap_count.length then
      let st := { st with
        pkmap_page_table := st.pkmap_page_table.set st.last_pkmap_nr (some page) }
      let st := { st with pkmap_count := st.pkmap_count.set st.last_pkmap_nr 1 }
      match set_page_address st page vaddr with
      | Result.fault => some Result.fault
      | Result.bug => some Result.bug
      | Result.ok st => some (Result.ok (map_outcome.mapped vaddr, st, flushed))
    else some Result.fault

/-- Function `kmap_high` (mm/highmem.c:219), one run under `kmap_lock`: take the
virtual address of the page or map the page anew, and count one more user of the
slot.  The outcome `sleep` is the task asleep inside `map_new_virtual`; when it
wakes up it goes on as a new run does.  Returns the outcome, the state and
whether the TLB was flushed. -/
def kmap_high (sizeof_long LAST_PKMAP PKMAP_BASE PAGE_SHIFT : Nat) (st : kmap_state)
    (page : Nat) : Option (Result (map_outcome × kmap_state × Bool)) :=
  let r :=
    if page_address st page ≠ 0 then
      some (Result.ok (map_outcome.mapped (page_address st page), st, false))
    else map_new_virtual sizeof_long LAST_PKMAP PKMAP_BASE PAGE_SHIFT st page
  match r with
  | some (Result.ok (map_outcome.mapped vaddr, st, flushed)) =>
    let nr := PKMAP_NR sizeof_long PKMAP_BASE PAGE_SHIFT vaddr
    match st.pkmap_count[nr]? with
    | none => some Result.fault
    | some c =>
      let st := { st with pkmap_count := st.pkmap_count.set nr (to_int (c + 1)) }
      if to_int (c + 1) < 2 then some Result.bug
      else some (Result.ok (map_outcome.mapped vaddr, st, flushed))
  | other => other

/-- Function `kunmap_high` (mm/highmem.c:274): count one user less of the slot of
the page; a count that would become 0 is `BUG()`.  The wake-up of sleepers has no
effect on the state. -/
def kunmap_high (sizeof_long PKMAP_BASE PAGE_SHIFT : Nat) (st : kmap_state) (page : Nat) :
    Result kmap_state :=
  let vaddr := page_address st page
  if vaddr = 0 then Result.bug
  else
    let nr := PKMAP_NR sizeof_long PKMAP_BASE PAGE_SHIFT vaddr
    match st.pkmap_count[nr]? with
    | none => Result.fault
    | some c =>
      let st := { st with pkmap_count := st.pkmap_count.set nr (to_int (c - 1)) }
      if to_int (c - 1) = 0 then Result.bug
      else Result.ok st

/-! ## Specification vocabulary -/

/-- The frame ranges `[s1, e1)` and `[s2, e2)` share a frame. -/
def ranges_overlap (s1 e1 s2 e2 : Nat) : Prop := max s1 s2 < min e1 e2

instance (s1 e1 s2 e2 : Nat) : Decidable (ranges_overlap s1 e1 s2 e2) := by
  unfold ranges_overlap; infer_instance

/-- Two regions whose frame ranges `[node_min_pfn, node_low_pfn)` share a frame. -/
def overlaps (a b : bootmem_data) : Prop :=
  ranges_overlap a.node_min_pfn a.node_low_pfn b.node_min_pfn b.node_low_pfn

instance (a b : bootmem_data) : Decidable (overlaps a b) := by
  unfold overlaps; infer_instance

/-- The registry is ordered ascending by `node_min_pfn`. -/
def sorted_by_min_pfn (l : List bootmem_data) : Prop :=
  l.Pairwise (fun a b => a.node_min_pfn ≤ b.node_min_pfn)

instance (l : List bootmem_data) : Decidable (sorted_by_min_pfn l) := by
  unfold sorted_by_min_pfn; infer_instance

/-- No two entries of the registry have overlapping frame ranges. -/
def pairwise_disjoint (l : List bootmem_data) : Prop :=
  l.Pairwise (fun a b => ¬ overlaps a b)

instance (l : List bootmem_data) : Decidable (pairwise_disjoint l) := by
  unfold pairwise_disjoint; infer_instance

/-- Every word of the bitmap is a machine word (at most `ULONG_MAX`); a NULL
bitmap has no words. -/
def words_fit (sizeof_long : Nat) : Option Bitmap → Prop
  | none => True
  | some map => ∀ w ∈ map, w ≤ ULONG_MAX sizeof_long

instance (sizeof_long : Nat) (addr : Option Bitmap) : Decidable (words_fit sizeof_long addr) := by
  cases addr <;> unfold words_fit <;> infer_instance

/-! ## Well-formed regions -/

/-- Number of bits in the storage behind a bitmap pointer; 0 for NULL. -/
def bitmap_bits (sizeof_long : Nat) : Option Bitmap → Nat
  | none => 0
  | some map => BITS_PER_LONG sizeof_long * map.length

/-- A region whose frame numbers are `unsigned long` values and whose bitmap
storage has a bit for every frame of `[node_min_pfn, node_low_pfn)`. -/
def region_covered (sizeof_long : Nat) (bdata : bootmem_data) : Prop :=
  bdata.node_min_pfn ≤ bdata.node_low_pfn ∧
  bdata.node_low_pfn ≤ ULONG_MAX sizeof_long ∧
  bdata.node_low_pfn - bdata.node_min_pfn ≤ bitmap_bits sizeof_long bdata.node_bootmem_map

instance (sizeof_long : Nat) (bdata : bootmem_data) :
    Decidable (region_covered sizeof_long bdata) := by
  unfold region_covered; infer_instance

/-- The two regions read the same at every bit index and agree on their frame
bounds and on `last_end_off`. -/
def same_bits (sizeof_long : Nat) (b' b : bootmem_data) : Prop :=
  (∀ i, test_bit sizeof_long i b'.node_bootmem_map =
    test_bit sizeof_long i b.node_bootmem_map) ∧
  b'.node_min_pfn = b.node_min_pfn ∧ b'.node_low_pfn = b.node_low_pfn ∧
  b'.last_end_off = b.last_end_off

/-- Region `b'` is region `b` with the bit of every frame of `[a, e)` that lies
in the region reading `v`, every other bit as in `b`, and the same frame bounds
and `last_end_off`. -/
def frame_marked (sizeof_long a e : Nat) (v : Bool) (b' b : bootmem_data) : Prop :=
  b'.node_min_pfn = b.node_min_pfn ∧ b'.node_low_pfn = b.node_low_pfn ∧
  b'.last_end_off = b.last_end_off ∧
  ∀ i, test_bit sizeof_long i b'.node_bootmem_map =
    if a ≤ b.node_min_pfn + i ∧ b.node_min_pfn + i < e ∧
        i < b.node_low_pfn - b.node_min_pfn then Result.ok v
    else test_bit sizeof_long i b.node_bootmem_map

/-- A registry of adjacent regions: each region ends where the next one starts,
no region is empty, and every bitmap covers the frames of its region. -/
def adjacent_chain (sizeof_long : Nat) (l : List bootmem_data) : Prop :=
  l.Chain' (fun a b => a.node_low_pfn = b.node_min_pfn) ∧
  ∀ b ∈ l, b.node_min_pfn < b.node_low_pfn ∧ region_covered sizeof_long b

/-- A region that `alloc_bootmem_core` can address: the bitmap covers its frames,
the physical address of its last frame fits in an `unsigned long`, and so does
`last_end_off`. -/
def region_addressable (sizeof_long PAGE_SHIFT : Nat) (bdata : bootmem_data) : Prop :=
  region_covered sizeof_long bdata ∧
  bdata.node_low_pfn * 2 ^ PAGE_SHIFT ≤ ULONG_MAX sizeof_long ∧
  bdata.last_end_off ≤ ULONG_MAX sizeof_long

instance (sizeof_long PAGE_SHIFT : Nat) (bdata : bootmem_data) :
    Decidable (region_addressable sizeof_long PAGE_SHIFT bdata) := by
  unfold region_addressable; infer_instance

/-- Region `b'` is region `bdata` after `size` bytes were placed at the byte
offset `so` from the region start by a search that settled on the bit index `s`
inside a window of `midx` bits: the bits `s .. s + PFN_UP(size) - 1` were clear
and inside the window, the offset is the start of frame `s` or lies at or after
a `last_end_off` that ends inside frame `s - 1`, the bits from `s` up to
`PFN_UP(so + size)` are now set and no other bit changed, and `last_end_off` and
`hint_idx` record the end of the placement. -/
def placed_at (sizeof_long PAGE_SHIFT : Nat) (bdata b' : bootmem_data)
    (size s so midx : Nat) : Prop :=
  s < midx ∧ ulong sizeof_long (s + PFN_UP sizeof_long PAGE_SHIFT size) ≤ midx ∧
  (∀ i, s ≤ i → i < ulong sizeof_long (s + PFN_UP sizeof_long PAGE_SHIFT size) →
    test_bit sizeof_long i bdata.node_bootmem_map = Result.ok false) ∧
  (∃ f, f ≤ s ∧ test_bit sizeof_long f bdata.node_bootmem_map = Result.ok false) ∧
  so ≤ s * 2 ^ PAGE_SHIFT ∧
  (so = s * 2 ^ PAGE_SHIFT ∨
    (bdata.last_end_off % 2 ^ PAGE_SHIFT ≠ 0 ∧
      bdata.last_end_off / 2 ^ PAGE_SHIFT + 1 = s ∧ bdata.last_end_off ≤ so)) ∧
  b'.node_min_pfn = bdata.node_min_pfn ∧ b'.node_low_pfn = bdata.node_low_pfn ∧
  b'.last_end_off = ulong sizeof_long (so + size) ∧
  b'.hint_idx = PFN_UP sizeof_long PAGE_SHIFT (ulong sizeof_long (so + size)) ∧
  PFN_UP sizeof_long PAGE_SHIFT (ulong sizeof_long (so + size)) ≤
    ulong sizeof_long (s + PFN_UP sizeof_long PAGE_SHIFT size) ∧
  ∀ i, test_bit sizeof_long i b'.node_bootmem_map =
    if s ≤ i ∧ i < PFN_UP sizeof_long PAGE_SHIFT (ulong sizeof_long (so + size))
    then Result.ok true else test_bit sizeof_long i bdata.node_bootmem_map

/-! ## Sequences of requests on one region -/

/-- A request to the allocator of one region: a call of `alloc_bootmem_core`, or
the release by `free_bootmem_node` of the `n`-th live allocation (counted from
the most recent one). -/
inductive bootmem_request where
  | alloc (size align goal limit : Nat)
  | free (n : Nat)
deriving DecidableEq

/-- A region together with its live allocations, each recorded as the physical
address returned and the size requested, most recent first. -/
structure allocator_state where
  bdata : bootmem_data
  live : List (Nat × Nat)
deriving DecidableEq

/-- Serve one request.  An allocation that returns an address adds a live
allocation; a release calls `free_bootmem_node` with the address and size of the
live allocation and removes it.  `none` stands for a fatal end (`BUG()`, a fault
or a search that does not finish). -/
def serve (sizeof_long PAGE_SHIFT : Nat) (st : allocator_state) :
    bootmem_request → Option allocator_state
  | bootmem_request.alloc size align goal limit =>
    match alloc_bootmem_core sizeof_long PAGE_SHIFT st.bdata size align goal limit with
    | some (Result.ok (some region, bdata)) => some ⟨bdata, (region, size) :: st.live⟩
    | some (Result.ok (none, bdata)) => some ⟨bdata, st.live⟩
    | _ => none
  | bootmem_request.free n =>
    match st.live.get? n with
    | none => some st
    | some (physaddr, size) =>
      match free_bootmem_node sizeof_long PAGE_SHIFT st.bdata physaddr size with
      | Result.ok (_, bdata) => some ⟨bdata, st.live.eraseIdx n⟩
      | _ => none

/-- Serve a sequence of requests in order. -/
def serve_all (sizeof_long PAGE_SHIFT : Nat) :
    allocator_state → List bootmem_request → Option allocator_state
  | st, [] => some st
  | st, r :: rs =>
    match serve sizeof_long PAGE_SHIFT st r with
    | none => none
    | some st' => serve_all sizeof_long PAGE_SHIFT st' rs

/-- The request meets the preconditions of `alloc_bootmem_core`: a positive size
that can be rounded up to whole pages in an `unsigned long`, a power-of-two
alignment, and `limit = 0` or `goal + size <= limit`.  A release has none. -/
def request_ok (sizeof_long PAGE_SHIFT : Nat) : bootmem_request → Prop
  | bootmem_request.alloc size align goal limit =>
    0 < size ∧ size + (2 ^ PAGE_SHIFT - 1) ≤ ULONG_MAX sizeof_long ∧
    (∃ a, a < BITS_PER_LONG sizeof_long ∧ align = 2 ^ a) ∧
    (limit = 0 ∨ goal + size ≤ limit)
  | bootmem_request.free _ => True

/-- The byte ranges of two allocations `(address, size)` do not intersect. -/
def bytes_disjoint (x y : Nat × Nat) : Prop := x.1 + x.2 ≤ y.1 ∨ y.1 + y.2 ≤ x.1

instance (x y : Nat × Nat) : Decidable (bytes_disjoint x y) := by
  unfold bytes_disjoint; infer_instance

/-- The page frame `pfn` holds a byte of the allocation `al = (address, size)`. -/
def touches (PAGE_SHIFT pfn : Nat) (al : Nat × Nat) : Prop :=
  pfn * 2 ^ PAGE_SHIFT < al.1 + al.2 ∧ al.1 < pfn * 2 ^ PAGE_SHIFT + 2 ^ PAGE_SHIFT

instance (PAGE_SHIFT pfn : Nat) (al : Nat × Nat) : Decidable (touches PAGE_SHIFT pfn al) := by
  unfold touches; infer_instance

/-- The invariant kept by every request: the region stays addressable; every live
allocation is non-empty and inside the region; every frame that holds a byte of a
live allocation is reserved; live allocations are pairwise disjoint; and when
`last_end_off` ends inside a frame, that frame is reserved and no live allocation
has a byte in it at or after `last_end_off`. -/
structure allocator_inv (sizeof_long PAGE_SHIFT : Nat) (st : allocator_state) : Prop where
  region : region_addressable sizeof_long PAGE_SHIFT st.bdata
  inside : ∀ al ∈ st.live, 0 < al.2 ∧
    st.bdata.node_min_pfn * 2 ^ PAGE_SHIFT ≤ al.1 ∧
    al.1 + al.2 ≤ st.bdata.node_low_pfn * 2 ^ PAGE_SHIFT
  reserved : ∀ al ∈ st.live, ∀ q, touches PAGE_SHIFT (st.bdata.node_min_pfn + q) al →
    test_bit sizeof_long q st.bdata.node_bootmem_map = Result.ok true
  disjoint : st.live.Pairwise bytes_disjoint
  tail : st.bdata.last_end_off % 2 ^ PAGE_SHIFT ≠ 0 →
    st.bdata.last_end_off / 2 ^ PAGE_SHIFT < st.bdata.node_low_pfn - st.bdata.node_min_pfn ∧
    test_bit sizeof_long (st.bdata.last_end_off / 2 ^ PAGE_SHIFT)
      st.bdata.node_bootmem_map = Result.ok true ∧
    ∀ al ∈ st.live,
      al.1 + al.2 ≤ st.bdata.node_min_pfn * 2 ^ PAGE_SHIFT + st.bdata.last_end_off ∨
      st.bdata.node_min_pfn * 2 ^ PAGE_SHIFT +
        (st.bdata.last_end_off / 2 ^ PAGE_SHIFT + 1) * 2 ^ PAGE_SHIFT ≤ al.1

instance (sizeof_long PAGE_SHIFT : Nat) (r : bootmem_request) :
    Decidable (request_ok sizeof_long PAGE_SHIFT r) := by
  cases r <;> unfold request_ok <;> infer_instance

/-! ## Sequences of requests on the registry -/

/-- The bytes of the allocation `al = (address, size)` lie in the page frames
`[node_min_pfn, node_low_pfn)` of region `b`. -/
def lies_in (PAGE_SHIFT : Nat) (b : bootmem_data) (al : Nat × Nat) : Prop :=
  b.node_min_pfn * 2 ^ PAGE_SHIFT ≤ al.1 ∧ al.1 + al.2 ≤ b.node_low_pfn * 2 ^ PAGE_SHIFT

instance (PAGE_SHIFT : Nat) (b : bootmem_data) (al : Nat × Nat) :
    Decidable (lies_in PAGE_SHIFT b al) := by
  unfold lies_in; infer_instance

/-- The registry `bdata_list` together with the live allocations made from it,
each recorded as the physical address returned and the size requested, most
recent first. -/
structure registry_state where
  bdata_list : List bootmem_data
  live : List (Nat × Nat)
deriving DecidableEq

/-- Serve one request on the registry.  An allocation calls
`___alloc_bootmem_nopanic` and, when an address is returned, adds a live
allocation; a release calls `free_bootmem` with the address and size of the live
allocation and removes it.  `none` stands for a fatal end (`BUG()`, a fault or a
search that does not finish). -/
def registry_serve (sizeof_long PAGE_SHIFT : Nat) (st : registry_state) :
    bootmem_request → Option registry_state
  | bootmem_request.alloc size align goal limit =>
    match ___alloc_bootmem_nopanic sizeof_long PAGE_SHIFT size align goal limit
        st.bdata_list with
    | some (Result.ok (some region, bdata_list)) =>
      some ⟨bdata_list, (region, size) :: st.live⟩
    | some (Result.ok (none, bdata_list)) => some ⟨bdata_list, st.live⟩
    | _ => none
  | bootmem_request.free n =>
    match st.live.get? n with
    | none => some st
    | some (addr, size) =>
      match free_bootmem sizeof_long PAGE_SHIFT addr size st.bdata_list with
      | Result.ok (_, bdata_list) => some ⟨bdata_list, st.live.eraseIdx n⟩
      | _ => none

/-- Serve a sequence of requests on the registry in order. -/
def registry_serve_all (sizeof_long PAGE_SHIFT : Nat) :
    registry_state → List bootmem_request → Option registry_state
  | st, [] => some st
  | st, r :: rs =>
    match registry_serve sizeof_long PAGE_SHIFT st r with
    | none => none
    | some st' => registry_serve_all sizeof_long PAGE_SHIFT st' rs

/-- The invariant kept by every request on the registry: the regions are
pairwise disjoint; every region keeps the invariant of one region for a list
that holds every live allocation lying in it; every live allocation is non-empty
and lies in a region; the live allocations are pairwise disjoint; and no bitmap
reaches the bit index `ULONG_MAX - 1`. -/
structure registry_inv (sizeof_long PAGE_SHIFT : Nat) (st : registry_state) : Prop where
  apart : pairwise_disjoint st.bdata_list
  regions : ∀ b ∈ st.bdata_list, ∃ L, allocator_inv sizeof_long PAGE_SHIFT ⟨b, L⟩ ∧
    ∀ al ∈ st.live, lies_in PAGE_SHIFT b al → al ∈ L
  owned : ∀ al ∈ st.live, 0 < al.2 ∧ ∃ b ∈ st.bdata_list, lies_in PAGE_SHIFT b al
  disjoint : st.live.Pairwise bytes_disjoint
  bounded : ∀ b ∈ st.bdata_list,
    test_bit sizeof_long (ULONG_MAX sizeof_long - 1) b.node_bootmem_map = Result.fault

/-! ## The search window of `alloc_bootmem_core` -/

/-- A block of `pages` frames fits at the bit index `s` of a window of `midx`
bits: the frame `node_min_pfn + s` is a multiple of `step`, the run
`[s, s + pages)` ends inside the window and every bit of it is 0. -/
def fits (sizeof_long : Nat) (bdata : bootmem_data) (midx step pages s : Nat) : Prop :=
  step ∣ bdata.node_min_pfn + s ∧ s + pages ≤ midx ∧
  ∀ i, s ≤ i → i < s + pages →
    test_bit sizeof_long i bdata.node_bootmem_map = Result.ok false

instance (sizeof_long : Nat) (bdata : bootmem_data) (midx step pages s : Nat) :
    Decidable (fits sizeof_long bdata midx step pages s) := by
  unfold fits; infer_instance

/-- The end frame `max` of the search window of `alloc_bootmem_core`
(mm/bootmem.c:607 to 611): `node_low_pfn`, clamped to the frame of a nonzero
limit. -/
def window_end (PAGE_SHIFT : Nat) (bdata : bootmem_data) (limit : Nat) : Nat :=
  if limit >>> PAGE_SHIFT ≠ 0 ∧ bdata.node_low_pfn > limit >>> PAGE_SHIFT then
    limit >>> PAGE_SHIFT
  else bdata.node_low_pfn

/-- The bit index `sidx` at which `alloc_bootmem_core` starts without a hint
(mm/bootmem.c:613 to 621): the frame of the goal when it lies strictly inside
the window, else the first frame of the region, aligned up to `step`. -/
def window_start (sizeof_long PAGE_SHIFT : Nat) (bdata : bootmem_data)
    (step goal limit : Nat) : Nat :=
  ulong_sub sizeof_long
    (if goal >>> PAGE_SHIFT ≠ 0 ∧ bdata.node_min_pfn < goal >>> PAGE_SHIFT ∧
        goal >>> PAGE_SHIFT < window_end PAGE_SHIFT bdata limit then
      ALIGN sizeof_long (goal >>> PAGE_SHIFT) step
    else ALIGN sizeof_long bdata.node_min_pfn step)
    bdata.node_min_pfn

/-! ## Candidate regions of an allocation -/

/-- The region ends at or below the frame of a nonzero goal, so the region loop
of `___alloc_bootmem_nopanic` skips it. -/
def below_goal (PAGE_SHIFT goal : Nat) (b : bootmem_data) : Prop :=
  goal ≠ 0 ∧ b.node_low_pfn ≤ PFN_DOWN PAGE_SHIFT goal

instance (PAGE_SHIFT goal : Nat) (b : bootmem_data) : Decidable (below_goal PAGE_SHIFT goal b) := by
  unfold below_goal; infer_instance

/-- The region starts at or above the frame of a nonzero limit, so the region
loop of `___alloc_bootmem_nopanic` stops at it. -/
def beyond_limit (PAGE_SHIFT limit : Nat) (b : bootmem_data) : Prop :=
  limit ≠ 0 ∧ b.node_min_pfn ≥ PFN_DOWN PAGE_SHIFT limit

instance (PAGE_SHIFT limit : Nat) (b : bootmem_data) :
    Decidable (beyond_limit PAGE_SHIFT limit b) := by
  unfold beyond_limit; infer_instance

/-- The region does not take the block: it lies below the goal, or it lies
within the limit and `alloc_bootmem_core` returns NULL on it. -/
def passed_over (sizeof_long PAGE_SHIFT size align goal limit : Nat) (c : bootmem_data) : Prop :=
  below_goal PAGE_SHIFT goal c ∨
  (¬ beyond_limit PAGE_SHIFT limit c ∧
    alloc_bootmem_core sizeof_long PAGE_SHIFT c size align goal limit =
      some (Result.ok (none, c)))

instance (sizeof_long PAGE_SHIFT size align goal limit : Nat) (c : bootmem_data) :
    Decidable (passed_over sizeof_long PAGE_SHIFT size align goal limit c) := by
  unfold passed_over; infer_instance

/-- Region `b`, which follows the regions `pre` in the registry, is the first
region in registry order in which `alloc_bootmem_core` succeeds, among the
regions that do not lie below the goal and that come before any region beyond
the limit; the block is placed at `addr` and the region becomes `b'`. -/
def first_placement (sizeof_long PAGE_SHIFT size align goal limit : Nat)
    (pre : List bootmem_data) (b b' : bootmem_data) (addr : Nat) : Prop :=
  (∀ c ∈ pre, passed_over sizeof_long PAGE_SHIFT size align goal limit c) ∧
  ¬ below_goal PAGE_SHIFT goal b ∧ ¬ beyond_limit PAGE_SHIFT limit b ∧
  alloc_bootmem_core sizeof_long PAGE_SHIFT b size align goal limit =
    some (Result.ok (some addr, b'))

instance (sizeof_long PAGE_SHIFT size align goal limit : Nat)
    (pre : List bootmem_data) (b b' : bootmem_data) (addr : Nat) :
    Decidable (first_placement sizeof_long PAGE_SHIFT size align goal limit pre b b' addr) := by
  unfold first_placement; infer_instance

/-- No region of the registry takes the block: every region up to the end of the
registry, or up to the first region beyond the limit that is not below the goal,
is passed over. -/
def no_placement (sizeof_long PAGE_SHIFT size align goal limit : Nat)
    (bdata_list : List bootmem_data) : Prop :=
  ∃ pre post, bdata_list = pre ++ post ∧
    (∀ c ∈ pre, passed_over sizeof_long PAGE_SHIFT size align goal limit c) ∧
    ∀ c, post.head? = some c →
      ¬ below_goal PAGE_SHIFT goal c ∧ beyond_limit PAGE_SHIFT limit c

/-! ## Sequences of calls on one region -/

/-- One call on a region: `alloc_bootmem_core`, `free_bootmem_node` or
`reserve_bootmem_node`, with its arguments. -/
inductive region_call where
  | alloc (size align goal limit : Nat)
  | free (physaddr size : Nat)
  | reserve (physaddr size flags : Nat)
deriving DecidableEq

/-- The region after one call.  An allocation that returns NULL and a reservation
that returns `-EBUSY` return normally; `none` stands for a call that does not
return (`BUG()`, a fault, or a search that does not finish). -/
def apply_call (sizeof_long PAGE_SHIFT : Nat) (bdata : bootmem_data) :
    region_call → Option bootmem_data
  | region_call.alloc size align goal limit =>
    match alloc_bootmem_core sizeof_long PAGE_SHIFT bdata size align goal limit with
    | some (Result.ok (_, bdata)) => some bdata
    | _ => none
  | region_call.free physaddr size =>
    match free_bootmem_node sizeof_long PAGE_SHIFT bdata physaddr size with
    | Result.ok (_, bdata) => some bdata
    | _ => none
  | region_call.reserve physaddr size flags =>
    match reserve_bootmem_node sizeof_long PAGE_SHIFT bdata physaddr size flags with
    | Result.ok (_, bdata) => some bdata
    | _ => none

/-- The region after a sequence of calls, `none` when one of them does not
return. -/
def apply_calls (sizeof_long PAGE_SHIFT : Nat) :
    bootmem_data → List region_call → Option bootmem_data
  | bdata, [] => some bdata
  | bdata, c :: cs =>
    match apply_call sizeof_long PAGE_SHIFT bdata c with
    | none => none
    | some bdata => apply_calls sizeof_long PAGE_SHIFT bdata cs

/-- A call whose allocations are small and undirected: an allocation asks for at
most one page, with an alignment of at most one page, no goal, and `limit = 0` or
`size <= limit`.  Frees and reservations are not restricted. -/
def one_page_call (PAGE_SHIFT : Nat) : region_call → Prop
  | region_call.alloc size align goal limit =>
    0 < size ∧ size ≤ 2 ^ PAGE_SHIFT ∧ (∃ a, a ≤ PAGE_SHIFT ∧ align = 2 ^ a) ∧ goal = 0 ∧
    (limit = 0 ∨ size ≤ limit)
  | _ => True

/-- The hint is a lower bound of the free bits: `hint_idx` lies within the bits of
the region and every bit below it is set. -/
def hint_bounds_free (sizeof_long : Nat) (bdata : bootmem_data) : Prop :=
  bdata.hint_idx ≤ bdata.node_low_pfn - bdata.node_min_pfn ∧
  ∀ i, i < bdata.hint_idx →
    test_bit sizeof_long i bdata.node_bootmem_map = Result.ok true

instance (sizeof_long : Nat) (bdata : bootmem_data) :
    Decidable (hint_bounds_free sizeof_long bdata) := by
  unfold hint_bounds_free; infer_instance

/-! ## Frames handed to the page allocator -/

/-- The page frames of regions handed over by a sequence of calls of
`__free_pages_bootmem`, in the order of the calls: a call of order `order` at the
frame `pfn` hands over the `2 ^ order` frames from `pfn` on.  The pages of the
bitmap storage are not frames of a walk and are left out. -/
def region_frames : List free_pages_call → List Nat
  | [] => []
  | free_pages_call.frame pfn order :: calls =>
    List.range' pfn (2 ^ order) ++ region_frames calls
  | free_pages_call.map_page _ :: calls => region_frames calls

/-- The number of pages handed over by a sequence of calls of
`__free_pages_bootmem`: the sum of `2 ^ order` over the calls, a page of the
bitmap storage being released at order 0. -/
def pages_released : List free_pages_call → Nat
  | [] => 0
  | free_pages_call.frame _ order :: calls => 2 ^ order + pages_released calls
  | free_pages_call.map_page _ :: calls => 1 + pages_released calls

/-- The outcome of a walk that made the calls `pre` before going on with a walk
of the given outcome. -/
def prepend_calls (pre : List free_pages_call) :
    Option (Result (List free_pages_call × Nat)) →
      Option (Result (List free_pages_call × Nat))
  | some (Result.ok (calls, count)) => some (Result.ok (pre ++ calls, count))
  | other => other

/-- The outcome of a bitmap walk with every call expanded to the frames it hands
over. -/
def walk_frames :
    Option (Result (List free_pages_call × Nat)) → Option (Result (List Nat × Nat))
  | none => none
  | some Result.fault => some Result.fault
  | some Result.bug => some Result.bug
  | some (Result.ok (calls, count)) => some (Result.ok (region_frames calls, count))

/-- The bit indexes of the region whose bit is 0 (free frames), ascending. -/
def free_indexes (sizeof_long : Nat) (bdata : bootmem_data) : List Nat :=
  (List.range (bdata.node_low_pfn - bdata.node_min_pfn)).filter
    (fun i => decide (test_bit sizeof_long i bdata.node_bootmem_map = Result.ok false))

/-- The padding bits of the bitmap, from the page count of the region to the end
of the bitmap storage, are all set, as registration leaves them. -/
def padding_set (sizeof_long : Nat) (bdata : bootmem_data) : Prop :=
  ∀ i, bdata.node_low_pfn - bdata.node_min_pfn ≤ i →
    i < bitmap_bits sizeof_long bdata.node_bootmem_map →
    test_bit sizeof_long i bdata.node_bootmem_map = Result.ok true

instance (sizeof_long : Nat) (bdata : bootmem_data) :
    Decidable (padding_set sizeof_long bdata) := by
  unfold padding_set; infer_instance

/-- A region as `free_all_bootmem_core` can meet it: either it has no bitmap, or
its bitmap covers its frames with the padding bits set and the physical address
of its last frame fits in an `unsigned long`. -/
def release_ready (sizeof_long PAGE_SHIFT : Nat) (bdata : bootmem_data) : Prop :=
  bdata.node_bootmem_map = none ∨
  (region_covered sizeof_long bdata ∧
    bdata.node_low_pfn * 2 ^ PAGE_SHIFT ≤ ULONG_MAX sizeof_long ∧
    padding_set sizeof_long bdata)

instance (sizeof_long PAGE_SHIFT : Nat) (bdata : bootmem_data) :
    Decidable (release_ready sizeof_long PAGE_SHIFT bdata) := by
  unfold release_ready; infer_instance

/-- The number of pages a region has to release: nothing without a bitmap, else
one page for every zero bit below the page count and the pages of the bitmap
itself. -/
def release_count (sizeof_long PAGE_SHIFT : Nat) (bdata : bootmem_data) : Nat :=
  if bdata.node_bootmem_map = none then 0
  else (free_indexes sizeof_long bdata).length +
    bootmem_bootmap_pages sizeof_long PAGE_SHIFT (bdata.node_low_pfn - bdata.node_min_pfn)

/-! ## Placement of a block at a found index -/

/-- The index at which the search of `alloc_bootmem_core` goes on after it met
the set bit `i` (mm/bootmem.c:646 to 648): `i` aligned up to `step`, and one
step further when `i` is aligned already. -/
def skip_target (sizeof_long : Nat) (bdata : bootmem_data) (i step : Nat) : Nat :=
  let sidx := align_idx sizeof_long bdata i step
  if sidx = i then ulong sizeof_long (sidx + step) else sidx

/-- The merge condition of `alloc_bootmem_core` in plain arithmetic:
`last_end_off` is not page-aligned and the frame after the one it ends in is the
found index `sidx`. -/
def merge_path (PAGE_SHIFT : Nat) (bdata : bootmem_data) (sidx : Nat) : Prop :=
  bdata.last_end_off % 2 ^ PAGE_SHIFT ≠ 0 ∧ bdata.last_end_off / 2 ^ PAGE_SHIFT + 1 = sidx

instance (PAGE_SHIFT : Nat) (bdata : bootmem_data) (sidx : Nat) :
    Decidable (merge_path PAGE_SHIFT bdata sidx) := by
  unfold merge_path; infer_instance

/-- The frame in which a partial `last_end_off` ends is a frame of the region
and is reserved. -/
def tail_reserved (sizeof_long PAGE_SHIFT : Nat) (bdata : bootmem_data) : Prop :=
  bdata.last_end_off % 2 ^ PAGE_SHIFT ≠ 0 →
    bdata.last_end_off / 2 ^ PAGE_SHIFT < bdata.node_low_pfn - bdata.node_min_pfn ∧
    test_bit sizeof_long (bdata.last_end_off / 2 ^ PAGE_SHIFT) bdata.node_bootmem_map =
      Result.ok true

instance (sizeof_long PAGE_SHIFT : Nat) (bdata : bootmem_data) :
    Decidable (tail_reserved sizeof_long PAGE_SHIFT bdata) := by
  unfold tail_reserved; infer_instance

/-! ## Sequential runs of a memory pool -/

/-- A well-formed pool: `0 <= curr_nr <= min_nr`, the array has a cell for each
of the `min_nr` elements, and no stored element is NULL. -/
def pool_ok (pool : mempool_t) : Prop :=
  0 ≤ pool.curr_nr ∧ pool.curr_nr ≤ pool.min_nr ∧
  pool.min_nr ≤ (pool.elements.length : Int) ∧
  ∀ i, i < pool.curr_nr.toNat → pool.elements[i]? ≠ some 0

instance (pool : mempool_t) : Decidable (pool_ok pool) := by
  unfold pool_ok; infer_instance

/-- One call on a pool, with what its environment answers: `mempool_alloc` with
the results of the calls of `pool->alloc`, `mempool_free` of an element, or
`mempool_resize` with the outcome of `kmalloc` and the results of the calls of
`pool->alloc`. -/
inductive pool_request where
  | alloc (gfp_mask : Nat) (allocs : List Nat)
  | free (element : Nat)
  | resize (new_min_nr : Int) (new_mem : Bool) (allocs : List Nat)
deriving DecidableEq

/-- The request does not trip the check `BUG_ON(new_min_nr <= 0)` of
`mempool_resize`. -/
def pool_request_ok : pool_request → Prop
  | pool_request.resize new_min_nr _ _ => 0 < new_min_nr
  | _ => True

instance (q : pool_request) : Decidable (pool_request_ok q) := by
  cases q <;> unfold pool_request_ok <;> infer_instance

/-- The pool after one call; `none` stands for a `mempool_alloc` that sleeps for
ever. -/
def pool_serve (pool : mempool_t) : pool_request → Option (Result mempool_t)
  | pool_request.alloc gfp_mask allocs =>
    match mempool_alloc pool gfp_mask allocs with
    | none => none
    | some (Result.ok (_, pool)) => some (Result.ok pool)
    | some Result.bug => some Result.bug
    | some Result.fault => some Result.fault
  | pool_request.free element =>
    match mempool_free element pool with
    | Result.ok (pool, _) => some (Result.ok pool)
    | Result.bug => some Result.bug
    | Result.fault => some Result.fault
  | pool_request.resize new_min_nr new_mem allocs =>
    match mempool_resize pool new_min_nr new_mem allocs with
    | Result.ok (_, pool, _) => some (Result.ok pool)
    | Result.bug => some Result.bug
    | Result.fault => some Result.fault

/-- The pool after a sequence of calls, in order. -/
def pool_run : mempool_t → List pool_request → Option (Result mempool_t)
  | pool, [] => some (Result.ok pool)
  | pool, q :: qs =>
    match pool_serve pool q with
    | some (Result.ok pool) => pool_run pool qs
    | other => other

/-! ## Frames of ranges -/

/-- The sum of `end - start` over the ranges. -/
def ranges_pages : List range → Nat
  | [] => 0
  | r :: rest => (r.end_ - r.start) + ranges_pages rest

/-- The frames of the ranges, range by range and in ascending order within a
range. -/
def ranges_frames : List range → List Nat
  | [] => []
  | r :: rest => List.range' r.start (r.end_ - r.start) ++ ranges_frames rest

/-! ## Pool calls that do not sleep -/

/-- The request is not a `mempool_alloc` of a caller that may sleep. -/
def pool_request_nowait : pool_request → Prop
  | pool_request.alloc gfp_mask _ => gfp_mask &&& __GFP_WAIT = 0
  | _ => True

instance (q : pool_request) : Decidable (pool_request_nowait q) := by
  cases q <;> unfold pool_request_nowait <;> infer_instance

/-! ## Counts of the mapping slots -/

/-- Slot by slot, the counts `after` are the counts `before`, except that a slot
with count 1 may have got count 0, and then the TLB was flushed. -/
def counts_flushed (before after : List Int) (flushed : Bool) : Prop :=
  ∀ i : Nat, after[i]? = before[i]? ∨
    (before[i]? = some 1 ∧ after[i]? = some 0 ∧ flushed = true)

/-- No slot went from a nonzero count to count 0 without a TLB flush: a slot
that has count 0 in `after` and had another count in `before` had count 1, and
the TLB was flushed. -/
def no_zero_without_flush (before after : List Int) (flushed : Bool) : Prop :=
  ∀ (i : Nat) (c : Int), before[i]? = some c → c ≠ 0 → after[i]? = some 0 → c = 1 ∧ flushed = true

/-- The first `LAST_PKMAP` slots exist, and each of them with count 1 has a page
in its page table entry, as the check `BUG_ON(pte_none(...))` of
`flush_all_zero_pkmaps` expects. -/
def pkmap_ready (LAST_PKMAP : Nat) (st : kmap_state) : Prop :=
  LAST_PKMAP ≤ st.pkmap_count.length ∧
  ∀ i : Nat, i < LAST_PKMAP → st.pkmap_count[i]? = some 1 →
    ∃ page, st.pkmap_page_table[i]? = some (some page)

/-! ## Example states -/

/-- An entry of `bootmem_node_data` before registration: static storage, all
fields zero, no bitmap. -/
def unregistered : bootmem_data :=
  { node_min_pfn := 0, node_low_pfn := 0, node_bootmem_map := none,
    last_end_off := 0, hint_idx := 0 }

/-- The limit validation that leaves both frame numbers as they are. -/
def no_clamp (start end_ : Nat) : Nat × Nat := (start, end_)

/-- The registry after registering the frames `[0, 100)` and then `[50, 150)`
on a 64-bit machine. -/
def registry_two_overlapping : List bootmem_data :=
  (init_bootmem_core 8 no_clamp
    (init_bootmem_core 8 no_clamp [] unregistered 0 0 100).2.2 unregistered 1 50 150).2.2

/-- The region `[0, 100)` right after registration on a 64-bit machine: two
bitmap words, every bit set. -/
def region_all_reserved : bootmem_data :=
  { node_min_pfn := 0, node_low_pfn := 100,
    node_bootmem_map := some [2 ^ 64 - 1, 2 ^ 64 - 1],
    last_end_off := 0, hint_idx := 0 }

/-- The region `[0, 100)` with the frames `10 .. 19` free and the hint at 50. -/
def region_10_20_free : bootmem_data :=
  { node_min_pfn := 0, node_low_pfn := 100,
    node_bootmem_map := some [2 ^ 64 - 1 - (2 ^ 20 - 2 ^ 10), 2 ^ 64 - 1],
    last_end_off := 0, hint_idx := 50 }

/-- The region `[0, 100)` with the frames `10 .. 29` free and the hint at 20. -/
def region_10_30_free : bootmem_data :=
  { node_min_pfn := 0, node_low_pfn := 100,
    node_bootmem_map := some [2 ^ 64 - 1 - (2 ^ 30 - 2 ^ 10), 2 ^ 64 - 1],
    last_end_off := 0, hint_idx := 20 }

/-- The region `[0, 64)` on a 64-bit machine after registration and the freeing
of the frames `10 .. 19`: one bitmap word, hint and last end offset still 0. -/
def region_64_free_10_20 : bootmem_data :=
  { node_min_pfn := 0, node_low_pfn := 64,
    node_bootmem_map := some [2 ^ 64 - 1 - (2 ^ 20 - 2 ^ 10)],
    last_end_off := 0, hint_idx := 0 }

/-- The fully reserved region `[64, 128)` on a 64-bit machine. -/
def region_64_128_reserved : bootmem_data :=
  { node_min_pfn := 64, node_low_pfn := 128,
    node_bootmem_map := some [2 ^ 64 - 1],
    last_end_off := 0, hint_idx := 0 }

/-- The region `[0, 100)` of `region_10_20_free` after an exclusive reservation
of the frames `12 .. 17`. -/
def region_12_18_reserved : bootmem_data :=
  { region_10_20_free with
    node_bootmem_map := some [2 ^ 64 - 1 - (2 ^ 20 - 2 ^ 10) + (2 ^ 18 - 2 ^ 12), 2 ^ 64 - 1] }

/-- The region `[0, 64)` on a 64-bit machine after registration and the freeing
of the frames `10 .. 63`. -/
def region_64_free_10_64 : bootmem_data :=
  { node_min_pfn := 0, node_low_pfn := 64,
    node_bootmem_map := some [2 ^ 10 - 1],
    last_end_off := 0, hint_idx := 0 }

/-- The region `[3, 67)` on a 64-bit machine with 4 KiB pages: the frames of the
bit indexes `11 .. 19` are free and the last allocation ended 100 bytes into the
frame of bit index 10. -/
def region_3_67_used : bootmem_data :=
  { node_min_pfn := 3, node_low_pfn := 67,
    node_bootmem_map := some [2 ^ 64 - 1 - (2 ^ 20 - 2 ^ 11)],
    last_end_off := 41060, hint_idx := 11 }

/-- The region `[0, 64)` right after registration on a 64-bit machine: one bitmap
word, every bit set. -/
def region_64_reserved : bootmem_data :=
  { node_min_pfn := 0, node_low_pfn := 64,
    node_bootmem_map := some [2 ^ 64 - 1],
    last_end_off := 0, hint_idx := 0 }

/-- The region `region_3_67_used` after 5000 bytes were placed with alignment 64:
the block starts in the frame of bit index 10 and ends in the frame of bit index
11, which is now reserved. -/
def region_3_67_placed : bootmem_data :=
  { node_min_pfn := 3, node_low_pfn := 67,
    node_bootmem_map := some [2 ^ 64 - 1 - (2 ^ 20 - 2 ^ 12)],
    last_end_off := 46088, hint_idx := 12 }

/-- The region `[0, 64)` after registration and the freeing of the frames
`60 .. 63`. -/
def region_64_free_60_64 : bootmem_data :=
  { node_min_pfn := 0, node_low_pfn := 64,
    node_bootmem_map := some [2 ^ 60 - 1],
    last_end_off := 0, hint_idx := 0 }

/-- The region `[64, 128)` after registration and the freeing of the frames
`64 .. 69`. -/
def region_64_128_free_64_70 : bootmem_data :=
  { node_min_pfn := 64, node_low_pfn := 128,
    node_bootmem_map := some [2 ^ 64 - 2 ^ 6],
    last_end_off := 0, hint_idx := 0 }

/-- The region `region_64_free_10_20` after one page was placed in frame 10. -/
def region_64_free_11_20 : bootmem_data :=
  { node_min_pfn := 0, node_low_pfn := 64,
    node_bootmem_map := some [2 ^ 64 - 1 - (2 ^ 20 - 2 ^ 11)],
    last_end_off := 45056, hint_idx := 11 }

/-- The region `region_64_free_10_20` after one page was placed in frame 15, the
frame of the goal: the frames `10 .. 14` and `16 .. 19` are still free and the
hint is 16. -/
def region_64_placed_15 : bootmem_data :=
  { node_min_pfn := 0, node_low_pfn := 64,
    node_bootmem_map := some [2 ^ 64 - 1 - (2 ^ 20 - 2 ^ 10) + 2 ^ 15],
    last_end_off := 65536, hint_idx := 16 }

/-- The region `[0, 64)` on a 64-bit machine with every frame free. -/
def region_64_all_free : bootmem_data :=
  { node_min_pfn := 0, node_low_pfn := 64,
    node_bootmem_map := some [0],
    last_end_off := 0, hint_idx := 0 }

/-- The region `[0, 128)` on a 64-bit machine with every frame free. -/
def region_128_all_free : bootmem_data :=
  { node_min_pfn := 0, node_low_pfn := 128,
    node_bootmem_map := some [0, 0],
    last_end_off := 0, hint_idx := 0 }

/-- The region `[3, 103)` on a 64-bit machine, not aligned to the word size: of
its 100 frames those of the bit indexes 0 and 2 are reserved and all others are
free; the 28 padding bits of the second bitmap word are set. -/
def region_3_103 : bootmem_data :=
  { node_min_pfn := 3, node_low_pfn := 103,
    node_bootmem_map := some [5, 2 ^ 64 - 2 ^ 36],
    last_end_off := 0, hint_idx := 0 }

/-- The region `[6, 70)` on a 64-bit machine with the frames 8 and 9 (bit indexes
2 and 3) free, no allocation so far, and the given value in `hint_idx`. -/
def region_6_70_hint (hint : Nat) : bootmem_data :=
  { node_min_pfn := 6, node_low_pfn := 70,
    node_bootmem_map := some [2 ^ 64 - 13],
    last_end_off := 0, hint_idx := hint }

/-- The region `region_6_70_hint` after one page was placed in frame 8 (bit index
2) with an alignment of eight pages. -/
def region_6_70_placed : bootmem_data :=
  { node_min_pfn := 6, node_low_pfn := 70,
    node_bootmem_map := some [2 ^ 64 - 9],
    last_end_off := 12288, hint_idx := 3 }

/-- The region `region_64_free_10_20` after three pages were placed in the frames
`10 .. 12`. -/
def region_64_free_13_20 : bootmem_data :=
  { node_min_pfn := 0, node_low_pfn := 64,
    node_bootmem_map := some [2 ^ 64 - 1 - (2 ^ 20 - 2 ^ 13)],
    last_end_off := 53248, hint_idx := 13 }

/-- The region `region_3_67_placed` after a further 100 bytes were placed with
alignment 1: the block lies in the partly used frame of bit index 11, behind the
5000 bytes placed before, and no bit changed. -/
def region_3_67_placed_twice : bootmem_data :=
  { region_3_67_placed with last_end_off := 46188 }

/-- The region `[0, 64)` after registration and the freeing of the frames 0 and
1. -/
def region_64_free_0_2 : bootmem_data :=
  { node_min_pfn := 0, node_low_pfn := 64,
    node_bootmem_map := some [2 ^ 64 - 4],
    last_end_off := 0, hint_idx := 0 }

/-- The region `region_64_free_0_2` after 100 bytes were placed at the start of
frame 0. -/
def region_64_tail_used : bootmem_data :=
  { node_min_pfn := 0, node_low_pfn := 64,
    node_bootmem_map := some [2 ^ 64 - 3],
    last_end_off := 100, hint_idx := 1 }

/-- The region `region_64_tail_used` after frame 0 was freed: `last_end_off`
still ends inside frame 0, which is free again. -/
def region_64_tail_freed : bootmem_data :=
  { node_min_pfn := 0, node_low_pfn := 64,
    node_bootmem_map := some [2 ^ 64 - 4],
    last_end_off := 100, hint_idx := 0 }

/-- The region `region_64_tail_freed` after one page was placed with alignment 64
and the goal in frame 1: the block starts 128 bytes into frame 0 and only frame 1
was reserved. -/
def region_64_merged_into_free : bootmem_data :=
  { node_min_pfn := 0, node_low_pfn := 64,
    node_bootmem_map := some [2 ^ 64 - 2],
    last_end_off := 4224, hint_idx := 2 }

/-- The region `region_64_merged_into_free` after one more page was placed in
frame 0. -/
def region_64_frame_0_taken : bootmem_data :=
  { node_min_pfn := 0, node_low_pfn := 64,
    node_bootmem_map := some [2 ^ 64 - 1],
    last_end_off := 4096, hint_idx := 1 }

/-! ## Example pools and mapping slots -/

/-- A pool of four cells that holds the elements 101 and 102. -/
def pool_4_holds_2 : mempool_t :=
  { min_nr := 4, curr_nr := 2, elements := [101, 102, 0, 0] }

/-- The pool `pool_4_holds_2` after the element 103 was freed into it. -/
def pool_4_holds_3 : mempool_t :=
  { min_nr := 4, curr_nr := 3, elements := [101, 102, 103, 0] }

/-- A full pool of two cells, as `mempool_create_node` builds it from the
elements 101 and 102. -/
def pool_2_full : mempool_t :=
  { min_nr := 2, curr_nr := 2, elements := [101, 102] }

/-- Four mapping slots on a 32-bit machine, window at `0xff800000`: the pages
10 and 13 are in use (counts 2 and 3), the pages 11 and 12 are mapped but unused
(count 1), and the cursor stands on the last slot. -/
def kmap_4_slots : kmap_state :=
  { pkmap_count := [2, 1, 1, 3], last_pkmap_nr := 3,
    pkmap_page_table := [some 10, some 11, some 12, some 13],
    page_address_htable :=
      [(10, 0xff800000), (11, 0xff801000), (12, 0xff802000), (13, 0xff803000)],
    page_address_pool := 4 }

/-- The state `kmap_4_slots` after `kmap_high` of page 20: the slots 1 and 2 were
flushed and slot 1 maps page 20 with count 2. -/
def kmap_4_slots_page_20 : kmap_state :=
  { pkmap_count := [2, 2, 0, 3], last_pkmap_nr := 1,
    pkmap_page_table := [some 10, some 20, none, some 13],
    page_address_htable := [(10, 0xff800000), (13, 0xff803000), (20, 0xff801000)],
    page_address_pool := 5 }

/-! # Theorems -/

/-! ## Word-level bit facts -/

theorem and_two_pow_ne_zero (w j : Nat) : ((w &&& 2 ^ j) != 0) = w.testBit j := by
  cases h : w.testBit j
  · have : w &&& 2 ^ j = 0 := by
      apply Nat.eq_of_testBit_eq
      intro i
      rw [Nat.testBit_and, Nat.testBit_two_pow, Nat.zero_testBit]
      by_cases hij : j = i
      · subst hij; simp [h]
      · simp [hij]
    simp [this]
  · have : (w &&& 2 ^ j).testBit j = true := by
      rw [Nat.testBit_and, Nat.testBit_two_pow_self, h]; rfl
    have hne : w &&& 2 ^ j ≠ 0 := by
      intro h0; rw [h0, Nat.zero_testBit] at this; cases this
    simp [hne]

theorem testBit_or_two_pow (w j i : Nat) :
    (w ||| 2 ^ j).testBit i = (w.testBit i || decide (j = i)) := by
  rw [Nat.testBit_or, Nat.testBit_two_pow]

theorem testBit_and_not_two_pow (w n j i : Nat) (hj : j < n) :
    (w &&& (2 ^ n - 1 - 2 ^ j)).testBit i = (w.testBit i && (decide (i < n) && !decide (j = i))) := by
  have h2 : 2 ^ j < 2 ^ n := Nat.pow_lt_pow_right (by decide) hj
  have : 2 ^ n - 1 - 2 ^ j = 2 ^ n - (2 ^ j + 1) := by omega
  rw [Nat.testBit_and, this, Nat.testBit_two_pow_sub_succ h2, Nat.testBit_two_pow]

theorem or_two_pow_of_testBit (w j : Nat) (h : w.testBit j = true) : w ||| 2 ^ j = w := by
  apply Nat.eq_of_testBit_eq
  intro i
  rw [testBit_or_two_pow]
  by_cases hij : j = i
  · subst hij; simp [h]
  · simp [hij]

theorem bits_pos {sizeof_long : Nat} (h : 0 < sizeof_long) : 0 < BITS_PER_LONG sizeof_long := by
  unfold BITS_PER_LONG; omega

theorem bit_index_ne {B i j : Nat} (h : i ≠ j) (hw : i / B = j / B) : i % B ≠ j % B := by
  intro hm
  apply h
  rw [← Nat.div_add_mod i B, ← Nat.div_add_mod j B, hw, hm]

/-! ## Bitmap operations -/

theorem test_bit_some (sizeof_long nr : Nat) (m : Bitmap) :
    test_bit sizeof_long nr (some m) =
      match m[nr / BITS_PER_LONG sizeof_long]? with
      | none => Result.fault
      | some w => Result.ok (w.testBit (nr % BITS_PER_LONG sizeof_long)) := by
  cases hw : m[nr / BITS_PER_LONG sizeof_long]? with
  | none => simp only [test_bit, BIT_WORD, hw]
  | some w => simp only [test_bit, BIT_WORD, BIT_MASK, hw, Nat.one_shiftLeft, and_two_pow_ne_zero]

theorem test_bit_ne_bug (sizeof_long nr : Nat) (addr : Option Bitmap) :
    test_bit sizeof_long nr addr ≠ Result.bug := by
  cases addr with
  | none => simp [test_bit]
  | some m => cases hw : m[BIT_WORD sizeof_long nr]? <;> simp [test_bit, hw]

theorem test_and_set_bit_fault {sizeof_long nr : Nat} {addr : Option Bitmap}
    (h : test_bit sizeof_long nr addr = Result.fault) :
    test_and_set_bit sizeof_long nr addr = Result.fault := by
  cases addr with
  | none => rfl
  | some m =>
    cases hw : m[BIT_WORD sizeof_long nr]? with
    | none => simp only [test_and_set_bit, hw]
    | some w => simp [test_bit, hw] at h

theorem test_and_clear_bit_fault {sizeof_long nr : Nat} {addr : Option Bitmap}
    (h : test_bit sizeof_long nr addr = Result.fault) :
    test_and_clear_bit sizeof_long nr addr = Result.fault := by
  cases addr with
  | none => rfl
  | some m =>
    cases hw : m[BIT_WORD sizeof_long nr]? with
    | none => simp only [test_and_clear_bit, hw]
    | some w => simp [test_bit, hw] at h

theorem test_and_set_bit_ok {sizeof_long nr : Nat} {addr : Option Bitmap} {old : Bool}
    (h : test_bit sizeof_long nr addr = Result.ok old) :
    ∃ m', test_and_set_bit sizeof_long nr addr = Result.ok (old, m') ∧
      ∀ i, test_bit sizeof_long i (some m') =
        if i = nr then Result.ok true else test_bit sizeof_long i addr := by
  cases addr with
  | none => simp [test_bit] at h
  | some m =>
    cases hw : m[nr / BITS_PER_LONG sizeof_long]? with
    | none => rw [test_bit_some, hw] at h; cases h
    | some w =>
      have hold : old = w.testBit (nr % BITS_PER_LONG sizeof_long) := by
        rw [test_bit_some, hw] at h; injection h with h; exact h.symm
      have hlen : nr / BITS_PER_LONG sizeof_long < m.length := by
        rcases List.getElem?_eq_some.mp hw with ⟨hl, _⟩; exact hl
      refine ⟨m.set (nr / BITS_PER_LONG sizeof_long)
        (w ||| 2 ^ (nr % BITS_PER_LONG sizeof_long)), ?_, ?_⟩
      · simp only [test_and_set_bit, BIT_WORD, BIT_MASK, hw, Nat.one_shiftLeft,
          and_two_pow_ne_zero, hold]
      · intro i
        rw [test_bit_some, test_bit_some, List.getElem?_set]
        by_cases hwi : nr / BITS_PER_LONG sizeof_long = i / BITS_PER_LONG sizeof_long
        · rw [if_pos hwi, if_pos hlen, ← hwi, hw]
          simp only [testBit_or_two_pow]
          by_cases hin : i = nr
          · subst hin; simp
          · have := bit_index_ne hin hwi.symm
            rw [if_neg hin]
            have h' : ¬ (nr % BITS_PER_LONG sizeof_long = i % BITS_PER_LONG sizeof_long) :=
              fun e => this e.symm
            simp [h']
        · have hin : i ≠ nr := by intro e; subst e; exact hwi rfl
          rw [if_neg hwi, if_neg hin]

theorem test_and_clear_bit_ok {sizeof_long nr : Nat} {addr : Option Bitmap} {old : Bool}
    (hL : 0 < sizeof_long) (h : test_bit sizeof_long nr addr = Result.ok old) :
    ∃ m', test_and_clear_bit sizeof_long nr addr = Result.ok (old, m') ∧
      ∀ i, test_bit sizeof_long i (some m') =
        if i = nr then Result.ok false else test_bit sizeof_long i addr := by
  have hB := bits_pos hL
  cases addr with
  | none => simp [test_bit] at h
  | some m =>
    cases hw : m[nr / BITS_PER_LONG sizeof_long]? with
    | none => rw [test_bit_some, hw] at h; cases h
    | some w =>
      have hold : old = w.testBit (nr % BITS_PER_LONG sizeof_long) := by
        rw [test_bit_some, hw] at h; injection h with h; exact h.symm
      have hlen : nr / BITS_PER_LONG sizeof_long < m.length := by
        rcases List.getElem?_eq_some.mp hw with ⟨hl, _⟩; exact hl
      refine ⟨m.set (nr / BITS_PER_LONG sizeof_long)
        (w &&& (2 ^ BITS_PER_LONG sizeof_long - 1 - 2 ^ (nr % BITS_PER_LONG sizeof_long))),
        ?_, ?_⟩
      · simp only [test_and_clear_bit, BIT_WORD, BIT_MASK, ULONG_MAX, hw, Nat.one_shiftLeft,
          and_two_pow_ne_zero, hold]
      · intro i
        rw [test_bit_some, test_bit_some, List.getElem?_set]
        by_cases hwi : nr / BITS_PER_LONG sizeof_long = i / BITS_PER_LONG sizeof_long
        · rw [if_pos hwi, if_pos hlen, ← hwi, hw]
          simp only [testBit_and_not_two_pow _ _ _ _ (Nat.mod_lt nr hB)]
          have hlt : i % BITS_PER_LONG sizeof_long < BITS_PER_LONG sizeof_long :=
            Nat.mod_lt i hB
          by_cases hin : i = nr
          · subst hin; simp
          · have := bit_index_ne hin hwi.symm
            rw [if_neg hin]
            have h' : ¬ (nr % BITS_PER_LONG sizeof_long = i % BITS_PER_LONG sizeof_long) :=
              fun e => this e.symm
            simp [h', hlt]
        · have hin : i ≠ nr := by intro e; subst e; exact hwi rfl
          rw [if_neg hwi, if_neg hin]

theorem test_and_set_bit_of_set {sizeof_long nr : Nat} {m : Bitmap}
    (h : test_bit sizeof_long nr (some m) = Result.ok true) :
    test_and_set_bit sizeof_long nr (some m) = Result.ok (true, m) := by
  cases hw : m[nr / BITS_PER_LONG sizeof_long]? with
  | none => rw [test_bit_some, hw] at h; cases h
  | some w =>
    have hold : w.testBit (nr % BITS_PER_LONG sizeof_long) = true := by
      rw [test_bit_some, hw] at h; injection h
    simp only [test_and_set_bit, BIT_WORD, BIT_MASK, hw, Nat.one_shiftLeft,
      and_two_pow_ne_zero, hold, or_two_pow_of_testBit _ _ hold]
    congr 2
    apply List.ext_getElem?
    intro k
    rw [List.getElem?_set]
    by_cases hk : nr / BITS_PER_LONG sizeof_long = k
    · subst hk
      rcases List.getElem?_eq_some.mp hw with ⟨hl, _⟩
      rw [if_pos rfl, if_pos hl, hw]
    · rw [if_neg hk]

theorem test_bit_fault_mono {sizeof_long i j : Nat} {addr : Option Bitmap}
    (h : test_bit sizeof_long j addr = Result.fault) (hij : j ≤ i) :
    test_bit sizeof_long i addr = Result.fault := by
  cases addr with
  | none => rfl
  | some m =>
    rw [test_bit_some] at h ⊢
    cases hj : m[j / BITS_PER_LONG sizeof_long]? with
    | some w => rw [hj] at h; cases h
    | none =>
      have h1 : m.length ≤ j / BITS_PER_LONG sizeof_long := by
        by_contra hc
        rw [List.getElem?_eq_getElem (Nat.lt_of_not_le hc)] at hj
        cases hj
      have h2 : j / BITS_PER_LONG sizeof_long ≤ i / BITS_PER_LONG sizeof_long :=
        Nat.div_le_div_right hij
      rw [List.getElem?_eq_none (Nat.le_trans h1 h2)]

/-! ## The loop of `__free` -/

theorem free_loop_fields (sizeof_long : Nat) (n : Nat) :
    ∀ (bdata b' : bootmem_data) (idx : Nat),
      __free_loop sizeof_long bdata idx n = Result.ok b' →
      b'.hint_idx = bdata.hint_idx ∧ b'.last_end_off = bdata.last_end_off ∧
      b'.node_min_pfn = bdata.node_min_pfn ∧ b'.node_low_pfn = bdata.node_low_pfn := by
  induction n with
  | zero =>
    intro bdata b' idx h
    simp only [__free_loop] at h
    injection h with h
    subst h
    exact ⟨rfl, rfl, rfl, rfl⟩
  | succ n ih =>
    intro bdata b' idx h
    simp only [__free_loop] at h
    cases hc : test_and_clear_bit sizeof_long idx bdata.node_bootmem_map with
    | fault => rw [hc] at h; cases h
    | bug => rw [hc] at h; cases h
    | ok p =>
      obtain ⟨old, m⟩ := p
      rw [hc] at h
      cases old with
      | false => simp at h
      | true =>
        simp only [Bool.not_true, Bool.false_eq_true, if_false] at h
        have hi := ih { bdata with node_bootmem_map := some m } b' (idx + 1) h
        exact hi

theorem free_loop_ok (sizeof_long : Nat) (hL : 0 < sizeof_long) (n : Nat) :
    ∀ (bdata : bootmem_data) (idx : Nat),
      (∀ i, idx ≤ i → i < idx + n →
        test_bit sizeof_long i bdata.node_bootmem_map = Result.ok true) →
      ∃ b', __free_loop sizeof_long bdata idx n = Result.ok b' ∧
        ∀ i, test_bit sizeof_long i b'.node_bootmem_map =
          if idx ≤ i ∧ i < idx + n then Result.ok false
          else test_bit sizeof_long i bdata.node_bootmem_map := by
  induction n with
  | zero =>
    intro bdata idx _
    refine ⟨bdata, rfl, ?_⟩
    intro i
    rw [if_neg (by omega)]
  | succ n ih =>
    intro bdata idx hset
    obtain ⟨m, hm, hbits⟩ := test_and_clear_bit_ok hL (hset idx (Nat.le_refl _) (by omega))
    have hrest : ∀ i, idx + 1 ≤ i → i < idx + 1 + n →
        test_bit sizeof_long i
          ({ bdata with node_bootmem_map := some m } : bootmem_data).node_bootmem_map =
          Result.ok true := by
      intro i h1 h2
      show test_bit sizeof_long i (some m) = Result.ok true
      rw [hbits i, if_neg (by omega)]
      exact hset i (by omega) (by omega)
    obtain ⟨b', hb', hb'bits⟩ := ih { bdata with node_bootmem_map := some m } (idx + 1) hrest
    refine ⟨b', ?_, ?_⟩
    · simp only [__free_loop, hm, Bool.not_true, Bool.false_eq_true, if_false]
      exact hb'
    · intro i
      rw [hb'bits i]
      show (if idx + 1 ≤ i ∧ i < idx + 1 + n then Result.ok false
        else test_bit sizeof_long i (some m)) = _
      rw [hbits i]
      by_cases hi : i = idx
      · subst hi
        rw [if_neg (by omega), if_pos rfl, if_pos (by omega)]
      · by_cases hr : idx ≤ i ∧ i < idx + (n + 1)
        · rw [if_pos (by omega), if_pos hr]
        · rw [if_neg (by omega), if_neg hi, if_neg hr]

theorem free_loop_bug_iff (sizeof_long : Nat) (hL : 0 < sizeof_long) (n : Nat) :
    ∀ (bdata : bootmem_data) (idx : Nat),
      __free_loop sizeof_long bdata idx n = Result.bug ↔
        ∃ i, idx ≤ i ∧ i < idx + n ∧
          test_bit sizeof_long i bdata.node_bootmem_map = Result.ok false := by
  induction n with
  | zero =>
    intro bdata idx
    constructor
    · intro h; simp [__free_loop] at h
    · rintro ⟨i, h1, h2, _⟩; omega
  | succ n ih =>
    intro bdata idx
    cases ht : test_bit sizeof_long idx bdata.node_bootmem_map with
    | bug => exact absurd ht (test_bit_ne_bug _ _ _)
    | fault =>
      constructor
      · intro h
        simp [__free_loop, test_and_clear_bit_fault ht] at h
      · rintro ⟨i, h1, _, h3⟩
        rw [test_bit_fault_mono ht h1] at h3
        cases h3
    | ok old =>
      obtain ⟨m, hm, hbits⟩ := test_and_clear_bit_ok hL ht
      cases old with
      | false =>
        constructor
        · intro _
          exact ⟨idx, Nat.le_refl _, by omega, ht⟩
        · intro _
          simp [__free_loop, hm]
      | true =>
        have hstep : __free_loop sizeof_long bdata idx (n + 1) =
            __free_loop sizeof_long { bdata with node_bootmem_map := some m } (idx + 1) n := by
          simp only [__free_loop, hm, Bool.not_true, Bool.false_eq_true, if_false]
        rw [hstep, ih]
        constructor
        · rintro ⟨i, h1, h2, h3⟩
          refine ⟨i, by omega, by omega, ?_⟩
          have : test_bit sizeof_long i (some m) = Result.ok false := h3
          rw [hbits i, if_neg (by omega)] at this
          exact this
        · rintro ⟨i, h1, h2, h3⟩
          have hne : i ≠ idx := by
            intro e; subst e; rw [ht] at h3; cases h3
          refine ⟨i, by omega, by omega, ?_⟩
          show test_bit sizeof_long i (some m) = Result.ok false
          rw [hbits i, if_neg hne]
          exact h3

/-! ## `__free` -/

theorem free_ok_spec (sizeof_long : Nat) (hL : 0 < sizeof_long)
    (bdata : bootmem_data) (sidx eidx : Nat)
    (hset : ∀ i, sidx ≤ i → i < eidx →
      test_bit sizeof_long i bdata.node_bootmem_map = Result.ok true) :
    ∃ b', __free sizeof_long bdata sidx eidx = Result.ok b' ∧
      (∀ i, test_bit sizeof_long i b'.node_bootmem_map =
        if sidx ≤ i ∧ i < eidx then Result.ok false
        else test_bit sizeof_long i bdata.node_bootmem_map) ∧
      b'.hint_idx = min bdata.hint_idx sidx ∧
      b'.last_end_off = bdata.last_end_off := by
  let b0 : bootmem_data :=
    if bdata.hint_idx > sidx then { bdata with hint_idx := sidx } else bdata
  have hmap : b0.node_bootmem_map = bdata.node_bootmem_map := by
    simp only [b0]; split <;> rfl
  have hhint : b0.hint_idx = min bdata.hint_idx sidx := by
    simp only [b0]; split
    · show sidx = _; omega
    · omega
  have hleo : b0.last_end_off = bdata.last_end_off := by
    simp only [b0]; split <;> rfl
  have hset0 : ∀ i, sidx ≤ i → i < sidx + (eidx - sidx) →
      test_bit sizeof_long i b0.node_bootmem_map = Result.ok true := by
    intro i h1 h2
    rw [hmap]
    exact hset i h1 (by omega)
  obtain ⟨b', hb', hbits⟩ := free_loop_ok sizeof_long hL (eidx - sidx) b0 sidx hset0
  obtain ⟨f1, f2, _, _⟩ := free_loop_fields sizeof_long _ _ _ _ hb'
  refine ⟨b', hb', ?_, by rw [f1, hhint], by rw [f2, hleo]⟩
  intro i
  rw [hbits i, hmap]
  by_cases hr : sidx ≤ i ∧ i < eidx
  · rw [if_pos (by omega), if_pos hr]
  · rw [if_neg (by omega), if_neg hr]

theorem free_fields (sizeof_long : Nat) (bdata b' : bootmem_data) (sidx eidx : Nat)
    (h : __free sizeof_long bdata sidx eidx = Result.ok b') :
    b'.hint_idx = min bdata.hint_idx sidx ∧ b'.last_end_off = bdata.last_end_off ∧
    b'.node_min_pfn = bdata.node_min_pfn ∧ b'.node_low_pfn = bdata.node_low_pfn := by
  obtain ⟨f1, f2, f3, f4⟩ := free_loop_fields sizeof_long _ _ _ _ h
  rw [f1, f2, f3, f4]
  by_cases hh : bdata.hint_idx > sidx
  · rw [if_pos hh]
    refine ⟨?_, rfl, rfl, rfl⟩
    show sidx = _
    omega
  · rw [if_neg hh]
    refine ⟨?_, rfl, rfl, rfl⟩
    omega

theorem free_bug_iff_spec (sizeof_long : Nat) (hL : 0 < sizeof_long)
    (bdata : bootmem_data) (sidx eidx : Nat) :
    __free sizeof_long bdata sidx eidx = Result.bug ↔
      ∃ i, sidx ≤ i ∧ i < eidx ∧
        test_bit sizeof_long i bdata.node_bootmem_map = Result.ok false := by
  unfold __free
  rw [free_loop_bug_iff sizeof_long hL]
  have hmap : (if bdata.hint_idx > sidx then { bdata with hint_idx := sidx }
      else bdata).node_bootmem_map = bdata.node_bootmem_map := by
    split <;> rfl
  rw [hmap]
  constructor
  · rintro ⟨i, h1, h2, h3⟩
    exact ⟨i, h1, by omega, h3⟩
  · rintro ⟨i, h1, h2, h3⟩
    exact ⟨i, h1, by omega, h3⟩

/-! ## The loop of `__reserve` -/

theorem EBUSY_ne_zero : -EBUSY ≠ 0 := by decide

theorem reserve_loop_success (sizeof_long exclusive sidx : Nat) (n : Nat) :
    ∀ (bdata : bootmem_data) (idx : Nat),
      (∀ i, idx ≤ i → i < idx + n →
        test_bit sizeof_long i bdata.node_bootmem_map = Result.ok false ∨
        (exclusive = 0 ∧ test_bit sizeof_long i bdata.node_bootmem_map = Result.ok true)) →
      ∃ b', __reserve_loop sizeof_long exclusive sidx bdata idx n = Result.ok (0, b') ∧
        (∀ i, test_bit sizeof_long i b'.node_bootmem_map =
          if idx ≤ i ∧ i < idx + n then Result.ok true
          else test_bit sizeof_long i bdata.node_bootmem_map) ∧
        b'.hint_idx = bdata.hint_idx ∧ b'.last_end_off = bdata.last_end_off ∧
        b'.node_min_pfn = bdata.node_min_pfn ∧ b'.node_low_pfn = bdata.node_low_pfn := by
  induction n with
  | zero =>
    intro bdata idx _
    refine ⟨bdata, rfl, ?_, rfl, rfl, rfl, rfl⟩
    intro i
    rw [if_neg (by omega)]
  | succ n ih =>
    intro bdata idx hbit
    have hex : ∃ old, test_bit sizeof_long idx bdata.node_bootmem_map = Result.ok old ∧
        (old = false ∨ (exclusive != 0) = false) := by
      rcases hbit idx (Nat.le_refl _) (by omega) with h | ⟨h0, h⟩
      · exact ⟨false, h, Or.inl rfl⟩
      · exact ⟨true, h, Or.inr (by simp [h0])⟩
    obtain ⟨old, hold, hcond⟩ := hex
    obtain ⟨m, hm, hbits⟩ := test_and_set_bit_ok hold
    have hrest : ∀ i, idx + 1 ≤ i → i < idx + 1 + n →
        test_bit sizeof_long i
          ({ bdata with node_bootmem_map := some m } : bootmem_data).node_bootmem_map =
          Result.ok false ∨
        (exclusive = 0 ∧ test_bit sizeof_long i
          ({ bdata with node_bootmem_map := some m } : bootmem_data).node_bootmem_map =
          Result.ok true) := by
      intro i h1 h2
      show test_bit sizeof_long i (some m) = _ ∨ (_ ∧ test_bit sizeof_long i (some m) = _)
      rw [hbits i, if_neg (by omega)]
      exact hbit i (by omega) (by omega)
    obtain ⟨b', hb', hb'bits, f1, f2, f3, f4⟩ :=
      ih { bdata with node_bootmem_map := some m } (idx + 1) hrest
    refine ⟨b', ?_, ?_, f1, f2, f3, f4⟩
    · rcases hcond with hc | hc
      · subst hc
        simp only [__reserve_loop, hm, Bool.false_eq_true, if_false]
        exact hb'
      · simp only [__reserve_loop, hm, hc, Bool.false_eq_true, if_false, ite_self]
        exact hb'
    · intro i
      rw [hb'bits i]
      show (if idx + 1 ≤ i ∧ i < idx + 1 + n then Result.ok true
        else test_bit sizeof_long i (some m)) = _
      rw [hbits i]
      by_cases hi : i = idx
      · subst hi
        rw [if_neg (by omega), if_pos rfl, if_pos (by omega)]
      · by_cases hr : idx ≤ i ∧ i < idx + (n + 1)
        · rw [if_pos (by omega), if_pos hr]
        · rw [if_neg (by omega), if_neg hi, if_neg hr]

theorem reserve_loop_conflict (sizeof_long exclusive sidx : Nat) (hL : 0 < sizeof_long)
    (hex : exclusive ≠ 0) (n : Nat) :
    ∀ (bdata : bootmem_data) (idx : Nat), sidx ≤ idx →
      (∀ i, sidx ≤ i → i < idx →
        test_bit sizeof_long i bdata.node_bootmem_map = Result.ok true) →
      (∃ j, idx ≤ j ∧ j < idx + n ∧
        test_bit sizeof_long j bdata.node_bootmem_map = Result.ok true) →
      ∃ b', __reserve_loop sizeof_long exclusive sidx bdata idx n = Result.ok (-EBUSY, b') ∧
        (∀ i, test_bit sizeof_long i b'.node_bootmem_map =
          if sidx ≤ i ∧ i < idx then Result.ok false
          else test_bit sizeof_long i bdata.node_bootmem_map) ∧
        b'.hint_idx = min bdata.hint_idx sidx ∧ b'.last_end_off = bdata.last_end_off := by
  induction n with
  | zero =>
    rintro bdata idx _ _ ⟨j, h1, h2, _⟩
    omega
  | succ n ih =>
    rintro bdata idx hle hdone ⟨j, hj1, hj2, hj3⟩
    cases ht : test_bit sizeof_long idx bdata.node_bootmem_map with
    | bug => exact absurd ht (test_bit_ne_bug _ _ _)
    | fault =>
      rw [test_bit_fault_mono ht hj1] at hj3
      cases hj3
    | ok old =>
      obtain ⟨m, hm, hbits⟩ := test_and_set_bit_ok ht
      cases old with
      | true =>
        have hsame : ∀ i, test_bit sizeof_long i (some m) =
            test_bit sizeof_long i bdata.node_bootmem_map := by
          intro i
          rw [hbits i]
          by_cases hi : i = idx
          · subst hi; rw [if_pos rfl, ht]
          · rw [if_neg hi]
        have hset : ∀ i, sidx ≤ i → i < idx →
            test_bit sizeof_long i
              ({ bdata with node_bootmem_map := some m } : bootmem_data).node_bootmem_map =
              Result.ok true := by
          intro i h1 h2
          show test_bit sizeof_long i (some m) = _
          rw [hsame i]
          exact hdone i h1 h2
        obtain ⟨b', hb', hb'bits, g1, g2⟩ :=
          free_ok_spec sizeof_long hL { bdata with node_bootmem_map := some m } sidx idx hset
        refine ⟨b', ?_, ?_, g1, g2⟩
        · have hc : (exclusive != 0) = true := by simp [hex]
          simp only [__reserve_loop, hm, hc, if_true, hb']
        · intro i
          rw [hb'bits i]
          show (if sidx ≤ i ∧ i < idx then Result.ok false
            else test_bit sizeof_long i (some m)) = _
          rw [hsame i]
      | false =>
        have hne : j ≠ idx := by
          intro e; subst e; rw [ht] at hj3; cases hj3
        have hdone' : ∀ i, sidx ≤ i → i < idx + 1 →
            test_bit sizeof_long i
              ({ bdata with node_bootmem_map := some m } : bootmem_data).node_bootmem_map =
              Result.ok true := by
          intro i h1 h2
          show test_bit sizeof_long i (some m) = _
          rw [hbits i]
          by_cases hi : i = idx
          · rw [if_pos hi]
          · rw [if_neg hi]
            exact hdone i h1 (by omega)
        have hj' : ∃ j, idx + 1 ≤ j ∧ j < idx + 1 + n ∧
            test_bit sizeof_long j
              ({ bdata with node_bootmem_map := some m } : bootmem_data).node_bootmem_map =
              Result.ok true := by
          refine ⟨j, by omega, by omega, ?_⟩
          show test_bit sizeof_long j (some m) = _
          rw [hbits j, if_neg hne]
          exact hj3
        obtain ⟨b', hb', hb'bits, g1, g2⟩ :=
          ih { bdata with node_bootmem_map := some m } (idx + 1) (by omega) hdone' hj'
        refine ⟨b', ?_, ?_, g1, g2⟩
        · simp only [__reserve_loop, hm, Bool.false_eq_true, if_false]
          exact hb'
        · intro i
          rw [hb'bits i]
          show (if sidx ≤ i ∧ i < idx + 1 then Result.ok false
            else test_bit sizeof_long i (some m)) = _
          rw [hbits i]
          by_cases hi : i = idx
          · subst hi
            rw [if_pos (by omega), if_neg (by omega), ht]
          · by_cases hr : sidx ≤ i ∧ i < idx
            · rw [if_pos (by omega), if_pos hr]
            · rw [if_neg (by omega), if_neg hi, if_neg hr]

theorem reserve_loop_zero_clear (sizeof_long exclusive sidx : Nat)
    (hex : exclusive ≠ 0) (n : Nat) :
    ∀ (bdata b' : bootmem_data) (idx : Nat),
      __reserve_loop sizeof_long exclusive sidx bdata idx n = Result.ok (0, b') →
      ∀ i, idx ≤ i → i < idx + n →
        test_bit sizeof_long i bdata.node_bootmem_map = Result.ok false := by
  induction n with
  | zero =>
    intro bdata b' idx _ i h1 h2
    omega
  | succ n ih =>
    intro bdata b' idx hres i h1 h2
    cases ht : test_bit sizeof_long idx bdata.node_bootmem_map with
    | bug => exact absurd ht (test_bit_ne_bug _ _ _)
    | fault =>
      simp [__reserve_loop, test_and_set_bit_fault ht] at hres
    | ok old =>
      obtain ⟨m, hm, hbits⟩ := test_and_set_bit_ok ht
      cases old with
      | true =>
        have hc : (exclusive != 0) = true := by simp [hex]
        simp only [__reserve_loop, hm, hc, if_true] at hres
        cases hf : __free sizeof_long { bdata with node_bootmem_map := some m } sidx idx with
        | fault => rw [hf] at hres; cases hres
        | bug => rw [hf] at hres; cases hres
        | ok b2 =>
          rw [hf] at hres
          injection hres with hres
          injection hres with h0 _
          exact absurd h0 EBUSY_ne_zero
      | false =>
        simp only [__reserve_loop, hm, Bool.false_eq_true, if_false] at hres
        by_cases hi : i = idx
        · subst hi; exact ht
        · have := ih { bdata with node_bootmem_map := some m } b' (idx + 1) hres i
            (by omega) (by omega)
          have h' : test_bit sizeof_long i (some m) = Result.ok false := this
          rw [hbits i, if_neg hi] at h'
          exact h'

theorem set_map_self (bdata : bootmem_data) (m : Bitmap)
    (h : bdata.node_bootmem_map = some m) :
    ({ bdata with node_bootmem_map := some m } : bootmem_data) = bdata := by
  cases bdata
  simp only at h
  subst h
  rfl

theorem reserve_loop_idem (sizeof_long sidx : Nat) (n : Nat) :
    ∀ (bdata : bootmem_data) (idx : Nat),
      (∀ i, idx ≤ i → i < idx + n →
        test_bit sizeof_long i bdata.node_bootmem_map = Result.ok true) →
      __reserve_loop sizeof_long 0 sidx bdata idx n = Result.ok (0, bdata) := by
  induction n with
  | zero => intro bdata idx _; rfl
  | succ n ih =>
    intro bdata idx hset
    have ht := hset idx (Nat.le_refl _) (by omega)
    cases hmap : bdata.node_bootmem_map with
    | none => rw [hmap] at ht; cases ht
    | some m =>
      rw [hmap] at ht
      have hm := test_and_set_bit_of_set ht
      have hrest := ih bdata (idx + 1) (fun i h1 h2 => hset i (by omega) (by omega))
      simp only [__reserve_loop, hmap, hm, set_map_self bdata m hmap]
      simpa using hrest

/-! ## Well-formed bitmaps: equality from equal bits -/

theorem test_and_set_bit_words_fit {sizeof_long nr : Nat} {addr : Option Bitmap}
    {old : Bool} {m' : Bitmap} (hL : 0 < sizeof_long)
    (h : test_and_set_bit sizeof_long nr addr = Result.ok (old, m'))
    (hwf : words_fit sizeof_long addr) :
    words_fit sizeof_long (some m') ∧ addr.isSome = true := by
  have hB := bits_pos hL
  cases addr with
  | none => simp [test_and_set_bit] at h
  | some m =>
    refine ⟨?_, rfl⟩
    cases hw : m[BIT_WORD sizeof_long nr]? with
    | none => simp [test_and_set_bit, hw] at h
    | some w =>
      simp only [test_and_set_bit, hw] at h
      injection h with h
      injection h with _ h
      subst h
      have hwm : w ∈ m := by
        rcases List.getElem?_eq_some.mp hw with ⟨hl, e⟩
        rw [← e]; exact List.getElem_mem _
      have hpos : 0 < 2 ^ BITS_PER_LONG sizeof_long := Nat.pow_pos (by decide)
      have hwlt : w < 2 ^ BITS_PER_LONG sizeof_long := by
        have := hwf w hwm
        unfold ULONG_MAX at this
        omega
      have hmask : BIT_MASK sizeof_long nr < 2 ^ BITS_PER_LONG sizeof_long := by
        unfold BIT_MASK
        rw [Nat.one_shiftLeft]
        exact Nat.pow_lt_pow_right (by decide) (Nat.mod_lt nr hB)
      intro x hx
      rcases List.mem_or_eq_of_mem_set hx with hx | hx
      · exact hwf x hx
      · subst hx
        have := Nat.or_lt_two_pow hwlt hmask
        unfold ULONG_MAX
        omega

theorem test_and_clear_bit_words_fit {sizeof_long nr : Nat} {addr : Option Bitmap}
    {old : Bool} {m' : Bitmap}
    (h : test_and_clear_bit sizeof_long nr addr = Result.ok (old, m'))
    (hwf : words_fit sizeof_long addr) :
    words_fit sizeof_long (some m') ∧ addr.isSome = true := by
  cases addr with
  | none => simp [test_and_clear_bit] at h
  | some m =>
    refine ⟨?_, rfl⟩
    cases hw : m[BIT_WORD sizeof_long nr]? with
    | none => simp [test_and_clear_bit, hw] at h
    | some w =>
      simp only [test_and_clear_bit, hw] at h
      injection h with h
      injection h with _ h
      subst h
      have hwm : w ∈ m := by
        rcases List.getElem?_eq_some.mp hw with ⟨hl, e⟩
        rw [← e]; exact List.getElem_mem _
      intro x hx
      rcases List.mem_or_eq_of_mem_set hx with hx | hx
      · exact hwf x hx
      · subst hx
        exact Nat.le_trans Nat.and_le_left (hwf w hwm)

theorem free_loop_words_fit (sizeof_long : Nat) (n : Nat) :
    ∀ (bdata b' : bootmem_data) (idx : Nat),
      __free_loop sizeof_long bdata idx n = Result.ok b' →
      words_fit sizeof_long bdata.node_bootmem_map →
      words_fit sizeof_long b'.node_bootmem_map ∧
      b'.node_bootmem_map.isSome = bdata.node_bootmem_map.isSome := by
  induction n with
  | zero =>
    intro bdata b' idx h hwf
    simp only [__free_loop] at h
    injection h with h
    subst h
    exact ⟨hwf, rfl⟩
  | succ n ih =>
    intro bdata b' idx h hwf
    simp only [__free_loop] at h
    cases hc : test_and_clear_bit sizeof_long idx bdata.node_bootmem_map with
    | fault => rw [hc] at h; cases h
    | bug => rw [hc] at h; cases h
    | ok p =>
      obtain ⟨old, m⟩ := p
      rw [hc] at h
      obtain ⟨hwf', hsome⟩ := test_and_clear_bit_words_fit hc hwf
      cases old with
      | false => simp at h
      | true =>
        simp only [Bool.not_true, Bool.false_eq_true, if_false] at h
        have hi := ih { bdata with node_bootmem_map := some m } b' (idx + 1) h hwf'
        exact ⟨hi.1, by rw [hi.2, hsome]; rfl⟩

theorem free_words_fit (sizeof_long : Nat) (bdata b' : bootmem_data) (sidx eidx : Nat)
    (h : __free sizeof_long bdata sidx eidx = Result.ok b')
    (hwf : words_fit sizeof_long bdata.node_bootmem_map) :
    words_fit sizeof_long b'.node_bootmem_map ∧
    b'.node_bootmem_map.isSome = bdata.node_bootmem_map.isSome := by
  have hmap : (if bdata.hint_idx > sidx then { bdata with hint_idx := sidx }
      else bdata).node_bootmem_map = bdata.node_bootmem_map := by
    split <;> rfl
  have := free_loop_words_fit sizeof_long _ _ b' sidx h (by rw [hmap]; exact hwf)
  rw [hmap] at this
  exact this

theorem reserve_loop_words_fit (sizeof_long exclusive sidx : Nat) (hL : 0 < sizeof_long)
    (n : Nat) :
    ∀ (bdata b' : bootmem_data) (idx : Nat) (r : Int),
      __reserve_loop sizeof_long exclusive sidx bdata idx n = Result.ok (r, b') →
      words_fit sizeof_long bdata.node_bootmem_map →
      words_fit sizeof_long b'.node_bootmem_map ∧
      b'.node_bootmem_map.isSome = bdata.node_bootmem_map.isSome := by
  induction n with
  | zero =>
    intro bdata b' idx r h hwf
    simp only [__reserve_loop] at h
    injection h with h
    injection h with _ h
    subst h
    exact ⟨hwf, rfl⟩
  | succ n ih =>
    intro bdata b' idx r h hwf
    simp only [__reserve_loop] at h
    cases hc : test_and_set_bit sizeof_long idx bdata.node_bootmem_map with
    | fault => rw [hc] at h; cases h
    | bug => rw [hc] at h; cases h
    | ok p =>
      obtain ⟨old, m⟩ := p
      rw [hc] at h
      obtain ⟨hwf', hsome⟩ := test_and_set_bit_words_fit hL hc hwf
      have hrec : ∀ h' : __reserve_loop sizeof_long exclusive sidx
          { bdata with node_bootmem_map := some m } (idx + 1) n = Result.ok (r, b'),
          words_fit sizeof_long b'.node_bootmem_map ∧
          b'.node_bootmem_map.isSome = bdata.node_bootmem_map.isSome := by
        intro h'
        have hi := ih { bdata with node_bootmem_map := some m } b' (idx + 1) r h' hwf'
        exact ⟨hi.1, by rw [hi.2, hsome]; rfl⟩
      cases old with
      | false =>
        simp only [Bool.false_eq_true, if_false] at h
        exact hrec h
      | true =>
        simp only [if_true] at h
        by_cases hx : (exclusive != 0) = true
        · rw [if_pos hx] at h
          cases hf : __free sizeof_long { bdata with node_bootmem_map := some m } sidx idx with
          | fault => rw [hf] at h; cases h
          | bug => rw [hf] at h; cases h
          | ok b2 =>
            rw [hf] at h
            injection h with h
            injection h with _ h
            subst h
            have hi := free_words_fit sizeof_long _ _ sidx idx hf hwf'
            exact ⟨hi.1, by rw [hi.2, hsome]; rfl⟩
        · rw [if_neg hx] at h
          exact hrec h

theorem bitmap_ext (sizeof_long : Nat) (hL : 0 < sizeof_long) (m m' : Bitmap)
    (hwf : words_fit sizeof_long (some m)) (hwf' : words_fit sizeof_long (some m'))
    (h : ∀ i, test_bit sizeof_long i (some m') = test_bit sizeof_long i (some m)) :
    m' = m := by
  have hB := bits_pos hL
  apply List.ext_getElem?
  intro k
  have hword : ∀ j, j < BITS_PER_LONG sizeof_long →
      (k * BITS_PER_LONG sizeof_long + j) / BITS_PER_LONG sizeof_long = k ∧
      (k * BITS_PER_LONG sizeof_long + j) % BITS_PER_LONG sizeof_long = j := by
    intro j hj
    constructor
    · rw [Nat.mul_comm, Nat.mul_add_div hB, Nat.div_eq_of_lt hj, Nat.add_zero]
    · rw [Nat.mul_comm, Nat.mul_add_mod, Nat.mod_eq_of_lt hj]
  have h0 := h (k * BITS_PER_LONG sizeof_long + 0)
  rw [test_bit_some, test_bit_some, (hword 0 hB).1] at h0
  cases hk' : m'[k]? with
  | none =>
    cases hk : m[k]? with
    | none => rfl
    | some w => rw [hk', hk] at h0; cases h0
  | some w' =>
    cases hk : m[k]? with
    | none => rw [hk', hk] at h0; cases h0
    | some w =>
      have hwm : w ∈ m := by
        rcases List.getElem?_eq_some.mp hk with ⟨hl, e⟩
        rw [← e]; exact List.getElem_mem _
      have hwm' : w' ∈ m' := by
        rcases List.getElem?_eq_some.mp hk' with ⟨hl, e⟩
        rw [← e]; exact List.getElem_mem _
      have hpos : 0 < 2 ^ BITS_PER_LONG sizeof_long := Nat.pow_pos (by decide)
      have hlt : w < 2 ^ BITS_PER_LONG sizeof_long := by
        have := hwf w hwm; unfold ULONG_MAX at this; omega
      have hlt' : w' < 2 ^ BITS_PER_LONG sizeof_long := by
        have := hwf' w' hwm'; unfold ULONG_MAX at this; omega
      congr 1
      apply Nat.eq_of_testBit_eq
      intro j
      by_cases hj : j < BITS_PER_LONG sizeof_long
      · have hj' := h (k * BITS_PER_LONG sizeof_long + j)
        rw [test_bit_some, test_bit_some, (hword j hj).1, (hword j hj).2, hk', hk] at hj'
        injection hj'
      · have hge : BITS_PER_LONG sizeof_long ≤ j := Nat.le_of_not_lt hj
        have hp : 2 ^ BITS_PER_LONG sizeof_long ≤ 2 ^ j :=
          Nat.pow_le_pow_right (by decide) hge
        rw [Nat.testBit_lt_two_pow (Nat.lt_of_lt_of_le hlt' hp),
          Nat.testBit_lt_two_pow (Nat.lt_of_lt_of_le hlt hp)]

theorem map_eq_of_bits_eq (sizeof_long : Nat) (hL : 0 < sizeof_long)
    (addr addr' : Option Bitmap)
    (hwf : words_fit sizeof_long addr) (hwf' : words_fit sizeof_long addr')
    (hsome : addr'.isSome = addr.isSome)
    (h : ∀ i, test_bit sizeof_long i addr' = test_bit sizeof_long i addr) :
    addr' = addr := by
  cases addr with
  | none =>
    cases addr' with
    | none => rfl
    | some m' => cases hsome
  | some m =>
    cases addr' with
    | none => cases hsome
    | some m' => rw [bitmap_ext sizeof_long hL m m' hwf hwf' h]

/-! ## `ALIGN` and `bootmap_bytes` -/

theorem and_high_mask (y k W : Nat) (hy : y < 2 ^ W) (hk : k ≤ W) :
    y &&& (2 ^ W - 1 - (2 ^ k - 1)) = y / 2 ^ k * 2 ^ k := by
  have hkpos : 0 < 2 ^ k := Nat.pow_pos (by decide)
  have hkW : 2 ^ k ≤ 2 ^ W := Nat.pow_le_pow_right (by decide) hk
  have hlt : 2 ^ k - 1 < 2 ^ W := by omega
  have hrw : 2 ^ W - 1 - (2 ^ k - 1) = 2 ^ W - (2 ^ k - 1 + 1) := by omega
  apply Nat.eq_of_testBit_eq
  intro i
  rw [hrw, Nat.testBit_and, Nat.testBit_two_pow_sub_succ hlt, Nat.testBit_two_pow_sub_one,
    Nat.mul_comm, Nat.testBit_mul_pow_two, ← Nat.shiftRight_eq_div_pow, Nat.testBit_shiftRight]
  by_cases h1 : i < k
  · simp [h1, Nat.not_le.mpr h1]
  · have h1' : k ≤ i := Nat.le_of_not_lt h1
    have e : k + (i - k) = i := by omega
    rw [e]
    by_cases h2 : i < W
    · simp [h1, h1', h2]
    · have h2' : W ≤ i := Nat.le_of_not_lt h2
      have : y.testBit i = false :=
        Nat.testBit_lt_two_pow (Nat.lt_of_lt_of_le hy (Nat.pow_le_pow_right (by decide) h2'))
      simp [this]

theorem ALIGN_two_pow (sizeof_long x k : Nat) (hk : k ≤ BITS_PER_LONG sizeof_long)
    (hx : x + (2 ^ k - 1) < 2 ^ BITS_PER_LONG sizeof_long) :
    ALIGN sizeof_long x (2 ^ k) = (x + (2 ^ k - 1)) / 2 ^ k * 2 ^ k := by
  have hkpos : 0 < 2 ^ k := Nat.pow_pos (by decide)
  have hlt : 2 ^ k - 1 < 2 ^ BITS_PER_LONG sizeof_long := by omega
  have hmask : ulong sizeof_long (2 ^ k + ULONG_MAX sizeof_long) = 2 ^ k - 1 := by
    unfold ulong ULONG_MAX
    have e : 2 ^ k + (2 ^ BITS_PER_LONG sizeof_long - 1) =
        (2 ^ k - 1) + 2 ^ BITS_PER_LONG sizeof_long := by omega
    rw [e, Nat.add_mod_right, Nat.mod_eq_of_lt hlt]
  unfold ALIGN
  simp only [hmask]
  unfold ulong ULONG_MAX
  rw [Nat.mod_eq_of_lt hx]
  exact and_high_mask _ _ _ hx hk

theorem lt_eight_mul_two_pow (k : Nat) : k + 3 ≤ 8 * 2 ^ k := by
  have := Nat.lt_two_pow k
  omega

theorem bootmap_bytes_eq (sizeof_long k pages : Nat) (hpow : sizeof_long = 2 ^ k)
    (hfit : pages + 7 ≤ ULONG_MAX sizeof_long) :
    bootmap_bytes sizeof_long pages =
      sizeof_long * ((pages + 8 * sizeof_long - 1) / (8 * sizeof_long)) := by
  subst hpow
  have hk3 := lt_eight_mul_two_pow k
  have hkpos : 0 < 2 ^ k := Nat.pow_pos (by decide)
  have hW : (2 : Nat) ^ BITS_PER_LONG (2 ^ k) = 8 * 2 ^ (8 * 2 ^ k - 3) := by
    unfold BITS_PER_LONG
    have : 8 * 2 ^ k = 3 + (8 * 2 ^ k - 3) := by omega
    conv_lhs => rw [this, Nat.pow_add]
  have hWpos : 0 < 2 ^ BITS_PER_LONG (2 ^ k) := Nat.pow_pos (by decide)
  have hfit' : pages + 7 < 2 ^ BITS_PER_LONG (2 ^ k) := by
    unfold ULONG_MAX at hfit; omega
  have hk2 : 2 ^ k ≤ 2 ^ (8 * 2 ^ k - 3) := Nat.pow_le_pow_right (by decide) (by omega)
  have hbytes : (pages + 7) / 8 < 2 ^ (8 * 2 ^ k - 3) := by
    rw [Nat.div_lt_iff_lt_mul (by decide)]; omega
  unfold bootmap_bytes
  simp only [ulong, Nat.mod_eq_of_lt hfit']
  rw [ALIGN_two_pow _ _ k (by unfold BITS_PER_LONG; omega) (by omega)]
  have e1 : (pages + 7) / 8 + (2 ^ k - 1) = (pages + 7 + 8 * (2 ^ k - 1)) / 8 := by
    rw [Nat.add_mul_div_left _ _ (by decide : 0 < 8)]
  have e2 : pages + 7 + 8 * (2 ^ k - 1) = pages + 8 * 2 ^ k - 1 := by omega
  rw [e1, e2, Nat.div_div_eq_div_mul, Nat.mul_comm]

theorem bootmap_bytes_props (sizeof_long k pages : Nat) (hpow : sizeof_long = 2 ^ k)
    (hfit : pages + 7 ≤ ULONG_MAX sizeof_long) :
    sizeof_long ∣ bootmap_bytes sizeof_long pages ∧
    pages ≤ 8 * bootmap_bytes sizeof_long pages ∧
    ∀ b, sizeof_long ∣ b → pages ≤ 8 * b → bootmap_bytes sizeof_long pages ≤ b := by
  rw [bootmap_bytes_eq sizeof_long k pages hpow hfit]
  have hLpos : 0 < sizeof_long := by rw [hpow]; exact Nat.pow_pos (by decide)
  have hpos : 0 < 8 * sizeof_long := by omega
  refine ⟨Nat.dvd_mul_right _ _, ?_, ?_⟩
  · have h := Nat.lt_div_mul_add (a := pages + 8 * sizeof_long - 1) hpos
    have e : 8 * (sizeof_long * ((pages + 8 * sizeof_long - 1) / (8 * sizeof_long))) =
        (pages + 8 * sizeof_long - 1) / (8 * sizeof_long) * (8 * sizeof_long) := by
      rw [Nat.mul_comm _ (8 * sizeof_long), Nat.mul_assoc]
    rw [e]
    omega
  · rintro b ⟨c, rfl⟩ hb
    apply Nat.mul_le_mul_left
    have hlt : pages + 8 * sizeof_long - 1 < (c + 1) * (8 * sizeof_long) := by
      have : 8 * (sizeof_long * c) = c * (8 * sizeof_long) := by
        rw [Nat.mul_comm c, Nat.mul_assoc]
      rw [Nat.add_mul, Nat.one_mul]
      omega
    have := (Nat.div_lt_iff_lt_mul hpos).mpr hlt
    omega

/-! ## `memset` and `init_bootmem_core` -/

theorem fill_word_ff (n : Nat) : fill_word 0xff n = 2 ^ (8 * n) - 1 := by
  induction n with
  | zero => rfl
  | succ n ih =>
    have hpos : 0 < 2 ^ (8 * n) := Nat.pow_pos (by decide)
    have e : (2 : Nat) ^ (8 * (n + 1)) = 256 * 2 ^ (8 * n) := by
      rw [Nat.mul_add, Nat.pow_add, Nat.mul_comm]
    simp only [fill_word]
    rw [ih, e]
    omega

theorem test_bit_memset_ff (sizeof_long n i : Nat) (hL : 0 < sizeof_long)
    (hdvd : sizeof_long ∣ n) :
    test_bit sizeof_long i (some (memset sizeof_long 0xff n)) =
      if i < 8 * n then Result.ok true else Result.fault := by
  have hB := bits_pos hL
  have hiff : i / BITS_PER_LONG sizeof_long < n / sizeof_long ↔ i < 8 * n := by
    rw [Nat.div_lt_iff_lt_mul hB]
    have : n / sizeof_long * BITS_PER_LONG sizeof_long = 8 * n := by
      unfold BITS_PER_LONG
      rw [Nat.mul_comm 8, ← Nat.mul_assoc, Nat.div_mul_cancel hdvd, Nat.mul_comm]
    rw [this]
  rw [test_bit_some]
  unfold memset
  rw [List.getElem?_replicate]
  by_cases h : i < 8 * n
  · rw [if_pos (hiff.mpr h), if_pos h]
    show Result.ok _ = _
    rw [fill_word_ff]
    have : (2 ^ (8 * sizeof_long) - 1).testBit (i % BITS_PER_LONG sizeof_long) = true := by
      rw [Nat.testBit_two_pow_sub_one]
      exact decide_eq_true (Nat.mod_lt i hB)
    rw [this]
  · rw [if_neg (fun h' => h (hiff.mp h')), if_neg h]

theorem init_bootmem_core_spec (sizeof_long k : Nat) (hpow : sizeof_long = 2 ^ k)
    (validate : Nat → Nat → Nat × Nat) (bdata_list : List bootmem_data)
    (bdata : bootmem_data) (mapstart start end_ : Nat)
    (hle : start ≤ end_) (hend : end_ ≤ ULONG_MAX sizeof_long)
    (hval : validate start end_ = (start, end_))
    (hfit : end_ - start + 7 ≤ ULONG_MAX sizeof_long) :
    ∃ region,
      init_bootmem_core sizeof_long validate bdata_list bdata mapstart start end_ =
        (bootmap_bytes sizeof_long (end_ - start), region,
          link_bootmem region bdata_list) ∧
      region.node_min_pfn = start ∧ region.node_low_pfn = end_ ∧
      region.last_end_off = bdata.last_end_off ∧ region.hint_idx = bdata.hint_idx ∧
      end_ - start ≤ 8 * bootmap_bytes sizeof_long (end_ - start) ∧
      ∀ i, test_bit sizeof_long i region.node_bootmem_map =
        if i < 8 * bootmap_bytes sizeof_long (end_ - start) then Result.ok true
        else Result.fault := by
  have hLpos : 0 < sizeof_long := by rw [hpow]; exact Nat.pow_pos (by decide)
  have hWpos : 0 < 2 ^ BITS_PER_LONG sizeof_long := Nat.pow_pos (by decide)
  have hsub : ulong sizeof_long (end_ + 2 ^ BITS_PER_LONG sizeof_long - start) =
      end_ - start := by
    unfold ulong
    unfold ULONG_MAX at hend
    have e : end_ + 2 ^ BITS_PER_LONG sizeof_long - start =
        (end_ - start) + 2 ^ BITS_PER_LONG sizeof_long := by omega
    rw [e, Nat.add_mod_right, Nat.mod_eq_of_lt (by omega)]
  obtain ⟨hdvd, hcap, _⟩ := bootmap_bytes_props sizeof_long k (end_ - start) hpow hfit
  refine ⟨{ bdata with
      node_bootmem_map := some (memset sizeof_long 0xff (bootmap_bytes sizeof_long (end_ - start)))
      node_min_pfn := start
      node_low_pfn := end_ }, ?_, rfl, rfl, rfl, rfl, hcap, ?_⟩
  · simp only [init_bootmem_core, hval, hsub]
  · intro i
    exact test_bit_memset_ff sizeof_long _ i hLpos hdvd

/-! ## `link_bootmem` -/

theorem link_bootmem_split (bdata : bootmem_data) (l : List bootmem_data) :
    ∃ l1 l2, l = l1 ++ l2 ∧ link_bootmem bdata l = l1 ++ bdata :: l2 ∧
      (∀ x ∈ l1, x.node_min_pfn ≤ bdata.node_min_pfn) ∧
      (∀ x, l2.head? = some x → bdata.node_min_pfn < x.node_min_pfn) := by
  induction l with
  | nil => exact ⟨[], [], rfl, rfl, by simp, by simp⟩
  | cons ent rest ih =>
    by_cases h : bdata.node_min_pfn < ent.node_min_pfn
    · refine ⟨[], ent :: rest, rfl, ?_, by simp, ?_⟩
      · simp only [link_bootmem, if_pos h, List.nil_append]
      · intro x hx
        simp only [List.head?_cons, Option.some.injEq] at hx
        subst hx
        exact h
    · obtain ⟨l1, l2, h1, h2, h3, h4⟩ := ih
      refine ⟨ent :: l1, l2, by rw [h1]; rfl, ?_, ?_, h4⟩
      · simp only [link_bootmem, if_neg h, h2, List.cons_append]
      · intro x hx
        rcases List.mem_cons.mp hx with rfl | hx
        · omega
        · exact h3 x hx

theorem pairwise_insert_middle {α : Type} {R : α → α → Prop} (l1 l2 : List α) (b : α)
    (h : (l1 ++ l2).Pairwise R) (hl : ∀ x ∈ l1, R x b) (hr : ∀ x ∈ l2, R b x) :
    (l1 ++ b :: l2).Pairwise R := by
  rw [List.pairwise_append] at h ⊢
  obtain ⟨p1, p2, p3⟩ := h
  refine ⟨p1, List.pairwise_cons.mpr ⟨hr, p2⟩, ?_⟩
  intro x hx y hy
  rcases List.mem_cons.mp hy with rfl | hy
  · exact hl x hx
  · exact p3 x hx y hy

theorem link_bootmem_sorted (bdata : bootmem_data) (l : List bootmem_data)
    (hs : sorted_by_min_pfn l) : sorted_by_min_pfn (link_bootmem bdata l) := by
  obtain ⟨l1, l2, h1, h2, h3, h4⟩ := link_bootmem_split bdata l
  unfold sorted_by_min_pfn at hs ⊢
  rw [h2]
  rw [h1] at hs
  apply pairwise_insert_middle l1 l2 bdata hs h3
  intro x hx
  cases l2 with
  | nil => cases hx
  | cons y ys =>
    have hy := h4 y rfl
    rcases List.mem_cons.mp hx with rfl | hx
    · omega
    · have := (List.pairwise_cons.mp (List.pairwise_append.mp hs).2.1).1 x hx
      omega

theorem overlaps_symm (a b : bootmem_data) : overlaps a b ↔ overlaps b a := by
  unfold overlaps ranges_overlap
  rw [Nat.max_comm, Nat.min_comm]

theorem overlaps_iff_common_frame (a b : bootmem_data) :
    overlaps a b ↔ ∃ f, a.node_min_pfn ≤ f ∧ f < a.node_low_pfn ∧
      b.node_min_pfn ≤ f ∧ f < b.node_low_pfn := by
  unfold overlaps ranges_overlap
  constructor
  · intro h
    exact ⟨max a.node_min_pfn b.node_min_pfn, by omega, by omega, by omega, by omega⟩
  · rintro ⟨f, h1, h2, h3, h4⟩
    omega

theorem link_bootmem_disjoint (bdata : bootmem_data) (l : List bootmem_data)
    (hd : pairwise_disjoint l) (hnew : ∀ x ∈ l, ¬ overlaps bdata x) :
    pairwise_disjoint (link_bootmem bdata l) := by
  obtain ⟨l1, l2, h1, h2, _, _⟩ := link_bootmem_split bdata l
  unfold pairwise_disjoint at hd ⊢
  rw [h2]
  rw [h1] at hd
  apply pairwise_insert_middle l1 l2 bdata hd
  · intro x hx
    rw [overlaps_symm]
    exact hnew x (by rw [h1]; exact List.mem_append_left _ hx)
  · intro x hx
    exact hnew x (by rw [h1]; exact List.mem_append_right _ hx)

/-! ## Claims on sizing and registration -/

/-- C1 (amended): for every page count `pages` with `pages + 7` not above
`ULONG_MAX`, and a word size that is a power of two, `bootmap_bytes pages` is
`sizeof(long) * ceil(pages / (8 * sizeof(long)))`: a multiple of the word size
that holds at least `pages` bits, and the smallest such value.  With 8-byte
words `bootmap_bytes 100 = 16` and `bootmap_bytes 65 = 16`. -/
theorem bootmap_bytes_is_word_ceiling (sizeof_long k pages : Nat)
    (hpow : sizeof_long = 2 ^ k) (hfit : pages + 7 ≤ ULONG_MAX sizeof_long) :
    bootmap_bytes sizeof_long pages =
      sizeof_long * ((pages + 8 * sizeof_long - 1) / (8 * sizeof_long)) ∧
    sizeof_long ∣ bootmap_bytes sizeof_long pages ∧
    pages ≤ 8 * bootmap_bytes sizeof_long pages ∧
    (∀ b, sizeof_long ∣ b → pages ≤ 8 * b → bootmap_bytes sizeof_long pages ≤ b) ∧
    bootmap_bytes 8 100 = 16 ∧ bootmap_bytes 8 65 = 16 := by
  obtain ⟨h1, h2, h3⟩ := bootmap_bytes_props sizeof_long k pages hpow hfit
  exact ⟨bootmap_bytes_eq sizeof_long k pages hpow hfit, h1, h2, h3, by decide, by decide⟩

theorem bootmap_bytes_is_word_ceiling_witness :
    bootmap_bytes 8 1000 = 8 * ((1000 + 8 * 8 - 1) / (8 * 8)) ∧
    8 ∣ bootmap_bytes 8 1000 ∧
    1000 ≤ 8 * bootmap_bytes 8 1000 ∧
    (∀ b, 8 ∣ b → 1000 ≤ 8 * b → bootmap_bytes 8 1000 ≤ b) ∧
    bootmap_bytes 8 100 = 16 ∧ bootmap_bytes 8 65 = 16 :=
  bootmap_bytes_is_word_ceiling 8 3 1000 (by decide) (by decide)

/-- C1 as stated fails at the top of the `unsigned long` range: for
`pages = ULONG_MAX` on a 64-bit machine `pages + 7` wraps to 6, so
`bootmap_bytes` returns 0, which neither holds `pages` bits nor equals
`8 * ceil(pages / 64)`. -/
theorem bootmap_bytes_wraps_at_ulong_max :
    bootmap_bytes 8 (2 ^ 64 - 1) = 0 ∧
    ¬ (2 ^ 64 - 1 ≤ 8 * bootmap_bytes 8 (2 ^ 64 - 1)) ∧
    bootmap_bytes 8 (2 ^ 64 - 1) ≠ 8 * ((2 ^ 64 - 1 + 8 * 8 - 1) / (8 * 8)) := by
  decide

/-- C2 (amended): for `start ≤ end ≤ ULONG_MAX` with `end - start + 7` not above
`ULONG_MAX`, a word size that is a power of two and frame numbers that the limit
validation leaves unchanged, `init_bootmem_core` (and `init_bootmem_node`, which
forwards to it) returns `bootmap_bytes (end - start)`, sets `node_min_pfn = start`
and `node_low_pfn = end`, links the region into the registry, and leaves a bitmap
of exactly that many bytes in which every bit is 1: every index in
`[0, end - start)` and the padding bits up to the end of the last word. -/
theorem init_bootmem_core_marks_all_reserved (sizeof_long k : Nat)
    (hpow : sizeof_long = 2 ^ k)
    (validate : Nat → Nat → Nat × Nat) (bdata_list : List bootmem_data)
    (bdata : bootmem_data) (mapstart start end_ : Nat)
    (hle : start ≤ end_) (hend : end_ ≤ ULONG_MAX sizeof_long)
    (hval : validate start end_ = (start, end_))
    (hfit : end_ - start + 7 ≤ ULONG_MAX sizeof_long) :
    ∃ region,
      init_bootmem_core sizeof_long validate bdata_list bdata mapstart start end_ =
        (bootmap_bytes sizeof_long (end_ - start), region,
          link_bootmem region bdata_list) ∧
      init_bootmem_node sizeof_long validate bdata_list bdata mapstart start end_ =
        (bootmap_bytes sizeof_long (end_ - start), region,
          link_bootmem region bdata_list) ∧
      region.node_min_pfn = start ∧ region.node_low_pfn = end_ ∧
      (∀ i, i < end_ - start →
        test_bit sizeof_long i region.node_bootmem_map = Result.ok true) ∧
      (∀ i, i < 8 * bootmap_bytes sizeof_long (end_ - start) →
        test_bit sizeof_long i region.node_bootmem_map = Result.ok true) ∧
      (∀ i, 8 * bootmap_bytes sizeof_long (end_ - start) ≤ i →
        test_bit sizeof_long i region.node_bootmem_map = Result.fault) := by
  obtain ⟨region, h1, h2, h3, _, _, hcap, hbits⟩ :=
    init_bootmem_core_spec sizeof_long k hpow validate bdata_list bdata mapstart start end_
      hle hend hval hfit
  refine ⟨region, h1, h1, h2, h3, ?_, ?_, ?_⟩
  · intro i hi
    rw [hbits i, if_pos (by omega)]
  · intro i hi
    rw [hbits i, if_pos hi]
  · intro i hi
    rw [hbits i, if_neg (by omega)]

theorem init_bootmem_core_marks_all_reserved_witness :
    ∃ region,
      init_bootmem_core 8 no_clamp [] unregistered 0 0 100 =
        (bootmap_bytes 8 (100 - 0), region, link_bootmem region []) ∧
      init_bootmem_node 8 no_clamp [] unregistered 0 0 100 =
        (bootmap_bytes 8 (100 - 0), region, link_bootmem region []) ∧
      region.node_min_pfn = 0 ∧ region.node_low_pfn = 100 ∧
      (∀ i, i < 100 - 0 → test_bit 8 i region.node_bootmem_map = Result.ok true) ∧
      (∀ i, i < 8 * bootmap_bytes 8 (100 - 0) →
        test_bit 8 i region.node_bootmem_map = Result.ok true) ∧
      (∀ i, 8 * bootmap_bytes 8 (100 - 0) ≤ i →
        test_bit 8 i region.node_bootmem_map = Result.fault) :=
  init_bootmem_core_marks_all_reserved 8 3 (by decide) no_clamp [] unregistered 0 0 100
    (by decide) (by decide) rfl (by decide)

/-- C2 as stated fails for a frame range of more than `ULONG_MAX - 7` frames:
registering `[0, ULONG_MAX)` on a 64-bit machine computes a map size of 0, fills
nothing, and bit 0 of the region is not a set bit of its bitmap. -/
theorem init_bootmem_core_huge_range_fills_nothing :
    0 ≤ 2 ^ 64 - 1 ∧
    (init_bootmem_core 8 no_clamp [] unregistered 0 0 (2 ^ 64 - 1)).1 = 0 ∧
    test_bit 8 0
      (init_bootmem_core 8 no_clamp [] unregistered 0 0 (2 ^ 64 - 1)).2.1.node_bootmem_map
      ≠ Result.ok true := by
  decide

/-- C3: `link_bootmem` keeps the registry ordered: inserting into a list sorted
ascending by `node_min_pfn` gives a list sorted ascending by `node_min_pfn` that
consists of the old entries in their old order with the new region inserted. -/
theorem link_bootmem_keeps_order (bdata : bootmem_data) (l : List bootmem_data)
    (hs : sorted_by_min_pfn l) :
    sorted_by_min_pfn (link_bootmem bdata l) ∧
    ∃ l1 l2, l = l1 ++ l2 ∧ link_bootmem bdata l = l1 ++ bdata :: l2 := by
  obtain ⟨l1, l2, h1, h2, _, _⟩ := link_bootmem_split bdata l
  exact ⟨link_bootmem_sorted bdata l hs, l1, l2, h1, h2⟩

theorem link_bootmem_keeps_order_witness :
    sorted_by_min_pfn (link_bootmem { unregistered with node_min_pfn := 100 }
      [unregistered, { unregistered with node_min_pfn := 200 }]) ∧
    ∃ l1 l2, [unregistered, { unregistered with node_min_pfn := 200 }] = l1 ++ l2 ∧
      link_bootmem { unregistered with node_min_pfn := 100 }
        [unregistered, { unregistered with node_min_pfn := 200 }] =
        l1 ++ { unregistered with node_min_pfn := 100 } :: l2 :=
  link_bootmem_keeps_order { unregistered with node_min_pfn := 100 }
    [unregistered, { unregistered with node_min_pfn := 200 }] (by decide)

/-- C4 (amended): `init_bootmem_core` makes no overlap check and has no failure
return; it always links the region.  When the frame range it records overlaps
no registered region and the registry is pairwise disjoint, the registry after
the call is pairwise disjoint. -/
theorem register_disjoint_region_keeps_registry_disjoint (sizeof_long : Nat)
    (validate : Nat → Nat → Nat × Nat) (bdata_list : List bootmem_data)
    (bdata : bootmem_data) (mapstart start end_ : Nat)
    (hd : pairwise_disjoint bdata_list)
    (hnew : ∀ x ∈ bdata_list,
      ¬ ranges_overlap (validate start end_).1 (validate start end_).2
        x.node_min_pfn x.node_low_pfn) :
    (init_bootmem_core sizeof_long validate bdata_list bdata mapstart start end_).2.2 =
      link_bootmem
        (init_bootmem_core sizeof_long validate bdata_list bdata mapstart start end_).2.1
        bdata_list ∧
    (init_bootmem_core sizeof_long validate bdata_list bdata mapstart start end_).2.1
      ∈ (init_bootmem_core sizeof_long validate bdata_list bdata mapstart start end_).2.2 ∧
    (∀ x ∈ bdata_list,
      x ∈ (init_bootmem_core sizeof_long validate bdata_list bdata mapstart start end_).2.2) ∧
    pairwise_disjoint
      (init_bootmem_core sizeof_long validate bdata_list bdata mapstart start end_).2.2 := by
  have hreg : (init_bootmem_core sizeof_long validate bdata_list bdata mapstart start end_).2.2 =
      link_bootmem
        (init_bootmem_core sizeof_long validate bdata_list bdata mapstart start end_).2.1
        bdata_list := rfl
  obtain ⟨l1, l2, h1, h2, _, _⟩ := link_bootmem_split
    (init_bootmem_core sizeof_long validate bdata_list bdata mapstart start end_).2.1
    bdata_list
  refine ⟨hreg, ?_, ?_, ?_⟩
  · rw [hreg, h2]
    simp
  · intro x hx
    rw [hreg, h2]
    rw [h1] at hx
    rcases List.mem_append.mp hx with hx | hx
    · exact List.mem_append_left _ hx
    · exact List.mem_append_right _ (List.mem_cons_of_mem _ hx)
  · rw [hreg]
    apply link_bootmem_disjoint _ _ hd
    intro x hx
    exact hnew x hx

theorem register_disjoint_region_keeps_registry_disjoint_witness :
    (init_bootmem_core 8 no_clamp [region_all_reserved] unregistered 1 100 150).2.2 =
      link_bootmem
        (init_bootmem_core 8 no_clamp [region_all_reserved] unregistered 1 100 150).2.1
        [region_all_reserved] ∧
    (init_bootmem_core 8 no_clamp [region_all_reserved] unregistered 1 100 150).2.1
      ∈ (init_bootmem_core 8 no_clamp [region_all_reserved] unregistered 1 100 150).2.2 ∧
    (∀ x ∈ [region_all_reserved],
      x ∈ (init_bootmem_core 8 no_clamp [region_all_reserved] unregistered 1 100 150).2.2) ∧
    pairwise_disjoint
      (init_bootmem_core 8 no_clamp [region_all_reserved] unregistered 1 100 150).2.2 :=
  register_disjoint_region_keeps_registry_disjoint 8 no_clamp [region_all_reserved]
    unregistered 1 100 150 (by decide) (by decide)

/-- C4 as stated fails: registering the frames `[50, 150)` after `[0, 100)`
is accepted, and the registry then holds two regions with overlapping frame
ranges. -/
theorem overlapping_registration_is_accepted :
    registry_two_overlapping.length = 2 ∧
    registry_two_overlapping.map (fun b => (b.node_min_pfn, b.node_low_pfn)) =
      [(0, 100), (50, 150)] ∧
    ¬ pairwise_disjoint registry_two_overlapping := by
  decide

/-! ## Claims on `__free` -/

/-- C5: on a range `[sidx, eidx)` in which every bit is set, `__free` completes
without a fatal outcome, leaves every bit of the range clear and every bit
outside the range as it was. -/
theorem free_clears_exactly_the_range (sizeof_long : Nat) (hL : 0 < sizeof_long)
    (bdata : bootmem_data) (sidx eidx : Nat)
    (hset : ∀ i, sidx ≤ i → i < eidx →
      test_bit sizeof_long i bdata.node_bootmem_map = Result.ok true) :
    ∃ b', __free sizeof_long bdata sidx eidx = Result.ok b' ∧
      (∀ i, sidx ≤ i → i < eidx →
        test_bit sizeof_long i b'.node_bootmem_map = Result.ok false) ∧
      (∀ i, ¬ (sidx ≤ i ∧ i < eidx) →
        test_bit sizeof_long i b'.node_bootmem_map =
          test_bit sizeof_long i bdata.node_bootmem_map) := by
  obtain ⟨b', hb', hbits, _, _⟩ := free_ok_spec sizeof_long hL bdata sidx eidx hset
  refine ⟨b', hb', ?_, ?_⟩
  · intro i h1 h2
    rw [hbits i, if_pos ⟨h1, h2⟩]
  · intro i hi
    rw [hbits i, if_neg hi]

theorem free_clears_exactly_the_range_witness :
    ∃ b', __free 8 region_all_reserved 10 20 = Result.ok b' ∧
      (∀ i, 10 ≤ i → i < 20 → test_bit 8 i b'.node_bootmem_map = Result.ok false) ∧
      (∀ i, ¬ (10 ≤ i ∧ i < 20) →
        test_bit 8 i b'.node_bootmem_map =
          test_bit 8 i region_all_reserved.node_bootmem_map) :=
  free_clears_exactly_the_range 8 (by decide) region_all_reserved 10 20
    (by intro i h1 h2; interval_cases i <;> rfl)

/-- C6: `__free` ends in `BUG()` exactly when some bit with index in
`[sidx, eidx)` is already clear when the call starts: a double free is fatal,
and freeing only set bits returns normally. -/
theorem free_bug_iff_some_bit_clear (sizeof_long : Nat) (hL : 0 < sizeof_long)
    (bdata : bootmem_data) (sidx eidx : Nat) :
    (__free sizeof_long bdata sidx eidx = Result.bug ↔
      ∃ i, sidx ≤ i ∧ i < eidx ∧
        test_bit sizeof_long i bdata.node_bootmem_map = Result.ok false) ∧
    ((∀ i, sidx ≤ i → i < eidx →
        test_bit sizeof_long i bdata.node_bootmem_map = Result.ok true) →
      ∃ b', __free sizeof_long bdata sidx eidx = Result.ok b') := by
  refine ⟨free_bug_iff_spec sizeof_long hL bdata sidx eidx, ?_⟩
  intro hset
  obtain ⟨b', hb', _⟩ := free_ok_spec sizeof_long hL bdata sidx eidx hset
  exact ⟨b', hb'⟩

theorem free_bug_iff_some_bit_clear_witness :
    __free 8 region_10_20_free 5 25 = Result.bug ∧
      ∃ i, 5 ≤ i ∧ i < 25 ∧
        test_bit 8 i region_10_20_free.node_bootmem_map = Result.ok false :=
  have hex : ∃ i, 5 ≤ i ∧ i < 25 ∧
      test_bit 8 i region_10_20_free.node_bootmem_map = Result.ok false :=
    ⟨10, by decide, by decide, by decide⟩
  ⟨(free_bug_iff_some_bit_clear 8 (by decide) region_10_20_free 5 25).1.mpr hex, hex⟩

/-- C7: after a `__free` that returns, `hint_idx` is the minimum of the old
`hint_idx` and `sidx`, and `last_end_off` is unchanged. -/
theorem free_lowers_hint (sizeof_long : Nat) (bdata b' : bootmem_data) (sidx eidx : Nat)
    (h : __free sizeof_long bdata sidx eidx = Result.ok b') :
    b'.hint_idx = min bdata.hint_idx sidx ∧ b'.last_end_off = bdata.last_end_off := by
  obtain ⟨f1, f2, _, _⟩ := free_fields sizeof_long bdata b' sidx eidx h
  exact ⟨f1, f2⟩

theorem free_lowers_hint_witness :
    __free 8 region_10_20_free 20 30 = Result.ok region_10_30_free ∧
    region_10_30_free.hint_idx = min region_10_20_free.hint_idx 20 ∧
    region_10_30_free.last_end_off = region_10_20_free.last_end_off :=
  ⟨by decide, free_lowers_hint 8 region_10_20_free region_10_30_free 20 30 (by decide)⟩

/-! ## Claims on `__reserve` -/

/-- C8: an exclusive `__reserve` over a range that contains an already set bit
returns `-EBUSY` (so neither the reservation nor its rollback ends in `BUG()`)
and every bit of the bitmap reads after the call as it did before; for a bitmap
of machine words the bitmap after the call equals the bitmap before the call. -/
theorem reserve_exclusive_conflict_rolls_back (sizeof_long : Nat) (hL : 0 < sizeof_long)
    (bdata : bootmem_data) (sidx eidx flags : Nat)
    (hex : flags &&& BOOTMEM_EXCLUSIVE ≠ 0)
    (hbusy : ∃ i, sidx ≤ i ∧ i < eidx ∧
      test_bit sizeof_long i bdata.node_bootmem_map = Result.ok true) :
    ∃ b', __reserve sizeof_long bdata sidx eidx flags = Result.ok (-EBUSY, b') ∧
      (∀ i, test_bit sizeof_long i b'.node_bootmem_map =
        test_bit sizeof_long i bdata.node_bootmem_map) ∧
      (words_fit sizeof_long bdata.node_bootmem_map →
        b'.node_bootmem_map = bdata.node_bootmem_map) := by
  obtain ⟨j, hj1, hj2, hj3⟩ := hbusy
  obtain ⟨b', hb', hbits, _, _⟩ :=
    reserve_loop_conflict sizeof_long (flags &&& BOOTMEM_EXCLUSIVE) sidx hL hex
      (eidx - sidx) bdata sidx (Nat.le_refl _) (by intro i h1 h2; omega)
      ⟨j, hj1, by omega, hj3⟩
  have hsame : ∀ i, test_bit sizeof_long i b'.node_bootmem_map =
      test_bit sizeof_long i bdata.node_bootmem_map := by
    intro i
    rw [hbits i, if_neg (by omega)]
  refine ⟨b', hb', hsame, ?_⟩
  intro hwf
  obtain ⟨hwf', hsome⟩ :=
    reserve_loop_words_fit sizeof_long (flags &&& BOOTMEM_EXCLUSIVE) sidx hL
      (eidx - sidx) bdata b' sidx (-EBUSY) hb' hwf
  exact map_eq_of_bits_eq sizeof_long hL _ _ hwf hwf' hsome hsame

theorem reserve_exclusive_conflict_rolls_back_witness :
    ∃ b', __reserve 8 region_10_20_free 15 25 BOOTMEM_EXCLUSIVE = Result.ok (-EBUSY, b') ∧
      (∀ i, test_bit 8 i b'.node_bootmem_map =
        test_bit 8 i region_10_20_free.node_bootmem_map) ∧
      (words_fit 8 region_10_20_free.node_bootmem_map →
        b'.node_bootmem_map = region_10_20_free.node_bootmem_map) :=
  reserve_exclusive_conflict_rolls_back 8 (by decide) region_10_20_free 15 25
    BOOTMEM_EXCLUSIVE (by decide) ⟨20, by decide, by decide, by decide⟩

/-- C9: an exclusive `__reserve` returns 0 exactly when every bit of
`[sidx, eidx)` was clear before the call; when it returns 0, every bit of the
range is set, every bit outside is unchanged, and `hint_idx` and `last_end_off`
are unchanged. -/
theorem reserve_exclusive_zero_iff_all_clear (sizeof_long : Nat)
    (bdata : bootmem_data) (sidx eidx flags : Nat)
    (hex : flags &&& BOOTMEM_EXCLUSIVE ≠ 0) :
    ((∃ b', __reserve sizeof_long bdata sidx eidx flags = Result.ok (0, b')) ↔
      ∀ i, sidx ≤ i → i < eidx →
        test_bit sizeof_long i bdata.node_bootmem_map = Result.ok false) ∧
    ∀ b', __reserve sizeof_long bdata sidx eidx flags = Result.ok (0, b') →
      (∀ i, sidx ≤ i → i < eidx →
        test_bit sizeof_long i b'.node_bootmem_map = Result.ok true) ∧
      (∀ i, ¬ (sidx ≤ i ∧ i < eidx) →
        test_bit sizeof_long i b'.node_bootmem_map =
          test_bit sizeof_long i bdata.node_bootmem_map) ∧
      b'.hint_idx = bdata.hint_idx ∧ b'.last_end_off = bdata.last_end_off := by
  have hclear : ∀ b', __reserve sizeof_long bdata sidx eidx flags = Result.ok (0, b') →
      ∀ i, sidx ≤ i → i < eidx →
        test_bit sizeof_long i bdata.node_bootmem_map = Result.ok false := by
    intro b' hb' i h1 h2
    exact reserve_loop_zero_clear sizeof_long (flags &&& BOOTMEM_EXCLUSIVE) sidx hex
      (eidx - sidx) bdata b' sidx hb' i h1 (by omega)
  have hsucc : (∀ i, sidx ≤ i → i < eidx →
      test_bit sizeof_long i bdata.node_bootmem_map = Result.ok false) →
      ∃ b', __reserve sizeof_long bdata sidx eidx flags = Result.ok (0, b') ∧
        (∀ i, test_bit sizeof_long i b'.node_bootmem_map =
          if sidx ≤ i ∧ i < sidx + (eidx - sidx) then Result.ok true
          else test_bit sizeof_long i bdata.node_bootmem_map) ∧
        b'.hint_idx = bdata.hint_idx ∧ b'.last_end_off = bdata.last_end_off := by
    intro hall
    obtain ⟨b', hb', hbits, f1, f2, _, _⟩ :=
      reserve_loop_success sizeof_long (flags &&& BOOTMEM_EXCLUSIVE) sidx (eidx - sidx)
        bdata sidx (fun i h1 h2 => Or.inl (hall i h1 (by omega)))
    exact ⟨b', hb', hbits, f1, f2⟩
  refine ⟨⟨?_, ?_⟩, ?_⟩
  · rintro ⟨b', hb'⟩
    exact hclear b' hb'
  · intro hall
    obtain ⟨b', hb', _⟩ := hsucc hall
    exact ⟨b', hb'⟩
  · intro b' hb'
    obtain ⟨b2, hb2, hbits, f1, f2⟩ := hsucc (hclear b' hb')
    rw [hb'] at hb2
    injection hb2 with hb2
    injection hb2 with _ hb2
    subst hb2
    refine ⟨?_, ?_, f1, f2⟩
    · intro i h1 h2
      rw [hbits i, if_pos (by omega)]
    · intro i hi
      rw [hbits i, if_neg (by omega)]

theorem reserve_exclusive_zero_iff_all_clear_witness :
    (∃ b', __reserve 8 region_10_20_free 12 18 BOOTMEM_EXCLUSIVE = Result.ok (0, b')) ∧
    ¬ (∃ b', __reserve 8 region_10_20_free 12 21 BOOTMEM_EXCLUSIVE = Result.ok (0, b')) :=
  ⟨(reserve_exclusive_zero_iff_all_clear 8 region_10_20_free 12 18 BOOTMEM_EXCLUSIVE
      (by decide)).1.mpr (by intro i h1 h2; interval_cases i <;> rfl),
   fun h => by
    have h20 := (reserve_exclusive_zero_iff_all_clear 8 region_10_20_free 12 21
      BOOTMEM_EXCLUSIVE (by decide)).1.mp h 20 (by decide) (by decide)
    revert h20
    decide⟩

/-- C10: a non-exclusive `__reserve` over a range of the bitmap returns 0
whatever the bits were, leaves every bit of `[sidx, eidx)` set and every bit
outside unchanged, and a second call on the same range returns 0 and leaves the
region state as the first call left it. -/
theorem reserve_nonexclusive_idempotent (sizeof_long : Nat)
    (bdata : bootmem_data) (sidx eidx flags : Nat)
    (hne : flags &&& BOOTMEM_EXCLUSIVE = 0)
    (hin : ∀ i, sidx ≤ i → i < eidx →
      ∃ b, test_bit sizeof_long i bdata.node_bootmem_map = Result.ok b) :
    ∃ b', __reserve sizeof_long bdata sidx eidx flags = Result.ok (0, b') ∧
      (∀ i, sidx ≤ i → i < eidx →
        test_bit sizeof_long i b'.node_bootmem_map = Result.ok true) ∧
      (∀ i, ¬ (sidx ≤ i ∧ i < eidx) →
        test_bit sizeof_long i b'.node_bootmem_map =
          test_bit sizeof_long i bdata.node_bootmem_map) ∧
      __reserve sizeof_long b' sidx eidx flags = Result.ok (0, b') := by
  have hpre : ∀ i, sidx ≤ i → i < sidx + (eidx - sidx) →
      test_bit sizeof_long i bdata.node_bootmem_map = Result.ok false ∨
      (flags &&& BOOTMEM_EXCLUSIVE = 0 ∧
        test_bit sizeof_long i bdata.node_bootmem_map = Result.ok true) := by
    intro i h1 h2
    obtain ⟨b, hb⟩ := hin i h1 (by omega)
    cases b with
    | false => exact Or.inl hb
    | true => exact Or.inr ⟨hne, hb⟩
  obtain ⟨b', hb', hbits, _, _, _, _⟩ :=
    reserve_loop_success sizeof_long (flags &&& BOOTMEM_EXCLUSIVE) sidx (eidx - sidx)
      bdata sidx hpre
  have hset : ∀ i, sidx ≤ i → i < sidx + (eidx - sidx) →
      test_bit sizeof_long i b'.node_bootmem_map = Result.ok true := by
    intro i h1 h2
    rw [hbits i, if_pos ⟨h1, h2⟩]
  refine ⟨b', hb', ?_, ?_, ?_⟩
  · intro i h1 h2
    exact hset i h1 (by omega)
  · intro i hi
    rw [hbits i, if_neg (by omega)]
  · have := reserve_loop_idem sizeof_long sidx (eidx - sidx) b' sidx hset
    unfold __reserve
    rw [hne]
    exact this

theorem reserve_nonexclusive_idempotent_witness :
    ∃ b', __reserve 8 region_10_20_free 5 25 0 = Result.ok (0, b') ∧
      (∀ i, 5 ≤ i → i < 25 → test_bit 8 i b'.node_bootmem_map = Result.ok true) ∧
      (∀ i, ¬ (5 ≤ i ∧ i < 25) →
        test_bit 8 i b'.node_bootmem_map =
          test_bit 8 i region_10_20_free.node_bootmem_map) ∧
      __reserve 8 b' 5 25 0 = Result.ok (0, b') :=
  reserve_nonexclusive_idempotent 8 region_10_20_free 5 25 0 (by decide)
    (by intro i h1 h2; interval_cases i <;> first | exact ⟨true, rfl⟩ | exact ⟨false, rfl⟩)

/-! ## Unsigned subtraction and bitmap extent -/

theorem two_pow_bits_pos (sizeof_long : Nat) : 0 < 2 ^ BITS_PER_LONG sizeof_long :=
  Nat.pow_pos (by decide)

theorem ulong_of_le {sizeof_long x : Nat} (h : x ≤ ULONG_MAX sizeof_long) :
    ulong sizeof_long x = x := by
  have := two_pow_bits_pos sizeof_long
  unfold ULONG_MAX at h
  unfold ulong
  exact Nat.mod_eq_of_lt (by omega)

theorem ulong_le_max (sizeof_long x : Nat) : ulong sizeof_long x ≤ ULONG_MAX sizeof_long := by
  have := two_pow_bits_pos sizeof_long
  have := Nat.mod_lt x this
  unfold ulong ULONG_MAX
  omega

theorem ulong_sub_eq {sizeof_long a b : Nat} (hba : b ≤ a) (ha : a ≤ ULONG_MAX sizeof_long) :
    ulong_sub sizeof_long a b = a - b := by
  have hpos := two_pow_bits_pos sizeof_long
  unfold ulong_sub
  rw [ulong_of_le (Nat.le_trans hba ha)]
  unfold ULONG_MAX at ha
  unfold ulong
  have e : a + (2 ^ BITS_PER_LONG sizeof_long - b) =
      (a - b) + 2 ^ BITS_PER_LONG sizeof_long := by omega
  rw [e, Nat.add_mod_right, Nat.mod_eq_of_lt (by omega)]

theorem test_bit_ok_iff_lt (sizeof_long : Nat) (hL : 0 < sizeof_long)
    (addr : Option Bitmap) (i : Nat) :
    (∃ b, test_bit sizeof_long i addr = Result.ok b) ↔ i < bitmap_bits sizeof_long addr := by
  have hB := bits_pos hL
  cases addr with
  | none =>
    simp [test_bit, bitmap_bits]
  | some m =>
    rw [test_bit_some]
    unfold bitmap_bits
    have hiff : i / BITS_PER_LONG sizeof_long < m.length ↔
        i < BITS_PER_LONG sizeof_long * m.length := by
      rw [Nat.div_lt_iff_lt_mul hB, Nat.mul_comm]
    constructor
    · rintro ⟨b, hb⟩
      cases hw : m[i / BITS_PER_LONG sizeof_long]? with
      | none => rw [hw] at hb; cases hb
      | some w =>
        rcases List.getElem?_eq_some.mp hw with ⟨hl, _⟩
        exact hiff.mp hl
    · intro h
      rw [List.getElem?_eq_getElem (hiff.mpr h)]
      exact ⟨_, rfl⟩

/-! ## Outcomes of the range primitives -/

theorem free_loop_no_fault (sizeof_long : Nat) (hL : 0 < sizeof_long) (n : Nat) :
    ∀ (bdata : bootmem_data) (idx : Nat),
      (∀ i, idx ≤ i → i < idx + n →
        ∃ b, test_bit sizeof_long i bdata.node_bootmem_map = Result.ok b) →
      __free_loop sizeof_long bdata idx n ≠ Result.fault := by
  induction n with
  | zero => intro bdata idx _ h; simp [__free_loop] at h
  | succ n ih =>
    intro bdata idx hin
    obtain ⟨old, hold⟩ := hin idx (Nat.le_refl _) (by omega)
    obtain ⟨m, hm, hbits⟩ := test_and_clear_bit_ok hL hold
    cases old with
    | false => simp [__free_loop, hm]
    | true =>
      simp only [__free_loop, hm, Bool.not_true, Bool.false_eq_true, if_false]
      apply ih
      intro i h1 h2
      show ∃ b, test_bit sizeof_long i (some m) = Result.ok b
      rw [hbits i, if_neg (by omega)]
      exact hin i (by omega) (by omega)

theorem free_no_fault (sizeof_long : Nat) (hL : 0 < sizeof_long)
    (bdata : bootmem_data) (sidx eidx : Nat)
    (hin : ∀ i, sidx ≤ i → i < eidx →
      ∃ b, test_bit sizeof_long i bdata.node_bootmem_map = Result.ok b) :
    __free sizeof_long bdata sidx eidx ≠ Result.fault := by
  unfold __free
  apply free_loop_no_fault sizeof_long hL
  intro i h1 h2
  have hmap : (if bdata.hint_idx > sidx then { bdata with hint_idx := sidx }
      else bdata).node_bootmem_map = bdata.node_bootmem_map := by
    split <;> rfl
  rw [hmap]
  exact hin i h1 (by omega)

theorem reserve_loop_outcome (sizeof_long exclusive sidx : Nat) (hL : 0 < sizeof_long)
    (n : Nat) :
    ∀ (bdata : bootmem_data) (idx : Nat), sidx ≤ idx →
      (∀ i, sidx ≤ i → i < idx →
        test_bit sizeof_long i bdata.node_bootmem_map = Result.ok true) →
      (∀ i, idx ≤ i → i < idx + n →
        ∃ b, test_bit sizeof_long i bdata.node_bootmem_map = Result.ok b) →
      ∃ r b', __reserve_loop sizeof_long exclusive sidx bdata idx n = Result.ok (r, b') ∧
        (r = 0 ∨ (r = -EBUSY ∧ exclusive ≠ 0 ∧
          ∃ j, idx ≤ j ∧ j < idx + n ∧
            test_bit sizeof_long j bdata.node_bootmem_map = Result.ok true)) := by
  induction n with
  | zero =>
    intro bdata idx _ _ _
    exact ⟨0, bdata, rfl, Or.inl rfl⟩
  | succ n ih =>
    intro bdata idx hle hdone hin
    obtain ⟨old, hold⟩ := hin idx (Nat.le_refl _) (by omega)
    obtain ⟨m, hm, hbits⟩ := test_and_set_bit_ok hold
    have hdone' : ∀ i, sidx ≤ i → i < idx + 1 →
        test_bit sizeof_long i
          ({ bdata with node_bootmem_map := some m } : bootmem_data).node_bootmem_map =
          Result.ok true := by
      intro i h1 h2
      show test_bit sizeof_long i (some m) = _
      rw [hbits i]
      by_cases hi : i = idx
      · rw [if_pos hi]
      · rw [if_neg hi]; exact hdone i h1 (by omega)
    have hin' : ∀ i, idx + 1 ≤ i → i < idx + 1 + n →
        ∃ b, test_bit sizeof_long i
          ({ bdata with node_bootmem_map := some m } : bootmem_data).node_bootmem_map =
          Result.ok b := by
      intro i h1 h2
      show ∃ b, test_bit sizeof_long i (some m) = Result.ok b
      rw [hbits i, if_neg (by omega)]
      exact hin i (by omega) (by omega)
    have hrec := ih { bdata with node_bootmem_map := some m } (idx + 1) (by omega) hdone' hin'
    have hcont : ∃ r b', __reserve_loop sizeof_long exclusive sidx
        { bdata with node_bootmem_map := some m } (idx + 1) n = Result.ok (r, b') ∧
        (r = 0 ∨ (r = -EBUSY ∧ exclusive ≠ 0 ∧
          ∃ j, idx ≤ j ∧ j < idx + (n + 1) ∧
            test_bit sizeof_long j bdata.node_bootmem_map = Result.ok true)) := by
      obtain ⟨r, b', hr, hcase⟩ := hrec
      refine ⟨r, b', hr, ?_⟩
      rcases hcase with h0 | ⟨h1, h2, j, hj1, hj2, hj3⟩
      · exact Or.inl h0
      · refine Or.inr ⟨h1, h2, j, by omega, by omega, ?_⟩
        have : test_bit sizeof_long j (some m) = Result.ok true := hj3
        rw [hbits j, if_neg (by omega)] at this
        exact this
    cases old with
    | false =>
      simp only [__reserve_loop, hm, Bool.false_eq_true, if_false]
      exact hcont
    | true =>
      by_cases hx : exclusive = 0
      · have hc : (exclusive != 0) = false := by simp [hx]
        simp only [__reserve_loop, hm, hc, if_true, Bool.false_eq_true, if_false]
        exact hcont
      · have hc : (exclusive != 0) = true := by simp [hx]
        have hsame : ∀ i, test_bit sizeof_long i (some m) =
            test_bit sizeof_long i bdata.node_bootmem_map := by
          intro i
          rw [hbits i]
          by_cases hi : i = idx
          · subst hi; rw [if_pos rfl, hold]
          · rw [if_neg hi]
        have hset : ∀ i, sidx ≤ i → i < idx →
            test_bit sizeof_long i
              ({ bdata with node_bootmem_map := some m } : bootmem_data).node_bootmem_map =
              Result.ok true := by
          intro i h1 h2
          show test_bit sizeof_long i (some m) = _
          rw [hsame i]
          exact hdone i h1 h2
        obtain ⟨b', hb', _⟩ :=
          free_ok_spec sizeof_long hL { bdata with node_bootmem_map := some m } sidx idx hset
        refine ⟨-EBUSY, b', ?_, Or.inr ⟨rfl, hx, idx, Nat.le_refl _, by omega, hold⟩⟩
        simp only [__reserve_loop, hm, hc, if_true, hb']

theorem reserve_outcome (sizeof_long : Nat) (hL : 0 < sizeof_long)
    (bdata : bootmem_data) (sidx eidx flags : Nat)
    (hin : ∀ i, sidx ≤ i → i < eidx →
      ∃ b, test_bit sizeof_long i bdata.node_bootmem_map = Result.ok b) :
    ∃ r b', __reserve sizeof_long bdata sidx eidx flags = Result.ok (r, b') ∧
      (r = 0 ∨ (r = -EBUSY ∧ flags &&& BOOTMEM_EXCLUSIVE ≠ 0 ∧
        ∃ j, sidx ≤ j ∧ j < eidx ∧
          test_bit sizeof_long j bdata.node_bootmem_map = Result.ok true)) := by
  obtain ⟨r, b', hr, hcase⟩ :=
    reserve_loop_outcome sizeof_long (flags &&& BOOTMEM_EXCLUSIVE) sidx hL (eidx - sidx)
      bdata sidx (Nat.le_refl _) (by intro i h1 h2; omega)
      (by intro i h1 h2; exact hin i h1 (by omega))
  refine ⟨r, b', hr, ?_⟩
  rcases hcase with h0 | ⟨h1, h2, j, hj1, hj2, hj3⟩
  · exact Or.inl h0
  · exact Or.inr ⟨h1, h2, j, hj1, by omega, hj3⟩

/-! ## `mark_bootmem_node` -/

theorem mark_bootmem_node_bug (sizeof_long : Nat) (bdata : bootmem_data)
    (start end_ reserve flags : Nat)
    (h : start < bdata.node_min_pfn ∨ end_ > bdata.node_low_pfn) :
    mark_bootmem_node sizeof_long bdata start end_ reserve flags = Result.bug := by
  unfold mark_bootmem_node
  by_cases h1 : start < bdata.node_min_pfn
  · rw [if_pos h1]
  · rw [if_neg h1]
    rcases h with h | h
    · exact absurd h h1
    · rw [if_pos h]

theorem mark_bootmem_node_inside (sizeof_long : Nat) (bdata : bootmem_data)
    (start end_ reserve flags : Nat)
    (h1 : bdata.node_min_pfn ≤ start) (h2 : end_ ≤ bdata.node_low_pfn) :
    mark_bootmem_node sizeof_long bdata start end_ reserve flags =
      if reserve ≠ 0 then
        __reserve sizeof_long bdata (ulong_sub sizeof_long start bdata.node_min_pfn)
          (ulong_sub sizeof_long end_ bdata.node_min_pfn) flags
      else
        match __free sizeof_long bdata (ulong_sub sizeof_long start bdata.node_min_pfn)
            (ulong_sub sizeof_long end_ bdata.node_min_pfn) with
        | Result.fault => Result.fault
        | Result.bug => Result.bug
        | Result.ok bdata => Result.ok (0, bdata) := by
  unfold mark_bootmem_node
  rw [if_neg (by omega), if_neg (by omega)]

theorem reserve_fields (sizeof_long : Nat) (bdata b' : bootmem_data)
    (sidx eidx flags : Nat) (r : Int)
    (h : __reserve sizeof_long bdata sidx eidx flags = Result.ok (r, b')) :
    b'.node_min_pfn = bdata.node_min_pfn ∧ b'.node_low_pfn = bdata.node_low_pfn ∧
    b'.last_end_off = bdata.last_end_off := by
  suffices hs : ∀ n (bdata b' : bootmem_data) (idx : Nat) (r : Int),
      __reserve_loop sizeof_long (flags &&& BOOTMEM_EXCLUSIVE) sidx bdata idx n =
        Result.ok (r, b') →
      b'.node_min_pfn = bdata.node_min_pfn ∧ b'.node_low_pfn = bdata.node_low_pfn ∧
      b'.last_end_off = bdata.last_end_off from hs _ _ _ _ _ h
  intro n
  induction n with
  | zero =>
    intro bdata b' idx r h
    simp only [__reserve_loop] at h
    injection h with h
    injection h with _ h
    subst h
    exact ⟨rfl, rfl, rfl⟩
  | succ n ih =>
    intro bdata b' idx r h
    simp only [__reserve_loop] at h
    cases hc : test_and_set_bit sizeof_long idx bdata.node_bootmem_map with
    | fault => rw [hc] at h; cases h
    | bug => rw [hc] at h; cases h
    | ok p =>
      obtain ⟨old, m⟩ := p
      rw [hc] at h
      have hrec : ∀ h' : __reserve_loop sizeof_long (flags &&& BOOTMEM_EXCLUSIVE) sidx
          { bdata with node_bootmem_map := some m } (idx + 1) n = Result.ok (r, b'),
          b'.node_min_pfn = bdata.node_min_pfn ∧ b'.node_low_pfn = bdata.node_low_pfn ∧
          b'.last_end_off = bdata.last_end_off := by
        intro h'
        exact ih { bdata with node_bootmem_map := some m } b' (idx + 1) r h'
      cases old with
      | false =>
        simp only [Bool.false_eq_true, if_false] at h
        exact hrec h
      | true =>
        simp only [if_true] at h
        by_cases hx : (flags &&& BOOTMEM_EXCLUSIVE != 0) = true
        · rw [if_pos hx] at h
          cases hf : __free sizeof_long { bdata with node_bootmem_map := some m } sidx idx with
          | fault => rw [hf] at h; cases h
          | bug => rw [hf] at h; cases h
          | ok b2 =>
            rw [hf] at h
            injection h with h
            injection h with _ h
            subst h
            obtain ⟨_, f2, f3, f4⟩ := free_fields sizeof_long _ _ sidx idx hf
            exact ⟨f3, f4, f2⟩
        · rw [if_neg hx] at h
          exact hrec h

theorem reserve_loop_zero_addressable (sizeof_long exclusive sidx : Nat) (n : Nat) :
    ∀ (bdata b' : bootmem_data) (idx : Nat),
      __reserve_loop sizeof_long exclusive sidx bdata idx n = Result.ok (0, b') →
      ∀ i, idx ≤ i → i < idx + n →
        ∃ b, test_bit sizeof_long i bdata.node_bootmem_map = Result.ok b := by
  induction n with
  | zero =>
    intro bdata b' idx _ i h1 h2
    omega
  | succ n ih =>
    intro bdata b' idx hres i h1 h2
    cases ht : test_bit sizeof_long idx bdata.node_bootmem_map with
    | bug => exact absurd ht (test_bit_ne_bug _ _ _)
    | fault =>
      simp [__reserve_loop, test_and_set_bit_fault ht] at hres
    | ok old =>
      obtain ⟨m, hm, hbits⟩ := test_and_set_bit_ok ht
      have hcont : __reserve_loop sizeof_long exclusive sidx
          { bdata with node_bootmem_map := some m } (idx + 1) n = Result.ok (0, b') := by
        cases old with
        | true =>
          by_cases hx : exclusive = 0
          · have hc : (exclusive != 0) = false := by simp [hx]
            simp only [__reserve_loop, hm, hc, if_true, Bool.false_eq_true, if_false] at hres
            exact hres
          · have hc : (exclusive != 0) = true := by simp [hx]
            simp only [__reserve_loop, hm, hc, if_true] at hres
            cases hf : __free sizeof_long { bdata with node_bootmem_map := some m } sidx idx with
            | fault => rw [hf] at hres; cases hres
            | bug => rw [hf] at hres; cases hres
            | ok b2 =>
              rw [hf] at hres
              injection hres with hres
              injection hres with h0 _
              exact absurd h0 EBUSY_ne_zero
        | false =>
          simp only [__reserve_loop, hm, Bool.false_eq_true, if_false] at hres
          exact hres
      by_cases hi : i = idx
      · subst hi; exact ⟨old, ht⟩
      · obtain ⟨b, hb⟩ := ih { bdata with node_bootmem_map := some m } b' (idx + 1) hcont i
          (by omega) (by omega)
        have h' : test_bit sizeof_long i (some m) = Result.ok b := hb
        rw [hbits i, if_neg hi] at h'
        exact ⟨b, h'⟩

theorem reserve_then_free (sizeof_long : Nat) (hL : 0 < sizeof_long)
    (bdata b1 : bootmem_data) (sidx eidx flags : Nat)
    (h1 : __reserve sizeof_long bdata sidx eidx flags = Result.ok (0, b1)) :
    ∃ b2, __free sizeof_long b1 sidx eidx = Result.ok b2 ∧
      ((∀ i, sidx ≤ i → i < eidx →
          test_bit sizeof_long i bdata.node_bootmem_map = Result.ok false) ↔
        (∀ i, test_bit sizeof_long i b2.node_bootmem_map =
          test_bit sizeof_long i bdata.node_bootmem_map)) ∧
      ((∀ i, sidx ≤ i → i < eidx →
          test_bit sizeof_long i bdata.node_bootmem_map = Result.ok false) →
        words_fit sizeof_long bdata.node_bootmem_map →
        b2.node_bootmem_map = bdata.node_bootmem_map) ∧
      (flags &&& BOOTMEM_EXCLUSIVE ≠ 0 → ∀ i, sidx ≤ i → i < eidx →
        test_bit sizeof_long i bdata.node_bootmem_map = Result.ok false) := by
  have hexc : flags &&& BOOTMEM_EXCLUSIVE ≠ 0 → ∀ i, sidx ≤ i → i < sidx + (eidx - sidx) →
      test_bit sizeof_long i bdata.node_bootmem_map = Result.ok false := fun hex =>
    reserve_loop_zero_clear sizeof_long (flags &&& BOOTMEM_EXCLUSIVE) sidx hex
      (eidx - sidx) bdata b1 sidx h1
  have hpre : ∀ i, sidx ≤ i → i < sidx + (eidx - sidx) →
      test_bit sizeof_long i bdata.node_bootmem_map = Result.ok false ∨
      (flags &&& BOOTMEM_EXCLUSIVE = 0 ∧
        test_bit sizeof_long i bdata.node_bootmem_map = Result.ok true) := by
    intro i hi1 hi2
    obtain ⟨b, hb⟩ := reserve_loop_zero_addressable sizeof_long (flags &&& BOOTMEM_EXCLUSIVE)
      sidx (eidx - sidx) bdata b1 sidx h1 i hi1 hi2
    cases b with
    | false => exact Or.inl hb
    | true =>
      by_cases hx : flags &&& BOOTMEM_EXCLUSIVE = 0
      · exact Or.inr ⟨hx, hb⟩
      · exact Or.inl (hexc hx i hi1 hi2)
  obtain ⟨b', hb', hbits, _⟩ :=
    reserve_loop_success sizeof_long (flags &&& BOOTMEM_EXCLUSIVE) sidx (eidx - sidx)
      bdata sidx hpre
  have hb1 : b' = b1 := by
    have : Result.ok ((0 : Int), b') = Result.ok ((0 : Int), b1) := by
      rw [← hb']; exact h1
    injection this with this
    injection this
  subst hb1
  have hset : ∀ i, sidx ≤ i → i < eidx →
      test_bit sizeof_long i b'.node_bootmem_map = Result.ok true := by
    intro i h1 h2
    rw [hbits i, if_pos ⟨h1, by omega⟩]
  obtain ⟨b2, hb2, hbits2, _, _⟩ := free_ok_spec sizeof_long hL b' sidx eidx hset
  have hsame : (∀ i, sidx ≤ i → i < eidx →
      test_bit sizeof_long i bdata.node_bootmem_map = Result.ok false) →
      ∀ i, test_bit sizeof_long i b2.node_bootmem_map =
        test_bit sizeof_long i bdata.node_bootmem_map := by
    intro hclear i
    rw [hbits2 i]
    by_cases hr : sidx ≤ i ∧ i < eidx
    · rw [if_pos hr, hclear i hr.1 hr.2]
    · rw [if_neg hr, hbits i, if_neg (by omega)]
  refine ⟨b2, hb2, ⟨hsame, ?_⟩, ?_, fun hex i hi1 hi2 => hexc hex i hi1 (by omega)⟩
  · intro hall i hi1 hi2
    rw [← hall i, hbits2 i, if_pos ⟨hi1, hi2⟩]
  · intro hclear hwf
    obtain ⟨hwf1, hsome1⟩ :=
      reserve_loop_words_fit sizeof_long (flags &&& BOOTMEM_EXCLUSIVE) sidx hL
        (eidx - sidx) bdata b' sidx 0 h1 hwf
    obtain ⟨hwf2, hsome2⟩ := free_words_fit sizeof_long b' b2 sidx eidx hb2 hwf1
    exact map_eq_of_bits_eq sizeof_long hL _ _ hwf hwf2 (by rw [hsome2, hsome1])
      (hsame hclear)

theorem covered_addressable (sizeof_long : Nat) (hL : 0 < sizeof_long)
    (bdata : bootmem_data) (hc : region_covered sizeof_long bdata) (i : Nat)
    (hi : i < bdata.node_low_pfn - bdata.node_min_pfn) :
    ∃ b, test_bit sizeof_long i bdata.node_bootmem_map = Result.ok b :=
  (test_bit_ok_iff_lt sizeof_long hL _ i).mpr (Nat.lt_of_lt_of_le hi hc.2.2)

theorem reserve_spec (sizeof_long : Nat) (hL : 0 < sizeof_long)
    (bdata : bootmem_data) (sidx eidx flags : Nat)
    (hin : ∀ i, sidx ≤ i → i < eidx →
      ∃ b, test_bit sizeof_long i bdata.node_bootmem_map = Result.ok b) :
    ∃ r b', __reserve sizeof_long bdata sidx eidx flags = Result.ok (r, b') ∧
      b'.node_min_pfn = bdata.node_min_pfn ∧ b'.node_low_pfn = bdata.node_low_pfn ∧
      b'.last_end_off = bdata.last_end_off ∧
      ((r = 0 ∧
        (∀ i, test_bit sizeof_long i b'.node_bootmem_map =
          if sidx ≤ i ∧ i < eidx then Result.ok true
          else test_bit sizeof_long i bdata.node_bootmem_map) ∧
        b'.hint_idx = bdata.hint_idx ∧
        (flags &&& BOOTMEM_EXCLUSIVE ≠ 0 → ∀ i, sidx ≤ i → i < eidx →
          test_bit sizeof_long i bdata.node_bootmem_map = Result.ok false)) ∨
       (r = -EBUSY ∧ flags &&& BOOTMEM_EXCLUSIVE ≠ 0 ∧
        (∃ j, sidx ≤ j ∧ j < eidx ∧
          test_bit sizeof_long j bdata.node_bootmem_map = Result.ok true) ∧
        (∀ i, test_bit sizeof_long i b'.node_bootmem_map =
          test_bit sizeof_long i bdata.node_bootmem_map) ∧
        b'.hint_idx = min bdata.hint_idx sidx)) := by
  by_cases hbusy : flags &&& BOOTMEM_EXCLUSIVE ≠ 0 ∧ ∃ j, sidx ≤ j ∧ j < eidx ∧
      test_bit sizeof_long j bdata.node_bootmem_map = Result.ok true
  · obtain ⟨hex, j, hj1, hj2, hj3⟩ := hbusy
    obtain ⟨b', hb', hbits, g1, g2⟩ :=
      reserve_loop_conflict sizeof_long (flags &&& BOOTMEM_EXCLUSIVE) sidx hL hex
        (eidx - sidx) bdata sidx (Nat.le_refl _) (by intro i h1 h2; omega)
        ⟨j, hj1, by omega, hj3⟩
    obtain ⟨f1, f2, f3⟩ := reserve_fields sizeof_long bdata b' sidx eidx flags _ hb'
    refine ⟨-EBUSY, b', hb', f1, f2, f3, Or.inr ⟨rfl, hex, ⟨j, hj1, hj2, hj3⟩, ?_, g1⟩⟩
    intro i
    rw [hbits i, if_neg (by omega)]
  · have hpre : ∀ i, sidx ≤ i → i < sidx + (eidx - sidx) →
        test_bit sizeof_long i bdata.node_bootmem_map = Result.ok false ∨
        (flags &&& BOOTMEM_EXCLUSIVE = 0 ∧
          test_bit sizeof_long i bdata.node_bootmem_map = Result.ok true) := by
      intro i h1 h2
      obtain ⟨b, hb⟩ := hin i h1 (by omega)
      cases b with
      | false => exact Or.inl hb
      | true =>
        by_cases hx : flags &&& BOOTMEM_EXCLUSIVE = 0
        · exact Or.inr ⟨hx, hb⟩
        · exact absurd ⟨hx, i, h1, by omega, hb⟩ hbusy
    obtain ⟨b', hb', hbits, f1, f2, f3, f4⟩ :=
      reserve_loop_success sizeof_long (flags &&& BOOTMEM_EXCLUSIVE) sidx (eidx - sidx)
        bdata sidx hpre
    refine ⟨0, b', hb', f3, f4, f2, Or.inl ⟨rfl, ?_, f1, ?_⟩⟩
    · intro i
      rw [hbits i]
      by_cases hr : sidx ≤ i ∧ i < eidx
      · rw [if_pos (by omega), if_pos hr]
      · rw [if_neg (by omega), if_neg hr]
    · intro hx i h1 h2
      rcases hpre i h1 (by omega) with h | ⟨h0, _⟩
      · exact h
      · exact absurd h0 hx

theorem free_spec (sizeof_long : Nat) (hL : 0 < sizeof_long)
    (bdata : bootmem_data) (sidx eidx : Nat)
    (hin : ∀ i, sidx ≤ i → i < eidx →
      ∃ b, test_bit sizeof_long i bdata.node_bootmem_map = Result.ok b) :
    (__free sizeof_long bdata sidx eidx = Result.bug ∧
      ∃ i, sidx ≤ i ∧ i < eidx ∧
        test_bit sizeof_long i bdata.node_bootmem_map = Result.ok false) ∨
    (∃ b', __free sizeof_long bdata sidx eidx = Result.ok b' ∧
      (∀ i, sidx ≤ i → i < eidx →
        test_bit sizeof_long i bdata.node_bootmem_map = Result.ok true) ∧
      (∀ i, test_bit sizeof_long i b'.node_bootmem_map =
        if sidx ≤ i ∧ i < eidx then Result.ok false
        else test_bit sizeof_long i bdata.node_bootmem_map) ∧
      b'.hint_idx = min bdata.hint_idx sidx ∧
      b'.last_end_off = bdata.last_end_off ∧
      b'.node_min_pfn = bdata.node_min_pfn ∧ b'.node_low_pfn = bdata.node_low_pfn) := by
  by_cases hclear : ∃ i, sidx ≤ i ∧ i < eidx ∧
      test_bit sizeof_long i bdata.node_bootmem_map = Result.ok false
  · exact Or.inl ⟨(free_bug_iff_spec sizeof_long hL bdata sidx eidx).mpr hclear, hclear⟩
  · have hset : ∀ i, sidx ≤ i → i < eidx →
        test_bit sizeof_long i bdata.node_bootmem_map = Result.ok true := by
      intro i h1 h2
      obtain ⟨b, hb⟩ := hin i h1 h2
      cases b with
      | true => exact hb
      | false => exact absurd ⟨i, h1, h2, hb⟩ hclear
    obtain ⟨b', hb', hbits, g1, g2⟩ := free_ok_spec sizeof_long hL bdata sidx eidx hset
    obtain ⟨_, _, f3, f4⟩ := free_fields sizeof_long bdata b' sidx eidx hb'
    exact Or.inr ⟨b', hb', hset, hbits, g1, g2, f3, f4⟩

theorem mark_bootmem_node_fields (sizeof_long : Nat) (bdata b' : bootmem_data)
    (start end_ reserve flags : Nat) (r : Int)
    (h : mark_bootmem_node sizeof_long bdata start end_ reserve flags = Result.ok (r, b')) :
    b'.node_min_pfn = bdata.node_min_pfn ∧ b'.node_low_pfn = bdata.node_low_pfn ∧
    b'.last_end_off = bdata.last_end_off ∧
    bdata.node_min_pfn ≤ start ∧ end_ ≤ bdata.node_low_pfn := by
  have hmin : bdata.node_min_pfn ≤ start := by
    by_contra hc
    rw [mark_bootmem_node_bug sizeof_long bdata start end_ reserve flags
      (Or.inl (by omega))] at h
    cases h
  have hlow : end_ ≤ bdata.node_low_pfn := by
    by_contra hc
    rw [mark_bootmem_node_bug sizeof_long bdata start end_ reserve flags
      (Or.inr (by omega))] at h
    cases h
  rw [mark_bootmem_node_inside sizeof_long bdata start end_ reserve flags hmin hlow] at h
  by_cases hr : reserve ≠ 0
  · rw [if_pos hr] at h
    obtain ⟨f1, f2, f3⟩ := reserve_fields sizeof_long bdata b' _ _ flags r h
    exact ⟨f1, f2, f3, hmin, hlow⟩
  · rw [if_neg hr] at h
    cases hf : __free sizeof_long bdata (ulong_sub sizeof_long start bdata.node_min_pfn)
        (ulong_sub sizeof_long end_ bdata.node_min_pfn) with
    | fault => rw [hf] at h; cases h
    | bug => rw [hf] at h; cases h
    | ok b2 =>
      rw [hf] at h
      injection h with h
      injection h with _ h
      subst h
      obtain ⟨_, f2, f3, f4⟩ := free_fields sizeof_long _ _ _ _ hf
      exact ⟨f3, f4, f2, hmin, hlow⟩

/-! ## The walk of `mark_bootmem` -/

theorem mark_bootmem_walk_free_rollback (sizeof_long : Nat)
    (rb1 rb2 : Nat → Nat → List bootmem_data → Result (Int × List bootmem_data))
    (start end_ flags : Nat) (rest : List bootmem_data) :
    ∀ pos visited,
      mark_bootmem_walk sizeof_long rb1 start end_ 0 flags pos visited rest =
        mark_bootmem_walk sizeof_long rb2 start end_ 0 flags pos visited rest := by
  induction rest with
  | nil => intro pos visited; rfl
  | cons bdata rest ih =>
    intro pos visited
    simp only [mark_bootmem_walk]
    by_cases hskip : pos < bdata.node_min_pfn ∨ pos ≥ bdata.node_low_pfn
    · rw [if_pos hskip, if_pos hskip, ih]
    · rw [if_neg hskip, if_neg hskip]
      cases hn : mark_bootmem_node sizeof_long bdata pos (min bdata.node_low_pfn end_) 0
          flags with
      | fault => rfl
      | bug => rfl
      | ok p =>
        obtain ⟨err, b'⟩ := p
        simp only [ne_eq, not_true_eq_false, false_and, if_false]
        rw [ih]

/-- The model of `mark_bootmem` satisfies the recursion of the source: the
rollback of the walk is the function itself, called as
`mark_bootmem(start, pos, 0, 0)`. -/
theorem mark_bootmem_unfold (sizeof_long start end_ reserve flags : Nat)
    (bdata_list : List bootmem_data) :
    mark_bootmem sizeof_long start end_ reserve flags bdata_list =
      mark_bootmem_walk sizeof_long
        (fun s e l => mark_bootmem sizeof_long s e 0 0 l)
        start end_ reserve flags start [] bdata_list := by
  have hn : (fun s e l => mark_bootmem sizeof_long s e 0 0 l) =
      (fun s e l => mark_bootmem_nested sizeof_long s e l) := by
    funext s e l
    unfold mark_bootmem mark_bootmem_nested
    exact mark_bootmem_walk_free_rollback sizeof_long _ _ s e 0 l s []
  rw [hn]
  rfl

theorem mark_bootmem_walk_zero_covered (sizeof_long : Nat)
    (rb : Nat → Nat → List bootmem_data → Result (Int × List bootmem_data))
    (start end_ reserve flags : Nat) (rest : List bootmem_data) :
    ∀ pos visited l',
      mark_bootmem_walk sizeof_long rb start end_ reserve flags pos visited rest =
        Result.ok (0, l') →
      ∀ f, pos ≤ f → f < end_ →
        ∃ b ∈ rest, b.node_min_pfn ≤ f ∧ f < b.node_low_pfn := by
  induction rest with
  | nil => intro pos visited l' h; simp [mark_bootmem_walk] at h
  | cons bdata rest ih =>
    intro pos visited l' h f hf1 hf2
    simp only [mark_bootmem_walk] at h
    by_cases hskip : pos < bdata.node_min_pfn ∨ pos ≥ bdata.node_low_pfn
    · rw [if_pos hskip] at h
      by_cases hps : pos ≠ start
      · rw [if_pos hps] at h; cases h
      · rw [if_neg hps] at h
        obtain ⟨b, hb, hb2⟩ := ih pos _ l' h f hf1 hf2
        exact ⟨b, List.mem_cons_of_mem _ hb, hb2⟩
    · rw [if_neg hskip] at h
      cases hn : mark_bootmem_node sizeof_long bdata pos (min bdata.node_low_pfn end_)
          reserve flags with
      | fault => rw [hn] at h; cases h
      | bug => rw [hn] at h; cases h
      | ok p =>
        obtain ⟨err, b'⟩ := p
        rw [hn] at h
        simp only at h
        obtain ⟨_, f2, _, _, _⟩ := mark_bootmem_node_fields sizeof_long _ _ _ _ _ _ _ hn
        by_cases hre : reserve ≠ 0 ∧ err ≠ 0
        · rw [if_pos hre] at h
          cases hrb : rb start pos (visited ++ b' :: rest) with
          | fault => rw [hrb] at h; cases h
          | bug => rw [hrb] at h; cases h
          | ok q =>
            rw [hrb] at h
            injection h with h
            injection h with h0 _
            exact absurd h0 hre.2
        · rw [if_neg hre] at h
          by_cases hme : min bdata.node_low_pfn end_ = end_
          · exact ⟨bdata, List.mem_cons_self _ _, by omega, by omega⟩
          · rw [if_neg hme] at h
            by_cases hfl : f < bdata.node_low_pfn
            · exact ⟨bdata, List.mem_cons_self _ _, by omega, hfl⟩
            · obtain ⟨b, hb, hb2⟩ := ih b'.node_low_pfn _ l' h f (by omega) hf2
              exact ⟨b, List.mem_cons_of_mem _ hb, hb2⟩

theorem mark_bootmem_walk_start_nowhere (sizeof_long : Nat)
    (rb : Nat → Nat → List bootmem_data → Result (Int × List bootmem_data))
    (start end_ reserve flags : Nat) (rest : List bootmem_data) :
    ∀ visited,
      (∀ b ∈ rest, ¬ (b.node_min_pfn ≤ start ∧ start < b.node_low_pfn)) →
      mark_bootmem_walk sizeof_long rb start end_ reserve flags start visited rest =
        Result.bug := by
  induction rest with
  | nil => intro visited _; rfl
  | cons bdata rest ih =>
    intro visited hno
    have h0 := hno bdata (List.mem_cons_self _ _)
    simp only [mark_bootmem_walk]
    rw [if_pos (by omega), if_neg (by simp)]
    exact ih _ (fun b hb => hno b (List.mem_cons_of_mem _ hb))

theorem mark_bootmem_walk_plain_outcome (sizeof_long : Nat) (hL : 0 < sizeof_long)
    (rb : Nat → Nat → List bootmem_data → Result (Int × List bootmem_data))
    (start end_ reserve flags : Nat)
    (hplain : reserve = 0 ∨ flags &&& BOOTMEM_EXCLUSIVE = 0)
    (rest : List bootmem_data) :
    ∀ pos visited, pos < end_ →
      (∀ b ∈ rest, region_covered sizeof_long b) →
      mark_bootmem_walk sizeof_long rb start end_ reserve flags pos visited rest =
        Result.bug ∨
      ∃ l', mark_bootmem_walk sizeof_long rb start end_ reserve flags pos visited rest =
        Result.ok (0, l') := by
  induction rest with
  | nil => intro pos visited _ _; exact Or.inl rfl
  | cons bdata rest ih =>
    intro pos visited hpe hcov
    have hc := hcov bdata (List.mem_cons_self _ _)
    have hcov' : ∀ b ∈ rest, region_covered sizeof_long b :=
      fun b hb => hcov b (List.mem_cons_of_mem _ hb)
    simp only [mark_bootmem_walk]
    by_cases hskip : pos < bdata.node_min_pfn ∨ pos ≥ bdata.node_low_pfn
    · rw [if_pos hskip]
      by_cases hps : pos ≠ start
      · rw [if_pos hps]; exact Or.inl rfl
      · rw [if_neg hps]; exact ih pos _ hpe hcov'
    · rw [if_neg hskip]
      have h1 : bdata.node_min_pfn ≤ pos := by omega
      have h3 : min bdata.node_low_pfn end_ ≤ bdata.node_low_pfn := Nat.min_le_left _ _
      have hs : ulong_sub sizeof_long pos bdata.node_min_pfn = pos - bdata.node_min_pfn :=
        ulong_sub_eq h1 (by have := hc.2.1; omega)
      have he : ulong_sub sizeof_long (min bdata.node_low_pfn end_) bdata.node_min_pfn =
          min bdata.node_low_pfn end_ - bdata.node_min_pfn :=
        ulong_sub_eq (by omega) (by have := hc.2.1; omega)
      have hin : ∀ i, pos - bdata.node_min_pfn ≤ i →
          i < min bdata.node_low_pfn end_ - bdata.node_min_pfn →
          ∃ b, test_bit sizeof_long i bdata.node_bootmem_map = Result.ok b := by
        intro i _ hi
        exact covered_addressable sizeof_long hL bdata hc i (by omega)
      rw [mark_bootmem_node_inside sizeof_long bdata pos _ reserve flags h1 h3, hs, he]
      have hcont : ∀ b' : bootmem_data, b'.node_low_pfn = bdata.node_low_pfn →
          (if min bdata.node_low_pfn end_ = end_ then
              (Result.ok (0, visited ++ b' :: rest) : Result (Int × List bootmem_data))
            else mark_bootmem_walk sizeof_long rb start end_ reserve flags b'.node_low_pfn
              (visited ++ [b']) rest) = Result.bug ∨
          ∃ l', (if min bdata.node_low_pfn end_ = end_ then
              (Result.ok (0, visited ++ b' :: rest) : Result (Int × List bootmem_data))
            else mark_bootmem_walk sizeof_long rb start end_ reserve flags b'.node_low_pfn
              (visited ++ [b']) rest) = Result.ok (0, l') := by
        intro b' hb'
        by_cases hme : min bdata.node_low_pfn end_ = end_
        · rw [if_pos hme]; exact Or.inr ⟨_, rfl⟩
        · rw [if_neg hme]
          exact ih _ _ (by rw [hb']; omega) hcov'
      by_cases hr : reserve ≠ 0
      · have hx : flags &&& BOOTMEM_EXCLUSIVE = 0 := by
          rcases hplain with h | h
          · exact absurd h hr
          · exact h
        rw [if_pos hr]
        obtain ⟨r, b', hb', _, f2, _, hcase⟩ := reserve_spec sizeof_long hL bdata _ _ flags hin
        rw [hb']
        rcases hcase with ⟨h0, _⟩ | ⟨_, hex, _⟩
        · subst h0
          simp only [ne_eq, not_true_eq_false, and_false, if_false]
          exact hcont b' f2
        · exact absurd hx hex
      · rw [if_neg hr]
        rcases free_spec sizeof_long hL bdata _ _ hin with
          ⟨hbug, _⟩ | ⟨b', hb', _, _, _, _, _, f2⟩
        · rw [hbug]; exact Or.inl rfl
        · rw [hb']
          simp only [ne_eq, not_true_eq_false, and_false, if_false]
          exact hcont b' f2

/-! ## Marking across a chain of adjacent regions -/

theorem adjacent_chain_tail (sizeof_long : Nat) (b0 : bootmem_data) (rest : List bootmem_data)
    (h : adjacent_chain sizeof_long (b0 :: rest)) : adjacent_chain sizeof_long rest :=
  ⟨List.Chain'.tail h.1, fun b hb => h.2 b (List.mem_cons_of_mem _ hb)⟩

theorem adjacent_chain_sorted (sizeof_long : Nat) (rest : List bootmem_data) :
    ∀ b0, adjacent_chain sizeof_long (b0 :: rest) →
      ∀ b ∈ rest, b0.node_low_pfn ≤ b.node_min_pfn := by
  induction rest with
  | nil => intro b0 _ b hb; cases hb
  | cons b1 rest ih =>
    intro b0 h b hb
    have h01 : b0.node_low_pfn = b1.node_min_pfn := (List.chain'_cons.mp h.1).1
    rcases List.mem_cons.mp hb with rfl | hb
    · omega
    · have := ih b1 (adjacent_chain_tail sizeof_long b0 _ h) b hb
      have := (h.2 b1 (List.mem_cons_of_mem _ (List.mem_cons_self _ _))).1
      omega

theorem forall₂_imp_mem {α : Type} {R S : α → α → Prop} {l' l : List α}
    (h : List.Forall₂ R l' l) (himp : ∀ b' b, b ∈ l → R b' b → S b' b) :
    List.Forall₂ S l' l := by
  induction h with
  | nil => exact List.Forall₂.nil
  | cons hab _ ih =>
    exact List.Forall₂.cons (himp _ _ (List.mem_cons_self _ _) hab)
      (ih (fun b' b hb => himp b' b (List.mem_cons_of_mem _ hb)))

theorem forall₂_self_mem {α : Type} {R : α → α → Prop} (l : List α)
    (h : ∀ b ∈ l, R b b) : List.Forall₂ R l l := by
  induction l with
  | nil => exact List.Forall₂.nil
  | cons a l ih =>
    exact List.Forall₂.cons (h a (List.mem_cons_self _ _))
      (ih (fun b hb => h b (List.mem_cons_of_mem _ hb)))

theorem node_marks (sizeof_long : Nat) (hL : 0 < sizeof_long) (b0 : bootmem_data)
    (pos max reserve flags : Nat)
    (hc : region_covered sizeof_long b0)
    (h1 : b0.node_min_pfn ≤ pos) (h2 : pos ≤ max) (h3 : max ≤ b0.node_low_pfn)
    (hfree : reserve = 0 → ∀ i, pos - b0.node_min_pfn ≤ i → i < max - b0.node_min_pfn →
      test_bit sizeof_long i b0.node_bootmem_map = Result.ok true)
    (hres : reserve ≠ 0 → flags &&& BOOTMEM_EXCLUSIVE ≠ 0 →
      ∀ i, pos - b0.node_min_pfn ≤ i → i < max - b0.node_min_pfn →
        test_bit sizeof_long i b0.node_bootmem_map = Result.ok false) :
    ∃ b', mark_bootmem_node sizeof_long b0 pos max reserve flags = Result.ok (0, b') ∧
      b'.node_min_pfn = b0.node_min_pfn ∧ b'.node_low_pfn = b0.node_low_pfn ∧
      b'.last_end_off = b0.last_end_off ∧
      ∀ i, test_bit sizeof_long i b'.node_bootmem_map =
        if pos - b0.node_min_pfn ≤ i ∧ i < max - b0.node_min_pfn then
          Result.ok (decide (reserve ≠ 0))
        else test_bit sizeof_long i b0.node_bootmem_map := by
  have hs : ulong_sub sizeof_long pos b0.node_min_pfn = pos - b0.node_min_pfn :=
    ulong_sub_eq h1 (by have := hc.2.1; omega)
  have he : ulong_sub sizeof_long max b0.node_min_pfn = max - b0.node_min_pfn :=
    ulong_sub_eq (by omega) (by have := hc.2.1; omega)
  have hin : ∀ i, pos - b0.node_min_pfn ≤ i → i < max - b0.node_min_pfn →
      ∃ b, test_bit sizeof_long i b0.node_bootmem_map = Result.ok b := by
    intro i _ hi
    exact covered_addressable sizeof_long hL b0 hc i (by omega)
  rw [mark_bootmem_node_inside sizeof_long b0 pos max reserve flags h1 h3, hs, he]
  by_cases hr : reserve ≠ 0
  · rw [if_pos hr]
    obtain ⟨r, b', hb', f1, f2, f3, hcase⟩ := reserve_spec sizeof_long hL b0 _ _ flags hin
    rcases hcase with ⟨h0, hbits, _⟩ | ⟨_, hex, ⟨j, hj1, hj2, hj3⟩, _⟩
    · subst h0
      refine ⟨b', hb', f1, f2, f3, ?_⟩
      intro i
      rw [hbits i]
      simp [hr]
    · rw [hres hr hex j hj1 hj2] at hj3
      cases hj3
  · rw [if_neg hr]
    have hr0 : reserve = 0 := by omega
    rcases free_spec sizeof_long hL b0 _ _ hin with
      ⟨_, j, hj1, hj2, hj3⟩ | ⟨b', hb', _, hbits, _, f3, f1, f2⟩
    · rw [hfree hr0 j hj1 hj2] at hj3
      cases hj3
    · refine ⟨b', by rw [hb'], f1, f2, f3, ?_⟩
      intro i
      rw [hbits i]
      simp [hr0]

theorem node_conflict (sizeof_long : Nat) (hL : 0 < sizeof_long) (b0 : bootmem_data)
    (pos max flags : Nat)
    (hc : region_covered sizeof_long b0)
    (h1 : b0.node_min_pfn ≤ pos) (h2 : pos ≤ max) (h3 : max ≤ b0.node_low_pfn)
    (hex : flags &&& BOOTMEM_EXCLUSIVE ≠ 0)
    (hbusy : ∃ j, pos - b0.node_min_pfn ≤ j ∧ j < max - b0.node_min_pfn ∧
      test_bit sizeof_long j b0.node_bootmem_map = Result.ok true) :
    ∃ b', mark_bootmem_node sizeof_long b0 pos max 1 flags = Result.ok (-EBUSY, b') ∧
      b'.node_min_pfn = b0.node_min_pfn ∧ b'.node_low_pfn = b0.node_low_pfn ∧
      b'.last_end_off = b0.last_end_off ∧
      ∀ i, test_bit sizeof_long i b'.node_bootmem_map =
        test_bit sizeof_long i b0.node_bootmem_map := by
  have hs : ulong_sub sizeof_long pos b0.node_min_pfn = pos - b0.node_min_pfn :=
    ulong_sub_eq h1 (by have := hc.2.1; omega)
  have he : ulong_sub sizeof_long max b0.node_min_pfn = max - b0.node_min_pfn :=
    ulong_sub_eq (by omega) (by have := hc.2.1; omega)
  have hin : ∀ i, pos - b0.node_min_pfn ≤ i → i < max - b0.node_min_pfn →
      ∃ b, test_bit sizeof_long i b0.node_bootmem_map = Result.ok b := by
    intro i _ hi
    exact covered_addressable sizeof_long hL b0 hc i (by omega)
  rw [mark_bootmem_node_inside sizeof_long b0 pos max 1 flags h1 h3, hs, he,
    if_pos (by decide)]
  obtain ⟨r, b', hb', f1, f2, f3, hcase⟩ := reserve_spec sizeof_long hL b0 _ _ flags hin
  rcases hcase with ⟨_, _, _, hclear⟩ | ⟨hr, _, _, hbits, _⟩
  · obtain ⟨j, hj1, hj2, hj3⟩ := hbusy
    rw [hclear hex j hj1 hj2] at hj3
    cases hj3
  · subst hr
    exact ⟨b', hb', f1, f2, f3, hbits⟩

theorem walk_marks_chain (sizeof_long : Nat) (hL : 0 < sizeof_long)
    (rb : Nat → Nat → List bootmem_data → Result (Int × List bootmem_data))
    (start end_ reserve flags : Nat) (rest : List bootmem_data) :
    ∀ pos visited, adjacent_chain sizeof_long rest →
      (∃ b ∈ rest, pos < b.node_low_pfn ∧ end_ ≤ b.node_low_pfn) →
      (∀ b, rest.head? = some b →
        b.node_min_pfn ≤ pos ∧ (pos = start ∨ pos < b.node_low_pfn)) →
      pos ≤ end_ →
      (reserve = 0 → ∀ b ∈ rest, ∀ i, pos ≤ b.node_min_pfn + i →
        b.node_min_pfn + i < end_ → i < b.node_low_pfn - b.node_min_pfn →
        test_bit sizeof_long i b.node_bootmem_map = Result.ok true) →
      (reserve ≠ 0 → flags &&& BOOTMEM_EXCLUSIVE ≠ 0 →
        ∀ b ∈ rest, ∀ i, pos ≤ b.node_min_pfn + i →
        b.node_min_pfn + i < end_ → i < b.node_low_pfn - b.node_min_pfn →
        test_bit sizeof_long i b.node_bootmem_map = Result.ok false) →
      ∃ rest', mark_bootmem_walk sizeof_long rb start end_ reserve flags pos visited rest =
          Result.ok (0, visited ++ rest') ∧
        List.Forall₂ (frame_marked sizeof_long pos end_ (decide (reserve ≠ 0))) rest' rest := by
  induction rest with
  | nil =>
    rintro pos visited _ ⟨b, hb, _⟩
    cases hb
  | cons b0 rest ih =>
    intro pos visited hchain hend hhead hpe hfree hres
    obtain ⟨hmin, hposcase⟩ := hhead b0 rfl
    have hb0 := hchain.2 b0 (List.mem_cons_self _ _)
    have hsorted := adjacent_chain_sorted sizeof_long rest b0 hchain
    have htail := adjacent_chain_tail sizeof_long b0 rest hchain
    have hheadrest : ∀ p, b0.node_low_pfn ≤ p → (p = start ∨ p = b0.node_low_pfn) →
        ∀ b, rest.head? = some b →
        b.node_min_pfn ≤ p ∧ (p = start ∨ p < b.node_low_pfn) := by
      intro p hp hpc b hb
      cases rest with
      | nil => cases hb
      | cons b1 rest1 =>
        simp only [List.head?_cons, Option.some.injEq] at hb
        subst hb
        have h01 : b0.node_low_pfn = b1.node_min_pfn := (List.chain'_cons.mp hchain.1).1
        have hne := (hchain.2 b1 (List.mem_cons_of_mem _ (List.mem_cons_self _ _))).1
        refine ⟨by omega, ?_⟩
        rcases hpc with h | h
        · exact Or.inl h
        · exact Or.inr (by omega)
    simp only [mark_bootmem_walk]
    by_cases hskip : pos < b0.node_min_pfn ∨ pos ≥ b0.node_low_pfn
    · -- the region lies below `pos = start`
      have hge : pos ≥ b0.node_low_pfn := by omega
      have hps : pos = start := by omega
      rw [if_pos hskip, if_neg (by omega)]
      have hend' : ∃ b ∈ rest, pos < b.node_low_pfn ∧ end_ ≤ b.node_low_pfn := by
        obtain ⟨b, hb, hb1, hb2⟩ := hend
        rcases List.mem_cons.mp hb with rfl | hb
        · omega
        · exact ⟨b, hb, hb1, hb2⟩
      obtain ⟨rest', hw, hf⟩ := ih pos (visited ++ [b0]) htail hend'
        (hheadrest pos hge (Or.inl hps)) hpe
        (fun h0 b hb => hfree h0 b (List.mem_cons_of_mem _ hb))
        (fun h0 h1 b hb => hres h0 h1 b (List.mem_cons_of_mem _ hb))
      refine ⟨b0 :: rest', ?_, List.Forall₂.cons ⟨rfl, rfl, rfl, ?_⟩ hf⟩
      · rw [hw, List.append_assoc]; rfl
      · intro i
        rw [if_neg (by omega)]
    · rw [if_neg hskip]
      have hlt : pos < b0.node_low_pfn := by omega
      obtain ⟨b', hb', f1, f2, f3, hbits⟩ :=
        node_marks sizeof_long hL b0 pos (min b0.node_low_pfn end_) reserve flags hb0.2
          hmin (by omega) (Nat.min_le_left _ _)
          (fun h0 i hi1 hi2 => hfree h0 b0 (List.mem_cons_self _ _) i (by omega) (by omega)
            (by omega))
          (fun h0 h1 i hi1 hi2 => hres h0 h1 b0 (List.mem_cons_self _ _) i (by omega)
            (by omega) (by omega))
      have hmark0 : frame_marked sizeof_long pos end_ (decide (reserve ≠ 0)) b' b0 := by
        refine ⟨f1, f2, f3, ?_⟩
        intro i
        rw [hbits i]
        by_cases hcnd : pos - b0.node_min_pfn ≤ i ∧ i < min b0.node_low_pfn end_ - b0.node_min_pfn
        · rw [if_pos hcnd, if_pos (by omega)]
        · rw [if_neg hcnd, if_neg (by omega)]
      rw [hb']
      simp only [ne_eq, not_true_eq_false, and_false, if_false]
      by_cases hme : min b0.node_low_pfn end_ = end_
      · rw [if_pos hme]
        refine ⟨b' :: rest, rfl, List.Forall₂.cons hmark0 ?_⟩
        apply forall₂_self_mem
        intro b hb
        refine ⟨rfl, rfl, rfl, ?_⟩
        intro i
        have := hsorted b hb
        rw [if_neg (by omega)]
      · rw [if_neg hme]
        have hlow : b0.node_low_pfn < end_ := by omega
        have hend' : ∃ b ∈ rest, b'.node_low_pfn < b.node_low_pfn ∧ end_ ≤ b.node_low_pfn := by
          obtain ⟨b, hb, hb1, hb2⟩ := hend
          rcases List.mem_cons.mp hb with rfl | hb
          · omega
          · exact ⟨b, hb, by omega, hb2⟩
        obtain ⟨rest', hw, hf⟩ := ih b'.node_low_pfn (visited ++ [b']) htail hend'
          (hheadrest b'.node_low_pfn (by omega) (Or.inr f2)) (by omega)
          (fun h0 b hb i hi1 hi2 hi3 => hfree h0 b (List.mem_cons_of_mem _ hb) i
            (by have := hsorted b hb; omega) hi2 hi3)
          (fun h0 h1 b hb i hi1 hi2 hi3 => hres h0 h1 b (List.mem_cons_of_mem _ hb) i
            (by have := hsorted b hb; omega) hi2 hi3)
        refine ⟨b' :: rest', ?_, List.Forall₂.cons hmark0 ?_⟩
        · rw [hw, List.append_assoc]; rfl
        · apply forall₂_imp_mem hf
          rintro c' c hc ⟨g1, g2, g3, gbits⟩
          refine ⟨g1, g2, g3, ?_⟩
          intro i
          rw [gbits i]
          have := hsorted c hc
          by_cases hcnd : b'.node_low_pfn ≤ c.node_min_pfn + i ∧ c.node_min_pfn + i < end_ ∧
              i < c.node_low_pfn - c.node_min_pfn
          · rw [if_pos hcnd, if_pos (by omega)]
          · rw [if_neg hcnd, if_neg (by omega)]

theorem walk_conflict_chain (sizeof_long : Nat) (hL : 0 < sizeof_long)
    (rb : Nat → Nat → List bootmem_data → Result (Int × List bootmem_data))
    (start end_ flags : Nat) (hex : flags &&& BOOTMEM_EXCLUSIVE ≠ 0)
    (rest : List bootmem_data) :
    ∀ pos visited f0, adjacent_chain sizeof_long rest →
      (∀ b, rest.head? = some b →
        b.node_min_pfn ≤ pos ∧ (pos = start ∨ pos < b.node_low_pfn)) →
      pos ≤ f0 → f0 < end_ →
      (∃ b ∈ rest, b.node_min_pfn ≤ f0 ∧ f0 < b.node_low_pfn ∧
        test_bit sizeof_long (f0 - b.node_min_pfn) b.node_bootmem_map = Result.ok true) →
      (∀ b ∈ rest, ∀ i, pos ≤ b.node_min_pfn + i → b.node_min_pfn + i < f0 →
        i < b.node_low_pfn - b.node_min_pfn →
        test_bit sizeof_long i b.node_bootmem_map = Result.ok false) →
      ∃ pos_k mid, pos ≤ pos_k ∧ pos_k ≤ f0 ∧
        List.Forall₂ (frame_marked sizeof_long pos pos_k true) mid rest ∧
        mark_bootmem_walk sizeof_long rb start end_ 1 flags pos visited rest =
          (match rb start pos_k (visited ++ mid) with
           | Result.fault => Result.fault
           | Result.bug => Result.bug
           | Result.ok (_, l) => Result.ok (-EBUSY, l)) := by
  induction rest with
  | nil =>
    rintro pos visited f0 _ _ _ _ ⟨b, hb, _⟩
    cases hb
  | cons b0 rest ih =>
    intro pos visited f0 hchain hhead hpf hfe hown hclear
    obtain ⟨hmin, hposcase⟩ := hhead b0 rfl
    have hb0 := hchain.2 b0 (List.mem_cons_self _ _)
    have hsorted := adjacent_chain_sorted sizeof_long rest b0 hchain
    have htail := adjacent_chain_tail sizeof_long b0 rest hchain
    have hheadrest : ∀ p, b0.node_low_pfn ≤ p → (p = start ∨ p = b0.node_low_pfn) →
        ∀ b, rest.head? = some b →
        b.node_min_pfn ≤ p ∧ (p = start ∨ p < b.node_low_pfn) := by
      intro p hp hpc b hb
      cases rest with
      | nil => cases hb
      | cons b1 rest1 =>
        simp only [List.head?_cons, Option.some.injEq] at hb
        subst hb
        have h01 : b0.node_low_pfn = b1.node_min_pfn := (List.chain'_cons.mp hchain.1).1
        have hne := (hchain.2 b1 (List.mem_cons_of_mem _ (List.mem_cons_self _ _))).1
        refine ⟨by omega, ?_⟩
        rcases hpc with h | h
        · exact Or.inl h
        · exact Or.inr (by omega)
    have hown_rest : b0.node_low_pfn ≤ f0 →
        ∃ b ∈ rest, b.node_min_pfn ≤ f0 ∧ f0 < b.node_low_pfn ∧
          test_bit sizeof_long (f0 - b.node_min_pfn) b.node_bootmem_map = Result.ok true := by
      intro hge
      obtain ⟨b, hb, hb1, hb2, hb3⟩ := hown
      rcases List.mem_cons.mp hb with rfl | hb
      · omega
      · exact ⟨b, hb, hb1, hb2, hb3⟩
    simp only [mark_bootmem_walk]
    by_cases hskip : pos < b0.node_min_pfn ∨ pos ≥ b0.node_low_pfn
    · have hge : pos ≥ b0.node_low_pfn := by omega
      have hps : pos = start := hposcase.resolve_right (Nat.not_lt.mpr hge)
      rw [if_pos hskip, if_neg (by omega)]
      obtain ⟨pos_k, mid, h1, h2, hf, hw⟩ := ih pos (visited ++ [b0]) f0 htail
        (hheadrest pos hge (Or.inl hps)) hpf hfe (hown_rest (by omega))
        (fun b hb => hclear b (List.mem_cons_of_mem _ hb))
      refine ⟨pos_k, b0 :: mid, h1, h2, List.Forall₂.cons ⟨rfl, rfl, rfl, ?_⟩ hf, ?_⟩
      · intro i
        rw [if_neg (by omega)]
      · rw [hw, List.append_assoc]; rfl
    · rw [if_neg hskip]
      have hlt : pos < b0.node_low_pfn := by omega
      by_cases hf0 : f0 < b0.node_low_pfn
      · -- the conflict is in this region
        have hset : test_bit sizeof_long (f0 - b0.node_min_pfn) b0.node_bootmem_map =
            Result.ok true := by
          obtain ⟨b, hb, hb1, hb2, hb3⟩ := hown
          rcases List.mem_cons.mp hb with rfl | hb
          · exact hb3
          · have := hsorted b hb; omega
        obtain ⟨b', hb', f1, f2, f3, hbits⟩ :=
          node_conflict sizeof_long hL b0 pos (min b0.node_low_pfn end_) flags hb0.2
            hmin (by omega) (Nat.min_le_left _ _) hex
            ⟨f0 - b0.node_min_pfn, by omega, by omega, hset⟩
        rw [hb']
        simp only
        rw [if_pos ⟨by decide, EBUSY_ne_zero⟩]
        refine ⟨pos, b' :: rest, Nat.le_refl _, hpf,
          List.Forall₂.cons ⟨f1, f2, f3, ?_⟩ ?_, rfl⟩
        · intro i
          rw [hbits i, if_neg (by omega)]
        · apply forall₂_self_mem
          intro b hb
          refine ⟨rfl, rfl, rfl, ?_⟩
          intro i
          rw [if_neg (by omega)]
      · -- the region is reserved up to its end
        have hlowf : b0.node_low_pfn ≤ f0 := by omega
        have hmaxlow : min b0.node_low_pfn end_ = b0.node_low_pfn := by omega
        obtain ⟨b', hb', f1, f2, f3, hbits⟩ :=
          node_marks sizeof_long hL b0 pos (min b0.node_low_pfn end_) 1 flags hb0.2
            hmin (by omega) (Nat.min_le_left _ _)
            (fun h0 => absurd h0 (by decide))
            (fun _ _ i hi1 hi2 => hclear b0 (List.mem_cons_self _ _) i (by omega) (by omega)
              (by omega))
        rw [hb']
        simp only [ne_eq, not_true_eq_false, and_false, if_false]
        rw [if_neg (by omega)]
        obtain ⟨pos_k, mid, h1, h2, hf, hw⟩ := ih b'.node_low_pfn (visited ++ [b']) f0 htail
          (hheadrest b'.node_low_pfn (by omega) (Or.inr f2)) (by omega) hfe
          (hown_rest hlowf)
          (fun b hb i hi1 hi2 hi3 => hclear b (List.mem_cons_of_mem _ hb) i
            (by have := hsorted b hb; omega) hi2 hi3)
        refine ⟨pos_k, b' :: mid, by omega, h2,
          List.Forall₂.cons ⟨f1, f2, f3, ?_⟩ ?_, ?_⟩
        · intro i
          rw [hbits i]
          have hd : decide ((1 : Nat) ≠ 0) = true := by decide
          rw [hd]
          by_cases hcnd : pos - b0.node_min_pfn ≤ i ∧
              i < min b0.node_low_pfn end_ - b0.node_min_pfn
          · rw [if_pos hcnd, if_pos (by omega)]
          · rw [if_neg hcnd, if_neg (by omega)]
        · apply forall₂_imp_mem hf
          rintro c' c hc ⟨g1, g2, g3, gbits⟩
          refine ⟨g1, g2, g3, ?_⟩
          intro i
          rw [gbits i]
          have := hsorted c hc
          by_cases hcnd : b'.node_low_pfn ≤ c.node_min_pfn + i ∧ c.node_min_pfn + i < pos_k ∧
              i < c.node_low_pfn - c.node_min_pfn
          · rw [if_pos hcnd, if_pos (by omega)]
          · rw [if_neg hcnd, if_neg (by omega)]
        · rw [hw, List.append_assoc]; rfl

theorem region_covered_of_marked (sizeof_long : Nat) (hL : 0 < sizeof_long)
    (a e : Nat) (v : Bool) (b' b : bootmem_data)
    (h : frame_marked sizeof_long a e v b' b) (hc : region_covered sizeof_long b) :
    region_covered sizeof_long b' := by
  obtain ⟨f1, f2, _, hbits⟩ := h
  refine ⟨by rw [f1, f2]; exact hc.1, by rw [f2]; exact hc.2.1, ?_⟩
  rw [f1, f2]
  by_contra hlt
  have hi : bitmap_bits sizeof_long b'.node_bootmem_map <
      b.node_low_pfn - b.node_min_pfn := by omega
  have hok : ∃ c, test_bit sizeof_long (bitmap_bits sizeof_long b'.node_bootmem_map)
      b'.node_bootmem_map = Result.ok c := by
    rw [hbits]
    by_cases hcnd : a ≤ b.node_min_pfn + bitmap_bits sizeof_long b'.node_bootmem_map ∧
        b.node_min_pfn + bitmap_bits sizeof_long b'.node_bootmem_map < e ∧
        bitmap_bits sizeof_long b'.node_bootmem_map < b.node_low_pfn - b.node_min_pfn
    · rw [if_pos hcnd]; exact ⟨v, rfl⟩
    · rw [if_neg hcnd]
      exact covered_addressable sizeof_long hL b hc _ hi
  have := (test_bit_ok_iff_lt sizeof_long hL _ _).mp hok
  omega

theorem adjacent_chain_of_marked (sizeof_long : Nat) (hL : 0 < sizeof_long)
    (a e : Nat) (v : Bool) (l' l : List bootmem_data)
    (h : List.Forall₂ (frame_marked sizeof_long a e v) l' l)
    (hc : adjacent_chain sizeof_long l) : adjacent_chain sizeof_long l' := by
  induction h with
  | nil => exact hc
  | @cons b' b t' t hb ht ih =>
    have htail := adjacent_chain_tail sizeof_long b t hc
    have ih' := ih htail
    have hb0 := hc.2 b (List.mem_cons_self _ _)
    refine ⟨?_, ?_⟩
    · cases ht with
      | nil => exact List.chain'_singleton _
      | @cons c' c u' u hcc hu =>
        refine List.chain'_cons.mpr ⟨?_, ih'.1⟩
        have := (List.chain'_cons.mp hc.1).1
        rw [hb.2.1, hcc.1]
        exact this
    · intro x hx
      rcases List.mem_cons.mp hx with rfl | hx
      · exact ⟨by rw [hb.1, hb.2.1]; exact hb0.1,
          region_covered_of_marked sizeof_long hL a e v _ b hb hb0.2⟩
      · exact ih'.2 x hx

theorem forall₂_mem_right {α : Type} {R : α → α → Prop} {l' l : List α}
    (h : List.Forall₂ R l' l) : ∀ b ∈ l, ∃ b' ∈ l', R b' b := by
  induction h with
  | nil => intro b hb; cases hb
  | cons hab _ ih =>
    intro b hb
    rcases List.mem_cons.mp hb with rfl | hb
    · exact ⟨_, List.mem_cons_self _ _, hab⟩
    · obtain ⟨b', hb', hr⟩ := ih b hb
      exact ⟨b', List.mem_cons_of_mem _ hb', hr⟩

theorem forall₂_mem_left {α : Type} {R : α → α → Prop} {l' l : List α}
    (h : List.Forall₂ R l' l) : ∀ b' ∈ l', ∃ b ∈ l, R b' b := by
  induction h with
  | nil => intro b hb; cases hb
  | cons hab _ ih =>
    intro b hb
    rcases List.mem_cons.mp hb with rfl | hb
    · exact ⟨_, List.mem_cons_self _ _, hab⟩
    · obtain ⟨b', hb', hr⟩ := ih b hb
      exact ⟨b', List.mem_cons_of_mem _ hb', hr⟩

theorem forall₂_comp_mem {α : Type} {R S T : α → α → Prop} {l2 l1 : List α}
    (h : List.Forall₂ R l2 l1) :
    ∀ l, List.Forall₂ S l1 l → (∀ a b c, c ∈ l → R a b → S b c → T a c) →
      List.Forall₂ T l2 l := by
  induction h with
  | nil =>
    intro l hs _
    cases hs
    exact List.Forall₂.nil
  | cons hab _ ih =>
    intro l hs hcomp
    cases hs with
    | cons hbc hrest =>
      exact List.Forall₂.cons (hcomp _ _ _ (List.mem_cons_self _ _) hab hbc)
        (ih _ hrest (fun a b c hc => hcomp a b c (List.mem_cons_of_mem _ hc)))

/-! ## Alignment and page arithmetic -/

theorem ALIGN_eq (sizeof_long x k : Nat) (hk : k ≤ BITS_PER_LONG sizeof_long) :
    ALIGN sizeof_long x (2 ^ k) = ulong sizeof_long (x + (2 ^ k - 1)) / 2 ^ k * 2 ^ k := by
  have hpos := two_pow_bits_pos sizeof_long
  have hkpos : 0 < 2 ^ k := Nat.pow_pos (by decide)
  have hkW : 2 ^ k ≤ 2 ^ BITS_PER_LONG sizeof_long := Nat.pow_le_pow_right (by decide) hk
  have hlt : 2 ^ k - 1 < 2 ^ BITS_PER_LONG sizeof_long := by omega
  have hmask : ulong sizeof_long (2 ^ k + ULONG_MAX sizeof_long) = 2 ^ k - 1 := by
    unfold ulong ULONG_MAX
    have e : 2 ^ k + (2 ^ BITS_PER_LONG sizeof_long - 1) =
        (2 ^ k - 1) + 2 ^ BITS_PER_LONG sizeof_long := by omega
    rw [e, Nat.add_mod_right, Nat.mod_eq_of_lt hlt]
  unfold ALIGN
  simp only [hmask]
  unfold ULONG_MAX
  exact and_high_mask _ _ _ (Nat.mod_lt _ hpos) hk

theorem ALIGN_dvd (sizeof_long x k : Nat) (hk : k ≤ BITS_PER_LONG sizeof_long) :
    2 ^ k ∣ ALIGN sizeof_long x (2 ^ k) := by
  rw [ALIGN_eq sizeof_long x k hk]
  exact Nat.dvd_mul_left _ _

theorem ALIGN_bounds (sizeof_long x k : Nat) (hk : k ≤ BITS_PER_LONG sizeof_long)
    (hx : x + (2 ^ k - 1) < 2 ^ BITS_PER_LONG sizeof_long) :
    x ≤ ALIGN sizeof_long x (2 ^ k) ∧ ALIGN sizeof_long x (2 ^ k) < x + 2 ^ k := by
  have hkpos : 0 < 2 ^ k := Nat.pow_pos (by decide)
  rw [ALIGN_two_pow sizeof_long x k hk hx]
  have h1 := Nat.div_add_mod (x + (2 ^ k - 1)) (2 ^ k)
  have h2 := Nat.mod_lt (x + (2 ^ k - 1)) hkpos
  rw [Nat.mul_comm] at h1
  generalize (x + (2 ^ k - 1)) / 2 ^ k * 2 ^ k = A at h1
  omega

theorem le_of_dvd_of_lt_add {d A T : Nat} (hA : d ∣ A) (hT : d ∣ T) (h : A < T + d) :
    A ≤ T := by
  obtain ⟨a, rfl⟩ := hA
  obtain ⟨t, rfl⟩ := hT
  rcases Nat.eq_zero_or_pos d with h0 | hd
  · subst h0; simp
  · have h' : d * a < d * (t + 1) := by rw [Nat.mul_add, Nat.mul_one]; exact h
    have := Nat.lt_of_mul_lt_mul_left h'
    exact Nat.mul_le_mul_left d (by omega)

theorem ALIGN_le_of_dvd (sizeof_long x k T : Nat) (hk : k ≤ BITS_PER_LONG sizeof_long)
    (hx : x + (2 ^ k - 1) < 2 ^ BITS_PER_LONG sizeof_long)
    (hT : 2 ^ k ∣ T) (hxT : x ≤ T) : ALIGN sizeof_long x (2 ^ k) ≤ T := by
  have hb := ALIGN_bounds sizeof_long x k hk hx
  exact le_of_dvd_of_lt_add (ALIGN_dvd sizeof_long x k hk) hT (by omega)

theorem ulong_idem (sizeof_long x : Nat) :
    ulong sizeof_long (ulong sizeof_long x) = ulong sizeof_long x := by
  unfold ulong
  exact Nat.mod_mod _ _

theorem ulong_modEq (sizeof_long x : Nat) :
    Nat.ModEq (2 ^ BITS_PER_LONG sizeof_long) (ulong sizeof_long x) x :=
  Nat.mod_modEq _ _

theorem ulong_eq_of_modEq {sizeof_long x y : Nat}
    (h : Nat.ModEq (2 ^ BITS_PER_LONG sizeof_long) x y) :
    ulong sizeof_long x = ulong sizeof_long y := h

theorem ulong_sub_modEq (sizeof_long a b : Nat) :
    Nat.ModEq (2 ^ BITS_PER_LONG sizeof_long) (b + ulong_sub sizeof_long a b) a := by
  have hpos := two_pow_bits_pos sizeof_long
  have hlt : ulong sizeof_long b < 2 ^ BITS_PER_LONG sizeof_long := Nat.mod_lt _ hpos
  have h1 : Nat.ModEq (2 ^ BITS_PER_LONG sizeof_long) (ulong_sub sizeof_long a b)
      (a + (2 ^ BITS_PER_LONG sizeof_long - ulong sizeof_long b)) := Nat.mod_modEq _ _
  have h2 : Nat.ModEq (2 ^ BITS_PER_LONG sizeof_long) b (ulong sizeof_long b) :=
    (Nat.mod_modEq _ _).symm
  have h3 := h2.add h1
  have e : ulong sizeof_long b + (a + (2 ^ BITS_PER_LONG sizeof_long - ulong sizeof_long b)) =
      a + 2 ^ BITS_PER_LONG sizeof_long := by omega
  rw [e] at h3
  exact h3.trans (by simp [Nat.ModEq])

theorem dvd_ulong {sizeof_long k x : Nat} (hk : k ≤ BITS_PER_LONG sizeof_long)
    (h : 2 ^ k ∣ x) : 2 ^ k ∣ ulong sizeof_long x := by
  unfold ulong
  exact (Nat.dvd_mod_iff (pow_dvd_pow 2 hk)).mpr h

theorem PAGE_SIZE_eq (sizeof_long PAGE_SHIFT : Nat)
    (h : PAGE_SHIFT < BITS_PER_LONG sizeof_long) :
    PAGE_SIZE sizeof_long PAGE_SHIFT = 2 ^ PAGE_SHIFT := by
  unfold PAGE_SIZE ulong
  rw [Nat.shiftLeft_eq, Nat.one_mul]
  exact Nat.mod_eq_of_lt (Nat.pow_lt_pow_right (by decide) h)

theorem step_eq (a PAGE_SHIFT : Nat) :
    Nat.max (2 ^ a >>> PAGE_SHIFT) 1 = 2 ^ (a - PAGE_SHIFT) := by
  rw [Nat.shiftRight_eq_div_pow]
  by_cases h : PAGE_SHIFT ≤ a
  · rw [Nat.pow_div h (by decide)]
    have : 0 < 2 ^ (a - PAGE_SHIFT) := Nat.pow_pos (by decide)
    exact Nat.max_eq_left this
  · have hlt : 2 ^ a < 2 ^ PAGE_SHIFT := Nat.pow_lt_pow_right (by decide) (by omega)
    rw [Nat.div_eq_of_lt hlt, show a - PAGE_SHIFT = 0 by omega]
    rfl

/-! ## The address returned by `alloc_bootmem_core` -/

theorem find_block_aligned (sizeof_long PAGE_SHIFT : Nat) (bdata : bootmem_data)
    (midx step size : Nat) :
    ∀ fuel sidx fallback s,
      find_block sizeof_long PAGE_SHIFT bdata midx step size fuel sidx fallback =
        some (Result.ok (some s)) →
      ∃ found, s = align_idx sizeof_long bdata found step := by
  intro fuel
  induction fuel with
  | zero => intro sidx fallback s h; simp [find_block] at h
  | succ fuel ih =>
    intro sidx fallback s h
    simp only [find_block] at h
    split at h
    · cases h
    · cases h
    · rename_i found hf
      split at h
      · split at h
        · exact ih _ _ _ h
        · cases h
      · split at h
        · cases h
        · cases h
        · exact ih _ _ _ h
        · simp only [Option.some.injEq, Result.ok.injEq] at h
          exact ⟨found, h.symm⟩

theorem alloc_commit_addr (sizeof_long PAGE_SHIFT : Nat) (bdata b' : bootmem_data)
    (size align s addr : Nat)
    (h : alloc_commit sizeof_long PAGE_SHIFT bdata size align s = Result.ok (some addr, b')) :
    addr = ulong sizeof_long (PFN_PHYS sizeof_long PAGE_SHIFT bdata.node_min_pfn +
        align_off sizeof_long PAGE_SHIFT bdata bdata.last_end_off align) ∨
    addr = ulong sizeof_long (PFN_PHYS sizeof_long PAGE_SHIFT bdata.node_min_pfn +
        PFN_PHYS sizeof_long PAGE_SHIFT s) := by
  unfold alloc_commit at h
  simp only at h
  split at h
  · cases h
  · cases h
  · rename_i err b1 hres
    have hf := reserve_fields sizeof_long _ b1 _ _ _ err hres
    split at h
    · cases h
    · split at h
      · cases h
      · cases h
      · simp only [Result.ok.injEq, Prod.mk.injEq, Option.some.injEq] at h
        rw [hf.1] at h
        split at h
        · exact Or.inl h.1.symm
        · exact Or.inr h.1.symm

theorem alloc_bootmem_core_some (sizeof_long PAGE_SHIFT : Nat) (bdata b' : bootmem_data)
    (size align goal limit addr : Nat)
    (h : alloc_bootmem_core sizeof_long PAGE_SHIFT bdata size align goal limit =
      some (Result.ok (some addr, b'))) :
    ∃ midx fuel sidx fallback s,
      find_block sizeof_long PAGE_SHIFT bdata midx (Nat.max (align >>> PAGE_SHIFT) 1) size
        fuel sidx fallback = some (Result.ok (some s)) ∧
      alloc_commit sizeof_long PAGE_SHIFT bdata size align s = Result.ok (some addr, b') := by
  unfold alloc_bootmem_core at h
  by_cases h1 : size = 0
  · rw [if_pos h1] at h; cases h
  rw [if_neg h1] at h
  by_cases h2 : align &&& ulong sizeof_long (align + ULONG_MAX sizeof_long) ≠ 0
  · rw [if_pos h2] at h; cases h
  rw [if_neg h2] at h
  by_cases h3 : limit ≠ 0 ∧ ulong sizeof_long (goal + size) > limit
  · rw [if_pos h3] at h; cases h
  rw [if_neg h3] at h
  by_cases h4 : bdata.node_bootmem_map = none
  · rw [if_pos h4] at h; cases h
  rw [if_neg h4] at h
  dsimp only at h
  generalize (if limit >>> PAGE_SHIFT ≠ 0 ∧ bdata.node_low_pfn > limit >>> PAGE_SHIFT
    then limit >>> PAGE_SHIFT else bdata.node_low_pfn) = mx at h
  by_cases h5 : mx ≤ bdata.node_min_pfn
  · rw [if_pos h5] at h; cases h
  rw [if_neg h5] at h
  generalize hfb : find_block _ _ _ _ _ _ _ _ _ = fb at h
  match fb, hfb, h with
  | some (Result.ok (some s)), hfb, h =>
    simp only [Option.some.injEq] at h
    exact ⟨_, _, _, _, s, hfb, h⟩

theorem alloc_bootmem_core_addr (sizeof_long PAGE_SHIFT : Nat) (bdata b' : bootmem_data)
    (size align goal limit addr : Nat)
    (h : alloc_bootmem_core sizeof_long PAGE_SHIFT bdata size align goal limit =
      some (Result.ok (some addr, b'))) :
    addr = ulong sizeof_long (PFN_PHYS sizeof_long PAGE_SHIFT bdata.node_min_pfn +
        align_off sizeof_long PAGE_SHIFT bdata bdata.last_end_off align) ∨
    ∃ found, addr = ulong sizeof_long (PFN_PHYS sizeof_long PAGE_SHIFT bdata.node_min_pfn +
        PFN_PHYS sizeof_long PAGE_SHIFT
          (align_idx sizeof_long bdata found (Nat.max (align >>> PAGE_SHIFT) 1))) := by
  obtain ⟨midx, fuel, sidx, fallback, s, hfb, hc⟩ :=
    alloc_bootmem_core_some _ _ _ _ _ _ _ _ _ h
  obtain ⟨found, hfound⟩ := find_block_aligned _ _ _ _ _ _ _ _ _ _ hfb
  rcases alloc_commit_addr _ _ _ _ _ _ _ _ hc with h1 | h1
  · exact Or.inl h1
  · exact Or.inr ⟨found, by rw [h1, hfound]⟩

theorem align_off_addr_dvd (sizeof_long PAGE_SHIFT : Nat) (bdata : bootmem_data) (off a : Nat)
    (ha : a ≤ BITS_PER_LONG sizeof_long) :
    2 ^ a ∣ ulong sizeof_long (PFN_PHYS sizeof_long PAGE_SHIFT bdata.node_min_pfn +
      align_off sizeof_long PAGE_SHIFT bdata off (2 ^ a)) := by
  unfold align_off
  simp only
  rw [ulong_eq_of_modEq (ulong_sub_modEq sizeof_long _ _)]
  exact dvd_ulong ha (ALIGN_dvd sizeof_long _ a ha)

theorem align_idx_addr_dvd (sizeof_long PAGE_SHIFT : Nat) (bdata : bootmem_data)
    (found a : Nat) (ha : a ≤ BITS_PER_LONG sizeof_long) :
    2 ^ a ∣ ulong sizeof_long (PFN_PHYS sizeof_long PAGE_SHIFT bdata.node_min_pfn +
      PFN_PHYS sizeof_long PAGE_SHIFT
        (align_idx sizeof_long bdata found (Nat.max (2 ^ a >>> PAGE_SHIFT) 1))) := by
  rw [step_eq]
  have hk : a - PAGE_SHIFT ≤ BITS_PER_LONG sizeof_long := by omega
  have hA := ALIGN_dvd sizeof_long (ulong sizeof_long (bdata.node_min_pfn + found))
    (a - PAGE_SHIFT) hk
  have hmod : Nat.ModEq (2 ^ BITS_PER_LONG sizeof_long)
      (PFN_PHYS sizeof_long PAGE_SHIFT bdata.node_min_pfn +
        PFN_PHYS sizeof_long PAGE_SHIFT
          (align_idx sizeof_long bdata found (2 ^ (a - PAGE_SHIFT))))
      (ALIGN sizeof_long (ulong sizeof_long (bdata.node_min_pfn + found))
        (2 ^ (a - PAGE_SHIFT)) * 2 ^ PAGE_SHIFT) := by
    unfold PFN_PHYS align_idx
    simp only [Nat.shiftLeft_eq]
    refine ((ulong_modEq _ _).add (ulong_modEq _ _)).trans ?_
    rw [← Nat.add_mul]
    exact (ulong_sub_modEq sizeof_long _ _).mul_right _
  rw [ulong_eq_of_modEq hmod]
  apply dvd_ulong ha
  obtain ⟨q, hq⟩ := hA
  rw [hq]
  by_cases h : PAGE_SHIFT ≤ a
  · refine ⟨q, ?_⟩
    have e : 2 ^ a = 2 ^ (a - PAGE_SHIFT) * 2 ^ PAGE_SHIFT := by
      rw [← Nat.pow_add]; congr 1; omega
    rw [e]; ring
  · have e0 : a - PAGE_SHIFT = 0 := by omega
    rw [e0, Nat.pow_zero, Nat.one_mul]
    exact Dvd.dvd.mul_left (pow_dvd_pow 2 (by omega)) q

/-! ## Bit searches -/

theorem find_next_zero_bit_loop_spec (sizeof_long : Nat) (addr : Option Bitmap) (size : Nat) :
    ∀ n idx,
      (∀ i, idx ≤ i → i < idx + n → ∃ c, test_bit sizeof_long i addr = Result.ok c) →
      ∃ r, find_next_zero_bit_loop sizeof_long addr size idx n = Result.ok r ∧
        ((r = size ∧ ∀ i, idx ≤ i → i < idx + n →
            test_bit sizeof_long i addr = Result.ok true) ∨
         (idx ≤ r ∧ r < idx + n ∧ test_bit sizeof_long r addr = Result.ok false ∧
           ∀ i, idx ≤ i → i < r → test_bit sizeof_long i addr = Result.ok true)) := by
  intro n
  induction n with
  | zero =>
    intro idx _
    exact ⟨size, rfl, Or.inl ⟨rfl, fun i h1 h2 => absurd h2 (by omega)⟩⟩
  | succ n ih =>
    intro idx hin
    obtain ⟨c, hc⟩ := hin idx (Nat.le_refl _) (by omega)
    simp only [find_next_zero_bit_loop, hc]
    cases c with
    | false =>
      exact ⟨idx, by simp, Or.inr ⟨Nat.le_refl _, by omega, hc,
        fun i h1 h2 => absurd h2 (by omega)⟩⟩
    | true =>
      obtain ⟨r, hr, hcase⟩ := ih (idx + 1) (fun i h1 h2 => hin i (by omega) (by omega))
      refine ⟨r, by simpa using hr, ?_⟩
      rcases hcase with ⟨h1, h2⟩ | ⟨h1, h2, h3, h4⟩
      · refine Or.inl ⟨h1, fun i hi1 hi2 => ?_⟩
        rcases Nat.eq_or_lt_of_le hi1 with h | h
        · rw [← h]; exact hc
        · exact h2 i (by omega) (by omega)
      · refine Or.inr ⟨by omega, by omega, h3, fun i hi1 hi2 => ?_⟩
        rcases Nat.eq_or_lt_of_le hi1 with h | h
        · rw [← h]; exact hc
        · exact h4 i (by omega) hi2

theorem find_next_zero_bit_spec (sizeof_long : Nat) (addr : Option Bitmap) (size offset : Nat)
    (hin : ∀ i, i < size → ∃ c, test_bit sizeof_long i addr = Result.ok c) :
    ∃ r, find_next_zero_bit sizeof_long addr size offset = Result.ok r ∧ r ≤ size ∧
      (offset ≤ size → offset ≤ r) ∧
      (∀ i, offset ≤ i → i < r → test_bit sizeof_long i addr = Result.ok true) ∧
      (r < size → test_bit sizeof_long r addr = Result.ok false) := by
  obtain ⟨r, hr, hcase⟩ := find_next_zero_bit_loop_spec sizeof_long addr size
    (size - offset) offset (fun i h1 h2 => hin i (by omega))
  refine ⟨r, hr, ?_⟩
  rcases hcase with ⟨h1, h2⟩ | ⟨h1, h2, h3, h4⟩
  · subst h1
    exact ⟨Nat.le_refl _, fun h => h, fun i hi1 hi2 => h2 i hi1 (by omega),
      fun h => absurd h (Nat.lt_irrefl _)⟩
  · exact ⟨by omega, fun _ => h1, h4, fun _ => h3⟩

theorem first_set_bit_spec (sizeof_long : Nat) (addr : Option Bitmap) :
    ∀ n idx,
      (∀ i, idx ≤ i → i < idx + n → ∃ c, test_bit sizeof_long i addr = Result.ok c) →
      (first_set_bit sizeof_long addr idx n = Result.ok none ∧
        ∀ i, idx ≤ i → i < idx + n → test_bit sizeof_long i addr = Result.ok false) ∨
      (∃ j, first_set_bit sizeof_long addr idx n = Result.ok (some j) ∧ idx ≤ j ∧
        j < idx + n ∧ test_bit sizeof_long j addr = Result.ok true) := by
  intro n
  induction n with
  | zero =>
    intro idx _
    exact Or.inl ⟨rfl, fun i h1 h2 => absurd h2 (by omega)⟩
  | succ n ih =>
    intro idx hin
    obtain ⟨c, hc⟩ := hin idx (Nat.le_refl _) (by omega)
    simp only [first_set_bit, hc]
    cases c with
    | true => exact Or.inr ⟨idx, by simp, Nat.le_refl _, by omega, hc⟩
    | false =>
      rcases ih (idx + 1) (fun i h1 h2 => hin i (by omega) (by omega)) with
        ⟨h1, h2⟩ | ⟨j, h1, h2, h3, h4⟩
      · refine Or.inl ⟨by simpa using h1, fun i hi1 hi2 => ?_⟩
        rcases Nat.eq_or_lt_of_le hi1 with h | h
        · rw [← h]; exact hc
        · exact h2 i (by omega) (by omega)
      · exact Or.inr ⟨j, by simpa using h1, by omega, by omega, h4⟩

theorem align_idx_bounds (sizeof_long : Nat) (bdata : bootmem_data) (idx k : Nat)
    (hk : k ≤ BITS_PER_LONG sizeof_long)
    (hnw : bdata.node_min_pfn + idx + 2 ^ k ≤ 2 ^ BITS_PER_LONG sizeof_long) :
    idx ≤ align_idx sizeof_long bdata idx (2 ^ k) ∧
    align_idx sizeof_long bdata idx (2 ^ k) < idx + 2 ^ k ∧
    2 ^ k ∣ bdata.node_min_pfn + align_idx sizeof_long bdata idx (2 ^ k) := by
  have hkpos : 0 < 2 ^ k := Nat.pow_pos (by decide)
  have hx : bdata.node_min_pfn + idx ≤ ULONG_MAX sizeof_long := by
    unfold ULONG_MAX; omega
  have hb := ALIGN_bounds sizeof_long (bdata.node_min_pfn + idx) k hk (by omega)
  have hd := ALIGN_dvd sizeof_long (bdata.node_min_pfn + idx) k hk
  unfold align_idx
  simp only
  rw [ulong_of_le hx, ulong_sub_eq (by omega) (by unfold ULONG_MAX; omega)]
  refine ⟨by omega, by omega, ?_⟩
  rw [Nat.add_sub_cancel' (by omega)]
  exact hd

/-! ## The search of `alloc_bootmem_core` -/

theorem find_block_total (sizeof_long PAGE_SHIFT : Nat) (bdata : bootmem_data)
    (midx k size : Nat) (hk : k ≤ BITS_PER_LONG sizeof_long)
    (hin : ∀ i, i < midx →
      ∃ c, test_bit sizeof_long i bdata.node_bootmem_map = Result.ok c)
    (hnw : bdata.node_min_pfn + midx + 2 ^ k ≤ 2 ^ BITS_PER_LONG sizeof_long) :
    ∀ fuel sidx fallback,
      (midx - min sidx midx) + 1 + (if fallback ≠ 0 then midx + 1 else 0) ≤ fuel →
      ∃ r, find_block sizeof_long PAGE_SHIFT bdata midx (2 ^ k) size fuel sidx fallback =
          some (Result.ok r) ∧
        ∀ s, r = some s →
          s < midx ∧ ulong sizeof_long (s + PFN_UP sizeof_long PAGE_SHIFT size) ≤ midx ∧
          2 ^ k ∣ bdata.node_min_pfn + s ∧
          (∀ i, s ≤ i → i < ulong sizeof_long (s + PFN_UP sizeof_long PAGE_SHIFT size) →
            test_bit sizeof_long i bdata.node_bootmem_map = Result.ok false) ∧
          ∃ f, f ≤ s ∧ test_bit sizeof_long f bdata.node_bootmem_map = Result.ok false := by
  have hkpos : 0 < 2 ^ k := Nat.pow_pos (by decide)
  intro fuel
  induction fuel with
  | zero => intro sidx fallback h; omega
  | succ fuel ih =>
    intro sidx fallback hm
    obtain ⟨found, hfz, hle, hge, _, hclr⟩ :=
      find_next_zero_bit_spec sizeof_long bdata.node_bootmem_map midx sidx hin
    obtain ⟨hs1, hs2, hs3⟩ := align_idx_bounds sizeof_long bdata found k hk (by omega)
    simp only [find_block, hfz]
    by_cases hbrk : align_idx sizeof_long bdata found (2 ^ k) ≥ midx ∨
        ulong sizeof_long (align_idx sizeof_long bdata found (2 ^ k) +
          PFN_UP sizeof_long PAGE_SHIFT size) > midx
    · rw [if_pos hbrk]
      by_cases hfb : fallback ≠ 0
      · rw [if_pos hfb]
        apply ih
        rw [if_pos hfb] at hm
        simp only [ne_eq, not_true_eq_false, if_false]
        omega
      · rw [if_neg hfb]
        exact ⟨none, rfl, fun s hs => by cases hs⟩
    · rw [if_neg hbrk]
      have hlt : align_idx sizeof_long bdata found (2 ^ k) < midx := by omega
      have hele : ulong sizeof_long (align_idx sizeof_long bdata found (2 ^ k) +
          PFN_UP sizeof_long PAGE_SHIFT size) ≤ midx := by omega
      rcases first_set_bit_spec sizeof_long bdata.node_bootmem_map
          (ulong sizeof_long (align_idx sizeof_long bdata found (2 ^ k) +
            PFN_UP sizeof_long PAGE_SHIFT size) - align_idx sizeof_long bdata found (2 ^ k))
          (align_idx sizeof_long bdata found (2 ^ k))
          (fun i h1 h2 => hin i (by omega)) with ⟨hnone, hall⟩ | ⟨j, hsome, hj1, hj2, _⟩
      · rw [hnone]
        refine ⟨some (align_idx sizeof_long bdata found (2 ^ k)), rfl, ?_⟩
        intro s hs
        simp only [Option.some.injEq] at hs
        subst hs
        exact ⟨hlt, hele, hs3, fun i h1 h2 => hall i h1 (by omega),
          found, hs1, hclr (by omega)⟩
      · rw [hsome]
        simp only
        apply ih
        have hjm : j < midx := by omega
        obtain ⟨ha1, ha2, _⟩ := align_idx_bounds sizeof_long bdata j k hk (by omega)
        have hsidx : sidx ≤ found := by
          apply hge
          by_contra hc
          have : found = midx := by
            have := find_next_zero_bit_spec sizeof_long bdata.node_bootmem_map midx sidx hin
            unfold find_next_zero_bit at hfz
            rw [show midx - sidx = 0 by omega] at hfz
            simp only [find_next_zero_bit_loop, Result.ok.injEq] at hfz
            exact hfz.symm
          omega
        have hnext : j < (if align_idx sizeof_long bdata j (2 ^ k) = j then
            ulong sizeof_long (align_idx sizeof_long bdata j (2 ^ k) + 2 ^ k)
            else align_idx sizeof_long bdata j (2 ^ k)) := by
          by_cases he : align_idx sizeof_long bdata j (2 ^ k) = j
          · rw [if_pos he, he, ulong_of_le (by unfold ULONG_MAX; omega)]
            omega
          · rw [if_neg he]; omega
        generalize (if align_idx sizeof_long bdata j (2 ^ k) = j then
            ulong sizeof_long (align_idx sizeof_long bdata j (2 ^ k) + 2 ^ k)
            else align_idx sizeof_long bdata j (2 ^ k)) = next at hnext
        omega

/-! ## Arithmetic of the reserved range -/

theorem mod_of_ge_lt {x M : Nat} (h1 : M ≤ x) (h2 : x < 2 * M) : x % M = x - M := by
  rw [Nat.mod_eq_sub_mod h1]
  exact Nat.mod_eq_of_lt (by omega)

theorem div_le_of_lt_succ_mul {x s B : Nat} (h : x < s * B + B) : x / B ≤ s := by
  rcases Nat.eq_zero_or_pos B with h0 | hB
  · subst h0; simp
  · apply Nat.lt_succ_iff.mp
    rw [Nat.div_lt_iff_lt_mul hB, Nat.succ_mul]
    exact h

theorem le_ceil_mul (x B : Nat) (hB : 0 < B) : x ≤ (x + (B - 1)) / B * B := by
  have h1 := Nat.div_add_mod (x + (B - 1)) B
  have h2 := Nat.mod_lt (x + (B - 1)) hB
  rw [Nat.mul_comm] at h1
  generalize (x + (B - 1)) / B * B = A at h1
  omega

theorem pfn_up_end_le (M B q s so size midx : Nat) (hM : M = q * B) (hB : 2 ≤ B)
    (hsize : size < M) (hso : so ≤ s * B) (hs : s < midx) (hmid : midx * B < M)
    (he : (s + ((size + (B - 1)) % M) / B) % M ≤ midx) :
    (((so + size) % M + (B - 1)) % M) / B ≤ (s + ((size + (B - 1)) % M) / B) % M := by
  have hq : midx < q := by
    rw [hM] at hmid
    exact Nat.lt_of_mul_lt_mul_right hmid
  have hsB : s * B + B ≤ midx * B := by
    have := Nat.mul_le_mul_right B (Nat.succ_le_of_lt hs)
    rwa [Nat.succ_mul] at this
  have hmidq : midx * B + B ≤ M := by
    have := Nat.mul_le_mul_right B (Nat.succ_le_of_lt hq)
    rw [Nat.succ_mul] at this
    omega
  have hs_le : s ≤ s * B := Nat.le_mul_of_pos_right s (by omega)
  by_cases hw : size + (B - 1) < M
  · rw [Nat.mod_eq_of_lt hw] at he ⊢
    have hP1 : size ≤ (size + (B - 1)) / B * B := le_ceil_mul size B (by omega)
    have hP2 : (size + (B - 1)) / B * B ≤ size + (B - 1) := Nat.div_mul_le_self _ _
    have hPq : (size + (B - 1)) / B < q := by
      apply Nat.lt_of_mul_lt_mul_right (a := B)
      rw [← hM]; omega
    have h2q : 2 * q ≤ M := by
      rw [hM, Nat.mul_comm q B]
      exact Nat.mul_le_mul_right q hB
    generalize (size + (B - 1)) / B = P at *
    have hsP : s + P < M := by omega
    rw [Nat.mod_eq_of_lt hsP] at he ⊢
    have hsPB : s * B + P * B ≤ midx * B := by
      have := Nat.mul_le_mul_right B he
      rwa [Nat.add_mul] at this
    rw [Nat.mod_eq_of_lt (show so + size < M by omega),
      Nat.mod_eq_of_lt (show so + size + (B - 1) < M by omega)]
    apply div_le_of_lt_succ_mul
    rw [Nat.add_mul]
    omega
  · have hBM : B ≤ M := by omega
    have hmod : (size + (B - 1)) % M = size + (B - 1) - M :=
      mod_of_ge_lt (by omega) (by omega)
    have hP : (size + (B - 1) - M) / B = 0 := Nat.div_eq_of_lt (by omega)
    rw [hmod, hP, Nat.add_zero, Nat.mod_eq_of_lt (show s < M by omega)]
    by_cases hw2 : so + size < M
    · rw [Nat.mod_eq_of_lt hw2, mod_of_ge_lt (show M ≤ so + size + (B - 1) by omega)
        (by omega)]
      apply div_le_of_lt_succ_mul
      omega
    · rw [mod_of_ge_lt (show M ≤ so + size by omega) (by omega),
        Nat.mod_eq_of_lt (show so + size - M + (B - 1) < M by omega)]
      apply div_le_of_lt_succ_mul
      omega

theorem pfn_up_no_wrap (M B q s so size midx : Nat) (hM : M = q * B) (hB : 2 ≤ B)
    (hso : so ≤ s * B) (hs : s < midx) (hmid : midx * B < M)
    (hw : size + (B - 1) < M)
    (he : (s + ((size + (B - 1)) % M) / B) % M ≤ midx) :
    (size + (B - 1)) % M = size + (B - 1) ∧
    (s + (size + (B - 1)) / B) % M = s + (size + (B - 1)) / B ∧
    s + (size + (B - 1)) / B ≤ midx ∧
    (so + size) % M = so + size ∧
    (so + size + (B - 1)) % M = so + size + (B - 1) ∧
    so + size ≤ (s + (size + (B - 1)) / B) * B := by
  have hq : midx < q := by
    rw [hM] at hmid
    exact Nat.lt_of_mul_lt_mul_right hmid
  have hsB : s * B + B ≤ midx * B := by
    have := Nat.mul_le_mul_right B (Nat.succ_le_of_lt hs)
    rwa [Nat.succ_mul] at this
  have hmidq : midx * B + B ≤ M := by
    have := Nat.mul_le_mul_right B (Nat.succ_le_of_lt hq)
    rw [Nat.succ_mul] at this
    omega
  rw [Nat.mod_eq_of_lt hw] at he
  have hP1 : size ≤ (size + (B - 1)) / B * B := le_ceil_mul size B (by omega)
  have hP2 : (size + (B - 1)) / B * B ≤ size + (B - 1) := Nat.div_mul_le_self _ _
  have hPq : (size + (B - 1)) / B < q := by
    apply Nat.lt_of_mul_lt_mul_right (a := B)
    rw [← hM]; omega
  have h2q : 2 * q ≤ M := by
    rw [hM, Nat.mul_comm q B]
    exact Nat.mul_le_mul_right q hB
  generalize (size + (B - 1)) / B = P at *
  have hsP : s + P < M := by omega
  rw [Nat.mod_eq_of_lt hsP] at he
  have hsPB : s * B + P * B ≤ midx * B := by
    have := Nat.mul_le_mul_right B he
    rwa [Nat.add_mul] at this
  refine ⟨Nat.mod_eq_of_lt hw, Nat.mod_eq_of_lt hsP, he, Nat.mod_eq_of_lt (by omega),
    Nat.mod_eq_of_lt (by omega), ?_⟩
  rw [Nat.add_mul]
  omega

/-! ## The commit step of `alloc_bootmem_core` -/

theorem PFN_PHYS_eq {sizeof_long PAGE_SHIFT x : Nat}
    (h : x * 2 ^ PAGE_SHIFT ≤ ULONG_MAX sizeof_long) :
    PFN_PHYS sizeof_long PAGE_SHIFT x = x * 2 ^ PAGE_SHIFT := by
  unfold PFN_PHYS
  rw [Nat.shiftLeft_eq]
  exact ulong_of_le h

theorem PFN_DOWN_eq (PAGE_SHIFT x : Nat) : PFN_DOWN PAGE_SHIFT x = x / 2 ^ PAGE_SHIFT :=
  Nat.shiftRight_eq_div_pow _ _

theorem PFN_UP_eq (sizeof_long PAGE_SHIFT x : Nat) (h : PAGE_SHIFT < BITS_PER_LONG sizeof_long) :
    PFN_UP sizeof_long PAGE_SHIFT x =
      ((x + (2 ^ PAGE_SHIFT - 1)) % 2 ^ BITS_PER_LONG sizeof_long) / 2 ^ PAGE_SHIFT := by
  unfold PFN_UP
  rw [PAGE_SIZE_eq _ _ h, Nat.shiftRight_eq_div_pow]
  rfl

theorem add_le_of_dvd_of_lt {d T M : Nat} (hT : d ∣ T) (hM : d ∣ M) (h : T < M) :
    T + d ≤ M := by
  obtain ⟨t, rfl⟩ := hT
  obtain ⟨m, rfl⟩ := hM
  rcases Nat.eq_zero_or_pos d with h0 | hd
  · subst h0; simp at h
  · have := Nat.lt_of_mul_lt_mul_left h
    have h2 := Nat.mul_le_mul_left d (Nat.succ_le_of_lt this)
    rw [Nat.mul_succ] at h2
    exact h2

theorem two_pow_split (sizeof_long PAGE_SHIFT : Nat)
    (h : PAGE_SHIFT < BITS_PER_LONG sizeof_long) :
    2 ^ BITS_PER_LONG sizeof_long =
      2 ^ (BITS_PER_LONG sizeof_long - PAGE_SHIFT) * 2 ^ PAGE_SHIFT := by
  rw [← Nat.pow_add]
  congr 1
  omega

theorem frame_addr_dvd (PAGE_SHIFT a x : Nat) (h : 2 ^ (a - PAGE_SHIFT) ∣ x) :
    2 ^ a ∣ x * 2 ^ PAGE_SHIFT := by
  by_cases hle : PAGE_SHIFT ≤ a
  · have e : 2 ^ a = 2 ^ (a - PAGE_SHIFT) * 2 ^ PAGE_SHIFT := by
      rw [← Nat.pow_add]; congr 1; omega
    rw [e]
    exact Nat.mul_dvd_mul_right h _
  · exact Dvd.dvd.mul_left (pow_dvd_pow 2 (by omega)) x

theorem start_off_facts (sizeof_long PAGE_SHIFT : Nat) (bdata : bootmem_data)
    (a s midx : Nat) (hPS0 : 0 < PAGE_SHIFT) (hPSW : PAGE_SHIFT < BITS_PER_LONG sizeof_long)
    (ha : a < BITS_PER_LONG sizeof_long)
    (hleo : bdata.last_end_off ≤ ULONG_MAX sizeof_long) (hs : s < midx)
    (hmid : (bdata.node_min_pfn + midx) * 2 ^ PAGE_SHIFT ≤ ULONG_MAX sizeof_long)
    (hdvd : 2 ^ (a - PAGE_SHIFT) ∣ bdata.node_min_pfn + s) :
    ∃ so, (if bdata.last_end_off &&& (PAGE_SIZE sizeof_long PAGE_SHIFT - 1) ≠ 0 ∧
          ulong sizeof_long (PFN_DOWN PAGE_SHIFT bdata.last_end_off + 1) = s then
        align_off sizeof_long PAGE_SHIFT bdata bdata.last_end_off (2 ^ a)
        else PFN_PHYS sizeof_long PAGE_SHIFT s) = so ∧
      so ≤ s * 2 ^ PAGE_SHIFT ∧
      (so = s * 2 ^ PAGE_SHIFT ∨
        (bdata.last_end_off % 2 ^ PAGE_SHIFT ≠ 0 ∧
          bdata.last_end_off / 2 ^ PAGE_SHIFT + 1 = s ∧ bdata.last_end_off ≤ so)) ∧
      ulong sizeof_long (PFN_DOWN PAGE_SHIFT so +
        (if PFN_DOWN PAGE_SHIFT so < s then 1 else 0)) = s := by
  have hBpos : 0 < 2 ^ PAGE_SHIFT := Nat.pow_pos (by decide)
  have hB2 : 2 ≤ 2 ^ PAGE_SHIFT := by
    have := Nat.pow_le_pow_right (show 0 < 2 by decide) hPS0
    simpa using this
  have hM4 : 4 ≤ 2 ^ BITS_PER_LONG sizeof_long := by
    have := Nat.pow_le_pow_right (show 0 < 2 by decide)
      (show 2 ≤ BITS_PER_LONG sizeof_long by omega)
    simpa using this
  have hmid' : bdata.node_min_pfn * 2 ^ PAGE_SHIFT + midx * 2 ^ PAGE_SHIFT ≤
      ULONG_MAX sizeof_long := by rw [← Nat.add_mul]; exact hmid
  have hsB : s * 2 ^ PAGE_SHIFT + 2 ^ PAGE_SHIFT ≤ midx * 2 ^ PAGE_SHIFT := by
    have := Nat.mul_le_mul_right (2 ^ PAGE_SHIFT) (Nat.succ_le_of_lt hs)
    rwa [Nat.succ_mul] at this
  have hs_le : s ≤ s * 2 ^ PAGE_SHIFT := Nat.le_mul_of_pos_right s hBpos
  have hplain : PFN_PHYS sizeof_long PAGE_SHIFT s = s * 2 ^ PAGE_SHIFT :=
    PFN_PHYS_eq (by omega)
  have hfull : ulong sizeof_long (PFN_DOWN PAGE_SHIFT (s * 2 ^ PAGE_SHIFT) +
      (if PFN_DOWN PAGE_SHIFT (s * 2 ^ PAGE_SHIFT) < s then 1 else 0)) = s := by
    rw [PFN_DOWN_eq, Nat.mul_div_cancel _ hBpos, if_neg (Nat.lt_irrefl _), Nat.add_zero]
    exact ulong_of_le (by omega)
  by_cases hc : bdata.last_end_off &&& (PAGE_SIZE sizeof_long PAGE_SHIFT - 1) ≠ 0 ∧
      ulong sizeof_long (PFN_DOWN PAGE_SHIFT bdata.last_end_off + 1) = s
  · rw [if_pos hc]
    obtain ⟨hc1, hc2⟩ := hc
    rw [PAGE_SIZE_eq _ _ hPSW, Nat.and_pow_two_sub_one_eq_mod] at hc1
    have hdm := Nat.div_add_mod bdata.last_end_off (2 ^ PAGE_SHIFT)
    have hml := Nat.mod_lt bdata.last_end_off hBpos
    rw [Nat.mul_comm] at hdm
    have hq2 : bdata.last_end_off / 2 ^ PAGE_SHIFT * 2 ≤
        bdata.last_end_off / 2 ^ PAGE_SHIFT * 2 ^ PAGE_SHIFT := Nat.mul_le_mul_left _ hB2
    have hULM : ULONG_MAX sizeof_long = 2 ^ BITS_PER_LONG sizeof_long - 1 := rfl
    rw [PFN_DOWN_eq, ulong_of_le (by omega)] at hc2
    have hsB' : s * 2 ^ PAGE_SHIFT =
        bdata.last_end_off / 2 ^ PAGE_SHIFT * 2 ^ PAGE_SHIFT + 2 ^ PAGE_SHIFT := by
      rw [← hc2, Nat.succ_mul]
    have hbase : PFN_PHYS sizeof_long PAGE_SHIFT bdata.node_min_pfn =
        bdata.node_min_pfn * 2 ^ PAGE_SHIFT := PFN_PHYS_eq (by omega)
    have hTd : 2 ^ a ∣ bdata.node_min_pfn * 2 ^ PAGE_SHIFT + s * 2 ^ PAGE_SHIFT := by
      rw [← Nat.add_mul]
      exact frame_addr_dvd PAGE_SHIFT a _ hdvd
    have hTM := add_le_of_dvd_of_lt hTd (pow_dvd_pow 2 (Nat.le_of_lt ha))
      (show bdata.node_min_pfn * 2 ^ PAGE_SHIFT + s * 2 ^ PAGE_SHIFT <
        2 ^ BITS_PER_LONG sizeof_long by omega)
    have hapos : 0 < 2 ^ a := Nat.pow_pos (by decide)
    have hb := ALIGN_bounds sizeof_long
      (bdata.node_min_pfn * 2 ^ PAGE_SHIFT + bdata.last_end_off) a (Nat.le_of_lt ha)
      (by omega)
    have hle := ALIGN_le_of_dvd sizeof_long
      (bdata.node_min_pfn * 2 ^ PAGE_SHIFT + bdata.last_end_off) a _ (Nat.le_of_lt ha)
      (by omega) hTd (by omega)
    have hoff : align_off sizeof_long PAGE_SHIFT bdata bdata.last_end_off (2 ^ a) =
        ALIGN sizeof_long (bdata.node_min_pfn * 2 ^ PAGE_SHIFT + bdata.last_end_off)
          (2 ^ a) - bdata.node_min_pfn * 2 ^ PAGE_SHIFT := by
      unfold align_off
      simp only [hbase]
      rw [ulong_of_le (by omega), ulong_sub_eq (by omega) (by omega)]
    rw [hoff]
    generalize ALIGN sizeof_long (bdata.node_min_pfn * 2 ^ PAGE_SHIFT + bdata.last_end_off)
      (2 ^ a) = A at hb hle
    refine ⟨_, rfl, by omega, ?_, ?_⟩
    · exact Or.inr ⟨hc1, hc2, by omega⟩
    · by_cases hfullso : A - bdata.node_min_pfn * 2 ^ PAGE_SHIFT = s * 2 ^ PAGE_SHIFT
      · rw [hfullso]; exact hfull
      · have hlt : (A - bdata.node_min_pfn * 2 ^ PAGE_SHIFT) / 2 ^ PAGE_SHIFT < s := by
          rw [Nat.div_lt_iff_lt_mul hBpos]; omega
        have hge : bdata.last_end_off / 2 ^ PAGE_SHIFT ≤
            (A - bdata.node_min_pfn * 2 ^ PAGE_SHIFT) / 2 ^ PAGE_SHIFT := by
          rw [Nat.le_div_iff_mul_le hBpos]; omega
        rw [PFN_DOWN_eq, if_pos hlt]
        rw [ulong_of_le (by omega)]
        omega
  · rw [if_neg hc, hplain]
    exact ⟨_, rfl, Nat.le_refl _, Or.inl rfl, hfull⟩

theorem alloc_commit_ok (sizeof_long PAGE_SHIFT : Nat) (hL : 0 < sizeof_long)
    (bdata : bootmem_data) (size a s midx : Nat)
    (hPS0 : 0 < PAGE_SHIFT) (hPSW : PAGE_SHIFT < BITS_PER_LONG sizeof_long)
    (ha : a < BITS_PER_LONG sizeof_long)
    (hsize : size + (2 ^ PAGE_SHIFT - 1) ≤ ULONG_MAX sizeof_long)
    (hleo : bdata.last_end_off ≤ ULONG_MAX sizeof_long) (hs : s < midx)
    (hmid : (bdata.node_min_pfn + midx) * 2 ^ PAGE_SHIFT ≤ ULONG_MAX sizeof_long)
    (hmidlow : bdata.node_min_pfn + midx ≤ bdata.node_low_pfn)
    (hdvd : 2 ^ (a - PAGE_SHIFT) ∣ bdata.node_min_pfn + s)
    (he : ulong sizeof_long (s + PFN_UP sizeof_long PAGE_SHIFT size) ≤ midx)
    (hin : ∀ i, i < midx →
      ∃ c, test_bit sizeof_long i bdata.node_bootmem_map = Result.ok c)
    (hclr : ∀ i, s ≤ i → i < ulong sizeof_long (s + PFN_UP sizeof_long PAGE_SHIFT size) →
      test_bit sizeof_long i bdata.node_bootmem_map = Result.ok false) :
    ∃ so b', alloc_commit sizeof_long PAGE_SHIFT bdata size (2 ^ a) s =
        Result.ok (some (bdata.node_min_pfn * 2 ^ PAGE_SHIFT + so), b') ∧
      so ≤ s * 2 ^ PAGE_SHIFT ∧
      (so = s * 2 ^ PAGE_SHIFT ∨
        (bdata.last_end_off % 2 ^ PAGE_SHIFT ≠ 0 ∧
          bdata.last_end_off / 2 ^ PAGE_SHIFT + 1 = s ∧ bdata.last_end_off ≤ so)) ∧
      b'.node_min_pfn = bdata.node_min_pfn ∧ b'.node_low_pfn = bdata.node_low_pfn ∧
      b'.last_end_off = ulong sizeof_long (so + size) ∧
      b'.hint_idx = PFN_UP sizeof_long PAGE_SHIFT (ulong sizeof_long (so + size)) ∧
      PFN_UP sizeof_long PAGE_SHIFT (ulong sizeof_long (so + size)) ≤
        ulong sizeof_long (s + PFN_UP sizeof_long PAGE_SHIFT size) ∧
      ∀ i, test_bit sizeof_long i b'.node_bootmem_map =
        if s ≤ i ∧ i < PFN_UP sizeof_long PAGE_SHIFT (ulong sizeof_long (so + size))
        then Result.ok true else test_bit sizeof_long i bdata.node_bootmem_map := by
  have hBpos : 0 < 2 ^ PAGE_SHIFT := Nat.pow_pos (by decide)
  have hB2 : 2 ≤ 2 ^ PAGE_SHIFT := by
    have := Nat.pow_le_pow_right (show 0 < 2 by decide) hPS0
    simpa using this
  have hULM : ULONG_MAX sizeof_long = 2 ^ BITS_PER_LONG sizeof_long - 1 := rfl
  have hMpos := two_pow_bits_pos sizeof_long
  have hmid' : bdata.node_min_pfn * 2 ^ PAGE_SHIFT + midx * 2 ^ PAGE_SHIFT ≤
      ULONG_MAX sizeof_long := by rw [← Nat.add_mul]; exact hmid
  have hsB : s * 2 ^ PAGE_SHIFT + 2 ^ PAGE_SHIFT ≤ midx * 2 ^ PAGE_SHIFT := by
    have := Nat.mul_le_mul_right (2 ^ PAGE_SHIFT) (Nat.succ_le_of_lt hs)
    rwa [Nat.succ_mul] at this
  obtain ⟨so, hso, h1, h2, h3⟩ := start_off_facts sizeof_long PAGE_SHIFT bdata a s midx
    hPS0 hPSW ha hleo hs hmid hdvd
  have hend : PFN_UP sizeof_long PAGE_SHIFT (ulong sizeof_long (so + size)) ≤
      ulong sizeof_long (s + PFN_UP sizeof_long PAGE_SHIFT size) := by
    rw [PFN_UP_eq _ _ _ hPSW, PFN_UP_eq _ _ _ hPSW]
    unfold ulong
    rw [PFN_UP_eq _ _ _ hPSW] at he
    unfold ulong at he
    exact pfn_up_end_le _ _ _ s so size midx (two_pow_split sizeof_long PAGE_SHIFT hPSW) hB2
      (by omega) h1 hs (by omega) he
  obtain ⟨r, b', hres, f1, f2, f3, hcase⟩ := reserve_spec sizeof_long hL
    { bdata with last_end_off := ulong sizeof_long (so + size),
                 hint_idx := PFN_UP sizeof_long PAGE_SHIFT (ulong sizeof_long (so + size)) }
    s (PFN_UP sizeof_long PAGE_SHIFT (ulong sizeof_long (so + size))) BOOTMEM_EXCLUSIVE
    (fun i hi1 hi2 => hin i (by omega))
  have hbase : PFN_PHYS sizeof_long PAGE_SHIFT bdata.node_min_pfn =
      bdata.node_min_pfn * 2 ^ PAGE_SHIFT := PFN_PHYS_eq (by omega)
  rcases hcase with ⟨hr0, hbits, hhint, _⟩ | ⟨_, _, ⟨j, hj1, hj2, hjset⟩, _⟩
  · subst hr0
    refine ⟨so, b', ?_, h1, h2, f1, f2, f3, hhint, hend, hbits⟩
    have hblock : so + size ≤ midx * 2 ^ PAGE_SHIFT := by
      have he' := he
      rw [PFN_UP_eq _ _ _ hPSW] at he'
      unfold ulong at he'
      obtain ⟨_, _, e3, _, _, e6⟩ := pfn_up_no_wrap _ _ _ s so size midx
        (two_pow_split sizeof_long PAGE_SHIFT hPSW) hB2 h1 hs (by omega) (by omega) he'
      have := Nat.mul_le_mul_right (2 ^ PAGE_SHIFT) e3
      omega
    have hlowB : bdata.node_min_pfn * 2 ^ PAGE_SHIFT + midx * 2 ^ PAGE_SHIFT ≤
        bdata.node_low_pfn * 2 ^ PAGE_SHIFT := by
      rw [← Nat.add_mul]; exact Nat.mul_le_mul_right _ hmidlow
    have f1' : b'.node_min_pfn = bdata.node_min_pfn := f1
    have f2' : b'.node_low_pfn = bdata.node_low_pfn := f2
    have hmem : memset_zero PAGE_SHIFT b'
        (bdata.node_min_pfn * 2 ^ PAGE_SHIFT + so) size = Result.ok () := by
      unfold memset_zero
      rw [f1', f2', if_pos ⟨by omega, by omega⟩]
    unfold alloc_commit
    simp only [hso, h3, hres]
    rw [if_neg (by decide), f1, hbase, ulong_of_le (by omega), hmem]
  · exfalso
    have := hclr j hj1 (by omega)
    rw [this] at hjset
    cases hjset

/-! ## Outcome of `alloc_bootmem_core` -/

theorem low_add_step_le (sizeof_long PAGE_SHIFT a low : Nat)
    (hPS0 : 0 < PAGE_SHIFT) (hPSW : PAGE_SHIFT < BITS_PER_LONG sizeof_long)
    (ha : a < BITS_PER_LONG sizeof_long)
    (hlow : low * 2 ^ PAGE_SHIFT ≤ ULONG_MAX sizeof_long) :
    low + 2 ^ (a - PAGE_SHIFT) ≤ 2 ^ BITS_PER_LONG sizeof_long := by
  have hB2 : 2 ≤ 2 ^ PAGE_SHIFT := by
    have := Nat.pow_le_pow_right (show 0 < 2 by decide) hPS0
    simpa using this
  have hULM : ULONG_MAX sizeof_long = 2 ^ BITS_PER_LONG sizeof_long - 1 := rfl
  have hMpos := two_pow_bits_pos sizeof_long
  have e : 2 ^ BITS_PER_LONG sizeof_long =
      2 * 2 ^ (BITS_PER_LONG sizeof_long - 1 - PAGE_SHIFT) * 2 ^ PAGE_SHIFT := by
    rw [Nat.mul_assoc, ← Nat.pow_add, ← Nat.pow_succ']
    congr 1
    omega
  have ht : 2 ^ (a - PAGE_SHIFT) ≤ 2 ^ (BITS_PER_LONG sizeof_long - 1 - PAGE_SHIFT) :=
    Nat.pow_le_pow_right (by decide) (by omega)
  have hlt : low < 2 * 2 ^ (BITS_PER_LONG sizeof_long - 1 - PAGE_SHIFT) := by
    apply Nat.lt_of_mul_lt_mul_right (a := 2 ^ PAGE_SHIFT)
    rw [← e]; omega
  have h4 : 2 * 2 ^ (BITS_PER_LONG sizeof_long - 1 - PAGE_SHIFT) * 2 ≤
      2 * 2 ^ (BITS_PER_LONG sizeof_long - 1 - PAGE_SHIFT) * 2 ^ PAGE_SHIFT :=
    Nat.mul_le_mul_left _ hB2
  omega

theorem alloc_bootmem_core_total (sizeof_long PAGE_SHIFT : Nat) (hL : 0 < sizeof_long)
    (bdata : bootmem_data) (size a goal limit : Nat)
    (hPS0 : 0 < PAGE_SHIFT) (hPSW : PAGE_SHIFT < BITS_PER_LONG sizeof_long)
    (hsz : 0 < size) (hsize : size + (2 ^ PAGE_SHIFT - 1) ≤ ULONG_MAX sizeof_long)
    (ha : a < BITS_PER_LONG sizeof_long)
    (hlim : limit = 0 ∨ goal + size ≤ limit)
    (hminlow : bdata.node_min_pfn ≤ bdata.node_low_pfn)
    (hlow : bdata.node_low_pfn * 2 ^ PAGE_SHIFT ≤ ULONG_MAX sizeof_long)
    (hleo : bdata.last_end_off ≤ ULONG_MAX sizeof_long)
    (hin : ∀ i, i < bdata.node_low_pfn - bdata.node_min_pfn →
      ∃ c, test_bit sizeof_long i bdata.node_bootmem_map = Result.ok c) :
    alloc_bootmem_core sizeof_long PAGE_SHIFT bdata size (2 ^ a) goal limit =
      some (Result.ok (none, bdata)) ∨
    ∃ s so midx b',
      alloc_bootmem_core sizeof_long PAGE_SHIFT bdata size (2 ^ a) goal limit =
        some (Result.ok (some (bdata.node_min_pfn * 2 ^ PAGE_SHIFT + so), b')) ∧
      bdata.node_min_pfn + midx ≤ bdata.node_low_pfn ∧
      (limit >>> PAGE_SHIFT ≠ 0 → bdata.node_min_pfn + midx ≤ limit >>> PAGE_SHIFT) ∧
      2 ^ (a - PAGE_SHIFT) ∣ bdata.node_min_pfn + s ∧
      placed_at sizeof_long PAGE_SHIFT bdata b' size s so midx := by
  have hULM : ULONG_MAX sizeof_long = 2 ^ BITS_PER_LONG sizeof_long - 1 := rfl
  have hMpos := two_pow_bits_pos sizeof_long
  have hBpos : 0 < 2 ^ PAGE_SHIFT := Nat.pow_pos (by decide)
  have hlow_le : bdata.node_low_pfn ≤ bdata.node_low_pfn * 2 ^ PAGE_SHIFT :=
    Nat.le_mul_of_pos_right _ hBpos
  unfold alloc_bootmem_core
  rw [if_neg (by omega)]
  have h2 : ¬ (2 ^ a &&& ulong sizeof_long (2 ^ a + ULONG_MAX sizeof_long) ≠ 0) := by
    have hapos : 0 < 2 ^ a := Nat.pow_pos (by decide)
    have hlt : 2 ^ a < 2 ^ BITS_PER_LONG sizeof_long := Nat.pow_lt_pow_right (by decide) ha
    have hmask : ulong sizeof_long (2 ^ a + ULONG_MAX sizeof_long) = 2 ^ a - 1 := by
      unfold ulong ULONG_MAX
      have e : 2 ^ a + (2 ^ BITS_PER_LONG sizeof_long - 1) =
          (2 ^ a - 1) + 2 ^ BITS_PER_LONG sizeof_long := by omega
      rw [e, Nat.add_mod_right, Nat.mod_eq_of_lt (by omega)]
    rw [hmask, Nat.and_pow_two_sub_one_eq_mod, Nat.mod_self]
    exact fun h => h rfl
  rw [if_neg h2]
  have h3 : ¬ (limit ≠ 0 ∧ ulong sizeof_long (goal + size) > limit) := by
    rintro ⟨h31, h32⟩
    have : ulong sizeof_long (goal + size) ≤ goal + size := Nat.mod_le _ _
    omega
  rw [if_neg h3]
  by_cases h4 : bdata.node_bootmem_map = none
  · rw [if_pos h4]; exact Or.inl rfl
  rw [if_neg h4]
  dsimp only
  have hmxle : (if limit >>> PAGE_SHIFT ≠ 0 ∧ bdata.node_low_pfn > limit >>> PAGE_SHIFT
      then limit >>> PAGE_SHIFT else bdata.node_low_pfn) ≤ bdata.node_low_pfn := by
    split <;> omega
  have hmxlim : limit >>> PAGE_SHIFT ≠ 0 →
      (if limit >>> PAGE_SHIFT ≠ 0 ∧ bdata.node_low_pfn > limit >>> PAGE_SHIFT
      then limit >>> PAGE_SHIFT else bdata.node_low_pfn) ≤ limit >>> PAGE_SHIFT := by
    intro h
    split <;> omega
  generalize (if limit >>> PAGE_SHIFT ≠ 0 ∧ bdata.node_low_pfn > limit >>> PAGE_SHIFT
    then limit >>> PAGE_SHIFT else bdata.node_low_pfn) = mx at hmxle hmxlim
  by_cases h5 : mx ≤ bdata.node_min_pfn
  · rw [if_pos h5]; exact Or.inl rfl
  rw [if_neg h5, step_eq]
  have hmidx : ulong_sub sizeof_long mx bdata.node_min_pfn = mx - bdata.node_min_pfn :=
    ulong_sub_eq (by omega) (by omega)
  rw [hmidx]
  have hstep := low_add_step_le sizeof_long PAGE_SHIFT a bdata.node_low_pfn hPS0 hPSW ha hlow
  have hin' : ∀ i, i < mx - bdata.node_min_pfn →
      ∃ c, test_bit sizeof_long i bdata.node_bootmem_map = Result.ok c :=
    fun i hi => hin i (by omega)
  have hmid : (bdata.node_min_pfn + (mx - bdata.node_min_pfn)) * 2 ^ PAGE_SHIFT ≤
      ULONG_MAX sizeof_long := by
    have := Nat.mul_le_mul_right (2 ^ PAGE_SHIFT)
      (show bdata.node_min_pfn + (mx - bdata.node_min_pfn) ≤ bdata.node_low_pfn by omega)
    omega
  generalize hsidx : (if bdata.hint_idx > _ then _ else _ : Nat) = sidx0
  generalize hfbk : (if bdata.hint_idx > _ then _ else _ : Nat) = fallback0
  obtain ⟨r, hfb, hr⟩ := find_block_total sizeof_long PAGE_SHIFT bdata
    (mx - bdata.node_min_pfn) (a - PAGE_SHIFT) size (by omega) hin' (by omega)
    (2 * (mx - bdata.node_min_pfn) + 2) sidx0 fallback0 (by split <;> omega)
  rw [hfb]
  cases r with
  | none => exact Or.inl rfl
  | some s =>
    obtain ⟨hs1, hs2, hs3, hs4, hs5⟩ := hr s rfl
    obtain ⟨so, b', hc, c1, c2, c3, c4, c5, c6, c7, c8⟩ :=
      alloc_commit_ok sizeof_long PAGE_SHIFT hL bdata size a s (mx - bdata.node_min_pfn)
        hPS0 hPSW ha hsize hleo hs1 hmid (by omega) hs3 hs2 hin' hs4
    right
    refine ⟨s, so, mx - bdata.node_min_pfn, b', ?_, by omega, fun h => ?_, hs3,
      hs1, hs2, hs4, hs5, c1, c2, c3, c4, c5, c6, c7, c8⟩
    · simp only [hc]
    · have := hmxlim h; omega

/-! ## The search reads only the bits of its window -/

theorem find_next_zero_bit_loop_below (sizeof_long : Nat) (m1 m2 : Option Bitmap)
    (size bound : Nat)
    (hagree : ∀ i, i < bound → test_bit sizeof_long i m1 = test_bit sizeof_long i m2) :
    ∀ n idx, idx + n ≤ bound →
      find_next_zero_bit_loop sizeof_long m1 size idx n =
        find_next_zero_bit_loop sizeof_long m2 size idx n := by
  intro n
  induction n with
  | zero => intro idx _; rfl
  | succ n ih =>
    intro idx h
    simp only [find_next_zero_bit_loop]
    rw [hagree idx (by omega), ih (idx + 1) (by omega)]

theorem first_set_bit_below (sizeof_long : Nat) (m1 m2 : Option Bitmap) (bound : Nat)
    (hagree : ∀ i, i < bound → test_bit sizeof_long i m1 = test_bit sizeof_long i m2) :
    ∀ n idx, idx + n ≤ bound →
      first_set_bit sizeof_long m1 idx n = first_set_bit sizeof_long m2 idx n := by
  intro n
  induction n with
  | zero => intro idx _; rfl
  | succ n ih =>
    intro idx h
    simp only [first_set_bit]
    rw [hagree idx (by omega), ih (idx + 1) (by omega)]

theorem find_block_below (sizeof_long PAGE_SHIFT : Nat) (b1 b2 : bootmem_data)
    (midx step size : Nat) (hmin : b1.node_min_pfn = b2.node_min_pfn)
    (hagree : ∀ i, i < midx → test_bit sizeof_long i b1.node_bootmem_map =
      test_bit sizeof_long i b2.node_bootmem_map) :
    ∀ fuel sidx fallback,
      find_block sizeof_long PAGE_SHIFT b1 midx step size fuel sidx fallback =
        find_block sizeof_long PAGE_SHIFT b2 midx step size fuel sidx fallback := by
  have hai : ∀ i st, align_idx sizeof_long b1 i st = align_idx sizeof_long b2 i st := by
    intro i st
    unfold align_idx
    rw [hmin]
  intro fuel
  induction fuel with
  | zero => intro sidx fallback; rfl
  | succ fuel ih =>
    intro sidx fallback
    have hfz : find_next_zero_bit sizeof_long b1.node_bootmem_map midx sidx =
        find_next_zero_bit sizeof_long b2.node_bootmem_map midx sidx := by
      unfold find_next_zero_bit
      by_cases h : sidx ≤ midx
      · exact find_next_zero_bit_loop_below sizeof_long _ _ midx midx hagree _ _ (by omega)
      · rw [show midx - sidx = 0 by omega]
        rfl
    simp only [find_block, hfz, hai]
    cases find_next_zero_bit sizeof_long b2.node_bootmem_map midx sidx with
    | fault => rfl
    | bug => rfl
    | ok found =>
      simp only
      by_cases hbrk : align_idx sizeof_long b2 found step ≥ midx ∨
          ulong sizeof_long (align_idx sizeof_long b2 found step +
            PFN_UP sizeof_long PAGE_SHIFT size) > midx
      · rw [if_pos hbrk, if_pos hbrk]
        split
        · exact ih _ _
        · rfl
      · rw [if_neg hbrk, if_neg hbrk]
        rw [first_set_bit_below sizeof_long b1.node_bootmem_map b2.node_bootmem_map midx
          hagree _ _ (by omega)]
        cases first_set_bit sizeof_long b2.node_bootmem_map
            (align_idx sizeof_long b2 found step)
            (ulong sizeof_long (align_idx sizeof_long b2 found step +
              PFN_UP sizeof_long PAGE_SHIFT size) - align_idx sizeof_long b2 found step) with
        | fault => rfl
        | bug => rfl
        | ok o =>
          cases o with
          | none => rfl
          | some i => exact ih _ _

theorem alloc_commit_addr_eq (sizeof_long PAGE_SHIFT : Nat) (bdata b' : bootmem_data)
    (size align s : Nat) (r : Option Nat)
    (h : alloc_commit sizeof_long PAGE_SHIFT bdata size align s = Result.ok (r, b')) :
    r = some (ulong sizeof_long (PFN_PHYS sizeof_long PAGE_SHIFT bdata.node_min_pfn +
      (if bdata.last_end_off &&& (PAGE_SIZE sizeof_long PAGE_SHIFT - 1) ≠ 0 ∧
          ulong sizeof_long (PFN_DOWN PAGE_SHIFT bdata.last_end_off + 1) = s then
        align_off sizeof_long PAGE_SHIFT bdata bdata.last_end_off align
        else PFN_PHYS sizeof_long PAGE_SHIFT s))) := by
  unfold alloc_commit at h
  simp only at h
  split at h
  · cases h
  · cases h
  · rename_i err b1 hres
    have hf := reserve_fields sizeof_long _ b1 _ _ _ err hres
    split at h
    · cases h
    · split at h
      · cases h
      · cases h
      · simp only [Result.ok.injEq, Prod.mk.injEq] at h
        rw [hf.1] at h
        exact h.1.symm

/-- A commit step that returns wrote the block inside the frames of the region. -/
theorem alloc_commit_block_inside (sizeof_long PAGE_SHIFT : Nat) (bdata b' : bootmem_data)
    (size align s addr : Nat)
    (h : alloc_commit sizeof_long PAGE_SHIFT bdata size align s = Result.ok (some addr, b')) :
    bdata.node_min_pfn * 2 ^ PAGE_SHIFT ≤ addr ∧
    addr + size ≤ bdata.node_low_pfn * 2 ^ PAGE_SHIFT := by
  unfold alloc_commit at h
  simp only at h
  split at h
  · cases h
  · cases h
  · rename_i err b1 hres
    obtain ⟨f1, f2, _⟩ := reserve_fields sizeof_long _ b1 _ _ _ err hres
    have f1' : b1.node_min_pfn = bdata.node_min_pfn := f1
    have f2' : b1.node_low_pfn = bdata.node_low_pfn := f2
    split at h
    · cases h
    · split at h
      · cases h
      · cases h
      · rename_i hmem
        simp only [Result.ok.injEq, Prod.mk.injEq, Option.some.injEq] at h
        rw [h.1] at hmem
        unfold memset_zero at hmem
        rw [f1', f2'] at hmem
        by_cases hc : bdata.node_min_pfn * 2 ^ PAGE_SHIFT ≤ addr ∧
            addr + size ≤ bdata.node_low_pfn * 2 ^ PAGE_SHIFT
        · exact hc
        · rw [if_neg hc] at hmem
          cases hmem

/-- A call that returns an address placed a block inside the frames of the region,
so its size can be rounded up to whole pages in an `unsigned long`. -/
theorem alloc_bootmem_core_block_inside (sizeof_long PAGE_SHIFT : Nat)
    (bdata b' : bootmem_data) (size align goal limit addr : Nat)
    (hPSW : PAGE_SHIFT < BITS_PER_LONG sizeof_long)
    (hlow : bdata.node_low_pfn * 2 ^ PAGE_SHIFT ≤ ULONG_MAX sizeof_long)
    (h : alloc_bootmem_core sizeof_long PAGE_SHIFT bdata size align goal limit =
      some (Result.ok (some addr, b'))) :
    bdata.node_min_pfn * 2 ^ PAGE_SHIFT ≤ addr ∧
    addr + size ≤ bdata.node_low_pfn * 2 ^ PAGE_SHIFT ∧
    size + (2 ^ PAGE_SHIFT - 1) ≤ ULONG_MAX sizeof_long := by
  obtain ⟨_, _, _, _, s, _, hc⟩ :=
    alloc_bootmem_core_some sizeof_long PAGE_SHIFT bdata b' size align goal limit addr h
  obtain ⟨h1, h2⟩ := alloc_commit_block_inside sizeof_long PAGE_SHIFT bdata b' size align s
    addr hc
  refine ⟨h1, h2, ?_⟩
  have hBpos : 0 < 2 ^ PAGE_SHIFT := Nat.pow_pos (by decide)
  have hW := add_le_of_dvd_of_lt (Nat.dvd_mul_left (2 ^ PAGE_SHIFT) bdata.node_low_pfn)
    (pow_dvd_pow 2 (Nat.le_of_lt hPSW))
    (show bdata.node_low_pfn * 2 ^ PAGE_SHIFT < 2 ^ BITS_PER_LONG sizeof_long by
      unfold ULONG_MAX at hlow
      have := two_pow_bits_pos sizeof_long
      omega)
  unfold ULONG_MAX
  omega

theorem alloc_bootmem_core_below (sizeof_long PAGE_SHIFT : Nat) (hL : 0 < sizeof_long)
    (bdata : bootmem_data) (m2 : Bitmap) (size a goal limit : Nat)
    (hPS0 : 0 < PAGE_SHIFT) (hPSW : PAGE_SHIFT < BITS_PER_LONG sizeof_long)
    (hsz : 0 < size) (hsize : size + (2 ^ PAGE_SHIFT - 1) ≤ ULONG_MAX sizeof_long)
    (ha : a < BITS_PER_LONG sizeof_long)
    (hlim : limit = 0 ∨ goal + size ≤ limit)
    (hminlow : bdata.node_min_pfn ≤ bdata.node_low_pfn)
    (hlow : bdata.node_low_pfn * 2 ^ PAGE_SHIFT ≤ ULONG_MAX sizeof_long)
    (hleo : bdata.last_end_off ≤ ULONG_MAX sizeof_long)
    (hin : ∀ i, i < bdata.node_low_pfn - bdata.node_min_pfn →
      ∃ c, test_bit sizeof_long i bdata.node_bootmem_map = Result.ok c)
    (hagree : ∀ i, i < bdata.node_low_pfn - bdata.node_min_pfn →
      test_bit sizeof_long i (some m2) = test_bit sizeof_long i bdata.node_bootmem_map) :
    ∃ r b1' b2',
      alloc_bootmem_core sizeof_long PAGE_SHIFT bdata size (2 ^ a) goal limit =
        some (Result.ok (r, b1')) ∧
      alloc_bootmem_core sizeof_long PAGE_SHIFT { bdata with node_bootmem_map := some m2 }
        size (2 ^ a) goal limit = some (Result.ok (r, b2')) := by
  have hULM : ULONG_MAX sizeof_long = 2 ^ BITS_PER_LONG sizeof_long - 1 := rfl
  have hMpos := two_pow_bits_pos sizeof_long
  have hBpos : 0 < 2 ^ PAGE_SHIFT := Nat.pow_pos (by decide)
  have hlow_le : bdata.node_low_pfn ≤ bdata.node_low_pfn * 2 ^ PAGE_SHIFT :=
    Nat.le_mul_of_pos_right _ hBpos
  have h1 : ¬ size = 0 := by omega
  have h2 : ¬ (2 ^ a &&& ulong sizeof_long (2 ^ a + ULONG_MAX sizeof_long) ≠ 0) := by
    have hapos : 0 < 2 ^ a := Nat.pow_pos (by decide)
    have hlt : 2 ^ a < 2 ^ BITS_PER_LONG sizeof_long := Nat.pow_lt_pow_right (by decide) ha
    have hmask : ulong sizeof_long (2 ^ a + ULONG_MAX sizeof_long) = 2 ^ a - 1 := by
      unfold ulong ULONG_MAX
      have e : 2 ^ a + (2 ^ BITS_PER_LONG sizeof_long - 1) =
          (2 ^ a - 1) + 2 ^ BITS_PER_LONG sizeof_long := by omega
      rw [e, Nat.add_mod_right, Nat.mod_eq_of_lt (by omega)]
    rw [hmask, Nat.and_pow_two_sub_one_eq_mod, Nat.mod_self]
    exact fun h => h rfl
  have h3 : ¬ (limit ≠ 0 ∧ ulong sizeof_long (goal + size) > limit) := by
    rintro ⟨h31, h32⟩
    have : ulong sizeof_long (goal + size) ≤ goal + size := Nat.mod_le _ _
    omega
  have hin2 : ∀ i, i < bdata.node_low_pfn - bdata.node_min_pfn →
      ∃ c, test_bit sizeof_long i (some m2) = Result.ok c := by
    intro i hi
    rw [hagree i hi]
    exact hin i hi
  have hmxle : (if limit >>> PAGE_SHIFT ≠ 0 ∧ bdata.node_low_pfn > limit >>> PAGE_SHIFT
      then limit >>> PAGE_SHIFT else bdata.node_low_pfn) ≤ bdata.node_low_pfn := by
    split <;> omega
  have hai : ∀ i st, align_idx sizeof_long { bdata with node_bootmem_map := some m2 } i st =
      align_idx sizeof_long bdata i st := fun _ _ => rfl
  unfold alloc_bootmem_core
  rw [if_neg h1, if_neg h2, if_neg h3, if_neg h1, if_neg h2, if_neg h3,
    if_neg (show ¬ ({ bdata with node_bootmem_map := some m2 } : bootmem_data).node_bootmem_map =
      none from fun h => by cases h)]
  dsimp only
  simp only [hai]
  generalize (if limit >>> PAGE_SHIFT ≠ 0 ∧ bdata.node_low_pfn > limit >>> PAGE_SHIFT
    then limit >>> PAGE_SHIFT else bdata.node_low_pfn) = mx at hmxle
  by_cases h5 : mx ≤ bdata.node_min_pfn
  · rw [if_pos h5, if_pos h5]
    refine ⟨none, bdata, _, ?_, rfl⟩
    split <;> rfl
  rw [if_neg h5, if_neg h5, step_eq]
  have h4 : ¬ bdata.node_bootmem_map = none := by
    intro h
    obtain ⟨c, hc⟩ := hin 0 (by omega)
    rw [h] at hc
    simp [test_bit] at hc
  rw [if_neg h4]
  have hmidx : ulong_sub sizeof_long mx bdata.node_min_pfn = mx - bdata.node_min_pfn :=
    ulong_sub_eq (by omega) (by omega)
  rw [hmidx]
  have hstep := low_add_step_le sizeof_long PAGE_SHIFT a bdata.node_low_pfn hPS0 hPSW ha hlow
  have hin' : ∀ i, i < mx - bdata.node_min_pfn →
      ∃ c, test_bit sizeof_long i bdata.node_bootmem_map = Result.ok c :=
    fun i hi => hin i (by omega)
  have hmid : (bdata.node_min_pfn + (mx - bdata.node_min_pfn)) * 2 ^ PAGE_SHIFT ≤
      ULONG_MAX sizeof_long := by
    have := Nat.mul_le_mul_right (2 ^ PAGE_SHIFT)
      (show bdata.node_min_pfn + (mx - bdata.node_min_pfn) ≤ bdata.node_low_pfn by omega)
    omega
  generalize hsidx : (if bdata.hint_idx > _ then _ else _ : Nat) = sidx0
  generalize hfbk : (if bdata.hint_idx > _ then _ else _ : Nat) = fallback0
  rw [find_block_below sizeof_long PAGE_SHIFT { bdata with node_bootmem_map := some m2 } bdata
    (mx - bdata.node_min_pfn) (2 ^ (a - PAGE_SHIFT)) size rfl
    (fun i hi => hagree i (by omega))]
  obtain ⟨r, hfb, hr⟩ := find_block_total sizeof_long PAGE_SHIFT bdata
    (mx - bdata.node_min_pfn) (a - PAGE_SHIFT) size (by omega) hin' (by omega)
    (2 * (mx - bdata.node_min_pfn) + 2) sidx0 fallback0 (by split <;> omega)
  rw [hfb]
  cases r with
  | none => exact ⟨none, bdata, _, rfl, rfl⟩
  | some s =>
    obtain ⟨hs1, hs2, hs3, hs4, hs5⟩ := hr s rfl
    obtain ⟨so, b1', hc1, _⟩ :=
      alloc_commit_ok sizeof_long PAGE_SHIFT hL bdata size a s (mx - bdata.node_min_pfn)
        hPS0 hPSW ha hsize hleo hs1 hmid (by omega) hs3 hs2 hin' hs4
    obtain ⟨so2, b2', hc2, _⟩ :=
      alloc_commit_ok sizeof_long PAGE_SHIFT hL { bdata with node_bootmem_map := some m2 }
        size a s (mx - bdata.node_min_pfn)
        hPS0 hPSW ha hsize hleo hs1 hmid
        (show bdata.node_min_pfn + (mx - bdata.node_min_pfn) ≤ bdata.node_low_pfn by omega)
        hs3 hs2 (fun i hi => hin2 i (by omega))
        (fun i hi1 hi2 => by
          have := hagree i (by omega)
          rw [← hs4 i hi1 hi2]
          exact this)
    have e1 := alloc_commit_addr_eq _ _ _ _ _ _ _ _ hc1
    have e2 := alloc_commit_addr_eq _ _ _ _ _ _ _ _ hc2
    have e3 : some (bdata.node_min_pfn * 2 ^ PAGE_SHIFT + so2) =
        some (bdata.node_min_pfn * 2 ^ PAGE_SHIFT + so) := e2.trans e1.symm
    refine ⟨some (bdata.node_min_pfn * 2 ^ PAGE_SHIFT + so), b1', b2', ?_, ?_⟩
    · simp only [hc1]
    · simp only [hc2]
      exact congrArg (fun x => some (Result.ok (x, b2'))) e3

/-! ## Early exits of `alloc_bootmem_core` -/

theorem pow_two_check (sizeof_long a : Nat) (ha : a < BITS_PER_LONG sizeof_long) :
    ¬ (2 ^ a &&& ulong sizeof_long (2 ^ a + ULONG_MAX sizeof_long) ≠ 0) := by
  have hMpos := two_pow_bits_pos sizeof_long
  have hapos : 0 < 2 ^ a := Nat.pow_pos (by decide)
  have hlt : 2 ^ a < 2 ^ BITS_PER_LONG sizeof_long := Nat.pow_lt_pow_right (by decide) ha
  have hmask : ulong sizeof_long (2 ^ a + ULONG_MAX sizeof_long) = 2 ^ a - 1 := by
    unfold ulong ULONG_MAX
    have e : 2 ^ a + (2 ^ BITS_PER_LONG sizeof_long - 1) =
        (2 ^ a - 1) + 2 ^ BITS_PER_LONG sizeof_long := by omega
    rw [e, Nat.add_mod_right, Nat.mod_eq_of_lt (by omega)]
  rw [hmask, Nat.and_pow_two_sub_one_eq_mod, Nat.mod_self]
  exact fun h => h rfl

theorem limit_check (sizeof_long size goal limit : Nat)
    (hlim : limit = 0 ∨ goal + size ≤ limit) :
    ¬ (limit ≠ 0 ∧ ulong sizeof_long (goal + size) > limit) := by
  rintro ⟨h31, h32⟩
  have : ulong sizeof_long (goal + size) ≤ goal + size := Nat.mod_le _ _
  omega

theorem alloc_bootmem_core_empty_window (sizeof_long PAGE_SHIFT : Nat)
    (bdata : bootmem_data) (size a goal limit : Nat) (hsz : 0 < size)
    (ha : a < BITS_PER_LONG sizeof_long) (hlim : limit = 0 ∨ goal + size ≤ limit)
    (hwin : bdata.node_low_pfn ≤ bdata.node_min_pfn ∨
      (limit >>> PAGE_SHIFT ≠ 0 ∧ limit >>> PAGE_SHIFT ≤ bdata.node_min_pfn)) :
    alloc_bootmem_core sizeof_long PAGE_SHIFT bdata size (2 ^ a) goal limit =
      some (Result.ok (none, bdata)) := by
  unfold alloc_bootmem_core
  rw [if_neg (by omega), if_neg (pow_two_check sizeof_long a ha),
    if_neg (limit_check sizeof_long size goal limit hlim)]
  by_cases h4 : bdata.node_bootmem_map = none
  · rw [if_pos h4]
  rw [if_neg h4]
  dsimp only
  have hmx : (if limit >>> PAGE_SHIFT ≠ 0 ∧ bdata.node_low_pfn > limit >>> PAGE_SHIFT
      then limit >>> PAGE_SHIFT else bdata.node_low_pfn) ≤ bdata.node_min_pfn := by
    split <;> omega
  rw [if_pos hmx]

theorem alloc_bootmem_core_null_state (sizeof_long PAGE_SHIFT : Nat)
    (bdata b' : bootmem_data) (size align goal limit : Nat)
    (h : alloc_bootmem_core sizeof_long PAGE_SHIFT bdata size align goal limit =
      some (Result.ok (none, b'))) : b' = bdata := by
  unfold alloc_bootmem_core at h
  by_cases h1 : size = 0
  · rw [if_pos h1] at h; cases h
  rw [if_neg h1] at h
  by_cases h2 : align &&& ulong sizeof_long (align + ULONG_MAX sizeof_long) ≠ 0
  · rw [if_pos h2] at h; cases h
  rw [if_neg h2] at h
  by_cases h3 : limit ≠ 0 ∧ ulong sizeof_long (goal + size) > limit
  · rw [if_pos h3] at h; cases h
  rw [if_neg h3] at h
  by_cases h4 : bdata.node_bootmem_map = none
  · rw [if_pos h4] at h
    simp only [Option.some.injEq, Result.ok.injEq, Prod.mk.injEq, true_and] at h
    exact h.symm
  rw [if_neg h4] at h
  dsimp only at h
  generalize (if limit >>> PAGE_SHIFT ≠ 0 ∧ bdata.node_low_pfn > limit >>> PAGE_SHIFT
    then limit >>> PAGE_SHIFT else bdata.node_low_pfn) = mx at h
  by_cases h5 : mx ≤ bdata.node_min_pfn
  · rw [if_pos h5] at h
    simp only [Option.some.injEq, Result.ok.injEq, Prod.mk.injEq, true_and] at h
    exact h.symm
  rw [if_neg h5] at h
  generalize hfb : find_block _ _ _ _ _ _ _ _ _ = fb at h
  match fb, hfb, h with
  | some (Result.ok none), _, h =>
    simp only [Option.some.injEq, Result.ok.injEq, Prod.mk.injEq, true_and] at h
    exact h.symm
  | some (Result.ok (some s)), _, h =>
    simp only [Option.some.injEq] at h
    have := alloc_commit_addr_eq _ _ _ _ _ _ _ _ h
    cases this

/-! ## First fit -/

theorem find_block_first_fit (sizeof_long PAGE_SHIFT : Nat) (bdata : bootmem_data)
    (midx k size : Nat)
    (hin : ∀ i, i < midx →
      ∃ c, test_bit sizeof_long i bdata.node_bootmem_map = Result.ok c)
    (fuel sidx fallback f : Nat) (hsf : sidx ≤ f) (hfm : f < midx)
    (hset : ∀ i, sidx ≤ i → i < f →
      test_bit sizeof_long i bdata.node_bootmem_map = Result.ok true)
    (hfclr : test_bit sizeof_long f bdata.node_bootmem_map = Result.ok false)
    (hsm : align_idx sizeof_long bdata f (2 ^ k) < midx)
    (he : ulong sizeof_long (align_idx sizeof_long bdata f (2 ^ k) +
      PFN_UP sizeof_long PAGE_SHIFT size) ≤ midx)
    (hclr : ∀ i, align_idx sizeof_long bdata f (2 ^ k) ≤ i →
      i < ulong sizeof_long (align_idx sizeof_long bdata f (2 ^ k) +
        PFN_UP sizeof_long PAGE_SHIFT size) →
      test_bit sizeof_long i bdata.node_bootmem_map = Result.ok false) :
    find_block sizeof_long PAGE_SHIFT bdata midx (2 ^ k) size (fuel + 1) sidx fallback =
      some (Result.ok (some (align_idx sizeof_long bdata f (2 ^ k)))) := by
  obtain ⟨found, hfz, hle, hge, hfset, hfc⟩ :=
    find_next_zero_bit_spec sizeof_long bdata.node_bootmem_map midx sidx hin
  have hfound : found = f := by
    have h1 := hge (by omega)
    rcases Nat.lt_trichotomy found f with h | h | h
    · have := hset found h1 h
      rw [hfc (by omega)] at this
      cases this
    · exact h
    · have := hfset f hsf h
      rw [hfclr] at this
      cases this
  subst hfound
  simp only [find_block, hfz]
  rw [if_neg (by omega)]
  rcases first_set_bit_spec sizeof_long bdata.node_bootmem_map
      (ulong sizeof_long (align_idx sizeof_long bdata found (2 ^ k) +
        PFN_UP sizeof_long PAGE_SHIFT size) - align_idx sizeof_long bdata found (2 ^ k))
      (align_idx sizeof_long bdata found (2 ^ k))
      (fun i h1 h2 => hin i (by omega)) with ⟨hnone, _⟩ | ⟨j, _, hj1, hj2, hj3⟩
  · rw [hnone]
  · have := hclr j hj1 (by omega)
    rw [this] at hj3
    cases hj3

theorem pfn_up_mul (sizeof_long PAGE_SHIFT n : Nat)
    (hPSW : PAGE_SHIFT < BITS_PER_LONG sizeof_long)
    (h : n * 2 ^ PAGE_SHIFT ≤ ULONG_MAX sizeof_long) :
    PFN_UP sizeof_long PAGE_SHIFT (n * 2 ^ PAGE_SHIFT) = n := by
  have hBpos : 0 < 2 ^ PAGE_SHIFT := Nat.pow_pos (by decide)
  have hULM : ULONG_MAX sizeof_long = 2 ^ BITS_PER_LONG sizeof_long - 1 := rfl
  have hMpos := two_pow_bits_pos sizeof_long
  have hd : 2 ^ PAGE_SHIFT ∣ 2 ^ BITS_PER_LONG sizeof_long :=
    pow_dvd_pow 2 (Nat.le_of_lt hPSW)
  have hle := add_le_of_dvd_of_lt (Nat.dvd_mul_left (2 ^ PAGE_SHIFT) n) hd
    (show n * 2 ^ PAGE_SHIFT < 2 ^ BITS_PER_LONG sizeof_long by omega)
  rw [PFN_UP_eq _ _ _ hPSW, Nat.mod_eq_of_lt (by omega)]
  exact Nat.div_eq_of_lt_le (by omega) (by rw [Nat.succ_mul]; omega)

theorem alloc_page_run (sizeof_long PAGE_SHIFT : Nat) (hL : 0 < sizeof_long)
    (bdata : bootmem_data) (k f : Nat)
    (hPS0 : 0 < PAGE_SHIFT) (hPSW : PAGE_SHIFT < BITS_PER_LONG sizeof_long)
    (hk : 0 < k) (hminlow : bdata.node_min_pfn ≤ bdata.node_low_pfn)
    (hlow : bdata.node_low_pfn * 2 ^ PAGE_SHIFT ≤ ULONG_MAX sizeof_long)
    (hleo : bdata.last_end_off ≤ ULONG_MAX sizeof_long)
    (hleo_al : bdata.last_end_off % 2 ^ PAGE_SHIFT = 0)
    (hin : ∀ i, i < bdata.node_low_pfn - bdata.node_min_pfn →
      ∃ c, test_bit sizeof_long i bdata.node_bootmem_map = Result.ok c)
    (hhint : bdata.hint_idx ≤ f)
    (hset : ∀ i, bdata.hint_idx ≤ i → i < f →
      test_bit sizeof_long i bdata.node_bootmem_map = Result.ok true)
    (hclr : ∀ i, f ≤ i → i < f + k →
      test_bit sizeof_long i bdata.node_bootmem_map = Result.ok false)
    (hfk : f + k ≤ bdata.node_low_pfn - bdata.node_min_pfn) :
    ∃ b', alloc_bootmem_core sizeof_long PAGE_SHIFT bdata (k * 2 ^ PAGE_SHIFT)
        (2 ^ PAGE_SHIFT) 0 0 =
        some (Result.ok (some ((bdata.node_min_pfn + f) * 2 ^ PAGE_SHIFT), b')) ∧
      b'.node_min_pfn = bdata.node_min_pfn ∧ b'.node_low_pfn = bdata.node_low_pfn ∧
      b'.last_end_off = (f + k) * 2 ^ PAGE_SHIFT ∧ b'.hint_idx = f + k ∧
      ∀ i, test_bit sizeof_long i b'.node_bootmem_map =
        if f ≤ i ∧ i < f + k then Result.ok true
        else test_bit sizeof_long i bdata.node_bootmem_map := by
  have hULM : ULONG_MAX sizeof_long = 2 ^ BITS_PER_LONG sizeof_long - 1 := rfl
  have hMpos := two_pow_bits_pos sizeof_long
  have hBpos : 0 < 2 ^ PAGE_SHIFT := Nat.pow_pos (by decide)
  have hlow_le : bdata.node_low_pfn ≤ bdata.node_low_pfn * 2 ^ PAGE_SHIFT :=
    Nat.le_mul_of_pos_right _ hBpos
  have hfkB : (bdata.node_min_pfn + (f + k)) * 2 ^ PAGE_SHIFT ≤
      bdata.node_low_pfn * 2 ^ PAGE_SHIFT := Nat.mul_le_mul_right _ (by omega)
  rw [Nat.add_mul, Nat.add_mul] at hfkB
  have hkpos : 0 < k * 2 ^ PAGE_SHIFT := Nat.mul_pos hk hBpos
  have hkW : k * 2 ^ PAGE_SHIFT + 2 ^ PAGE_SHIFT ≤ 2 ^ BITS_PER_LONG sizeof_long :=
    add_le_of_dvd_of_lt (Nat.dvd_mul_left (2 ^ PAGE_SHIFT) k)
      (pow_dvd_pow 2 (Nat.le_of_lt hPSW))
      (show k * 2 ^ PAGE_SHIFT < 2 ^ BITS_PER_LONG sizeof_long by omega)
  have hup_k : PFN_UP sizeof_long PAGE_SHIFT (k * 2 ^ PAGE_SHIFT) = k :=
    pfn_up_mul sizeof_long PAGE_SHIFT k hPSW (by omega)
  have hai : ∀ i, i < bdata.node_low_pfn - bdata.node_min_pfn →
      align_idx sizeof_long bdata i (2 ^ 0) = i := by
    intro i hi
    have := align_idx_bounds sizeof_long bdata i 0 (Nat.zero_le _)
      (by rw [Nat.pow_zero]; omega)
    rw [Nat.pow_zero] at this
    rw [Nat.pow_zero]
    omega
  have hin' : ∀ i, i < bdata.node_low_pfn - bdata.node_min_pfn →
      ∃ c, test_bit sizeof_long i bdata.node_bootmem_map = Result.ok c := hin
  have hfb : ∀ sidx fallback, sidx = bdata.hint_idx →
      find_block sizeof_long PAGE_SHIFT bdata (bdata.node_low_pfn - bdata.node_min_pfn)
        (2 ^ 0) (k * 2 ^ PAGE_SHIFT)
        (2 * (bdata.node_low_pfn - bdata.node_min_pfn) + 2) sidx fallback =
      some (Result.ok (some f)) := by
    intro sidx fallback hs
    subst hs
    have := find_block_first_fit sizeof_long PAGE_SHIFT bdata
      (bdata.node_low_pfn - bdata.node_min_pfn) 0 (k * 2 ^ PAGE_SHIFT) hin
      (2 * (bdata.node_low_pfn - bdata.node_min_pfn) + 1) bdata.hint_idx fallback f hhint
      (by omega) hset (hclr f (Nat.le_refl _) (by omega))
      (by rw [hai f (by omega)]; omega)
      (by rw [hai f (by omega), hup_k, ulong_of_le (by omega)]; omega)
      (by
        rw [hai f (by omega), hup_k, ulong_of_le (by omega)]
        exact hclr)
    rw [hai f (by omega)] at this
    exact this
  obtain ⟨so, b', hc, c1, c2, c3, c4, c5, c6, c7, c8⟩ :=
    alloc_commit_ok sizeof_long PAGE_SHIFT hL bdata (k * 2 ^ PAGE_SHIFT) PAGE_SHIFT f
      (bdata.node_low_pfn - bdata.node_min_pfn) hPS0 hPSW hPSW (by omega) hleo (by omega)
      (by
        have := Nat.mul_le_mul_right (2 ^ PAGE_SHIFT)
          (show bdata.node_min_pfn + (bdata.node_low_pfn - bdata.node_min_pfn) ≤
            bdata.node_low_pfn by omega)
        omega)
      (by omega)
      (by rw [Nat.sub_self, Nat.pow_zero]; exact one_dvd _)
      (by rw [hup_k, ulong_of_le (by omega)]; omega) hin
      (by rw [hup_k, ulong_of_le (by omega)]; exact hclr)
  have hso : so = f * 2 ^ PAGE_SHIFT := by
    rcases c2 with h | ⟨h, _⟩
    · exact h
    · exact absurd hleo_al h
  subst hso
  have hend : ulong sizeof_long (f * 2 ^ PAGE_SHIFT + k * 2 ^ PAGE_SHIFT) =
      (f + k) * 2 ^ PAGE_SHIFT := by
    rw [ulong_of_le (by omega), Nat.add_mul]
  rw [hend] at c5 c6 c8
  rw [pfn_up_mul sizeof_long PAGE_SHIFT (f + k) hPSW (by rw [Nat.add_mul]; omega)] at c6 c8
  refine ⟨b', ?_, c3, c4, c5, c6, c8⟩
  have hnone : ¬ bdata.node_bootmem_map = none := by
    intro h
    obtain ⟨c, hc0⟩ := hin 0 (by omega)
    rw [h] at hc0
    simp [test_bit] at hc0
  unfold alloc_bootmem_core
  rw [if_neg (by omega), if_neg (pow_two_check sizeof_long PAGE_SHIFT hPSW),
    if_neg (limit_check sizeof_long _ 0 0 (Or.inl rfl)), if_neg hnone]
  simp only [Nat.zero_shiftRight, ne_eq, not_true_eq_false, false_and, if_false]
  rw [if_neg (by omega), step_eq, Nat.sub_self,
    ulong_sub_eq hminlow (by omega)]
  rw [hfb _ _ ?_]
  · simp only [hc, Nat.add_mul]
  · have hA : ALIGN sizeof_long bdata.node_min_pfn (2 ^ 0) = bdata.node_min_pfn := by
      have := ALIGN_bounds sizeof_long bdata.node_min_pfn 0 (Nat.zero_le _)
        (by rw [Nat.pow_zero]; omega)
      rw [Nat.pow_zero] at this
      rw [Nat.pow_zero]
      omega
    rw [hA, ulong_sub_eq (Nat.le_refl _) (by omega), Nat.sub_self]
    by_cases hh : bdata.hint_idx > 0
    · rw [if_pos hh]
      exact hai _ (by omega)
    · rw [if_neg hh]; omega

/-! ## The region loop of `___alloc_bootmem_nopanic` -/

theorem alloc_bootmem_regions_outcome (sizeof_long PAGE_SHIFT : Nat) (hL : 0 < sizeof_long)
    (size a goal limit : Nat)
    (hPS0 : 0 < PAGE_SHIFT) (hPSW : PAGE_SHIFT < BITS_PER_LONG sizeof_long)
    (hsz : 0 < size) (hsize : size + (2 ^ PAGE_SHIFT - 1) ≤ ULONG_MAX sizeof_long)
    (ha : a < BITS_PER_LONG sizeof_long) (hlim : limit = 0 ∨ goal + size ≤ limit)
    (rest : List bootmem_data) :
    ∀ visited, (∀ b ∈ rest, region_addressable sizeof_long PAGE_SHIFT b) →
      alloc_bootmem_regions sizeof_long PAGE_SHIFT size (2 ^ a) goal limit visited rest =
        some (Result.ok (none, visited ++ rest)) ∨
      ∃ addr l', alloc_bootmem_regions sizeof_long PAGE_SHIFT size (2 ^ a) goal limit
        visited rest = some (Result.ok (some addr, l')) := by
  induction rest with
  | nil =>
    intro visited _
    left
    simp [alloc_bootmem_regions]
  | cons bdata rest ih =>
    intro visited hwf
    have hrest := ih (visited ++ [bdata]) (fun b hb => hwf b (List.mem_cons_of_mem _ hb))
    rw [List.append_assoc, List.singleton_append] at hrest
    obtain ⟨hcov, hlow, hleo⟩ := hwf bdata (List.mem_cons_self _ _)
    simp only [alloc_bootmem_regions]
    split
    · exact hrest
    · split
      · exact Or.inl rfl
      · rcases alloc_bootmem_core_total sizeof_long PAGE_SHIFT hL bdata size a goal limit
          hPS0 hPSW hsz hsize ha hlim hcov.1 hlow hleo
          (covered_addressable sizeof_long hL bdata hcov)
          with hnull | ⟨s, so, midx, b1, hok, _⟩
        · rw [hnull]
          exact hrest
        · rw [hok]
          exact Or.inr ⟨_, _, rfl⟩

theorem alloc_bootmem_regions_success (sizeof_long PAGE_SHIFT size align goal limit : Nat)
    (rest : List bootmem_data) :
    ∀ visited addr l',
      alloc_bootmem_regions sizeof_long PAGE_SHIFT size align goal limit visited rest =
        some (Result.ok (some addr, l')) →
      ∃ b ∈ rest, ∃ b', alloc_bootmem_core sizeof_long PAGE_SHIFT b size align goal limit =
        some (Result.ok (some addr, b')) := by
  induction rest with
  | nil =>
    intro visited addr l' h
    simp [alloc_bootmem_regions] at h
  | cons bdata rest ih =>
    intro visited addr l' h
    simp only [alloc_bootmem_regions] at h
    split at h
    · obtain ⟨b, hb, hb'⟩ := ih _ _ _ h
      exact ⟨b, List.mem_cons_of_mem _ hb, hb'⟩
    · split at h
      · simp at h
      · split at h
        · cases h
        · cases h
        · cases h
        · rename_i region b1 hcore
          simp only [Option.some.injEq, Result.ok.injEq, Prod.mk.injEq] at h
          rw [← h.1]
          exact ⟨bdata, List.mem_cons_self _ _, b1, hcore⟩
        · obtain ⟨b, hb, hb'⟩ := ih _ _ _ h
          exact ⟨b, List.mem_cons_of_mem _ hb, hb'⟩

theorem alloc_bootmem_pass_eq (sizeof_long PAGE_SHIFT size align goal limit : Nat)
    (l : List bootmem_data) :
    alloc_bootmem_pass sizeof_long PAGE_SHIFT size align goal limit l =
      alloc_bootmem_regions sizeof_long PAGE_SHIFT size align goal limit [] l := rfl

theorem alloc_bootmem_nopanic_zero_goal (sizeof_long PAGE_SHIFT size align limit : Nat)
    (l : List bootmem_data) :
    ___alloc_bootmem_nopanic sizeof_long PAGE_SHIFT size align 0 limit l =
      alloc_bootmem_pass sizeof_long PAGE_SHIFT size align 0 limit l := by
  unfold ___alloc_bootmem_nopanic
  split
  · rename_i l1 h
    rw [if_neg (fun h => h rfl), h]
  · rfl

theorem core_success_region (sizeof_long PAGE_SHIFT : Nat) (hL : 0 < sizeof_long)
    (b b' : bootmem_data) (size a goal limit addr : Nat)
    (hPS0 : 0 < PAGE_SHIFT) (hPSW : PAGE_SHIFT < BITS_PER_LONG sizeof_long)
    (hsz : 0 < size) (hsize : size + (2 ^ PAGE_SHIFT - 1) ≤ ULONG_MAX sizeof_long)
    (ha : a < BITS_PER_LONG sizeof_long) (hlim : limit = 0 ∨ goal + size ≤ limit)
    (hreg : region_addressable sizeof_long PAGE_SHIFT b)
    (h : alloc_bootmem_core sizeof_long PAGE_SHIFT b size (2 ^ a) goal limit =
      some (Result.ok (some addr, b'))) :
    b.node_min_pfn * 2 ^ PAGE_SHIFT ≤ addr ∧ addr < b.node_low_pfn * 2 ^ PAGE_SHIFT ∧
    ∃ f, f < b.node_low_pfn - b.node_min_pfn ∧
      test_bit sizeof_long f b.node_bootmem_map = Result.ok false := by
  obtain ⟨hcov, hlow, hleo⟩ := hreg
  have hBpos : 0 < 2 ^ PAGE_SHIFT := Nat.pow_pos (by decide)
  rcases alloc_bootmem_core_total sizeof_long PAGE_SHIFT hL b size a goal limit hPS0 hPSW
    hsz hsize ha hlim hcov.1 hlow hleo (covered_addressable sizeof_long hL b hcov)
    with hnull | ⟨s, so, midx, b1, hok, hmidlow, _, _, hs1, _, _, ⟨f, hf1, hf2⟩, hso, _⟩
  · rw [hnull] at h; cases h
  · rw [hok] at h
    simp only [Option.some.injEq, Result.ok.injEq, Prod.mk.injEq] at h
    rw [← h.1]
    have h1 : (b.node_min_pfn + (s + 1)) * 2 ^ PAGE_SHIFT ≤ b.node_low_pfn * 2 ^ PAGE_SHIFT :=
      Nat.mul_le_mul_right _ (by omega)
    rw [Nat.add_mul, Nat.add_mul, Nat.one_mul] at h1
    exact ⟨by omega, by omega, f, by omega, hf2⟩

/-! ## Frames and bytes -/

theorem mul_frame_lt {q t B : Nat} (h : q * B < t * B) : q < t :=
  Nat.lt_of_mul_lt_mul_right h

theorem frame_succ_le {q t B : Nat} (h : q < t) : q * B + B ≤ t * B := by
  have := Nat.mul_le_mul_right B (Nat.succ_le_of_lt h)
  rwa [Nat.succ_mul] at this

theorem div_frame (x B : Nat) (hB : 0 < B) : x / B * B ≤ x ∧ x < x / B * B + B := by
  have h1 := Nat.div_add_mod x B
  have h2 := Nat.mod_lt x hB
  rw [Nat.mul_comm] at h1
  generalize x / B * B = A at h1
  omega

theorem div_frame_lt (x B : Nat) (h : x % B ≠ 0) : x / B * B < x := by
  have h1 := Nat.div_add_mod x B
  rw [Nat.mul_comm] at h1
  generalize x / B * B = A at h1
  omega

theorem frame_unique {q t x B : Nat} (h1 : q * B ≤ x) (h2 : x < q * B + B)
    (h3 : t * B ≤ x) (h4 : x < t * B + B) : q = t := by
  have a : q < t + 1 := mul_frame_lt (B := B) (by rw [Nat.succ_mul]; omega)
  have b : t < q + 1 := mul_frame_lt (B := B) (by rw [Nat.succ_mul]; omega)
  omega

theorem region_covered_transfer (sizeof_long : Nat) (hL : 0 < sizeof_long)
    (b b' : bootmem_data) (f1 : b'.node_min_pfn = b.node_min_pfn)
    (f2 : b'.node_low_pfn = b.node_low_pfn) (hc : region_covered sizeof_long b)
    (h : ∀ i, i < b.node_low_pfn - b.node_min_pfn →
      ∃ c, test_bit sizeof_long i b'.node_bootmem_map = Result.ok c) :
    region_covered sizeof_long b' := by
  refine ⟨by rw [f1, f2]; exact hc.1, by rw [f2]; exact hc.2.1, ?_⟩
  rw [f1, f2]
  by_contra hlt
  have := (test_bit_ok_iff_lt sizeof_long hL _ _).mp
    (h (bitmap_bits sizeof_long b'.node_bootmem_map) (by omega))
  omega

/-! ## The invariant of request sequences -/

theorem inv_placed (sizeof_long PAGE_SHIFT : Nat) (hL : 0 < sizeof_long)
    (st : allocator_state) (b' : bootmem_data) (size s so P E midx : Nat)
    (hinv : allocator_inv sizeof_long PAGE_SHIFT st) (hsz : 0 < size)
    (hmid : st.bdata.node_min_pfn + midx ≤ st.bdata.node_low_pfn)
    (hsP : s + P ≤ midx)
    (hclr : ∀ i, s ≤ i → i < s + P →
      test_bit sizeof_long i st.bdata.node_bootmem_map = Result.ok false)
    (hcase : so = s * 2 ^ PAGE_SHIFT ∨
      (st.bdata.last_end_off % 2 ^ PAGE_SHIFT ≠ 0 ∧
        st.bdata.last_end_off / 2 ^ PAGE_SHIFT + 1 = s ∧ st.bdata.last_end_off ≤ so))
    (hend : so + size ≤ (s + P) * 2 ^ PAGE_SHIFT)
    (hE : ∀ q, q * 2 ^ PAGE_SHIFT < so + size → q < E) (hEP : E ≤ s + P)
    (f1 : b'.node_min_pfn = st.bdata.node_min_pfn)
    (f2 : b'.node_low_pfn = st.bdata.node_low_pfn)
    (f3 : b'.last_end_off = so + size)
    (f6 : ∀ i, test_bit sizeof_long i b'.node_bootmem_map =
      if s ≤ i ∧ i < E then Result.ok true
      else test_bit sizeof_long i st.bdata.node_bootmem_map) :
    allocator_inv sizeof_long PAGE_SHIFT
      ⟨b', (st.bdata.node_min_pfn * 2 ^ PAGE_SHIFT + so, size) :: st.live⟩ := by
  obtain ⟨⟨hcov, hlow, hleo⟩, hinside, hres, hdis, htail⟩ := hinv
  have hBpos : 0 < 2 ^ PAGE_SHIFT := Nat.pow_pos (by decide)
  have hULM : ULONG_MAX sizeof_long = 2 ^ BITS_PER_LONG sizeof_long - 1 := rfl
  have hin := covered_addressable sizeof_long hL st.bdata hcov
  have hmidB : (st.bdata.node_min_pfn + midx) * 2 ^ PAGE_SHIFT ≤
      st.bdata.node_low_pfn * 2 ^ PAGE_SHIFT := Nat.mul_le_mul_right _ hmid
  rw [Nat.add_mul] at hmidB
  have hsPB : (s + P) * 2 ^ PAGE_SHIFT ≤ midx * 2 ^ PAGE_SHIFT :=
    Nat.mul_le_mul_right _ hsP
  -- a frame of the region that holds a byte of an old allocation was not free
  have hold : ∀ al ∈ st.live, ∀ x q,
      al.1 ≤ x → x < al.1 + al.2 →
      st.bdata.node_min_pfn * 2 ^ PAGE_SHIFT + q * 2 ^ PAGE_SHIFT ≤ x →
      x < st.bdata.node_min_pfn * 2 ^ PAGE_SHIFT + q * 2 ^ PAGE_SHIFT + 2 ^ PAGE_SHIFT →
      st.bdata.node_min_pfn * 2 ^ PAGE_SHIFT + so ≤ x →
      q * 2 ^ PAGE_SHIFT < so + size → False := by
    intro al hal x q hx1 hx2 hq1 hq2 hx3 hq3
    have hset := hres al hal q (by
      unfold touches
      rw [Nat.add_mul]
      omega)
    by_cases hqs : s ≤ q
    · have hqP : q < s + P := mul_frame_lt (B := 2 ^ PAGE_SHIFT) (by omega)
      rw [hclr q hqs hqP] at hset
      cases hset
    · have hqs' := frame_succ_le (B := 2 ^ PAGE_SHIFT) (Nat.lt_of_not_le hqs)
      rcases hcase with h | ⟨hm1, hm2, hm3⟩
      · omega
      · obtain ⟨_, _, ht⟩ := htail hm1
        rw [hm2] at ht
        rcases ht al hal with h | h <;> omega
  refine ⟨⟨?_, by rw [f2]; exact hlow, by rw [f3]; omega⟩, ?_, ?_, ?_, ?_⟩
  · -- the bitmap still covers the region
    apply region_covered_transfer sizeof_long hL st.bdata b' f1 f2 hcov
    intro i hi
    rw [f6 i]
    split
    · exact ⟨true, rfl⟩
    · exact hin i hi
  · -- every live allocation is inside the region
    intro al hal
    simp only [f1, f2]
    rcases List.mem_cons.mp hal with rfl | hal
    · exact ⟨hsz, by omega, by simp only; omega⟩
    · exact hinside al hal
  · -- frames of live allocations are reserved
    intro al hal q ht
    simp only [f1] at ht
    rw [f6 q]
    rcases List.mem_cons.mp hal with rfl | hal
    · unfold touches at ht
      simp only at ht
      rw [Nat.add_mul] at ht
      have hqE : q < E := hE q (by omega)
      by_cases hqs : s ≤ q
      · rw [if_pos ⟨hqs, hqE⟩]
      · rw [if_neg (fun h => hqs h.1)]
        have hqs' := frame_succ_le (B := 2 ^ PAGE_SHIFT) (Nat.lt_of_not_le hqs)
        rcases hcase with h | ⟨hm1, hm2, hm3⟩
        · omega
        · obtain ⟨_, hbit, _⟩ := htail hm1
          have hd := div_frame st.bdata.last_end_off (2 ^ PAGE_SHIFT) hBpos
          have : q = st.bdata.last_end_off / 2 ^ PAGE_SHIFT := by
            have a : st.bdata.last_end_off / 2 ^ PAGE_SHIFT < q + 1 :=
              mul_frame_lt (B := 2 ^ PAGE_SHIFT) (by rw [Nat.succ_mul]; omega)
            omega
          rw [this]
          exact hbit
    · have := hres al hal q ht
      split
      · rfl
      · exact this
  · -- live allocations are pairwise disjoint
    refine List.pairwise_cons.mpr ⟨?_, hdis⟩
    intro al hal
    unfold bytes_disjoint
    simp only
    by_contra hcon
    obtain ⟨hal1, hal2, _⟩ := hinside al hal
    rcases Nat.le_total (st.bdata.node_min_pfn * 2 ^ PAGE_SHIFT + so) al.1 with hle | hle
    · have hd := div_frame (al.1 - st.bdata.node_min_pfn * 2 ^ PAGE_SHIFT) (2 ^ PAGE_SHIFT)
        hBpos
      exact hold al hal al.1
        ((al.1 - st.bdata.node_min_pfn * 2 ^ PAGE_SHIFT) / 2 ^ PAGE_SHIFT)
        (by omega) (by omega) (by omega) (by omega) (by omega) (by omega)
    · have hd := div_frame so (2 ^ PAGE_SHIFT) hBpos
      exact hold al hal (st.bdata.node_min_pfn * 2 ^ PAGE_SHIFT + so) (so / 2 ^ PAGE_SHIFT)
        (by omega) (by omega) (by omega) (by omega) (by omega) (by omega)
  · -- the tail of the frame of `last_end_off` is unused
    simp only [f1, f2, f3]
    intro hne
    have hd := div_frame (so + size) (2 ^ PAGE_SHIFT) hBpos
    have hdl := div_frame_lt (so + size) (2 ^ PAGE_SHIFT) hne
    have hqE : (so + size) / 2 ^ PAGE_SHIFT < E := hE _ hdl
    refine ⟨by omega, ?_, ?_⟩
    · rw [f6]
      by_cases hqs : s ≤ (so + size) / 2 ^ PAGE_SHIFT
      · rw [if_pos ⟨hqs, hqE⟩]
      · rw [if_neg (fun h => hqs h.1)]
        have hqs' := frame_succ_le (B := 2 ^ PAGE_SHIFT) (Nat.lt_of_not_le hqs)
        rcases hcase with h | ⟨hm1, hm2, hm3⟩
        · omega
        · obtain ⟨_, hbit, _⟩ := htail hm1
          have hge : st.bdata.last_end_off / 2 ^ PAGE_SHIFT ≤ (so + size) / 2 ^ PAGE_SHIFT :=
            Nat.div_le_div_right (by omega)
          have : (so + size) / 2 ^ PAGE_SHIFT = st.bdata.last_end_off / 2 ^ PAGE_SHIFT := by
            omega
          rw [this]
          exact hbit
    · intro al hal
      rcases List.mem_cons.mp hal with rfl | hal
      · left; simp only; omega
      · by_contra hcon
        rw [Nat.succ_mul] at hcon
        obtain ⟨hal1, hal2, _⟩ := hinside al hal
        rcases Nat.le_total (st.bdata.node_min_pfn * 2 ^ PAGE_SHIFT + (so + size)) al.1
          with hle | hle
        · exact hold al hal al.1 ((so + size) / 2 ^ PAGE_SHIFT)
            (by omega) (by omega) (by omega) (by omega) (by omega) (by omega)
        · exact hold al hal (st.bdata.node_min_pfn * 2 ^ PAGE_SHIFT + (so + size))
            ((so + size) / 2 ^ PAGE_SHIFT)
            (by omega) (by omega) (by omega) (by omega) (by omega) (by omega)

theorem node_frees (sizeof_long : Nat) (hL : 0 < sizeof_long) (b0 : bootmem_data)
    (start end_ : Nat) (hc : region_covered sizeof_long b0)
    (h1 : b0.node_min_pfn ≤ start) (hs : start ≤ ULONG_MAX sizeof_long)
    (h2 : b0.node_min_pfn ≤ end_) (h3 : end_ ≤ b0.node_low_pfn)
    (hfree : ∀ i, start - b0.node_min_pfn ≤ i → i < end_ - b0.node_min_pfn →
      test_bit sizeof_long i b0.node_bootmem_map = Result.ok true) :
    ∃ b', mark_bootmem_node sizeof_long b0 start end_ 0 0 = Result.ok (0, b') ∧
      b'.node_min_pfn = b0.node_min_pfn ∧ b'.node_low_pfn = b0.node_low_pfn ∧
      b'.last_end_off = b0.last_end_off ∧
      ∀ i, test_bit sizeof_long i b'.node_bootmem_map =
        if start - b0.node_min_pfn ≤ i ∧ i < end_ - b0.node_min_pfn then Result.ok false
        else test_bit sizeof_long i b0.node_bootmem_map := by
  have hs' : ulong_sub sizeof_long start b0.node_min_pfn = start - b0.node_min_pfn :=
    ulong_sub_eq h1 hs
  have he : ulong_sub sizeof_long end_ b0.node_min_pfn = end_ - b0.node_min_pfn :=
    ulong_sub_eq h2 (by have := hc.2.1; omega)
  have hin : ∀ i, start - b0.node_min_pfn ≤ i → i < end_ - b0.node_min_pfn →
      ∃ b, test_bit sizeof_long i b0.node_bootmem_map = Result.ok b := by
    intro i _ hi
    exact covered_addressable sizeof_long hL b0 hc i (by omega)
  rw [mark_bootmem_node_inside sizeof_long b0 start end_ 0 0 h1 h3, hs', he,
    if_neg (fun h => h rfl)]
  rcases free_spec sizeof_long hL b0 _ _ hin with
    ⟨_, j, hj1, hj2, hj3⟩ | ⟨b', hb', _, hbits, _, f3, f1, f2⟩
  · rw [hfree j hj1 hj2] at hj3
    cases hj3
  · exact ⟨b', by rw [hb'], f1, f2, f3, hbits⟩

theorem pairwise_eraseIdx_get {α : Type} {R : α → α → Prop} (l : List α) :
    ∀ (n : Nat) (y : α), l.get? n = some y → l.Pairwise R →
      ∀ x ∈ l.eraseIdx n, R x y ∨ R y x := by
  induction l with
  | nil => intro n y h; cases h
  | cons a l ih =>
    intro n y h hp x hx
    obtain ⟨ha, hl⟩ := List.pairwise_cons.mp hp
    cases n with
    | zero =>
      rw [List.get?_cons_zero] at h
      cases h
      rw [List.eraseIdx_cons_zero] at hx
      exact Or.inr (ha x hx)
    | succ n =>
      rw [List.get?_cons_succ] at h
      rw [List.eraseIdx_cons_succ] at hx
      rcases List.mem_cons.mp hx with rfl | hx
      · exact Or.inl (ha y (List.get?_mem h))
      · exact ih n y h hl x hx

theorem inv_alloc (sizeof_long PAGE_SHIFT : Nat) (hL : 0 < sizeof_long)
    (st : allocator_state) (size a goal limit : Nat)
    (hPS0 : 0 < PAGE_SHIFT) (hPSW : PAGE_SHIFT < BITS_PER_LONG sizeof_long)
    (hsz : 0 < size) (hw : size + (2 ^ PAGE_SHIFT - 1) ≤ ULONG_MAX sizeof_long)
    (ha : a < BITS_PER_LONG sizeof_long) (hlim : limit = 0 ∨ goal + size ≤ limit)
    (hinv : allocator_inv sizeof_long PAGE_SHIFT st) :
    ∃ st', serve sizeof_long PAGE_SHIFT st (bootmem_request.alloc size (2 ^ a) goal limit) =
        some st' ∧ allocator_inv sizeof_long PAGE_SHIFT st' := by
  obtain ⟨hcov, hlow, hleo⟩ := hinv.region
  have hULM : ULONG_MAX sizeof_long = 2 ^ BITS_PER_LONG sizeof_long - 1 := rfl
  have hMpos := two_pow_bits_pos sizeof_long
  have hBpos : 0 < 2 ^ PAGE_SHIFT := Nat.pow_pos (by decide)
  have hB2 : 2 ≤ 2 ^ PAGE_SHIFT := by
    have := Nat.pow_le_pow_right (show 0 < 2 by decide) hPS0
    simpa using this
  rcases alloc_bootmem_core_total sizeof_long PAGE_SHIFT hL st.bdata size a goal limit hPS0
    hPSW hsz (by omega) ha hlim hcov.1 hlow hleo
    (covered_addressable sizeof_long hL st.bdata hcov)
    with hnull | ⟨s, so, midx, b', hok, hmidlow, _, _, hs1, hs2, hclr, _, hso, hcase, f1, f2,
      f3, _, f5, f6⟩
  · exact ⟨st, by simp only [serve, hnull], hinv⟩
  · refine ⟨⟨b', (st.bdata.node_min_pfn * 2 ^ PAGE_SHIFT + so, size) :: st.live⟩,
      by simp only [serve, hok], ?_⟩
    have hmidB : (st.bdata.node_min_pfn + midx) * 2 ^ PAGE_SHIFT ≤
        st.bdata.node_low_pfn * 2 ^ PAGE_SHIFT := Nat.mul_le_mul_right _ hmidlow
    rw [Nat.add_mul] at hmidB
    rw [PFN_UP_eq _ _ _ hPSW] at hs2 hclr f5
    rw [PFN_UP_eq _ _ _ hPSW] at f5 f6
    unfold ulong at hs2 hclr f3 f5 f6
    obtain ⟨e1, e2, hsP, e3, e4, hend⟩ := pfn_up_no_wrap _ _ _ s so size midx
      (two_pow_split sizeof_long PAGE_SHIFT hPSW) hB2 hso hs1 (by omega) (by omega) hs2
    rw [e1, e2] at hclr f5
    rw [e3] at f3
    rw [e3, e4] at f5 f6
    apply inv_placed sizeof_long PAGE_SHIFT hL st b' size s so
      ((size + (2 ^ PAGE_SHIFT - 1)) / 2 ^ PAGE_SHIFT)
      ((so + size + (2 ^ PAGE_SHIFT - 1)) / 2 ^ PAGE_SHIFT) midx hinv hsz hmidlow hsP hclr
      hcase hend ?_ f5 f1 f2 f3 f6
    intro q hq
    apply Nat.lt_of_succ_le
    rw [Nat.le_div_iff_mul_le hBpos, Nat.succ_mul]
    omega

theorem inv_free (sizeof_long PAGE_SHIFT : Nat) (hL : 0 < sizeof_long)
    (st : allocator_state) (n : Nat)
    (hPSW : PAGE_SHIFT < BITS_PER_LONG sizeof_long)
    (hinv : allocator_inv sizeof_long PAGE_SHIFT st) :
    ∃ st', serve sizeof_long PAGE_SHIFT st (bootmem_request.free n) = some st' ∧
      allocator_inv sizeof_long PAGE_SHIFT st' := by
  obtain ⟨hcov, hlow, hleo⟩ := hinv.region
  have hULM : ULONG_MAX sizeof_long = 2 ^ BITS_PER_LONG sizeof_long - 1 := rfl
  have hMpos := two_pow_bits_pos sizeof_long
  have hBpos : 0 < 2 ^ PAGE_SHIFT := Nat.pow_pos (by decide)
  cases hget : st.live.get? n with
  | none => exact ⟨st, by simp only [serve, hget], hinv⟩
  | some y =>
    obtain ⟨ys, ysz⟩ := y
    have hy := List.get?_mem hget
    obtain ⟨hy0, hy1, hy2⟩ := hinv.inside _ hy
    simp only at hy0 hy1 hy2
    have hlowB := add_le_of_dvd_of_lt (Nat.dvd_mul_left (2 ^ PAGE_SHIFT) st.bdata.node_low_pfn)
      (pow_dvd_pow 2 (Nat.le_of_lt hPSW))
      (show st.bdata.node_low_pfn * 2 ^ PAGE_SHIFT < 2 ^ BITS_PER_LONG sizeof_long by omega)
    have hstart : PFN_UP sizeof_long PAGE_SHIFT ys =
        (ys + (2 ^ PAGE_SHIFT - 1)) / 2 ^ PAGE_SHIFT := by
      rw [PFN_UP_eq _ _ _ hPSW, Nat.mod_eq_of_lt (by omega)]
    have hend : PFN_DOWN PAGE_SHIFT (ulong sizeof_long (ys + ysz)) =
        (ys + ysz) / 2 ^ PAGE_SHIFT := by
      rw [ulong_of_le (by omega), PFN_DOWN_eq]
    have hc1 := le_ceil_mul ys (2 ^ PAGE_SHIFT) hBpos
    have hc2 := Nat.div_mul_le_self (ys + (2 ^ PAGE_SHIFT - 1)) (2 ^ PAGE_SHIFT)
    have hd1 := Nat.div_mul_le_self (ys + ysz) (2 ^ PAGE_SHIFT)
    have hmin_start : st.bdata.node_min_pfn ≤ (ys + (2 ^ PAGE_SHIFT - 1)) / 2 ^ PAGE_SHIFT := by
      rw [Nat.le_div_iff_mul_le hBpos]; omega
    have hmin_end : st.bdata.node_min_pfn ≤ (ys + ysz) / 2 ^ PAGE_SHIFT := by
      rw [Nat.le_div_iff_mul_le hBpos]; omega
    have hend_low : (ys + ysz) / 2 ^ PAGE_SHIFT ≤ st.bdata.node_low_pfn := by
      have := Nat.div_le_div_right (c := 2 ^ PAGE_SHIFT) hy2
      rwa [Nat.mul_div_cancel _ hBpos] at this
    have hself : (ys + (2 ^ PAGE_SHIFT - 1)) / 2 ^ PAGE_SHIFT ≤
        (ys + (2 ^ PAGE_SHIFT - 1)) / 2 ^ PAGE_SHIFT * 2 ^ PAGE_SHIFT :=
      Nat.le_mul_of_pos_right _ hBpos
    -- frames between the rounded bounds lie wholly inside the allocation
    have hwhole : ∀ i, (ys + (2 ^ PAGE_SHIFT - 1)) / 2 ^ PAGE_SHIFT - st.bdata.node_min_pfn ≤ i →
        i < (ys + ysz) / 2 ^ PAGE_SHIFT - st.bdata.node_min_pfn →
        ys ≤ (st.bdata.node_min_pfn + i) * 2 ^ PAGE_SHIFT ∧
        (st.bdata.node_min_pfn + i) * 2 ^ PAGE_SHIFT + 2 ^ PAGE_SHIFT ≤ ys + ysz := by
      intro i hi1 hi2
      have a1 := Nat.mul_le_mul_right (2 ^ PAGE_SHIFT)
        (show (ys + (2 ^ PAGE_SHIFT - 1)) / 2 ^ PAGE_SHIFT ≤ st.bdata.node_min_pfn + i by omega)
      have a2 := frame_succ_le (B := 2 ^ PAGE_SHIFT)
        (show st.bdata.node_min_pfn + i < (ys + ysz) / 2 ^ PAGE_SHIFT by omega)
      omega
    obtain ⟨b', hb', f1, f2, f3, f6⟩ := node_frees sizeof_long hL st.bdata
      ((ys + (2 ^ PAGE_SHIFT - 1)) / 2 ^ PAGE_SHIFT) ((ys + ysz) / 2 ^ PAGE_SHIFT) hcov
      hmin_start (by omega) hmin_end hend_low
      (fun i hi1 hi2 => by
        obtain ⟨w1, w2⟩ := hwhole i hi1 hi2
        exact hinv.reserved _ hy i ⟨by simp only; omega, by simp only; omega⟩)
    refine ⟨⟨b', st.live.eraseIdx n⟩, ?_, ?_⟩
    · simp only [serve, hget, free_bootmem_node, hstart, hend, hb']
    · refine ⟨⟨?_, by rw [f2]; exact hlow, by rw [f3]; exact hleo⟩, ?_, ?_, ?_, ?_⟩
      · apply region_covered_transfer sizeof_long hL st.bdata b' f1 f2 hcov
        intro i hi
        rw [f6 i]
        split
        · exact ⟨false, rfl⟩
        · exact covered_addressable sizeof_long hL st.bdata hcov i hi
      · intro al hal
        simp only [f1, f2]
        exact hinv.inside al (List.mem_of_mem_eraseIdx hal)
      · intro al hal q ht
        simp only [f1] at ht
        have hset := hinv.reserved al (List.mem_of_mem_eraseIdx hal) q ht
        rw [f6 q]
        by_cases hq : (ys + (2 ^ PAGE_SHIFT - 1)) / 2 ^ PAGE_SHIFT - st.bdata.node_min_pfn ≤ q ∧
            q < (ys + ysz) / 2 ^ PAGE_SHIFT - st.bdata.node_min_pfn
        · exfalso
          obtain ⟨w1, w2⟩ := hwhole q hq.1 hq.2
          unfold touches at ht
          have hd := pairwise_eraseIdx_get st.live n (ys, ysz) hget hinv.disjoint al hal
          unfold bytes_disjoint at hd
          simp only at hd
          omega
        · rw [if_neg hq]
          exact hset
      · exact List.Pairwise.sublist (List.eraseIdx_sublist _ _) hinv.disjoint
      · simp only [f1, f2, f3]
        intro hne
        obtain ⟨t1, t2, t3⟩ := hinv.tail hne
        refine ⟨t1, ?_, fun al hal => t3 al (List.mem_of_mem_eraseIdx hal)⟩
        rw [f6]
        by_cases hq : (ys + (2 ^ PAGE_SHIFT - 1)) / 2 ^ PAGE_SHIFT - st.bdata.node_min_pfn ≤
              st.bdata.last_end_off / 2 ^ PAGE_SHIFT ∧
            st.bdata.last_end_off / 2 ^ PAGE_SHIFT <
              (ys + ysz) / 2 ^ PAGE_SHIFT - st.bdata.node_min_pfn
        · exfalso
          obtain ⟨w1, w2⟩ := hwhole _ hq.1 hq.2
          have hd := div_frame st.bdata.last_end_off (2 ^ PAGE_SHIFT) hBpos
          have := t3 _ hy
          simp only at this
          rw [Nat.add_mul] at w1 w2
          rw [Nat.succ_mul] at this
          omega
        · rw [if_neg hq]
          exact t2

theorem inv_serve_all (sizeof_long PAGE_SHIFT : Nat) (hL : 0 < sizeof_long)
    (hPS0 : 0 < PAGE_SHIFT) (hPSW : PAGE_SHIFT < BITS_PER_LONG sizeof_long)
    (reqs : List bootmem_request) :
    ∀ st, allocator_inv sizeof_long PAGE_SHIFT st →
      (∀ r ∈ reqs, request_ok sizeof_long PAGE_SHIFT r) →
      ∃ st', serve_all sizeof_long PAGE_SHIFT st reqs = some st' ∧
        allocator_inv sizeof_long PAGE_SHIFT st' := by
  induction reqs with
  | nil => intro st hinv _; exact ⟨st, rfl, hinv⟩
  | cons r rs ih =>
    intro st hinv hok
    have hr := hok r (List.mem_cons_self _ _)
    have hstep : ∃ st1, serve sizeof_long PAGE_SHIFT st r = some st1 ∧
        allocator_inv sizeof_long PAGE_SHIFT st1 := by
      cases r with
      | alloc size align goal limit =>
        obtain ⟨hsz, hw, ⟨a, ha, rfl⟩, hlim⟩ := hr
        exact inv_alloc sizeof_long PAGE_SHIFT hL st size a goal limit hPS0 hPSW hsz hw ha
          hlim hinv
      | free n => exact inv_free sizeof_long PAGE_SHIFT hL st n hPSW hinv
    obtain ⟨st1, hs1, hinv1⟩ := hstep
    obtain ⟨st', hs', hinv'⟩ := ih st1 hinv1 (fun r hr => hok r (List.mem_cons_of_mem _ hr))
    exact ⟨st', by simp only [serve_all, hs1, hs'], hinv'⟩

/-! ## Claims on `mark_bootmem_node` -/

/-- C11 (amended): free reversibility.  When `__reserve` of a range returns 0,
with any flags, the `__free` of the same range returns, and it leaves every bit
of the bitmap as it was before the reservation exactly when every frame of the
range was free before the reservation (the bitmap is then, for a bitmap of
machine words, the same bitmap); an exclusive reservation that returns 0 always
found the range free.  The same holds for `mark_bootmem_node` with
`reserve = 1` followed by `reserve = 0` on the same frames, whose bit range is
`[start - node_min_pfn, end - node_min_pfn)`. -/
theorem reserve_of_free_range_then_free_restores (sizeof_long : Nat) (hL : 0 < sizeof_long)
    (bdata : bootmem_data) (flags : Nat) :
    (∀ sidx eidx b1, __reserve sizeof_long bdata sidx eidx flags = Result.ok (0, b1) →
      ∃ b2, __free sizeof_long b1 sidx eidx = Result.ok b2 ∧
        ((∀ i, sidx ≤ i → i < eidx →
            test_bit sizeof_long i bdata.node_bootmem_map = Result.ok false) ↔
          (∀ i, test_bit sizeof_long i b2.node_bootmem_map =
            test_bit sizeof_long i bdata.node_bootmem_map)) ∧
        ((∀ i, sidx ≤ i → i < eidx →
            test_bit sizeof_long i bdata.node_bootmem_map = Result.ok false) →
          words_fit sizeof_long bdata.node_bootmem_map →
          b2.node_bootmem_map = bdata.node_bootmem_map) ∧
        (flags &&& BOOTMEM_EXCLUSIVE ≠ 0 → ∀ i, sidx ≤ i → i < eidx →
          test_bit sizeof_long i bdata.node_bootmem_map = Result.ok false)) ∧
    (∀ start end_ b1,
      mark_bootmem_node sizeof_long bdata start end_ 1 flags = Result.ok (0, b1) →
      ∃ b2, mark_bootmem_node sizeof_long b1 start end_ 0 0 = Result.ok (0, b2) ∧
        ((∀ i, ulong_sub sizeof_long start bdata.node_min_pfn ≤ i →
            i < ulong_sub sizeof_long end_ bdata.node_min_pfn →
            test_bit sizeof_long i bdata.node_bootmem_map = Result.ok false) ↔
          (∀ i, test_bit sizeof_long i b2.node_bootmem_map =
            test_bit sizeof_long i bdata.node_bootmem_map)) ∧
        ((∀ i, ulong_sub sizeof_long start bdata.node_min_pfn ≤ i →
            i < ulong_sub sizeof_long end_ bdata.node_min_pfn →
            test_bit sizeof_long i bdata.node_bootmem_map = Result.ok false) →
          words_fit sizeof_long bdata.node_bootmem_map →
          b2.node_bootmem_map = bdata.node_bootmem_map) ∧
        (flags &&& BOOTMEM_EXCLUSIVE ≠ 0 →
          ∀ i, ulong_sub sizeof_long start bdata.node_min_pfn ≤ i →
            i < ulong_sub sizeof_long end_ bdata.node_min_pfn →
            test_bit sizeof_long i bdata.node_bootmem_map = Result.ok false)) := by
  refine ⟨fun sidx eidx b1 h1 => reserve_then_free sizeof_long hL bdata b1 sidx eidx flags h1,
    ?_⟩
  intro start end_ b1 h1
  have hmin : bdata.node_min_pfn ≤ start := by
    by_contra hc
    rw [mark_bootmem_node_bug sizeof_long bdata start end_ 1 flags (Or.inl (by omega))] at h1
    cases h1
  have hlow : end_ ≤ bdata.node_low_pfn := by
    by_contra hc
    rw [mark_bootmem_node_bug sizeof_long bdata start end_ 1 flags (Or.inr (by omega))] at h1
    cases h1
  rw [mark_bootmem_node_inside sizeof_long bdata start end_ 1 flags hmin hlow,
    if_pos (by decide)] at h1
  obtain ⟨f1, f2, _⟩ := reserve_fields sizeof_long bdata b1 _ _ flags 0 h1
  obtain ⟨b2, hb2, hiff, heq, hexc⟩ := reserve_then_free sizeof_long hL bdata b1 _ _ flags h1
  refine ⟨b2, ?_, hiff, heq, hexc⟩
  rw [mark_bootmem_node_inside sizeof_long b1 start end_ 0 0 (by omega) (by omega),
    if_neg (by decide), f1, hb2]

theorem reserve_of_free_range_then_free_restores_witness :
    __reserve 8 region_10_20_free 12 18 0 = Result.ok (0, region_12_18_reserved) ∧
    0 &&& BOOTMEM_EXCLUSIVE = 0 ∧
    ∃ b2, __free 8 region_12_18_reserved 12 18 = Result.ok b2 ∧
      ((∀ i, 12 ≤ i → i < 18 →
          test_bit 8 i region_10_20_free.node_bootmem_map = Result.ok false) ↔
        (∀ i, test_bit 8 i b2.node_bootmem_map =
          test_bit 8 i region_10_20_free.node_bootmem_map)) ∧
      ((∀ i, 12 ≤ i → i < 18 →
          test_bit 8 i region_10_20_free.node_bootmem_map = Result.ok false) →
        words_fit 8 region_10_20_free.node_bootmem_map →
        b2.node_bootmem_map = region_10_20_free.node_bootmem_map) ∧
      (0 &&& BOOTMEM_EXCLUSIVE ≠ 0 → ∀ i, 12 ≤ i → i < 18 →
        test_bit 8 i region_10_20_free.node_bootmem_map = Result.ok false) :=
  ⟨by decide, by decide,
    (reserve_of_free_range_then_free_restores 8 (by decide) region_10_20_free 0).1 12 18
      region_12_18_reserved (by decide)⟩

/-- C11 as stated fails for a non-exclusive reservation: on the fully reserved
region `[0, 100)` the reservation of the frames `10 .. 19` with `flags = 0`
returns 0, and the following free of the same frames clears bits that were set
before the reservation. -/
theorem nonexclusive_reserve_then_free_changes_bitmap :
    mark_bootmem_node 8 region_all_reserved 10 20 1 0 = Result.ok (0, region_all_reserved) ∧
    mark_bootmem_node 8 region_all_reserved 10 20 0 0 =
      Result.ok (0, { region_all_reserved with
        node_bootmem_map := some [2 ^ 64 - 1 - (2 ^ 20 - 2 ^ 10), 2 ^ 64 - 1] }) ∧
    test_bit 8 10 region_all_reserved.node_bootmem_map = Result.ok true ∧
    test_bit 8 10 (some [2 ^ 64 - 1 - (2 ^ 20 - 2 ^ 10), 2 ^ 64 - 1]) = Result.ok false := by
  decide

/-- C12: cross-region rollback.  For a registry of adjacent regions whose bitmaps
cover their frames, a frame range `[start, end)` that starts at or after the
first region, and `BOOTMEM_EXCLUSIVE` set, if some frame of the range that lies
in a region is already reserved (in the first, a middle or the last region of
the range), `mark_bootmem(start, end, 1, flags)` returns `-EBUSY` without
reaching `BUG()`, and every region of the registry reads at every bit index as
it did before the call. -/
theorem mark_bootmem_cross_region_rollback (sizeof_long : Nat) (hL : 0 < sizeof_long)
    (bdata_list : List bootmem_data) (start end_ flags : Nat)
    (hex : flags &&& BOOTMEM_EXCLUSIVE ≠ 0)
    (hchain : adjacent_chain sizeof_long bdata_list)
    (hfirst : ∀ b, bdata_list.head? = some b → b.node_min_pfn ≤ start)
    (hbusy : ∃ f, start ≤ f ∧ f < end_ ∧ ∃ b ∈ bdata_list,
      b.node_min_pfn ≤ f ∧ f < b.node_low_pfn ∧
      test_bit sizeof_long (f - b.node_min_pfn) b.node_bootmem_map = Result.ok true) :
    ∃ l', mark_bootmem sizeof_long start end_ 1 flags bdata_list = Result.ok (-EBUSY, l') ∧
      List.Forall₂ (same_bits sizeof_long) l' bdata_list := by
  classical
  -- the first reserved frame of the range
  let P : Nat → Prop := fun f => start ≤ f ∧ f < end_ ∧ ∃ b ∈ bdata_list,
    b.node_min_pfn ≤ f ∧ f < b.node_low_pfn ∧
    test_bit sizeof_long (f - b.node_min_pfn) b.node_bootmem_map = Result.ok true
  have hP : ∃ f, P f := hbusy
  obtain ⟨hf1, hf2, hown⟩ : P (Nat.find hP) := Nat.find_spec hP
  have hleast : ∀ f, f < Nat.find hP → ¬ P f := fun f hf => Nat.find_min hP hf
  generalize Nat.find hP = f0 at hf1 hf2 hown hleast
  have hclear : ∀ b ∈ bdata_list, ∀ i, start ≤ b.node_min_pfn + i →
      b.node_min_pfn + i < f0 → i < b.node_low_pfn - b.node_min_pfn →
      test_bit sizeof_long i b.node_bootmem_map = Result.ok false := by
    intro b hb i hi1 hi2 hi3
    obtain ⟨c, hc⟩ := covered_addressable sizeof_long hL b (hchain.2 b hb).2 i hi3
    cases c with
    | false => exact hc
    | true =>
      exfalso
      apply hleast (b.node_min_pfn + i) hi2
      refine ⟨hi1, by omega, b, hb, by omega, by omega, ?_⟩
      rw [Nat.add_sub_cancel_left]
      exact hc
  obtain ⟨pos_k, mid, hk1, hk2, hmid, hw⟩ :=
    walk_conflict_chain sizeof_long hL (fun s e l => mark_bootmem_nested sizeof_long s e l)
      start end_ flags hex bdata_list start [] f0 hchain
      (fun b hb => ⟨hfirst b hb, Or.inl rfl⟩) hf1 hf2 hown hclear
  have hmidchain := adjacent_chain_of_marked sizeof_long hL _ _ _ _ _ hmid hchain
  -- the rollback walk over the registry left by the failed pass
  obtain ⟨bo, hbo, hbo1, hbo2, _⟩ := hown
  obtain ⟨bo', hbo', hbom⟩ := forall₂_mem_right hmid bo hbo
  have hheadmid : ∀ b, mid.head? = some b →
      b.node_min_pfn ≤ start ∧ (start = start ∨ start < b.node_low_pfn) := by
    intro b hb
    refine ⟨?_, Or.inl rfl⟩
    cases hmid with
    | nil => cases hb
    | cons hab _ =>
      simp only [List.head?_cons, Option.some.injEq] at hb
      subst hb
      rw [hab.1]
      exact hfirst _ rfl
  obtain ⟨l', hroll, hl'⟩ :=
    walk_marks_chain sizeof_long hL (fun _ _ l => Result.ok (0, l)) start pos_k 0 0 mid
      start [] hmidchain
      ⟨bo', hbo', by rw [hbom.2.1]; omega, by rw [hbom.2.1]; omega⟩
      hheadmid hk1
      (by
        intro _ b' hb' i hi1 hi2 hi3
        obtain ⟨b, hb, hm⟩ := forall₂_mem_left hmid b' hb'
        rw [hm.2.2.2 i, if_pos ⟨by rw [← hm.1]; exact hi1, by rw [← hm.1]; exact hi2,
          by rw [← hm.1, ← hm.2.1]; exact hi3⟩])
      (fun h0 => absurd rfl h0)
  refine ⟨l', ?_, ?_⟩
  · show mark_bootmem_walk sizeof_long _ start end_ 1 flags start [] bdata_list = _
    rw [hw]
    show (match mark_bootmem_nested sizeof_long start pos_k ([] ++ mid) with
      | Result.fault => Result.fault
      | Result.bug => Result.bug
      | Result.ok (_, l) => Result.ok (-EBUSY, l)) = _
    unfold mark_bootmem_nested
    rw [List.nil_append, hroll]
    rfl
  · apply forall₂_comp_mem hl' bdata_list hmid
    rintro c2 c1 c hc ⟨g1, g2, g3, gbits⟩ ⟨k1, k2, k3, kbits⟩
    refine ⟨?_, by rw [g1, k1], by rw [g2, k2], by rw [g3, k3]⟩
    intro i
    rw [gbits i, kbits i, k1, k2]
    have hd : decide ((0 : Nat) ≠ 0) = false := by decide
    rw [hd]
    by_cases hcnd : start ≤ c.node_min_pfn + i ∧ c.node_min_pfn + i < pos_k ∧
        i < c.node_low_pfn - c.node_min_pfn
    · rw [if_pos hcnd, hclear c hc i hcnd.1 (by omega) hcnd.2.2]
    · rw [if_neg hcnd, if_neg hcnd]

theorem mark_bootmem_cross_region_rollback_witness :
    ∃ l', mark_bootmem 8 10 70 1 BOOTMEM_EXCLUSIVE
        [region_64_free_10_64, region_64_128_reserved] = Result.ok (-EBUSY, l') ∧
      List.Forall₂ (same_bits 8) l' [region_64_free_10_64, region_64_128_reserved] :=
  mark_bootmem_cross_region_rollback 8 (by decide)
    [region_64_free_10_64, region_64_128_reserved] 10 70 BOOTMEM_EXCLUSIVE
    (by decide) ⟨List.chain'_cons.mpr ⟨by decide, List.chain'_singleton _⟩, by decide⟩
    (by decide)
    ⟨64, by decide, by decide, region_64_128_reserved, by decide, by decide, by decide,
      by decide⟩

/-! ## Claims on `mark_bootmem` -/

/-- C14: `mark_bootmem_node` ends in `BUG_ON` whenever `start < node_min_pfn` or
`end > node_low_pfn`, whatever the bitmap is (also without one, so no bit is
touched before the trap).  When `node_min_pfn ≤ start ≤ end ≤ node_low_pfn` and
the bitmap has a bit for every frame of the region, the call never accesses the
bitmap out of range (the outcome is not a fault), the index range it works on
lies in `[0, node_low_pfn - node_min_pfn)`, and every bit outside
`[start - node_min_pfn, end - node_min_pfn)` is left as it was. -/
theorem mark_bootmem_node_stays_in_range (sizeof_long : Nat) (hL : 0 < sizeof_long)
    (bdata : bootmem_data) (start end_ reserve flags : Nat) :
    ((start < bdata.node_min_pfn ∨ end_ > bdata.node_low_pfn) →
      ∀ map, mark_bootmem_node sizeof_long { bdata with node_bootmem_map := map }
        start end_ reserve flags = Result.bug) ∧
    (bdata.node_min_pfn ≤ start → start ≤ end_ → end_ ≤ bdata.node_low_pfn →
      region_covered sizeof_long bdata →
      end_ - bdata.node_min_pfn ≤ bdata.node_low_pfn - bdata.node_min_pfn ∧
      mark_bootmem_node sizeof_long bdata start end_ reserve flags ≠ Result.fault ∧
      ∀ r b', mark_bootmem_node sizeof_long bdata start end_ reserve flags =
          Result.ok (r, b') →
        ∀ i, ¬ (start - bdata.node_min_pfn ≤ i ∧ i < end_ - bdata.node_min_pfn) →
          test_bit sizeof_long i b'.node_bootmem_map =
            test_bit sizeof_long i bdata.node_bootmem_map) := by
  refine ⟨fun h map => mark_bootmem_node_bug sizeof_long _ start end_ reserve flags h, ?_⟩
  intro h1 h2 h3 hc
  have hs : ulong_sub sizeof_long start bdata.node_min_pfn = start - bdata.node_min_pfn :=
    ulong_sub_eq h1 (by have := hc.2.1; omega)
  have he : ulong_sub sizeof_long end_ bdata.node_min_pfn = end_ - bdata.node_min_pfn :=
    ulong_sub_eq (by omega) (by have := hc.2.1; omega)
  have hin : ∀ i, start - bdata.node_min_pfn ≤ i → i < end_ - bdata.node_min_pfn →
      ∃ b, test_bit sizeof_long i bdata.node_bootmem_map = Result.ok b := by
    intro i _ hi
    exact covered_addressable sizeof_long hL bdata hc i (by omega)
  rw [mark_bootmem_node_inside sizeof_long bdata start end_ reserve flags h1 h3, hs, he]
  refine ⟨by omega, ?_⟩
  by_cases hr : reserve ≠ 0
  · rw [if_pos hr]
    obtain ⟨r, b', hb', _, _, _, hcase⟩ :=
      reserve_spec sizeof_long hL bdata _ _ flags hin
    refine ⟨by rw [hb']; simp, ?_⟩
    intro r2 b2 h i hi
    rw [hb'] at h
    injection h with h
    injection h with _ h
    subst h
    rcases hcase with ⟨_, hbits, _⟩ | ⟨_, _, _, hbits, _⟩
    · rw [hbits i, if_neg hi]
    · exact hbits i
  · rw [if_neg hr]
    rcases free_spec sizeof_long hL bdata _ _ hin with ⟨hbug, _⟩ | ⟨b', hb', _, hbits, _⟩
    · rw [hbug]
      exact ⟨by simp, by intro r b' h; cases h⟩
    · rw [hb']
      refine ⟨by simp, ?_⟩
      intro r2 b2 h i hi
      injection h with h
      injection h with _ h
      subst h
      rw [hbits i, if_neg hi]

theorem mark_bootmem_node_stays_in_range_witness :
    mark_bootmem_node 8 region_10_20_free 5 101 1 0 = Result.bug ∧
    mark_bootmem_node 8 region_10_20_free 15 25 1 0 ≠ Result.fault :=
  ⟨(mark_bootmem_node_stays_in_range 8 (by decide) region_10_20_free 5 101 1 0).1
      (Or.inr (by decide)) region_10_20_free.node_bootmem_map,
   ((mark_bootmem_node_stays_in_range 8 (by decide) region_10_20_free 15 25 1 0).2
      (by decide) (by decide) (by decide) (by decide)).2.1⟩

/-! ## Claims on `alloc_bootmem_core` -/

/-- C15: alignment.  For every region state, every size and every power-of-two
alignment `2 ^ a` that fits a machine word, when `alloc_bootmem_core` returns an
address it is a multiple of the alignment.  The address is
`PFN_PHYS(node_min_pfn) + start_off` with `start_off` either
`align_off(last_end_off, align)` (merge path) or `PFN_PHYS(sidx)` for an index
`sidx` produced by `align_idx` (plain path); `node_min_pfn` is arbitrary. -/
theorem alloc_bootmem_core_returns_aligned (sizeof_long PAGE_SHIFT : Nat)
    (bdata b' : bootmem_data) (size a goal limit addr : Nat)
    (ha : a < BITS_PER_LONG sizeof_long)
    (h : alloc_bootmem_core sizeof_long PAGE_SHIFT bdata size (2 ^ a) goal limit =
      some (Result.ok (some addr, b'))) :
    2 ^ a ∣ addr ∧
    (addr = ulong sizeof_long (PFN_PHYS sizeof_long PAGE_SHIFT bdata.node_min_pfn +
        align_off sizeof_long PAGE_SHIFT bdata bdata.last_end_off (2 ^ a)) ∨
     ∃ found, addr = ulong sizeof_long (PFN_PHYS sizeof_long PAGE_SHIFT bdata.node_min_pfn +
        PFN_PHYS sizeof_long PAGE_SHIFT
          (align_idx sizeof_long bdata found (Nat.max (2 ^ a >>> PAGE_SHIFT) 1)))) := by
  have hform := alloc_bootmem_core_addr _ _ _ _ _ _ _ _ _ h
  refine ⟨?_, hform⟩
  rcases hform with h1 | ⟨found, h1⟩
  · rw [h1]
    exact align_off_addr_dvd sizeof_long PAGE_SHIFT bdata _ a (Nat.le_of_lt ha)
  · rw [h1]
    exact align_idx_addr_dvd sizeof_long PAGE_SHIFT bdata found a (Nat.le_of_lt ha)

theorem alloc_bootmem_core_returns_aligned_witness :
    alloc_bootmem_core 8 12 region_3_67_used 100 (2 ^ 6) 0 0 =
      some (Result.ok (some 53376, { region_3_67_used with last_end_off := 41188 })) ∧
    2 ^ 6 ∣ 53376 ∧ 53376 = 3 * 4096 + 41088 :=
  ⟨by decide,
    (alloc_bootmem_core_returns_aligned 8 12 region_3_67_used
      { region_3_67_used with last_end_off := 41188 } 100 6 0 0 53376 (by decide)
      (by decide)).1, by decide⟩

/-! ## Claims on sequences of allocations -/

/-- C17: hint advancement.  For a region with `hint_idx = 0` and
`last_end_off = 0` whose free frames are exactly `[fa, fb)`, an allocation of
`k >= 1` whole pages with one-page alignment, goal 0 and limit 0 returns the
address of frame `fa` when `k <= fb - fa`, and the same call on the resulting
region returns the address of frame `fa + k` when `2 * k <= fb - fa`. -/
theorem alloc_bootmem_core_advances_hint (sizeof_long PAGE_SHIFT : Nat)
    (hL : 0 < sizeof_long) (bdata : bootmem_data) (fa fb k : Nat)
    (hPS0 : 0 < PAGE_SHIFT) (hPSW : PAGE_SHIFT < BITS_PER_LONG sizeof_long)
    (hk : 0 < k) (hhint : bdata.hint_idx = 0) (hleo : bdata.last_end_off = 0)
    (hfa : bdata.node_min_pfn ≤ fa) (hfb : fb ≤ bdata.node_low_pfn)
    (hlow : bdata.node_low_pfn * 2 ^ PAGE_SHIFT ≤ ULONG_MAX sizeof_long)
    (hbits : ∀ i, i < bdata.node_low_pfn - bdata.node_min_pfn →
      test_bit sizeof_long i bdata.node_bootmem_map =
        Result.ok (decide (¬ (fa ≤ bdata.node_min_pfn + i ∧ bdata.node_min_pfn + i < fb))))
    (hfit : k ≤ fb - fa) :
    ∃ b1, alloc_bootmem_core sizeof_long PAGE_SHIFT bdata (k * 2 ^ PAGE_SHIFT)
        (2 ^ PAGE_SHIFT) 0 0 =
        some (Result.ok (some (PFN_PHYS sizeof_long PAGE_SHIFT fa), b1)) ∧
      (2 * k ≤ fb - fa →
        ∃ b2, alloc_bootmem_core sizeof_long PAGE_SHIFT b1 (k * 2 ^ PAGE_SHIFT)
          (2 ^ PAGE_SHIFT) 0 0 =
          some (Result.ok (some (PFN_PHYS sizeof_long PAGE_SHIFT (fa + k)), b2))) := by
  have hBpos : 0 < 2 ^ PAGE_SHIFT := Nat.pow_pos (by decide)
  have hin : ∀ i, i < bdata.node_low_pfn - bdata.node_min_pfn →
      ∃ c, test_bit sizeof_long i bdata.node_bootmem_map = Result.ok c :=
    fun i hi => ⟨_, hbits i hi⟩
  obtain ⟨b1, h1, f1, f2, f3, f4, f5⟩ := alloc_page_run sizeof_long PAGE_SHIFT hL bdata k
    (fa - bdata.node_min_pfn) hPS0 hPSW hk (by omega) hlow (by rw [hleo]; exact Nat.zero_le _)
    (by rw [hleo]; exact Nat.zero_mod _) hin (by omega)
    (fun i _ hi => by
      rw [hbits i (by omega)]
      exact congrArg Result.ok (decide_eq_true (by omega)))
    (fun i hi1 hi2 => by
      rw [hbits i (by omega)]
      exact congrArg Result.ok (decide_eq_false (by omega)))
    (by omega)
  have hfaB : fa * 2 ^ PAGE_SHIFT ≤ bdata.node_low_pfn * 2 ^ PAGE_SHIFT :=
    Nat.mul_le_mul_right _ (by omega)
  refine ⟨b1, ?_, fun h2k => ?_⟩
  · rw [h1, PFN_PHYS_eq (by omega), Nat.add_sub_cancel' hfa]
  · have hfakB : (fa + k) * 2 ^ PAGE_SHIFT ≤ bdata.node_low_pfn * 2 ^ PAGE_SHIFT :=
      Nat.mul_le_mul_right _ (by omega)
    have hle1 : (fa - bdata.node_min_pfn + k) * 2 ^ PAGE_SHIFT ≤ (fa + k) * 2 ^ PAGE_SHIFT :=
      Nat.mul_le_mul_right _ (by omega)
    obtain ⟨b2, h2, _⟩ := alloc_page_run sizeof_long PAGE_SHIFT hL b1 k
      (fa - bdata.node_min_pfn + k) hPS0 hPSW hk (by rw [f1, f2]; omega) (by rw [f2]; exact hlow)
      (by rw [f3]; omega) (by rw [f3]; exact Nat.mul_mod_left _ _)
      (fun i hi => by
        rw [f1, f2] at hi
        rw [f5 i]
        split
        · exact ⟨true, rfl⟩
        · exact hin i hi)
      (by rw [f4])
      (fun i hi1 hi2 => by rw [f4] at hi1; omega)
      (fun i hi1 hi2 => by
        rw [f5 i, if_neg (by omega), hbits i (by omega)]
        exact congrArg Result.ok (decide_eq_false (by omega)))
      (by rw [f1, f2]; omega)
    refine ⟨b2, ?_⟩
    rw [h2, f1, PFN_PHYS_eq (by omega)]
    have e : bdata.node_min_pfn + (fa - bdata.node_min_pfn + k) = fa + k := by omega
    rw [e]

theorem alloc_bootmem_core_advances_hint_witness :
    free_bootmem 8 12 (10 * 4096) (10 * 4096) [region_64_reserved] =
      Result.ok (0, [region_64_free_10_20]) ∧
    alloc_bootmem_core 8 12 region_64_free_10_20 (3 * 2 ^ 12) (2 ^ 12) 0 0 =
      some (Result.ok (some (10 * 4096),
        { region_64_free_10_20 with
          node_bootmem_map := some [2 ^ 64 - 1 - (2 ^ 20 - 2 ^ 13)],
          last_end_off := 13 * 4096, hint_idx := 13 })) ∧
    alloc_bootmem_core 8 12
      { region_64_free_10_20 with
        node_bootmem_map := some [2 ^ 64 - 1 - (2 ^ 20 - 2 ^ 13)],
        last_end_off := 13 * 4096, hint_idx := 13 } (3 * 2 ^ 12) (2 ^ 12) 0 0 =
      some (Result.ok (some (13 * 4096),
        { region_64_free_10_20 with
          node_bootmem_map := some [2 ^ 64 - 1 - (2 ^ 20 - 2 ^ 16)],
          last_end_off := 16 * 4096, hint_idx := 16 })) ∧
    ∃ b1, alloc_bootmem_core 8 12 region_64_free_10_20 (3 * 2 ^ 12) (2 ^ 12) 0 0 =
        some (Result.ok (some (PFN_PHYS 8 12 10), b1)) ∧
      (2 * 3 ≤ 20 - 10 →
        ∃ b2, alloc_bootmem_core 8 12 b1 (3 * 2 ^ 12) (2 ^ 12) 0 0 =
          some (Result.ok (some (PFN_PHYS 8 12 (10 + 3)), b2))) :=
  ⟨by decide, by decide, by decide,
    alloc_bootmem_core_advances_hint 8 12 (by decide) region_64_free_10_20 10 20 3
      (by decide) (by decide) (by decide) (by decide) (by decide) (by decide) (by decide)
      (by decide) (by decide) (by decide)⟩

/-! ## Claims on `___alloc_bootmem_nopanic` -/

/-- C18: goal-drop fallback.  For a registry of addressable regions and a request
with `size > 0`, a power-of-two alignment, `limit = 0` or `goal + size <= limit`
and a nonzero goal: whenever `___alloc_bootmem_nopanic` with `goal = 0` returns
an address on that registry, the call with the goal returns an address too.  If
moreover the regions are pairwise disjoint and the frame of the goal lies in a
region whose frames are all reserved, the address returned differs from the
goal. -/
theorem alloc_bootmem_nopanic_drops_goal (sizeof_long PAGE_SHIFT : Nat)
    (hL : 0 < sizeof_long) (bdata_list : List bootmem_data) (size a goal limit : Nat)
    (hPS0 : 0 < PAGE_SHIFT) (hPSW : PAGE_SHIFT < BITS_PER_LONG sizeof_long)
    (hsz : 0 < size) (hsize : size ≤ ULONG_MAX sizeof_long)
    (ha : a < BITS_PER_LONG sizeof_long) (hlim : limit = 0 ∨ goal + size ≤ limit)
    (hgoal : goal ≠ 0)
    (hwf : ∀ b ∈ bdata_list, region_addressable sizeof_long PAGE_SHIFT b)
    (a0 : Nat) (l0 : List bootmem_data)
    (h0 : ___alloc_bootmem_nopanic sizeof_long PAGE_SHIFT size (2 ^ a) 0 limit bdata_list =
      some (Result.ok (some a0, l0))) :
    ∃ a1 l1, ___alloc_bootmem_nopanic sizeof_long PAGE_SHIFT size (2 ^ a) goal limit
        bdata_list = some (Result.ok (some a1, l1)) ∧
      (pairwise_disjoint bdata_list →
        ∀ R ∈ bdata_list,
          R.node_min_pfn ≤ PFN_DOWN PAGE_SHIFT goal →
          PFN_DOWN PAGE_SHIFT goal < R.node_low_pfn →
          (∀ i, i < R.node_low_pfn - R.node_min_pfn →
            test_bit sizeof_long i R.node_bootmem_map = Result.ok true) →
          a1 ≠ goal) := by
  have hBpos : 0 < 2 ^ PAGE_SHIFT := Nat.pow_pos (by decide)
  have hlim0 : limit = 0 ∨ 0 + size ≤ limit := by omega
  rw [alloc_bootmem_nopanic_zero_goal, alloc_bootmem_pass_eq] at h0
  -- the block that the call without a goal placed lies in a region, so its size does not wrap
  have hsize' : size + (2 ^ PAGE_SHIFT - 1) ≤ ULONG_MAX sizeof_long := by
    obtain ⟨b, hb, b', hcore⟩ := alloc_bootmem_regions_success _ _ _ _ _ _ _ _ _ _ h0
    exact (alloc_bootmem_core_block_inside sizeof_long PAGE_SHIFT b b' size (2 ^ a) 0 limit a0
      hPSW (hwf b hb).2.1 hcore).2.2
  -- the address of any successful pass lies in a region with a free frame
  have hne : ∀ g a1 l1, (limit = 0 ∨ g + size ≤ limit) →
      alloc_bootmem_regions sizeof_long PAGE_SHIFT size (2 ^ a) g limit [] bdata_list =
        some (Result.ok (some a1, l1)) →
      pairwise_disjoint bdata_list →
      ∀ R ∈ bdata_list,
        R.node_min_pfn ≤ PFN_DOWN PAGE_SHIFT goal →
        PFN_DOWN PAGE_SHIFT goal < R.node_low_pfn →
        (∀ i, i < R.node_low_pfn - R.node_min_pfn →
          test_bit sizeof_long i R.node_bootmem_map = Result.ok true) →
        a1 ≠ goal := by
    intro g a1 l1 hg hpass hdis R hR hR1 hR2 hRfull heq
    obtain ⟨b, hb, b', hcore⟩ := alloc_bootmem_regions_success _ _ _ _ _ _ _ _ _ _ hpass
    obtain ⟨hb1, hb2, f, hf1, hf2⟩ := core_success_region sizeof_long PAGE_SHIFT hL b b' size
      a g limit a1 hPS0 hPSW hsz hsize' ha hg (hwf b hb) hcore
    have hbR : b ≠ R := by
      intro h
      subst h
      rw [hRfull f hf1] at hf2
      cases hf2
    have hsym : Symmetric (fun x y : bootmem_data => ¬ overlaps x y) :=
      fun x y hxy hyx => hxy ((overlaps_symm y x).mp hyx)
    have hno : ¬ overlaps b R := List.Pairwise.forall hsym hdis hb hR hbR
    rw [PFN_DOWN_eq] at hR1 hR2
    have hg1 : R.node_min_pfn * 2 ^ PAGE_SHIFT ≤ goal :=
      (Nat.le_div_iff_mul_le hBpos).mp hR1
    have hg2 : goal < R.node_low_pfn * 2 ^ PAGE_SHIFT :=
      (Nat.div_lt_iff_lt_mul hBpos).mp hR2
    unfold overlaps ranges_overlap at hno
    have hcase : b.node_low_pfn ≤ R.node_min_pfn ∨ R.node_low_pfn ≤ b.node_min_pfn := by
      have hbne : b.node_min_pfn < b.node_low_pfn := by omega
      omega
    rcases hcase with hc | hc
    · have := Nat.mul_le_mul_right (2 ^ PAGE_SHIFT) hc
      omega
    · have := Nat.mul_le_mul_right (2 ^ PAGE_SHIFT) hc
      omega
  unfold ___alloc_bootmem_nopanic
  simp only [alloc_bootmem_pass_eq]
  rcases alloc_bootmem_regions_outcome sizeof_long PAGE_SHIFT hL size a goal limit hPS0 hPSW
    hsz hsize' ha hlim bdata_list [] hwf with hnull | ⟨a1, l1, hok⟩
  · rw [hnull]
    simp only [List.nil_append]
    rw [if_pos hgoal, h0]
    exact ⟨a0, l0, rfl, hne 0 a0 l0 hlim0 h0⟩
  · rw [hok]
    exact ⟨a1, l1, rfl, hne goal a1 l1 hlim hok⟩

theorem alloc_bootmem_nopanic_drops_goal_witness :
    ___alloc_bootmem_nopanic 8 12 4096 (2 ^ 12) (70 * 4096) 0
        [region_64_free_10_20, region_64_128_reserved] =
      some (Result.ok (some 40960,
        [{ region_64_free_10_20 with
            node_bootmem_map := some [2 ^ 64 - 1 - (2 ^ 20 - 2 ^ 11)],
            last_end_off := 45056, hint_idx := 11 }, region_64_128_reserved])) ∧
    ∃ a1 l1, ___alloc_bootmem_nopanic 8 12 4096 (2 ^ 12) (70 * 4096) 0
        [region_64_free_10_20, region_64_128_reserved] = some (Result.ok (some a1, l1)) ∧
      (pairwise_disjoint [region_64_free_10_20, region_64_128_reserved] →
        ∀ R ∈ [region_64_free_10_20, region_64_128_reserved],
          R.node_min_pfn ≤ PFN_DOWN 12 (70 * 4096) →
          PFN_DOWN 12 (70 * 4096) < R.node_low_pfn →
          (∀ i, i < R.node_low_pfn - R.node_min_pfn →
            test_bit 8 i R.node_bootmem_map = Result.ok true) →
          a1 ≠ 70 * 4096) :=
  ⟨by decide,
    alloc_bootmem_nopanic_drops_goal 8 12 (by decide)
      [region_64_free_10_20, region_64_128_reserved] 4096 12 (70 * 4096) 0
      (by decide) (by decide) (by decide) (by decide) (by decide) (by decide) (by decide)
      (by decide) 40960
      [{ region_64_free_10_20 with
          node_bootmem_map := some [2 ^ 64 - 1 - (2 ^ 20 - 2 ^ 11)],
          last_end_off := 45056, hint_idx := 11 }, region_64_128_reserved]
      (by decide)⟩

/-- C19 (counterexample): a limit below the page size is ignored.  On the region
`[0, 64)` with the frames `10 .. 19` free, an allocation of 50 bytes with
`limit = 100` passes the precondition `goal + size <= limit`, and
`alloc_bootmem_core` returns the address 40960, so `addr + size` is far above the
nonzero limit. -/
theorem alloc_bootmem_core_ignores_small_limit :
    alloc_bootmem_core 8 12 region_64_free_10_20 50 1 0 100 =
      some (Result.ok (some 40960,
        { region_64_free_10_20 with
          node_bootmem_map := some [2 ^ 64 - 1 - (2 ^ 20 - 2 ^ 11)],
          last_end_off := 41010, hint_idx := 11 })) ∧
    (100 : Nat) ≠ 0 ∧ 0 + 50 ≤ 100 ∧ ¬ (40960 + 50 ≤ 100) := by
  decide

/-- C19 (amended): limit and region bounds.  For an addressable region and a
request with `size > 0`, `size + PAGE_SIZE - 1` representable, a power-of-two
alignment and `limit = 0` or `goal + size <= limit`: whenever
`alloc_bootmem_core` returns an address, `PFN_PHYS(node_min_pfn) <= addr` and
`addr + size <= PFN_PHYS(node_low_pfn)`, and when the limit is at least one page
(`limit >> PAGE_SHIFT` is nonzero) also `addr + size <= limit`.  When the region
is empty, or the limit is at least one page and `limit >> PAGE_SHIFT` is at or
below `node_min_pfn`, the call returns NULL and leaves the region as it was. -/
theorem alloc_bootmem_core_within_bounds (sizeof_long PAGE_SHIFT : Nat)
    (hL : 0 < sizeof_long) (bdata : bootmem_data) (size a goal limit : Nat)
    (hPS0 : 0 < PAGE_SHIFT) (hPSW : PAGE_SHIFT < BITS_PER_LONG sizeof_long)
    (hsz : 0 < size) (hw : size + (2 ^ PAGE_SHIFT - 1) ≤ ULONG_MAX sizeof_long)
    (ha : a < BITS_PER_LONG sizeof_long) (hlim : limit = 0 ∨ goal + size ≤ limit)
    (hreg : region_addressable sizeof_long PAGE_SHIFT bdata) :
    (∀ addr b', alloc_bootmem_core sizeof_long PAGE_SHIFT bdata size (2 ^ a) goal limit =
        some (Result.ok (some addr, b')) →
      PFN_PHYS sizeof_long PAGE_SHIFT bdata.node_min_pfn ≤ addr ∧
      addr + size ≤ PFN_PHYS sizeof_long PAGE_SHIFT bdata.node_low_pfn ∧
      (limit >>> PAGE_SHIFT ≠ 0 → addr + size ≤ limit)) ∧
    ((bdata.node_low_pfn ≤ bdata.node_min_pfn ∨
        (limit >>> PAGE_SHIFT ≠ 0 ∧ limit >>> PAGE_SHIFT ≤ bdata.node_min_pfn)) →
      alloc_bootmem_core sizeof_long PAGE_SHIFT bdata size (2 ^ a) goal limit =
        some (Result.ok (none, bdata))) := by
  obtain ⟨hcov, hlow, hleo⟩ := hreg
  have hULM : ULONG_MAX sizeof_long = 2 ^ BITS_PER_LONG sizeof_long - 1 := rfl
  have hMpos := two_pow_bits_pos sizeof_long
  have hBpos : 0 < 2 ^ PAGE_SHIFT := Nat.pow_pos (by decide)
  have hB2 : 2 ≤ 2 ^ PAGE_SHIFT := by
    have := Nat.pow_le_pow_right (show 0 < 2 by decide) hPS0
    simpa using this
  refine ⟨?_, alloc_bootmem_core_empty_window sizeof_long PAGE_SHIFT bdata size a goal limit
    hsz ha hlim⟩
  intro addr b' h
  have hminB : bdata.node_min_pfn * 2 ^ PAGE_SHIFT ≤ bdata.node_low_pfn * 2 ^ PAGE_SHIFT :=
    Nat.mul_le_mul_right _ hcov.1
  rcases alloc_bootmem_core_total sizeof_long PAGE_SHIFT hL bdata size a goal limit hPS0 hPSW
    hsz (by omega) ha hlim hcov.1 hlow hleo (covered_addressable sizeof_long hL bdata hcov)
    with hnull | ⟨s, so, midx, b1, hok, hmidlow, hmidlim, _, hs1, hs2, _, _, hso, _⟩
  · rw [hnull] at h; cases h
  · rw [hok] at h
    simp only [Option.some.injEq, Result.ok.injEq, Prod.mk.injEq] at h
    rw [← h.1, PFN_PHYS_eq (by omega), PFN_PHYS_eq hlow]
    have hmidB : (bdata.node_min_pfn + midx) * 2 ^ PAGE_SHIFT ≤
        bdata.node_low_pfn * 2 ^ PAGE_SHIFT := Nat.mul_le_mul_right _ hmidlow
    rw [Nat.add_mul] at hmidB
    rw [PFN_UP_eq _ _ _ hPSW] at hs2
    unfold ulong at hs2
    obtain ⟨_, _, hsP, _, _, hend⟩ := pfn_up_no_wrap _ _ _ s so size midx
      (two_pow_split sizeof_long PAGE_SHIFT hPSW) hB2 hso hs1 (by omega) (by omega) hs2
    have hsPB := Nat.mul_le_mul_right (2 ^ PAGE_SHIFT) hsP
    refine ⟨by omega, by omega, fun hl => ?_⟩
    have h1 := hmidlim hl
    rw [Nat.shiftRight_eq_div_pow] at h1
    have h2 := Nat.mul_le_mul_right (2 ^ PAGE_SHIFT) h1
    have h3 := Nat.div_mul_le_self limit (2 ^ PAGE_SHIFT)
    rw [Nat.add_mul] at h2
    omega

theorem alloc_bootmem_core_within_bounds_witness :
    alloc_bootmem_core 8 12 region_64_free_10_20 8192 (2 ^ 12) 0 81920 =
      some (Result.ok (some 40960,
        { region_64_free_10_20 with
          node_bootmem_map := some [2 ^ 64 - 1 - (2 ^ 20 - 2 ^ 12)],
          last_end_off := 49152, hint_idx := 12 })) ∧
    PFN_PHYS 8 12 region_64_free_10_20.node_min_pfn ≤ 40960 ∧
    40960 + 8192 ≤ PFN_PHYS 8 12 region_64_free_10_20.node_low_pfn ∧
    (81920 >>> 12 ≠ 0 → 40960 + 8192 ≤ 81920) :=
  ⟨by decide,
    (alloc_bootmem_core_within_bounds 8 12 (by decide) region_64_free_10_20 8192 12 0 81920
      (by decide) (by decide) (by decide) (by decide) (by decide) (by decide)
      (by decide)).1 40960
      { region_64_free_10_20 with
        node_bootmem_map := some [2 ^ 64 - 1 - (2 ^ 20 - 2 ^ 12)],
        last_end_off := 49152, hint_idx := 12 } (by decide)⟩

/-- Claim C20 (counterexample).  On a 64-bit machine with 4 KiB pages, on the
region `[0, 64)` with the frames `10 .. 19` free, a request of `2 ^ 64 - 1` bytes
with alignment 8, the goal in frame 1 and no limit meets the stated
preconditions.  `PFN_UP(size)` wraps to 0, so the search accepts the empty run
at frame 10, the exclusive `__reserve` of no frame succeeds, and
`memset(region, 0, size)` then writes `2 ^ 64 - 1` bytes from the address 40960:
the call ends in a fault. -/
theorem alloc_bootmem_core_huge_size_faults :
    0 < 2 ^ 64 - 1 ∧ (0 = 0 ∨ 4096 + (2 ^ 64 - 1) ≤ 0) ∧
    region_addressable 8 12 region_64_free_10_20 ∧
    PFN_UP 8 12 (2 ^ 64 - 1) = 0 ∧
    alloc_bootmem_core 8 12 region_64_free_10_20 (2 ^ 64 - 1) (2 ^ 3) 4096 0 =
      some Result.fault := by
  decide

/-- Claim C20 (amended).  Under the stated preconditions and for a size that can
be rounded up to whole pages in an `unsigned long`
(`size + PAGE_SIZE - 1 <= ULONG_MAX`), `alloc_bootmem_core` never reaches a
fatal state.  For an addressable region, `size > 0`, a power-of-two alignment
and `limit = 0` or `goal + size <= limit`, the call returns (the search
terminates) and its outcome is NULL with the region unchanged, or an address:
in that case the search verified a clear run `[s, eidx)` inside the window, the
window lies inside `[0, node_low_pfn - node_min_pfn)`, and the exclusive
`__reserve` set exactly the bits from `s` up to `PFN_UP(end_off)`, a range
contained in that run.  The outcome does not depend on the bits at or above the
page count: any bitmap that agrees with the region's below
`node_low_pfn - node_min_pfn` yields the same returned value. -/
theorem alloc_bootmem_core_never_fatal (sizeof_long PAGE_SHIFT : Nat)
    (hL : 0 < sizeof_long) (bdata : bootmem_data) (size a goal limit : Nat)
    (hPS0 : 0 < PAGE_SHIFT) (hPSW : PAGE_SHIFT < BITS_PER_LONG sizeof_long)
    (hsz : 0 < size) (hsize : size + (2 ^ PAGE_SHIFT - 1) ≤ ULONG_MAX sizeof_long)
    (ha : a < BITS_PER_LONG sizeof_long) (hlim : limit = 0 ∨ goal + size ≤ limit)
    (hreg : region_addressable sizeof_long PAGE_SHIFT bdata) :
    (alloc_bootmem_core sizeof_long PAGE_SHIFT bdata size (2 ^ a) goal limit =
        some (Result.ok (none, bdata)) ∨
      ∃ s so midx b',
        alloc_bootmem_core sizeof_long PAGE_SHIFT bdata size (2 ^ a) goal limit =
          some (Result.ok (some (bdata.node_min_pfn * 2 ^ PAGE_SHIFT + so), b')) ∧
        bdata.node_min_pfn + midx ≤ bdata.node_low_pfn ∧
        placed_at sizeof_long PAGE_SHIFT bdata b' size s so midx) ∧
    (∀ m2 : Bitmap,
      (∀ i, i < bdata.node_low_pfn - bdata.node_min_pfn →
        test_bit sizeof_long i (some m2) = test_bit sizeof_long i bdata.node_bootmem_map) →
      ∃ r b1' b2',
        alloc_bootmem_core sizeof_long PAGE_SHIFT bdata size (2 ^ a) goal limit =
          some (Result.ok (r, b1')) ∧
        alloc_bootmem_core sizeof_long PAGE_SHIFT
          { bdata with node_bootmem_map := some m2 } size (2 ^ a) goal limit =
          some (Result.ok (r, b2'))) := by
  obtain ⟨hcov, hlow, hleo⟩ := hreg
  have hin := covered_addressable sizeof_long hL bdata hcov
  refine ⟨?_, fun m2 hagree => ?_⟩
  · rcases alloc_bootmem_core_total sizeof_long PAGE_SHIFT hL bdata size a goal limit hPS0
      hPSW hsz hsize ha hlim hcov.1 hlow hleo hin
      with hnull | ⟨s, so, midx, b1, hok, hmidlow, _, _, hp⟩
    · exact Or.inl hnull
    · exact Or.inr ⟨s, so, midx, b1, hok, hmidlow, hp⟩
  · exact alloc_bootmem_core_below sizeof_long PAGE_SHIFT hL bdata m2 size a goal limit hPS0
      hPSW hsz hsize ha hlim hcov.1 hlow hleo hin hagree

theorem alloc_bootmem_core_never_fatal_witness :
    alloc_bootmem_core 8 12 region_64_free_10_20 4100 (2 ^ 3) 4096 0 =
      some (Result.ok (some 40960,
        { region_64_free_10_20 with
          node_bootmem_map := some [2 ^ 64 - 1 - (2 ^ 20 - 2 ^ 12)],
          last_end_off := 45060, hint_idx := 12 })) ∧
    ∃ s so midx b',
      alloc_bootmem_core 8 12 region_64_free_10_20 4100 (2 ^ 3) 4096 0 =
        some (Result.ok (some (region_64_free_10_20.node_min_pfn * 2 ^ 12 + so), b')) ∧
      region_64_free_10_20.node_min_pfn + midx ≤ region_64_free_10_20.node_low_pfn ∧
      placed_at 8 12 region_64_free_10_20 b' 4100 s so midx :=
  ⟨by decide,
    ((alloc_bootmem_core_never_fatal 8 12 (by decide) region_64_free_10_20 4100 3 4096 0
      (by decide) (by decide) (by decide) (by decide) (by decide) (by decide)
      (by decide)).1.resolve_left (by decide))⟩

/-! ## The state left by a placement -/

theorem reserve_exclusive_zero (sizeof_long : Nat) (bdata b' : bootmem_data)
    (sidx eidx flags : Nat) (hex : flags &&& BOOTMEM_EXCLUSIVE ≠ 0)
    (h : __reserve sizeof_long bdata sidx eidx flags = Result.ok (0, b')) :
    (∀ i, sidx ≤ i → i < eidx →
      test_bit sizeof_long i bdata.node_bootmem_map = Result.ok false) ∧
    (∀ i, test_bit sizeof_long i b'.node_bootmem_map =
      if sidx ≤ i ∧ i < eidx then Result.ok true
      else test_bit sizeof_long i bdata.node_bootmem_map) ∧
    b'.hint_idx = bdata.hint_idx ∧ b'.last_end_off = bdata.last_end_off ∧
    b'.node_min_pfn = bdata.node_min_pfn ∧ b'.node_low_pfn = bdata.node_low_pfn := by
  have hclr : ∀ i, sidx ≤ i → i < sidx + (eidx - sidx) →
      test_bit sizeof_long i bdata.node_bootmem_map = Result.ok false :=
    reserve_loop_zero_clear sizeof_long (flags &&& BOOTMEM_EXCLUSIVE) sidx hex (eidx - sidx)
      bdata b' sidx h
  obtain ⟨b2, hb2, hbits, hh, hl, hmin, hlow⟩ :=
    reserve_loop_success sizeof_long (flags &&& BOOTMEM_EXCLUSIVE) sidx (eidx - sidx) bdata sidx
      (fun i h1 h2 => Or.inl (hclr i h1 h2))
  have he : b2 = b' := by
    have h2 : __reserve_loop sizeof_long (flags &&& BOOTMEM_EXCLUSIVE) sidx bdata sidx
        (eidx - sidx) = Result.ok (0, b') := h
    rw [hb2] at h2
    injection h2 with h2
    injection h2
  subst he
  refine ⟨fun i h1 h2 => hclr i h1 (by omega), ?_, hh, hl, hmin, hlow⟩
  intro i
  rw [hbits i]
  by_cases hc : sidx ≤ i ∧ i < eidx
  · rw [if_pos hc, if_pos ⟨hc.1, by omega⟩]
  · rw [if_neg hc, if_neg (by omega)]

/-! ## The marks left by a successful `mark_bootmem` -/

theorem node_marked_of_ok (sizeof_long : Nat) (hL : 0 < sizeof_long) (b0 b1 : bootmem_data)
    (pos max reserve flags : Nat) (hc : region_covered sizeof_long b0)
    (h1 : b0.node_min_pfn ≤ pos) (h2 : pos ≤ max) (h3 : max ≤ b0.node_low_pfn)
    (h : mark_bootmem_node sizeof_long b0 pos max reserve flags = Result.ok (0, b1)) :
    b1.node_min_pfn = b0.node_min_pfn ∧ b1.node_low_pfn = b0.node_low_pfn ∧
    b1.last_end_off = b0.last_end_off ∧
    ∀ i, test_bit sizeof_long i b1.node_bootmem_map =
      if pos - b0.node_min_pfn ≤ i ∧ i < max - b0.node_min_pfn then
        Result.ok (decide (reserve ≠ 0))
      else test_bit sizeof_long i b0.node_bootmem_map := by
  obtain ⟨hmin, hlowle, hbits⟩ := hc
  have hs : ulong_sub sizeof_long pos b0.node_min_pfn = pos - b0.node_min_pfn :=
    ulong_sub_eq h1 (by omega)
  have he : ulong_sub sizeof_long max b0.node_min_pfn = max - b0.node_min_pfn :=
    ulong_sub_eq (by omega) (by omega)
  have hin : ∀ i, pos - b0.node_min_pfn ≤ i → i < max - b0.node_min_pfn →
      ∃ b, test_bit sizeof_long i b0.node_bootmem_map = Result.ok b := by
    intro i _ hi
    exact (test_bit_ok_iff_lt sizeof_long hL _ i).mpr (by omega)
  rw [mark_bootmem_node_inside sizeof_long b0 pos max reserve flags h1 h3, hs, he] at h
  by_cases hr : reserve ≠ 0
  · rw [if_pos hr] at h
    obtain ⟨r, b', hres, f1, f2, f3, hcase⟩ :=
      reserve_spec sizeof_long hL b0 _ _ flags hin
    rw [hres] at h
    injection h with h
    injection h with hr0 hb
    subst hb
    rcases hcase with ⟨_, hb, _, _⟩ | ⟨hbusy, _⟩
    · refine ⟨f1, f2, f3, ?_⟩
      intro i
      rw [hb i]
      simp [hr]
    · rw [hr0] at hbusy
      exact absurd hbusy.symm (by decide)
  · rw [if_neg hr] at h
    rcases free_spec sizeof_long hL b0 _ _ hin with ⟨hbug, _⟩ | ⟨b', hres, _, hb, _, f3, f1, f2⟩
    · rw [hbug] at h; cases h
    · rw [hres] at h
      injection h with h
      injection h with _ hb'
      subst hb'
      refine ⟨f1, f2, f3, ?_⟩
      intro i
      rw [hb i]
      simp [hr]

theorem frame_marked_refl_of_disjoint (sizeof_long a e : Nat) (v : Bool) (b : bootmem_data)
    (h : ∀ f, b.node_min_pfn ≤ f → f < b.node_low_pfn → ¬ (a ≤ f ∧ f < e)) :
    frame_marked sizeof_long a e v b b := by
  refine ⟨rfl, rfl, rfl, ?_⟩
  intro i
  rw [if_neg]
  intro hc
  exact h (b.node_min_pfn + i) (by omega) (by omega) ⟨hc.1, hc.2.1⟩

theorem walk_marks_of_ok (sizeof_long : Nat) (hL : 0 < sizeof_long)
    (rb : Nat → Nat → List bootmem_data → Result (Int × List bootmem_data))
    (start end_ reserve flags : Nat) (rest : List bootmem_data) :
    ∀ pos visited l', pos ≤ end_ →
      sorted_by_min_pfn rest → pairwise_disjoint rest →
      (∀ b ∈ rest, region_covered sizeof_long b) →
      mark_bootmem_walk sizeof_long rb start end_ reserve flags pos visited rest =
        Result.ok (0, l') →
      ∃ rest', l' = visited ++ rest' ∧
        List.Forall₂ (frame_marked sizeof_long pos end_ (decide (reserve ≠ 0))) rest' rest := by
  induction rest with
  | nil => intro pos visited l' _ _ _ _ h; simp [mark_bootmem_walk] at h
  | cons bdata rest ih =>
    intro pos visited l' hpe hsort hdisj hcov h
    have hc := hcov bdata (List.mem_cons_self _ _)
    have hcov' : ∀ b ∈ rest, region_covered sizeof_long b :=
      fun b hb => hcov b (List.mem_cons_of_mem _ hb)
    obtain ⟨hs1, hsort'⟩ := List.pairwise_cons.mp hsort
    obtain ⟨hd1, hdisj'⟩ := List.pairwise_cons.mp hdisj
    have hnocommon : ∀ r ∈ rest, ∀ f, r.node_min_pfn ≤ f → f < r.node_low_pfn →
        ¬ (bdata.node_min_pfn ≤ f ∧ f < bdata.node_low_pfn) := by
      intro r hr f g1 g2 g
      exact hd1 r hr ((overlaps_iff_common_frame bdata r).mpr ⟨f, g.1, g.2, g1, g2⟩)
    simp only [mark_bootmem_walk] at h
    by_cases hskip : pos < bdata.node_min_pfn ∨ pos ≥ bdata.node_low_pfn
    · rw [if_pos hskip] at h
      by_cases hps : pos ≠ start
      · rw [if_pos hps] at h; cases h
      · rw [if_neg hps] at h
        have hps' : pos = start := by
          by_contra hne
          exact hps hne
        by_cases hlt : pos < bdata.node_min_pfn
        · exfalso
          subst hps'
          rw [mark_bootmem_walk_start_nowhere sizeof_long rb pos end_ reserve flags rest _
            (fun b hb hin => by have := hs1 b hb; omega)] at h
          cases h
        · obtain ⟨rest', hl', hf⟩ := ih pos _ l' hpe hsort' hdisj' hcov' h
          refine ⟨bdata :: rest', by rw [hl']; simp, List.Forall₂.cons ?_ hf⟩
          exact frame_marked_refl_of_disjoint sizeof_long pos end_ _ bdata
            (fun f _ g2 g => by omega)
    · rw [if_neg hskip] at h
      cases hn : mark_bootmem_node sizeof_long bdata pos (min bdata.node_low_pfn end_)
          reserve flags with
      | fault => rw [hn] at h; cases h
      | bug => rw [hn] at h; cases h
      | ok p =>
        obtain ⟨err, b'⟩ := p
        rw [hn] at h
        simp only at h
        by_cases hre : reserve ≠ 0 ∧ err ≠ 0
        · rw [if_pos hre] at h
          cases hrb : rb start pos (visited ++ b' :: rest) with
          | fault => rw [hrb] at h; cases h
          | bug => rw [hrb] at h; cases h
          | ok q =>
            rw [hrb] at h
            injection h with h
            injection h with h0 _
            exact absurd h0 hre.2
        · rw [if_neg hre] at h
          have herr : err = 0 := by
            by_cases hr : reserve ≠ 0
            · by_contra hne
              exact hre ⟨hr, hne⟩
            · rw [mark_bootmem_node_inside sizeof_long bdata pos _ reserve flags
                (by omega) (Nat.min_le_left _ _), if_neg hr] at hn
              split at hn
              · cases hn
              · cases hn
              · injection hn with hn
                injection hn with hn _
                exact hn.symm
          subst herr
          obtain ⟨f1, f2, f3, hb⟩ := node_marked_of_ok sizeof_long hL bdata b' pos
            (min bdata.node_low_pfn end_) reserve flags hc (by omega)
            (by rw [Nat.le_min]; omega) (Nat.min_le_left _ _) hn
          have hhead : frame_marked sizeof_long pos end_ (decide (reserve ≠ 0)) b' bdata := by
            refine ⟨f1, f2, f3, ?_⟩
            intro i
            rw [hb i]
            by_cases hci : pos - bdata.node_min_pfn ≤ i ∧
                i < min bdata.node_low_pfn end_ - bdata.node_min_pfn
            · rw [if_pos hci, if_pos]
              have := hci.2
              rw [Nat.lt_sub_iff_add_lt, Nat.lt_min] at this
              omega
            · rw [if_neg hci, if_neg]
              intro hx
              apply hci
              refine ⟨by omega, ?_⟩
              rw [Nat.lt_sub_iff_add_lt, Nat.lt_min]
              omega
          by_cases hme : min bdata.node_low_pfn end_ = end_
          · rw [if_pos hme] at h
            injection h with h
            injection h with _ h
            refine ⟨b' :: rest, h.symm, List.Forall₂.cons hhead ?_⟩
            apply forall₂_self_mem
            intro r hr
            apply frame_marked_refl_of_disjoint
            intro f g1 g2 g
            exact hnocommon r hr f g1 g2 ⟨by omega, by omega⟩
          · rw [if_neg hme] at h
            have hlowlt : bdata.node_low_pfn < end_ := by
              rcases Nat.le_total bdata.node_low_pfn end_ with hle | hle
              · rcases Nat.lt_or_eq_of_le hle with hlt | heq
                · exact hlt
                · exact absurd (by rw [heq]; exact Nat.min_self _) hme
              · exact absurd (Nat.min_eq_right hle) hme
            obtain ⟨rest', hl', hf⟩ := ih b'.node_low_pfn _ l' (by omega) hsort' hdisj' hcov' h
            refine ⟨b' :: rest', by rw [hl']; simp, List.Forall₂.cons hhead ?_⟩
            refine forall₂_imp_mem hf ?_
            intro r' r hr hm
            obtain ⟨g1, g2, g3, g4⟩ := hm
            refine ⟨g1, g2, g3, ?_⟩
            intro i
            rw [g4 i]
            by_cases hci : b'.node_low_pfn ≤ r.node_min_pfn + i ∧ r.node_min_pfn + i < end_ ∧
                i < r.node_low_pfn - r.node_min_pfn
            · rw [if_pos hci, if_pos ⟨by omega, hci.2⟩]
            · rw [if_neg hci, if_neg]
              intro hx
              apply hci
              refine ⟨?_, hx.2⟩
              by_contra hlt
              exact hnocommon r hr (r.node_min_pfn + i) (by omega) (by omega)
                ⟨by omega, by omega⟩

/-- Claim C30.  On a registry that is ordered by `node_min_pfn`, whose regions
share no frame and whose bitmaps cover their frames, a call
`mark_bootmem(start, end, reserve, flags)` with `start <= end` that returns 0
leaves every region with the bit of each of its frames in `[start, end)` set
(`reserve != 0`) or cleared (`reserve = 0`), and with every other bit and the
frame bounds as before. -/
theorem mark_bootmem_marks_every_region (sizeof_long : Nat) (hL : 0 < sizeof_long)
    (start end_ reserve flags : Nat) (l l' : List bootmem_data)
    (hse : start ≤ end_) (hsort : sorted_by_min_pfn l) (hdisj : pairwise_disjoint l)
    (hcov : ∀ b ∈ l, region_covered sizeof_long b)
    (h : mark_bootmem sizeof_long start end_ reserve flags l = Result.ok (0, l')) :
    List.Forall₂ (frame_marked sizeof_long start end_ (decide (reserve ≠ 0))) l' l := by
  obtain ⟨rest', hl', hf⟩ := walk_marks_of_ok sizeof_long hL _ start end_ reserve flags l
    start [] l' hse hsort hdisj hcov h
  rw [hl']
  exact hf

theorem mark_bootmem_marks_every_region_witness :
    mark_bootmem 8 60 70 0 0 [region_64_reserved, region_64_128_reserved] =
      Result.ok (0, [region_64_free_60_64, region_64_128_free_64_70]) ∧
    List.Forall₂ (frame_marked 8 60 70 (decide ((0 : Nat) ≠ 0)))
      [region_64_free_60_64, region_64_128_free_64_70]
      [region_64_reserved, region_64_128_reserved] :=
  ⟨by decide,
    mark_bootmem_marks_every_region 8 (by decide) 60 70 0 0
      [region_64_reserved, region_64_128_reserved]
      [region_64_free_60_64, region_64_128_free_64_70]
      (by decide) (by decide) (by decide) (by decide) (by decide)⟩

/-! ## Candidate order of the allocators -/

theorem set_getElem?_same {α : Type} (l : List α) :
    ∀ (n : Nat) (a : α), l[n]? = some a → l.set n a = l := by
  induction l with
  | nil => intro n a h; simp at h
  | cons x xs ih =>
    intro n a h
    cases n with
    | zero =>
      simp only [List.getElem?_cons_zero, Option.some.injEq] at h
      subst h
      rfl
    | succ n =>
      simp only [List.getElem?_cons_succ] at h
      simp only [List.set_cons_succ, ih n a h]

theorem alloc_bootmem_regions_passed_over (sizeof_long PAGE_SHIFT size align goal limit : Nat)
    (pre : List bootmem_data) :
    ∀ visited rest,
      (∀ c ∈ pre, passed_over sizeof_long PAGE_SHIFT size align goal limit c) →
      alloc_bootmem_regions sizeof_long PAGE_SHIFT size align goal limit visited (pre ++ rest) =
        alloc_bootmem_regions sizeof_long PAGE_SHIFT size align goal limit
          (visited ++ pre) rest := by
  induction pre with
  | nil => intro visited rest _; simp
  | cons c pre ih =>
    intro visited rest h
    have hc := h c (List.mem_cons_self _ _)
    have h' : ∀ d ∈ pre, passed_over sizeof_long PAGE_SHIFT size align goal limit d :=
      fun d hd => h d (List.mem_cons_of_mem _ hd)
    have hassoc : visited ++ c :: pre = (visited ++ [c]) ++ pre := by simp
    rw [List.cons_append, hassoc]
    by_cases hg : goal ≠ 0 ∧ c.node_low_pfn ≤ PFN_DOWN PAGE_SHIFT goal
    · simp only [alloc_bootmem_regions]
      rw [if_pos hg]
      exact ih _ _ h'
    · rcases hc with hbg | ⟨hbl, hnull⟩
      · exact absurd hbg hg
      · have hbl' : ¬ (limit ≠ 0 ∧ c.node_min_pfn ≥ PFN_DOWN PAGE_SHIFT limit) := hbl
        simp only [alloc_bootmem_regions]
        rw [if_neg hg, if_neg hbl', hnull]
        exact ih _ _ h'

theorem alloc_bootmem_pass_first (sizeof_long PAGE_SHIFT size align goal limit : Nat)
    (pre post : List bootmem_data) (b b' : bootmem_data) (addr : Nat)
    (h : first_placement sizeof_long PAGE_SHIFT size align goal limit pre b b' addr) :
    alloc_bootmem_pass sizeof_long PAGE_SHIFT size align goal limit (pre ++ b :: post) =
      some (Result.ok (some addr, pre ++ b' :: post)) := by
  obtain ⟨hpre, hbg, hbl, hcore⟩ := h
  rw [alloc_bootmem_pass_eq,
    alloc_bootmem_regions_passed_over sizeof_long PAGE_SHIFT size align goal limit pre []
      (b :: post) hpre]
  have hbg' : ¬ (goal ≠ 0 ∧ b.node_low_pfn ≤ PFN_DOWN PAGE_SHIFT goal) := hbg
  have hbl' : ¬ (limit ≠ 0 ∧ b.node_min_pfn ≥ PFN_DOWN PAGE_SHIFT limit) := hbl
  simp only [alloc_bootmem_regions, List.nil_append]
  rw [if_neg hbg', if_neg hbl', hcore]

theorem alloc_bootmem_pass_none (sizeof_long PAGE_SHIFT size align goal limit : Nat)
    (l : List bootmem_data)
    (h : no_placement sizeof_long PAGE_SHIFT size align goal limit l) :
    alloc_bootmem_pass sizeof_long PAGE_SHIFT size align goal limit l =
      some (Result.ok (none, l)) := by
  obtain ⟨pre, post, hl, hpre, hpost⟩ := h
  subst hl
  rw [alloc_bootmem_pass_eq,
    alloc_bootmem_regions_passed_over sizeof_long PAGE_SHIFT size align goal limit pre []
      post hpre]
  cases post with
  | nil => simp [alloc_bootmem_regions]
  | cons c r =>
    obtain ⟨h1, h2⟩ := hpost c rfl
    have h1' : ¬ (goal ≠ 0 ∧ c.node_low_pfn ≤ PFN_DOWN PAGE_SHIFT goal) := h1
    have h2' : limit ≠ 0 ∧ c.node_min_pfn ≥ PFN_DOWN PAGE_SHIFT limit := h2
    simp only [alloc_bootmem_regions, List.nil_append]
    rw [if_neg h1', if_pos h2']

theorem alloc_bootmem_nopanic_first (sizeof_long PAGE_SHIFT size align goal limit : Nat)
    (pre post : List bootmem_data) (b b' : bootmem_data) (addr g : Nat)
    (hg : g = goal ∨
      (goal ≠ 0 ∧ g = 0 ∧
        no_placement sizeof_long PAGE_SHIFT size align goal limit (pre ++ b :: post)))
    (hfirst : first_placement sizeof_long PAGE_SHIFT size align g limit pre b b' addr) :
    ___alloc_bootmem_nopanic sizeof_long PAGE_SHIFT size align goal limit (pre ++ b :: post) =
      some (Result.ok (some addr, pre ++ b' :: post)) := by
  have hp := alloc_bootmem_pass_first sizeof_long PAGE_SHIFT size align g limit pre post b b'
    addr hfirst
  unfold ___alloc_bootmem_nopanic
  rcases hg with hg | ⟨hgoal, hg0, hnone⟩
  · subst hg
    rw [hp]
  · subst hg0
    rw [alloc_bootmem_pass_none sizeof_long PAGE_SHIFT size align goal limit _ hnone]
    simp only
    rw [if_pos hgoal, hp]

/-- Claim C29 (counterexample).  On the registry of the region `[0, 64)` with the
frames `10 .. 19` free followed by the fully reserved region `[64, 128)`, a
request for one page with the goal in frame 70 is placed by
`___alloc_bootmem_nopanic` in the first region, although that region ends at
frame 64, at or below the frame of the goal; the only region above the goal
returns NULL. -/
theorem alloc_bootmem_nopanic_places_below_goal :
    ___alloc_bootmem_nopanic 8 12 4096 4096 (70 * 4096) 0
        [region_64_free_10_20, region_64_128_reserved] =
      some (Result.ok (some 40960, [region_64_free_11_20, region_64_128_reserved])) ∧
    ¬ (region_64_free_10_20.node_low_pfn > PFN_DOWN 12 (70 * 4096)) ∧
    region_64_128_reserved.node_low_pfn > PFN_DOWN 12 (70 * 4096) ∧
    alloc_bootmem_core 8 12 region_64_128_reserved 4096 4096 (70 * 4096) 0 =
      some (Result.ok (none, region_64_128_reserved)) := by
  decide

/-- Claim C29 (amended).  Let `b` be the first region in registry order in which
`alloc_bootmem_core` succeeds among the regions that are not below the goal and
come before any region beyond the limit, either for the goal of the call or,
when the goal is nonzero and no region takes the block with it, for `goal = 0`.
Then `___alloc_bootmem_nopanic` returns the placement in `b`.
`___alloc_bootmem_node` returns the placement in the preferred region whenever
`alloc_bootmem_core` succeeds there, whatever the other regions hold, and the
placement in `b` when the preferred region returns NULL. -/
theorem alloc_bootmem_candidate_order (sizeof_long PAGE_SHIFT size align goal limit : Nat)
    (pre post : List bootmem_data) (b b' : bootmem_data) (addr g : Nat)
    (hg : g = goal ∨
      (goal ≠ 0 ∧ g = 0 ∧
        no_placement sizeof_long PAGE_SHIFT size align goal limit (pre ++ b :: post)))
    (hfirst : first_placement sizeof_long PAGE_SHIFT size align g limit pre b b' addr) :
    ___alloc_bootmem_nopanic sizeof_long PAGE_SHIFT size align goal limit (pre ++ b :: post) =
      some (Result.ok (some addr, pre ++ b' :: post)) ∧
    ∀ node p, (pre ++ b :: post)[node]? = some p →
      (∀ ptr p', alloc_bootmem_core sizeof_long PAGE_SHIFT p size align goal limit =
          some (Result.ok (some ptr, p')) →
        ___alloc_bootmem_node sizeof_long PAGE_SHIFT (pre ++ b :: post) node size align goal
          limit = some (Result.ok (alloc_outcome.mem ptr ((pre ++ b :: post).set node p')))) ∧
      (alloc_bootmem_core sizeof_long PAGE_SHIFT p size align goal limit =
          some (Result.ok (none, p)) →
        ___alloc_bootmem_node sizeof_long PAGE_SHIFT (pre ++ b :: post) node size align goal
          limit = some (Result.ok (alloc_outcome.mem addr (pre ++ b' :: post)))) := by
  have hnp := alloc_bootmem_nopanic_first sizeof_long PAGE_SHIFT size align goal limit pre post
    b b' addr g hg hfirst
  refine ⟨hnp, ?_⟩
  intro node p hp
  constructor
  · intro ptr p' hcore
    unfold ___alloc_bootmem_node
    rw [hp]
    simp only [alloc_arch_preferred_bootmem, hcore]
  · intro hcore
    unfold ___alloc_bootmem_node
    rw [hp]
    simp only [alloc_arch_preferred_bootmem, hcore]
    rw [set_getElem?_same _ node p hp]
    unfold ___alloc_bootmem
    rw [hnp]

theorem alloc_bootmem_candidate_order_witness :
    ___alloc_bootmem_nopanic 8 12 4096 4096 (70 * 4096) 0
        ([] ++ region_64_free_10_20 :: [region_64_128_reserved]) =
      some (Result.ok (some 40960, [] ++ region_64_free_11_20 :: [region_64_128_reserved])) ∧
    ∀ node p, ([] ++ region_64_free_10_20 :: [region_64_128_reserved])[node]? = some p →
      (∀ ptr p', alloc_bootmem_core 8 12 p 4096 4096 (70 * 4096) 0 =
          some (Result.ok (some ptr, p')) →
        ___alloc_bootmem_node 8 12 ([] ++ region_64_free_10_20 :: [region_64_128_reserved])
          node 4096 4096 (70 * 4096) 0 =
          some (Result.ok (alloc_outcome.mem ptr
            (([] ++ region_64_free_10_20 :: [region_64_128_reserved]).set node p')))) ∧
      (alloc_bootmem_core 8 12 p 4096 4096 (70 * 4096) 0 = some (Result.ok (none, p)) →
        ___alloc_bootmem_node 8 12 ([] ++ region_64_free_10_20 :: [region_64_128_reserved])
          node 4096 4096 (70 * 4096) 0 =
          some (Result.ok (alloc_outcome.mem 40960
            ([] ++ region_64_free_11_20 :: [region_64_128_reserved])))) :=
  alloc_bootmem_candidate_order 8 12 4096 4096 (70 * 4096) 0 [] [region_64_128_reserved]
    region_64_free_10_20 region_64_free_11_20 40960 0
    (Or.inr ⟨by decide, rfl,
      [region_64_free_10_20, region_64_128_reserved], [], rfl, by decide,
      fun c hc => by cases hc⟩)
    (by decide)

/-! ## Failing inputs -/

/-- Claim C28 (failing input).  On the registry of the single region `[0, 64)`
with 4 KiB pages, the byte range of 100 bytes at offset 100 of the last frame
lies inside the region and holds no whole page.  `free_bootmem_node` returns on
it and leaves the region as it is, while `free_bootmem` ends in `BUG()`: the
rounded range starts at frame 64, which no region holds. -/
theorem free_bootmem_traps_at_region_end :
    63 * 4096 + 100 + 100 ≤ 64 * 4096 ∧
    PFN_UP 8 12 (63 * 4096 + 100) = 64 ∧ PFN_DOWN 12 (63 * 4096 + 100 + 100) = 63 ∧
    free_bootmem_node 8 12 region_64_reserved (63 * 4096 + 100) 100 =
      Result.ok (0, region_64_reserved) ∧
    free_bootmem 8 12 (63 * 4096 + 100) 100 [region_64_reserved] = Result.bug := by
  decide

/-- Claim C26 (failing input).  On a 64-bit machine the region `[0, 64)` with
every frame free is one aligned bitmap word whose frames all lie in the region,
and `free_all_bootmem_core` releases it by 64 calls of order 0, not by one call
of order `ilog2(BITS_PER_LONG) = 6`: the bulk branch asks for
`start + BITS_PER_LONG < end`, which fails for the last word of a region whose
length is a multiple of `BITS_PER_LONG`.  On the region `[0, 128)` the first word
is released in bulk and the second, last one page by page. -/
theorem free_all_bootmem_core_last_word_by_pages :
    ilog2 (BITS_PER_LONG 8) = 6 ∧
    region_64_all_free.node_min_pfn % BITS_PER_LONG 8 = 0 ∧
    region_64_all_free.node_low_pfn = region_64_all_free.node_min_pfn + BITS_PER_LONG 8 ∧
    free_all_bootmem_core 8 12 region_64_all_free =
      some (Result.ok ((List.range 64).map (fun pfn => free_pages_call.frame pfn 0) ++
        [free_pages_call.map_page 0], 65)) ∧
    free_all_bootmem_core 8 12 region_128_all_free =
      some (Result.ok (free_pages_call.frame 0 6 ::
        (List.range 64).map (fun i => free_pages_call.frame (64 + i) 0) ++
        [free_pages_call.map_page 0], 129)) := by
  set_option maxRecDepth 20000 in
  decide

/-! ## Release to the page allocator: words -/

theorem ilog2_loop_two_pow : ∀ n fuel, n ≤ fuel → ilog2_loop fuel (2 ^ n) = n := by
  intro n
  induction n with
  | zero =>
    intro fuel _
    cases fuel with
    | zero => rfl
    | succ f => simp [ilog2_loop]
  | succ n ih =>
    intro fuel h
    cases fuel with
    | zero => omega
    | succ f =>
      have h2 : 2 ^ (n + 1) ≥ 2 := by
        have := Nat.pow_pos (n := n) (show 0 < 2 by decide)
        rw [Nat.pow_succ]; omega
      have hdiv : 2 ^ (n + 1) / 2 = 2 ^ n := by
        rw [Nat.pow_succ]; exact Nat.mul_div_cancel _ (by decide)
      simp only [ilog2_loop]
      rw [if_pos h2, hdiv, ih f (by omega)]

theorem ilog2_two_pow (n : Nat) : ilog2 (2 ^ n) = n :=
  ilog2_loop_two_pow n (2 ^ n) (Nat.le_of_lt (Nat.lt_two_pow n))

theorem BITS_PER_LONG_two_pow (sizeof_long k : Nat) (hpow : sizeof_long = 2 ^ k) :
    BITS_PER_LONG sizeof_long = 2 ^ (k + 3) := by
  unfold BITS_PER_LONG
  rw [hpow, Nat.pow_add]
  omega

theorem region_frames_append (a b : List free_pages_call) :
    region_frames (a ++ b) = region_frames a ++ region_frames b := by
  induction a with
  | nil => rfl
  | cons c a ih =>
    cases c with
    | frame pfn order =>
      show List.range' pfn (2 ^ order) ++ region_frames (a ++ b) = _
      rw [ih]
      show _ = (List.range' pfn (2 ^ order) ++ region_frames a) ++ region_frames b
      rw [List.append_assoc]
    | map_page n =>
      show region_frames (a ++ b) = _
      rw [ih]
      rfl

theorem pages_released_append (a b : List free_pages_call) :
    pages_released (a ++ b) = pages_released a + pages_released b := by
  induction a with
  | nil => simp [pages_released]
  | cons c a ih =>
    cases c with
    | frame pfn order =>
      show 2 ^ order + pages_released (a ++ b) = (2 ^ order + pages_released a) + _
      rw [ih]; omega
    | map_page n =>
      show 1 + pages_released (a ++ b) = (1 + pages_released a) + _
      rw [ih]; omega

theorem region_frames_map_pages (n : Nat) :
    region_frames ((List.range n).map free_pages_call.map_page) = [] := by
  suffices h : ∀ l : List Nat, region_frames (l.map free_pages_call.map_page) = [] from h _
  intro l
  induction l with
  | nil => rfl
  | cons x l ih => simp only [List.map_cons, region_frames, ih]

theorem pages_released_map_pages (n : Nat) :
    pages_released ((List.range n).map free_pages_call.map_page) = n := by
  suffices h : ∀ l : List Nat,
      pages_released (l.map free_pages_call.map_page) = l.length by
    rw [h, List.length_range]
  intro l
  induction l with
  | nil => rfl
  | cons x l ih => simp only [List.map_cons, pages_released, ih, List.length_cons]; omega

theorem ulong_add_ulong (sizeof_long a b : Nat) :
    ulong sizeof_long (ulong sizeof_long a + b) = ulong sizeof_long (a + b) := by
  unfold ulong
  exact Nat.mod_add_mod _ _ _

theorem complement_testBit (sizeof_long w j : Nat) :
    (ULONG_MAX sizeof_long - ulong sizeof_long w).testBit j =
      (decide (j < BITS_PER_LONG sizeof_long) && !w.testBit j) := by
  have hlt : w % 2 ^ BITS_PER_LONG sizeof_long < 2 ^ BITS_PER_LONG sizeof_long :=
    Nat.mod_lt _ (two_pow_bits_pos sizeof_long)
  have e : ULONG_MAX sizeof_long - ulong sizeof_long w =
      2 ^ BITS_PER_LONG sizeof_long - (w % 2 ^ BITS_PER_LONG sizeof_long + 1) := by
    unfold ULONG_MAX ulong
    omega
  rw [e, Nat.testBit_two_pow_sub_succ hlt, Nat.testBit_mod_two_pow]
  cases decide (j < BITS_PER_LONG sizeof_long) <;> simp

theorem free_all_word_loop_spec (sizeof_long start vec0 : Nat) :
    ∀ n off count, count ≤ ULONG_MAX sizeof_long →
      start + off + n ≤ 2 ^ BITS_PER_LONG sizeof_long →
      region_frames (free_all_word_loop sizeof_long start n (vec0 >>> off) off count).1 =
        ((List.range' off n).filter (fun j => vec0.testBit j)).map (fun j => start + j) ∧
      pages_released (free_all_word_loop sizeof_long start n (vec0 >>> off) off count).1 =
        ((List.range' off n).filter (fun j => vec0.testBit j)).length ∧
      (free_all_word_loop sizeof_long start n (vec0 >>> off) off count).2 =
        ulong sizeof_long
          (count + ((List.range' off n).filter (fun j => vec0.testBit j)).length) := by
  intro n
  induction n with
  | zero =>
    intro off count hc _
    simp only [free_all_word_loop, List.range'_zero, List.filter_nil, List.map_nil,
      List.length_nil, Nat.add_zero, region_frames, pages_released]
    exact ⟨trivial, trivial, (ulong_of_le hc).symm⟩
  | succ n ih =>
    intro off count hc hnw
    by_cases hz : vec0 >>> off = 0
    · have hnil : (List.range' off (n + 1)).filter (fun j => vec0.testBit j) = [] := by
        rw [List.filter_eq_nil_iff]
        intro j hj
        rw [List.mem_range'_1] at hj
        have : vec0.testBit j = (vec0 >>> off).testBit (j - off) := by
          rw [Nat.testBit_shiftRight, Nat.add_sub_cancel' hj.1]
        rw [this, hz, Nat.zero_testBit]
        simp
      simp only [free_all_word_loop, hz, if_true, hnil, List.map_nil, List.length_nil,
        Nat.add_zero, region_frames, pages_released]
      exact ⟨trivial, trivial, (ulong_of_le hc).symm⟩
    · have hbit : (vec0 >>> off &&& 1 ≠ 0) ↔ vec0.testBit off = true := by
        have h0 : (vec0 >>> off).testBit 0 = vec0.testBit off := by
          rw [Nat.testBit_shiftRight, Nat.add_zero]
        rw [← h0, Nat.testBit_zero, Nat.and_one_is_mod]
        rcases Nat.mod_two_eq_zero_or_one (vec0 >>> off) with h | h
        · rw [h]; simp
        · rw [h]; simp
      have hshift : vec0 >>> off >>> 1 = vec0 >>> (off + 1) := (Nat.shiftRight_add _ _ _).symm
      have hnw' : start + (off + 1) + n ≤ 2 ^ BITS_PER_LONG sizeof_long := by omega
      have hstart : ulong sizeof_long (start + off) = start + off :=
        ulong_of_le (by unfold ULONG_MAX; omega)
      rw [List.range'_succ]
      by_cases hb : vec0.testBit off = true
      · have hb' : vec0 >>> off &&& 1 ≠ 0 := hbit.mpr hb
        obtain ⟨i1, i2, i3⟩ := ih (off + 1) (ulong sizeof_long (count + 1))
          (ulong_le_max _ _) hnw'
        rw [List.filter_cons_of_pos (by simpa using hb)]
        have hunf : free_all_word_loop sizeof_long start (n + 1) (vec0 >>> off) off count =
            ([free_pages_call.frame (ulong sizeof_long (start + off)) 0] ++
              (free_all_word_loop sizeof_long start n (vec0 >>> (off + 1)) (off + 1)
                (ulong sizeof_long (count + 1))).1,
             (free_all_word_loop sizeof_long start n (vec0 >>> (off + 1)) (off + 1)
                (ulong sizeof_long (count + 1))).2) := by
          simp only [free_all_word_loop, if_neg hz, hshift, if_pos hb']
        rw [hunf]
        refine ⟨?_, ?_, ?_⟩
        · show region_frames (_ ++ _) = _
          rw [region_frames_append, i1, hstart]
          simp [region_frames]
        · show pages_released (_ ++ _) = _
          rw [pages_released_append, i2]
          simp [pages_released]
          exact Nat.add_comm _ _
        · show (free_all_word_loop sizeof_long start n (vec0 >>> (off + 1)) (off + 1)
            (ulong sizeof_long (count + 1))).2 = _
          rw [i3, ulong_add_ulong, List.length_cons]
          congr 1
          exact (Nat.add_assoc _ _ _).trans (by rw [Nat.add_comm 1])
      · have hb' : ¬ (vec0 >>> off &&& 1 ≠ 0) := fun h => hb (hbit.mp h)
        obtain ⟨i1, i2, i3⟩ := ih (off + 1) count hc hnw'
        rw [List.filter_cons_of_neg (by simpa using hb)]
        have hunf : free_all_word_loop sizeof_long start (n + 1) (vec0 >>> off) off count =
            ([] ++ (free_all_word_loop sizeof_long start n (vec0 >>> (off + 1)) (off + 1)
                count).1,
             (free_all_word_loop sizeof_long start n (vec0 >>> (off + 1)) (off + 1)
                count).2) := by
          simp only [free_all_word_loop, if_neg hz, hshift, if_neg hb']
        rw [hunf]
        exact ⟨i1, i2, i3⟩

/-! ## Release to the page allocator: the bitmap walk -/

theorem test_bit_word (sizeof_long : Nat) (hL : 0 < sizeof_long) (m : Bitmap) (q j w : Nat)
    (hw : m[q]? = some w) (hj : j < BITS_PER_LONG sizeof_long) :
    test_bit sizeof_long (q * BITS_PER_LONG sizeof_long + j) (some m) =
      Result.ok (w.testBit j) := by
  have hB : 0 < BITS_PER_LONG sizeof_long := by unfold BITS_PER_LONG; omega
  have h1 : (q * BITS_PER_LONG sizeof_long + j) / BITS_PER_LONG sizeof_long = q := by
    rw [Nat.add_comm, Nat.add_mul_div_right _ _ hB, Nat.div_eq_of_lt hj, Nat.zero_add]
  have h2 : (q * BITS_PER_LONG sizeof_long + j) % BITS_PER_LONG sizeof_long = j := by
    rw [Nat.add_comm, Nat.add_mul_mod_self_right, Nat.mod_eq_of_lt hj]
  rw [test_bit_some, h1, h2, hw]

theorem word_vec_testBit (sizeof_long : Nat) (hL : 0 < sizeof_long) (m : Bitmap)
    (q j w : Nat) (hw : m[q]? = some w) (hj : j < BITS_PER_LONG sizeof_long) :
    (ULONG_MAX sizeof_long - ulong sizeof_long w).testBit j =
      decide (test_bit sizeof_long (q * BITS_PER_LONG sizeof_long + j) (some m) =
        Result.ok false) := by
  rw [complement_testBit, test_bit_word sizeof_long hL m q j w hw hj]
  cases w.testBit j <;> simp [hj]

theorem free_all_walk_step (sizeof_long aligned : Nat) (bdata : bootmem_data)
    (end_ fuel start count : Nat) (m : Bitmap) (w : Nat) (hlt : start < end_)
    (hmap : bdata.node_bootmem_map = some m)
    (hw : m[ulong_sub sizeof_long start bdata.node_min_pfn / BITS_PER_LONG sizeof_long]? =
      some w) :
    free_all_walk sizeof_long aligned bdata end_ (fuel + 1) start count =
      prepend_calls
        (if aligned ≠ 0 ∧
              ULONG_MAX sizeof_long - ulong sizeof_long w = ULONG_MAX sizeof_long ∧
              ulong sizeof_long (start + BITS_PER_LONG sizeof_long) < end_ then
            ([free_pages_call.frame start (ilog2 (BITS_PER_LONG sizeof_long))],
              ulong sizeof_long (count + BITS_PER_LONG sizeof_long))
          else free_all_word_loop sizeof_long start (BITS_PER_LONG sizeof_long)
            (ULONG_MAX sizeof_long - ulong sizeof_long w) 0 count).1
        (free_all_walk sizeof_long aligned bdata end_ fuel
          (ulong sizeof_long (start + BITS_PER_LONG sizeof_long))
          (if aligned ≠ 0 ∧
              ULONG_MAX sizeof_long - ulong sizeof_long w = ULONG_MAX sizeof_long ∧
              ulong sizeof_long (start + BITS_PER_LONG sizeof_long) < end_ then
            ([free_pages_call.frame start (ilog2 (BITS_PER_LONG sizeof_long))],
              ulong sizeof_long (count + BITS_PER_LONG sizeof_long))
          else free_all_word_loop sizeof_long start (BITS_PER_LONG sizeof_long)
            (ULONG_MAX sizeof_long - ulong sizeof_long w) 0 count).2) := by
  simp only [free_all_walk]
  rw [if_pos hlt]
  simp only [hmap, hw]
  generalize free_all_walk sizeof_long aligned bdata end_ fuel _ _ = x
  cases x with
  | none => rfl
  | some r =>
    cases r with
    | ok p => rfl
    | bug => rfl
    | fault => rfl

theorem free_all_walk_done (sizeof_long aligned : Nat) (bdata : bootmem_data)
    (end_ fuel start count : Nat) (hge : ¬ start < end_) :
    free_all_walk sizeof_long aligned bdata end_ (fuel + 1) start count =
      some (Result.ok ([], count)) := by
  simp only [free_all_walk]
  rw [if_neg hge]

theorem word_release_spec (sizeof_long k aligned end_ start count w : Nat)
    (hpow : sizeof_long = 2 ^ k)
    (hstart : start + BITS_PER_LONG sizeof_long ≤ 2 ^ BITS_PER_LONG sizeof_long)
    (hc : count ≤ ULONG_MAX sizeof_long) :
    region_frames
      (if aligned ≠ 0 ∧ ULONG_MAX sizeof_long - ulong sizeof_long w = ULONG_MAX sizeof_long ∧
          ulong sizeof_long (start + BITS_PER_LONG sizeof_long) < end_ then
        ([free_pages_call.frame start (ilog2 (BITS_PER_LONG sizeof_long))],
          ulong sizeof_long (count + BITS_PER_LONG sizeof_long))
      else free_all_word_loop sizeof_long start (BITS_PER_LONG sizeof_long)
        (ULONG_MAX sizeof_long - ulong sizeof_long w) 0 count).1 =
      ((List.range' 0 (BITS_PER_LONG sizeof_long)).filter
        (fun j => (ULONG_MAX sizeof_long - ulong sizeof_long w).testBit j)).map
        (fun j => start + j) ∧
    pages_released
      (if aligned ≠ 0 ∧ ULONG_MAX sizeof_long - ulong sizeof_long w = ULONG_MAX sizeof_long ∧
          ulong sizeof_long (start + BITS_PER_LONG sizeof_long) < end_ then
        ([free_pages_call.frame start (ilog2 (BITS_PER_LONG sizeof_long))],
          ulong sizeof_long (count + BITS_PER_LONG sizeof_long))
      else free_all_word_loop sizeof_long start (BITS_PER_LONG sizeof_long)
        (ULONG_MAX sizeof_long - ulong sizeof_long w) 0 count).1 =
      ((List.range' 0 (BITS_PER_LONG sizeof_long)).filter
        (fun j => (ULONG_MAX sizeof_long - ulong sizeof_long w).testBit j)).length ∧
    (if aligned ≠ 0 ∧ ULONG_MAX sizeof_long - ulong sizeof_long w = ULONG_MAX sizeof_long ∧
          ulong sizeof_long (start + BITS_PER_LONG sizeof_long) < end_ then
        ([free_pages_call.frame start (ilog2 (BITS_PER_LONG sizeof_long))],
          ulong sizeof_long (count + BITS_PER_LONG sizeof_long))
      else free_all_word_loop sizeof_long start (BITS_PER_LONG sizeof_long)
        (ULONG_MAX sizeof_long - ulong sizeof_long w) 0 count).2 =
      ulong sizeof_long (count +
        ((List.range' 0 (BITS_PER_LONG sizeof_long)).filter
          (fun j => (ULONG_MAX sizeof_long - ulong sizeof_long w).testBit j)).length) := by
  by_cases hb : aligned ≠ 0 ∧
      ULONG_MAX sizeof_long - ulong sizeof_long w = ULONG_MAX sizeof_long ∧
      ulong sizeof_long (start + BITS_PER_LONG sizeof_long) < end_
  · rw [if_pos hb]
    have hall : (List.range' 0 (BITS_PER_LONG sizeof_long)).filter
        (fun j => (ULONG_MAX sizeof_long - ulong sizeof_long w).testBit j) =
        List.range' 0 (BITS_PER_LONG sizeof_long) := by
      rw [List.filter_eq_self]
      intro j hj
      rw [List.mem_range'_1] at hj
      rw [hb.2.1]
      unfold ULONG_MAX
      rw [Nat.testBit_two_pow_sub_one]
      simp
      omega
    have hlog : 2 ^ ilog2 (BITS_PER_LONG sizeof_long) = BITS_PER_LONG sizeof_long := by
      rw [BITS_PER_LONG_two_pow sizeof_long k hpow, ilog2_two_pow]
    rw [hall, List.length_range']
    refine ⟨?_, ?_, rfl⟩
    · show List.range' start (2 ^ ilog2 (BITS_PER_LONG sizeof_long)) ++ [] = _
      rw [hlog, List.append_nil, List.map_add_range', Nat.add_zero]
    · show 2 ^ ilog2 (BITS_PER_LONG sizeof_long) + 0 = _
      rw [hlog, Nat.add_zero]
  · rw [if_neg hb]
    have h := free_all_word_loop_spec sizeof_long start
      (ULONG_MAX sizeof_long - ulong sizeof_long w) (BITS_PER_LONG sizeof_long) 0 count hc
      (by omega)
    rw [Nat.shiftRight_zero] at h
    exact h

theorem chunk_eq (sizeof_long : Nat) (hL : 0 < sizeof_long) (bdata : bootmem_data)
    (m : Bitmap) (q w : Nat) (hmap : bdata.node_bootmem_map = some m) (hw : m[q]? = some w)
    (hpad : padding_set sizeof_long bdata) :
    ((List.range' (q * BITS_PER_LONG sizeof_long)
        (min (BITS_PER_LONG sizeof_long)
          (bdata.node_low_pfn - bdata.node_min_pfn - q * BITS_PER_LONG sizeof_long))).filter
      (fun i => decide (test_bit sizeof_long i bdata.node_bootmem_map = Result.ok false))).map
      (fun i => bdata.node_min_pfn + i) =
    ((List.range' 0 (BITS_PER_LONG sizeof_long)).filter
      (fun j => (ULONG_MAX sizeof_long - ulong sizeof_long w).testBit j)).map
      (fun j => bdata.node_min_pfn + q * BITS_PER_LONG sizeof_long + j) := by
  have hB : 0 < BITS_PER_LONG sizeof_long := by unfold BITS_PER_LONG; omega
  have hqlen : q < m.length := by
    obtain ⟨h, _⟩ := List.getElem?_eq_some.mp hw
    exact h
  generalize hm' : min (BITS_PER_LONG sizeof_long)
    (bdata.node_low_pfn - bdata.node_min_pfn - q * BITS_PER_LONG sizeof_long) = m'
  have hm'B : m' ≤ BITS_PER_LONG sizeof_long := by rw [← hm']; exact Nat.min_le_left _ _
  have hvt : ∀ j, j < BITS_PER_LONG sizeof_long →
      (ULONG_MAX sizeof_long - ulong sizeof_long w).testBit j =
        decide (test_bit sizeof_long (q * BITS_PER_LONG sizeof_long + j)
          bdata.node_bootmem_map = Result.ok false) := by
    intro j hj
    rw [hmap]
    exact word_vec_testBit sizeof_long hL m q j w hw hj
  have hpadv : ∀ j, m' ≤ j → j < BITS_PER_LONG sizeof_long →
      (ULONG_MAX sizeof_long - ulong sizeof_long w).testBit j = false := by
    intro j h1 h2
    rw [hvt j h2]
    have hge : bdata.node_low_pfn - bdata.node_min_pfn ≤ q * BITS_PER_LONG sizeof_long + j := by
      rw [← hm'] at h1
      rcases Nat.le_total (BITS_PER_LONG sizeof_long)
        (bdata.node_low_pfn - bdata.node_min_pfn - q * BITS_PER_LONG sizeof_long) with h | h
      · rw [Nat.min_eq_left h] at h1; omega
      · rw [Nat.min_eq_right h] at h1; omega
    have hlt : q * BITS_PER_LONG sizeof_long + j <
        bitmap_bits sizeof_long bdata.node_bootmem_map := by
      rw [hmap]
      show _ < BITS_PER_LONG sizeof_long * m.length
      have := Nat.mul_le_mul_left (BITS_PER_LONG sizeof_long) (Nat.succ_le_of_lt hqlen)
      rw [Nat.mul_succ, Nat.mul_comm _ q] at this
      omega
    rw [hpad _ hge hlt]
    decide
  have hsplit : List.range' 0 (BITS_PER_LONG sizeof_long) =
      List.range' 0 m' ++ List.range' (0 + m') (BITS_PER_LONG sizeof_long - m') := by
    rw [List.range'_append_1, Nat.sub_add_cancel hm'B]
  have hrest : (List.range' (0 + m') (BITS_PER_LONG sizeof_long - m')).filter
      (fun j => (ULONG_MAX sizeof_long - ulong sizeof_long w).testBit j) = [] := by
    rw [List.filter_eq_nil_iff]
    intro j hj
    rw [List.mem_range'_1] at hj
    rw [hpadv j (by omega) (by omega)]
    simp
  have hshiftl : List.range' (q * BITS_PER_LONG sizeof_long) m' =
      (List.range' 0 m').map (fun j => q * BITS_PER_LONG sizeof_long + j) := by
    rw [List.map_add_range', Nat.add_zero]
  rw [hsplit, List.filter_append, hrest, List.append_nil, hshiftl, List.filter_map,
    List.map_map]
  have hcongr : (List.range' 0 m').filter
      ((fun i => decide (test_bit sizeof_long i bdata.node_bootmem_map = Result.ok false)) ∘
        (fun j => q * BITS_PER_LONG sizeof_long + j)) =
      (List.range' 0 m').filter
        (fun j => (ULONG_MAX sizeof_long - ulong sizeof_long w).testBit j) := by
    apply List.filter_congr
    intro j hj
    rw [List.mem_range'_1] at hj
    exact (hvt j (by omega)).symm
  rw [hcongr]
  apply List.map_congr_left
  intro j _
  show bdata.node_min_pfn + (q * BITS_PER_LONG sizeof_long + j) = _
  rw [Nat.add_assoc]

theorem spec_split (B pages q : Nat) (p : Nat → Bool) (hq : q * B < pages) :
    (List.range' (q * B) (pages - q * B)).filter p =
      (List.range' (q * B) (min B (pages - q * B))).filter p ++
        (List.range' ((q + 1) * B) (pages - (q + 1) * B)).filter p := by
  have hsucc : (q + 1) * B = q * B + B := Nat.succ_mul q B
  rcases Nat.le_total B (pages - q * B) with h | h
  · rw [Nat.min_eq_left h, hsucc, ← List.filter_append, List.range'_append_1]
    congr 2
    omega
  · rw [Nat.min_eq_right h]
    have h0 : pages - (q + 1) * B = 0 := by rw [hsucc]; omega
    rw [h0, List.range'_zero, List.filter_nil, List.append_nil]

theorem free_all_walk_spec (sizeof_long k aligned : Nat) (hpow : sizeof_long = 2 ^ k)
    (bdata : bootmem_data) (hcov : region_covered sizeof_long bdata)
    (hnw : bdata.node_low_pfn + BITS_PER_LONG sizeof_long ≤ 2 ^ BITS_PER_LONG sizeof_long)
    (hpad : padding_set sizeof_long bdata) :
    ∀ fuel q count,
      q * BITS_PER_LONG sizeof_long <
        (bdata.node_low_pfn - bdata.node_min_pfn) + BITS_PER_LONG sizeof_long →
      (bdata.node_low_pfn - bdata.node_min_pfn - q * BITS_PER_LONG sizeof_long) + 1 ≤ fuel →
      count ≤ ULONG_MAX sizeof_long →
      ∃ calls, free_all_walk sizeof_long aligned bdata bdata.node_low_pfn fuel
          (bdata.node_min_pfn + q * BITS_PER_LONG sizeof_long) count =
          some (Result.ok (calls, ulong sizeof_long (count +
            ((List.range' (q * BITS_PER_LONG sizeof_long)
              (bdata.node_low_pfn - bdata.node_min_pfn -
                q * BITS_PER_LONG sizeof_long)).filter
              (fun i => decide (test_bit sizeof_long i bdata.node_bootmem_map =
                Result.ok false))).length))) ∧
        region_frames calls =
          ((List.range' (q * BITS_PER_LONG sizeof_long)
            (bdata.node_low_pfn - bdata.node_min_pfn -
              q * BITS_PER_LONG sizeof_long)).filter
            (fun i => decide (test_bit sizeof_long i bdata.node_bootmem_map =
              Result.ok false))).map (fun i => bdata.node_min_pfn + i) ∧
        pages_released calls =
          ((List.range' (q * BITS_PER_LONG sizeof_long)
            (bdata.node_low_pfn - bdata.node_min_pfn -
              q * BITS_PER_LONG sizeof_long)).filter
            (fun i => decide (test_bit sizeof_long i bdata.node_bootmem_map =
              Result.ok false))).length := by
  have hL : 0 < sizeof_long := by rw [hpow]; exact Nat.pow_pos (by decide)
  have hB : 0 < BITS_PER_LONG sizeof_long := by unfold BITS_PER_LONG; omega
  obtain ⟨hminlow, hlowmax, hbits⟩ := hcov
  intro fuel
  induction fuel with
  | zero => intro q count _ h; omega
  | succ fuel ih =>
    intro q count hq hfuel hc
    by_cases hlt : q * BITS_PER_LONG sizeof_long < bdata.node_low_pfn - bdata.node_min_pfn
    · have hlt' : bdata.node_min_pfn + q * BITS_PER_LONG sizeof_long < bdata.node_low_pfn := by
        omega
      cases hmap : bdata.node_bootmem_map with
      | none =>
        rw [hmap] at hbits
        have : bitmap_bits sizeof_long none = 0 := rfl
        omega
      | some m =>
        rw [hmap] at hbits
        have hbm : bitmap_bits sizeof_long (some m) = BITS_PER_LONG sizeof_long * m.length := rfl
        have hqlen : q < m.length := by
          have h1 : q * BITS_PER_LONG sizeof_long < m.length * BITS_PER_LONG sizeof_long := by
            rw [Nat.mul_comm m.length]; omega
          exact Nat.lt_of_mul_lt_mul_right h1
        have hidx : ulong_sub sizeof_long (bdata.node_min_pfn + q * BITS_PER_LONG sizeof_long)
            bdata.node_min_pfn / BITS_PER_LONG sizeof_long = q := by
          rw [ulong_sub_eq (Nat.le_add_right _ _) (by omega), Nat.add_sub_cancel_left,
            Nat.mul_div_cancel _ hB]
        have hw : m[ulong_sub sizeof_long (bdata.node_min_pfn + q * BITS_PER_LONG sizeof_long)
            bdata.node_min_pfn / BITS_PER_LONG sizeof_long]? = some m[q] := by
          rw [hidx]; exact List.getElem?_eq_getElem hqlen
        have hw' : m[q]? = some m[q] := List.getElem?_eq_getElem hqlen
        have hnext : ulong sizeof_long
            (bdata.node_min_pfn + q * BITS_PER_LONG sizeof_long + BITS_PER_LONG sizeof_long) =
            bdata.node_min_pfn + (q + 1) * BITS_PER_LONG sizeof_long := by
          rw [ulong_of_le (by unfold ULONG_MAX; omega), Nat.succ_mul, Nat.add_assoc]
        obtain ⟨r, hr, r1, r2, r3⟩ : ∃ r,
            (if aligned ≠ 0 ∧
                ULONG_MAX sizeof_long - ulong sizeof_long m[q] = ULONG_MAX sizeof_long ∧
                ulong sizeof_long (bdata.node_min_pfn + q * BITS_PER_LONG sizeof_long +
                  BITS_PER_LONG sizeof_long) < bdata.node_low_pfn then
              ([free_pages_call.frame (bdata.node_min_pfn + q * BITS_PER_LONG sizeof_long)
                  (ilog2 (BITS_PER_LONG sizeof_long))],
                ulong sizeof_long (count + BITS_PER_LONG sizeof_long))
            else free_all_word_loop sizeof_long
              (bdata.node_min_pfn + q * BITS_PER_LONG sizeof_long) (BITS_PER_LONG sizeof_long)
              (ULONG_MAX sizeof_long - ulong sizeof_long m[q]) 0 count) = r ∧
            region_frames r.1 =
              ((List.range' 0 (BITS_PER_LONG sizeof_long)).filter
                (fun j => (ULONG_MAX sizeof_long - ulong sizeof_long m[q]).testBit j)).map
                (fun j => bdata.node_min_pfn + q * BITS_PER_LONG sizeof_long + j) ∧
            pages_released r.1 =
              ((List.range' 0 (BITS_PER_LONG sizeof_long)).filter
                (fun j => (ULONG_MAX sizeof_long - ulong sizeof_long m[q]).testBit j)).length ∧
            r.2 = ulong sizeof_long (count +
              ((List.range' 0 (BITS_PER_LONG sizeof_long)).filter
                (fun j => (ULONG_MAX sizeof_long - ulong sizeof_long m[q]).testBit j)).length) :=
          ⟨_, rfl, word_release_spec sizeof_long k aligned bdata.node_low_pfn
            (bdata.node_min_pfn + q * BITS_PER_LONG sizeof_long) count m[q] hpow (by omega) hc⟩
        have hchunk := chunk_eq sizeof_long hL bdata m q m[q] hmap hw' hpad
        rw [hmap] at hchunk
        have hlen := congrArg List.length hchunk
        rw [List.length_map, List.length_map] at hlen
        rw [free_all_walk_step sizeof_long aligned bdata bdata.node_low_pfn fuel _ count m m[q]
          hlt' hmap hw, hr, hnext]
        have hsucc : (q + 1) * BITS_PER_LONG sizeof_long =
            q * BITS_PER_LONG sizeof_long + BITS_PER_LONG sizeof_long := Nat.succ_mul _ _
        obtain ⟨calls, i1, i2, i3⟩ := ih (q + 1) r.2 (by omega) (by omega)
          (by rw [r3]; exact ulong_le_max _ _)
        rw [hmap] at i1 i2 i3
        rw [i1]
        refine ⟨r.1 ++ calls, ?_, ?_, ?_⟩
        · simp only [prepend_calls]
          rw [spec_split _ _ _ _ hlt, List.length_append, hlen, r3, ulong_add_ulong,
            Nat.add_assoc]
        · rw [region_frames_append, r1, i2, spec_split _ _ _ _ hlt, List.map_append, hchunk]
        · rw [pages_released_append, r2, i3, spec_split _ _ _ _ hlt, List.length_append, hlen]
    · have hge : ¬ (bdata.node_min_pfn + q * BITS_PER_LONG sizeof_long <
          bdata.node_low_pfn) := by omega
      have h0 : bdata.node_low_pfn - bdata.node_min_pfn - q * BITS_PER_LONG sizeof_long = 0 := by
        omega
      rw [free_all_walk_done _ _ _ _ _ _ _ hge, h0]
      refine ⟨[], ?_, rfl, rfl⟩
      simp only [List.range'_zero, List.filter_nil, List.length_nil, Nat.add_zero]
      rw [ulong_of_le hc]

/-! ## Release to the page allocator: `free_all_bootmem_core` -/

theorem free_indexes_eq (sizeof_long : Nat) (bdata : bootmem_data) :
    free_indexes sizeof_long bdata =
      (List.range' (0 * BITS_PER_LONG sizeof_long)
        (bdata.node_low_pfn - bdata.node_min_pfn - 0 * BITS_PER_LONG sizeof_long)).filter
        (fun i => decide (test_bit sizeof_long i bdata.node_bootmem_map = Result.ok false)) := by
  unfold free_indexes
  rw [List.range_eq_range', Nat.zero_mul, Nat.sub_zero]

theorem free_all_bootmem_core_none (sizeof_long PAGE_SHIFT : Nat) (bdata : bootmem_data)
    (h : bdata.node_bootmem_map = none) :
    free_all_bootmem_core sizeof_long PAGE_SHIFT bdata = some (Result.ok ([], 0)) := by
  unfold free_all_bootmem_core
  rw [if_pos h]

theorem free_all_bootmem_core_spec (sizeof_long k PAGE_SHIFT : Nat) (hpow : sizeof_long = 2 ^ k)
    (bdata : bootmem_data) (hcov : region_covered sizeof_long bdata)
    (hnw : bdata.node_low_pfn + BITS_PER_LONG sizeof_long ≤ 2 ^ BITS_PER_LONG sizeof_long)
    (hpad : padding_set sizeof_long bdata) (hmap : bdata.node_bootmem_map ≠ none) :
    ∃ calls, free_all_bootmem_core sizeof_long PAGE_SHIFT bdata =
        some (Result.ok
          (calls ++ (List.range (bootmem_bootmap_pages sizeof_long PAGE_SHIFT
              (bdata.node_low_pfn - bdata.node_min_pfn))).map free_pages_call.map_page,
            ulong sizeof_long (ulong sizeof_long (free_indexes sizeof_long bdata).length +
              bootmem_bootmap_pages sizeof_long PAGE_SHIFT
                (bdata.node_low_pfn - bdata.node_min_pfn)))) ∧
      region_frames calls =
        (free_indexes sizeof_long bdata).map (fun i => bdata.node_min_pfn + i) ∧
      pages_released calls = (free_indexes sizeof_long bdata).length := by
  obtain ⟨calls, h1, h2, h3⟩ := free_all_walk_spec sizeof_long k
    (if bdata.node_min_pfn &&& (BITS_PER_LONG sizeof_long - 1) = 0 then 1 else 0)
    hpow bdata hcov hnw hpad
    (bdata.node_low_pfn - bdata.node_min_pfn + 1) 0 0
    (by
      have : 0 < BITS_PER_LONG sizeof_long := by
        unfold BITS_PER_LONG; rw [hpow]
        have := Nat.pow_pos (n := k) (show 0 < 2 by decide)
        omega
      omega)
    (by omega) (Nat.zero_le _)
  rw [← free_indexes_eq] at h1 h2 h3
  simp only [Nat.zero_mul, Nat.add_zero, Nat.zero_add] at h1
  refine ⟨calls, ?_, h2, h3⟩
  unfold free_all_bootmem_core
  rw [if_neg hmap]
  simp only
  rw [h1]
  simp only
  rw [ulong_sub_eq hcov.1 hcov.2.1]

theorem free_indexes_mem (sizeof_long : Nat) (bdata : bootmem_data) (f : Nat) :
    f ∈ (free_indexes sizeof_long bdata).map (fun i => bdata.node_min_pfn + i) ↔
      bdata.node_min_pfn ≤ f ∧ f < bdata.node_low_pfn ∧
      test_bit sizeof_long (f - bdata.node_min_pfn) bdata.node_bootmem_map =
        Result.ok false := by
  unfold free_indexes
  rw [List.mem_map]
  constructor
  · rintro ⟨i, hi, rfl⟩
    rw [List.mem_filter, List.mem_range] at hi
    refine ⟨by omega, by omega, ?_⟩
    rw [Nat.add_sub_cancel_left]
    simpa using hi.2
  · rintro ⟨h1, h2, h3⟩
    refine ⟨f - bdata.node_min_pfn, ?_, by omega⟩
    rw [List.mem_filter, List.mem_range]
    exact ⟨by omega, by simpa using h3⟩

theorem free_indexes_nodup (sizeof_long : Nat) (bdata : bootmem_data) :
    ((free_indexes sizeof_long bdata).map (fun i => bdata.node_min_pfn + i)).Nodup := by
  unfold free_indexes
  apply List.Nodup.map
  · intro a b h
    exact Nat.add_left_cancel h
  · exact List.Nodup.filter _ (List.nodup_range _)

theorem low_add_bits_le (sizeof_long PAGE_SHIFT low : Nat) (hL : 0 < sizeof_long)
    (hPS0 : 0 < PAGE_SHIFT) (hlow : low * 2 ^ PAGE_SHIFT ≤ ULONG_MAX sizeof_long) :
    low + BITS_PER_LONG sizeof_long ≤ 2 ^ BITS_PER_LONG sizeof_long := by
  have hB : 0 < BITS_PER_LONG sizeof_long := by unfold BITS_PER_LONG; omega
  have h2 : 2 ≤ 2 ^ PAGE_SHIFT := by
    have := Nat.pow_le_pow_right (show 0 < 2 by decide) (Nat.succ_le_of_lt hPS0)
    simpa using this
  have h3 : low * 2 ≤ low * 2 ^ PAGE_SHIFT := Nat.mul_le_mul_left _ h2
  have h4 : BITS_PER_LONG sizeof_long - 1 < 2 ^ (BITS_PER_LONG sizeof_long - 1) :=
    Nat.lt_two_pow _
  have h5 : 2 ^ BITS_PER_LONG sizeof_long = 2 * 2 ^ (BITS_PER_LONG sizeof_long - 1) := by
    rw [← Nat.pow_succ']
    congr 1
    omega
  unfold ULONG_MAX at hlow
  omega

theorem bootmem_bootmap_pages_le (sizeof_long PAGE_SHIFT pages : Nat) :
    bootmem_bootmap_pages sizeof_long PAGE_SHIFT pages * 2 ^ PAGE_SHIFT ≤
      ULONG_MAX sizeof_long := by
  unfold bootmem_bootmap_pages PAGE_ALIGN ALIGN
  simp only
  rw [Nat.shiftRight_eq_div_pow]
  refine Nat.le_trans (Nat.div_mul_le_self _ _) ?_
  exact Nat.le_trans Nat.and_le_left (ulong_le_max _ _)

theorem free_all_bootmem_core_count (sizeof_long k PAGE_SHIFT : Nat)
    (hpow : sizeof_long = 2 ^ k) (hPS0 : 0 < PAGE_SHIFT) (bdata : bootmem_data)
    (hready : release_ready sizeof_long PAGE_SHIFT bdata) :
    ∃ calls, free_all_bootmem_core sizeof_long PAGE_SHIFT bdata =
        some (Result.ok (calls, release_count sizeof_long PAGE_SHIFT bdata)) ∧
      pages_released calls = release_count sizeof_long PAGE_SHIFT bdata ∧
      release_count sizeof_long PAGE_SHIFT bdata ≤ ULONG_MAX sizeof_long := by
  have hL : 0 < sizeof_long := by rw [hpow]; exact Nat.pow_pos (by decide)
  by_cases hmap : bdata.node_bootmem_map = none
  · refine ⟨[], ?_, ?_, ?_⟩
    · rw [free_all_bootmem_core_none _ _ _ hmap]
      unfold release_count
      rw [if_pos hmap]
    · unfold release_count
      rw [if_pos hmap]
      rfl
    · unfold release_count
      rw [if_pos hmap]
      exact Nat.zero_le _
  · rcases hready with h | ⟨hcov, hlow, hpad⟩
    · exact absurd h hmap
    · have hnw := low_add_bits_le sizeof_long PAGE_SHIFT bdata.node_low_pfn hL hPS0 hlow
      obtain ⟨calls, h1, h2, h3⟩ := free_all_bootmem_core_spec sizeof_long k PAGE_SHIFT hpow
        bdata hcov hnw hpad hmap
      have hlen : (free_indexes sizeof_long bdata).length ≤
          bdata.node_low_pfn - bdata.node_min_pfn := by
        unfold free_indexes
        exact Nat.le_trans (List.length_filter_le _ _) (by rw [List.length_range])
      have hbp := bootmem_bootmap_pages_le sizeof_long PAGE_SHIFT
        (bdata.node_low_pfn - bdata.node_min_pfn)
      have h2p : 2 ≤ 2 ^ PAGE_SHIFT := by
        have := Nat.pow_le_pow_right (show 0 < 2 by decide) (Nat.succ_le_of_lt hPS0)
        simpa using this
      have hsum : (free_indexes sizeof_long bdata).length +
          bootmem_bootmap_pages sizeof_long PAGE_SHIFT
            (bdata.node_low_pfn - bdata.node_min_pfn) ≤ ULONG_MAX sizeof_long := by
        have e1 : (free_indexes sizeof_long bdata).length * 2 ≤
            bdata.node_low_pfn * 2 ^ PAGE_SHIFT :=
          Nat.mul_le_mul (by omega) h2p
        have e2 : bootmem_bootmap_pages sizeof_long PAGE_SHIFT
            (bdata.node_low_pfn - bdata.node_min_pfn) * 2 ≤
            bootmem_bootmap_pages sizeof_long PAGE_SHIFT
              (bdata.node_low_pfn - bdata.node_min_pfn) * 2 ^ PAGE_SHIFT :=
          Nat.mul_le_mul_left _ h2p
        omega
      have hrc : release_count sizeof_long PAGE_SHIFT bdata =
          (free_indexes sizeof_long bdata).length +
            bootmem_bootmap_pages sizeof_long PAGE_SHIFT
              (bdata.node_low_pfn - bdata.node_min_pfn) := by
        unfold release_count
        rw [if_neg hmap]
      refine ⟨calls ++ (List.range (bootmem_bootmap_pages sizeof_long PAGE_SHIFT
        (bdata.node_low_pfn - bdata.node_min_pfn))).map free_pages_call.map_page, ?_, ?_, ?_⟩
      · rw [h1, ulong_of_le (show (free_indexes sizeof_long bdata).length ≤
          ULONG_MAX sizeof_long by omega), ulong_of_le hsum, hrc]
      · rw [pages_released_append, h3, pages_released_map_pages, hrc]
      · rw [hrc]; exact hsum

theorem free_all_bootmem_loop_spec (sizeof_long k PAGE_SHIFT : Nat)
    (hpow : sizeof_long = 2 ^ k) (hPS0 : 0 < PAGE_SHIFT) (l : List bootmem_data) :
    ∀ total, total ≤ ULONG_MAX sizeof_long →
      (∀ b ∈ l, release_ready sizeof_long PAGE_SHIFT b) →
      ∃ calls, free_all_bootmem_loop sizeof_long PAGE_SHIFT total l =
          some (Result.ok (calls, ulong sizeof_long
            (total + (l.map (release_count sizeof_long PAGE_SHIFT)).sum))) ∧
        pages_released calls = (l.map (release_count sizeof_long PAGE_SHIFT)).sum := by
  induction l with
  | nil =>
    intro total ht _
    refine ⟨[], ?_, rfl⟩
    simp only [free_all_bootmem_loop, List.map_nil, List.sum_nil, Nat.add_zero]
    rw [ulong_of_le ht]
  | cons b l ih =>
    intro total ht hready
    obtain ⟨calls, h1, h2, _⟩ := free_all_bootmem_core_count sizeof_long k PAGE_SHIFT hpow hPS0 b
      (hready b (List.mem_cons_self _ _))
    obtain ⟨more, i1, i2⟩ := ih (ulong sizeof_long
      (total + release_count sizeof_long PAGE_SHIFT b)) (ulong_le_max _ _)
      (fun c hc => hready c (List.mem_cons_of_mem _ hc))
    refine ⟨calls ++ more, ?_, ?_⟩
    · simp only [free_all_bootmem_loop, h1, i1, List.map_cons, List.sum_cons]
      rw [ulong_add_ulong, Nat.add_assoc]
    · rw [pages_released_append, h2, i2, List.map_cons, List.sum_cons]

theorem walk_frames_prepend (x y : Option (Result (List free_pages_call × Nat)))
    (r1 r2 : List free_pages_call) (hxy : walk_frames x = walk_frames y)
    (hr : region_frames r1 = region_frames r2) :
    walk_frames (prepend_calls r1 x) = walk_frames (prepend_calls r2 y) := by
  cases x with
  | none =>
    cases y with
    | none => rfl
    | some ry => cases ry with
      | ok p => cases hxy
      | bug => cases hxy
      | fault => cases hxy
  | some rx =>
    cases rx with
    | ok p =>
      cases y with
      | none => cases hxy
      | some ry => cases ry with
        | ok p2 =>
          obtain ⟨c1, n1⟩ := p
          obtain ⟨c2, n2⟩ := p2
          simp only [walk_frames, Option.some.injEq, Result.ok.injEq, Prod.mk.injEq] at hxy
          simp only [prepend_calls, walk_frames, region_frames_append, hxy.1, hxy.2, hr]
        | bug => cases hxy
        | fault => cases hxy
    | bug =>
      cases y with
      | none => cases hxy
      | some ry => cases ry with
        | ok p => cases hxy
        | bug => rfl
        | fault => cases hxy
    | fault =>
      cases y with
      | none => cases hxy
      | some ry => cases ry with
        | ok p => cases hxy
        | bug => cases hxy
        | fault => rfl

theorem free_all_walk_equiv (sizeof_long k aligned : Nat) (hpow : sizeof_long = 2 ^ k)
    (bdata : bootmem_data) (end_ : Nat)
    (hend : end_ + BITS_PER_LONG sizeof_long ≤ 2 ^ BITS_PER_LONG sizeof_long) :
    ∀ fuel start count, count ≤ ULONG_MAX sizeof_long →
      walk_frames (free_all_walk sizeof_long aligned bdata end_ fuel start count) =
        walk_frames (free_all_walk sizeof_long 0 bdata end_ fuel start count) := by
  intro fuel
  induction fuel with
  | zero => intro start count _; rfl
  | succ fuel ih =>
    intro start count hc
    by_cases hlt : start < end_
    · cases hmap : bdata.node_bootmem_map with
      | none =>
        simp only [free_all_walk, if_pos hlt, hmap]
      | some m =>
        cases hw : m[ulong_sub sizeof_long start bdata.node_min_pfn /
            BITS_PER_LONG sizeof_long]? with
        | none =>
          simp only [free_all_walk, if_pos hlt, hmap, hw]
        | some w =>
          rw [free_all_walk_step sizeof_long aligned bdata end_ fuel start count m w hlt hmap hw,
            free_all_walk_step sizeof_long 0 bdata end_ fuel start count m w hlt hmap hw]
          obtain ⟨a1, _, a3⟩ := word_release_spec sizeof_long k aligned end_ start count w hpow
            (by omega) hc
          obtain ⟨b1, _, b3⟩ := word_release_spec sizeof_long k 0 end_ start count w hpow
            (by omega) hc
          apply walk_frames_prepend
          · rw [a3, b3]
            exact ih _ _ (ulong_le_max _ _)
          · rw [a1, b1]
    · rw [free_all_walk_done _ _ _ _ _ _ _ hlt, free_all_walk_done _ _ _ _ _ _ _ hlt]

/-! ## Claims on `free_all_bootmem_core` -/

/-- Claim C24.  Release exactness.  For a region on a machine whose word size is
a power of two, with a bitmap that covers its frames, the padding bits set and
frame numbers that do not wrap in the walk, whatever the alignment of
`node_min_pfn`: `free_all_bootmem_core` returns, and the frames its bitmap walk
hands to `__free_pages_bootmem` (all `2 ^ order` frames of every call) are exactly
the frames `f` of `[node_min_pfn, node_low_pfn)` whose bit `f - node_min_pfn` is 0;
no frame is handed over twice and none at or beyond `node_low_pfn`. -/
theorem free_all_bootmem_core_release_exact (sizeof_long k PAGE_SHIFT : Nat)
    (hpow : sizeof_long = 2 ^ k) (bdata : bootmem_data)
    (hcov : region_covered sizeof_long bdata)
    (hnw : bdata.node_low_pfn + BITS_PER_LONG sizeof_long ≤ 2 ^ BITS_PER_LONG sizeof_long)
    (hpad : padding_set sizeof_long bdata) :
    ∃ calls count,
      free_all_bootmem_core sizeof_long PAGE_SHIFT bdata = some (Result.ok (calls, count)) ∧
      (∀ f, f ∈ region_frames calls ↔
        bdata.node_min_pfn ≤ f ∧ f < bdata.node_low_pfn ∧
        test_bit sizeof_long (f - bdata.node_min_pfn) bdata.node_bootmem_map =
          Result.ok false) ∧
      (region_frames calls).Nodup ∧
      ∀ f ∈ region_frames calls, f < bdata.node_low_pfn := by
  by_cases hmap : bdata.node_bootmem_map = none
  · refine ⟨[], 0, free_all_bootmem_core_none _ _ _ hmap, ?_, List.nodup_nil, ?_⟩
    · intro f
      constructor
      · intro h; cases h
      · rintro ⟨_, _, h⟩
        rw [hmap] at h
        cases h
    · intro f h; cases h
  · obtain ⟨calls, h1, h2, _⟩ := free_all_bootmem_core_spec sizeof_long k PAGE_SHIFT hpow bdata
      hcov hnw hpad hmap
    have hrf : region_frames (calls ++ (List.range (bootmem_bootmap_pages sizeof_long PAGE_SHIFT
        (bdata.node_low_pfn - bdata.node_min_pfn))).map free_pages_call.map_page) =
        (free_indexes sizeof_long bdata).map (fun i => bdata.node_min_pfn + i) := by
      rw [region_frames_append, region_frames_map_pages, List.append_nil, h2]
    refine ⟨_, _, h1, ?_, ?_, ?_⟩
    · intro f
      rw [hrf]
      exact free_indexes_mem sizeof_long bdata f
    · rw [hrf]
      exact free_indexes_nodup sizeof_long bdata
    · intro f hf
      rw [hrf] at hf
      exact ((free_indexes_mem sizeof_long bdata f).mp hf).2.1

theorem free_all_bootmem_core_release_exact_witness :
    padding_set 8 region_3_103 ∧
    ∃ calls count,
      free_all_bootmem_core 8 12 region_3_103 = some (Result.ok (calls, count)) ∧
      (∀ f, f ∈ region_frames calls ↔
        region_3_103.node_min_pfn ≤ f ∧ f < region_3_103.node_low_pfn ∧
        test_bit 8 (f - region_3_103.node_min_pfn) region_3_103.node_bootmem_map =
          Result.ok false) ∧
      (region_frames calls).Nodup ∧
      ∀ f ∈ region_frames calls, f < region_3_103.node_low_pfn :=
  ⟨by decide,
    free_all_bootmem_core_release_exact 8 3 12 rfl region_3_103 (by decide) (by decide)
      (by decide)⟩

/-- Claim C25.  Release equivalence.  On a machine whose word size is a power of
two, for every bitmap, every end frame that does not wrap when a word is added,
and every start frame and count: the bitmap walk of `free_all_bootmem_core` with
the bulk branch enabled (`aligned` nonzero, in particular 1) and the walk with the
bulk branch disabled (`aligned = 0`, every word walked bit by bit) have the same
outcome once every call is expanded to its `2 ^ order` frames: the same frames in
the same order and the same page count. -/
theorem free_all_walk_bulk_equivalent (sizeof_long k aligned : Nat)
    (hpow : sizeof_long = 2 ^ k) (bdata : bootmem_data) (end_ fuel start count : Nat)
    (hend : end_ + BITS_PER_LONG sizeof_long ≤ 2 ^ BITS_PER_LONG sizeof_long)
    (hc : count ≤ ULONG_MAX sizeof_long) :
    walk_frames (free_all_walk sizeof_long aligned bdata end_ fuel start count) =
      walk_frames (free_all_walk sizeof_long 0 bdata end_ fuel start count) :=
  free_all_walk_equiv sizeof_long k aligned hpow bdata end_ hend fuel start count hc

theorem free_all_walk_bulk_equivalent_witness :
    free_all_walk 8 1 region_128_all_free 128 129 0 0 =
      some (Result.ok (free_pages_call.frame 0 6 ::
        (List.range 64).map (fun i => free_pages_call.frame (64 + i) 0), 128)) ∧
    walk_frames (free_all_walk 8 1 region_128_all_free 128 129 0 0) =
      walk_frames (free_all_walk 8 0 region_128_all_free 128 129 0 0) :=
  ⟨by
    set_option maxRecDepth 20000 in
    decide,
    free_all_walk_bulk_equivalent 8 3 1 rfl region_128_all_free 128 129 0 0 (by decide)
      (by decide)⟩

/-- Claim C27.  Count of pages released.  On a machine whose word size is a power
of two and with `PAGE_SHIFT > 0`, for a registry whose regions either have no
bitmap or have a covering bitmap with the padding bits set and an addressable last
frame: on every region `free_all_bootmem_core` returns a count equal to the sum
of `2 ^ order` over its calls of `__free_pages_bootmem`, which is the number of
zero bits with index in `[0, node_low_pfn - node_min_pfn)` plus
`bootmem_bootmap_pages(node_low_pfn - node_min_pfn)`; on a region without bitmap
it returns 0 and makes no call; `free_all_bootmem_node` is the same call; and
`free_all_bootmem` returns the sum of the counts of all regions, in
`unsigned long` arithmetic, having made calls for exactly that many pages. -/
theorem free_all_bootmem_counts_released_pages (sizeof_long k PAGE_SHIFT : Nat)
    (hpow : sizeof_long = 2 ^ k) (hPS0 : 0 < PAGE_SHIFT) (bdata_list : List bootmem_data)
    (hready : ∀ b ∈ bdata_list, release_ready sizeof_long PAGE_SHIFT b) :
    (∀ b ∈ bdata_list, ∃ calls count,
      free_all_bootmem_core sizeof_long PAGE_SHIFT b = some (Result.ok (calls, count)) ∧
      free_all_bootmem_node sizeof_long PAGE_SHIFT b = some (Result.ok (calls, count)) ∧
      count = pages_released calls ∧
      (b.node_bootmem_map ≠ none →
        count = (free_indexes sizeof_long b).length +
          bootmem_bootmap_pages sizeof_long PAGE_SHIFT (b.node_low_pfn - b.node_min_pfn)) ∧
      (b.node_bootmem_map = none → count = 0 ∧ calls = []) ∧
      count = release_count sizeof_long PAGE_SHIFT b) ∧
    ∃ calls total,
      free_all_bootmem sizeof_long PAGE_SHIFT bdata_list = some (Result.ok (calls, total)) ∧
      total = ulong sizeof_long
        ((bdata_list.map (release_count sizeof_long PAGE_SHIFT)).sum) ∧
      pages_released calls = (bdata_list.map (release_count sizeof_long PAGE_SHIFT)).sum := by
  constructor
  · intro b hb
    by_cases hmap : b.node_bootmem_map = none
    · have hrc : release_count sizeof_long PAGE_SHIFT b = 0 := by
        unfold release_count; rw [if_pos hmap]
      exact ⟨[], 0, free_all_bootmem_core_none _ _ _ hmap,
        free_all_bootmem_core_none _ _ _ hmap, rfl, fun h => absurd hmap h,
        fun _ => ⟨rfl, rfl⟩, hrc.symm⟩
    · obtain ⟨calls, h1, h2, _⟩ := free_all_bootmem_core_count sizeof_long k PAGE_SHIFT hpow
        hPS0 b (hready b hb)
      refine ⟨calls, _, h1, h1, h2.symm, fun _ => ?_, fun h => absurd h hmap, rfl⟩
      unfold release_count
      rw [if_neg hmap]
  · obtain ⟨calls, h1, h2⟩ := free_all_bootmem_loop_spec sizeof_long k PAGE_SHIFT hpow hPS0
      bdata_list 0 (Nat.zero_le _) hready
    rw [Nat.zero_add] at h1
    exact ⟨calls, _, h1, rfl, h2⟩

theorem free_all_bootmem_counts_released_pages_witness :
    free_all_bootmem 8 12 [region_3_67_used, unregistered] =
      some (Result.ok ((List.range 9).map (fun i => free_pages_call.frame (14 + i) 0) ++
        [free_pages_call.map_page 0], 10)) ∧
    ((∀ b ∈ [region_3_67_used, unregistered], ∃ calls count,
      free_all_bootmem_core 8 12 b = some (Result.ok (calls, count)) ∧
      free_all_bootmem_node 8 12 b = some (Result.ok (calls, count)) ∧
      count = pages_released calls ∧
      (b.node_bootmem_map ≠ none →
        count = (free_indexes 8 b).length +
          bootmem_bootmap_pages 8 12 (b.node_low_pfn - b.node_min_pfn)) ∧
      (b.node_bootmem_map = none → count = 0 ∧ calls = []) ∧
      count = release_count 8 12 b) ∧
    ∃ calls total,
      free_all_bootmem 8 12 [region_3_67_used, unregistered] =
        some (Result.ok (calls, total)) ∧
      total = ulong 8 (([region_3_67_used, unregistered].map (release_count 8 12)).sum) ∧
      pages_released calls =
        ([region_3_67_used, unregistered].map (release_count 8 12)).sum) :=
  ⟨by
    set_option maxRecDepth 20000 in
    decide,
    free_all_bootmem_counts_released_pages 8 3 12 rfl (by decide)
      [region_3_67_used, unregistered] (by decide)⟩

/-! ## The search of `alloc_bootmem_core` finds the first fit -/

theorem align_idx_le_of_fits (sizeof_long : Nat) (bdata : bootmem_data) (k idx s : Nat)
    (hk : k ≤ BITS_PER_LONG sizeof_long)
    (hnw : bdata.node_min_pfn + idx + 2 ^ k ≤ 2 ^ BITS_PER_LONG sizeof_long)
    (hs : 2 ^ k ∣ bdata.node_min_pfn + s) (hle : idx ≤ s) :
    align_idx sizeof_long bdata idx (2 ^ k) ≤ s := by
  obtain ⟨_, h2, h3⟩ := align_idx_bounds sizeof_long bdata idx k hk hnw
  have := le_of_dvd_of_lt_add h3 hs (by omega)
  omega

theorem align_idx_of_aligned (sizeof_long : Nat) (bdata : bootmem_data) (k idx : Nat)
    (hk : k ≤ BITS_PER_LONG sizeof_long)
    (hnw : bdata.node_min_pfn + idx + 2 ^ k ≤ 2 ^ BITS_PER_LONG sizeof_long)
    (hs : 2 ^ k ∣ bdata.node_min_pfn + idx) :
    align_idx sizeof_long bdata idx (2 ^ k) = idx := by
  obtain ⟨h1, _, _⟩ := align_idx_bounds sizeof_long bdata idx k hk hnw
  have := align_idx_le_of_fits sizeof_long bdata k idx idx hk hnw hs (Nat.le_refl _)
  omega

theorem find_block_spec (sizeof_long PAGE_SHIFT : Nat) (bdata : bootmem_data)
    (midx k size : Nat) (hk : k ≤ BITS_PER_LONG sizeof_long)
    (hin : ∀ i, i < midx →
      ∃ c, test_bit sizeof_long i bdata.node_bootmem_map = Result.ok c)
    (hnw : bdata.node_min_pfn + midx + 2 ^ k ≤ 2 ^ BITS_PER_LONG sizeof_long)
    (hP1 : 1 ≤ PFN_UP sizeof_long PAGE_SHIFT size)
    (hPw : midx + PFN_UP sizeof_long PAGE_SHIFT size < 2 ^ BITS_PER_LONG sizeof_long) :
    ∀ fuel x fallback,
      (midx - min x midx) + 1 + (if fallback ≠ 0 then midx + 1 else 0) ≤ fuel →
      ∃ r, find_block sizeof_long PAGE_SHIFT bdata midx (2 ^ k) size fuel x fallback =
          some (Result.ok r) ∧
        (r = none →
          (∀ s, fits sizeof_long bdata midx (2 ^ k) (PFN_UP sizeof_long PAGE_SHIFT size) s →
            ¬ x ≤ s) ∧
          (fallback ≠ 0 →
            ∀ s, fits sizeof_long bdata midx (2 ^ k) (PFN_UP sizeof_long PAGE_SHIFT size) s →
              ¬ align_idx sizeof_long bdata (fallback - 1) (2 ^ k) ≤ s)) ∧
        ∀ s, r = some s →
          fits sizeof_long bdata midx (2 ^ k) (PFN_UP sizeof_long PAGE_SHIFT size) s ∧
          ((x ≤ s ∧
            ∀ t, fits sizeof_long bdata midx (2 ^ k) (PFN_UP sizeof_long PAGE_SHIFT size) t →
              x ≤ t → s ≤ t) ∨
           (fallback ≠ 0 ∧
            (∀ t, fits sizeof_long bdata midx (2 ^ k) (PFN_UP sizeof_long PAGE_SHIFT size) t →
              ¬ x ≤ t) ∧
            align_idx sizeof_long bdata (fallback - 1) (2 ^ k) ≤ s ∧
            ∀ t, fits sizeof_long bdata midx (2 ^ k) (PFN_UP sizeof_long PAGE_SHIFT size) t →
              align_idx sizeof_long bdata (fallback - 1) (2 ^ k) ≤ t → s ≤ t)) := by
  have hkpos : 0 < 2 ^ k := Nat.pow_pos (by decide)
  generalize hPdef : PFN_UP sizeof_long PAGE_SHIFT size = P at hP1 hPw
  intro fuel
  induction fuel with
  | zero => intro x fallback h; omega
  | succ fuel ih =>
    intro x fallback hm
    obtain ⟨found, hfz, hle, hge, hfset, hclr⟩ :=
      find_next_zero_bit_spec sizeof_long bdata.node_bootmem_map midx x hin
    obtain ⟨hs1, hs2, hs3⟩ := align_idx_bounds sizeof_long bdata found k hk (by omega)
    -- every fit at or after `x` lies at or after the aligned index
    have hK1 : ∀ t, fits sizeof_long bdata midx (2 ^ k) P t → x ≤ t →
        align_idx sizeof_long bdata found (2 ^ k) ≤ t := by
      intro t ht hxt
      obtain ⟨ht1, ht2, ht3⟩ := ht
      have htclr := ht3 t (Nat.le_refl _) (by omega)
      have hft : found ≤ t := by
        by_contra hlt
        have := hfset t hxt (by omega)
        rw [this] at htclr
        cases htclr
      exact align_idx_le_of_fits sizeof_long bdata k found t hk (by omega) ht1 hft
    simp only [find_block, hfz, hPdef]
    by_cases hbrk : align_idx sizeof_long bdata found (2 ^ k) ≥ midx ∨
        ulong sizeof_long (align_idx sizeof_long bdata found (2 ^ k) + P) > midx
    · rw [if_pos hbrk]
      have hnofit : ∀ t, fits sizeof_long bdata midx (2 ^ k) P t → ¬ x ≤ t := by
        intro t ht hxt
        have h1 := hK1 t ht hxt
        have h2 := ht.2.1
        rcases hbrk with h | h
        · omega
        · by_cases hlt : align_idx sizeof_long bdata found (2 ^ k) < midx
          · rw [ulong_of_le (by unfold ULONG_MAX; omega)] at h
            omega
          · omega
      by_cases hfb : fallback ≠ 0
      · rw [if_pos hfb]
        obtain ⟨r, hr, hnone, hsome⟩ := ih
          (align_idx sizeof_long bdata (fallback - 1) (2 ^ k)) 0 (by
            rw [if_pos hfb] at hm
            simp only [ne_eq, not_true_eq_false, if_false]
            omega)
        refine ⟨r, hr, ?_, ?_⟩
        · intro hn
          exact ⟨hnofit, fun _ => (hnone hn).1⟩
        · intro s hs
          obtain ⟨hf, hcase⟩ := hsome s hs
          refine ⟨hf, Or.inr ⟨hfb, hnofit, ?_⟩⟩
          rcases hcase with ⟨h1, h2⟩ | ⟨h0, _⟩
          · exact ⟨h1, h2⟩
          · exact absurd rfl h0
      · rw [if_neg hfb]
        refine ⟨none, rfl, fun _ => ⟨hnofit, fun h => absurd h hfb⟩, fun s hs => by cases hs⟩
    · rw [if_neg hbrk]
      have hlt : align_idx sizeof_long bdata found (2 ^ k) < midx := by omega
      have hee : ulong sizeof_long (align_idx sizeof_long bdata found (2 ^ k) + P) =
          align_idx sizeof_long bdata found (2 ^ k) + P :=
        ulong_of_le (by unfold ULONG_MAX; omega)
      rw [hee] at hbrk ⊢
      have hele : align_idx sizeof_long bdata found (2 ^ k) + P ≤ midx := by omega
      have hxf : x ≤ found := by
        apply hge
        by_contra hc
        have : found = midx := by
          unfold find_next_zero_bit at hfz
          rw [show midx - x = 0 by omega] at hfz
          simp only [find_next_zero_bit_loop, Result.ok.injEq] at hfz
          exact hfz.symm
        omega
      rcases first_set_bit_spec sizeof_long bdata.node_bootmem_map
          (align_idx sizeof_long bdata found (2 ^ k) + P -
            align_idx sizeof_long bdata found (2 ^ k))
          (align_idx sizeof_long bdata found (2 ^ k))
          (fun i h1 h2 => hin i (by omega)) with ⟨hnone, hall⟩ | ⟨j, hsome, hj1, hj2, hjset⟩
      · rw [hnone]
        refine ⟨some (align_idx sizeof_long bdata found (2 ^ k)), rfl,
          (fun h => by cases h), ?_⟩
        intro s hs
        simp only [Option.some.injEq] at hs
        subst hs
        exact ⟨⟨hs3, hele, fun i h1 h2 => hall i h1 (by omega)⟩,
          Or.inl ⟨by omega, hK1⟩⟩
      · rw [hsome]
        simp only
        have hjm : j < midx := by omega
        obtain ⟨ha1, ha2, ha3⟩ := align_idx_bounds sizeof_long bdata j k hk (by omega)
        have hnext : ∃ next, (if align_idx sizeof_long bdata j (2 ^ k) = j then
            ulong sizeof_long (align_idx sizeof_long bdata j (2 ^ k) + 2 ^ k)
            else align_idx sizeof_long bdata j (2 ^ k)) = next ∧ j < next ∧
            ∀ t, 2 ^ k ∣ bdata.node_min_pfn + t → j < t → next ≤ t := by
          by_cases he : align_idx sizeof_long bdata j (2 ^ k) = j
          · rw [if_pos he, he, ulong_of_le (by unfold ULONG_MAX; omega)]
            refine ⟨_, rfl, by omega, ?_⟩
            intro t ht hjt
            rw [he] at ha3
            have := add_le_of_dvd_of_lt ha3 ht (by omega)
            omega
          · rw [if_neg he]
            refine ⟨_, rfl, by omega, ?_⟩
            intro t ht hjt
            exact align_idx_le_of_fits sizeof_long bdata k j t hk (by omega) ht (by omega)
        obtain ⟨next, hnx, hjn, hnleast⟩ := hnext
        rw [hnx]
        -- fits at or after `x` are exactly the fits at or after `next`
        have hT : ∀ t, fits sizeof_long bdata midx (2 ^ k) P t → (x ≤ t ↔ next ≤ t) := by
          intro t ht
          constructor
          · intro hxt
            have h1 := hK1 t ht hxt
            have hjt : j < t := by
              by_contra hle'
              have := ht.2.2 j (by omega) (by omega)
              rw [this] at hjset
              cases hjset
            exact hnleast t ht.1 hjt
          · intro hnt
            omega
        obtain ⟨r, hr, hnone, hsome'⟩ := ih next fallback (by
          have : midx - min next midx < midx - min x midx := by
            rcases Nat.le_total next midx with h | h
            · rw [Nat.min_eq_left h, Nat.min_eq_left (by omega)]; omega
            · rw [Nat.min_eq_right h, Nat.min_eq_left (by omega)]; omega
          omega)
        refine ⟨r, hr, ?_, ?_⟩
        · intro hn
          obtain ⟨h1, h2⟩ := hnone hn
          exact ⟨fun t ht hxt => h1 t ht ((hT t ht).mp hxt), h2⟩
        · intro s hs
          obtain ⟨hf, hcase⟩ := hsome' s hs
          refine ⟨hf, ?_⟩
          rcases hcase with ⟨h1, h2⟩ | ⟨h0, h1, h2, h3⟩
          · exact Or.inl ⟨(hT s hf).mpr h1, fun t ht hxt => h2 t ht ((hT t ht).mp hxt)⟩
          · exact Or.inr ⟨h0, fun t ht hxt => h1 t ht ((hT t ht).mp hxt), h2, h3⟩

/-! ## `alloc_bootmem_core` returns NULL exactly when nothing fits -/

theorem alloc_bootmem_core_search (sizeof_long PAGE_SHIFT : Nat) (bdata : bootmem_data)
    (size a goal limit : Nat) (hsz : 0 < size) (ha : a < BITS_PER_LONG sizeof_long)
    (hlim : limit = 0 ∨ goal + size ≤ limit) (hmap : bdata.node_bootmem_map ≠ none)
    (hwin : bdata.node_min_pfn < window_end PAGE_SHIFT bdata limit) (r : Option Nat) :
    find_block sizeof_long PAGE_SHIFT bdata
        (ulong_sub sizeof_long (window_end PAGE_SHIFT bdata limit) bdata.node_min_pfn)
        (Nat.max (2 ^ a >>> PAGE_SHIFT) 1) size
        (2 * ulong_sub sizeof_long (window_end PAGE_SHIFT bdata limit) bdata.node_min_pfn + 2)
        (if bdata.hint_idx > window_start sizeof_long PAGE_SHIFT bdata
              (Nat.max (2 ^ a >>> PAGE_SHIFT) 1) goal limit then
            align_idx sizeof_long bdata bdata.hint_idx (Nat.max (2 ^ a >>> PAGE_SHIFT) 1)
          else window_start sizeof_long PAGE_SHIFT bdata
            (Nat.max (2 ^ a >>> PAGE_SHIFT) 1) goal limit)
        (if bdata.hint_idx > window_start sizeof_long PAGE_SHIFT bdata
              (Nat.max (2 ^ a >>> PAGE_SHIFT) 1) goal limit then
            ulong sizeof_long (window_start sizeof_long PAGE_SHIFT bdata
              (Nat.max (2 ^ a >>> PAGE_SHIFT) 1) goal limit + 1)
          else 0) = some (Result.ok r) →
    (r = none → alloc_bootmem_core sizeof_long PAGE_SHIFT bdata size (2 ^ a) goal limit =
      some (Result.ok (none, bdata))) ∧
    (∀ s, r = some s →
      alloc_bootmem_core sizeof_long PAGE_SHIFT bdata size (2 ^ a) goal limit =
        some (alloc_commit sizeof_long PAGE_SHIFT bdata size (2 ^ a) s)) := by
  intro h
  have hunf : alloc_bootmem_core sizeof_long PAGE_SHIFT bdata size (2 ^ a) goal limit =
      match r with
      | none => some (Result.ok (none, bdata))
      | some s => some (alloc_commit sizeof_long PAGE_SHIFT bdata size (2 ^ a) s) := by
    unfold alloc_bootmem_core
    rw [if_neg (by omega), if_neg (pow_two_check sizeof_long a ha),
      if_neg (limit_check sizeof_long size goal limit hlim), if_neg hmap]
    simp only [window_start, window_end] at h hwin
    dsimp only
    rw [if_neg (by omega), h]
    cases r <;> rfl
  constructor
  · intro hr; subst hr; exact hunf
  · intro s hr; subst hr; exact hunf

theorem window_start_facts (sizeof_long PAGE_SHIFT : Nat) (bdata : bootmem_data)
    (k goal limit : Nat) (hk : k ≤ BITS_PER_LONG sizeof_long)
    (hlowk : bdata.node_low_pfn + 2 ^ k ≤ 2 ^ BITS_PER_LONG sizeof_long)
    (hwin : bdata.node_min_pfn < window_end PAGE_SHIFT bdata limit) :
    2 ^ k ∣ bdata.node_min_pfn + window_start sizeof_long PAGE_SHIFT bdata (2 ^ k) goal limit ∧
    bdata.node_min_pfn + window_start sizeof_long PAGE_SHIFT bdata (2 ^ k) goal limit + 2 ^ k ≤
      2 ^ BITS_PER_LONG sizeof_long ∧
    window_end PAGE_SHIFT bdata limit ≤ bdata.node_low_pfn := by
  have hkpos : 0 < 2 ^ k := Nat.pow_pos (by decide)
  have hwe : window_end PAGE_SHIFT bdata limit ≤ bdata.node_low_pfn := by
    unfold window_end; split <;> omega
  have hbase : ∀ base, bdata.node_min_pfn ≤ base → base < bdata.node_low_pfn →
      2 ^ k ∣ bdata.node_min_pfn +
        ulong_sub sizeof_long (ALIGN sizeof_long base (2 ^ k)) bdata.node_min_pfn ∧
      bdata.node_min_pfn +
        ulong_sub sizeof_long (ALIGN sizeof_long base (2 ^ k)) bdata.node_min_pfn + 2 ^ k ≤
        2 ^ BITS_PER_LONG sizeof_long := by
    intro base h1 h2
    obtain ⟨b1, b2⟩ := ALIGN_bounds sizeof_long base k hk (by omega)
    have hd := ALIGN_dvd sizeof_long base k hk
    have hlt : ALIGN sizeof_long base (2 ^ k) < 2 ^ BITS_PER_LONG sizeof_long := by omega
    have hadd := add_le_of_dvd_of_lt hd (pow_dvd_pow 2 hk) hlt
    rw [ulong_sub_eq (by omega) (by unfold ULONG_MAX; omega), Nat.add_sub_cancel' (by omega)]
    exact ⟨hd, hadd⟩
  unfold window_start
  refine ⟨?_, ?_, hwe⟩
  · split
    · rename_i hg
      exact (hbase _ (by omega) (by omega)).1
    · exact (hbase _ (Nat.le_refl _) (by omega)).1
  · split
    · rename_i hg
      exact (hbase _ (by omega) (by omega)).2
    · exact (hbase _ (Nat.le_refl _) (by omega)).2

theorem pfn_up_pos (sizeof_long PAGE_SHIFT size : Nat)
    (hPSW : PAGE_SHIFT < BITS_PER_LONG sizeof_long) (hsz : 0 < size)
    (hsize : size + (2 ^ PAGE_SHIFT - 1) ≤ ULONG_MAX sizeof_long) :
    1 ≤ PFN_UP sizeof_long PAGE_SHIFT size ∧
    PFN_UP sizeof_long PAGE_SHIFT size * 2 ^ PAGE_SHIFT ≤ ULONG_MAX sizeof_long := by
  have hBpos : 0 < 2 ^ PAGE_SHIFT := Nat.pow_pos (by decide)
  rw [PFN_UP_eq _ _ _ hPSW, Nat.mod_eq_of_lt (by unfold ULONG_MAX at hsize; omega)]
  constructor
  · rw [Nat.le_div_iff_mul_le hBpos]; omega
  · exact Nat.le_trans (Nat.div_mul_le_self _ _) hsize

theorem alloc_bootmem_core_fit (sizeof_long PAGE_SHIFT : Nat) (hL : 0 < sizeof_long)
    (bdata : bootmem_data) (size a goal limit : Nat)
    (hPS0 : 0 < PAGE_SHIFT) (hPSW : PAGE_SHIFT < BITS_PER_LONG sizeof_long)
    (hsz : 0 < size) (hsize : size + (2 ^ PAGE_SHIFT - 1) ≤ ULONG_MAX sizeof_long)
    (ha : a < BITS_PER_LONG sizeof_long) (hlim : limit = 0 ∨ goal + size ≤ limit)
    (hreg : region_addressable sizeof_long PAGE_SHIFT bdata)
    (hhint : bdata.node_min_pfn + bdata.hint_idx + 2 ^ (a - PAGE_SHIFT) ≤
      2 ^ BITS_PER_LONG sizeof_long) :
    (alloc_bootmem_core sizeof_long PAGE_SHIFT bdata size (2 ^ a) goal limit =
        some (Result.ok (none, bdata)) ∧
      ∀ s, fits sizeof_long bdata (window_end PAGE_SHIFT bdata limit - bdata.node_min_pfn)
          (2 ^ (a - PAGE_SHIFT)) (PFN_UP sizeof_long PAGE_SHIFT size) s →
        ¬ window_start sizeof_long PAGE_SHIFT bdata (2 ^ (a - PAGE_SHIFT)) goal limit ≤ s) ∨
    (∃ s, fits sizeof_long bdata (window_end PAGE_SHIFT bdata limit - bdata.node_min_pfn)
          (2 ^ (a - PAGE_SHIFT)) (PFN_UP sizeof_long PAGE_SHIFT size) s ∧
        window_start sizeof_long PAGE_SHIFT bdata (2 ^ (a - PAGE_SHIFT)) goal limit ≤ s ∧
        (((bdata.hint_idx ≤
              window_start sizeof_long PAGE_SHIFT bdata (2 ^ (a - PAGE_SHIFT)) goal limit ∨
            ∀ t, fits sizeof_long bdata
                (window_end PAGE_SHIFT bdata limit - bdata.node_min_pfn)
                (2 ^ (a - PAGE_SHIFT)) (PFN_UP sizeof_long PAGE_SHIFT size) t →
              ¬ align_idx sizeof_long bdata bdata.hint_idx (2 ^ (a - PAGE_SHIFT)) ≤ t) ∧
          ∀ t, fits sizeof_long bdata (window_end PAGE_SHIFT bdata limit - bdata.node_min_pfn)
              (2 ^ (a - PAGE_SHIFT)) (PFN_UP sizeof_long PAGE_SHIFT size) t →
            window_start sizeof_long PAGE_SHIFT bdata (2 ^ (a - PAGE_SHIFT)) goal limit ≤ t →
            s ≤ t) ∨
         (bdata.hint_idx >
            window_start sizeof_long PAGE_SHIFT bdata (2 ^ (a - PAGE_SHIFT)) goal limit ∧
          align_idx sizeof_long bdata bdata.hint_idx (2 ^ (a - PAGE_SHIFT)) ≤ s ∧
          ∀ t, fits sizeof_long bdata (window_end PAGE_SHIFT bdata limit - bdata.node_min_pfn)
              (2 ^ (a - PAGE_SHIFT)) (PFN_UP sizeof_long PAGE_SHIFT size) t →
            align_idx sizeof_long bdata bdata.hint_idx (2 ^ (a - PAGE_SHIFT)) ≤ t → s ≤ t)) ∧
        ∃ so b', alloc_bootmem_core sizeof_long PAGE_SHIFT bdata size (2 ^ a) goal limit =
            some (Result.ok (some (bdata.node_min_pfn * 2 ^ PAGE_SHIFT + so), b')) ∧
          placed_at sizeof_long PAGE_SHIFT bdata b' size s so
            (window_end PAGE_SHIFT bdata limit - bdata.node_min_pfn)) := by
  obtain ⟨hcov, hlow, hleo⟩ := hreg
  obtain ⟨hminlow, hlowmax, hbits⟩ := hcov
  have hBpos : 0 < 2 ^ PAGE_SHIFT := Nat.pow_pos (by decide)
  have hB2 : 2 ≤ 2 ^ PAGE_SHIFT := by
    have := Nat.pow_le_pow_right (show 0 < 2 by decide) (Nat.succ_le_of_lt hPS0)
    simpa using this
  obtain ⟨hP1, hPmax⟩ := pfn_up_pos sizeof_long PAGE_SHIFT size hPSW hsz hsize
  have hk : a - PAGE_SHIFT ≤ BITS_PER_LONG sizeof_long := by omega
  have hstep := low_add_step_le sizeof_long PAGE_SHIFT a bdata.node_low_pfn hPS0 hPSW ha hlow
  have hwe : window_end PAGE_SHIFT bdata limit ≤ bdata.node_low_pfn := by
    unfold window_end; split <;> omega
  by_cases hmap : bdata.node_bootmem_map = none
  · left
    constructor
    · unfold alloc_bootmem_core
      rw [if_neg (by omega), if_neg (pow_two_check sizeof_long a ha),
        if_neg (limit_check sizeof_long size goal limit hlim), if_pos hmap]
    · intro s hs _
      have := hs.2.2 s (Nat.le_refl _) (by omega)
      rw [hmap] at this
      cases this
  by_cases hwin : bdata.node_min_pfn < window_end PAGE_SHIFT bdata limit
  swap
  · left
    constructor
    · exact alloc_bootmem_core_empty_window sizeof_long PAGE_SHIFT bdata size a goal limit hsz ha
        hlim (by
          unfold window_end at hwin
          split at hwin
          · rename_i hc
            exact Or.inr ⟨hc.1, by omega⟩
          · exact Or.inl (by omega))
    · intro s hs _
      have := hs.2.1
      omega
  obtain ⟨hsd, hsnw, _⟩ := window_start_facts sizeof_long PAGE_SHIFT bdata (a - PAGE_SHIFT) goal
    limit hk hstep hwin
  have hmidx : ulong_sub sizeof_long (window_end PAGE_SHIFT bdata limit) bdata.node_min_pfn =
      window_end PAGE_SHIFT bdata limit - bdata.node_min_pfn :=
    ulong_sub_eq (by omega) (by omega)
  have hin : ∀ i, i < window_end PAGE_SHIFT bdata limit - bdata.node_min_pfn →
      ∃ c, test_bit sizeof_long i bdata.node_bootmem_map = Result.ok c :=
    fun i hi => covered_addressable sizeof_long hL bdata ⟨hminlow, hlowmax, hbits⟩ i (by omega)
  have hmid : (bdata.node_min_pfn + (window_end PAGE_SHIFT bdata limit - bdata.node_min_pfn)) *
      2 ^ PAGE_SHIFT ≤ ULONG_MAX sizeof_long := by
    have := Nat.mul_le_mul_right (2 ^ PAGE_SHIFT)
      (show bdata.node_min_pfn + (window_end PAGE_SHIFT bdata limit - bdata.node_min_pfn) ≤
        bdata.node_low_pfn by omega)
    omega
  have hPw : (window_end PAGE_SHIFT bdata limit - bdata.node_min_pfn) +
      PFN_UP sizeof_long PAGE_SHIFT size < 2 ^ BITS_PER_LONG sizeof_long := by
    have e1 : (window_end PAGE_SHIFT bdata limit - bdata.node_min_pfn) * 2 ≤
        bdata.node_low_pfn * 2 ^ PAGE_SHIFT := Nat.mul_le_mul (by omega) hB2
    have e2 : PFN_UP sizeof_long PAGE_SHIFT size * 2 ≤
        PFN_UP sizeof_long PAGE_SHIFT size * 2 ^ PAGE_SHIFT := Nat.mul_le_mul_left _ hB2
    unfold ULONG_MAX at hlow hPmax
    omega
  have hspec := find_block_spec sizeof_long PAGE_SHIFT bdata
    (window_end PAGE_SHIFT bdata limit - bdata.node_min_pfn) (a - PAGE_SHIFT) size hk hin
    (by omega) hP1 hPw
  have hsearch := alloc_bootmem_core_search sizeof_long PAGE_SHIFT bdata size a goal limit hsz
    ha hlim hmap hwin
  simp only [step_eq, hmidx] at hsearch
  generalize hS : window_start sizeof_long PAGE_SHIFT bdata (2 ^ (a - PAGE_SHIFT)) goal limit =
    sidx0 at hsd hsnw hsearch ⊢
  generalize hM : window_end PAGE_SHIFT bdata limit - bdata.node_min_pfn = midx
    at hin hmid hPw hspec hsearch ⊢
  -- the commit step succeeds at every index the search can return
  have hcommit : ∀ s, fits sizeof_long bdata midx (2 ^ (a - PAGE_SHIFT))
      (PFN_UP sizeof_long PAGE_SHIFT size) s →
      ∃ so b', alloc_commit sizeof_long PAGE_SHIFT bdata size (2 ^ a) s =
          Result.ok (some (bdata.node_min_pfn * 2 ^ PAGE_SHIFT + so), b') ∧
        placed_at sizeof_long PAGE_SHIFT bdata b' size s so midx := by
    intro s hs
    obtain ⟨h1, h2, h3⟩ := hs
    have hee : ulong sizeof_long (s + PFN_UP sizeof_long PAGE_SHIFT size) =
        s + PFN_UP sizeof_long PAGE_SHIFT size :=
      ulong_of_le (by unfold ULONG_MAX; omega)
    obtain ⟨so, b', hc, c1, c2, c3, c4, c5, c6, c7, c8⟩ :=
      alloc_commit_ok sizeof_long PAGE_SHIFT hL bdata size a s midx
        hPS0 hPSW ha (by omega) hleo (by omega) hmid (by omega) h1 (by rw [hee]; exact h2) hin
        (by rw [hee]; exact h3)
    exact ⟨so, b', hc, by omega, by rw [hee]; exact h2, by rw [hee]; exact h3,
      ⟨s, Nat.le_refl _, h3 s (Nat.le_refl _) (by omega)⟩, c1, c2, c3, c4, c5, c6, c7, c8⟩
  by_cases hh : bdata.hint_idx > sidx0
  · rw [if_pos hh, if_pos hh] at hsearch
    have hfbv : ulong sizeof_long (sidx0 + 1) = sidx0 + 1 :=
      ulong_of_le (by unfold ULONG_MAX; omega)
    rw [hfbv] at hsearch
    have hy : align_idx sizeof_long bdata (sidx0 + 1 - 1) (2 ^ (a - PAGE_SHIFT)) = sidx0 := by
      rw [Nat.add_sub_cancel]
      exact align_idx_of_aligned sizeof_long bdata (a - PAGE_SHIFT) sidx0 hk hsnw hsd
    obtain ⟨hx1, _, _⟩ := align_idx_bounds sizeof_long bdata bdata.hint_idx (a - PAGE_SHIFT) hk
      hhint
    obtain ⟨r, hr, hnone, hsome⟩ := hspec (2 * midx + 2)
      (align_idx sizeof_long bdata bdata.hint_idx (2 ^ (a - PAGE_SHIFT))) (sidx0 + 1)
      (by rw [if_pos (by omega)]; omega)
    rw [hy] at hnone hsome
    have hres := hsearch r hr
    cases r with
    | none =>
      left
      exact ⟨hres.1 rfl, (hnone rfl).2 (by omega)⟩
    | some s =>
      right
      obtain ⟨hf, hcase⟩ := hsome s rfl
      obtain ⟨so, b', hc, hpl⟩ := hcommit s hf
      refine ⟨s, hf, ?_, ?_, so, b', by rw [hres.2 s rfl, hc], hpl⟩
      · rcases hcase with ⟨h1, _⟩ | ⟨_, _, h2, _⟩
        · omega
        · exact h2
      · rcases hcase with ⟨h1, h2⟩ | ⟨_, h1, _, h3⟩
        · exact Or.inr ⟨hh, h1, h2⟩
        · exact Or.inl ⟨Or.inr h1, h3⟩
  · rw [if_neg hh, if_neg hh] at hsearch
    obtain ⟨r, hr, hnone, hsome⟩ := hspec (2 * midx + 2) sidx0 0
      (by simp only [ne_eq, not_true_eq_false, if_false]; omega)
    have hres := hsearch r hr
    cases r with
    | none =>
      left
      exact ⟨hres.1 rfl, (hnone rfl).1⟩
    | some s =>
      right
      obtain ⟨hf, hcase⟩ := hsome s rfl
      obtain ⟨so, b', hc, hpl⟩ := hcommit s hf
      rcases hcase with ⟨h1, h2⟩ | ⟨h0, _⟩
      · exact ⟨s, hf, h1, Or.inl ⟨Or.inl (by omega), h2⟩, so, b',
          by rw [hres.2 s rfl, hc], hpl⟩
      · exact absurd rfl h0

/-! ## Claims on the search hint -/

/-- Claim C22 (counterexample).  On a 64-bit machine with 4 KiB pages the region
`[6, 70)` has only the frames 8 and 9 free.  A request for one page aligned to
eight pages with the goal in frame 40 returns NULL when `hint_idx` is 0, and the
address of frame 8 when `hint_idx` is `2 ^ 64 - 1`: aligning that hint wraps
around to the bit index 2, below the goal, where the search finds the free
frame. -/
theorem alloc_bootmem_core_granted_by_hint :
    alloc_bootmem_core 8 12 (region_6_70_hint 0) 4096 (2 ^ 15) (40 * 4096) 0 =
      some (Result.ok (none, region_6_70_hint 0)) ∧
    alloc_bootmem_core 8 12 (region_6_70_hint (2 ^ 64 - 1)) 4096 (2 ^ 15) (40 * 4096) 0 =
      some (Result.ok (some 32768, region_6_70_placed)) := by
  decide

/-- Claim C22 (amended).  For an addressable region, a request with `size > 0`
that rounds up to whole pages without wrapping, a power-of-two alignment and
`limit = 0` or `goal + size <= limit`, and two values of `hint_idx` whose
alignment does not wrap (`node_min_pfn + hint_idx + step <= 2 ^ BITS_PER_LONG`,
which includes values past the end of the bitmap): `alloc_bootmem_core` returns
NULL or an address in either state, and it returns NULL in the state with the
one hint exactly when it returns NULL in the state with the other. -/
theorem alloc_bootmem_core_hint_neutral (sizeof_long PAGE_SHIFT : Nat) (hL : 0 < sizeof_long)
    (bdata : bootmem_data) (hint size a goal limit : Nat)
    (hPS0 : 0 < PAGE_SHIFT) (hPSW : PAGE_SHIFT < BITS_PER_LONG sizeof_long)
    (hsz : 0 < size) (hsize : size + (2 ^ PAGE_SHIFT - 1) ≤ ULONG_MAX sizeof_long)
    (ha : a < BITS_PER_LONG sizeof_long) (hlim : limit = 0 ∨ goal + size ≤ limit)
    (hreg : region_addressable sizeof_long PAGE_SHIFT bdata)
    (hh1 : bdata.node_min_pfn + bdata.hint_idx + 2 ^ (a - PAGE_SHIFT) ≤
      2 ^ BITS_PER_LONG sizeof_long)
    (hh2 : bdata.node_min_pfn + hint + 2 ^ (a - PAGE_SHIFT) ≤ 2 ^ BITS_PER_LONG sizeof_long) :
    (alloc_bootmem_core sizeof_long PAGE_SHIFT bdata size (2 ^ a) goal limit =
        some (Result.ok (none, bdata)) ∨
      ∃ addr b', alloc_bootmem_core sizeof_long PAGE_SHIFT bdata size (2 ^ a) goal limit =
        some (Result.ok (some addr, b'))) ∧
    (alloc_bootmem_core sizeof_long PAGE_SHIFT { bdata with hint_idx := hint } size (2 ^ a)
        goal limit = some (Result.ok (none, { bdata with hint_idx := hint })) ∨
      ∃ addr b', alloc_bootmem_core sizeof_long PAGE_SHIFT { bdata with hint_idx := hint }
        size (2 ^ a) goal limit = some (Result.ok (some addr, b'))) ∧
    (alloc_bootmem_core sizeof_long PAGE_SHIFT bdata size (2 ^ a) goal limit =
        some (Result.ok (none, bdata)) ↔
      alloc_bootmem_core sizeof_long PAGE_SHIFT { bdata with hint_idx := hint } size (2 ^ a)
        goal limit = some (Result.ok (none, { bdata with hint_idx := hint }))) := by
  have h1 := alloc_bootmem_core_fit sizeof_long PAGE_SHIFT hL bdata size a goal limit hPS0 hPSW
    hsz hsize ha hlim hreg hh1
  have h2 := alloc_bootmem_core_fit sizeof_long PAGE_SHIFT hL { bdata with hint_idx := hint }
    size a goal limit hPS0 hPSW hsz hsize ha hlim hreg hh2
  rcases h1 with ⟨n1, nf1⟩ | ⟨s1, f1, g1, _, so1, b1, e1, _⟩
  · rcases h2 with ⟨n2, _⟩ | ⟨s2, f2, g2, _⟩
    · exact ⟨Or.inl n1, Or.inl n2, ⟨fun _ => n2, fun _ => n1⟩⟩
    · exact absurd g2 (nf1 s2 f2)
  · rcases h2 with ⟨_, nf2⟩ | ⟨s2, _, _, _, so2, b2, e2, _⟩
    · exact absurd g1 (nf2 s1 f1)
    · refine ⟨Or.inr ⟨_, b1, e1⟩, Or.inr ⟨_, b2, e2⟩, ?_, ?_⟩
      · intro h
        rw [e1] at h
        cases h
      · intro h
        rw [e2] at h
        cases h

theorem alloc_bootmem_core_hint_neutral_witness :
    (alloc_bootmem_core 8 12 region_10_20_free 4096 (2 ^ 12) 0 0 =
        some (Result.ok (none, region_10_20_free)) ∨
      ∃ addr b', alloc_bootmem_core 8 12 region_10_20_free 4096 (2 ^ 12) 0 0 =
        some (Result.ok (some addr, b'))) ∧
    (alloc_bootmem_core 8 12 { region_10_20_free with hint_idx := 1000 } 4096 (2 ^ 12) 0 0 =
        some (Result.ok (none, { region_10_20_free with hint_idx := 1000 })) ∨
      ∃ addr b', alloc_bootmem_core 8 12 { region_10_20_free with hint_idx := 1000 }
        4096 (2 ^ 12) 0 0 = some (Result.ok (some addr, b'))) ∧
    (alloc_bootmem_core 8 12 region_10_20_free 4096 (2 ^ 12) 0 0 =
        some (Result.ok (none, region_10_20_free)) ↔
      alloc_bootmem_core 8 12 { region_10_20_free with hint_idx := 1000 } 4096 (2 ^ 12) 0 0 =
        some (Result.ok (none, { region_10_20_free with hint_idx := 1000 }))) :=
  alloc_bootmem_core_hint_neutral 8 12 (by decide) region_10_20_free 1000 4096 12 0 0
    (by decide) (by decide) (by decide) (by decide) (by decide) (by decide) (by decide)
    (by decide) (by decide)

/-! ## What the range primitives leave below their range -/

theorem bitmap_bits_eq_of_ok_iff (sizeof_long : Nat) (hL : 0 < sizeof_long)
    (m1 m2 : Option Bitmap)
    (h : ∀ i, (∃ c, test_bit sizeof_long i m1 = Result.ok c) ↔
      (∃ c, test_bit sizeof_long i m2 = Result.ok c)) :
    bitmap_bits sizeof_long m1 = bitmap_bits sizeof_long m2 := by
  rcases Nat.lt_trichotomy (bitmap_bits sizeof_long m1) (bitmap_bits sizeof_long m2)
    with hlt | heq | hgt
  · have := (test_bit_ok_iff_lt sizeof_long hL m1 _).mp
      ((h _).mpr ((test_bit_ok_iff_lt sizeof_long hL m2 _).mpr hlt))
    omega
  · exact heq
  · have := (test_bit_ok_iff_lt sizeof_long hL m2 _).mp
      ((h _).mp ((test_bit_ok_iff_lt sizeof_long hL m1 _).mpr hgt))
    omega

theorem bitmap_bits_of_point_update (sizeof_long : Nat) (hL : 0 < sizeof_long)
    (m1 m2 : Option Bitmap) (idx : Nat) (v old : Bool)
    (hold : test_bit sizeof_long idx m2 = Result.ok old)
    (h : ∀ i, test_bit sizeof_long i m1 =
      if i = idx then Result.ok v else test_bit sizeof_long i m2) :
    bitmap_bits sizeof_long m1 = bitmap_bits sizeof_long m2 := by
  apply bitmap_bits_eq_of_ok_iff sizeof_long hL
  intro i
  rw [h i]
  by_cases hi : i = idx
  · rw [if_pos hi, hi, hold]
    exact ⟨fun _ => ⟨old, rfl⟩, fun _ => ⟨v, rfl⟩⟩
  · rw [if_neg hi]

theorem free_loop_below (sizeof_long : Nat) (hL : 0 < sizeof_long) (n : Nat) :
    ∀ (bdata b' : bootmem_data) (idx : Nat),
      __free_loop sizeof_long bdata idx n = Result.ok b' →
      bitmap_bits sizeof_long b'.node_bootmem_map =
        bitmap_bits sizeof_long bdata.node_bootmem_map ∧
      ∀ i, i < idx → test_bit sizeof_long i b'.node_bootmem_map =
        test_bit sizeof_long i bdata.node_bootmem_map := by
  induction n with
  | zero =>
    intro bdata b' idx h
    simp only [__free_loop, Result.ok.injEq] at h
    subst h
    exact ⟨rfl, fun _ _ => rfl⟩
  | succ n ih =>
    intro bdata b' idx h
    cases ht : test_bit sizeof_long idx bdata.node_bootmem_map with
    | bug => exact absurd ht (test_bit_ne_bug _ _ _)
    | fault =>
      simp only [__free_loop, test_and_clear_bit_fault ht] at h
      cases h
    | ok old =>
      obtain ⟨m, hm, hbits⟩ := test_and_clear_bit_ok hL ht
      simp only [__free_loop, hm] at h
      cases old with
      | false => simp at h
      | true =>
        simp only [Bool.not_true, Bool.false_eq_true, if_false] at h
        obtain ⟨i1, i2⟩ := ih _ b' (idx + 1) h
        refine ⟨?_, ?_⟩
        · rw [i1]
          exact bitmap_bits_of_point_update sizeof_long hL (some m) bdata.node_bootmem_map idx
            false true ht hbits
        · intro i hi
          rw [i2 i (by omega)]
          show test_bit sizeof_long i (some m) = _
          rw [hbits i, if_neg (by omega)]

theorem free_below (sizeof_long : Nat) (hL : 0 < sizeof_long) (bdata b' : bootmem_data)
    (sidx eidx : Nat) (h : __free sizeof_long bdata sidx eidx = Result.ok b') :
    bitmap_bits sizeof_long b'.node_bootmem_map =
      bitmap_bits sizeof_long bdata.node_bootmem_map ∧
    ∀ i, i < sidx → test_bit sizeof_long i b'.node_bootmem_map =
      test_bit sizeof_long i bdata.node_bootmem_map := by
  have hmap : (if bdata.hint_idx > sidx then { bdata with hint_idx := sidx } else bdata
      ).node_bootmem_map = bdata.node_bootmem_map := by
    split <;> rfl
  obtain ⟨i1, i2⟩ := free_loop_below sizeof_long hL (eidx - sidx) _ b' sidx h
  rw [hmap] at i1 i2
  exact ⟨i1, i2⟩

theorem reserve_loop_kept (sizeof_long exclusive sidx : Nat) (hL : 0 < sizeof_long) (n : Nat) :
    ∀ (bdata b' : bootmem_data) (idx : Nat) (r : Int), sidx ≤ idx →
      __reserve_loop sizeof_long exclusive sidx bdata idx n = Result.ok (r, b') →
      bitmap_bits sizeof_long b'.node_bootmem_map =
        bitmap_bits sizeof_long bdata.node_bootmem_map ∧
      (r = 0 → b'.hint_idx = bdata.hint_idx ∧
        ∀ i, test_bit sizeof_long i bdata.node_bootmem_map = Result.ok true →
          test_bit sizeof_long i b'.node_bootmem_map = Result.ok true) ∧
      (r ≠ 0 → b'.hint_idx = min bdata.hint_idx sidx ∧
        ∀ i, i < sidx → test_bit sizeof_long i b'.node_bootmem_map =
          test_bit sizeof_long i bdata.node_bootmem_map) := by
  induction n with
  | zero =>
    intro bdata b' idx r _ h
    simp only [__reserve_loop, Result.ok.injEq, Prod.mk.injEq] at h
    obtain ⟨h1, h2⟩ := h
    subst h1 h2
    exact ⟨rfl, fun _ => ⟨rfl, fun _ hi => hi⟩, fun h => absurd rfl h⟩
  | succ n ih =>
    intro bdata b' idx r hsi h
    cases ht : test_bit sizeof_long idx bdata.node_bootmem_map with
    | bug => exact absurd ht (test_bit_ne_bug _ _ _)
    | fault =>
      simp only [__reserve_loop, test_and_set_bit_fault ht] at h
      cases h
    | ok old =>
      obtain ⟨m, hm, hbits⟩ := test_and_set_bit_ok ht
      have hbm : bitmap_bits sizeof_long (some m) =
          bitmap_bits sizeof_long bdata.node_bootmem_map :=
        bitmap_bits_of_point_update sizeof_long hL (some m) bdata.node_bootmem_map idx
          true old ht hbits
      have hrec : ∀ r b', __reserve_loop sizeof_long exclusive sidx
          { bdata with node_bootmem_map := some m } (idx + 1) n = Result.ok (r, b') →
          bitmap_bits sizeof_long b'.node_bootmem_map =
            bitmap_bits sizeof_long bdata.node_bootmem_map ∧
          (r = 0 → b'.hint_idx = bdata.hint_idx ∧
            ∀ i, test_bit sizeof_long i bdata.node_bootmem_map = Result.ok true →
              test_bit sizeof_long i b'.node_bootmem_map = Result.ok true) ∧
          (r ≠ 0 → b'.hint_idx = min bdata.hint_idx sidx ∧
            ∀ i, i < sidx → test_bit sizeof_long i b'.node_bootmem_map =
              test_bit sizeof_long i bdata.node_bootmem_map) := by
        intro r b' h
        obtain ⟨i1, i2, i3⟩ := ih _ b' (idx + 1) r (by omega) h
        refine ⟨i1.trans hbm, ?_, ?_⟩
        · intro hr
          obtain ⟨j1, j2⟩ := i2 hr
          refine ⟨j1, fun i hi => j2 i ?_⟩
          show test_bit sizeof_long i (some m) = _
          rw [hbits i]
          by_cases hc : i = idx
          · rw [if_pos hc]
          · rw [if_neg hc]; exact hi
        · intro hr
          obtain ⟨j1, j2⟩ := i3 hr
          refine ⟨j1, fun i hi => ?_⟩
          rw [j2 i hi]
          show test_bit sizeof_long i (some m) = _
          rw [hbits i, if_neg (by omega)]
      simp only [__reserve_loop, hm] at h
      cases old with
      | false =>
        simp only [Bool.false_eq_true, if_false] at h
        exact hrec r b' h
      | true =>
        simp only [if_true] at h
        by_cases hex : (exclusive != 0) = true
        · rw [if_pos hex] at h
          cases hf : __free sizeof_long { bdata with node_bootmem_map := some m } sidx idx with
          | fault => rw [hf] at h; cases h
          | bug => rw [hf] at h; cases h
          | ok b2 =>
            rw [hf] at h
            simp only [Result.ok.injEq, Prod.mk.injEq] at h
            obtain ⟨h1, h2⟩ := h
            subst h2
            obtain ⟨f1, _, _, _⟩ := free_fields sizeof_long _ b2 sidx idx hf
            obtain ⟨g1, g2⟩ := free_below sizeof_long hL _ b2 sidx idx hf
            refine ⟨g1.trans hbm, ?_, ?_⟩
            · intro hr
              rw [← h1] at hr
              exact absurd hr EBUSY_ne_zero
            · intro _
              refine ⟨f1, fun i hi => ?_⟩
              rw [g2 i hi]
              show test_bit sizeof_long i (some m) = _
              rw [hbits i, if_neg (by omega)]
        · rw [if_neg hex] at h
          exact hrec r b' h

/-! ## The hint as a lower bound of the free bits -/

theorem region_addressable_of_fields (sizeof_long PAGE_SHIFT : Nat) (b b' : bootmem_data)
    (hreg : region_addressable sizeof_long PAGE_SHIFT b)
    (f1 : b'.node_min_pfn = b.node_min_pfn) (f2 : b'.node_low_pfn = b.node_low_pfn)
    (f3 : b'.last_end_off ≤ ULONG_MAX sizeof_long)
    (f4 : bitmap_bits sizeof_long b'.node_bootmem_map =
      bitmap_bits sizeof_long b.node_bootmem_map) :
    region_addressable sizeof_long PAGE_SHIFT b' := by
  obtain ⟨⟨h1, h2, h3⟩, h4, _⟩ := hreg
  refine ⟨⟨?_, ?_, ?_⟩, ?_, f3⟩
  · rw [f1, f2]; exact h1
  · rw [f2]; exact h2
  · rw [f1, f2, f4]; exact h3
  · rw [f2]; exact h4

theorem hint_kept_by_mark (sizeof_long PAGE_SHIFT : Nat) (hL : 0 < sizeof_long)
    (b b' : bootmem_data) (start end_ reserve flags : Nat) (r : Int)
    (hreg : region_addressable sizeof_long PAGE_SHIFT b)
    (hinv : hint_bounds_free sizeof_long b)
    (h : mark_bootmem_node sizeof_long b start end_ reserve flags = Result.ok (r, b')) :
    region_addressable sizeof_long PAGE_SHIFT b' ∧ hint_bounds_free sizeof_long b' := by
  obtain ⟨f1, f2, f3, hs, he⟩ := mark_bootmem_node_fields sizeof_long b b' start end_ reserve
    flags r h
  obtain ⟨hh, hset⟩ := hinv
  rw [mark_bootmem_node_inside sizeof_long b start end_ reserve flags hs he] at h
  by_cases hr : reserve ≠ 0
  · rw [if_pos hr] at h
    obtain ⟨g1, g2, g3⟩ := reserve_loop_kept sizeof_long (flags &&& BOOTMEM_EXCLUSIVE)
      (ulong_sub sizeof_long start b.node_min_pfn) hL _ b b' _ r (Nat.le_refl _) h
    refine ⟨region_addressable_of_fields sizeof_long PAGE_SHIFT b b' hreg f1 f2
      (by rw [f3]; exact hreg.2.2) g1, ?_⟩
    by_cases hr0 : r = 0
    · obtain ⟨j1, j2⟩ := g2 hr0
      refine ⟨by rw [j1, f1, f2]; exact hh, fun i hi => j2 i (hset i (by rw [j1] at hi; exact hi))⟩
    · obtain ⟨j1, j2⟩ := g3 hr0
      refine ⟨by rw [j1, f1, f2]; exact Nat.le_trans (Nat.min_le_left _ _) hh, fun i hi => ?_⟩
      rw [j1, Nat.lt_min] at hi
      rw [j2 i hi.2]
      exact hset i hi.1
  · rw [if_neg hr] at h
    cases hf : __free sizeof_long b (ulong_sub sizeof_long start b.node_min_pfn)
        (ulong_sub sizeof_long end_ b.node_min_pfn) with
    | fault => rw [hf] at h; cases h
    | bug => rw [hf] at h; cases h
    | ok b2 =>
      rw [hf] at h
      simp only [Result.ok.injEq, Prod.mk.injEq] at h
      obtain ⟨_, h2⟩ := h
      subst h2
      obtain ⟨j1, _, _, _⟩ := free_fields sizeof_long b b2 _ _ hf
      obtain ⟨g1, g2⟩ := free_below sizeof_long hL b b2 _ _ hf
      refine ⟨region_addressable_of_fields sizeof_long PAGE_SHIFT b b2 hreg f1 f2
        (by rw [f3]; exact hreg.2.2) g1, ?_⟩
      refine ⟨by rw [j1, f1, f2]; exact Nat.le_trans (Nat.min_le_left _ _) hh, fun i hi => ?_⟩
      rw [j1, Nat.lt_min] at hi
      rw [g2 i hi.2]
      exact hset i hi.1

theorem window_start_zero (sizeof_long PAGE_SHIFT : Nat) (bdata : bootmem_data) (limit : Nat)
    (hmin : bdata.node_min_pfn ≤ ULONG_MAX sizeof_long) :
    window_start sizeof_long PAGE_SHIFT bdata (2 ^ 0) 0 limit = 0 := by
  unfold window_start
  rw [Nat.zero_shiftRight, if_neg (fun h => h.1 rfl), ALIGN_eq sizeof_long _ 0 (Nat.zero_le _)]
  simp only [Nat.pow_zero, Nat.sub_self, Nat.add_zero, Nat.div_one, Nat.mul_one]
  rw [ulong_of_le hmin, ulong_sub_eq (Nat.le_refl _) hmin, Nat.sub_self]

theorem pfn_up_one_page (sizeof_long PAGE_SHIFT size : Nat)
    (hPSW : PAGE_SHIFT < BITS_PER_LONG sizeof_long) (hsz : 0 < size)
    (hle : size ≤ 2 ^ PAGE_SHIFT) :
    PFN_UP sizeof_long PAGE_SHIFT size = 1 ∧
    size + (2 ^ PAGE_SHIFT - 1) ≤ ULONG_MAX sizeof_long := by
  have hBpos : 0 < 2 ^ PAGE_SHIFT := Nat.pow_pos (by decide)
  have h2 : 2 ^ PAGE_SHIFT * 2 ≤ 2 ^ BITS_PER_LONG sizeof_long := by
    rw [← Nat.pow_succ]
    exact Nat.pow_le_pow_right (by decide) hPSW
  have hfit : size + (2 ^ PAGE_SHIFT - 1) ≤ ULONG_MAX sizeof_long := by
    unfold ULONG_MAX; omega
  refine ⟨?_, hfit⟩
  rw [PFN_UP_eq _ _ _ hPSW, Nat.mod_eq_of_lt (by unfold ULONG_MAX at hfit; omega)]
  exact Nat.div_eq_of_lt_le (by omega) (by omega)

theorem hint_kept_by_alloc (sizeof_long PAGE_SHIFT : Nat) (hL : 0 < sizeof_long)
    (b b' : bootmem_data) (size a limit : Nat) (r : Option Nat)
    (hPS0 : 0 < PAGE_SHIFT) (hPSW : PAGE_SHIFT < BITS_PER_LONG sizeof_long)
    (hsz : 0 < size) (hle : size ≤ 2 ^ PAGE_SHIFT) (ha : a ≤ PAGE_SHIFT)
    (hlim : limit = 0 ∨ size ≤ limit)
    (hreg : region_addressable sizeof_long PAGE_SHIFT b)
    (hinv : hint_bounds_free sizeof_long b)
    (h : alloc_bootmem_core sizeof_long PAGE_SHIFT b size (2 ^ a) 0 limit =
      some (Result.ok (r, b'))) :
    region_addressable sizeof_long PAGE_SHIFT b' ∧ hint_bounds_free sizeof_long b' := by
  obtain ⟨hh, hset⟩ := hinv
  obtain ⟨hP, hsize⟩ := pfn_up_one_page sizeof_long PAGE_SHIFT size hPSW hsz hle
  have hk0 : a - PAGE_SHIFT = 0 := by omega
  have hcov := hreg.1
  have hwe : window_end PAGE_SHIFT b limit ≤ b.node_low_pfn := by
    unfold window_end; split <;> omega
  have hnwh : b.node_min_pfn + b.hint_idx + 2 ^ (a - PAGE_SHIFT) ≤
      2 ^ BITS_PER_LONG sizeof_long := by
    rw [hk0]
    have := hcov.2.1
    have := hcov.1
    unfold ULONG_MAX at *
    simp only [Nat.pow_zero]
    omega
  have hfit := alloc_bootmem_core_fit sizeof_long PAGE_SHIFT hL b size a 0 limit hPS0 hPSW hsz
    hsize (by omega) (by omega) hreg hnwh
  rw [hk0, hP, window_start_zero sizeof_long PAGE_SHIFT b limit (by
    have := hcov.2.1; have := hcov.1; omega)] at hfit
  have hal : align_idx sizeof_long b b.hint_idx (2 ^ 0) = b.hint_idx :=
    align_idx_of_aligned sizeof_long b 0 b.hint_idx (Nat.zero_le _)
      (by rw [hk0] at hnwh; exact hnwh) (by simp)
  rw [hal] at hfit
  rcases hfit with ⟨hnull, _⟩ | ⟨s, hfs, _, hleast, so, b1, hok, hpl⟩
  · rw [hnull] at h
    simp only [Option.some.injEq, Result.ok.injEq, Prod.mk.injEq] at h
    rw [← h.2]
    exact ⟨hreg, hh, hset⟩
  · rw [hok] at h
    simp only [Option.some.injEq, Result.ok.injEq, Prod.mk.injEq] at h
    obtain ⟨_, hb⟩ := h
    subst hb
    obtain ⟨p1, p2, _, _, _, _, f1, f2, f3, f4, f5, f6⟩ := hpl
    rw [hP] at p2 f5
    have hin : ∀ i, i < b.node_low_pfn - b.node_min_pfn →
        ∃ c, test_bit sizeof_long i b.node_bootmem_map = Result.ok c :=
      covered_addressable sizeof_long hL b hcov
    -- every bit below the index found is set
    have hbelow : ∀ i, i < s → test_bit sizeof_long i b.node_bootmem_map = Result.ok true := by
      intro i hi
      obtain ⟨c, hc⟩ := hin i (by omega)
      cases c with
      | true => exact hc
      | false =>
        exfalso
        have hfi : fits sizeof_long b (window_end PAGE_SHIFT b limit - b.node_min_pfn)
            (2 ^ 0) 1 i := by
          refine ⟨by simp, by omega, fun j h1 h2 => ?_⟩
          have : j = i := by omega
          rw [this]; exact hc
        rcases hleast with ⟨_, hl⟩ | ⟨_, hhs, hl⟩
        · have := hl i hfi (Nat.zero_le _)
          omega
        · by_cases hih : b.hint_idx ≤ i
          · have := hl i hfi hih
            omega
          · rw [hset i (by omega)] at hc
            cases hc
    have hps : s + 1 ≤ window_end PAGE_SHIFT b limit - b.node_min_pfn := by
      have := hfs.2.1
      omega
    have hE : b1.hint_idx ≤ s + 1 := by
      rw [f4]
      have : ulong sizeof_long (s + 1) ≤ s + 1 := Nat.mod_le _ _
      omega
    refine ⟨region_addressable_of_fields sizeof_long PAGE_SHIFT b b1 hreg f1 f2
      (by rw [f3]; exact ulong_le_max _ _) ?_, ?_, ?_⟩
    · apply bitmap_bits_eq_of_ok_iff sizeof_long hL
      intro i
      rw [f6 i]
      split
      · rename_i hc
        exact ⟨fun _ => hin i (by omega), fun _ => ⟨true, rfl⟩⟩
      · exact Iff.rfl
    · rw [f1, f2]; omega
    · intro i hi
      rw [f6 i]
      by_cases hc : s ≤ i
      · rw [if_pos ⟨hc, by rw [← f4]; exact hi⟩]
      · rw [if_neg (fun h => hc h.1)]
        exact hbelow i (by omega)

theorem hint_kept_by_call (sizeof_long PAGE_SHIFT : Nat) (hL : 0 < sizeof_long)
    (hPS0 : 0 < PAGE_SHIFT) (hPSW : PAGE_SHIFT < BITS_PER_LONG sizeof_long)
    (b b' : bootmem_data) (c : region_call) (hc : one_page_call PAGE_SHIFT c)
    (hreg : region_addressable sizeof_long PAGE_SHIFT b)
    (hinv : hint_bounds_free sizeof_long b)
    (h : apply_call sizeof_long PAGE_SHIFT b c = some b') :
    region_addressable sizeof_long PAGE_SHIFT b' ∧ hint_bounds_free sizeof_long b' := by
  cases c with
  | alloc size align goal limit =>
    obtain ⟨hsz, hle, ⟨a, ha, hal⟩, hg, hlim⟩ := hc
    subst hal hg
    simp only [apply_call] at h
    split at h
    · rename_i r b1 heq
      simp only [Option.some.injEq] at h
      subst h
      exact hint_kept_by_alloc sizeof_long PAGE_SHIFT hL b b1 size a limit r hPS0 hPSW hsz hle
        ha hlim hreg hinv heq
    · cases h
  | free physaddr size =>
    simp only [apply_call] at h
    split at h
    · rename_i r b1 heq
      simp only [Option.some.injEq] at h
      subst h
      exact hint_kept_by_mark sizeof_long PAGE_SHIFT hL b b1 _ _ 0 0 r hreg hinv heq
    · cases h
  | reserve physaddr size flags =>
    simp only [apply_call] at h
    split at h
    · rename_i r b1 heq
      simp only [Option.some.injEq] at h
      subst h
      exact hint_kept_by_mark sizeof_long PAGE_SHIFT hL b b1 _ _ 1 flags r hreg hinv heq
    · cases h

/-- Claim C23 (counterexample).  The region `[0, 64)` is registered on a 64-bit
machine with 4 KiB pages, the frames `10 .. 19` are freed, and one page is
allocated with the goal in frame 15.  The region reached has `hint_idx = 16`,
while the bit of frame 10, below the hint, is still 0. -/
theorem hint_idx_above_a_free_bit :
    (init_bootmem_core 8 no_clamp [] unregistered 0 0 64).2.1 = region_64_reserved ∧
    apply_calls 8 12 region_64_reserved
      [region_call.free (10 * 4096) (10 * 4096),
        region_call.alloc 4096 4096 (15 * 4096) 0] = some region_64_placed_15 ∧
    region_64_placed_15.hint_idx = 16 ∧
    test_bit 8 10 region_64_placed_15.node_bootmem_map = Result.ok false := by
  decide

/-- Claim C23 (amended).  Start from an addressable region in which `hint_idx`
lies within the bits of the region and every bit below it is set, as right after
registration.  After any sequence of `reserve_bootmem_node`, `free_bootmem_node`
and `alloc_bootmem_core` calls that return, in which every allocation asks for at
most one page with an alignment of at most one page, `goal = 0`, and `limit = 0`
or `size <= limit`, the region is still addressable, `hint_idx` still lies within
its bits and every bit below `hint_idx` is set. -/
theorem hint_idx_bounds_free_bits (sizeof_long PAGE_SHIFT : Nat) (hL : 0 < sizeof_long)
    (hPS0 : 0 < PAGE_SHIFT) (hPSW : PAGE_SHIFT < BITS_PER_LONG sizeof_long)
    (calls : List region_call) (bdata b' : bootmem_data)
    (hcalls : ∀ c ∈ calls, one_page_call PAGE_SHIFT c)
    (hreg : region_addressable sizeof_long PAGE_SHIFT bdata)
    (hinv : hint_bounds_free sizeof_long bdata)
    (h : apply_calls sizeof_long PAGE_SHIFT bdata calls = some b') :
    region_addressable sizeof_long PAGE_SHIFT b' ∧ hint_bounds_free sizeof_long b' := by
  induction calls generalizing bdata with
  | nil =>
    simp only [apply_calls, Option.some.injEq] at h
    subst h
    exact ⟨hreg, hinv⟩
  | cons c cs ih =>
    simp only [apply_calls] at h
    cases h1 : apply_call sizeof_long PAGE_SHIFT bdata c with
    | none => rw [h1] at h; cases h
    | some b1 =>
      rw [h1] at h
      obtain ⟨r1, i1⟩ := hint_kept_by_call sizeof_long PAGE_SHIFT hL hPS0 hPSW bdata b1 c
        (hcalls c (List.mem_cons_self _ _)) hreg hinv h1
      exact ih b1 (fun d hd => hcalls d (List.mem_cons_of_mem _ hd)) r1 i1 h

theorem hint_idx_bounds_free_bits_witness :
    (init_bootmem_core 8 no_clamp [] unregistered 0 0 64).2.1 = region_64_reserved ∧
    apply_calls 8 12 region_64_reserved
      [region_call.free (10 * 4096) (10 * 4096), region_call.alloc 4096 4096 0 0] =
      some region_64_free_11_20 ∧
    region_addressable 8 12 region_64_free_11_20 ∧
    hint_bounds_free 8 region_64_free_11_20 :=
  ⟨by decide, by decide,
    hint_idx_bounds_free_bits 8 12 (by decide) (by decide) (by decide)
      [region_call.free (10 * 4096) (10 * 4096), region_call.alloc 4096 4096 0 0]
      region_64_reserved region_64_free_11_20
      (fun c hc => by
        simp only [List.mem_cons, List.mem_singleton, List.not_mem_nil, or_false] at hc
        rcases hc with rfl | rfl
        · trivial
        · exact ⟨by decide, by decide, ⟨12, Nat.le_refl _, rfl⟩, rfl, Or.inl rfl⟩)
      (by decide) (by decide) (by decide)⟩

/-! ## Outcome of `alloc_bootmem_core` for any hint -/

theorem low_add_step_lt (sizeof_long PAGE_SHIFT a low : Nat)
    (hPS0 : 0 < PAGE_SHIFT) (hPSW : PAGE_SHIFT < BITS_PER_LONG sizeof_long)
    (ha : a < BITS_PER_LONG sizeof_long)
    (hlow : low * 2 ^ PAGE_SHIFT ≤ ULONG_MAX sizeof_long) :
    low + 2 ^ (a - PAGE_SHIFT) + 1 ≤ 2 ^ BITS_PER_LONG sizeof_long := by
  have hB2 : 2 ≤ 2 ^ PAGE_SHIFT := by
    have := Nat.pow_le_pow_right (show 0 < 2 by decide) hPS0
    simpa using this
  have hULM : ULONG_MAX sizeof_long = 2 ^ BITS_PER_LONG sizeof_long - 1 := rfl
  have hMpos := two_pow_bits_pos sizeof_long
  have e : 2 ^ BITS_PER_LONG sizeof_long =
      2 * 2 ^ (BITS_PER_LONG sizeof_long - 1 - PAGE_SHIFT) * 2 ^ PAGE_SHIFT := by
    rw [Nat.mul_assoc, ← Nat.pow_add, ← Nat.pow_succ']
    congr 1
    omega
  have ht : 2 ^ (a - PAGE_SHIFT) ≤ 2 ^ (BITS_PER_LONG sizeof_long - 1 - PAGE_SHIFT) :=
    Nat.pow_le_pow_right (by decide) (by omega)
  have htpos : 0 < 2 ^ (BITS_PER_LONG sizeof_long - 1 - PAGE_SHIFT) := Nat.pow_pos (by decide)
  have hlt : low < 2 * 2 ^ (BITS_PER_LONG sizeof_long - 1 - PAGE_SHIFT) := by
    apply Nat.lt_of_mul_lt_mul_right (a := 2 ^ PAGE_SHIFT)
    rw [← e]; omega
  have h4 : 2 * 2 ^ (BITS_PER_LONG sizeof_long - 1 - PAGE_SHIFT) * 2 ≤
      2 * 2 ^ (BITS_PER_LONG sizeof_long - 1 - PAGE_SHIFT) * 2 ^ PAGE_SHIFT :=
    Nat.mul_le_mul_left _ hB2
  omega

theorem window_start_lt (sizeof_long PAGE_SHIFT : Nat) (bdata : bootmem_data)
    (k goal limit : Nat) (hk : k ≤ BITS_PER_LONG sizeof_long)
    (hlowk : bdata.node_low_pfn + 2 ^ k ≤ 2 ^ BITS_PER_LONG sizeof_long)
    (hwin : bdata.node_min_pfn < window_end PAGE_SHIFT bdata limit) :
    bdata.node_min_pfn + window_start sizeof_long PAGE_SHIFT bdata (2 ^ k) goal limit <
      bdata.node_low_pfn + 2 ^ k := by
  have hkpos : 0 < 2 ^ k := Nat.pow_pos (by decide)
  have hwe : window_end PAGE_SHIFT bdata limit ≤ bdata.node_low_pfn := by
    unfold window_end; split <;> omega
  have hbase : ∀ base, bdata.node_min_pfn ≤ base → base < bdata.node_low_pfn →
      bdata.node_min_pfn +
        ulong_sub sizeof_long (ALIGN sizeof_long base (2 ^ k)) bdata.node_min_pfn <
        bdata.node_low_pfn + 2 ^ k := by
    intro base h1 h2
    obtain ⟨b1, b2⟩ := ALIGN_bounds sizeof_long base k hk (by omega)
    rw [ulong_sub_eq (by omega) (by unfold ULONG_MAX; omega), Nat.add_sub_cancel' (by omega)]
    omega
  unfold window_start
  split
  · rename_i hg
    exact hbase _ (by omega) (by omega)
  · exact hbase _ (Nat.le_refl _) (by omega)

theorem alloc_bootmem_core_cases (sizeof_long PAGE_SHIFT : Nat) (hL : 0 < sizeof_long)
    (bdata : bootmem_data) (size a goal limit : Nat)
    (hPS0 : 0 < PAGE_SHIFT) (hPSW : PAGE_SHIFT < BITS_PER_LONG sizeof_long)
    (hsz : 0 < size) (hsize : size + (2 ^ PAGE_SHIFT - 1) ≤ ULONG_MAX sizeof_long)
    (ha : a < BITS_PER_LONG sizeof_long) (hlim : limit = 0 ∨ goal + size ≤ limit)
    (hreg : region_addressable sizeof_long PAGE_SHIFT bdata) :
    (alloc_bootmem_core sizeof_long PAGE_SHIFT bdata size (2 ^ a) goal limit =
        some (Result.ok (none, bdata)) ∧
      ∀ s, fits sizeof_long bdata (window_end PAGE_SHIFT bdata limit - bdata.node_min_pfn)
          (2 ^ (a - PAGE_SHIFT)) (PFN_UP sizeof_long PAGE_SHIFT size) s →
        ¬ window_start sizeof_long PAGE_SHIFT bdata (2 ^ (a - PAGE_SHIFT)) goal limit ≤ s) ∨
    (∃ s, fits sizeof_long bdata (window_end PAGE_SHIFT bdata limit - bdata.node_min_pfn)
          (2 ^ (a - PAGE_SHIFT)) (PFN_UP sizeof_long PAGE_SHIFT size) s ∧
        alloc_bootmem_core sizeof_long PAGE_SHIFT bdata size (2 ^ a) goal limit =
          some (alloc_commit sizeof_long PAGE_SHIFT bdata size (2 ^ a) s)) := by
  obtain ⟨hcov, hlow, hleo⟩ := hreg
  obtain ⟨hminlow, hlowmax, hbits⟩ := hcov
  have hBpos : 0 < 2 ^ PAGE_SHIFT := Nat.pow_pos (by decide)
  have hB2 : 2 ≤ 2 ^ PAGE_SHIFT := by
    have := Nat.pow_le_pow_right (show 0 < 2 by decide) (Nat.succ_le_of_lt hPS0)
    simpa using this
  obtain ⟨hP1, hPmax⟩ := pfn_up_pos sizeof_long PAGE_SHIFT size hPSW hsz hsize
  have hk : a - PAGE_SHIFT ≤ BITS_PER_LONG sizeof_long := by omega
  have hstep := low_add_step_le sizeof_long PAGE_SHIFT a bdata.node_low_pfn hPS0 hPSW ha hlow
  have hwe : window_end PAGE_SHIFT bdata limit ≤ bdata.node_low_pfn := by
    unfold window_end; split <;> omega
  by_cases hmap : bdata.node_bootmem_map = none
  · left
    constructor
    · unfold alloc_bootmem_core
      rw [if_neg (by omega), if_neg (pow_two_check sizeof_long a ha),
        if_neg (limit_check sizeof_long size goal limit hlim), if_pos hmap]
    · intro s hs _
      have := hs.2.2 s (Nat.le_refl _) (by omega)
      rw [hmap] at this
      cases this
  by_cases hwin : bdata.node_min_pfn < window_end PAGE_SHIFT bdata limit
  swap
  · left
    constructor
    · exact alloc_bootmem_core_empty_window sizeof_long PAGE_SHIFT bdata size a goal limit hsz ha
        hlim (by
          unfold window_end at hwin
          split at hwin
          · rename_i hc
            exact Or.inr ⟨hc.1, by omega⟩
          · exact Or.inl (by omega))
    · intro s hs _
      have := hs.2.1
      omega
  obtain ⟨hsd, hsnw, _⟩ := window_start_facts sizeof_long PAGE_SHIFT bdata (a - PAGE_SHIFT) goal
    limit hk hstep hwin
  have hslt := window_start_lt sizeof_long PAGE_SHIFT bdata (a - PAGE_SHIFT) goal limit hk hstep
    hwin
  have hstep1 := low_add_step_lt sizeof_long PAGE_SHIFT a bdata.node_low_pfn hPS0 hPSW ha hlow
  have hmidx : ulong_sub sizeof_long (window_end PAGE_SHIFT bdata limit) bdata.node_min_pfn =
      window_end PAGE_SHIFT bdata limit - bdata.node_min_pfn :=
    ulong_sub_eq (by omega) (by omega)
  have hin : ∀ i, i < window_end PAGE_SHIFT bdata limit - bdata.node_min_pfn →
      ∃ c, test_bit sizeof_long i bdata.node_bootmem_map = Result.ok c :=
    fun i hi => covered_addressable sizeof_long hL bdata ⟨hminlow, hlowmax, hbits⟩ i (by omega)
  have hmid : (bdata.node_min_pfn + (window_end PAGE_SHIFT bdata limit - bdata.node_min_pfn)) *
      2 ^ PAGE_SHIFT ≤ ULONG_MAX sizeof_long := by
    have := Nat.mul_le_mul_right (2 ^ PAGE_SHIFT)
      (show bdata.node_min_pfn + (window_end PAGE_SHIFT bdata limit - bdata.node_min_pfn) ≤
        bdata.node_low_pfn by omega)
    omega
  have hPw : (window_end PAGE_SHIFT bdata limit - bdata.node_min_pfn) +
      PFN_UP sizeof_long PAGE_SHIFT size < 2 ^ BITS_PER_LONG sizeof_long := by
    have e1 : (window_end PAGE_SHIFT bdata limit - bdata.node_min_pfn) * 2 ≤
        bdata.node_low_pfn * 2 ^ PAGE_SHIFT := Nat.mul_le_mul (by omega) hB2
    have e2 : PFN_UP sizeof_long PAGE_SHIFT size * 2 ≤
        PFN_UP sizeof_long PAGE_SHIFT size * 2 ^ PAGE_SHIFT := Nat.mul_le_mul_left _ hB2
    unfold ULONG_MAX at hlow hPmax
    omega
  have hspec := find_block_spec sizeof_long PAGE_SHIFT bdata
    (window_end PAGE_SHIFT bdata limit - bdata.node_min_pfn) (a - PAGE_SHIFT) size hk hin
    (by omega) hP1 hPw
  have hsearch := alloc_bootmem_core_search sizeof_long PAGE_SHIFT bdata size a goal limit hsz
    ha hlim hmap hwin
  simp only [step_eq, hmidx] at hsearch
  generalize hS : window_start sizeof_long PAGE_SHIFT bdata (2 ^ (a - PAGE_SHIFT)) goal limit =
    sidx0 at hsd hsnw hslt hsearch ⊢
  generalize hM : window_end PAGE_SHIFT bdata limit - bdata.node_min_pfn = midx
    at hin hmid hPw hspec hsearch ⊢
  by_cases hh : bdata.hint_idx > sidx0
  · rw [if_pos hh, if_pos hh] at hsearch
    have hfbv : ulong sizeof_long (sidx0 + 1) = sidx0 + 1 :=
      ulong_of_le (by unfold ULONG_MAX; omega)
    rw [hfbv] at hsearch
    have hy : align_idx sizeof_long bdata (sidx0 + 1 - 1) (2 ^ (a - PAGE_SHIFT)) = sidx0 := by
      rw [Nat.add_sub_cancel]
      exact align_idx_of_aligned sizeof_long bdata (a - PAGE_SHIFT) sidx0 hk hsnw hsd
    obtain ⟨r, hr, hnone, hsome⟩ := hspec (2 * midx + 2)
      (align_idx sizeof_long bdata bdata.hint_idx (2 ^ (a - PAGE_SHIFT))) (sidx0 + 1)
      (by rw [if_pos (by omega)]; omega)
    rw [hy] at hnone hsome
    have hres := hsearch r hr
    cases r with
    | none =>
      left
      exact ⟨hres.1 rfl, (hnone rfl).2 (by omega)⟩
    | some s =>
      right
      exact ⟨s, (hsome s rfl).1, hres.2 s rfl⟩
  · rw [if_neg hh, if_neg hh] at hsearch
    obtain ⟨r, hr, hnone, hsome⟩ := hspec (2 * midx + 2) sidx0 0
      (by simp only [ne_eq, not_true_eq_false, if_false]; omega)
    have hres := hsearch r hr
    cases r with
    | none =>
      left
      exact ⟨hres.1 rfl, (hnone rfl).1⟩
    | some s =>
      right
      exact ⟨s, (hsome s rfl).1, hres.2 s rfl⟩

/-- The window of an addressable region: its bits are addressable and its frames
have physical addresses. -/
theorem window_facts (sizeof_long PAGE_SHIFT : Nat) (hL : 0 < sizeof_long)
    (bdata : bootmem_data) (limit : Nat)
    (hreg : region_addressable sizeof_long PAGE_SHIFT bdata) :
    (∀ i, i < window_end PAGE_SHIFT bdata limit - bdata.node_min_pfn →
      ∃ c, test_bit sizeof_long i bdata.node_bootmem_map = Result.ok c) ∧
    (bdata.node_min_pfn + (window_end PAGE_SHIFT bdata limit - bdata.node_min_pfn)) *
      2 ^ PAGE_SHIFT ≤ ULONG_MAX sizeof_long ∧
    bdata.node_min_pfn + (window_end PAGE_SHIFT bdata limit - bdata.node_min_pfn) ≤
      bdata.node_low_pfn := by
  obtain ⟨hcov, hlow, hleo⟩ := hreg
  obtain ⟨hminlow, hlowmax, hbits⟩ := hcov
  have hwe : window_end PAGE_SHIFT bdata limit ≤ bdata.node_low_pfn := by
    unfold window_end; split <;> omega
  refine ⟨fun i hi => covered_addressable sizeof_long hL bdata ⟨hminlow, hlowmax, hbits⟩ i
    (by omega), ?_, by omega⟩
  have := Nat.mul_le_mul_right (2 ^ PAGE_SHIFT)
    (show bdata.node_min_pfn + (window_end PAGE_SHIFT bdata limit - bdata.node_min_pfn) ≤
      bdata.node_low_pfn by omega)
  omega

/-! ## The commit step at an index that fits -/

theorem alloc_commit_of_fits (sizeof_long PAGE_SHIFT : Nat) (hL : 0 < sizeof_long)
    (bdata : bootmem_data) (size a limit s : Nat)
    (hPS0 : 0 < PAGE_SHIFT) (hPSW : PAGE_SHIFT < BITS_PER_LONG sizeof_long)
    (hsz : 0 < size) (hsize : size + (2 ^ PAGE_SHIFT - 1) ≤ ULONG_MAX sizeof_long)
    (ha : a < BITS_PER_LONG sizeof_long)
    (hreg : region_addressable sizeof_long PAGE_SHIFT bdata)
    (hf : fits sizeof_long bdata (window_end PAGE_SHIFT bdata limit - bdata.node_min_pfn)
      (2 ^ (a - PAGE_SHIFT)) (PFN_UP sizeof_long PAGE_SHIFT size) s) :
    ∃ so b', alloc_commit sizeof_long PAGE_SHIFT bdata size (2 ^ a) s =
        Result.ok (some (bdata.node_min_pfn * 2 ^ PAGE_SHIFT + so), b') ∧
      placed_at sizeof_long PAGE_SHIFT bdata b' size s so
        (window_end PAGE_SHIFT bdata limit - bdata.node_min_pfn) := by
  obtain ⟨hin, hmid, hwle⟩ := window_facts sizeof_long PAGE_SHIFT hL bdata limit hreg
  obtain ⟨hcov, hlow, hleo⟩ := hreg
  have hB2 : 2 ≤ 2 ^ PAGE_SHIFT := by
    have := Nat.pow_le_pow_right (show 0 < 2 by decide) (Nat.succ_le_of_lt hPS0)
    simpa using this
  obtain ⟨hP1, hPmax⟩ := pfn_up_pos sizeof_long PAGE_SHIFT size hPSW hsz hsize
  have hPw : (window_end PAGE_SHIFT bdata limit - bdata.node_min_pfn) +
      PFN_UP sizeof_long PAGE_SHIFT size < 2 ^ BITS_PER_LONG sizeof_long := by
    have e1 : (window_end PAGE_SHIFT bdata limit - bdata.node_min_pfn) * 2 ≤
        bdata.node_low_pfn * 2 ^ PAGE_SHIFT := Nat.mul_le_mul (by omega) hB2
    have e2 : PFN_UP sizeof_long PAGE_SHIFT size * 2 ≤
        PFN_UP sizeof_long PAGE_SHIFT size * 2 ^ PAGE_SHIFT := Nat.mul_le_mul_left _ hB2
    unfold ULONG_MAX at hlow hPmax
    omega
  generalize hM : window_end PAGE_SHIFT bdata limit - bdata.node_min_pfn = midx
    at hin hmid hPw hf ⊢
  obtain ⟨h1, h2, h3⟩ := hf
  have hee : ulong sizeof_long (s + PFN_UP sizeof_long PAGE_SHIFT size) =
      s + PFN_UP sizeof_long PAGE_SHIFT size :=
    ulong_of_le (by unfold ULONG_MAX; omega)
  obtain ⟨so, b', hc, c1, c2, c3, c4, c5, c6, c7, c8⟩ :=
    alloc_commit_ok sizeof_long PAGE_SHIFT hL bdata size a s midx
      hPS0 hPSW ha (by omega) hleo (by omega) hmid (by omega) h1 (by rw [hee]; exact h2) hin
      (by rw [hee]; exact h3)
  exact ⟨so, b', hc, by omega, by rw [hee]; exact h2, by rw [hee]; exact h3,
    ⟨s, Nat.le_refl _, h3 s (Nat.le_refl _) (by omega)⟩, c1, c2, c3, c4, c5, c6, c7, c8⟩

/-! ## Completeness of the search -/

theorem fits_ge_window_start (sizeof_long PAGE_SHIFT : Nat) (bdata : bootmem_data)
    (k goal limit s : Nat) (hk : k ≤ BITS_PER_LONG sizeof_long)
    (hlowk : bdata.node_low_pfn + 2 ^ k ≤ 2 ^ BITS_PER_LONG sizeof_long)
    (hminlow : bdata.node_min_pfn ≤ bdata.node_low_pfn)
    (hgoal : goal = 0 ∨ goal >>> PAGE_SHIFT ≤ bdata.node_min_pfn ∨
      window_end PAGE_SHIFT bdata limit ≤ goal >>> PAGE_SHIFT)
    (hs : 2 ^ k ∣ bdata.node_min_pfn + s) :
    window_start sizeof_long PAGE_SHIFT bdata (2 ^ k) goal limit ≤ s := by
  have hkpos : 0 < 2 ^ k := Nat.pow_pos (by decide)
  have hc : ¬ (goal >>> PAGE_SHIFT ≠ 0 ∧ bdata.node_min_pfn < goal >>> PAGE_SHIFT ∧
      goal >>> PAGE_SHIFT < window_end PAGE_SHIFT bdata limit) := by
    rintro ⟨c1, c2, c3⟩
    rcases hgoal with h | h | h
    · subst h; simp at c1
    · omega
    · omega
  unfold window_start
  rw [if_neg hc]
  obtain ⟨b1, b2⟩ := ALIGN_bounds sizeof_long bdata.node_min_pfn k hk (by omega)
  have hle := ALIGN_le_of_dvd sizeof_long bdata.node_min_pfn k _ hk (by omega) hs (by omega)
  rw [ulong_sub_eq b1 (by unfold ULONG_MAX; omega)]
  omega

theorem skip_target_le (sizeof_long : Nat) (bdata : bootmem_data)
    (k midx pages sidx i t : Nat) (hk : k ≤ BITS_PER_LONG sizeof_long)
    (hnw : bdata.node_min_pfn + midx + 2 ^ k ≤ 2 ^ BITS_PER_LONG sizeof_long)
    (_hsi : sidx ≤ i) (hip : i < sidx + pages)
    (hset : test_bit sizeof_long i bdata.node_bootmem_map = Result.ok true)
    (hfit : fits sizeof_long bdata midx (2 ^ k) pages t) (hst : sidx ≤ t) :
    skip_target sizeof_long bdata i (2 ^ k) ≤ t := by
  have hkpos : 0 < 2 ^ k := Nat.pow_pos (by decide)
  obtain ⟨f1, f2, f3⟩ := hfit
  have hit : i < t := by
    by_contra hn
    have := f3 i (by omega) (by omega)
    rw [this] at hset
    cases hset
  obtain ⟨a1, a2, a3⟩ := align_idx_bounds sizeof_long bdata i k hk (by omega)
  unfold skip_target
  dsimp only
  split
  · rename_i he
    rw [he] at a3 ⊢
    rw [ulong_of_le (by unfold ULONG_MAX; omega)]
    have := add_le_of_dvd_of_lt a3 f1 (show bdata.node_min_pfn + i < bdata.node_min_pfn + t by
      omega)
    omega
  · exact align_idx_le_of_fits sizeof_long bdata k i t hk (by omega) f1 (by omega)

/-- One round of the search that meets the set bit `i` goes on at
`skip_target i`. -/
theorem find_block_skip (sizeof_long PAGE_SHIFT : Nat) (bdata : bootmem_data)
    (midx step size fuel sidx fallback found i : Nat)
    (hz : find_next_zero_bit sizeof_long bdata.node_bootmem_map midx sidx = Result.ok found)
    (hin : ¬ (align_idx sizeof_long bdata found step ≥ midx ∨
      ulong sizeof_long (align_idx sizeof_long bdata found step +
        PFN_UP sizeof_long PAGE_SHIFT size) > midx))
    (hset : first_set_bit sizeof_long bdata.node_bootmem_map
      (align_idx sizeof_long bdata found step)
      (ulong sizeof_long (align_idx sizeof_long bdata found step +
        PFN_UP sizeof_long PAGE_SHIFT size) - align_idx sizeof_long bdata found step) =
      Result.ok (some i)) :
    find_block sizeof_long PAGE_SHIFT bdata midx step size (fuel + 1) sidx fallback =
      find_block sizeof_long PAGE_SHIFT bdata midx step size fuel
        (skip_target sizeof_long bdata i step) fallback := by
  simp only [find_block, hz, hset, skip_target]
  rw [if_neg hin]

/-- Claim C32.  First fit.  For an addressable region and a request that meets
the preconditions, when `hint_idx` is not greater than the initial search index
`sidx0` (the frame of the goal when it lies strictly inside the window, else the
first frame of the region, aligned up to `step`) and `last_end_off` is
page-aligned: a successful `alloc_bootmem_core` returns the address of the frame
`node_min_pfn + s`, where `s` is the least index at or after `sidx0` with
`node_min_pfn + s` a multiple of `step` and a free run `[s, s + PFN_UP(size))`
inside the window; and the call succeeds whenever such an index exists. -/
theorem alloc_bootmem_core_first_fit (sizeof_long PAGE_SHIFT : Nat)
    (hL : 0 < sizeof_long) (bdata : bootmem_data) (size a goal limit : Nat)
    (hPS0 : 0 < PAGE_SHIFT) (hPSW : PAGE_SHIFT < BITS_PER_LONG sizeof_long)
    (hsz : 0 < size) (hsize : size + (2 ^ PAGE_SHIFT - 1) ≤ ULONG_MAX sizeof_long)
    (ha : a < BITS_PER_LONG sizeof_long) (hlim : limit = 0 ∨ goal + size ≤ limit)
    (hreg : region_addressable sizeof_long PAGE_SHIFT bdata)
    (hhint : bdata.hint_idx ≤ window_start sizeof_long PAGE_SHIFT bdata
      (Nat.max (2 ^ a >>> PAGE_SHIFT) 1) goal limit)
    (hleo : bdata.last_end_off &&& (PAGE_SIZE sizeof_long PAGE_SHIFT - 1) = 0) :
    (∀ addr b', alloc_bootmem_core sizeof_long PAGE_SHIFT bdata size (2 ^ a) goal limit =
        some (Result.ok (some addr, b')) →
      ∃ s, addr = PFN_PHYS sizeof_long PAGE_SHIFT (bdata.node_min_pfn + s) ∧
        window_start sizeof_long PAGE_SHIFT bdata (Nat.max (2 ^ a >>> PAGE_SHIFT) 1) goal
          limit ≤ s ∧
        fits sizeof_long bdata (window_end PAGE_SHIFT bdata limit - bdata.node_min_pfn)
          (Nat.max (2 ^ a >>> PAGE_SHIFT) 1) (PFN_UP sizeof_long PAGE_SHIFT size) s ∧
        ∀ t, fits sizeof_long bdata (window_end PAGE_SHIFT bdata limit - bdata.node_min_pfn)
            (Nat.max (2 ^ a >>> PAGE_SHIFT) 1) (PFN_UP sizeof_long PAGE_SHIFT size) t →
          window_start sizeof_long PAGE_SHIFT bdata (Nat.max (2 ^ a >>> PAGE_SHIFT) 1) goal
            limit ≤ t → s ≤ t) ∧
    ((∃ t, fits sizeof_long bdata (window_end PAGE_SHIFT bdata limit - bdata.node_min_pfn)
          (Nat.max (2 ^ a >>> PAGE_SHIFT) 1) (PFN_UP sizeof_long PAGE_SHIFT size) t ∧
        window_start sizeof_long PAGE_SHIFT bdata (Nat.max (2 ^ a >>> PAGE_SHIFT) 1) goal
          limit ≤ t) →
      ∃ addr b', alloc_bootmem_core sizeof_long PAGE_SHIFT bdata size (2 ^ a) goal limit =
        some (Result.ok (some addr, b'))) := by
  rw [step_eq] at hhint ⊢
  have hk : a - PAGE_SHIFT ≤ BITS_PER_LONG sizeof_long := by omega
  have hBpos : 0 < 2 ^ PAGE_SHIFT := Nat.pow_pos (by decide)
  have hstep := low_add_step_le sizeof_long PAGE_SHIFT a bdata.node_low_pfn hPS0 hPSW ha
    hreg.2.1
  obtain ⟨_, hmid, hwle⟩ := window_facts sizeof_long PAGE_SHIFT hL bdata limit hreg
  rw [PAGE_SIZE_eq _ _ hPSW, Nat.and_pow_two_sub_one_eq_mod] at hleo
  have hh : bdata.node_min_pfn + bdata.hint_idx + 2 ^ (a - PAGE_SHIFT) ≤
      2 ^ BITS_PER_LONG sizeof_long := by
    by_cases hwin : bdata.node_min_pfn < window_end PAGE_SHIFT bdata limit
    · obtain ⟨_, hsnw, _⟩ := window_start_facts sizeof_long PAGE_SHIFT bdata (a - PAGE_SHIFT)
        goal limit hk hstep hwin
      omega
    · have hws : window_start sizeof_long PAGE_SHIFT bdata (2 ^ (a - PAGE_SHIFT)) goal limit =
          ulong_sub sizeof_long (ALIGN sizeof_long bdata.node_min_pfn (2 ^ (a - PAGE_SHIFT)))
            bdata.node_min_pfn := by
        unfold window_start
        rw [if_neg (by omega)]
      have hkpos : 0 < 2 ^ (a - PAGE_SHIFT) := Nat.pow_pos (by decide)
      have hml := hreg.1.1
      obtain ⟨b1, b2⟩ := ALIGN_bounds sizeof_long bdata.node_min_pfn (a - PAGE_SHIFT) hk
        (by omega)
      have hd := ALIGN_dvd sizeof_long bdata.node_min_pfn (a - PAGE_SHIFT) hk
      have hlt : ALIGN sizeof_long bdata.node_min_pfn (2 ^ (a - PAGE_SHIFT)) <
          2 ^ BITS_PER_LONG sizeof_long := by omega
      have hadd := add_le_of_dvd_of_lt hd (pow_dvd_pow 2 hk) hlt
      rw [hws, ulong_sub_eq b1 (by unfold ULONG_MAX; omega)] at hhint
      omega
  have hfit := alloc_bootmem_core_fit sizeof_long PAGE_SHIFT hL bdata size a goal limit
    hPS0 hPSW hsz hsize ha hlim hreg hh
  constructor
  · intro addr b' h
    rcases hfit with ⟨hn, _⟩ | ⟨s, hf, hws, hcase, so, b1, hc, hpl⟩
    · rw [hn] at h; cases h
    · rw [hc] at h
      injection h with h
      injection h with h
      injection h with h1 h2
      injection h1 with h1
      obtain ⟨p1, _, _, _, p5, p6, _⟩ := hpl
      have hso : so = s * 2 ^ PAGE_SHIFT := by
        rcases p6 with e | ⟨e, _⟩
        · exact e
        · exact absurd hleo e
      refine ⟨s, ?_, hws, hf, ?_⟩
      · rw [← h1, hso, ← Nat.add_mul]
        exact (PFN_PHYS_eq (by
          have := Nat.mul_le_mul_right (2 ^ PAGE_SHIFT)
            (show bdata.node_min_pfn + s ≤ bdata.node_min_pfn +
              (window_end PAGE_SHIFT bdata limit - bdata.node_min_pfn) by omega)
          omega)).symm
      · rcases hcase with ⟨_, hleast⟩ | ⟨hgt, _⟩
        · exact hleast
        · omega
  · rintro ⟨t, hft, hwt⟩
    rcases hfit with ⟨_, hno⟩ | ⟨s, _, _, _, so, b1, hc, _⟩
    · exact absurd hwt (hno t hft)
    · exact ⟨_, b1, hc⟩

theorem alloc_bootmem_core_first_fit_witness :
    alloc_bootmem_core 8 12 region_64_free_10_20 12288 (2 ^ 12) 0 0 =
      some (Result.ok (some 40960, region_64_free_13_20)) ∧
    (∀ addr b', alloc_bootmem_core 8 12 region_64_free_10_20 12288 (2 ^ 12) 0 0 =
        some (Result.ok (some addr, b')) →
      ∃ s, addr = PFN_PHYS 8 12 (region_64_free_10_20.node_min_pfn + s) ∧
        window_start 8 12 region_64_free_10_20 (Nat.max (2 ^ 12 >>> 12) 1) 0 0 ≤ s ∧
        fits 8 region_64_free_10_20
          (window_end 12 region_64_free_10_20 0 - region_64_free_10_20.node_min_pfn)
          (Nat.max (2 ^ 12 >>> 12) 1) (PFN_UP 8 12 12288) s ∧
        ∀ t, fits 8 region_64_free_10_20
            (window_end 12 region_64_free_10_20 0 - region_64_free_10_20.node_min_pfn)
            (Nat.max (2 ^ 12 >>> 12) 1) (PFN_UP 8 12 12288) t →
          window_start 8 12 region_64_free_10_20 (Nat.max (2 ^ 12 >>> 12) 1) 0 0 ≤ t →
          s ≤ t) ∧
    ((∃ t, fits 8 region_64_free_10_20
          (window_end 12 region_64_free_10_20 0 - region_64_free_10_20.node_min_pfn)
          (Nat.max (2 ^ 12 >>> 12) 1) (PFN_UP 8 12 12288) t ∧
        window_start 8 12 region_64_free_10_20 (Nat.max (2 ^ 12 >>> 12) 1) 0 0 ≤ t) →
      ∃ addr b', alloc_bootmem_core 8 12 region_64_free_10_20 12288 (2 ^ 12) 0 0 =
        some (Result.ok (some addr, b'))) :=
  ⟨by decide, alloc_bootmem_core_first_fit 8 12 (by decide) region_64_free_10_20 12288 12 0 0
    (by decide) (by decide) (by decide) (by decide) (by decide) (by decide) (by decide)
    (by decide) (by decide)⟩

/-! ## The start offset chosen by the commit step -/

theorem align_off_bounds (sizeof_long PAGE_SHIFT : Nat) (bdata : bootmem_data) (off a : Nat)
    (ha : a ≤ BITS_PER_LONG sizeof_long)
    (hbase : bdata.node_min_pfn * 2 ^ PAGE_SHIFT ≤ ULONG_MAX sizeof_long)
    (hx : bdata.node_min_pfn * 2 ^ PAGE_SHIFT + off + (2 ^ a - 1) <
      2 ^ BITS_PER_LONG sizeof_long) :
    off ≤ align_off sizeof_long PAGE_SHIFT bdata off (2 ^ a) ∧
    align_off sizeof_long PAGE_SHIFT bdata off (2 ^ a) < off + 2 ^ a ∧
    2 ^ a ∣ bdata.node_min_pfn * 2 ^ PAGE_SHIFT +
      align_off sizeof_long PAGE_SHIFT bdata off (2 ^ a) := by
  have hapos : 0 < 2 ^ a := Nat.pow_pos (by decide)
  have hb := ALIGN_bounds sizeof_long (bdata.node_min_pfn * 2 ^ PAGE_SHIFT + off) a ha hx
  have hd := ALIGN_dvd sizeof_long (bdata.node_min_pfn * 2 ^ PAGE_SHIFT + off) a ha
  have hoff : align_off sizeof_long PAGE_SHIFT bdata off (2 ^ a) =
      ALIGN sizeof_long (bdata.node_min_pfn * 2 ^ PAGE_SHIFT + off) (2 ^ a) -
        bdata.node_min_pfn * 2 ^ PAGE_SHIFT := by
    unfold align_off
    simp only [PFN_PHYS_eq hbase]
    rw [ulong_of_le (by unfold ULONG_MAX; omega),
      ulong_sub_eq (by omega) (by unfold ULONG_MAX; omega)]
  rw [hoff]
  refine ⟨by omega, by omega, ?_⟩
  rw [Nat.add_sub_cancel' (by omega)]
  exact hd

theorem merge_condition_iff (sizeof_long PAGE_SHIFT : Nat) (bdata : bootmem_data) (s : Nat)
    (hPS0 : 0 < PAGE_SHIFT) (hPSW : PAGE_SHIFT < BITS_PER_LONG sizeof_long)
    (hleo : bdata.last_end_off ≤ ULONG_MAX sizeof_long) :
    (bdata.last_end_off &&& (PAGE_SIZE sizeof_long PAGE_SHIFT - 1) ≠ 0 ∧
      ulong sizeof_long (PFN_DOWN PAGE_SHIFT bdata.last_end_off + 1) = s) ↔
    merge_path PAGE_SHIFT bdata s := by
  have hBpos : 0 < 2 ^ PAGE_SHIFT := Nat.pow_pos (by decide)
  have hB2 : 2 ≤ 2 ^ PAGE_SHIFT := by
    have := Nat.pow_le_pow_right (show 0 < 2 by decide) hPS0
    simpa using this
  have hM4 : 4 ≤ 2 ^ BITS_PER_LONG sizeof_long := by
    have := Nat.pow_le_pow_right (show 0 < 2 by decide)
      (show 2 ≤ BITS_PER_LONG sizeof_long by omega)
    simpa using this
  have hq2 : bdata.last_end_off / 2 ^ PAGE_SHIFT * 2 ≤ bdata.last_end_off :=
    Nat.le_trans (Nat.mul_le_mul_left _ hB2) (Nat.div_mul_le_self _ _)
  have hULM : ULONG_MAX sizeof_long = 2 ^ BITS_PER_LONG sizeof_long - 1 := rfl
  unfold merge_path
  rw [PAGE_SIZE_eq _ _ hPSW, Nat.and_pow_two_sub_one_eq_mod, PFN_DOWN_eq,
    ulong_of_le (by omega)]

/-- The commit step at an index that fits: the block starts at the aligned
`last_end_off` on the merge path and at the start of frame `s` otherwise, and the
bits set are those from `s` to the end of the block. -/
theorem alloc_commit_exact (sizeof_long PAGE_SHIFT : Nat) (hL : 0 < sizeof_long)
    (bdata : bootmem_data) (size a limit s : Nat)
    (hPS0 : 0 < PAGE_SHIFT) (hPSW : PAGE_SHIFT < BITS_PER_LONG sizeof_long)
    (hsz : 0 < size) (hsize : size + (2 ^ PAGE_SHIFT - 1) ≤ ULONG_MAX sizeof_long)
    (ha : a < BITS_PER_LONG sizeof_long)
    (hreg : region_addressable sizeof_long PAGE_SHIFT bdata)
    (hf : fits sizeof_long bdata (window_end PAGE_SHIFT bdata limit - bdata.node_min_pfn)
      (2 ^ (a - PAGE_SHIFT)) (PFN_UP sizeof_long PAGE_SHIFT size) s) :
    ∃ so b', alloc_commit sizeof_long PAGE_SHIFT bdata size (2 ^ a) s =
        Result.ok (some (bdata.node_min_pfn * 2 ^ PAGE_SHIFT + so), b') ∧
      so = (if merge_path PAGE_SHIFT bdata s then
          align_off sizeof_long PAGE_SHIFT bdata bdata.last_end_off (2 ^ a)
        else s * 2 ^ PAGE_SHIFT) ∧
      (merge_path PAGE_SHIFT bdata s →
        bdata.last_end_off ≤ so ∧ so < bdata.last_end_off + 2 ^ a ∧
        2 ^ a ∣ bdata.node_min_pfn * 2 ^ PAGE_SHIFT + so) ∧
      so ≤ s * 2 ^ PAGE_SHIFT ∧
      so / 2 ^ PAGE_SHIFT + (if so / 2 ^ PAGE_SHIFT < s then 1 else 0) = s ∧
      so + size ≤ ULONG_MAX sizeof_long ∧
      placed_at sizeof_long PAGE_SHIFT bdata b' size s so
        (window_end PAGE_SHIFT bdata limit - bdata.node_min_pfn) := by
  obtain ⟨so, b', hc, hpl⟩ := alloc_commit_of_fits sizeof_long PAGE_SHIFT hL bdata size a limit s
    hPS0 hPSW hsz hsize ha hreg hf
  obtain ⟨hin, hmid, hwle⟩ := window_facts sizeof_long PAGE_SHIFT hL bdata limit hreg
  obtain ⟨hcov, hlow, hleo⟩ := hreg
  have hBpos : 0 < 2 ^ PAGE_SHIFT := Nat.pow_pos (by decide)
  have hB2 : 2 ≤ 2 ^ PAGE_SHIFT := by
    have := Nat.pow_le_pow_right (show 0 < 2 by decide) hPS0
    simpa using this
  have hapos : 0 < 2 ^ a := Nat.pow_pos (by decide)
  have hULM : ULONG_MAX sizeof_long = 2 ^ BITS_PER_LONG sizeof_long - 1 := rfl
  have hMpos := two_pow_bits_pos sizeof_long
  obtain ⟨f1, f2, f3⟩ := hf
  have hs : s < window_end PAGE_SHIFT bdata limit - bdata.node_min_pfn := hpl.1
  have hmid' : bdata.node_min_pfn * 2 ^ PAGE_SHIFT +
      (window_end PAGE_SHIFT bdata limit - bdata.node_min_pfn) * 2 ^ PAGE_SHIFT ≤
      ULONG_MAX sizeof_long := by rw [← Nat.add_mul]; exact hmid
  have hsB : s * 2 ^ PAGE_SHIFT + 2 ^ PAGE_SHIFT ≤
      (window_end PAGE_SHIFT bdata limit - bdata.node_min_pfn) * 2 ^ PAGE_SHIFT := by
    have := Nat.mul_le_mul_right (2 ^ PAGE_SHIFT) (Nat.succ_le_of_lt hs)
    rwa [Nat.succ_mul] at this
  have hbase : bdata.node_min_pfn * 2 ^ PAGE_SHIFT ≤ ULONG_MAX sizeof_long := by omega
  obtain ⟨so', hso', g1, g2, g3⟩ := start_off_facts sizeof_long PAGE_SHIFT bdata a s _
    hPS0 hPSW ha hleo hs hmid f1
  have haddr := alloc_commit_addr_eq sizeof_long PAGE_SHIFT bdata b' size (2 ^ a) s _ hc
  rw [hso', PFN_PHYS_eq hbase, ulong_of_le (by omega)] at haddr
  injection haddr with haddr
  have hsoeq : so = so' := by omega
  subst hsoeq
  have hiff := merge_condition_iff sizeof_long PAGE_SHIFT bdata s hPS0 hPSW hleo
  have hplain : PFN_PHYS sizeof_long PAGE_SHIFT s = s * 2 ^ PAGE_SHIFT :=
    PFN_PHYS_eq (by omega)
  have hpe := pfn_up_pos sizeof_long PAGE_SHIFT size hPSW hsz hsize
  refine ⟨so, b', hc, ?_, ?_, g1, ?_, ?_, hpl⟩
  · by_cases hm : merge_path PAGE_SHIFT bdata s
    · rw [if_pos hm, ← hso', if_pos (hiff.mpr hm)]
    · rw [if_neg hm, ← hso', if_neg (fun h => hm (hiff.mp h)), hplain]
  · intro hm
    have hTd : 2 ^ a ∣ bdata.node_min_pfn * 2 ^ PAGE_SHIFT + s * 2 ^ PAGE_SHIFT := by
      rw [← Nat.add_mul]
      exact frame_addr_dvd PAGE_SHIFT a _ f1
    have hTM := add_le_of_dvd_of_lt hTd (pow_dvd_pow 2 (Nat.le_of_lt ha))
      (show bdata.node_min_pfn * 2 ^ PAGE_SHIFT + s * 2 ^ PAGE_SHIFT <
        2 ^ BITS_PER_LONG sizeof_long by omega)
    have hlt : bdata.last_end_off < s * 2 ^ PAGE_SHIFT := by
      obtain ⟨m1, m2⟩ := hm
      have hdm := Nat.div_add_mod bdata.last_end_off (2 ^ PAGE_SHIFT)
      have hml := Nat.mod_lt bdata.last_end_off hBpos
      rw [← m2, Nat.succ_mul]
      rw [Nat.mul_comm] at hdm
      omega
    obtain ⟨b1, b2, b3⟩ := align_off_bounds sizeof_long PAGE_SHIFT bdata bdata.last_end_off a
      (Nat.le_of_lt ha) hbase (by omega)
    rw [← hso', if_pos (hiff.mpr hm)]
    exact ⟨b1, b2, b3⟩
  · have h3 := g3
    rw [PFN_DOWN_eq] at h3
    have hle : so / 2 ^ PAGE_SHIFT ≤ s := by
      rw [Nat.div_le_iff_le_mul_add_pred hBpos]
      have := Nat.mul_comm (2 ^ PAGE_SHIFT) s
      omega
    rw [ulong_of_le (by
      have : s ≤ s * 2 ^ PAGE_SHIFT := Nat.le_mul_of_pos_right s hBpos
      split <;> omega)] at h3
    exact h3
  · have hp2 := hpl.2.1
    clear hso' hiff haddr g2 g3
    have hee : ulong sizeof_long (s + PFN_UP sizeof_long PAGE_SHIFT size) =
        s + PFN_UP sizeof_long PAGE_SHIFT size := by
      apply ulong_of_le
      have e2 : PFN_UP sizeof_long PAGE_SHIFT size * 2 ≤
          PFN_UP sizeof_long PAGE_SHIFT size * 2 ^ PAGE_SHIFT := Nat.mul_le_mul_left _ hB2
      have : s * 2 ≤ s * 2 ^ PAGE_SHIFT := Nat.mul_le_mul_left _ hB2
      omega
    rw [hee] at hp2
    have e3 : (s + PFN_UP sizeof_long PAGE_SHIFT size) * 2 ^ PAGE_SHIFT ≤
        (window_end PAGE_SHIFT bdata limit - bdata.node_min_pfn) * 2 ^ PAGE_SHIFT :=
      Nat.mul_le_mul_right _ hp2
    rw [Nat.add_mul] at e3
    have e4 : size ≤ PFN_UP sizeof_long PAGE_SHIFT size * 2 ^ PAGE_SHIFT := by
      rw [PFN_UP_eq _ _ _ hPSW, Nat.mod_eq_of_lt (by omega)]
      have hdm := Nat.div_add_mod (size + (2 ^ PAGE_SHIFT - 1)) (2 ^ PAGE_SHIFT)
      have hml := Nat.mod_lt (size + (2 ^ PAGE_SHIFT - 1)) hBpos
      rw [Nat.mul_comm] at hdm
      omega
    omega

/-! ## A successful call, traced to the index it found -/

theorem alloc_bootmem_core_placed (sizeof_long PAGE_SHIFT : Nat) (hL : 0 < sizeof_long)
    (bdata b' : bootmem_data) (size a goal limit addr : Nat)
    (hPS0 : 0 < PAGE_SHIFT) (hPSW : PAGE_SHIFT < BITS_PER_LONG sizeof_long)
    (hsz : 0 < size) (hsize : size + (2 ^ PAGE_SHIFT - 1) ≤ ULONG_MAX sizeof_long)
    (ha : a < BITS_PER_LONG sizeof_long) (hlim : limit = 0 ∨ goal + size ≤ limit)
    (hreg : region_addressable sizeof_long PAGE_SHIFT bdata)
    (h : alloc_bootmem_core sizeof_long PAGE_SHIFT bdata size (2 ^ a) goal limit =
      some (Result.ok (some addr, b'))) :
    ∃ s so, fits sizeof_long bdata (window_end PAGE_SHIFT bdata limit - bdata.node_min_pfn)
        (2 ^ (a - PAGE_SHIFT)) (PFN_UP sizeof_long PAGE_SHIFT size) s ∧
      addr = bdata.node_min_pfn * 2 ^ PAGE_SHIFT + so ∧
      so = (if merge_path PAGE_SHIFT bdata s then
          align_off sizeof_long PAGE_SHIFT bdata bdata.last_end_off (2 ^ a)
        else s * 2 ^ PAGE_SHIFT) ∧
      (merge_path PAGE_SHIFT bdata s →
        bdata.last_end_off ≤ so ∧ so < bdata.last_end_off + 2 ^ a ∧
        2 ^ a ∣ bdata.node_min_pfn * 2 ^ PAGE_SHIFT + so) ∧
      so ≤ s * 2 ^ PAGE_SHIFT ∧
      so / 2 ^ PAGE_SHIFT + (if so / 2 ^ PAGE_SHIFT < s then 1 else 0) = s ∧
      so + size ≤ ULONG_MAX sizeof_long ∧
      placed_at sizeof_long PAGE_SHIFT bdata b' size s so
        (window_end PAGE_SHIFT bdata limit - bdata.node_min_pfn) := by
  rcases alloc_bootmem_core_cases sizeof_long PAGE_SHIFT hL bdata size a goal limit
    hPS0 hPSW hsz hsize ha hlim hreg with ⟨hn, _⟩ | ⟨s, hf, hc⟩
  · rw [hn] at h; cases h
  · obtain ⟨so, b1, hco, e1, e2, e3, e4, e5, hpl⟩ := alloc_commit_exact sizeof_long PAGE_SHIFT hL
      bdata size a limit s hPS0 hPSW hsz hsize ha hreg hf
    rw [hc, hco] at h
    injection h with h
    injection h with h
    injection h with h1 h2
    injection h1 with h1
    subst h2
    exact ⟨s, so, hf, h1.symm, e1, e2, e3, e4, e5, hpl⟩

/-! ## Claim on the merge with the previous allocation -/

/-- Claim C33.  Merge with the previous allocation.  For an addressable region
and a request that meets the preconditions, a successful `alloc_bootmem_core`
found an index `sidx` and placed the block at the offset `start_off` from the
region's physical base, where `start_off` is `align_off(last_end_off, align)`
exactly when `last_end_off` is not page-aligned and
`PFN_DOWN(last_end_off) + 1 = sidx`, and `PFN_PHYS(sidx)` otherwise.  On the
merge path the address is a multiple of `align` less than `align` bytes after the
previous end, `last_end_off <= start_off <= PFN_PHYS(sidx)`, and the block begins
at most one frame before `sidx`.  The bit range reserved begins at `sidx`: every
bit set by the call was clear before, and every other bit, the one of frame
`sidx - 1` included, is unchanged. -/
theorem alloc_bootmem_core_merge_path (sizeof_long PAGE_SHIFT : Nat) (hL : 0 < sizeof_long)
    (bdata b' : bootmem_data) (size a goal limit addr : Nat)
    (hPS0 : 0 < PAGE_SHIFT) (hPSW : PAGE_SHIFT < BITS_PER_LONG sizeof_long)
    (hsz : 0 < size) (hsize : size + (2 ^ PAGE_SHIFT - 1) ≤ ULONG_MAX sizeof_long)
    (ha : a < BITS_PER_LONG sizeof_long) (hlim : limit = 0 ∨ goal + size ≤ limit)
    (hreg : region_addressable sizeof_long PAGE_SHIFT bdata)
    (h : alloc_bootmem_core sizeof_long PAGE_SHIFT bdata size (2 ^ a) goal limit =
      some (Result.ok (some addr, b'))) :
    ∃ sidx start_off,
      fits sizeof_long bdata (window_end PAGE_SHIFT bdata limit - bdata.node_min_pfn)
        (Nat.max (2 ^ a >>> PAGE_SHIFT) 1) (PFN_UP sizeof_long PAGE_SHIFT size) sidx ∧
      addr = PFN_PHYS sizeof_long PAGE_SHIFT bdata.node_min_pfn + start_off ∧
      start_off = (if merge_path PAGE_SHIFT bdata sidx then
          align_off sizeof_long PAGE_SHIFT bdata bdata.last_end_off (2 ^ a)
        else PFN_PHYS sizeof_long PAGE_SHIFT sidx) ∧
      (merge_path PAGE_SHIFT bdata sidx →
        2 ^ a ∣ addr ∧ start_off < bdata.last_end_off + 2 ^ a ∧
        bdata.last_end_off ≤ start_off ∧
        start_off ≤ PFN_PHYS sizeof_long PAGE_SHIFT sidx ∧
        sidx ≤ PFN_DOWN PAGE_SHIFT start_off + 1) ∧
      PFN_DOWN PAGE_SHIFT start_off +
        (if PFN_DOWN PAGE_SHIFT start_off < sidx then 1 else 0) = sidx ∧
      (∀ i, sidx ≤ i →
        i < PFN_UP sizeof_long PAGE_SHIFT (ulong sizeof_long (start_off + size)) →
        test_bit sizeof_long i bdata.node_bootmem_map = Result.ok false) ∧
      ∀ i, test_bit sizeof_long i b'.node_bootmem_map =
        if sidx ≤ i ∧
            i < PFN_UP sizeof_long PAGE_SHIFT (ulong sizeof_long (start_off + size))
        then Result.ok true else test_bit sizeof_long i bdata.node_bootmem_map := by
  rw [step_eq]
  obtain ⟨s, so, hf, h1, h2, h3, h4, h5, h6, hpl⟩ := alloc_bootmem_core_placed sizeof_long
    PAGE_SHIFT hL bdata b' size a goal limit addr hPS0 hPSW hsz hsize ha hlim hreg h
  obtain ⟨_, hmid, _⟩ := window_facts sizeof_long PAGE_SHIFT hL bdata limit hreg
  have hBpos : 0 < 2 ^ PAGE_SHIFT := Nat.pow_pos (by decide)
  obtain ⟨p1, p2, p3, _, _, _, _, _, _, _, p11, p12⟩ := hpl
  have hsB : s * 2 ^ PAGE_SHIFT + 2 ^ PAGE_SHIFT ≤
      (window_end PAGE_SHIFT bdata limit - bdata.node_min_pfn) * 2 ^ PAGE_SHIFT := by
    have := Nat.mul_le_mul_right (2 ^ PAGE_SHIFT) (Nat.succ_le_of_lt p1)
    rwa [Nat.succ_mul] at this
  rw [Nat.add_mul] at hmid
  have hbase : PFN_PHYS sizeof_long PAGE_SHIFT bdata.node_min_pfn =
      bdata.node_min_pfn * 2 ^ PAGE_SHIFT := PFN_PHYS_eq (by omega)
  have hplain : PFN_PHYS sizeof_long PAGE_SHIFT s = s * 2 ^ PAGE_SHIFT :=
    PFN_PHYS_eq (by omega)
  refine ⟨s, so, hf, by rw [hbase]; exact h1, by rw [hplain]; exact h2, ?_, ?_, ?_, p12⟩
  · intro hm
    obtain ⟨m1, m2, m3⟩ := h3 hm
    refine ⟨by rw [h1]; exact m3, m2, m1, by rw [hplain]; exact h4, ?_⟩
    rw [PFN_DOWN_eq]
    split at h5 <;> omega
  · rw [PFN_DOWN_eq]; exact h5
  · intro i hi1 hi2
    exact p3 i hi1 (by omega)

theorem alloc_bootmem_core_merge_path_witness :
    alloc_bootmem_core 8 12 region_3_67_used 5000 (2 ^ 6) 0 0 =
      some (Result.ok (some 53376, region_3_67_placed)) ∧
    ∃ sidx start_off,
      fits 8 region_3_67_used
        (window_end 12 region_3_67_used 0 - region_3_67_used.node_min_pfn)
        (Nat.max (2 ^ 6 >>> 12) 1) (PFN_UP 8 12 5000) sidx ∧
      53376 = PFN_PHYS 8 12 region_3_67_used.node_min_pfn + start_off ∧
      start_off = (if merge_path 12 region_3_67_used sidx then
          align_off 8 12 region_3_67_used region_3_67_used.last_end_off (2 ^ 6)
        else PFN_PHYS 8 12 sidx) ∧
      (merge_path 12 region_3_67_used sidx →
        2 ^ 6 ∣ 53376 ∧ start_off < region_3_67_used.last_end_off + 2 ^ 6 ∧
        region_3_67_used.last_end_off ≤ start_off ∧
        start_off ≤ PFN_PHYS 8 12 sidx ∧
        sidx ≤ PFN_DOWN 12 start_off + 1) ∧
      PFN_DOWN 12 start_off + (if PFN_DOWN 12 start_off < sidx then 1 else 0) = sidx ∧
      (∀ i, sidx ≤ i → i < PFN_UP 8 12 (ulong 8 (start_off + 5000)) →
        test_bit 8 i region_3_67_used.node_bootmem_map = Result.ok false) ∧
      ∀ i, test_bit 8 i region_3_67_placed.node_bootmem_map =
        if sidx ≤ i ∧ i < PFN_UP 8 12 (ulong 8 (start_off + 5000))
        then Result.ok true else test_bit 8 i region_3_67_used.node_bootmem_map :=
  ⟨by decide, alloc_bootmem_core_merge_path 8 12 (by decide) region_3_67_used
    region_3_67_placed 5000 6 0 0 53376 (by decide) (by decide) (by decide) (by decide)
    (by decide) (by decide) (by decide) (by decide)⟩

/-! ## Claim on the state after a successful allocation -/

/-- Claim C21.  State after a successful `alloc_bootmem_core`.  For an
addressable region and a call with a power-of-two alignment and `limit = 0` or
`goal + size <= limit` that returns an address, let `sidx` be the index the
search found (the block fits there), `start_off` the region offset of the block
(the aligned `last_end_off` exactly on the merge path, `PFN_PHYS(sidx)`
otherwise; the address returned is `PFN_PHYS(node_min_pfn) + start_off`) and
`merge` the value of the source, 1 when `PFN_DOWN(start_off) < sidx` and 0
otherwise, which is 1 exactly when `start_off` is not page-aligned.  Then
`PFN_DOWN(start_off) + merge = sidx`, `start_off + size` fits an
`unsigned long`, `last_end_off = start_off + size`,
`hint_idx = PFN_UP(start_off + size)`, the frame bounds are unchanged, every bit
of `[PFN_DOWN(start_off) + merge, PFN_UP(start_off + size))` lies in the search
window, was clear before the call and is set after it, and every other bit of
the bitmap reads as before. -/
theorem alloc_bootmem_core_state_after (sizeof_long PAGE_SHIFT : Nat) (hL : 0 < sizeof_long)
    (bdata b' : bootmem_data) (size a goal limit addr : Nat)
    (hPS0 : 0 < PAGE_SHIFT) (hPSW : PAGE_SHIFT < BITS_PER_LONG sizeof_long)
    (ha : a < BITS_PER_LONG sizeof_long) (hlim : limit = 0 ∨ goal + size ≤ limit)
    (hreg : region_addressable sizeof_long PAGE_SHIFT bdata)
    (h : alloc_bootmem_core sizeof_long PAGE_SHIFT bdata size (2 ^ a) goal limit =
      some (Result.ok (some addr, b'))) :
    ∃ sidx start_off merge,
      fits sizeof_long bdata (window_end PAGE_SHIFT bdata limit - bdata.node_min_pfn)
        (Nat.max (2 ^ a >>> PAGE_SHIFT) 1) (PFN_UP sizeof_long PAGE_SHIFT size) sidx ∧
      start_off = (if merge_path PAGE_SHIFT bdata sidx then
          align_off sizeof_long PAGE_SHIFT bdata bdata.last_end_off (2 ^ a)
        else PFN_PHYS sizeof_long PAGE_SHIFT sidx) ∧
      merge = (if PFN_DOWN PAGE_SHIFT start_off < sidx then 1 else 0) ∧
      (merge = 1 ↔ start_off % 2 ^ PAGE_SHIFT ≠ 0) ∧
      PFN_DOWN PAGE_SHIFT start_off + merge = sidx ∧
      addr = PFN_PHYS sizeof_long PAGE_SHIFT bdata.node_min_pfn + start_off ∧
      start_off + size ≤ ULONG_MAX sizeof_long ∧
      b'.last_end_off = start_off + size ∧
      b'.hint_idx = PFN_UP sizeof_long PAGE_SHIFT (start_off + size) ∧
      b'.node_min_pfn = bdata.node_min_pfn ∧ b'.node_low_pfn = bdata.node_low_pfn ∧
      PFN_UP sizeof_long PAGE_SHIFT (start_off + size) ≤
        window_end PAGE_SHIFT bdata limit - bdata.node_min_pfn ∧
      (∀ i, PFN_DOWN PAGE_SHIFT start_off + merge ≤ i →
        i < PFN_UP sizeof_long PAGE_SHIFT (start_off + size) →
        test_bit sizeof_long i bdata.node_bootmem_map = Result.ok false) ∧
      ∀ i, test_bit sizeof_long i b'.node_bootmem_map =
        if PFN_DOWN PAGE_SHIFT start_off + merge ≤ i ∧
            i < PFN_UP sizeof_long PAGE_SHIFT (start_off + size)
        then Result.ok true else test_bit sizeof_long i bdata.node_bootmem_map := by
  have hsz : 0 < size := by
    rcases Nat.eq_zero_or_pos size with h0 | h0
    · subst h0
      unfold alloc_bootmem_core at h
      rw [if_pos rfl] at h
      cases h
    · exact h0
  obtain ⟨_, _, hsize⟩ := alloc_bootmem_core_block_inside sizeof_long PAGE_SHIFT bdata b' size
    (2 ^ a) goal limit addr hPSW hreg.2.1 h
  rw [step_eq]
  obtain ⟨s, so, hf, h1, h2, h3, h4, h5, h6, hpl⟩ := alloc_bootmem_core_placed sizeof_long
    PAGE_SHIFT hL bdata b' size a goal limit addr hPS0 hPSW hsz hsize ha hlim hreg h
  obtain ⟨_, hmid, _⟩ := window_facts sizeof_long PAGE_SHIFT hL bdata limit hreg
  have hBpos : 0 < 2 ^ PAGE_SHIFT := Nat.pow_pos (by decide)
  obtain ⟨p1, p2, p3, _, _, p6, p7, p8, p9, p10, p11, p12⟩ := hpl
  have hsB : s * 2 ^ PAGE_SHIFT + 2 ^ PAGE_SHIFT ≤
      (window_end PAGE_SHIFT bdata limit - bdata.node_min_pfn) * 2 ^ PAGE_SHIFT := by
    have := Nat.mul_le_mul_right (2 ^ PAGE_SHIFT) (Nat.succ_le_of_lt p1)
    rwa [Nat.succ_mul] at this
  rw [Nat.add_mul] at hmid
  have hbase : PFN_PHYS sizeof_long PAGE_SHIFT bdata.node_min_pfn =
      bdata.node_min_pfn * 2 ^ PAGE_SHIFT := PFN_PHYS_eq (by omega)
  have hplain : PFN_PHYS sizeof_long PAGE_SHIFT s = s * 2 ^ PAGE_SHIFT :=
    PFN_PHYS_eq (by omega)
  have hu : ulong sizeof_long (so + size) = so + size := ulong_of_le h6
  rw [hu] at p9 p10 p11 p12
  have hdm := Nat.div_add_mod so (2 ^ PAGE_SHIFT)
  have hml := Nat.mod_lt so hBpos
  rw [Nat.mul_comm] at hdm
  have hmerge : so / 2 ^ PAGE_SHIFT < s ↔ so % 2 ^ PAGE_SHIFT ≠ 0 := by
    constructor
    · intro hlt hr0
      rcases p6 with e | ⟨m1, m2, m3⟩
      · have : so / 2 ^ PAGE_SHIFT = s := by
          rw [e, Nat.mul_div_cancel _ hBpos]
        omega
      · have hd2 := Nat.div_add_mod bdata.last_end_off (2 ^ PAGE_SHIFT)
        rw [Nat.mul_comm] at hd2
        have hle : so / 2 ^ PAGE_SHIFT * 2 ^ PAGE_SHIFT ≤
            bdata.last_end_off / 2 ^ PAGE_SHIFT * 2 ^ PAGE_SHIFT :=
          Nat.mul_le_mul_right _ (by omega)
        omega
    · intro hr0
      by_contra hge
      have hle : s * 2 ^ PAGE_SHIFT ≤ so / 2 ^ PAGE_SHIFT * 2 ^ PAGE_SHIFT :=
        Nat.mul_le_mul_right _ (by omega)
      omega
  refine ⟨s, so, if so / 2 ^ PAGE_SHIFT < s then 1 else 0, hf, by rw [hplain]; exact h2,
    by rw [PFN_DOWN_eq], ?_, by rw [PFN_DOWN_eq]; exact h5, by rw [hbase]; exact h1, h6, p9,
    p10, p7, p8, Nat.le_trans p11 p2, ?_, ?_⟩
  · rw [← hmerge]
    by_cases hlt : so / 2 ^ PAGE_SHIFT < s
    · simp [hlt]
    · simp [hlt]
  · intro i hi1 hi2
    rw [PFN_DOWN_eq, h5] at hi1
    exact p3 i hi1 (by omega)
  · intro i
    rw [PFN_DOWN_eq, h5]
    exact p12 i

theorem alloc_bootmem_core_state_after_witness :
    alloc_bootmem_core 8 12 region_64_free_10_20 4096 (2 ^ 0) 0 0 =
      some (Result.ok (some 40960, region_64_free_11_20)) ∧
    ∃ sidx start_off merge,
      fits 8 region_64_free_10_20
        (window_end 12 region_64_free_10_20 0 - region_64_free_10_20.node_min_pfn)
        (Nat.max (2 ^ 0 >>> 12) 1) (PFN_UP 8 12 4096) sidx ∧
      start_off = (if merge_path 12 region_64_free_10_20 sidx then
          align_off 8 12 region_64_free_10_20 region_64_free_10_20.last_end_off (2 ^ 0)
        else PFN_PHYS 8 12 sidx) ∧
      merge = (if PFN_DOWN 12 start_off < sidx then 1 else 0) ∧
      (merge = 1 ↔ start_off % 2 ^ 12 ≠ 0) ∧
      PFN_DOWN 12 start_off + merge = sidx ∧
      40960 = PFN_PHYS 8 12 region_64_free_10_20.node_min_pfn + start_off ∧
      start_off + 4096 ≤ ULONG_MAX 8 ∧
      region_64_free_11_20.last_end_off = start_off + 4096 ∧
      region_64_free_11_20.hint_idx = PFN_UP 8 12 (start_off + 4096) ∧
      region_64_free_11_20.node_min_pfn = region_64_free_10_20.node_min_pfn ∧
      region_64_free_11_20.node_low_pfn = region_64_free_10_20.node_low_pfn ∧
      PFN_UP 8 12 (start_off + 4096) ≤
        window_end 12 region_64_free_10_20 0 - region_64_free_10_20.node_min_pfn ∧
      (∀ i, PFN_DOWN 12 start_off + merge ≤ i → i < PFN_UP 8 12 (start_off + 4096) →
        test_bit 8 i region_64_free_10_20.node_bootmem_map = Result.ok false) ∧
      ∀ i, test_bit 8 i region_64_free_11_20.node_bootmem_map =
        if PFN_DOWN 12 start_off + merge ≤ i ∧ i < PFN_UP 8 12 (start_off + 4096)
        then Result.ok true else test_bit 8 i region_64_free_10_20.node_bootmem_map :=
  ⟨by decide, alloc_bootmem_core_state_after 8 12 (by decide) region_64_free_10_20
    region_64_free_11_20 4096 0 0 0 40960 (by decide) (by decide) (by decide) (by decide)
    (by decide) (by decide)⟩

/-! ## Live allocations on the registry -/

theorem free_loop_ok_set (sizeof_long : Nat) (hL : 0 < sizeof_long) (n : Nat) :
    ∀ (bdata b' : bootmem_data) (idx : Nat),
      __free_loop sizeof_long bdata idx n = Result.ok b' →
      ∀ i, idx ≤ i → i < idx + n →
        test_bit sizeof_long i bdata.node_bootmem_map = Result.ok true := by
  induction n with
  | zero =>
    intro bdata b' idx _ i h1 h2
    omega
  | succ n ih =>
    intro bdata b' idx h i h1 h2
    cases ht : test_bit sizeof_long idx bdata.node_bootmem_map with
    | bug => exact absurd ht (test_bit_ne_bug _ _ _)
    | fault =>
      simp only [__free_loop, test_and_clear_bit_fault ht] at h
      cases h
    | ok old =>
      obtain ⟨m, hm, hbits⟩ := test_and_clear_bit_ok hL ht
      simp only [__free_loop, hm] at h
      cases old with
      | false => simp at h
      | true =>
        simp only [Bool.not_true, Bool.false_eq_true, if_false] at h
        by_cases hi : i = idx
        · subst hi; exact ht
        · have h' : test_bit sizeof_long i (some m) = Result.ok true :=
            ih _ b' (idx + 1) h i (by omega) (by omega)
          rw [hbits i, if_neg hi] at h'
          exact h'

theorem free_ok_set (sizeof_long : Nat) (hL : 0 < sizeof_long) (bdata b' : bootmem_data)
    (sidx eidx : Nat) (h : __free sizeof_long bdata sidx eidx = Result.ok b') :
    ∀ i, sidx ≤ i → i < eidx →
      test_bit sizeof_long i bdata.node_bootmem_map = Result.ok true := by
  have hmap : (if bdata.hint_idx > sidx then { bdata with hint_idx := sidx } else bdata
      ).node_bootmem_map = bdata.node_bootmem_map := by
    split <;> rfl
  intro i h1 h2
  have := free_loop_ok_set sizeof_long hL (eidx - sidx) _ b' sidx h i h1 (by omega)
  rw [hmap] at this
  exact this

/-- A `mark_bootmem_node` call with `reserve = 0` that returns: the bits of the
range were all set, they are clear afterwards, and nothing else changed. -/
theorem node_free_ok (sizeof_long : Nat) (hL : 0 < sizeof_long) (j j' : bootmem_data)
    (s e : Nat) (err : Int)
    (h : mark_bootmem_node sizeof_long j s e 0 0 = Result.ok (err, j')) :
    err = 0 ∧ j.node_min_pfn ≤ s ∧ e ≤ j.node_low_pfn ∧
    j'.node_min_pfn = j.node_min_pfn ∧ j'.node_low_pfn = j.node_low_pfn ∧
    j'.last_end_off = j.last_end_off ∧
    (∀ i, ulong_sub sizeof_long s j.node_min_pfn ≤ i →
      i < ulong_sub sizeof_long e j.node_min_pfn →
      test_bit sizeof_long i j.node_bootmem_map = Result.ok true) ∧
    ∀ i, test_bit sizeof_long i j'.node_bootmem_map =
      if ulong_sub sizeof_long s j.node_min_pfn ≤ i ∧
          i < ulong_sub sizeof_long e j.node_min_pfn then Result.ok false
      else test_bit sizeof_long i j.node_bootmem_map := by
  obtain ⟨f1, f2, f3, hmin, hlow⟩ := mark_bootmem_node_fields sizeof_long _ _ _ _ _ _ _ h
  rw [mark_bootmem_node_inside sizeof_long j s e 0 0 hmin hlow, if_neg (by decide)] at h
  cases hf : __free sizeof_long j (ulong_sub sizeof_long s j.node_min_pfn)
      (ulong_sub sizeof_long e j.node_min_pfn) with
  | fault => rw [hf] at h; cases h
  | bug => rw [hf] at h; cases h
  | ok b2 =>
    rw [hf] at h
    injection h with h
    injection h with h0 h2
    subst h2
    have hset := free_ok_set sizeof_long hL _ _ _ _ hf
    obtain ⟨b3, hb3, hbits, _, _⟩ := free_ok_spec sizeof_long hL j _ _ hset
    rw [hf] at hb3
    injection hb3 with hb3
    subst hb3
    exact ⟨h0.symm, hmin, hlow, f1, f2, f3, hset, hbits⟩

/-- The walk of a free over the registry when every region that holds the frame
`start` also holds the end of the range: a walk that returns has marked one
region, the first that holds `start`. -/
theorem walk_free_single (sizeof_long : Nat)
    (rb : Nat → Nat → List bootmem_data → Result (Int × List bootmem_data))
    (start end_ : Nat) (rest : List bootmem_data) :
    ∀ visited r l',
      (∀ c ∈ rest, c.node_min_pfn ≤ start → start < c.node_low_pfn →
        end_ ≤ c.node_low_pfn) →
      mark_bootmem_walk sizeof_long rb start end_ 0 0 start visited rest =
        Result.ok (r, l') →
      ∃ pre j post j' err, rest = pre ++ j :: post ∧
        j.node_min_pfn ≤ start ∧ start < j.node_low_pfn ∧
        mark_bootmem_node sizeof_long j start end_ 0 0 = Result.ok (err, j') ∧
        l' = visited ++ pre ++ j' :: post := by
  induction rest with
  | nil => intro visited r l' _ h; simp [mark_bootmem_walk] at h
  | cons c rest ih =>
    intro visited r l' hend h
    simp only [mark_bootmem_walk] at h
    by_cases hskip : start < c.node_min_pfn ∨ start ≥ c.node_low_pfn
    · rw [if_pos hskip, if_neg (by simp)] at h
      obtain ⟨pre, j, post, j', err, e1, e2, e3, e4, e5⟩ :=
        ih _ r l' (fun d hd => hend d (List.mem_cons_of_mem _ hd)) h
      refine ⟨c :: pre, j, post, j', err, by rw [e1]; rfl, e2, e3, e4, ?_⟩
      rw [e5]
      simp
    · rw [if_neg hskip] at h
      have hle := hend c (List.mem_cons_self _ _) (by omega) (by omega)
      have hmin : min c.node_low_pfn end_ = end_ := Nat.min_eq_right hle
      rw [hmin] at h
      cases hn : mark_bootmem_node sizeof_long c start end_ 0 0 with
      | fault => rw [hn] at h; cases h
      | bug => rw [hn] at h; cases h
      | ok p =>
        obtain ⟨err, c'⟩ := p
        rw [hn] at h
        simp only [ne_eq, not_true_eq_false, false_and, if_false, if_true] at h
        injection h with h
        injection h with _ h
        exact ⟨[], c, rest, c', err, rfl, by omega, by omega, hn, by rw [← h]; simp⟩

/-- The walk of a free over the registry reaches the region that holds the frame
`start` and marks it, when no earlier region holds `start` and the range ends
inside the region. -/
theorem walk_free_at (sizeof_long : Nat)
    (rb : Nat → Nat → List bootmem_data → Result (Int × List bootmem_data))
    (start end_ : Nat) (b b' : bootmem_data) (post : List bootmem_data) (err : Int)
    (h1 : b.node_min_pfn ≤ start) (h2 : start < b.node_low_pfn)
    (h3 : end_ ≤ b.node_low_pfn)
    (hn : mark_bootmem_node sizeof_long b start end_ 0 0 = Result.ok (err, b'))
    (pre : List bootmem_data) :
    ∀ visited,
      (∀ c ∈ pre, ¬ (c.node_min_pfn ≤ start ∧ start < c.node_low_pfn)) →
      mark_bootmem_walk sizeof_long rb start end_ 0 0 start visited (pre ++ b :: post) =
        Result.ok (0, visited ++ pre ++ b' :: post) := by
  induction pre with
  | nil =>
    intro visited _
    simp only [List.nil_append, mark_bootmem_walk]
    rw [if_neg (by omega), Nat.min_eq_right h3, hn]
    simp
  | cons c pre ih =>
    intro visited hno
    have h0 := hno c (List.mem_cons_self _ _)
    simp only [List.cons_append, mark_bootmem_walk, List.append_eq]
    rw [if_pos (by omega), if_neg (by simp), ih _ (fun d hd => hno d (List.mem_cons_of_mem _ hd))]
    simp

theorem alloc_bootmem_regions_shape (sizeof_long PAGE_SHIFT size align goal limit : Nat)
    (rest : List bootmem_data) :
    ∀ visited addr l',
      alloc_bootmem_regions sizeof_long PAGE_SHIFT size align goal limit visited rest =
        some (Result.ok (some addr, l')) →
      ∃ pre b post b', rest = pre ++ b :: post ∧ l' = visited ++ pre ++ b' :: post ∧
        alloc_bootmem_core sizeof_long PAGE_SHIFT b size align goal limit =
          some (Result.ok (some addr, b')) := by
  induction rest with
  | nil =>
    intro visited addr l' h
    simp [alloc_bootmem_regions] at h
  | cons bdata rest ih =>
    intro visited addr l' h
    simp only [alloc_bootmem_regions] at h
    split at h
    · obtain ⟨pre, b, post, b', e1, e2, e3⟩ := ih _ _ _ h
      exact ⟨bdata :: pre, b, post, b', by rw [e1]; rfl, by rw [e2]; simp, e3⟩
    · split at h
      · simp at h
      · split at h
        · cases h
        · cases h
        · cases h
        · rename_i region b1 hcore
          simp only [Option.some.injEq, Result.ok.injEq, Prod.mk.injEq] at h
          rw [← h.1]
          exact ⟨[], bdata, rest, b1, rfl, by rw [← h.2]; simp, hcore⟩
        · rename_i b1 hcore
          have hb1 := alloc_bootmem_core_null_state sizeof_long PAGE_SHIFT _ _ _ _ _ _ hcore
          subst hb1
          obtain ⟨pre, b, post, b', e1, e2, e3⟩ := ih _ _ _ h
          exact ⟨b1 :: pre, b, post, b', by rw [e1]; rfl, by rw [e2]; simp, e3⟩

theorem lies_in_overlaps (PAGE_SHIFT : Nat) (b c : bootmem_data) (al : Nat × Nat)
    (hb : lies_in PAGE_SHIFT b al) (hc : lies_in PAGE_SHIFT c al) (hpos : 0 < al.2) :
    overlaps b c := by
  obtain ⟨b1, b2⟩ := hb
  obtain ⟨c1, c2⟩ := hc
  have hBpos : 0 < 2 ^ PAGE_SHIFT := Nat.pow_pos (by decide)
  have e1 : b.node_min_pfn < c.node_low_pfn :=
    Nat.lt_of_mul_lt_mul_right (a := 2 ^ PAGE_SHIFT) (by omega)
  have e2 : c.node_min_pfn < b.node_low_pfn :=
    Nat.lt_of_mul_lt_mul_right (a := 2 ^ PAGE_SHIFT) (by omega)
  have e3 : b.node_min_pfn < b.node_low_pfn :=
    Nat.lt_of_mul_lt_mul_right (a := 2 ^ PAGE_SHIFT) (by omega)
  have e4 : c.node_min_pfn < c.node_low_pfn :=
    Nat.lt_of_mul_lt_mul_right (a := 2 ^ PAGE_SHIFT) (by omega)
  unfold overlaps ranges_overlap
  rw [lt_min_iff, max_lt_iff, max_lt_iff]
  omega

theorem bytes_disjoint_of_apart (PAGE_SHIFT : Nat) (b c : bootmem_data) (x y : Nat × Nat)
    (hb : lies_in PAGE_SHIFT b x) (hc : lies_in PAGE_SHIFT c y)
    (hx : 0 < x.2) (hy : 0 < y.2) (hno : ¬ overlaps b c) : bytes_disjoint x y := by
  obtain ⟨b1, b2⟩ := hb
  obtain ⟨c1, c2⟩ := hc
  have e3 : b.node_min_pfn < b.node_low_pfn :=
    Nat.lt_of_mul_lt_mul_right (a := 2 ^ PAGE_SHIFT) (by omega)
  have e4 : c.node_min_pfn < c.node_low_pfn :=
    Nat.lt_of_mul_lt_mul_right (a := 2 ^ PAGE_SHIFT) (by omega)
  unfold bytes_disjoint
  rcases Nat.lt_or_ge c.node_min_pfn b.node_low_pfn with h | h
  swap
  · have := Nat.mul_le_mul_right (2 ^ PAGE_SHIFT) h
    omega
  · have h' : c.node_low_pfn ≤ b.node_min_pfn := by
      by_contra hlt
      apply hno
      unfold overlaps ranges_overlap
      rw [lt_min_iff, max_lt_iff, max_lt_iff]
      omega
    have := Nat.mul_le_mul_right (2 ^ PAGE_SHIFT) h'
    omega

theorem apart_of_ne (l : List bootmem_data) (h : pairwise_disjoint l) (b c : bootmem_data)
    (hb : b ∈ l) (hc : c ∈ l) (hne : b ≠ c) : ¬ overlaps b c := by
  have hsym : Symmetric (fun x y : bootmem_data => ¬ overlaps x y) :=
    fun x y hxy hyx => hxy ((overlaps_symm y x).mp hyx)
  exact List.Pairwise.forall hsym h hb hc hne

theorem pairwise_disjoint_swap (pre post : List bootmem_data) (b b' : bootmem_data)
    (f1 : b'.node_min_pfn = b.node_min_pfn) (f2 : b'.node_low_pfn = b.node_low_pfn)
    (h : pairwise_disjoint (pre ++ b :: post)) : pairwise_disjoint (pre ++ b' :: post) := by
  unfold pairwise_disjoint at h ⊢
  have key : ∀ l : List bootmem_data,
      l.Pairwise (fun a b => ¬ overlaps a b) ↔
      (l.map (fun b => (b.node_min_pfn, b.node_low_pfn))).Pairwise
        (fun p q => ¬ ranges_overlap p.1 p.2 q.1 q.2) := by
    intro l
    rw [List.pairwise_map]
    rfl
  rw [key] at h ⊢
  simpa [f1, f2] using h

theorem ulong_sub_pred (sizeof_long s : Nat) (h1 : 0 < s) (h2 : s ≤ ULONG_MAX sizeof_long) :
    ulong_sub sizeof_long (s - 1) s = ULONG_MAX sizeof_long := by
  have hM := two_pow_bits_pos sizeof_long
  unfold ulong_sub ulong
  unfold ULONG_MAX at h2 ⊢
  rw [Nat.mod_eq_of_lt (show s < 2 ^ BITS_PER_LONG sizeof_long by omega)]
  have : s - 1 + (2 ^ BITS_PER_LONG sizeof_long - s) = 2 ^ BITS_PER_LONG sizeof_long - 1 := by
    omega
  rw [this]
  exact Nat.mod_eq_of_lt (by omega)

/-- The frame range that `free_bootmem` and `free_bootmem_node` compute for a
non-empty allocation lying in region `b`. -/
theorem free_range_bounds (sizeof_long PAGE_SHIFT : Nat) (b : bootmem_data) (ys ysz : Nat)
    (hPSW : PAGE_SHIFT < BITS_PER_LONG sizeof_long)
    (hlow : b.node_low_pfn * 2 ^ PAGE_SHIFT ≤ ULONG_MAX sizeof_long)
    (hlie : lies_in PAGE_SHIFT b (ys, ysz)) (hpos : 0 < ysz) :
    b.node_min_pfn ≤ PFN_UP sizeof_long PAGE_SHIFT ys ∧
    PFN_UP sizeof_long PAGE_SHIFT ys ≤ b.node_low_pfn ∧
    b.node_min_pfn ≤ PFN_DOWN PAGE_SHIFT (ulong sizeof_long (ys + ysz)) ∧
    PFN_DOWN PAGE_SHIFT (ulong sizeof_long (ys + ysz)) ≤ b.node_low_pfn ∧
    PFN_UP sizeof_long PAGE_SHIFT ys ≤
      PFN_DOWN PAGE_SHIFT (ulong sizeof_long (ys + ysz)) + 1 ∧
    b.node_low_pfn ≤ ULONG_MAX sizeof_long := by
  obtain ⟨hy1, hy2⟩ := hlie
  simp only at hy1 hy2
  have hULM : ULONG_MAX sizeof_long = 2 ^ BITS_PER_LONG sizeof_long - 1 := rfl
  have hMpos := two_pow_bits_pos sizeof_long
  have hBpos : 0 < 2 ^ PAGE_SHIFT := Nat.pow_pos (by decide)
  have hlowB := add_le_of_dvd_of_lt (Nat.dvd_mul_left (2 ^ PAGE_SHIFT) b.node_low_pfn)
    (pow_dvd_pow 2 (Nat.le_of_lt hPSW))
    (show b.node_low_pfn * 2 ^ PAGE_SHIFT < 2 ^ BITS_PER_LONG sizeof_long by omega)
  have hstart : PFN_UP sizeof_long PAGE_SHIFT ys =
      (ys + (2 ^ PAGE_SHIFT - 1)) / 2 ^ PAGE_SHIFT := by
    rw [PFN_UP_eq _ _ _ hPSW, Nat.mod_eq_of_lt (by omega)]
  have hend : PFN_DOWN PAGE_SHIFT (ulong sizeof_long (ys + ysz)) =
      (ys + ysz) / 2 ^ PAGE_SHIFT := by
    rw [ulong_of_le (by omega), PFN_DOWN_eq]
  rw [hstart, hend]
  have hc2 := Nat.div_mul_le_self (ys + (2 ^ PAGE_SHIFT - 1)) (2 ^ PAGE_SHIFT)
  have hd2 := div_frame (ys + ysz) (2 ^ PAGE_SHIFT) hBpos
  have hlow_le : b.node_low_pfn ≤ b.node_low_pfn * 2 ^ PAGE_SHIFT :=
    Nat.le_mul_of_pos_right _ hBpos
  refine ⟨?_, ?_, ?_, ?_, ?_, by omega⟩
  · rw [Nat.le_div_iff_mul_le hBpos]; omega
  · apply Nat.le_of_lt_succ
    rw [Nat.div_lt_iff_lt_mul hBpos, Nat.succ_mul]
    omega
  · rw [Nat.le_div_iff_mul_le hBpos]; omega
  · have := Nat.div_le_div_right (c := 2 ^ PAGE_SHIFT) hy2
    rwa [Nat.mul_div_cancel _ hBpos] at this
  · apply Nat.le_of_lt_succ
    apply Nat.lt_of_mul_lt_mul_right (a := 2 ^ PAGE_SHIFT)
    rw [Nat.succ_mul, Nat.succ_mul]
    omega

/-- Releasing a live allocation of one region by `free_bootmem_node` keeps the
invariant of the region for every list of allocations that are disjoint from the
released one. -/
theorem inv_release (sizeof_long PAGE_SHIFT : Nat) (hL : 0 < sizeof_long)
    (st : allocator_state) (L' : List (Nat × Nat)) (ys ysz : Nat)
    (hPSW : PAGE_SHIFT < BITS_PER_LONG sizeof_long)
    (hinv : allocator_inv sizeof_long PAGE_SHIFT st)
    (hy : (ys, ysz) ∈ st.live) (hsub : ∀ x ∈ L', x ∈ st.live)
    (hpw : L'.Pairwise bytes_disjoint)
    (hdis : ∀ x ∈ L', bytes_disjoint x (ys, ysz)) :
    ∃ b', free_bootmem_node sizeof_long PAGE_SHIFT st.bdata ys ysz = Result.ok (0, b') ∧
      allocator_inv sizeof_long PAGE_SHIFT ⟨b', L'⟩ := by
  obtain ⟨hcov, hlow, hleo⟩ := hinv.region
  have hULM : ULONG_MAX sizeof_long = 2 ^ BITS_PER_LONG sizeof_long - 1 := rfl
  have hMpos := two_pow_bits_pos sizeof_long
  have hBpos : 0 < 2 ^ PAGE_SHIFT := Nat.pow_pos (by decide)
  obtain ⟨hy0, hy1, hy2⟩ := hinv.inside _ hy
  simp only at hy0 hy1 hy2
  have hlowB := add_le_of_dvd_of_lt (Nat.dvd_mul_left (2 ^ PAGE_SHIFT) st.bdata.node_low_pfn)
    (pow_dvd_pow 2 (Nat.le_of_lt hPSW))
    (show st.bdata.node_low_pfn * 2 ^ PAGE_SHIFT < 2 ^ BITS_PER_LONG sizeof_long by omega)
  have hstart : PFN_UP sizeof_long PAGE_SHIFT ys =
      (ys + (2 ^ PAGE_SHIFT - 1)) / 2 ^ PAGE_SHIFT := by
    rw [PFN_UP_eq _ _ _ hPSW, Nat.mod_eq_of_lt (by omega)]
  have hend : PFN_DOWN PAGE_SHIFT (ulong sizeof_long (ys + ysz)) =
      (ys + ysz) / 2 ^ PAGE_SHIFT := by
    rw [ulong_of_le (by omega), PFN_DOWN_eq]
  have hc1 := le_ceil_mul ys (2 ^ PAGE_SHIFT) hBpos
  have hc2 := Nat.div_mul_le_self (ys + (2 ^ PAGE_SHIFT - 1)) (2 ^ PAGE_SHIFT)
  have hd1 := Nat.div_mul_le_self (ys + ysz) (2 ^ PAGE_SHIFT)
  have hmin_start : st.bdata.node_min_pfn ≤ (ys + (2 ^ PAGE_SHIFT - 1)) / 2 ^ PAGE_SHIFT := by
    rw [Nat.le_div_iff_mul_le hBpos]; omega
  have hmin_end : st.bdata.node_min_pfn ≤ (ys + ysz) / 2 ^ PAGE_SHIFT := by
    rw [Nat.le_div_iff_mul_le hBpos]; omega
  have hend_low : (ys + ysz) / 2 ^ PAGE_SHIFT ≤ st.bdata.node_low_pfn := by
    have := Nat.div_le_div_right (c := 2 ^ PAGE_SHIFT) hy2
    rwa [Nat.mul_div_cancel _ hBpos] at this
  have hself : (ys + (2 ^ PAGE_SHIFT - 1)) / 2 ^ PAGE_SHIFT ≤
      (ys + (2 ^ PAGE_SHIFT - 1)) / 2 ^ PAGE_SHIFT * 2 ^ PAGE_SHIFT :=
    Nat.le_mul_of_pos_right _ hBpos
  -- frames between the rounded bounds lie wholly inside the allocation
  have hwhole : ∀ i, (ys + (2 ^ PAGE_SHIFT - 1)) / 2 ^ PAGE_SHIFT - st.bdata.node_min_pfn ≤ i →
      i < (ys + ysz) / 2 ^ PAGE_SHIFT - st.bdata.node_min_pfn →
      ys ≤ (st.bdata.node_min_pfn + i) * 2 ^ PAGE_SHIFT ∧
      (st.bdata.node_min_pfn + i) * 2 ^ PAGE_SHIFT + 2 ^ PAGE_SHIFT ≤ ys + ysz := by
    intro i hi1 hi2
    have a1 := Nat.mul_le_mul_right (2 ^ PAGE_SHIFT)
      (show (ys + (2 ^ PAGE_SHIFT - 1)) / 2 ^ PAGE_SHIFT ≤ st.bdata.node_min_pfn + i by omega)
    have a2 := frame_succ_le (B := 2 ^ PAGE_SHIFT)
      (show st.bdata.node_min_pfn + i < (ys + ysz) / 2 ^ PAGE_SHIFT by omega)
    omega
  obtain ⟨b', hb', f1, f2, f3, f6⟩ := node_frees sizeof_long hL st.bdata
    ((ys + (2 ^ PAGE_SHIFT - 1)) / 2 ^ PAGE_SHIFT) ((ys + ysz) / 2 ^ PAGE_SHIFT) hcov
    hmin_start (by omega) hmin_end hend_low
    (fun i hi1 hi2 => by
      obtain ⟨w1, w2⟩ := hwhole i hi1 hi2
      exact hinv.reserved _ hy i ⟨by simp only; omega, by simp only; omega⟩)
  refine ⟨b', ?_, ?_⟩
  · simp only [free_bootmem_node, hstart, hend, hb']
  · refine ⟨⟨?_, by rw [f2]; exact hlow, by rw [f3]; exact hleo⟩, ?_, ?_, ?_, ?_⟩
    · apply region_covered_transfer sizeof_long hL st.bdata b' f1 f2 hcov
      intro i hi
      rw [f6 i]
      split
      · exact ⟨false, rfl⟩
      · exact covered_addressable sizeof_long hL st.bdata hcov i hi
    · intro al hal
      simp only [f1, f2]
      exact hinv.inside al (hsub al hal)
    · intro al hal q ht
      simp only [f1] at ht
      have hset := hinv.reserved al (hsub al hal) q ht
      rw [f6 q]
      by_cases hq : (ys + (2 ^ PAGE_SHIFT - 1)) / 2 ^ PAGE_SHIFT - st.bdata.node_min_pfn ≤ q ∧
          q < (ys + ysz) / 2 ^ PAGE_SHIFT - st.bdata.node_min_pfn
      · exfalso
        obtain ⟨w1, w2⟩ := hwhole q hq.1 hq.2
        unfold touches at ht
        have hd := hdis al hal
        unfold bytes_disjoint at hd
        simp only at hd
        omega
      · rw [if_neg hq]
        exact hset
    · exact hpw
    · simp only [f1, f2, f3]
      intro hne
      obtain ⟨t1, t2, t3⟩ := hinv.tail hne
      refine ⟨t1, ?_, fun al hal => t3 al (hsub al hal)⟩
      rw [f6]
      by_cases hq : (ys + (2 ^ PAGE_SHIFT - 1)) / 2 ^ PAGE_SHIFT - st.bdata.node_min_pfn ≤
            st.bdata.last_end_off / 2 ^ PAGE_SHIFT ∧
          st.bdata.last_end_off / 2 ^ PAGE_SHIFT <
            (ys + ysz) / 2 ^ PAGE_SHIFT - st.bdata.node_min_pfn
      · exfalso
        obtain ⟨w1, w2⟩ := hwhole _ hq.1 hq.2
        have hd := div_frame st.bdata.last_end_off (2 ^ PAGE_SHIFT) hBpos
        have := t3 _ hy
        simp only at this
        rw [Nat.add_mul] at w1 w2
        rw [Nat.succ_mul] at this
        omega
      · rw [if_neg hq]
        exact t2

/-- The invariant of one region depends on the bitmap only through the bits it
reads, and not on the hint. -/
theorem inv_same_bits (sizeof_long PAGE_SHIFT : Nat) (hL : 0 < sizeof_long)
    (b b' : bootmem_data) (L : List (Nat × Nat))
    (f1 : b'.node_min_pfn = b.node_min_pfn) (f2 : b'.node_low_pfn = b.node_low_pfn)
    (f3 : b'.last_end_off = b.last_end_off)
    (f6 : ∀ i, test_bit sizeof_long i b'.node_bootmem_map =
      test_bit sizeof_long i b.node_bootmem_map)
    (hinv : allocator_inv sizeof_long PAGE_SHIFT ⟨b, L⟩) :
    allocator_inv sizeof_long PAGE_SHIFT ⟨b', L⟩ := by
  obtain ⟨⟨hcov, hlow, hleo⟩, hinside, hres, hdis, htail⟩ := hinv
  simp only at hcov hlow hleo hinside hres hdis htail
  refine ⟨⟨?_, by rw [f2]; exact hlow, by rw [f3]; exact hleo⟩, ?_, ?_, hdis, ?_⟩
  · apply region_covered_transfer sizeof_long hL b b' f1 f2 hcov
    intro i hi
    rw [f6 i]
    exact covered_addressable sizeof_long hL b hcov i hi
  · intro al hal
    simp only [f1, f2]
    exact hinside al hal
  · intro al hal q ht
    simp only [f1] at ht
    rw [f6 q]
    exact hres al hal q ht
  · simp only [f1, f2, f3, f6]
    exact htail

theorem nopanic_outcome (sizeof_long PAGE_SHIFT : Nat) (hL : 0 < sizeof_long)
    (l : List bootmem_data) (size a goal limit : Nat)
    (hPS0 : 0 < PAGE_SHIFT) (hPSW : PAGE_SHIFT < BITS_PER_LONG sizeof_long)
    (hsz : 0 < size) (hw : size + (2 ^ PAGE_SHIFT - 1) ≤ ULONG_MAX sizeof_long)
    (ha : a < BITS_PER_LONG sizeof_long) (hlim : limit = 0 ∨ goal + size ≤ limit)
    (hwf : ∀ b ∈ l, region_addressable sizeof_long PAGE_SHIFT b) :
    ___alloc_bootmem_nopanic sizeof_long PAGE_SHIFT size (2 ^ a) goal limit l =
      some (Result.ok (none, l)) ∨
    ∃ addr g pre b post b', (limit = 0 ∨ g + size ≤ limit) ∧ l = pre ++ b :: post ∧
      ___alloc_bootmem_nopanic sizeof_long PAGE_SHIFT size (2 ^ a) goal limit l =
        some (Result.ok (some addr, pre ++ b' :: post)) ∧
      alloc_bootmem_core sizeof_long PAGE_SHIFT b size (2 ^ a) g limit =
        some (Result.ok (some addr, b')) := by
  rcases alloc_bootmem_regions_outcome sizeof_long PAGE_SHIFT hL size a goal limit hPS0 hPSW
    hsz hw ha hlim l [] hwf with h1 | ⟨addr, l', h1⟩
  · simp only [List.nil_append] at h1
    by_cases hg : goal ≠ 0
    · have hlim0 : limit = 0 ∨ 0 + size ≤ limit := by omega
      rcases alloc_bootmem_regions_outcome sizeof_long PAGE_SHIFT hL size a 0 limit hPS0 hPSW
        hsz hw ha hlim0 l [] hwf with h2 | ⟨addr, l', h2⟩
      · left
        simp only [List.nil_append] at h2
        unfold ___alloc_bootmem_nopanic
        rw [alloc_bootmem_pass_eq, h1]
        simp only
        rw [if_pos hg, alloc_bootmem_pass_eq, h2]
      · right
        obtain ⟨pre, b, post, b', e1, e2, e3⟩ := alloc_bootmem_regions_shape sizeof_long
          PAGE_SHIFT size (2 ^ a) 0 limit l [] addr l' h2
        refine ⟨addr, 0, pre, b, post, b', hlim0, e1, ?_, e3⟩
        unfold ___alloc_bootmem_nopanic
        rw [alloc_bootmem_pass_eq, h1]
        simp only
        rw [if_pos hg, alloc_bootmem_pass_eq, h2, e2]
        simp
    · left
      unfold ___alloc_bootmem_nopanic
      rw [alloc_bootmem_pass_eq, h1]
      simp only
      rw [if_neg hg]
  · right
    obtain ⟨pre, b, post, b', e1, e2, e3⟩ := alloc_bootmem_regions_shape sizeof_long
      PAGE_SHIFT size (2 ^ a) goal limit l [] addr l' h1
    refine ⟨addr, goal, pre, b, post, b', hlim, e1, ?_, e3⟩
    unfold ___alloc_bootmem_nopanic
    rw [alloc_bootmem_pass_eq, h1, e2]
    simp

theorem lies_in_congr (PAGE_SHIFT : Nat) (b b' : bootmem_data) (al : Nat × Nat)
    (f1 : b'.node_min_pfn = b.node_min_pfn) (f2 : b'.node_low_pfn = b.node_low_pfn) :
    lies_in PAGE_SHIFT b' al ↔ lies_in PAGE_SHIFT b al := by
  unfold lies_in
  rw [f1, f2]

/-- The registry invariant survives the replacement of one region by a region
with the same frame bounds that keeps its own invariant and bitmap bound, when
the live allocations are replaced by `live'`. -/
theorem registry_inv_swap (sizeof_long PAGE_SHIFT : Nat) (pre post : List bootmem_data)
    (j j' : bootmem_data) (live live' : List (Nat × Nat))
    (hinv : registry_inv sizeof_long PAGE_SHIFT ⟨pre ++ j :: post, live⟩)
    (f1 : j'.node_min_pfn = j.node_min_pfn) (f2 : j'.node_low_pfn = j.node_low_pfn)
    (hj : ∃ L, allocator_inv sizeof_long PAGE_SHIFT ⟨j', L⟩ ∧
      ∀ al ∈ live', lies_in PAGE_SHIFT j al → al ∈ L)
    (hbound : test_bit sizeof_long (ULONG_MAX sizeof_long - 1) j'.node_bootmem_map =
      Result.fault)
    (hother : ∀ c ∈ pre ++ post, ∀ al ∈ live', lies_in PAGE_SHIFT c al → al ∈ live)
    (howned : ∀ al ∈ live', 0 < al.2 ∧ ∃ b ∈ pre ++ j :: post, lies_in PAGE_SHIFT b al)
    (hdis : live'.Pairwise bytes_disjoint) :
    registry_inv sizeof_long PAGE_SHIFT ⟨pre ++ j' :: post, live'⟩ := by
  obtain ⟨hapart, hregions, _, _, hbounded⟩ := hinv
  simp only at hapart hregions hbounded
  refine ⟨pairwise_disjoint_swap pre post j j' f1 f2 hapart, ?_, ?_, hdis, ?_⟩
  · intro c hc
    simp only [List.mem_append, List.mem_cons] at hc
    rcases hc with hc | hc | hc
    · obtain ⟨L, hL1, hL2⟩ := hregions c (by simp [hc])
      exact ⟨L, hL1, fun al hal hl => hL2 al (hother c (by simp [hc]) al hal hl) hl⟩
    · subst hc
      obtain ⟨L, hL1, hL2⟩ := hj
      exact ⟨L, hL1, fun al hal hl =>
        hL2 al hal ((lies_in_congr PAGE_SHIFT j c al f1 f2).mp hl)⟩
    · obtain ⟨L, hL1, hL2⟩ := hregions c (by simp [hc])
      exact ⟨L, hL1, fun al hal hl => hL2 al (hother c (by simp [hc]) al hal hl) hl⟩
  · intro al hal
    obtain ⟨hpos, c, hc, hl⟩ := howned al hal
    refine ⟨hpos, ?_⟩
    simp only [List.mem_append, List.mem_cons] at hc
    rcases hc with hc | hc | hc
    · exact ⟨c, by simp [hc], hl⟩
    · subst hc
      exact ⟨j', by simp, (lies_in_congr PAGE_SHIFT c j' al f1 f2).mpr hl⟩
    · exact ⟨c, by simp [hc], hl⟩
  · intro c hc
    simp only [List.mem_append, List.mem_cons] at hc
    rcases hc with hc | hc | hc
    · exact hbounded c (by simp [hc])
    · subst hc
      exact hbound
    · exact hbounded c (by simp [hc])

theorem registry_inv_alloc (sizeof_long PAGE_SHIFT : Nat) (hL : 0 < sizeof_long)
    (st : registry_state) (size a goal limit : Nat)
    (hPS0 : 0 < PAGE_SHIFT) (hPSW : PAGE_SHIFT < BITS_PER_LONG sizeof_long)
    (hsz : 0 < size) (hw : size + (2 ^ PAGE_SHIFT - 1) ≤ ULONG_MAX sizeof_long)
    (ha : a < BITS_PER_LONG sizeof_long) (hlim : limit = 0 ∨ goal + size ≤ limit)
    (hinv : registry_inv sizeof_long PAGE_SHIFT st) :
    ∃ st', registry_serve sizeof_long PAGE_SHIFT st
        (bootmem_request.alloc size (2 ^ a) goal limit) = some st' ∧
      registry_inv sizeof_long PAGE_SHIFT st' := by
  obtain ⟨l, live⟩ := st
  have hwf : ∀ b ∈ l, region_addressable sizeof_long PAGE_SHIFT b := by
    intro b hb
    obtain ⟨L, hL1, _⟩ := hinv.regions b hb
    exact hL1.region
  rcases nopanic_outcome sizeof_long PAGE_SHIFT hL l size a goal limit hPS0 hPSW hsz hw ha
    hlim hwf with hnull | ⟨addr, g, pre, b, post, b', hlimg, e1, e2, hcore⟩
  · exact ⟨⟨l, live⟩, by simp only [registry_serve, hnull], hinv⟩
  · subst e1
    refine ⟨⟨pre ++ b' :: post, (addr, size) :: live⟩, by simp only [registry_serve, e2], ?_⟩
    have hb : b ∈ pre ++ b :: post := by simp
    obtain ⟨Lb, hLb, hmemb⟩ := hinv.regions b hb
    obtain ⟨st1, hs1, hinv1⟩ := inv_alloc sizeof_long PAGE_SHIFT hL ⟨b, Lb⟩ size a g limit
      hPS0 hPSW hsz hw ha hlimg hLb
    simp only [serve, hcore, Option.some.injEq] at hs1
    subst hs1
    obtain ⟨s, so, _, _, _, _, _, _, _, hpl⟩ := alloc_bootmem_core_placed sizeof_long
      PAGE_SHIFT hL b b' size a g limit addr hPS0 hPSW hsz hw ha hlimg (hwf b hb) hcore
    obtain ⟨_, _, p3, _, _, _, f1, f2, _, _, p11, p12⟩ := hpl
    obtain ⟨_, hin1, hin2⟩ := hinv1.inside (addr, size) (List.mem_cons_self _ _)
    simp only [f1, f2] at hin1 hin2
    have hlieb : lies_in PAGE_SHIFT b (addr, size) := ⟨hin1, hin2⟩
    have hapart := hinv.apart
    unfold pairwise_disjoint at hapart
    simp only at hapart
    rw [List.pairwise_append] at hapart
    obtain ⟨_, hbpost, hpre⟩ := hapart
    have hbpost' := (List.pairwise_cons.mp hbpost).1
    have hnot : ∀ c ∈ pre ++ post, ¬ lies_in PAGE_SHIFT c (addr, size) := by
      intro c hc hl
      simp only [List.mem_append] at hc
      rcases hc with hc | hc
      · exact hpre c hc b (List.mem_cons_self _ _)
          (lies_in_overlaps PAGE_SHIFT c b _ hl hlieb hsz)
      · exact hbpost' c hc (lies_in_overlaps PAGE_SHIFT b c _ hlieb hl hsz)
    apply registry_inv_swap sizeof_long PAGE_SHIFT pre post b b' live _ hinv f1 f2
    · refine ⟨(addr, size) :: Lb, hinv1, ?_⟩
      intro al hal hl
      rcases List.mem_cons.mp hal with rfl | hal
      · exact List.mem_cons_self _ _
      · exact List.mem_cons_of_mem _ (hmemb al hal hl)
    · have hb0 := hinv.bounded b hb
      rw [p12]
      by_cases hr : s ≤ ULONG_MAX sizeof_long - 1 ∧ ULONG_MAX sizeof_long - 1 <
          PFN_UP sizeof_long PAGE_SHIFT (ulong sizeof_long (so + size))
      · have := p3 _ hr.1 (Nat.lt_of_lt_of_le hr.2 p11)
        rw [hb0] at this
        cases this
      · rw [if_neg hr]
        exact hb0
    · intro c hc al hal hl
      rcases List.mem_cons.mp hal with rfl | hal
      · exact absurd hl (hnot c hc)
      · exact hal
    · intro al hal
      rcases List.mem_cons.mp hal with rfl | hal
      · exact ⟨hsz, b, hb, hlieb⟩
      · exact hinv.owned al hal
    · refine List.pairwise_cons.mpr ⟨?_, hinv.disjoint⟩
      intro x hx
      obtain ⟨hxpos, c, hc, hlc⟩ := hinv.owned x hx
      by_cases hlb : lies_in PAGE_SHIFT b x
      · exact (List.pairwise_cons.mp hinv1.disjoint).1 x (hmemb x hx hlb)
      · have hne : b ≠ c := by
          intro h
          subst h
          exact hlb hlc
        exact bytes_disjoint_of_apart PAGE_SHIFT b c _ _ hlieb hlc hsz hxpos
          (apart_of_ne _ hinv.apart b c hb hc hne)

theorem registry_inv_free (sizeof_long PAGE_SHIFT : Nat) (hL : 0 < sizeof_long)
    (hPSW : PAGE_SHIFT < BITS_PER_LONG sizeof_long) (st st' : registry_state) (n : Nat)
    (hinv : registry_inv sizeof_long PAGE_SHIFT st)
    (h : registry_serve sizeof_long PAGE_SHIFT st (bootmem_request.free n) = some st') :
    registry_inv sizeof_long PAGE_SHIFT st' := by
  obtain ⟨l, live⟩ := st
  cases hget : live.get? n with
  | none =>
    simp only [registry_serve, hget, Option.some.injEq] at h
    subst h
    exact hinv
  | some y =>
    obtain ⟨ys, ysz⟩ := y
    simp only [registry_serve, hget] at h
    have hy := List.get?_mem hget
    obtain ⟨hpos, b, hb, hlie⟩ := hinv.owned _ hy
    simp only at hpos hb
    obtain ⟨Lb, hLb, hmemb⟩ := hinv.regions b hb
    simp only at hmemb
    obtain ⟨q1, q2, q3, q4, q5, q6⟩ := free_range_bounds sizeof_long PAGE_SHIFT b ys ysz hPSW
      hLb.region.2.1 hlie hpos
    have hbne : b.node_min_pfn < b.node_low_pfn := by
      obtain ⟨l1, l2⟩ := hlie
      simp only at l1 l2
      exact Nat.lt_of_mul_lt_mul_right (a := 2 ^ PAGE_SHIFT) (by omega)
    have hnodeeq : ∀ c, free_bootmem_node sizeof_long PAGE_SHIFT c ys ysz =
        mark_bootmem_node sizeof_long c (PFN_UP sizeof_long PAGE_SHIFT ys)
          (PFN_DOWN PAGE_SHIFT (ulong sizeof_long (ys + ysz))) 0 0 := fun c => rfl
    have hfreeeq : free_bootmem sizeof_long PAGE_SHIFT ys ysz l =
        mark_bootmem_walk sizeof_long (fun s e l => mark_bootmem_nested sizeof_long s e l)
          (PFN_UP sizeof_long PAGE_SHIFT ys)
          (PFN_DOWN PAGE_SHIFT (ulong sizeof_long (ys + ysz))) 0 0
          (PFN_UP sizeof_long PAGE_SHIFT ys) [] l := rfl
    rw [hfreeeq] at h
    generalize PFN_UP sizeof_long PAGE_SHIFT ys = S at *
    generalize PFN_DOWN PAGE_SHIFT (ulong sizeof_long (ys + ysz)) = E at *
    cases hfb : mark_bootmem_walk sizeof_long
        (fun s e l => mark_bootmem_nested sizeof_long s e l) S E 0 0 S [] l with
    | fault => rw [hfb] at h; cases h
    | bug => rw [hfb] at h; cases h
    | ok p =>
      obtain ⟨r, l'⟩ := p
      rw [hfb] at h
      simp only [Option.some.injEq] at h
      subst h
      have hend : ∀ c ∈ l, c.node_min_pfn ≤ S → S < c.node_low_pfn →
          E ≤ c.node_low_pfn := by
        intro c hc c1 c2
        by_cases hS : S < b.node_low_pfn
        · by_cases hcb : c = b
          · subst hcb; exact q4
          · exfalso
            apply apart_of_ne l hinv.apart c b hc hb hcb
            unfold overlaps ranges_overlap
            rw [lt_min_iff, max_lt_iff, max_lt_iff]
            omega
        · omega
      obtain ⟨pre, j, post, j', err, e1, e2, e3, e4, e5⟩ :=
        walk_free_single sizeof_long _ S E l [] r l' hend hfb
      subst e1
      simp only [List.nil_append] at e5
      subst e5
      obtain ⟨_, _, _, g1, g2, g3, gset, gbits⟩ := node_free_ok sizeof_long hL j j' S E err e4
      have hj : j ∈ pre ++ j :: post := by simp
      have hjb0 := hinv.bounded j hj
      simp only at hjb0
      have hbound : test_bit sizeof_long (ULONG_MAX sizeof_long - 1) j'.node_bootmem_map =
          Result.fault := by
        rw [gbits]
        by_cases hr : ulong_sub sizeof_long S j.node_min_pfn ≤ ULONG_MAX sizeof_long - 1 ∧
            ULONG_MAX sizeof_long - 1 < ulong_sub sizeof_long E j.node_min_pfn
        · have := gset _ hr.1 hr.2
          rw [hjb0] at this
          cases this
        · rw [if_neg hr]
          exact hjb0
      apply registry_inv_swap sizeof_long PAGE_SHIFT pre post j j' live (live.eraseIdx n) hinv
        g1 g2 ?_ hbound ?_ ?_ ?_
      · by_cases hS : S < b.node_low_pfn
        · have hjb : j = b := by
            by_contra hne
            apply apart_of_ne _ hinv.apart j b hj hb hne
            unfold overlaps ranges_overlap
            rw [lt_min_iff, max_lt_iff, max_lt_iff]
            omega
          subst hjb
          have hsym : ∀ x ∈ Lb, x ≠ (ys, ysz) → bytes_disjoint x (ys, ysz) := by
            intro x hx hne
            have hs : Symmetric bytes_disjoint := by
              intro u v huv
              unfold bytes_disjoint at huv ⊢
              omega
            exact List.Pairwise.forall hs hLb.disjoint hx (hmemb _ hy hlie) hne
          obtain ⟨b2, hb2, hinv2⟩ := inv_release sizeof_long PAGE_SHIFT hL ⟨j, Lb⟩
            (Lb.filter (fun x => decide (x ≠ (ys, ysz)))) ys ysz hPSW hLb (hmemb _ hy hlie)
            (fun x hx => (List.mem_filter.mp hx).1)
            (List.Pairwise.sublist (List.filter_sublist _) hLb.disjoint)
            (fun x hx => hsym x (List.mem_filter.mp hx).1
              (of_decide_eq_true (List.mem_filter.mp hx).2))
          rw [hnodeeq, e4] at hb2
          injection hb2 with hb2
          injection hb2 with _ hb2
          subst hb2
          refine ⟨_, hinv2, ?_⟩
          intro al hal hl
          have hal' := List.mem_of_mem_eraseIdx hal
          refine List.mem_filter.mpr ⟨hmemb al hal' hl, decide_eq_true ?_⟩
          intro heq
          subst heq
          have hd := pairwise_eraseIdx_get live n (ys, ysz) hget hinv.disjoint _ hal
          unfold bytes_disjoint at hd
          simp only at hd
          omega
        · have hne : j ≠ b := by
            intro hh
            subst hh
            omega
          have hno := apart_of_ne _ hinv.apart j b hj hb hne
          have hjmin : j.node_min_pfn = S := by
            by_contra hx
            apply hno
            unfold overlaps ranges_overlap
            rw [lt_min_iff, max_lt_iff, max_lt_iff]
            omega
          have hsidx : ulong_sub sizeof_long S j.node_min_pfn = 0 := by
            rw [hjmin, ulong_sub_eq (Nat.le_refl _) (by omega)]
            exact Nat.sub_self _
          by_cases hES : E = S
          · obtain ⟨Lj, hLj, hmemj⟩ := hinv.regions j hj
            refine ⟨Lj, inv_same_bits sizeof_long PAGE_SHIFT hL j j' Lj g1 g2 g3 ?_ hLj,
              fun al hal hl => hmemj al (List.mem_of_mem_eraseIdx hal) hl⟩
            intro i
            rw [gbits i, hES, hsidx, if_neg (by omega)]
          · exfalso
            have hSpos : 0 < S := by omega
            have heidx : ulong_sub sizeof_long E j.node_min_pfn = ULONG_MAX sizeof_long := by
              rw [hjmin, show E = S - 1 by omega]
              exact ulong_sub_pred _ S hSpos (by omega)
            have := gset (ULONG_MAX sizeof_long - 1) (by rw [hsidx]; omega)
              (by rw [heidx]; omega)
            rw [hjb0] at this
            cases this
      · intro c hc al hal hl
        exact List.mem_of_mem_eraseIdx hal
      · intro al hal
        exact hinv.owned al (List.mem_of_mem_eraseIdx hal)
      · exact List.Pairwise.sublist (List.eraseIdx_sublist _ _) hinv.disjoint

/-- A release by `free_bootmem` returns when the live allocation does not begin
in the last frame of its region after the start of that frame. -/
theorem registry_free_progress (sizeof_long PAGE_SHIFT : Nat) (hL : 0 < sizeof_long)
    (hPSW : PAGE_SHIFT < BITS_PER_LONG sizeof_long) (st : registry_state)
    (n ys ysz : Nat) (b : bootmem_data)
    (hinv : registry_inv sizeof_long PAGE_SHIFT st)
    (hget : st.live.get? n = some (ys, ysz)) (hb : b ∈ st.bdata_list)
    (hlie : lies_in PAGE_SHIFT b (ys, ysz))
    (hS : PFN_UP sizeof_long PAGE_SHIFT ys < b.node_low_pfn) :
    ∃ st', registry_serve sizeof_long PAGE_SHIFT st (bootmem_request.free n) = some st' := by
  obtain ⟨l, live⟩ := st
  simp only at hget hb
  have hy := List.get?_mem hget
  obtain ⟨hpos, _⟩ := hinv.owned _ hy
  simp only at hpos
  obtain ⟨Lb, hLb, hmemb⟩ := hinv.regions b hb
  simp only at hmemb
  obtain ⟨q1, q2, q3, q4, q5, q6⟩ := free_range_bounds sizeof_long PAGE_SHIFT b ys ysz hPSW
    hLb.region.2.1 hlie hpos
  obtain ⟨pre, post, e1⟩ := List.append_of_mem hb
  subst e1
  have hapart := hinv.apart
  unfold pairwise_disjoint at hapart
  simp only at hapart
  rw [List.pairwise_append] at hapart
  obtain ⟨_, _, hpre⟩ := hapart
  obtain ⟨b2, hb2, _⟩ := inv_release sizeof_long PAGE_SHIFT hL ⟨b, Lb⟩ [] ys ysz hPSW hLb
    (hmemb _ hy hlie) (fun x hx => by cases hx) List.Pairwise.nil (fun x hx => by cases hx)
  have hnodeeq : free_bootmem_node sizeof_long PAGE_SHIFT b ys ysz =
      mark_bootmem_node sizeof_long b (PFN_UP sizeof_long PAGE_SHIFT ys)
        (PFN_DOWN PAGE_SHIFT (ulong sizeof_long (ys + ysz))) 0 0 := rfl
  rw [hnodeeq] at hb2
  have hw := walk_free_at sizeof_long (fun s e l => mark_bootmem_nested sizeof_long s e l)
    (PFN_UP sizeof_long PAGE_SHIFT ys) (PFN_DOWN PAGE_SHIFT (ulong sizeof_long (ys + ysz)))
    b b2 post 0 q1 hS q4 hb2 pre [] (by
      intro c hc hin
      apply hpre c hc b (List.mem_cons_self _ _)
      unfold overlaps ranges_overlap
      rw [lt_min_iff, max_lt_iff, max_lt_iff]
      omega)
  have hfreeeq : free_bootmem sizeof_long PAGE_SHIFT ys ysz (pre ++ b :: post) =
      mark_bootmem_walk sizeof_long (fun s e l => mark_bootmem_nested sizeof_long s e l)
        (PFN_UP sizeof_long PAGE_SHIFT ys)
        (PFN_DOWN PAGE_SHIFT (ulong sizeof_long (ys + ysz))) 0 0
        (PFN_UP sizeof_long PAGE_SHIFT ys) [] (pre ++ b :: post) := rfl
  refine ⟨⟨[] ++ pre ++ b2 :: post, live.eraseIdx n⟩, ?_⟩
  simp only [registry_serve, hget]
  rw [hfreeeq, hw]

theorem registry_inv_serve_all (sizeof_long PAGE_SHIFT : Nat) (hL : 0 < sizeof_long)
    (hPS0 : 0 < PAGE_SHIFT) (hPSW : PAGE_SHIFT < BITS_PER_LONG sizeof_long)
    (reqs : List bootmem_request) :
    ∀ st st', registry_inv sizeof_long PAGE_SHIFT st →
      (∀ r ∈ reqs, request_ok sizeof_long PAGE_SHIFT r) →
      registry_serve_all sizeof_long PAGE_SHIFT st reqs = some st' →
      registry_inv sizeof_long PAGE_SHIFT st' := by
  induction reqs with
  | nil =>
    intro st st' hinv _ h
    simp only [registry_serve_all, Option.some.injEq] at h
    subst h
    exact hinv
  | cons r rs ih =>
    intro st st' hinv hok h
    have hr := hok r (List.mem_cons_self _ _)
    simp only [registry_serve_all] at h
    cases hs : registry_serve sizeof_long PAGE_SHIFT st r with
    | none => rw [hs] at h; cases h
    | some st1 =>
      rw [hs] at h
      simp only at h
      have hinv1 : registry_inv sizeof_long PAGE_SHIFT st1 := by
        cases r with
        | alloc size align goal limit =>
          obtain ⟨hsz, hw, ⟨a, ha, rfl⟩, hlim⟩ := hr
          obtain ⟨st2, hs2, hinv2⟩ := registry_inv_alloc sizeof_long PAGE_SHIFT hL st size a
            goal limit hPS0 hPSW hsz hw ha hlim hinv
          rw [hs] at hs2
          injection hs2 with hs2
          subst hs2
          exact hinv2
        | free n => exact registry_inv_free sizeof_long PAGE_SHIFT hL hPSW st st1 n hinv hs
      exact ih st1 st' hinv1 (fun r hr => hok r (List.mem_cons_of_mem _ hr)) h

theorem registry_inv_init (sizeof_long PAGE_SHIFT : Nat) (hL : 0 < sizeof_long)
    (bdata_list : List bootmem_data) (hapart : pairwise_disjoint bdata_list)
    (hreg : ∀ b ∈ bdata_list, region_addressable sizeof_long PAGE_SHIFT b ∧
      b.last_end_off = 0 ∧
      bitmap_bits sizeof_long b.node_bootmem_map < ULONG_MAX sizeof_long) :
    registry_inv sizeof_long PAGE_SHIFT ⟨bdata_list, []⟩ := by
  refine ⟨hapart, ?_, fun al hal => (by cases hal), List.Pairwise.nil, ?_⟩
  · intro b hb
    obtain ⟨h1, h2, _⟩ := hreg b hb
    exact ⟨[], ⟨h1, fun al hal => (by cases hal), fun al hal => (by cases hal),
      List.Pairwise.nil, fun h => absurd (by simp only [h2, Nat.zero_mod]) h⟩,
      fun al hal => (by cases hal)⟩
  · intro b hb
    obtain ⟨_, _, h3⟩ := hreg b hb
    cases ht : test_bit sizeof_long (ULONG_MAX sizeof_long - 1) b.node_bootmem_map with
    | fault => rfl
    | bug => exact absurd ht (test_bit_ne_bug _ _ _)
    | ok c =>
      have := (test_bit_ok_iff_lt sizeof_long hL b.node_bootmem_map _).mp ⟨c, ht⟩
      omega

/-- C16 (counterexample): two live allocations share a page frame.  On the region
`[0, 64)` with the frames `10 .. 19` freed after registration, two allocations
of 100 bytes with alignment 1 return the addresses 40960 and 41060: both are
live and both lie in frame 10. -/
theorem two_live_allocations_share_a_frame :
    free_bootmem_node 8 12 region_64_reserved 40960 40960 =
      Result.ok (0, region_64_free_10_20) ∧
    alloc_bootmem_core 8 12 region_64_free_10_20 100 1 0 0 =
      some (Result.ok (some 40960,
        { region_64_free_10_20 with
          node_bootmem_map := some [2 ^ 64 - 1 - (2 ^ 20 - 2 ^ 11)],
          last_end_off := 41060, hint_idx := 11 })) ∧
    alloc_bootmem_core 8 12
      { region_64_free_10_20 with
        node_bootmem_map := some [2 ^ 64 - 1 - (2 ^ 20 - 2 ^ 11)],
        last_end_off := 41060, hint_idx := 11 } 100 1 0 0 =
      some (Result.ok (some 41060,
        { region_64_free_10_20 with
          node_bootmem_map := some [2 ^ 64 - 1 - (2 ^ 20 - 2 ^ 11)],
          last_end_off := 41160, hint_idx := 11 })) ∧
    PFN_DOWN 12 40960 = 10 ∧ PFN_DOWN 12 41060 = 10 := by
  decide

/-- C16 (amended): no two live allocations share a byte, and every frame that
holds a byte of a live allocation is reserved.  Start from a registry of
pairwise disjoint addressable regions on which nothing was allocated yet
(`last_end_off = 0`, any bitmap shorter than the address space) and serve any
sequence of requests: allocations by `___alloc_bootmem_nopanic` that meet the
preconditions, and releases by `free_bootmem` of a live allocation with its
address and size.  In every state `st` that such a run reaches, the live
allocations have pairwise disjoint byte ranges, and each of them is non-empty
and lies in a region of the registry in which the bit of every frame that holds
one of its bytes is set.  From such a state every allocation that meets the
preconditions returns, and the release of a live allocation returns when the
allocation does not begin inside the last frame of its region.  Two live
allocations may share a frame. -/
theorem live_allocations_stay_disjoint (sizeof_long PAGE_SHIFT : Nat)
    (hL : 0 < sizeof_long) (hPS0 : 0 < PAGE_SHIFT)
    (hPSW : PAGE_SHIFT < BITS_PER_LONG sizeof_long) (bdata_list : List bootmem_data)
    (hapart : pairwise_disjoint bdata_list)
    (hreg : ∀ b ∈ bdata_list, region_addressable sizeof_long PAGE_SHIFT b ∧
      b.last_end_off = 0 ∧
      bitmap_bits sizeof_long b.node_bootmem_map < ULONG_MAX sizeof_long)
    (reqs : List bootmem_request)
    (hreqs : ∀ r ∈ reqs, request_ok sizeof_long PAGE_SHIFT r)
    (st : registry_state)
    (hrun : registry_serve_all sizeof_long PAGE_SHIFT ⟨bdata_list, []⟩ reqs = some st) :
    st.live.Pairwise bytes_disjoint ∧
    (∀ al ∈ st.live, 0 < al.2 ∧ ∃ b ∈ st.bdata_list, lies_in PAGE_SHIFT b al ∧
      ∀ q, touches PAGE_SHIFT (b.node_min_pfn + q) al →
        test_bit sizeof_long q b.node_bootmem_map = Result.ok true) ∧
    (∀ size align goal limit,
      request_ok sizeof_long PAGE_SHIFT (bootmem_request.alloc size align goal limit) →
      ∃ st', registry_serve sizeof_long PAGE_SHIFT st
        (bootmem_request.alloc size align goal limit) = some st') ∧
    ∀ n addr size b, st.live.get? n = some (addr, size) → b ∈ st.bdata_list →
      lies_in PAGE_SHIFT b (addr, size) →
      PFN_UP sizeof_long PAGE_SHIFT addr < b.node_low_pfn →
      ∃ st', registry_serve sizeof_long PAGE_SHIFT st (bootmem_request.free n) = some st' := by
  have hinit := registry_inv_init sizeof_long PAGE_SHIFT hL bdata_list hapart hreg
  have hinv := registry_inv_serve_all sizeof_long PAGE_SHIFT hL hPS0 hPSW reqs _ st hinit
    hreqs hrun
  refine ⟨hinv.disjoint, ?_, ?_, ?_⟩
  · intro al hal
    obtain ⟨hpos, b, hb, hlie⟩ := hinv.owned al hal
    obtain ⟨L, hL1, hL2⟩ := hinv.regions b hb
    exact ⟨hpos, b, hb, hlie, hL1.reserved al (hL2 al hal hlie)⟩
  · intro size align goal limit hok
    obtain ⟨hsz, hw, ⟨a, ha, rfl⟩, hlim⟩ := hok
    obtain ⟨st', hs, _⟩ := registry_inv_alloc sizeof_long PAGE_SHIFT hL st size a goal limit
      hPS0 hPSW hsz hw ha hlim hinv
    exact ⟨st', hs⟩
  · intro n addr size b hget hb hlie hS
    exact registry_free_progress sizeof_long PAGE_SHIFT hL hPSW st n addr size b hinv hget hb
      hlie hS

theorem live_allocations_stay_disjoint_witness :
    registry_serve_all 8 12 ⟨[region_64_free_10_20, region_64_128_free_64_70], []⟩
        [bootmem_request.alloc 100 1 0 0, bootmem_request.alloc 100 1 0 0,
         bootmem_request.alloc 20480 4096 262144 0, bootmem_request.free 0,
         bootmem_request.alloc 8192 4096 0 0, bootmem_request.alloc 12288 4096 300000 0,
         bootmem_request.free 2] =
      some ⟨[{ region_64_free_10_20 with
               node_bootmem_map := some [2 ^ 64 - 1 - (2 ^ 20 - 2 ^ 16)],
               last_end_off := 65536, hint_idx := 11 },
             { region_64_128_free_64_70 with last_end_off := 20480 }],
            [(53248, 12288), (45056, 8192), (40960, 100)]⟩ ∧
    [((53248, 12288) : Nat × Nat), (45056, 8192), (40960, 100)].Pairwise bytes_disjoint :=
  ⟨by decide,
    (live_allocations_stay_disjoint 8 12 (by decide) (by decide) (by decide)
      [region_64_free_10_20, region_64_128_free_64_70] (by decide) (by decide)
      [bootmem_request.alloc 100 1 0 0, bootmem_request.alloc 100 1 0 0,
       bootmem_request.alloc 20480 4096 262144 0, bootmem_request.free 0,
       bootmem_request.alloc 8192 4096 0 0, bootmem_request.alloc 12288 4096 300000 0,
       bootmem_request.free 2] (by decide)
      ⟨[{ region_64_free_10_20 with
          node_bootmem_map := some [2 ^ 64 - 1 - (2 ^ 20 - 2 ^ 16)],
          last_end_off := 65536, hint_idx := 11 },
        { region_64_128_free_64_70 with last_end_off := 20480 }],
       [(53248, 12288), (45056, 8192), (40960, 100)]⟩ (by decide)).1⟩

/-! ## Claims on consecutive allocations -/

theorem serve_alloc_eq (sizeof_long PAGE_SHIFT : Nat) (st : allocator_state)
    (b' : bootmem_data) (size align goal limit addr : Nat)
    (h : alloc_bootmem_core sizeof_long PAGE_SHIFT st.bdata size align goal limit =
      some (Result.ok (some addr, b'))) :
    serve sizeof_long PAGE_SHIFT st (bootmem_request.alloc size align goal limit) =
      some ⟨b', (addr, size) :: st.live⟩ := by
  simp only [serve, h]

/-- Claim C35 (counterexample).  On a 64-bit machine with 4 KiB pages, the region
`[0, 64)` has the frames 0 and 1 freed; 100 bytes are placed at the start of
frame 0 and frame 0 is then freed, which leaves `last_end_off = 100` inside a free
frame.  Two successful calls of `alloc_bootmem_core` follow, with no free in
between: one page with alignment 64 and the goal in frame 1 is placed on the
merge path at the bytes `[128, 4224)`, with only frame 1 reserved, and one page
with alignment 4096 is placed in the still free frame 0 at the bytes `[0, 4096)`.
The two byte ranges overlap. -/
theorem merge_into_freed_tail_frame_overlaps :
    free_bootmem_node 8 12 region_64_reserved 0 8192 = Result.ok (0, region_64_free_0_2) ∧
    alloc_bootmem_core 8 12 region_64_free_0_2 100 1 0 0 =
      some (Result.ok (some 0, region_64_tail_used)) ∧
    free_bootmem_node 8 12 region_64_tail_used 0 4096 =
      Result.ok (0, region_64_tail_freed) ∧
    alloc_bootmem_core 8 12 region_64_tail_freed 4096 64 4096 0 =
      some (Result.ok (some 128, region_64_merged_into_free)) ∧
    alloc_bootmem_core 8 12 region_64_merged_into_free 4096 4096 0 0 =
      some (Result.ok (some 0, region_64_frame_0_taken)) ∧
    ¬ bytes_disjoint (128, 4096) (0, 4096) ∧
    ¬ tail_reserved 8 12 region_64_tail_freed := by
  decide

/-- Claim C35 (amended).  Byte-level disjointness across a merge.  For an
addressable region in which the frame that holds a partial `last_end_off` is
reserved, and two consecutive successful calls of `alloc_bootmem_core` that meet
the preconditions, with nothing in between: the byte ranges of the two blocks do
not overlap; the second call found an index `sidx`, and on the merge path the
second block starts at or after the end of the first; and every frame that holds
a byte of the second block had a clear bit before the second call, except the
shared tail frame `PFN_DOWN(last_end_off)` on the merge path. -/
theorem consecutive_allocations_disjoint (sizeof_long PAGE_SHIFT : Nat)
    (hL : 0 < sizeof_long) (hPS0 : 0 < PAGE_SHIFT)
    (hPSW : PAGE_SHIFT < BITS_PER_LONG sizeof_long)
    (b0 b1 b2 : bootmem_data) (size1 a1 goal1 limit1 addr1 size2 a2 goal2 limit2 addr2 : Nat)
    (hsz1 : 0 < size1) (hw1 : size1 + (2 ^ PAGE_SHIFT - 1) ≤ ULONG_MAX sizeof_long)
    (ha1 : a1 < BITS_PER_LONG sizeof_long) (hlim1 : limit1 = 0 ∨ goal1 + size1 ≤ limit1)
    (hsz2 : 0 < size2) (hw2 : size2 + (2 ^ PAGE_SHIFT - 1) ≤ ULONG_MAX sizeof_long)
    (ha2 : a2 < BITS_PER_LONG sizeof_long) (hlim2 : limit2 = 0 ∨ goal2 + size2 ≤ limit2)
    (hreg : region_addressable sizeof_long PAGE_SHIFT b0)
    (htail : tail_reserved sizeof_long PAGE_SHIFT b0)
    (h1 : alloc_bootmem_core sizeof_long PAGE_SHIFT b0 size1 (2 ^ a1) goal1 limit1 =
      some (Result.ok (some addr1, b1)))
    (h2 : alloc_bootmem_core sizeof_long PAGE_SHIFT b1 size2 (2 ^ a2) goal2 limit2 =
      some (Result.ok (some addr2, b2))) :
    bytes_disjoint (addr1, size1) (addr2, size2) ∧
    ∃ sidx, fits sizeof_long b1 (window_end PAGE_SHIFT b1 limit2 - b1.node_min_pfn)
        (Nat.max (2 ^ a2 >>> PAGE_SHIFT) 1) (PFN_UP sizeof_long PAGE_SHIFT size2) sidx ∧
      (merge_path PAGE_SHIFT b1 sidx → addr1 + size1 ≤ addr2) ∧
      ∀ q, touches PAGE_SHIFT (b1.node_min_pfn + q) (addr2, size2) →
        test_bit sizeof_long q b1.node_bootmem_map = Result.ok false ∨
        (merge_path PAGE_SHIFT b1 sidx ∧ q = PFN_DOWN PAGE_SHIFT b1.last_end_off) := by
  rw [step_eq]
  have hBpos : 0 < 2 ^ PAGE_SHIFT := Nat.pow_pos (by decide)
  -- the invariant of request sequences holds before the first call
  have hinv0 : allocator_inv sizeof_long PAGE_SHIFT ⟨b0, []⟩ :=
    { region := hreg
      inside := fun al hal => by cases hal
      reserved := fun al hal => by cases hal
      disjoint := List.Pairwise.nil
      tail := fun hp => ⟨(htail hp).1, (htail hp).2, fun al hal => by cases hal⟩ }
  obtain ⟨st1, hs1, hinv1⟩ := inv_alloc sizeof_long PAGE_SHIFT hL ⟨b0, []⟩ size1 a1 goal1 limit1
    hPS0 hPSW hsz1 hw1 ha1 hlim1 hinv0
  rw [serve_alloc_eq sizeof_long PAGE_SHIFT ⟨b0, []⟩ b1 size1 (2 ^ a1) goal1 limit1 addr1 h1]
    at hs1
  injection hs1 with hs1
  subst hs1
  obtain ⟨st2, hs2, hinv2⟩ := inv_alloc sizeof_long PAGE_SHIFT hL ⟨b1, [(addr1, size1)]⟩ size2 a2
    goal2 limit2 hPS0 hPSW hsz2 hw2 ha2 hlim2 hinv1
  rw [serve_alloc_eq sizeof_long PAGE_SHIFT ⟨b1, [(addr1, size1)]⟩ b2 size2 (2 ^ a2) goal2
    limit2 addr2 h2] at hs2
  injection hs2 with hs2
  subst hs2
  have hdis : bytes_disjoint (addr2, size2) (addr1, size1) := by
    have := hinv2.disjoint
    simp only [List.pairwise_cons, List.mem_singleton, forall_eq] at this
    exact this.1
  have hreg1 : region_addressable sizeof_long PAGE_SHIFT b1 := hinv1.region
  -- the first block ends at `last_end_off` of the state it leaves
  obtain ⟨s1, so1, _, e1, _, _, _, _, e7, hpl1⟩ := alloc_bootmem_core_placed sizeof_long
    PAGE_SHIFT hL b0 b1 size1 a1 goal1 limit1 addr1 hPS0 hPSW hsz1 hw1 ha1 hlim1 hreg h1
  obtain ⟨_, _, _, _, _, _, hmin1, _, hleo1, _⟩ := hpl1
  rw [ulong_of_le e7] at hleo1
  -- the second block
  obtain ⟨s2, so2, hf2, g1, g2, g3, g4, g5, g6, hpl2⟩ := alloc_bootmem_core_placed sizeof_long
    PAGE_SHIFT hL b1 b2 size2 a2 goal2 limit2 addr2 hPS0 hPSW hsz2 hw2 ha2 hlim2 hreg1 h2
  obtain ⟨p1, p2, p3, _, _, _, _, _, _, _, p11, _⟩ := hpl2
  refine ⟨?_, s2, hf2, ?_, ?_⟩
  · rcases hdis with h | h
    · exact Or.inr h
    · exact Or.inl h
  · intro hm
    obtain ⟨m1, _, _⟩ := g3 hm
    rw [e1, g1, hmin1, hleo1] at *
    omega
  · intro q hq
    obtain ⟨hq1, hq2⟩ := hq
    simp only at hq1 hq2
    rw [g1, Nat.add_mul] at hq1 hq2
    have hqlo : so2 / 2 ^ PAGE_SHIFT ≤ q := by
      have : so2 / 2 ^ PAGE_SHIFT < q + 1 := by
        rw [Nat.div_lt_iff_lt_mul hBpos, Nat.succ_mul]; omega
      omega
    have hB2 : 2 ≤ 2 ^ PAGE_SHIFT := by
      have := Nat.pow_le_pow_right (show 0 < 2 by decide) hPS0
      simpa using this
    obtain ⟨hP1, hPmax⟩ := pfn_up_pos sizeof_long PAGE_SHIFT size2 hPSW hsz2 hw2
    have hee : ulong sizeof_long (s2 + PFN_UP sizeof_long PAGE_SHIFT size2) =
        s2 + PFN_UP sizeof_long PAGE_SHIFT size2 := by
      apply ulong_of_le
      have hs2B : s2 * 2 ^ PAGE_SHIFT + 2 ^ PAGE_SHIFT ≤
          (window_end PAGE_SHIFT b1 limit2 - b1.node_min_pfn) * 2 ^ PAGE_SHIFT := by
        have := Nat.mul_le_mul_right (2 ^ PAGE_SHIFT) (Nat.succ_le_of_lt p1)
        rwa [Nat.succ_mul] at this
      obtain ⟨_, hmid, _⟩ := window_facts sizeof_long PAGE_SHIFT hL b1 limit2 hreg1
      rw [Nat.add_mul] at hmid
      have e2 : PFN_UP sizeof_long PAGE_SHIFT size2 * 2 ≤
          PFN_UP sizeof_long PAGE_SHIFT size2 * 2 ^ PAGE_SHIFT := Nat.mul_le_mul_left _ hB2
      have e3 : s2 * 2 ≤ s2 * 2 ^ PAGE_SHIFT := Nat.mul_le_mul_left _ hB2
      omega
    have hqhi : s2 ≤ q → q < ulong sizeof_long (s2 + PFN_UP sizeof_long PAGE_SHIFT size2) := by
      intro hsq
      rw [hee]
      obtain ⟨d, rfl⟩ : ∃ d, q = s2 + d := ⟨q - s2, by omega⟩
      rw [Nat.add_mul] at hq1
      rw [PFN_UP_eq _ _ _ hPSW,
        Nat.mod_eq_of_lt (by unfold ULONG_MAX at hw2; have := two_pow_bits_pos sizeof_long; omega)]
      have : d + 1 ≤ (size2 + (2 ^ PAGE_SHIFT - 1)) / 2 ^ PAGE_SHIFT := by
        rw [Nat.le_div_iff_mul_le hBpos, Nat.succ_mul]
        omega
      omega
    by_cases hqs : s2 ≤ q
    · exact Or.inl (p3 q hqs (hqhi hqs))
    · right
      have hlt : so2 / 2 ^ PAGE_SHIFT < s2 := by omega
      have hm : merge_path PAGE_SHIFT b1 s2 := by
        by_contra hn
        rw [if_neg hn] at g2
        rw [g2, Nat.mul_div_cancel _ hBpos] at hlt
        omega
      refine ⟨hm, ?_⟩
      rw [PFN_DOWN_eq]
      rw [if_pos hlt] at g5
      have := hm.2
      omega

theorem consecutive_allocations_disjoint_witness :
    alloc_bootmem_core 8 12 region_3_67_used 5000 (2 ^ 6) 0 0 =
      some (Result.ok (some 53376, region_3_67_placed)) ∧
    alloc_bootmem_core 8 12 region_3_67_placed 100 (2 ^ 0) 0 0 =
      some (Result.ok (some 58376, region_3_67_placed_twice)) ∧
    bytes_disjoint (53376, 5000) (58376, 100) ∧
    ∃ sidx, fits 8 region_3_67_placed
        (window_end 12 region_3_67_placed 0 - region_3_67_placed.node_min_pfn)
        (Nat.max (2 ^ 0 >>> 12) 1) (PFN_UP 8 12 100) sidx ∧
      (merge_path 12 region_3_67_placed sidx → 53376 + 5000 ≤ 58376) ∧
      ∀ q, touches 12 (region_3_67_placed.node_min_pfn + q) (58376, 100) →
        test_bit 8 q region_3_67_placed.node_bootmem_map = Result.ok false ∨
        (merge_path 12 region_3_67_placed sidx ∧
          q = PFN_DOWN 12 region_3_67_placed.last_end_off) :=
  ⟨by decide, by decide,
    consecutive_allocations_disjoint 8 12 (by decide) (by decide) (by decide)
      region_3_67_used region_3_67_placed region_3_67_placed_twice 5000 6 0 0 53376
      100 0 0 0 58376 (by decide) (by decide) (by decide) (by decide) (by decide)
      (by decide) (by decide) (by decide) (by decide) (by decide) (by decide) (by decide)⟩

/-! ## A NULL result leaves the registry as it was -/

theorem alloc_bootmem_regions_null_state (sizeof_long PAGE_SHIFT size align goal limit : Nat)
    (rest : List bootmem_data) :
    ∀ visited l', alloc_bootmem_regions sizeof_long PAGE_SHIFT size align goal limit
        visited rest = some (Result.ok (none, l')) → l' = visited ++ rest := by
  induction rest with
  | nil =>
    intro visited l' h
    simp only [alloc_bootmem_regions] at h
    injection h with h
    injection h with h
    injection h with _ h
    rw [← h, List.append_nil]
  | cons b rest ih =>
    intro visited l' h
    have hassoc : visited ++ b :: rest = (visited ++ [b]) ++ rest := by simp
    by_cases hg : goal ≠ 0 ∧ b.node_low_pfn ≤ PFN_DOWN PAGE_SHIFT goal
    · simp only [alloc_bootmem_regions] at h
      rw [if_pos hg] at h
      rw [hassoc]
      exact ih _ _ h
    · by_cases hl : limit ≠ 0 ∧ b.node_min_pfn ≥ PFN_DOWN PAGE_SHIFT limit
      · simp only [alloc_bootmem_regions] at h
        rw [if_neg hg, if_pos hl] at h
        injection h with h
        injection h with h
        injection h with _ h
        exact h.symm
      · simp only [alloc_bootmem_regions] at h
        rw [if_neg hg, if_neg hl] at h
        cases hc : alloc_bootmem_core sizeof_long PAGE_SHIFT b size align goal limit with
        | none => rw [hc] at h; cases h
        | some res =>
          cases res with
          | fault => rw [hc] at h; cases h
          | bug => rw [hc] at h; cases h
          | ok p =>
            obtain ⟨region, b1⟩ := p
            cases region with
            | some addr =>
              rw [hc] at h
              simp only at h
              injection h with h
              injection h with h
              injection h with h _
              cases h
            | none =>
              have hb := alloc_bootmem_core_null_state sizeof_long PAGE_SHIFT b b1 size align
                goal limit hc
              subst hb
              rw [hc] at h
              simp only at h
              rw [hassoc]
              exact ih _ _ h

/-- Claim C36.  Failure atomicity of placement.  Whenever `alloc_bootmem_core`
returns NULL, the region it returns is the region it was given: bitmap,
`hint_idx`, `last_end_off` and the frame bounds are what they were.  Whenever a
pass of `___alloc_bootmem_nopanic` over the registry ends with NULL, the registry
is what it was, so with a nonzero goal the call is the pass with `goal = 0` on
the registry state of the first pass. -/
theorem alloc_bootmem_core_null_leaves_state (sizeof_long PAGE_SHIFT size align goal limit : Nat)
    (bdata : bootmem_data) (bdata_list : List bootmem_data) :
    (∀ b', alloc_bootmem_core sizeof_long PAGE_SHIFT bdata size align goal limit =
        some (Result.ok (none, b')) →
      b' = bdata ∧ b'.node_bootmem_map = bdata.node_bootmem_map ∧
      b'.hint_idx = bdata.hint_idx ∧ b'.last_end_off = bdata.last_end_off) ∧
    (∀ l', alloc_bootmem_pass sizeof_long PAGE_SHIFT size align goal limit bdata_list =
        some (Result.ok (none, l')) →
      l' = bdata_list ∧
      (goal ≠ 0 →
        ___alloc_bootmem_nopanic sizeof_long PAGE_SHIFT size align goal limit bdata_list =
          alloc_bootmem_pass sizeof_long PAGE_SHIFT size align 0 limit bdata_list)) := by
  constructor
  · intro b' h
    have hb := alloc_bootmem_core_null_state sizeof_long PAGE_SHIFT bdata b' size align goal
      limit h
    subst hb
    exact ⟨rfl, rfl, rfl, rfl⟩
  · intro l' h
    have hl : l' = bdata_list := by
      have h' := h
      rw [alloc_bootmem_pass_eq] at h'
      have := alloc_bootmem_regions_null_state sizeof_long PAGE_SHIFT size align goal limit
        bdata_list [] l' h'
      simpa using this
    subst hl
    refine ⟨rfl, fun hg => ?_⟩
    unfold ___alloc_bootmem_nopanic
    rw [h]
    simp only
    rw [if_pos hg]

theorem alloc_bootmem_core_null_leaves_state_witness :
    (region_64_128_reserved = region_64_128_reserved ∧
      region_64_128_reserved.node_bootmem_map = region_64_128_reserved.node_bootmem_map ∧
      region_64_128_reserved.hint_idx = region_64_128_reserved.hint_idx ∧
      region_64_128_reserved.last_end_off = region_64_128_reserved.last_end_off) ∧
    [region_64_free_10_20, region_64_128_reserved] =
      [region_64_free_10_20, region_64_128_reserved] ∧
    ((70 * 4096 : Nat) ≠ 0 →
      ___alloc_bootmem_nopanic 8 12 4096 4096 (70 * 4096) 0
          [region_64_free_10_20, region_64_128_reserved] =
        alloc_bootmem_pass 8 12 4096 4096 0 0
          [region_64_free_10_20, region_64_128_reserved]) :=
  ⟨(alloc_bootmem_core_null_leaves_state 8 12 4096 4096 (70 * 4096) 0 region_64_128_reserved
      [region_64_free_10_20, region_64_128_reserved]).1 region_64_128_reserved (by decide),
    (alloc_bootmem_core_null_leaves_state 8 12 4096 4096 (70 * 4096) 0 region_64_128_reserved
      [region_64_free_10_20, region_64_128_reserved]).2
      [region_64_free_10_20, region_64_128_reserved] (by decide)⟩

/-! ## A failed exclusive reservation -/

theorem reserve_loop_nonzero (sizeof_long exclusive sidx : Nat) (n : Nat) :
    ∀ (bdata b' : bootmem_data) (idx : Nat) (r : Int),
      __reserve_loop sizeof_long exclusive sidx bdata idx n = Result.ok (r, b') → r ≠ 0 →
      ∃ j, idx ≤ j ∧ j < idx + n ∧
        test_bit sizeof_long j bdata.node_bootmem_map = Result.ok true := by
  induction n with
  | zero =>
    intro bdata b' idx r h hr
    simp only [__reserve_loop] at h
    injection h with h
    injection h with h _
    exact absurd h.symm hr
  | succ n ih =>
    intro bdata b' idx r hres hr
    cases ht : test_bit sizeof_long idx bdata.node_bootmem_map with
    | bug => exact absurd ht (test_bit_ne_bug _ _ _)
    | fault =>
      simp [__reserve_loop, test_and_set_bit_fault ht] at hres
    | ok old =>
      obtain ⟨m, hm, hbits⟩ := test_and_set_bit_ok ht
      cases old with
      | true => exact ⟨idx, Nat.le_refl _, by omega, ht⟩
      | false =>
        simp only [__reserve_loop, hm, Bool.false_eq_true, if_false] at hres
        obtain ⟨j, hj1, hj2, hj3⟩ := ih { bdata with node_bootmem_map := some m } b' (idx + 1) r
          hres hr
        have h' : test_bit sizeof_long j (some m) = Result.ok true := hj3
        rw [hbits j, if_neg (by omega)] at h'
        exact ⟨j, by omega, by omega, h'⟩

/-- Claim C37.  A failed exclusive `__reserve` over `[sidx, eidx)` (a nonzero
return value) returns `-EBUSY` and changes at most one field of the region:
`last_end_off`, the frame bounds and the bitmap are unchanged (every bit reads as
before, and a bitmap of machine words is equal to the one before), and
`hint_idx` becomes `min(hint_idx, sidx)`. -/
theorem reserve_exclusive_failure_changes_hint_only (sizeof_long : Nat) (hL : 0 < sizeof_long)
    (bdata b' : bootmem_data) (sidx eidx flags : Nat) (r : Int)
    (hex : flags &&& BOOTMEM_EXCLUSIVE ≠ 0)
    (h : __reserve sizeof_long bdata sidx eidx flags = Result.ok (r, b'))
    (hr : r ≠ 0) :
    r = -EBUSY ∧
    b'.last_end_off = bdata.last_end_off ∧
    b'.node_min_pfn = bdata.node_min_pfn ∧ b'.node_low_pfn = bdata.node_low_pfn ∧
    (∀ i, test_bit sizeof_long i b'.node_bootmem_map =
      test_bit sizeof_long i bdata.node_bootmem_map) ∧
    b'.hint_idx = min bdata.hint_idx sidx ∧
    (words_fit sizeof_long bdata.node_bootmem_map →
      b' = { bdata with hint_idx := min bdata.hint_idx sidx }) := by
  obtain ⟨j, hj1, hj2, hj3⟩ := reserve_loop_nonzero sizeof_long (flags &&& BOOTMEM_EXCLUSIVE)
    sidx (eidx - sidx) bdata b' sidx r h hr
  obtain ⟨b2, hb2, hbits, hhint, hleo⟩ :=
    reserve_loop_conflict sizeof_long (flags &&& BOOTMEM_EXCLUSIVE) sidx hL hex
      (eidx - sidx) bdata sidx (Nat.le_refl _) (by intro i h1 h2; omega)
      ⟨j, hj1, hj2, hj3⟩
  have he : Result.ok (r, b') = Result.ok (-EBUSY, b2) := by
    rw [← hb2]; exact h.symm
  injection he with he
  injection he with he1 he2
  subst he1
  subst he2
  obtain ⟨f1, f2, f3⟩ := reserve_fields sizeof_long bdata b' sidx eidx flags _ h
  have hsame : ∀ i, test_bit sizeof_long i b'.node_bootmem_map =
      test_bit sizeof_long i bdata.node_bootmem_map := by
    intro i
    rw [hbits i, if_neg (by omega)]
  refine ⟨rfl, f3, f1, f2, hsame, hhint, ?_⟩
  intro hwf
  obtain ⟨hwf', hsome⟩ :=
    reserve_loop_words_fit sizeof_long (flags &&& BOOTMEM_EXCLUSIVE) sidx hL
      (eidx - sidx) bdata b' sidx (-EBUSY) hb2 hwf
  have hmap := map_eq_of_bits_eq sizeof_long hL _ _ hwf hwf' hsome hsame
  cases b'
  cases bdata
  simp only at f1 f2 f3 hhint hmap
  subst f1 f2 f3 hmap
  simp only [hhint]

theorem reserve_exclusive_failure_changes_hint_only_witness :
    __reserve 8 region_10_20_free 15 25 BOOTMEM_EXCLUSIVE =
      Result.ok (-EBUSY, { region_10_20_free with hint_idx := 15 }) ∧
    (-EBUSY = -EBUSY ∧
    ({ region_10_20_free with hint_idx := 15 } : bootmem_data).last_end_off =
      region_10_20_free.last_end_off ∧
    ({ region_10_20_free with hint_idx := 15 } : bootmem_data).node_min_pfn =
      region_10_20_free.node_min_pfn ∧
    ({ region_10_20_free with hint_idx := 15 } : bootmem_data).node_low_pfn =
      region_10_20_free.node_low_pfn ∧
    (∀ i, test_bit 8 i ({ region_10_20_free with hint_idx := 15 } : bootmem_data).node_bootmem_map =
      test_bit 8 i region_10_20_free.node_bootmem_map) ∧
    ({ region_10_20_free with hint_idx := 15 } : bootmem_data).hint_idx =
      min region_10_20_free.hint_idx 15 ∧
    (words_fit 8 region_10_20_free.node_bootmem_map →
      ({ region_10_20_free with hint_idx := 15 } : bootmem_data) =
        { region_10_20_free with hint_idx := min region_10_20_free.hint_idx 15 })) :=
  ⟨by decide, reserve_exclusive_failure_changes_hint_only 8 (by decide) region_10_20_free
    { region_10_20_free with hint_idx := 15 } 15 25 BOOTMEM_EXCLUSIVE (-EBUSY) (by decide)
    (by decide) (by decide)⟩

/-! ## Release without a bitmap -/

theorem to_int_nat (v : Nat) (hv : v < 2 ^ 32) :
    (v < 2 ^ 31 → to_int (v : Int) = v) ∧ (2 ^ 31 ≤ v → to_int (v : Int) = (v : Int) - 2 ^ 32) := by
  unfold to_int INT_BITS
  norm_num at hv ⊢
  constructor <;> intro h <;> omega

/-- The `int` counter that holds the frame number `v`, as the loops of
`__free_pages_memory` compare it with a bound of at most `2 ^ 31` and pass it to
`pfn_to_page`. -/
theorem int_counter_facts (sizeof_long v bound : Nat) (hB : 32 ≤ BITS_PER_LONG sizeof_long)
    (hv : v < 2 ^ 32) (hb : bound ≤ 2 ^ 31) :
    (int_to_ulong sizeof_long (to_int v) < bound ↔ v < bound) ∧
    (v < bound → int_to_ulong sizeof_long (to_int v) = v) := by
  have hW : (2 : Nat) ^ 32 ≤ 2 ^ BITS_PER_LONG sizeof_long :=
    Nat.pow_le_pow_right (by decide) hB
  have hcast : ((2 : Int) ^ BITS_PER_LONG sizeof_long) =
      ((2 ^ BITS_PER_LONG sizeof_long : Nat) : Int) := by push_cast; rfl
  obtain ⟨t1, t2⟩ := to_int_nat v hv
  norm_num at hv hb hW t1 t2
  unfold int_to_ulong
  rw [hcast]
  generalize 2 ^ BITS_PER_LONG sizeof_long = W at hW
  by_cases hlt : v < 2147483648
  · rw [t1 hlt]
    have : ((v : Int) % (W : Int)) = v := Int.emod_eq_of_lt (by omega) (by omega)
    rw [this]
    rw [Int.toNat_ofNat]
    exact ⟨Iff.rfl, fun _ => rfl⟩
  · rw [t2 (by omega)]
    have e : ((v : Int) - 4294967296) % (W : Int) = (v : Int) - 4294967296 + W := by
      rw [← Int.add_mul_emod_self_left ((v : Int) - 4294967296) (W : Int) 1, Int.mul_one]
      exact Int.emod_eq_of_lt (by omega) (by omega)
    rw [e]
    constructor
    · constructor
      · intro h; omega
      · intro h; omega
    · intro h; omega

theorem free_pages_loop_spec (sizeof_long order stride bound : Nat)
    (hB : 32 ≤ BITS_PER_LONG sizeof_long) (hs : 0 < stride) (hs2 : stride ≤ 2 ^ 31)
    (hb : bound ≤ 2 ^ 31) (n : Nat) :
    ∀ (fuel v : Nat), n + 1 ≤ fuel → v < 2 ^ 32 → bound ≤ v + n * stride →
      (0 < n → v + (n - 1) * stride < bound) →
      free_pages_loop sizeof_long order stride bound fuel (to_int v) =
        some ((List.range' v n stride).map (fun pfn => free_pages_call.frame pfn order)) := by
  induction n with
  | zero =>
    intro fuel v hfuel hv hge _
    obtain ⟨f, rfl⟩ : ∃ f, fuel = f + 1 := ⟨fuel - 1, by omega⟩
    obtain ⟨c1, _⟩ := int_counter_facts sizeof_long v bound hB hv hb
    simp only [free_pages_loop]
    rw [if_neg (fun h => by have := c1.mp h; omega)]
    rfl
  | succ n ih =>
    intro fuel v hfuel hv hge hlast
    obtain ⟨f, rfl⟩ : ∃ f, fuel = f + 1 := ⟨fuel - 1, by omega⟩
    obtain ⟨c1, c2⟩ := int_counter_facts sizeof_long v bound hB hv hb
    have hlast' := hlast (Nat.succ_pos n)
    simp only [Nat.add_sub_cancel] at hlast'
    have hvb : v < bound := Nat.lt_of_le_of_lt (Nat.le_add_right _ _) hlast'
    have hv31 : v < 2 ^ 31 := Nat.lt_of_lt_of_le hvb hb
    have hto : to_int (v : Int) = v := (to_int_nat v hv).1 hv31
    have hnext : to_int (to_int (v : Int) + (stride : Int)) = to_int ((v + stride : Nat) : Int) := by
      rw [hto]; push_cast; rfl
    have hrec := ih f (v + stride) (by omega) (by norm_num at hv31 hs2 ⊢; omega)
      (by rw [Nat.succ_mul] at hge; omega)
      (fun hn => by
        obtain ⟨m, rfl⟩ : ∃ m, n = m + 1 := ⟨n - 1, by omega⟩
        simp only [Nat.add_sub_cancel]
        rw [Nat.succ_mul] at hlast'
        omega)
    simp only [free_pages_loop]
    rw [if_pos (c1.mpr hvb), hnext, hrec, c2 hvb]
    rfl

/-! ## `__free_pages_memory` below the range of `int` -/

theorem region_frames_singles (n : Nat) :
    ∀ v, region_frames ((List.range' v n).map (fun pfn => free_pages_call.frame pfn 0)) =
      List.range' v n := by
  induction n with
  | zero => intro v; rfl
  | succ n ih =>
    intro v
    rw [List.range'_succ, List.map_cons]
    show List.range' v (2 ^ 0) ++ region_frames _ = _
    rw [ih (v + 1)]
    rfl

theorem region_frames_blocks (j m : Nat) :
    ∀ v, region_frames ((List.range' v m (2 ^ j)).map
        (fun pfn => free_pages_call.frame pfn j)) = List.range' v (m * 2 ^ j) := by
  induction m with
  | zero => intro v; rw [Nat.zero_mul]; rfl
  | succ m ih =>
    intro v
    rw [List.range'_succ, List.map_cons]
    show List.range' v (2 ^ j) ++ region_frames _ = _
    rw [ih (v + 2 ^ j), List.range'_append_1, Nat.succ_mul]

/-- For frame numbers up to `2 ^ 31`, which the `int` counter holds,
`__free_pages_memory(start, end)` releases the frames `start .. end - 1` once
each and in order: one by one when the range holds no whole aligned word, and
else the frames before the first aligned word one by one, the aligned words in
one call of order `ilog2(BITS_PER_LONG)` each, and the frames behind the last
aligned word one by one. -/
theorem free_pages_memory_below_int_max (sizeof_long k start end_ : Nat)
    (hpow : sizeof_long = 2 ^ k) (hk : 2 ≤ k) (hk2 : k ≤ 28) (hse : start ≤ end_)
    (hend : end_ ≤ 2 ^ 31) :
    ∃ calls, __free_pages_memory sizeof_long start end_ = some calls ∧
      region_frames calls = List.range' start (end_ - start) ∧
      (end_ / BITS_PER_LONG sizeof_long * BITS_PER_LONG sizeof_long ≤
          (start + (BITS_PER_LONG sizeof_long - 1)) / BITS_PER_LONG sizeof_long *
            BITS_PER_LONG sizeof_long →
        calls = (List.range' start (end_ - start)).map
          (fun pfn => free_pages_call.frame pfn 0)) ∧
      ((start + (BITS_PER_LONG sizeof_long - 1)) / BITS_PER_LONG sizeof_long *
            BITS_PER_LONG sizeof_long <
          end_ / BITS_PER_LONG sizeof_long * BITS_PER_LONG sizeof_long →
        calls =
          (List.range' start
            ((start + (BITS_PER_LONG sizeof_long - 1)) / BITS_PER_LONG sizeof_long *
              BITS_PER_LONG sizeof_long - start)).map
            (fun pfn => free_pages_call.frame pfn 0) ++
          (List.range'
            ((start + (BITS_PER_LONG sizeof_long - 1)) / BITS_PER_LONG sizeof_long *
              BITS_PER_LONG sizeof_long)
            (end_ / BITS_PER_LONG sizeof_long -
              (start + (BITS_PER_LONG sizeof_long - 1)) / BITS_PER_LONG sizeof_long)
            (BITS_PER_LONG sizeof_long)).map
            (fun pfn => free_pages_call.frame pfn (ilog2 (BITS_PER_LONG sizeof_long))) ++
          (List.range' (end_ / BITS_PER_LONG sizeof_long * BITS_PER_LONG sizeof_long)
            (end_ - end_ / BITS_PER_LONG sizeof_long * BITS_PER_LONG sizeof_long)).map
            (fun pfn => free_pages_call.frame pfn 0)) := by
  have hBeq := BITS_PER_LONG_two_pow sizeof_long k hpow
  have hlog : ilog2 (BITS_PER_LONG sizeof_long) = k + 3 := by rw [hBeq]; exact ilog2_two_pow _
  have hB32 : 32 ≤ BITS_PER_LONG sizeof_long := by
    rw [hBeq]
    exact Nat.pow_le_pow_right (show 0 < 2 by decide) (show 5 ≤ k + 3 by omega)
  have hBle : BITS_PER_LONG sizeof_long ≤ 2 ^ 31 := by
    rw [hBeq]
    exact Nat.pow_le_pow_right (by decide) (show k + 3 ≤ 31 by omega)
  have hW : (2 : Nat) ^ 32 ≤ 2 ^ BITS_PER_LONG sizeof_long :=
    Nat.pow_le_pow_right (by decide) hB32
  have hkB : k + 3 ≤ BITS_PER_LONG sizeof_long := by
    rw [hBeq]; exact Nat.le_of_lt (Nat.lt_two_pow (k + 3))
  have hBpos : 0 < BITS_PER_LONG sizeof_long := by omega
  norm_num at hend hBle hW
  have hsa : ulong sizeof_long (start + (BITS_PER_LONG sizeof_long - 1)) &&&
      (ULONG_MAX sizeof_long - (BITS_PER_LONG sizeof_long - 1)) =
      (start + (BITS_PER_LONG sizeof_long - 1)) / BITS_PER_LONG sizeof_long *
        BITS_PER_LONG sizeof_long := by
    have hy : start + (BITS_PER_LONG sizeof_long - 1) < 2 ^ BITS_PER_LONG sizeof_long := by
      omega
    have := and_high_mask (start + (2 ^ (k + 3) - 1)) (k + 3) (BITS_PER_LONG sizeof_long)
      (by rw [← hBeq]; exact hy) hkB
    rw [← hBeq] at this
    unfold ulong ULONG_MAX
    rw [Nat.mod_eq_of_lt hy]
    exact this
  have hea : end_ &&& (ULONG_MAX sizeof_long - (BITS_PER_LONG sizeof_long - 1)) =
      end_ / BITS_PER_LONG sizeof_long * BITS_PER_LONG sizeof_long := by
    have := and_high_mask end_ (k + 3) (BITS_PER_LONG sizeof_long) (by omega) hkB
    rw [← hBeq] at this
    unfold ULONG_MAX
    exact this
  unfold __free_pages_memory
  simp only [hsa, hea]
  generalize hsadef : (start + (BITS_PER_LONG sizeof_long - 1)) / BITS_PER_LONG sizeof_long = qs
  generalize headef : end_ / BITS_PER_LONG sizeof_long = qe
  have hs1 := Nat.div_add_mod (start + (BITS_PER_LONG sizeof_long - 1))
    (BITS_PER_LONG sizeof_long)
  have hs2 := Nat.mod_lt (start + (BITS_PER_LONG sizeof_long - 1)) hBpos
  have he1 := Nat.div_add_mod end_ (BITS_PER_LONG sizeof_long)
  have he2 := Nat.mod_lt end_ hBpos
  rw [hsadef, Nat.mul_comm] at hs1
  rw [headef, Nat.mul_comm] at he1
  have hfuel : (2 : Nat) ^ INT_BITS + 1 = 4294967297 := by unfold INT_BITS; norm_num
  rw [hfuel]
  by_cases hcase : qe * BITS_PER_LONG sizeof_long ≤ qs * BITS_PER_LONG sizeof_long
  · rw [if_pos hcase]
    have hloop := free_pages_loop_spec sizeof_long 0 1 end_ hB32 (by decide) (by decide)
      (by norm_num; omega) (end_ - start) 4294967297 start (by omega) (by norm_num; omega)
      (by omega) (fun h => by omega)
    refine ⟨_, hloop, region_frames_singles _ _, fun _ => rfl, fun h => by omega⟩
  · rw [if_neg hcase]
    have hq : qs < qe := by
      by_contra hh
      exact hcase (Nat.mul_le_mul_right _ (by omega))
    obtain ⟨d, rfl⟩ : ∃ d, qe = qs + d := ⟨qe - qs, by omega⟩
    rw [Nat.add_mul] at he1 hcase ⊢
    generalize hA : qs * BITS_PER_LONG sizeof_long = A at hs1 he1 hcase ⊢
    generalize hD : d * BITS_PER_LONG sizeof_long = D at he1 hcase ⊢
    have hhead := free_pages_loop_spec sizeof_long 0 1 A hB32 (by decide) (by decide)
      (by norm_num; omega) (A - start) 4294967297 start (by omega) (by norm_num; omega)
      (by omega) (fun h => by omega)
    have hbody := free_pages_loop_spec sizeof_long (ilog2 (BITS_PER_LONG sizeof_long))
      (BITS_PER_LONG sizeof_long) (A + D) hB32 hBpos (by norm_num; omega)
      (by norm_num; omega) d 4294967297 A (by
        have : d * 1 ≤ d * BITS_PER_LONG sizeof_long := Nat.mul_le_mul_left d hBpos
        omega) (by norm_num; omega)
      (by rw [hD]) (fun h => by
        obtain ⟨m, rfl⟩ : ∃ m, d = m + 1 := ⟨d - 1, by omega⟩
        rw [Nat.succ_mul] at hD
        simp only [Nat.add_sub_cancel]
        omega)
    have htail := free_pages_loop_spec sizeof_long 0 1 end_ hB32 (by decide) (by decide)
      (by norm_num; omega) (end_ - (A + D)) 4294967297 (A + D) (by omega)
      (by norm_num; omega) (by omega) (fun h => by omega)
    simp only [hhead, hbody, htail]
    refine ⟨_, rfl, ?_, fun h => by omega, fun _ => ?_⟩
    · rw [region_frames_append, region_frames_append, region_frames_singles,
        region_frames_singles, hlog]
      have hblocks := region_frames_blocks (k + 3) d A
      rw [← hBeq, hD] at hblocks
      rw [hblocks]
      have e1 := List.range'_append_1 start (A - start) D
      rw [show start + (A - start) = A by omega] at e1
      have e2 := List.range'_append_1 start (D + (A - start)) (end_ - (A + D))
      rw [show start + (D + (A - start)) = A + D by omega] at e2
      rw [e1, e2]
      congr 1
      omega
    · have hd : qs + d - qs = d := by omega
      rw [hd]

/-! ## Claim on `__free_pages_memory` -/

/-- For ranges of frame numbers up to `2 ^ 31`, `free_all_memory_core_early`
releases the frames of every range once and returns the sum of `end - start`. -/
theorem free_all_memory_core_early_below_int_max (sizeof_long k : Nat)
    (hpow : sizeof_long = 2 ^ k) (hk : 2 ≤ k) (hk2 : k ≤ 28) (ranges : List range) :
    ∀ count, (∀ r ∈ ranges, r.start ≤ r.end_ ∧ r.end_ ≤ 2 ^ 31) →
      count + ranges_pages ranges < 2 ^ BITS_PER_LONG sizeof_long →
      ∃ calls, free_all_memory_core_early_loop sizeof_long count ranges =
          some (calls, count + ranges_pages ranges) ∧
        region_frames calls = ranges_frames ranges := by
  have hB32 : 32 ≤ BITS_PER_LONG sizeof_long := by
    rw [BITS_PER_LONG_two_pow sizeof_long k hpow]
    exact Nat.pow_le_pow_right (show 0 < 2 by decide) (show 5 ≤ k + 3 by omega)
  have hW : (2 : Nat) ^ 32 ≤ 2 ^ BITS_PER_LONG sizeof_long :=
    Nat.pow_le_pow_right (by decide) hB32
  induction ranges with
  | nil => intro count _ _; exact ⟨[], rfl, rfl⟩
  | cons r rest ih =>
    intro count hr hsum
    obtain ⟨hse, hend⟩ := hr r (List.mem_cons_self _ _)
    obtain ⟨calls, hc, hf, _, _⟩ :=
      free_pages_memory_below_int_max sizeof_long k r.start r.end_ hpow hk hk2 hse hend
    have hsum' : count + ((r.end_ - r.start) + ranges_pages rest) <
        2 ^ BITS_PER_LONG sizeof_long := hsum
    have hcount : ulong sizeof_long
        (count + (r.end_ + (2 ^ 64 - r.start % 2 ^ 64)) % 2 ^ 64) =
        count + (r.end_ - r.start) := by
      have e : (r.end_ + (2 ^ 64 - r.start % 2 ^ 64)) % 2 ^ 64 = r.end_ - r.start := by
        norm_num at hend ⊢
        omega
      rw [e]
      unfold ulong
      exact Nat.mod_eq_of_lt (by omega)
    have hs : ulong sizeof_long r.start = r.start := by
      unfold ulong
      exact Nat.mod_eq_of_lt (by norm_num at hend hW ⊢; omega)
    have he : ulong sizeof_long r.end_ = r.end_ := by
      unfold ulong
      exact Nat.mod_eq_of_lt (by norm_num at hend hW ⊢; omega)
    obtain ⟨more, hm, hmf⟩ := ih (count + (r.end_ - r.start))
      (fun x hx => hr x (List.mem_cons_of_mem _ hx)) (by omega)
    refine ⟨calls ++ more, ?_, ?_⟩
    · simp only [free_all_memory_core_early_loop]
      rw [hcount, hs, he, hc]
      simp only [hm]
      show some (calls ++ more, count + (r.end_ - r.start) + ranges_pages rest) =
        some (calls ++ more, count + ((r.end_ - r.start) + ranges_pages rest))
      rw [Nat.add_assoc]
    · rw [region_frames_append, hf, hmf]
      rfl

/-- Claim C34 (evaluation at the failing input).  On a 64-bit machine
`__free_pages_memory(2 ^ 31, 2 ^ 31 + 1)` releases no frame, because the `int`
counter that takes the frame number `2 ^ 31` is negative and compares above
`end` after its conversion to `unsigned long`, while
`free_all_memory_core_early` counts the frame as released; a whole aligned word
that starts at frame `2 ^ 31` is not released either, and of the frames
`2 ^ 31 - 2 .. 2 ^ 31` the last one is left out.  The range `60 .. 129` below
`2 ^ 31` is released as the claim says. -/
theorem free_pages_memory_skips_high_frames :
    __free_pages_memory 8 (2 ^ 31) (2 ^ 31 + 1) = some [] ∧
    free_all_memory_core_early 8 [⟨2 ^ 31, 2 ^ 31 + 1⟩] = some ([], 1) ∧
    __free_pages_memory 8 (2 ^ 31) (2 ^ 31 + 64) = some [] ∧
    __free_pages_memory 8 (2 ^ 31 - 2) (2 ^ 31 + 1) =
      some [free_pages_call.frame (2 ^ 31 - 2) 0, free_pages_call.frame (2 ^ 31 - 1) 0] ∧
    __free_pages_memory 8 60 130 =
      some [free_pages_call.frame 60 0, free_pages_call.frame 61 0,
        free_pages_call.frame 62 0, free_pages_call.frame 63 0,
        free_pages_call.frame 64 6, free_pages_call.frame 128 0,
        free_pages_call.frame 129 0] := by
  refine ⟨by decide, by decide, by decide, by decide, by decide⟩

/-! ## Elements of a well-formed pool -/

theorem add_element_ok (pool : mempool_t) (element : Nat) (hok : pool_ok pool)
    (hlt : pool.curr_nr < pool.min_nr) (he : element ≠ 0) :
    add_element pool element = Result.ok { pool with
      elements := pool.elements.set pool.curr_nr.toNat element
      curr_nr := pool.curr_nr + 1 } ∧
    pool_ok { pool with
      elements := pool.elements.set pool.curr_nr.toNat element
      curr_nr := pool.curr_nr + 1 } := by
  obtain ⟨h0, h1, h2, h3⟩ := hok
  constructor
  · unfold add_element
    rw [if_neg (by omega), if_pos ⟨h0, by omega⟩]
  · refine ⟨by simp only; omega, by simp only; omega, by simp only [List.length_set]; exact h2,
      ?_⟩
    intro i hi
    simp only at hi ⊢
    rw [List.getElem?_set]
    by_cases hc : pool.curr_nr.toNat = i
    · rw [if_pos hc, if_pos (by omega)]
      intro h
      injection h with h
      exact he h
    · rw [if_neg hc]
      exact h3 i (by omega)

theorem remove_element_ok (pool : mempool_t) (hok : pool_ok pool) (hpos : 0 < pool.curr_nr) :
    ∃ element, element ≠ 0 ∧ pool.elements[(pool.curr_nr - 1).toNat]? = some element ∧
      remove_element pool = Result.ok (element, { pool with curr_nr := pool.curr_nr - 1 }) ∧
      pool_ok { pool with curr_nr := pool.curr_nr - 1 } := by
  obtain ⟨h0, h1, h2, h3⟩ := hok
  have hlt : (pool.curr_nr - 1).toNat < pool.elements.length := by omega
  have hget : pool.elements[(pool.curr_nr - 1).toNat]? =
      some (pool.elements[(pool.curr_nr - 1).toNat]) := List.getElem?_eq_getElem hlt
  refine ⟨pool.elements[(pool.curr_nr - 1).toNat], ?_, hget, ?_, ?_⟩
  · intro h
    have := h3 (pool.curr_nr - 1).toNat (by omega)
    rw [hget, h] at this
    exact this rfl
  · unfold remove_element
    rw [if_neg (by omega), hget]
  · exact ⟨by simp only; omega, by simp only; omega, h2, fun i hi => h3 i (by
      simp only at hi; omega)⟩

theorem free_pool_loop_ok (n : Nat) :
    ∀ pool, pool_ok pool → ∃ freed, free_pool_loop n pool = Result.ok freed := by
  induction n with
  | zero => intro pool _; exact ⟨[], rfl⟩
  | succ n ih =>
    intro pool hok
    by_cases hc : pool.curr_nr ≠ 0
    · obtain ⟨e, _, _, hr, hok'⟩ := remove_element_ok pool hok (by have := hok.1; omega)
      obtain ⟨freed, hf⟩ := ih _ hok'
      refine ⟨e :: freed, ?_⟩
      simp only [free_pool_loop]
      rw [if_pos hc, hr]
      simp only [hf]
    · refine ⟨[], ?_⟩
      simp only [free_pool_loop]
      rw [if_neg hc]

/-! ## Creation -/

theorem mempool_fill_ok (n : Nat) :
    ∀ (pool : mempool_t) (allocs : List Nat), pool_ok pool →
      ∃ r freed, mempool_fill n pool allocs = Result.ok (r, freed) ∧
        ∀ p, r = some p →
          pool_ok p ∧ p.min_nr = pool.min_nr ∧ freed = [] ∧
          (pool.min_nr - pool.curr_nr < (n : Int) → p.curr_nr = p.min_nr) := by
  induction n with
  | zero =>
    intro pool allocs hok
    refine ⟨some pool, [], rfl, ?_⟩
    intro p hp
    injection hp with hp
    subst hp
    refine ⟨hok, rfl, rfl, fun h => ?_⟩
    have := hok.2.1
    simp only [Nat.cast_zero] at h
    omega
  | succ n ih =>
    intro pool allocs hok
    by_cases hc : pool.curr_nr < pool.min_nr
    · by_cases he : allocs.headD 0 = 0
      · obtain ⟨freed, hf⟩ := free_pool_loop_ok (pool.curr_nr.toNat + 1) pool hok
        refine ⟨none, freed, ?_, fun p hp => by cases hp⟩
        simp only [mempool_fill]
        rw [if_pos hc, if_pos he]
        unfold free_pool
        rw [hf]
      · obtain ⟨ha, hok'⟩ := add_element_ok pool (allocs.headD 0) hok hc he
        obtain ⟨r, freed, hr, hp⟩ := ih _ allocs.tail hok'
        refine ⟨r, freed, ?_, ?_⟩
        · simp only [mempool_fill]
          rw [if_pos hc, if_neg he, ha]
          exact hr
        · intro p hrp
          obtain ⟨p1, p2, p3, p4⟩ := hp p hrp
          refine ⟨p1, p2, p3, fun h => p4 ?_⟩
          simp only
          push_cast at h
          omega
    · refine ⟨some pool, [], ?_, ?_⟩
      · simp only [mempool_fill]
        rw [if_neg hc]
      · intro p hp
        injection hp with hp
        subst hp
        refine ⟨hok, rfl, rfl, fun _ => ?_⟩
        have := hok.2.1
        omega

theorem mempool_create_node_ok (min_nr : Int) (hmin : 0 ≤ min_nr)
    (pool_mem elements_mem : Bool) (allocs : List Nat) (node_id : Int) :
    ∃ r freed, mempool_create_node min_nr pool_mem elements_mem allocs node_id =
        Result.ok (r, freed) ∧
      ∀ pool, r = some pool →
        pool_ok pool ∧ pool.min_nr = min_nr ∧ pool.curr_nr = min_nr ∧ freed = [] := by
  unfold mempool_create_node
  cases pool_mem with
  | false => exact ⟨none, [], rfl, fun p hp => by cases hp⟩
  | true =>
    cases elements_mem with
    | false => exact ⟨none, [], rfl, fun p hp => by cases hp⟩
    | true =>
      simp only [Bool.not_true, Bool.false_eq_true, if_false]
      have hok0 : pool_ok (⟨min_nr, 0, List.replicate min_nr.toNat 0⟩ : mempool_t) := by
        refine ⟨Int.le_refl _, hmin, ?_, fun i hi => ?_⟩
        · simp only [List.length_replicate]; omega
        · simp only [Int.toNat_zero] at hi; omega
      obtain ⟨r, freed, hr, hp⟩ := mempool_fill_ok (min_nr.toNat + 1) _ allocs hok0
      refine ⟨r, freed, hr, ?_⟩
      intro pool hrp
      obtain ⟨p1, p2, p3, p4⟩ := hp pool hrp
      simp only at p2 p4
      refine ⟨p1, p2, ?_, p3⟩
      rw [p4 (by push_cast; omega), p2]

/-! ## `mempool_free` and `mempool_alloc` -/

theorem mempool_free_ok (element : Nat) (pool : mempool_t) (hok : pool_ok pool) :
    mempool_free 0 pool = Result.ok (pool, []) ∧
    (element ≠ 0 → pool.curr_nr < pool.min_nr →
      mempool_free element pool = Result.ok ({ pool with
        elements := pool.elements.set pool.curr_nr.toNat element
        curr_nr := pool.curr_nr + 1 }, []) ∧
      pool_ok { pool with
        elements := pool.elements.set pool.curr_nr.toNat element
        curr_nr := pool.curr_nr + 1 }) ∧
    (element ≠ 0 → ¬ pool.curr_nr < pool.min_nr →
      mempool_free element pool = Result.ok (pool, [element])) := by
  refine ⟨?_, ?_, ?_⟩
  · unfold mempool_free
    rw [if_pos rfl]
  · intro he hlt
    obtain ⟨ha, hok'⟩ := add_element_ok pool element hok hlt he
    refine ⟨?_, hok'⟩
    unfold mempool_free
    rw [if_neg he, if_pos hlt, if_pos hlt, ha]
  · intro he hlt
    unfold mempool_free
    rw [if_neg he, if_neg hlt]

theorem mempool_free_pool_ok (element : Nat) (pool : mempool_t) (hok : pool_ok pool) :
    ∃ p freed, mempool_free element pool = Result.ok (p, freed) ∧ pool_ok p := by
  obtain ⟨h0, h1, h2⟩ := mempool_free_ok element pool hok
  by_cases he : element = 0
  · subst he; exact ⟨pool, [], h0, hok⟩
  · by_cases hlt : pool.curr_nr < pool.min_nr
    · exact ⟨_, [], (h1 he hlt).1, (h1 he hlt).2⟩
    · exact ⟨pool, [element], h2 he hlt, hok⟩

/-- One round of `mempool_alloc` whose call of `pool->alloc` returns `element`:
the element when it is not NULL, else the element stored last, else NULL for a
caller that may not sleep. -/
theorem mempool_alloc_round (pool : mempool_t) (gfp_mask : Nat) (allocs : List Nat)
    (hok : pool_ok pool) :
    (allocs.headD 0 ≠ 0 →
      mempool_alloc pool gfp_mask allocs = some (Result.ok (allocs.headD 0, pool))) ∧
    (allocs.headD 0 = 0 → 0 < pool.curr_nr →
      ∃ element, element ≠ 0 ∧ pool.elements[(pool.curr_nr - 1).toNat]? = some element ∧
        mempool_alloc pool gfp_mask allocs =
          some (Result.ok (element, { pool with curr_nr := pool.curr_nr - 1 })) ∧
        pool_ok { pool with curr_nr := pool.curr_nr - 1 }) ∧
    (allocs.headD 0 = 0 → pool.curr_nr = 0 → gfp_mask &&& __GFP_WAIT = 0 →
      mempool_alloc pool gfp_mask allocs = some (Result.ok (0, pool))) := by
  refine ⟨?_, ?_, ?_⟩
  · intro he
    cases allocs with
    | nil => exact absurd rfl he
    | cons e rest =>
      simp only [List.headD_cons] at he ⊢
      simp only [mempool_alloc]
      rw [if_pos he]
  · intro he hpos
    obtain ⟨e, h1, h2, h3, h4⟩ := remove_element_ok pool hok hpos
    refine ⟨e, h1, h2, ?_, h4⟩
    cases allocs with
    | nil =>
      simp only [mempool_alloc]
      rw [if_pos (by omega), h3]
    | cons e' rest =>
      simp only [List.headD_cons] at he
      simp only [mempool_alloc]
      rw [if_neg (by omega), if_pos (by omega), h3]
  · intro he h0 hw
    cases allocs with
    | nil =>
      simp only [mempool_alloc]
      rw [if_neg (by omega), if_pos hw]
    | cons e' rest =>
      simp only [List.headD_cons] at he
      simp only [mempool_alloc]
      rw [if_neg (by omega), if_neg (by omega), if_pos hw]

theorem mempool_alloc_pool_ok (gfp_mask : Nat) (allocs : List Nat) :
    ∀ pool, pool_ok pool →
      mempool_alloc pool gfp_mask allocs = none ∨
      ∃ element p, mempool_alloc pool gfp_mask allocs = some (Result.ok (element, p)) ∧
        pool_ok p := by
  induction allocs with
  | nil =>
    intro pool hok
    obtain ⟨_, h2, h3⟩ := mempool_alloc_round pool gfp_mask [] hok
    by_cases hc : pool.curr_nr = 0
    · by_cases hw : gfp_mask &&& __GFP_WAIT = 0
      · exact Or.inr ⟨0, pool, h3 rfl hc hw, hok⟩
      · left
        simp only [mempool_alloc]
        rw [if_neg (by omega), if_neg hw]
    · obtain ⟨e, _, _, hr, hok'⟩ := h2 rfl (by have := hok.1; omega)
      exact Or.inr ⟨e, _, hr, hok'⟩
  | cons e rest ih =>
    intro pool hok
    obtain ⟨h1, h2, h3⟩ := mempool_alloc_round pool gfp_mask (e :: rest) hok
    simp only [List.headD_cons] at h1 h2 h3
    by_cases he : e ≠ 0
    · exact Or.inr ⟨e, pool, h1 he, hok⟩
    · have he0 : e = 0 := by omega
      by_cases hc : pool.curr_nr = 0
      · by_cases hw : gfp_mask &&& __GFP_WAIT = 0
        · exact Or.inr ⟨0, pool, h3 he0 hc hw, hok⟩
        · have : mempool_alloc pool gfp_mask (e :: rest) = mempool_alloc pool gfp_mask rest := by
            simp only [mempool_alloc]
            rw [if_neg he, if_neg (by omega), if_neg hw]
          rw [this]
          exact ih pool hok
      · obtain ⟨x, _, _, hr, hok'⟩ := h2 he0 (by have := hok.1; omega)
        exact Or.inr ⟨x, _, hr, hok'⟩

/-! ## `mempool_resize` -/

theorem mempool_shrink_ok (new_min_nr : Int) (hnew : 0 ≤ new_min_nr) (n : Nat) :
    ∀ pool, pool_ok pool →
      ∃ p freed, mempool_shrink new_min_nr n pool = Result.ok (p, freed) ∧
        pool_ok p ∧ p.min_nr = pool.min_nr ∧
        (pool.curr_nr - new_min_nr < (n : Int) → p.curr_nr ≤ new_min_nr) := by
  induction n with
  | zero =>
    intro pool hok
    refine ⟨pool, [], rfl, hok, rfl, fun h => ?_⟩
    simp only [Nat.cast_zero] at h
    omega
  | succ n ih =>
    intro pool hok
    by_cases hc : new_min_nr < pool.curr_nr
    · obtain ⟨e, _, _, hr, hok'⟩ := remove_element_ok pool hok (by omega)
      obtain ⟨p, freed, hs, p1, p2, p3⟩ := ih _ hok'
      refine ⟨p, e :: freed, ?_, p1, p2, fun h => p3 ?_⟩
      · simp only [mempool_shrink]
        rw [if_pos hc, hr]
        simp only [hs]
      · simp only
        push_cast at h
        omega
    · refine ⟨pool, [], ?_, hok, rfl, fun _ => by omega⟩
      simp only [mempool_shrink]
      rw [if_neg hc]

theorem mempool_grow_ok (n : Nat) :
    ∀ (pool : mempool_t) (allocs : List Nat), pool_ok pool →
      ∃ p freed, mempool_grow n pool allocs = Result.ok (p, freed) ∧ pool_ok p := by
  induction n with
  | zero => intro pool allocs hok; exact ⟨pool, [], rfl, hok⟩
  | succ n ih =>
    intro pool allocs hok
    by_cases hc : pool.curr_nr < pool.min_nr
    · by_cases he : allocs.headD 0 = 0
      · refine ⟨pool, [], ?_, hok⟩
        simp only [mempool_grow]
        rw [if_pos hc, if_pos he]
      · obtain ⟨ha, hok'⟩ := add_element_ok pool (allocs.headD 0) hok hc he
        obtain ⟨p, freed, hg, hp⟩ := ih _ allocs.tail hok'
        refine ⟨p, freed, ?_, hp⟩
        simp only [mempool_grow]
        rw [if_pos hc, if_neg he, if_pos hc, ha]
        exact hg
    · refine ⟨pool, [], ?_, hok⟩
      simp only [mempool_grow]
      rw [if_neg hc]

theorem mempool_resize_ok (pool : mempool_t) (new_min_nr : Int) (new_mem : Bool)
    (allocs : List Nat) (hok : pool_ok pool) (hnew : 0 < new_min_nr) :
    ∃ r p freed, mempool_resize pool new_min_nr new_mem allocs = Result.ok (r, p, freed) ∧
      pool_ok p := by
  obtain ⟨h0, h1, h2, h3⟩ := hok
  unfold mempool_resize
  rw [if_neg (by omega)]
  by_cases hle : new_min_nr ≤ pool.min_nr
  · rw [if_pos hle]
    obtain ⟨p, freed, hs, p1, p2, p3⟩ := mempool_shrink_ok new_min_nr (by omega)
      (pool.curr_nr.toNat + 1) pool ⟨h0, h1, h2, h3⟩
    rw [hs]
    refine ⟨0, _, freed, rfl, ?_⟩
    obtain ⟨q0, q1, q2, q3⟩ := p1
    exact ⟨q0, p3 (by push_cast; omega), by simp only; omega, q3⟩
  · rw [if_neg hle]
    cases new_mem with
    | false => exact ⟨-ENOMEM, pool, [], rfl, h0, h1, h2, h3⟩
    | true =>
      simp only [Bool.not_true, Bool.false_eq_true, if_false]
      rw [if_neg hle, if_neg (by omega)]
      have hok' : pool_ok { pool with
          elements := pool.elements.take pool.curr_nr.toNat ++
            List.replicate (new_min_nr.toNat - pool.curr_nr.toNat) 0
          min_nr := new_min_nr } := by
        refine ⟨h0, by simp only; omega, ?_, ?_⟩
        · simp only [List.length_append, List.length_take, List.length_replicate]
          omega
        · intro i hi
          simp only at hi ⊢
          rw [List.getElem?_append_left (by rw [List.length_take]; omega), List.getElem?_take,
            if_pos hi]
          exact h3 i hi
      obtain ⟨p, freed, hg, hp⟩ := mempool_grow_ok (new_min_nr.toNat + 1) _ allocs hok'
      rw [hg]
      exact ⟨0, p, freed, rfl, hp⟩

/-! ## Sequences of calls -/

theorem pool_run_ok (reqs : List pool_request) :
    ∀ pool, pool_ok pool → (∀ q ∈ reqs, pool_request_ok q) →
      pool_run pool reqs = none ∨
      ∃ p, pool_run pool reqs = some (Result.ok p) ∧ pool_ok p := by
  induction reqs with
  | nil => intro pool hok _; exact Or.inr ⟨pool, rfl, hok⟩
  | cons q qs ih =>
    intro pool hok hreq
    have hq := hreq q (List.mem_cons_self _ _)
    have hqs : ∀ x ∈ qs, pool_request_ok x := fun x hx => hreq x (List.mem_cons_of_mem _ hx)
    have hstep : pool_serve pool q = none ∨
        ∃ p, pool_serve pool q = some (Result.ok p) ∧ pool_ok p := by
      cases q with
      | alloc gfp_mask allocs =>
        rcases mempool_alloc_pool_ok gfp_mask allocs pool hok with h | ⟨e, p, h, hp⟩
        · left; simp only [pool_serve, h]
        · right; exact ⟨p, by simp only [pool_serve, h], hp⟩
      | free element =>
        obtain ⟨p, freed, h, hp⟩ := mempool_free_pool_ok element pool hok
        right; exact ⟨p, by simp only [pool_serve, h], hp⟩
      | resize new_min_nr new_mem allocs =>
        obtain ⟨r, p, freed, h, hp⟩ := mempool_resize_ok pool new_min_nr new_mem allocs hok hq
        right; exact ⟨p, by simp only [pool_serve, h], hp⟩
    rcases hstep with h | ⟨p, h, hp⟩
    · left; simp only [pool_run, h]
    · have : pool_run pool (q :: qs) = pool_run p qs := by simp only [pool_run, h]
      rw [this]
      exact ih p hp hqs

/-! ## Claims on memory pools -/

theorem mempool_alloc_nowait (pool : mempool_t) (gfp_mask : Nat) (allocs : List Nat)
    (hok : pool_ok pool) (hw : gfp_mask &&& __GFP_WAIT = 0) :
    mempool_alloc pool gfp_mask allocs ≠ none := by
  obtain ⟨h1, h2, h3⟩ := mempool_alloc_round pool gfp_mask allocs hok
  by_cases he : allocs.headD 0 = 0
  · by_cases hc : pool.curr_nr = 0
    · rw [h3 he hc hw]; exact fun h => by cases h
    · obtain ⟨e, _, _, hr, _⟩ := h2 he (by have := hok.1; omega)
      rw [hr]; exact fun h => by cases h
  · rw [h1 he]; exact fun h => by cases h

theorem pool_serve_nowait (pool : mempool_t) (q : pool_request) (hok : pool_ok pool)
    (hq : pool_request_ok q) (hnw : pool_request_nowait q) :
    ∃ p, pool_serve pool q = some (Result.ok p) ∧ pool_ok p := by
  cases q with
  | alloc gfp_mask allocs =>
    rcases mempool_alloc_pool_ok gfp_mask allocs pool hok with h | ⟨e, p, h, hp⟩
    · exact absurd h (mempool_alloc_nowait pool gfp_mask allocs hok hnw)
    · exact ⟨p, by simp only [pool_serve, h], hp⟩
  | free element =>
    obtain ⟨p, freed, h, hp⟩ := mempool_free_pool_ok element pool hok
    exact ⟨p, by simp only [pool_serve, h], hp⟩
  | resize new_min_nr new_mem allocs =>
    obtain ⟨r, p, freed, h, hp⟩ := mempool_resize_ok pool new_min_nr new_mem allocs hok hq
    exact ⟨p, by simp only [pool_serve, h], hp⟩

theorem pool_run_returns (reqs : List pool_request) :
    ∀ pool, pool_ok pool → (∀ q ∈ reqs, pool_request_ok q) →
      (∀ q ∈ reqs, pool_request_nowait q) → pool_run pool reqs ≠ none := by
  induction reqs with
  | nil => intro pool _ _ _ h; cases h
  | cons q qs ih =>
    intro pool hok hreq hnw
    have hqs : ∀ x ∈ qs, pool_request_ok x := fun x hx => hreq x (List.mem_cons_of_mem _ hx)
    have hnws : ∀ x ∈ qs, pool_request_nowait x :=
      fun x hx => hnw x (List.mem_cons_of_mem _ hx)
    obtain ⟨p, hs, hp⟩ := pool_serve_nowait pool q hok (hreq q (List.mem_cons_self _ _))
      (hnw q (List.mem_cons_self _ _))
    have : pool_run pool (q :: qs) = pool_run p qs := by simp only [pool_run, hs]
    rw [this]
    exact ih p hp hqs hnws

/-- Claim C39.  On a well-formed pool `mempool_alloc` without `__GFP_WAIT` returns; it
returns NULL if and only if the call of `alloc_fn` returns NULL and `curr_nr`
is 0; an element returned by `alloc_fn` is returned and the pool is unchanged;
when `alloc_fn` fails and `curr_nr > 0` the result is `elements[curr_nr - 1]`
and `curr_nr` is one less; so `mempool_free` of `e` into a pool that is not
full followed by such an allocation returns `e`. -/
theorem mempool_alloc_nowait_result (pool : mempool_t) (gfp_mask : Nat) (allocs : List Nat)
    (hok : pool_ok pool) (hw : gfp_mask &&& __GFP_WAIT = 0) :
    (∃ element p, mempool_alloc pool gfp_mask allocs = some (Result.ok (element, p)) ∧
      (element = 0 ↔ allocs.headD 0 = 0 ∧ pool.curr_nr = 0) ∧
      (allocs.headD 0 ≠ 0 → element = allocs.headD 0 ∧ p = pool) ∧
      (allocs.headD 0 = 0 → 0 < pool.curr_nr →
        pool.elements[(pool.curr_nr - 1).toNat]? = some element ∧
        p = { pool with curr_nr := pool.curr_nr - 1 }) ∧
      (allocs.headD 0 = 0 → pool.curr_nr = 0 → p = pool)) ∧
    ∀ e, e ≠ 0 → pool.curr_nr < pool.min_nr → allocs.headD 0 = 0 →
      ∃ p1 p2, mempool_free e pool = Result.ok (p1, []) ∧
        mempool_alloc p1 gfp_mask allocs = some (Result.ok (e, p2)) ∧
        p2.curr_nr = pool.curr_nr ∧ p2.min_nr = pool.min_nr := by
  obtain ⟨h1, h2, h3⟩ := mempool_alloc_round pool gfp_mask allocs hok
  have hc0 := hok.1
  constructor
  · by_cases he : allocs.headD 0 = 0
    · by_cases hc : pool.curr_nr = 0
      · refine ⟨0, pool, h3 he hc hw, ⟨fun _ => ⟨he, hc⟩, fun _ => rfl⟩,
          fun h => absurd he h, fun _ hpos => by omega, fun _ _ => rfl⟩
      · obtain ⟨e, hne, hget, hr, _⟩ := h2 he (by omega)
        refine ⟨e, _, hr, ⟨fun h => absurd h hne, fun h => absurd h.2 hc⟩,
          fun h => absurd he h, fun _ _ => ⟨hget, rfl⟩, fun _ h => absurd h hc⟩
    · refine ⟨allocs.headD 0, pool, h1 he, ⟨fun h => absurd h he, fun h => absurd h.1 he⟩,
        fun _ => ⟨rfl, rfl⟩, fun h => absurd h he, fun h => absurd h he⟩
  · intro e hne hlt he
    obtain ⟨_, f1, _⟩ := mempool_free_ok e pool hok
    obtain ⟨hf, hok1⟩ := f1 hne hlt
    obtain ⟨_, g2, _⟩ := mempool_alloc_round _ gfp_mask allocs hok1
    obtain ⟨x, _, hget, hr, _⟩ := g2 he (by simp only; omega)
    simp only at hget hr
    have hx : x = e := by
      have hlen : pool.curr_nr.toNat < pool.elements.length := by
        have := hok.2.2.1; omega
      have hidx : (pool.curr_nr + 1 - 1).toNat = pool.curr_nr.toNat := by
        congr 1; omega
      rw [hidx, List.getElem?_set, if_pos rfl, if_pos hlen] at hget
      injection hget with hget
      exact hget.symm
    subst hx
    refine ⟨_, _, hf, hr, ?_, rfl⟩
    simp only
    omega

/-- Claim C39 (witness).  The pool `pool_4_holds_2`, an allocator that fails, and the
element 103 freed into the pool before. -/
theorem mempool_alloc_nowait_result_witness :
    pool_ok pool_4_holds_2 ∧ 0 &&& __GFP_WAIT = 0 ∧
    mempool_alloc pool_4_holds_2 0 [0] =
      some (Result.ok (102, { pool_4_holds_2 with curr_nr := 1 })) ∧
    mempool_free 103 pool_4_holds_2 = Result.ok (pool_4_holds_3, []) ∧
    mempool_alloc pool_4_holds_3 0 [0] =
      some (Result.ok (103, { pool_4_holds_3 with curr_nr := 2 })) ∧
    ((∃ element p, mempool_alloc pool_4_holds_2 0 [0] = some (Result.ok (element, p)) ∧
      (element = 0 ↔ [0].headD 0 = 0 ∧ pool_4_holds_2.curr_nr = 0) ∧
      ([0].headD 0 ≠ 0 → element = [0].headD 0 ∧ p = pool_4_holds_2) ∧
      ([0].headD 0 = 0 → 0 < pool_4_holds_2.curr_nr →
        pool_4_holds_2.elements[(pool_4_holds_2.curr_nr - 1).toNat]? = some element ∧
        p = { pool_4_holds_2 with curr_nr := pool_4_holds_2.curr_nr - 1 }) ∧
      ([0].headD 0 = 0 → pool_4_holds_2.curr_nr = 0 → p = pool_4_holds_2)) ∧
    ∀ e, e ≠ 0 → pool_4_holds_2.curr_nr < pool_4_holds_2.min_nr → [0].headD 0 = 0 →
      ∃ p1 p2, mempool_free e pool_4_holds_2 = Result.ok (p1, []) ∧
        mempool_alloc p1 0 [0] = some (Result.ok (e, p2)) ∧
        p2.curr_nr = pool_4_holds_2.curr_nr ∧ p2.min_nr = pool_4_holds_2.min_nr) :=
  ⟨by decide, by decide, by decide, by decide, by decide,
    mempool_alloc_nowait_result pool_4_holds_2 0 [0] (by decide) (by decide)⟩

/-! ## Permanent kernel mappings -/

theorem to_int_of_range (x : Int) (h1 : -2147483648 ≤ x) (h2 : x < 2147483648) :
    to_int x = x := by
  unfold to_int INT_BITS
  norm_num
  omega

theorem set_page_address_fields (st : kmap_state) (page virtual : Nat) (st' : kmap_state)
    (h : set_page_address st page virtual = Result.ok st') :
    st'.pkmap_count = st.pkmap_count ∧ st'.last_pkmap_nr = st.last_pkmap_nr ∧
    st'.pkmap_page_table = st.pkmap_page_table := by
  unfold set_page_address at h
  by_cases hv : virtual ≠ 0
  · rw [if_pos hv] at h
    by_cases hp : st.page_address_pool = 0
    · rw [if_pos hp] at h; cases h
    · rw [if_neg hp] at h
      injection h with h
      subst h
      exact ⟨rfl, rfl, rfl⟩
  · rw [if_neg hv] at h
    cases hu : page_address_unlink page st.page_address_htable with
    | none =>
      rw [hu] at h
      injection h with h
      subst h
      exact ⟨rfl, rfl, rfl⟩
    | some table =>
      rw [hu] at h
      injection h with h
      subst h
      exact ⟨rfl, rfl, rfl⟩

theorem set_page_address_null_ok (st : kmap_state) (page : Nat) :
    ∃ st', set_page_address st page 0 = Result.ok st' := by
  unfold set_page_address
  rw [if_neg (by simp)]
  cases page_address_unlink page st.page_address_htable with
  | none => exact ⟨_, rfl⟩
  | some table => exact ⟨_, rfl⟩

/-- One round of the loop of `flush_all_zero_pkmaps` on a slot whose count is
not 1. -/
theorem flush_loop_skip (n i : Nat) (st : kmap_state) (fl : Bool) (c : Int)
    (hc : st.pkmap_count[i]? = some c) (h1 : c ≠ 1) :
    flush_all_zero_pkmaps_loop (n + 1) i st fl = flush_all_zero_pkmaps_loop n (i + 1) st fl := by
  simp only [flush_all_zero_pkmaps_loop, hc]
  rw [if_pos h1]

/-- One round of the loop of `flush_all_zero_pkmaps` on a slot whose count is 1
and that returns. -/
theorem flush_loop_zero (n i : Nat) (st : kmap_state) (fl : Bool)
    (hc : st.pkmap_count[i]? = some 1) (r : kmap_state × Bool)
    (h : flush_all_zero_pkmaps_loop (n + 1) i st fl = Result.ok r) :
    ∃ st2, st2.pkmap_count = st.pkmap_count.set i 0 ∧
      st2.last_pkmap_nr = st.last_pkmap_nr ∧
      st2.pkmap_page_table = st.pkmap_page_table.set i none ∧
      flush_all_zero_pkmaps_loop n (i + 1) st2 true = Result.ok r := by
  simp only [flush_all_zero_pkmaps_loop, hc] at h
  rw [if_neg (by simp)] at h
  cases ht : st.pkmap_page_table[i]? with
  | none => rw [ht] at h; cases h
  | some e =>
    cases e with
    | none => rw [ht] at h; cases h
    | some page =>
      rw [ht] at h
      simp only at h
      cases hs : set_page_address { st with
          pkmap_count := st.pkmap_count.set i 0
          pkmap_page_table := st.pkmap_page_table.set i none } page 0 with
      | fault => rw [hs] at h; cases h
      | bug => rw [hs] at h; cases h
      | ok st2 =>
        rw [hs] at h
        obtain ⟨f1, f2, f3⟩ := set_page_address_fields _ _ _ _ hs
        exact ⟨st2, f1, f2, f3, h⟩

theorem flush_loop_spec (n : Nat) :
    ∀ (i : Nat) (st : kmap_state) (fl : Bool) (st' : kmap_state) (fl' : Bool),
      flush_all_zero_pkmaps_loop n i st fl = Result.ok (st', fl') →
      st'.last_pkmap_nr = st.last_pkmap_nr ∧
      (∀ j : Nat, st'.pkmap_count[j]? =
        if i ≤ j ∧ j < i + n ∧ st.pkmap_count[j]? = some 1 then some 0
        else st.pkmap_count[j]?) ∧
      (fl' = true ↔ fl = true ∨ ∃ j, i ≤ j ∧ j < i + n ∧ st.pkmap_count[j]? = some 1) := by
  induction n with
  | zero =>
    intro i st fl st' fl' h
    simp only [flush_all_zero_pkmaps_loop] at h
    injection h with h
    injection h with h1 h2
    subst h1 h2
    refine ⟨rfl, fun j => ?_, ?_⟩
    · rw [if_neg (by omega)]
    · constructor
      · exact fun h => Or.inl h
      · rintro (h | ⟨j, h1, h2, _⟩)
        · exact h
        · omega
  | succ n ih =>
    intro i st fl st' fl' h
    cases hc : st.pkmap_count[i]? with
    | none =>
      simp only [flush_all_zero_pkmaps_loop, hc] at h
      cases h
    | some c =>
      by_cases h1 : c = 1
      · subst h1
        obtain ⟨st2, f1, f2, _, h2⟩ := flush_loop_zero n i st fl hc _ h
        obtain ⟨g1, g2, g3⟩ := ih (i + 1) st2 true st' fl' h2
        have hlen : i < st.pkmap_count.length := by
          rcases List.getElem?_eq_some.mp hc with ⟨hl, _⟩
          exact hl
        have hset : ∀ j : Nat, st2.pkmap_count[j]? =
            if i = j then some 0 else st.pkmap_count[j]? := by
          intro j
          rw [f1, List.getElem?_set]
          by_cases hij : i = j
          · rw [if_pos hij, if_pos hij, if_pos hlen]
          · rw [if_neg hij, if_neg hij]
        refine ⟨by rw [g1, f2], fun j => ?_, ?_⟩
        · rw [g2 j, hset j]
          by_cases hij : i = j
          · subst hij
            rw [if_pos rfl, if_neg (by omega), if_pos ⟨Nat.le_refl _, by omega, hc⟩]
          · rw [if_neg hij]
            by_cases hj : st.pkmap_count[j]? = some 1
            · by_cases hr : i + 1 ≤ j ∧ j < i + 1 + n
              · rw [if_pos ⟨hr.1, hr.2, hj⟩, if_pos ⟨by omega, by omega, hj⟩]
              · rw [if_neg (fun hh => hr ⟨hh.1, hh.2.1⟩),
                  if_neg (fun hh => hr ⟨by omega, by omega⟩)]
            · rw [if_neg (fun hh => hj hh.2.2), if_neg (fun hh => hj hh.2.2)]
        · constructor
          · exact fun _ => Or.inr ⟨i, Nat.le_refl _, by omega, hc⟩
          · exact fun _ => g3.mpr (Or.inl rfl)
      · rw [flush_loop_skip n i st fl c hc h1] at h
        obtain ⟨g1, g2, g3⟩ := ih (i + 1) st fl st' fl' h
        refine ⟨g1, fun j => ?_, ?_⟩
        · rw [g2 j]
          by_cases hj : st.pkmap_count[j]? = some 1
          · have hij : i ≠ j := by
              intro hij
              subst hij
              rw [hc] at hj
              injection hj with hj
              exact h1 hj
            by_cases hr : i + 1 ≤ j ∧ j < i + 1 + n
            · rw [if_pos ⟨hr.1, hr.2, hj⟩, if_pos ⟨by omega, by omega, hj⟩]
            · rw [if_neg (fun hh => hr ⟨hh.1, hh.2.1⟩),
                if_neg (fun hh => hr ⟨by omega, by omega⟩)]
          · rw [if_neg (fun hh => hj hh.2.2), if_neg (fun hh => hj hh.2.2)]
        · rw [g3]
          constructor
          · rintro (h | ⟨j, j1, j2, j3⟩)
            · exact Or.inl h
            · exact Or.inr ⟨j, by omega, by omega, j3⟩
          · rintro (h | ⟨j, j1, j2, j3⟩)
            · exact Or.inl h
            · have hij : i ≠ j := by
                intro hij
                subst hij
                rw [hc] at j3
                injection j3 with j3
                exact h1 j3
              exact Or.inr ⟨j, by omega, by omega, j3⟩

theorem flush_loop_ok (n : Nat) :
    ∀ (i : Nat) (st : kmap_state) (fl : Bool), i + n ≤ st.pkmap_count.length →
      (∀ j : Nat, i ≤ j → j < i + n → st.pkmap_count[j]? = some 1 →
        ∃ page, st.pkmap_page_table[j]? = some (some page)) →
      ∃ st' fl', flush_all_zero_pkmaps_loop n i st fl = Result.ok (st', fl') := by
  induction n with
  | zero => intro i st fl _ _; exact ⟨st, fl, rfl⟩
  | succ n ih =>
    intro i st fl hlen htab
    have hi : i < st.pkmap_count.length := by omega
    have hc : st.pkmap_count[i]? = some st.pkmap_count[i] := List.getElem?_eq_getElem hi
    by_cases h1 : st.pkmap_count[i] = 1
    · rw [h1] at hc
      obtain ⟨page, hp⟩ := htab i (Nat.le_refl _) (by omega) hc
      obtain ⟨st2, hs⟩ := set_page_address_null_ok { st with
          pkmap_count := st.pkmap_count.set i 0
          pkmap_page_table := st.pkmap_page_table.set i none } page
      obtain ⟨f1, _, f3⟩ := set_page_address_fields _ _ _ _ hs
      simp only at f1 f3
      have hstep : flush_all_zero_pkmaps_loop (n + 1) i st fl =
          flush_all_zero_pkmaps_loop n (i + 1) st2 true := by
        simp only [flush_all_zero_pkmaps_loop, hc, hp]
        rw [if_neg (by simp)]
        simp only [hs]
      rw [hstep]
      apply ih
      · rw [f1, List.length_set]; omega
      · intro j j1 j2 j3
        rw [f1, List.getElem?_set, if_neg (by omega)] at j3
        obtain ⟨pg, hpg⟩ := htab j (by omega) (by omega) j3
        exact ⟨pg, by rw [f3, List.getElem?_set, if_neg (by omega)]; exact hpg⟩
    · rw [flush_loop_skip n i st fl _ hc h1]
      exact ih (i + 1) st fl (by omega) (fun j j1 j2 j3 => htab j (by omega) (by omega) j3)

theorem flush_all_zero_pkmaps_spec (LAST_PKMAP : Nat) (st st' : kmap_state) (flushed : Bool)
    (h : flush_all_zero_pkmaps LAST_PKMAP st = Result.ok (st', flushed)) :
    st'.last_pkmap_nr = st.last_pkmap_nr ∧
    (∀ i : Nat, st'.pkmap_count[i]? =
      if i < LAST_PKMAP ∧ st.pkmap_count[i]? = some 1 then some 0
      else st.pkmap_count[i]?) ∧
    (flushed = true ↔ ∃ i, i < LAST_PKMAP ∧ st.pkmap_count[i]? = some 1) := by
  obtain ⟨g1, g2, g3⟩ := flush_loop_spec LAST_PKMAP 0 st false st' flushed h
  refine ⟨g1, fun i => ?_, ?_⟩
  · rw [g2 i]
    by_cases hc : i < LAST_PKMAP ∧ st.pkmap_count[i]? = some 1
    · rw [if_pos ⟨Nat.zero_le _, by omega, hc.2⟩, if_pos hc]
    · rw [if_neg (fun hh => hc ⟨by omega, hh.2.2⟩), if_neg hc]
  · rw [g3]
    constructor
    · rintro (h | ⟨j, _, j2, j3⟩)
      · cases h
      · exact ⟨j, by omega, j3⟩
    · rintro ⟨j, j2, j3⟩
      exact Or.inr ⟨j, Nat.zero_le _, by omega, j3⟩

theorem flush_all_zero_pkmaps_ok (LAST_PKMAP : Nat) (st : kmap_state)
    (h : pkmap_ready LAST_PKMAP st) :
    ∃ st' flushed, flush_all_zero_pkmaps LAST_PKMAP st = Result.ok (st', flushed) :=
  flush_loop_ok LAST_PKMAP 0 st false (by have := h.1; omega)
    (fun j _ j2 j3 => h.2 j (by omega) j3)

theorem counts_flushed_of_flush (LAST_PKMAP : Nat) (st st' : kmap_state) (flushed : Bool)
    (h : flush_all_zero_pkmaps LAST_PKMAP st = Result.ok (st', flushed)) :
    counts_flushed st.pkmap_count st'.pkmap_count flushed := by
  obtain ⟨_, g2, g3⟩ := flush_all_zero_pkmaps_spec LAST_PKMAP st st' flushed h
  intro i
  rw [g2 i]
  by_cases hc : i < LAST_PKMAP ∧ st.pkmap_count[i]? = some 1
  · rw [if_pos hc]
    exact Or.inr ⟨hc.2, rfl, g3.mpr ⟨i, hc⟩⟩
  · rw [if_neg hc]
    exact Or.inl rfl

theorem counts_flushed_refl (a : List Int) (f : Bool) : counts_flushed a a f :=
  fun _ => Or.inl rfl

theorem counts_flushed_trans (a b c : List Int) (f g : Bool)
    (h1 : counts_flushed a b f) (h2 : counts_flushed b c g) (hfg : f = true → g = true) :
    counts_flushed a c g := by
  intro i
  rcases h1 i with e1 | ⟨a1, b0, hf⟩
  · rcases h2 i with e2 | ⟨b1, c0, hg⟩
    · exact Or.inl (by rw [e2, e1])
    · exact Or.inr ⟨by rw [← e1]; exact b1, c0, hg⟩
  · rcases h2 i with e2 | ⟨b1, _, _⟩
    · exact Or.inr ⟨a1, by rw [e2]; exact b0, hfg hf⟩
    · rw [b0] at b1
      injection b1 with b1
      cases b1

theorem no_zero_of_counts_flushed (a b : List Int) (f : Bool) (h : counts_flushed a b f) :
    no_zero_without_flush a b f := by
  intro i c hc hne hz
  rcases h i with e | ⟨a1, _, hf⟩
  · rw [e, hc] at hz
    injection hz with hz
    exact absurd hz hne
  · rw [hc] at a1
    injection a1 with a1
    exact ⟨a1, hf⟩

/-! ## The scan of `map_new_virtual` -/

/-- One round of the scan of `map_new_virtual`: it ends the scan, or the scan
goes on from the next cursor position with the counter one less, and counted
anew after a wrap of the cursor. -/
theorem scan_round (L fuel : Nat) (st : kmap_state) (count : Int) (fl : Bool) :
    (∃ r, map_new_virtual_scan L (fuel + 1) st count fl = some r ∧
      ∀ st1 found fl1, r = Result.ok (st1, found, fl1) →
        counts_flushed st.pkmap_count st1.pkmap_count fl1 ∧ (fl = true → fl1 = true) ∧
        (found = true → st1.pkmap_count[st1.last_pkmap_nr]? = some 0)) ∨
    (∃ stm flm, map_new_virtual_scan L (fuel + 1) st count fl =
        map_new_virtual_scan L fuel stm
          (to_int ((if (st.last_pkmap_nr + 1) &&& (L - 1) = 0 then (L : Int) else count) - 1))
          flm ∧
      stm.last_pkmap_nr = (st.last_pkmap_nr + 1) &&& (L - 1) ∧
      to_int ((if (st.last_pkmap_nr + 1) &&& (L - 1) = 0 then (L : Int) else count) - 1) ≠ 0 ∧
      counts_flushed st.pkmap_count stm.pkmap_count flm ∧ (fl = true → flm = true)) := by
  rw [map_new_virtual_scan]
  by_cases h0 : (st.last_pkmap_nr + 1) &&& (L - 1) = 0
  · simp only [h0]
    rw [if_pos trivial, if_pos trivial]
    cases hf : flush_all_zero_pkmaps L { st with last_pkmap_nr := 0 } with
    | fault => exact Or.inl ⟨_, rfl, fun _ _ _ h => by cases h⟩
    | bug => exact Or.inl ⟨_, rfl, fun _ _ _ h => by cases h⟩
    | ok p =>
      obtain ⟨stm, nf⟩ := p
      have hR : counts_flushed st.pkmap_count stm.pkmap_count (fl || nf) :=
        counts_flushed_trans _ _ _ nf _
          (counts_flushed_of_flush L { st with last_pkmap_nr := 0 } stm nf hf)
          (counts_flushed_refl _ _) (fun h => by rw [h, Bool.or_true])
      have hfl : fl = true → (fl || nf) = true := fun h => by rw [h, Bool.true_or]
      have hcur : stm.last_pkmap_nr = 0 :=
        (flush_all_zero_pkmaps_spec L { st with last_pkmap_nr := 0 } stm nf hf).1
      simp only
      cases hc : stm.pkmap_count[stm.last_pkmap_nr]? with
      | none => exact Or.inl ⟨_, rfl, fun _ _ _ h => by cases h⟩
      | some c =>
        simp only
        by_cases hc0 : c = 0
        · rw [if_pos hc0]
          refine Or.inl ⟨_, rfl, ?_⟩
          intro st1 found fl1 h
          injection h with h
          injection h with h1 h2
          injection h2 with h2 h3
          subst h1 h3
          exact ⟨hR, hfl, fun _ => by rw [hc, hc0]⟩
        · rw [if_neg hc0]
          by_cases hn : to_int ((L : Int) - 1) ≠ 0
          · rw [if_pos hn]
            exact Or.inr ⟨stm, fl || nf, rfl, hcur, hn, hR, hfl⟩
          · rw [if_neg hn]
            refine Or.inl ⟨_, rfl, ?_⟩
            intro st1 found fl1 h
            injection h with h
            injection h with h1 h2
            injection h2 with h2 h3
            subst h1 h3
            exact ⟨hR, hfl, fun hh => by rw [← h2] at hh; cases hh⟩
  · simp only [h0]
    rw [if_neg not_false, if_neg not_false]
    simp only
    cases hc : st.pkmap_count[(st.last_pkmap_nr + 1) &&& (L - 1)]? with
    | none => exact Or.inl ⟨_, rfl, fun _ _ _ h => by cases h⟩
    | some c =>
      simp only
      by_cases hc0 : c = 0
      · rw [if_pos hc0]
        refine Or.inl ⟨_, rfl, ?_⟩
        intro st1 found fl1 h
        injection h with h
        injection h with h1 h2
        injection h2 with h2 h3
        subst h1 h3
        exact ⟨counts_flushed_refl _ _, fun h => h, fun _ => by rw [hc, hc0]⟩
      · rw [if_neg hc0]
        by_cases hn : to_int (count - 1) ≠ 0
        · rw [if_pos hn]
          exact Or.inr ⟨_, fl, rfl, rfl, hn, counts_flushed_refl _ _, fun h => h⟩
        · rw [if_neg hn]
          refine Or.inl ⟨_, rfl, ?_⟩
          intro st1 found fl1 h
          injection h with h
          injection h with h1 h2
          injection h2 with h2 h3
          subst h1 h3
          exact ⟨counts_flushed_refl _ _, fun h => h, fun hh => by rw [← h2] at hh; cases hh⟩

theorem map_new_virtual_scan_spec (L fuel : Nat) :
    ∀ (st : kmap_state) (count : Int) (fl : Bool) (st1 : kmap_state) (found fl1 : Bool),
      map_new_virtual_scan L fuel st count fl = some (Result.ok (st1, found, fl1)) →
      counts_flushed st.pkmap_count st1.pkmap_count fl1 ∧ (fl = true → fl1 = true) ∧
      (found = true → st1.pkmap_count[st1.last_pkmap_nr]? = some 0) := by
  induction fuel with
  | zero =>
    intro st count fl st1 found fl1 h
    simp only [map_new_virtual_scan] at h
    cases h
  | succ fuel ih =>
    intro st count fl st1 found fl1 h
    rcases scan_round L fuel st count fl with ⟨r, hr, hp⟩ | ⟨stm, flm, hr, _, _, hR, hfl⟩
    · rw [hr] at h
      injection h with h
      exact hp st1 found fl1 h
    · rw [hr] at h
      obtain ⟨g1, g2, g3⟩ := ih stm _ flm st1 found fl1 h
      exact ⟨counts_flushed_trans _ _ _ flm _ hR g1 g2, fun hh => g2 (hfl hh), g3⟩

/-! ## The scan of `map_new_virtual` ends -/

/-- After a wrap of the cursor the counter of the scan and the cursor add up to
`LAST_PKMAP - 1`, so the counter reaches 0 before the cursor wraps again. -/
theorem scan_ends_after_wrap (L k : Nat) (hLk : L = 2 ^ k) (hL : L ≤ 2 ^ 30) (fuel : Nat) :
    ∀ (st : kmap_state) (count : Int) (fl : Bool),
      count + (st.last_pkmap_nr : Int) + 1 = (L : Int) → 1 ≤ count → count ≤ (fuel : Int) →
      map_new_virtual_scan L fuel st count fl ≠ none := by
  induction fuel with
  | zero => intro st count fl _ h1 h2; simp only [Nat.cast_zero] at h2; omega
  | succ fuel ih =>
    intro st count fl hcount h1 hfuel
    rcases scan_round L fuel st count fl with ⟨r, hr, _⟩ | ⟨stm, flm, hr, hcur, hn, _, _⟩
    · rw [hr]; exact fun h => by cases h
    · rw [hr]
      have hmod : (st.last_pkmap_nr + 1) &&& (L - 1) = st.last_pkmap_nr + 1 := by
        rw [hLk, Nat.and_pow_two_sub_one_eq_mod, ← hLk]
        exact Nat.mod_eq_of_lt (by omega)
      rw [hmod] at hcur hn ⊢
      have hne : ¬ st.last_pkmap_nr + 1 = 0 := by omega
      rw [if_neg hne] at hn ⊢
      have hto : to_int (count - 1) = count - 1 :=
        to_int_of_range _ (by omega) (by omega)
      rw [hto] at hn ⊢
      apply ih
      · rw [hcur]; push_cast; omega
      · omega
      · push_cast at hfuel; omega

/-- Before the first wrap the cursor moves up by one in every round. -/
theorem scan_ends (L k : Nat) (hLk : L = 2 ^ k) (hL : L ≤ 2 ^ 30) (fuel : Nat) :
    ∀ (st : kmap_state) (count : Int) (fl : Bool),
      (L + 1 + (if (st.last_pkmap_nr + 1) % L = 0 then 0
        else L - (st.last_pkmap_nr + 1) % L) ≤ fuel) →
      map_new_virtual_scan L fuel st count fl ≠ none := by
  have hL0 : 0 < L := by rw [hLk]; exact Nat.pow_pos (by decide)
  induction fuel with
  | zero => intro st count fl h; omega
  | succ fuel ih =>
    intro st count fl hfuel
    rcases scan_round L fuel st count fl with ⟨r, hr, _⟩ | ⟨stm, flm, hr, hcur, hn, _, _⟩
    · rw [hr]; exact fun h => by cases h
    · rw [hr]
      have hand : (st.last_pkmap_nr + 1) &&& (L - 1) = (st.last_pkmap_nr + 1) % L := by
        rw [hLk, Nat.and_pow_two_sub_one_eq_mod]
      rw [hand] at hcur hn ⊢
      have hlt : (st.last_pkmap_nr + 1) % L < L := Nat.mod_lt _ hL0
      by_cases h0 : (st.last_pkmap_nr + 1) % L = 0
      · rw [if_pos h0] at hn hfuel ⊢
        have hto : to_int ((L : Int) - 1) = (L : Int) - 1 :=
          to_int_of_range _ (by omega) (by omega)
        rw [hto] at hn ⊢
        apply scan_ends_after_wrap L k hLk hL
        · rw [hcur, h0]; push_cast; omega
        · omega
        · omega
      · rw [if_neg h0] at hfuel
        apply ih
        rw [hcur]
        by_cases hw : (st.last_pkmap_nr + 1) % L + 1 = L
        · rw [hw, Nat.mod_self, if_pos rfl]
          omega
        · rw [Nat.mod_eq_of_lt (by omega), if_neg (by omega)]
          omega

theorem map_new_virtual_returns (sizeof_long k PKMAP_BASE PAGE_SHIFT : Nat) (hk : k ≤ 30)
    (st : kmap_state) (page : Nat) :
    map_new_virtual sizeof_long (2 ^ k) PKMAP_BASE PAGE_SHIFT st page ≠ none := by
  have hL0 : 0 < (2 : Nat) ^ k := Nat.pow_pos (by decide)
  have hscan := scan_ends (2 ^ k) k rfl (Nat.pow_le_pow_right (by decide) hk)
      (2 * 2 ^ k + 1) st ((2 ^ k : Nat) : Int) false (by
    have hlt : (st.last_pkmap_nr + 1) % 2 ^ k < 2 ^ k := Nat.mod_lt _ hL0
    by_cases h0 : (st.last_pkmap_nr + 1) % 2 ^ k = 0
    · rw [if_pos h0]; omega
    · rw [if_neg h0]; omega)
  unfold map_new_virtual
  cases hs : map_new_virtual_scan (2 ^ k) (2 * 2 ^ k + 1) st ((2 ^ k : Nat) : Int) false with
  | none => exact absurd hs hscan
  | some r =>
    cases r with
    | fault => exact fun h => by cases h
    | bug => exact fun h => by cases h
    | ok p =>
      obtain ⟨st1, found, fl1⟩ := p
      cases found with
      | false => exact fun h => by cases h
      | true =>
        simp only
        split
        · split <;> exact fun h => by cases h
        · exact fun h => by cases h

theorem kmap_high_returns (sizeof_long k PKMAP_BASE PAGE_SHIFT : Nat) (hk : k ≤ 30)
    (st : kmap_state) (page : Nat) :
    kmap_high sizeof_long (2 ^ k) PKMAP_BASE PAGE_SHIFT st page ≠ none := by
  have hm := map_new_virtual_returns sizeof_long k PKMAP_BASE PAGE_SHIFT hk st page
  unfold kmap_high
  simp only
  split
  · split
    · exact fun h => by cases h
    · split <;> exact fun h => by cases h
  · rename_i other hother
    intro h
    rw [h] at hother
    by_cases hp : page_address st page ≠ 0
    · rw [if_pos hp] at h
      cases h
    · rw [if_neg hp] at h
      exact hm h

/-! ## `map_new_virtual`, `kmap_high` and `kunmap_high` -/

theorem no_zero_of_set (a b : List Int) (f : Bool) (nr : Nat) (v : Int) (hv : v ≠ 0)
    (h : no_zero_without_flush a b f) : no_zero_without_flush a (b.set nr v) f := by
  intro i c hc hne hz
  rw [List.getElem?_set] at hz
  by_cases hi : nr = i
  · rw [if_pos hi] at hz
    by_cases hl : nr < b.length
    · rw [if_pos hl] at hz
      injection hz with hz
      exact absurd hz hv
    · rw [if_neg hl] at hz
      cases hz
  · rw [if_neg hi] at hz
    exact h i c hc hne hz

theorem map_new_virtual_spec (sizeof_long LAST_PKMAP PKMAP_BASE PAGE_SHIFT : Nat)
    (st : kmap_state) (page : Nat) (o : map_outcome) (st' : kmap_state) (flushed : Bool)
    (h : map_new_virtual sizeof_long LAST_PKMAP PKMAP_BASE PAGE_SHIFT st page =
      some (Result.ok (o, st', flushed))) :
    ∃ st1 found, map_new_virtual_scan LAST_PKMAP (2 * LAST_PKMAP + 1) st LAST_PKMAP false =
        some (Result.ok (st1, found, flushed)) ∧
      counts_flushed st.pkmap_count st1.pkmap_count flushed ∧
      (found = false → o = map_outcome.sleep ∧ st' = st1) ∧
      (found = true → st1.pkmap_count[st1.last_pkmap_nr]? = some 0 ∧
        o = map_outcome.mapped
          (PKMAP_ADDR sizeof_long PKMAP_BASE PAGE_SHIFT st1.last_pkmap_nr) ∧
        st'.pkmap_count = st1.pkmap_count.set st1.last_pkmap_nr 1 ∧
        st'.last_pkmap_nr = st1.last_pkmap_nr) := by
  unfold map_new_virtual at h
  cases hs : map_new_virtual_scan LAST_PKMAP (2 * LAST_PKMAP + 1) st LAST_PKMAP false with
  | none => rw [hs] at h; cases h
  | some r =>
    rw [hs] at h
    cases r with
    | fault => cases h
    | bug => cases h
    | ok p =>
      obtain ⟨st1, found, fl1⟩ := p
      obtain ⟨g1, _, g3⟩ := map_new_virtual_scan_spec LAST_PKMAP _ st _ false st1 found fl1 hs
      cases found with
      | false =>
        simp only at h
        injection h with h
        injection h with h
        injection h with h1 h2
        injection h2 with h2 h3
        subst h1 h2 h3
        exact ⟨_, false, rfl, g1, fun _ => ⟨rfl, rfl⟩, fun hh => by cases hh⟩
      | true =>
        simp only at h
        by_cases hlen : st1.last_pkmap_nr < st1.pkmap_page_table.length ∧
            st1.last_pkmap_nr < st1.pkmap_count.length
        · rw [if_pos hlen] at h
          cases hsp : set_page_address { st1 with
              pkmap_page_table := st1.pkmap_page_table.set st1.last_pkmap_nr (some page)
              pkmap_count := st1.pkmap_count.set st1.last_pkmap_nr 1 } page
              (PKMAP_ADDR sizeof_long PKMAP_BASE PAGE_SHIFT st1.last_pkmap_nr) with
          | fault => rw [hsp] at h; cases h
          | bug => rw [hsp] at h; cases h
          | ok st2 =>
            rw [hsp] at h
            obtain ⟨f1, f2, _⟩ := set_page_address_fields _ _ _ _ hsp
            simp only at h
            injection h with h
            injection h with h
            injection h with h1 h2
            injection h2 with h2 h3
            subst h1 h2 h3
            exact ⟨st1, true, rfl, g1, (fun hh => by cases hh),
              fun _ => ⟨g3 rfl, rfl, f1, f2⟩⟩
        · rw [if_neg hlen] at h
          cases h

theorem map_new_virtual_no_zero (sizeof_long LAST_PKMAP PKMAP_BASE PAGE_SHIFT : Nat)
    (st : kmap_state) (page : Nat) (o : map_outcome) (st' : kmap_state) (flushed : Bool)
    (h : map_new_virtual sizeof_long LAST_PKMAP PKMAP_BASE PAGE_SHIFT st page =
      some (Result.ok (o, st', flushed))) :
    no_zero_without_flush st.pkmap_count st'.pkmap_count flushed := by
  obtain ⟨st1, found, _, hR, hf, ht⟩ :=
    map_new_virtual_spec sizeof_long LAST_PKMAP PKMAP_BASE PAGE_SHIFT st page o st' flushed h
  cases found with
  | false =>
    rw [(hf rfl).2]
    exact no_zero_of_counts_flushed _ _ _ hR
  | true =>
    rw [(ht rfl).2.2.1]
    exact no_zero_of_set _ _ _ _ 1 (by decide) (no_zero_of_counts_flushed _ _ _ hR)

theorem no_zero_refl (a : List Int) (f : Bool) : no_zero_without_flush a a f :=
  no_zero_of_counts_flushed _ _ _ (counts_flushed_refl a f)

/-- The last step of `kmap_high`, the increment of the count of the slot of
`vaddr`, when it returns. -/
theorem kmap_high_spec (sizeof_long LAST_PKMAP PKMAP_BASE PAGE_SHIFT : Nat)
    (st : kmap_state) (page : Nat) (o : map_outcome) (st' : kmap_state) (flushed : Bool)
    (h : kmap_high sizeof_long LAST_PKMAP PKMAP_BASE PAGE_SHIFT st page =
      some (Result.ok (o, st', flushed))) :
    no_zero_without_flush st.pkmap_count st'.pkmap_count flushed ∧
    ∀ vaddr, o = map_outcome.mapped vaddr →
      ∃ c, st'.pkmap_count[PKMAP_NR sizeof_long PKMAP_BASE PAGE_SHIFT vaddr]? = some c ∧
        2 ≤ c := by
  unfold kmap_high at h
  have hr : ∀ o1 st1 fl1,
      (if page_address st page ≠ 0 then
        some (Result.ok (map_outcome.mapped (page_address st page), st, false))
      else map_new_virtual sizeof_long LAST_PKMAP PKMAP_BASE PAGE_SHIFT st page) =
        some (Result.ok (o1, st1, fl1)) →
      no_zero_without_flush st.pkmap_count st1.pkmap_count fl1 := by
    intro o1 st1 fl1 hh
    by_cases hp : page_address st page ≠ 0
    · rw [if_pos hp] at hh
      injection hh with hh
      injection hh with hh
      injection hh with h1 h2
      injection h2 with h2 h3
      subst h2
      exact no_zero_refl _ _
    · rw [if_neg hp] at hh
      exact map_new_virtual_no_zero _ _ _ _ _ _ _ _ _ hh
  generalize (if page_address st page ≠ 0 then
        some (Result.ok (map_outcome.mapped (page_address st page), st, false))
      else map_new_virtual sizeof_long LAST_PKMAP PKMAP_BASE PAGE_SHIFT st page) = r at h hr
  simp only at h
  split at h
  · rename_i vaddr st1 fl1
    have hnz := hr _ _ _ rfl
    cases hc : st1.pkmap_count[PKMAP_NR sizeof_long PKMAP_BASE PAGE_SHIFT vaddr]? with
    | none => rw [hc] at h; cases h
    | some c =>
      rw [hc] at h
      simp only at h
      by_cases h2 : to_int (c + 1) < 2
      · rw [if_pos h2] at h; cases h
      · rw [if_neg h2] at h
        injection h with h
        injection h with h
        injection h with h1 h3
        injection h3 with h3 h4
        subst h1 h3 h4
        have hlen : PKMAP_NR sizeof_long PKMAP_BASE PAGE_SHIFT vaddr < st1.pkmap_count.length := by
          rcases List.getElem?_eq_some.mp hc with ⟨hl, _⟩
          exact hl
        refine ⟨no_zero_of_set _ _ _ _ _ (by omega) hnz, ?_⟩
        intro v hv
        injection hv with hv
        subst hv
        refine ⟨to_int (c + 1), ?_, by omega⟩
        simp only
        rw [List.getElem?_set, if_pos rfl, if_pos hlen]
  · rename_i hother
    subst h
    refine ⟨hr _ _ _ rfl, ?_⟩
    intro vaddr hv
    subst hv
    exact absurd rfl (hother vaddr st' flushed)

theorem kunmap_high_spec (sizeof_long PKMAP_BASE PAGE_SHIFT : Nat) (st : kmap_state)
    (page : Nat) (c : Int) (hv : page_address st page ≠ 0)
    (hc : st.pkmap_count[PKMAP_NR sizeof_long PKMAP_BASE PAGE_SHIFT (page_address st page)]? =
      some c)
    (h1 : -2147483648 < c) (h2 : c ≤ 2147483647) :
    (c = 1 → kunmap_high sizeof_long PKMAP_BASE PAGE_SHIFT st page = Result.bug) ∧
    (c ≠ 1 → kunmap_high sizeof_long PKMAP_BASE PAGE_SHIFT st page =
      Result.ok { st with pkmap_count := (st.pkmap_count.set
        (PKMAP_NR sizeof_long PKMAP_BASE PAGE_SHIFT (page_address st page)) (c - 1)) }) := by
  have hto : to_int (c - 1) = c - 1 := to_int_of_range _ (by omega) (by omega)
  unfold kunmap_high
  simp only
  rw [if_neg hv, hc]
  simp only
  rw [hto]
  constructor
  · intro h
    rw [if_pos (by omega)]
  · intro h
    rw [if_neg (by omega)]

theorem kunmap_high_no_zero (sizeof_long PKMAP_BASE PAGE_SHIFT : Nat) (st : kmap_state)
    (page : Nat) (st' : kmap_state)
    (h : kunmap_high sizeof_long PKMAP_BASE PAGE_SHIFT st page = Result.ok st') :
    no_zero_without_flush st.pkmap_count st'.pkmap_count false := by
  unfold kunmap_high at h
  simp only at h
  by_cases hv : page_address st page = 0
  · rw [if_pos hv] at h; cases h
  · rw [if_neg hv] at h
    cases hc : st.pkmap_count[PKMAP_NR sizeof_long PKMAP_BASE PAGE_SHIFT
        (page_address st page)]? with
    | none => rw [hc] at h; cases h
    | some c =>
      rw [hc] at h
      simp only at h
      by_cases h0 : to_int (c - 1) = 0
      · rw [if_pos h0] at h; cases h
      · rw [if_neg h0] at h
        injection h with h
        subst h
        exact no_zero_of_set _ _ _ _ _ h0 (no_zero_refl _ _)

/-! ## Claim on the counts of the mapping slots -/

/-- Claim C40.  A pkmap count never goes down to zero without a TLB flush.  A
`kmap_high` that returns an address leaves the count of its slot at 2 or more;
`kunmap_high` decrements the count of the slot of the page and is fatal when
the result would be 0; `flush_all_zero_pkmaps` returns on a state whose slots
with count 1 have a page table entry, sets exactly the slots with count 1 to 0
and flushes the TLB exactly when there is such a slot; `map_new_virtual` claims
only a slot whose count is 0 when it is claimed and sets it to 1; and in every
`kmap_high`, `kunmap_high` and `map_new_virtual` that returns, a slot that goes
from a nonzero count to 0 had count 1 and the TLB was flushed.  With
`LAST_PKMAP` a power of two the scan of `map_new_virtual` ends. -/
theorem pkmap_count_zero_only_by_flush (sizeof_long LAST_PKMAP PKMAP_BASE PAGE_SHIFT : Nat)
    (st : kmap_state) (page : Nat) :
    (∀ o st' flushed, kmap_high sizeof_long LAST_PKMAP PKMAP_BASE PAGE_SHIFT st page =
        some (Result.ok (o, st', flushed)) →
      no_zero_without_flush st.pkmap_count st'.pkmap_count flushed ∧
      ∀ vaddr, o = map_outcome.mapped vaddr →
        ∃ c, st'.pkmap_count[PKMAP_NR sizeof_long PKMAP_BASE PAGE_SHIFT vaddr]? = some c ∧
          2 ≤ c) ∧
    (∀ c, page_address st page ≠ 0 →
      st.pkmap_count[PKMAP_NR sizeof_long PKMAP_BASE PAGE_SHIFT (page_address st page)]? =
        some c →
      -2147483648 < c → c ≤ 2147483647 →
      (c = 1 → kunmap_high sizeof_long PKMAP_BASE PAGE_SHIFT st page = Result.bug) ∧
      (c ≠ 1 → kunmap_high sizeof_long PKMAP_BASE PAGE_SHIFT st page =
        Result.ok { st with pkmap_count := (st.pkmap_count.set
          (PKMAP_NR sizeof_long PKMAP_BASE PAGE_SHIFT (page_address st page)) (c - 1)) })) ∧
    (∀ st', kunmap_high sizeof_long PKMAP_BASE PAGE_SHIFT st page = Result.ok st' →
      no_zero_without_flush st.pkmap_count st'.pkmap_count false) ∧
    (pkmap_ready LAST_PKMAP st →
      ∃ st' flushed, flush_all_zero_pkmaps LAST_PKMAP st = Result.ok (st', flushed)) ∧
    (∀ st' flushed, flush_all_zero_pkmaps LAST_PKMAP st = Result.ok (st', flushed) →
      (∀ i : Nat, st'.pkmap_count[i]? =
        if i < LAST_PKMAP ∧ st.pkmap_count[i]? = some 1 then some 0
        else st.pkmap_count[i]?) ∧
      (flushed = true ↔ ∃ i, i < LAST_PKMAP ∧ st.pkmap_count[i]? = some 1)) ∧
    (∀ o st' flushed, map_new_virtual sizeof_long LAST_PKMAP PKMAP_BASE PAGE_SHIFT st page =
        some (Result.ok (o, st', flushed)) →
      no_zero_without_flush st.pkmap_count st'.pkmap_count flushed ∧
      ∃ st1 found, map_new_virtual_scan LAST_PKMAP (2 * LAST_PKMAP + 1) st LAST_PKMAP false =
          some (Result.ok (st1, found, flushed)) ∧
        counts_flushed st.pkmap_count st1.pkmap_count flushed ∧
        (found = false → o = map_outcome.sleep ∧ st' = st1) ∧
        (found = true → st1.pkmap_count[st1.last_pkmap_nr]? = some 0 ∧
          o = map_outcome.mapped
            (PKMAP_ADDR sizeof_long PKMAP_BASE PAGE_SHIFT st1.last_pkmap_nr) ∧
          st'.pkmap_count = st1.pkmap_count.set st1.last_pkmap_nr 1 ∧
          st'.last_pkmap_nr = st1.last_pkmap_nr)) ∧
    (∀ k, k ≤ 30 → LAST_PKMAP = 2 ^ k →
      map_new_virtual sizeof_long LAST_PKMAP PKMAP_BASE PAGE_SHIFT st page ≠ none ∧
      kmap_high sizeof_long LAST_PKMAP PKMAP_BASE PAGE_SHIFT st page ≠ none) := by
  refine ⟨?_, ?_, ?_, ?_, ?_, ?_, ?_⟩
  · intro o st' flushed h
    exact kmap_high_spec sizeof_long LAST_PKMAP PKMAP_BASE PAGE_SHIFT st page o st' flushed h
  · intro c hv hc h1 h2
    exact kunmap_high_spec sizeof_long PKMAP_BASE PAGE_SHIFT st page c hv hc h1 h2
  · intro st' h
    exact kunmap_high_no_zero sizeof_long PKMAP_BASE PAGE_SHIFT st page st' h
  · exact flush_all_zero_pkmaps_ok LAST_PKMAP st
  · intro st' flushed h
    exact (flush_all_zero_pkmaps_spec LAST_PKMAP st st' flushed h).2
  · intro o st' flushed h
    exact ⟨map_new_virtual_no_zero _ _ _ _ _ _ _ _ _ h,
      map_new_virtual_spec _ _ _ _ _ _ _ _ _ h⟩
  · intro k hk hL
    subst hL
    exact ⟨map_new_virtual_returns sizeof_long k PKMAP_BASE PAGE_SHIFT hk st page,
      kmap_high_returns sizeof_long k PKMAP_BASE PAGE_SHIFT hk st page⟩

/-- Claim C40 (witness).  Four slots with the counts 2, 1, 1, 3 on a 32-bit machine.
`kmap_high` of a page without a mapping wraps the cursor, flushes the slots 1
and 2 to count 0, claims slot 1 and leaves it with count 2; `kunmap_high` of
the page of slot 3 leaves count 2 there and `kunmap_high` of the page of slot 1,
whose count is 1, is fatal. -/
theorem pkmap_count_zero_only_by_flush_witness :
    kmap_high 4 4 0xff800000 12 kmap_4_slots 20 =
      some (Result.ok (map_outcome.mapped 0xff801000, kmap_4_slots_page_20, true)) ∧
    flush_all_zero_pkmaps 4 kmap_4_slots =
      Result.ok ({ kmap_4_slots with
        pkmap_count := [2, 0, 0, 3]
        pkmap_page_table := [some 10, none, none, some 13]
        page_address_htable := [(10, 0xff800000), (13, 0xff803000)]
        page_address_pool := 6 }, true) ∧
    kunmap_high 4 0xff800000 12 kmap_4_slots 13 =
      Result.ok { kmap_4_slots with pkmap_count := [2, 1, 1, 2] } ∧
    kunmap_high 4 0xff800000 12 kmap_4_slots 11 = Result.bug ∧
    no_zero_without_flush kmap_4_slots.pkmap_count kmap_4_slots_page_20.pkmap_count true ∧
    (∃ c, kmap_4_slots_page_20.pkmap_count[PKMAP_NR 4 0xff800000 12 0xff801000]? = some c ∧
      2 ≤ c) :=
  ⟨by decide, by decide, by decide, by decide,
    ((pkmap_count_zero_only_by_flush 4 4 0xff800000 12 kmap_4_slots 20).1
      (map_outcome.mapped 0xff801000) kmap_4_slots_page_20 true (by decide)).1,
    ((pkmap_count_zero_only_by_flush 4 4 0xff800000 12 kmap_4_slots 20).1
      (map_outcome.mapped 0xff801000) kmap_4_slots_page_20 true (by decide)).2 _ rfl⟩

end Bootmem
